import Mathlib

/-!
# libGP: a verification development

A shallow embedding of the tree, registry and evolutionary-operator code of the
libGP genetic-programming library, with theorems about it.

Modelling conventions

* The C++ free store is a `Heap`: a list of `GPTreeNode` cells, a pointer is the
  index of a cell and the null pointer is `none`.  `new` appends a cell, so the
  address of a fresh node is the old length of the heap.  `delete` is not
  modelled (no property below depends on storage being reclaimed).
* A function whose C++ original dereferences a null, dangling or out-of-bounds
  pointer, fails an `assert`, divides by zero or loops forever returns `none`.
  Loops and recursions carry a fuel that is chosen so large that it can only
  run out when the original would not terminate.
* `int` values that take part in subtractions are `Int`; array indices and node
  counts that are never negative are `Nat`.  No count in this library can come
  near the 32-bit limit before memory is exhausted, so overflow is not modelled.
* `rand()` is a stream `rnd : Nat → Nat` of non-negative draws together with the
  position `pos` of the next draw.
-/

namespace GP

/-! ## gpdefines.h -/

/-- Maximum number of parameters of a registered function. -/
def GP_MAX_PARAMETERS : Nat := 3

/-- Maximum number of functions which may be registered. -/
def GP_MAX_FUNCTIONS : Nat := 30

/-- The type id that stands for "no type". -/
def GP_INVALID_PARAMTYPE : Int := 0

/-! ## gptree.h: nodes, the heap and trees -/

/-- A tree node: its function id, its three parameter links and its parent link. -/
structure GPTreeNode where
  functionID : Int
  p0 : Option Nat
  p1 : Option Nat
  p2 : Option Nat
  parent : Option Nat
deriving DecidableEq, Repr

/-- The free store: cell `a` is the node at address `a`. -/
abbrev Heap := List GPTreeNode

/-- The node built by `new GPTreeNode( function )`: no children, no parent. -/
def GPTreeNode.mk0 (function : Int) : GPTreeNode :=
  ⟨function, none, none, none, none⟩

/-- The link `parameters[ i ]`; an index outside the array reads as null here and
is rejected by `setParameter`. -/
def GPTreeNode.parameters (n : GPTreeNode) : Nat → Option Nat
  | 0 => n.p0
  | 1 => n.p1
  | 2 => n.p2
  | _ => none

/-- The node after `parameters[ i ] = v`; `none` when `i` is outside the array. -/
def GPTreeNode.setParameter (n : GPTreeNode) (i : Nat) (v : Option Nat) : Option GPTreeNode :=
  match i with
  | 0 => some { n with p0 := v }
  | 1 => some { n with p1 := v }
  | 2 => some { n with p2 := v }
  | _ => none

/-- The heap after `a->parameters[ i ] = v`. -/
def setParam (h : Heap) (a i : Nat) (v : Option Nat) : Option Heap :=
  match h[a]? with
  | none => none
  | some n =>
    match n.setParameter i v with
    | none => none
    | some n1 => some (h.set a n1)

/-- The heap after `a->parent = v`. -/
def setParent (h : Heap) (a : Nat) (v : Option Nat) : Option Heap :=
  match h[a]? with
  | none => none
  | some n => some (h.set a { n with parent := v })

/-- The class `GPTree`: the budget, the cached node count and the root. -/
structure GPTree where
  m_max_nodes : Int
  m_count : Int
  m_root : Option Nat
deriving DecidableEq, Repr

/-- The constructor `GPTree( int max_nodes )`. -/
def GPTree.new (max_nodes : Int) : GPTree := ⟨max_nodes, 0, none⟩

/-- `GPTree::Root`. -/
def GPTree.Root (t : GPTree) : Option Nat := t.m_root

/-- `GPTree::Count`: the cached count. -/
def GPTree.Count (t : GPTree) : Int := t.m_count

/-- `GPTree::MaxNodes`. -/
def GPTree.MaxNodes (t : GPTree) : Int := t.m_max_nodes

/-! ### CountSubtree -/

/-- One round of the loop of `CountSubtree`: the contribution of one parameter
link, given the function `rec` used for the recursive call. -/
def countParam (rec : Nat → Option Nat) : Option Nat → Option Nat
  | none => some 0
  | some c => rec c

/-- `GPTree::CountSubtree` with a bound on the recursion depth. -/
def CountSubtreeAux (h : Heap) : Nat → Nat → Option Nat
  | 0, _ => none
  | fuel + 1, node =>
    match h[node]? with
    | none => none
    | some n =>
      match countParam (CountSubtreeAux h fuel) n.p0 with
      | none => none
      | some r0 =>
        match countParam (CountSubtreeAux h fuel) n.p1 with
        | none => none
        | some r1 =>
          match countParam (CountSubtreeAux h fuel) n.p2 with
          | none => none
          | some r2 => some (1 + r0 + r1 + r2)

/-- `GPTree::CountSubtree( node )`.  A chain of child links without a cycle is
shorter than the heap, so the depth bound only cuts off runs that never end. -/
def CountSubtree (h : Heap) (node : Nat) : Option Nat :=
  CountSubtreeAux h h.length node

/-! ### Duplicate -/

/-- One round of the loop of `Duplicate( sourceTree )`: parameter `i` of the
source is copied below `newNode`. -/
def dupParam (rec : Heap → Nat → Option (Heap × Nat)) (src newNode i : Nat) (h : Heap) :
    Option Heap :=
  match h[src]? with
  | none => none
  | some s =>
    match s.parameters i with
    | none => setParam h newNode i none
    | some c =>
      match rec h c with
      | none => none
      | some (h1, d) =>
        match setParam h1 newNode i (some d) with
        | none => none
        | some h2 => setParent h2 d (some newNode)

/-- `GPTree::Duplicate( const GPTreeNode* )` with a bound on the recursion depth. -/
def DuplicateAux : Nat → Heap → Nat → Option (Heap × Nat)
  | 0, _, _ => none
  | fuel + 1, h, src =>
    match h[src]? with
    | none => none
    | some s =>
      let newNode := h.length
      let h0 := h ++ [GPTreeNode.mk0 s.functionID]
      match dupParam (DuplicateAux fuel) src newNode 0 h0 with
      | none => none
      | some h1 =>
        match dupParam (DuplicateAux fuel) src newNode 1 h1 with
        | none => none
        | some h2 =>
          match dupParam (DuplicateAux fuel) src newNode 2 h2 with
          | none => none
          | some h3 => some (h3, newNode)

/-- `GPTree::Duplicate( const GPTreeNode* sourceTree )`: the new heap and the
address of the copy. -/
def Duplicate (h : Heap) (sourceTree : Nat) : Option (Heap × Nat) :=
  DuplicateAux h.length h sourceTree

/-- The copy constructor `GPTree( const GPTree* other )`, which is what
`GPTree::Duplicate()` returns.  The root is dereferenced without a null test. -/
def GPTree.Duplicate (h : Heap) (other : GPTree) : Option (Heap × GPTree) :=
  match other.m_root with
  | none => none
  | some r =>
    match GP.Duplicate h r with
    | none => none
    | some (h1, d) => some (h1, ⟨other.m_max_nodes, other.m_count, some d⟩)

/-! ### FlattenSubtree -/

/-- The loop state of `FlattenSubtree`. -/
structure FlattenState where
  out : List (Option Nat)
  working : List (Option Nat)
  read_working_index : Nat
  write_working_index : Nat
  write_out_index : Nat
deriving DecidableEq, Repr

/-- The body of the inner loop of `FlattenSubtree` for one parameter link. -/
def flattenPush (num_nodes : Nat) (s : List (Option Nat) × Nat) :
    Option Nat → List (Option Nat) × Nat
  | none => s
  | some c => (s.1.set s.2 (some c), (s.2 + 1) % num_nodes)

/-- The `while` loop of `FlattenSubtree`.  An array cell that was never written
holds `none`; following it is an error, as is writing `out` past its end. -/
def flattenLoop (h : Heap) (num_nodes : Nat) : Nat → FlattenState → Option (List (Option Nat))
  | 0, _ => none
  | fuel + 1, s =>
    if s.write_working_index ≠ s.read_working_index then
      if s.write_out_index < num_nodes then
        match (s.working[s.read_working_index]?).join with
        | none => none
        | some p =>
          match h[p]? with
          | none => none
          | some n =>
            let w0 := flattenPush num_nodes (s.working, s.write_working_index) n.p0
            let w1 := flattenPush num_nodes w0 n.p1
            let w2 := flattenPush num_nodes w1 n.p2
            flattenLoop h num_nodes fuel
              { out := s.out.set s.write_out_index (some p)
                working := w2.1
                read_working_index := (s.read_working_index + 1) % num_nodes
                write_working_index := w2.2
                write_out_index := s.write_out_index + 1 }
      else none
    else some s.out

/-- `GPTree::FlattenSubtree( GPTreeNode* node )`: the array `out`, of length
`CountSubtree( node )`.  Each round of the loop advances `write_out_index`, so
`num_nodes + 1` rounds are more than the array can take. -/
def FlattenSubtree (h : Heap) (node : Nat) : Option (List (Option Nat)) :=
  match CountSubtree h node with
  | none => none
  | some num_nodes =>
    flattenLoop h num_nodes (num_nodes + 1)
      { out := (List.replicate num_nodes none).set 0 (some node)
        working := (List.replicate num_nodes none).set 0 (some node)
        read_working_index := 0
        write_working_index := 1 % num_nodes
        write_out_index := 0 }

/-- `GPTree::Flatten`: the flattened tree below the root. -/
def GPTree.Flatten (h : Heap) (t : GPTree) : Option (List (Option Nat)) :=
  match t.m_root with
  | none => none
  | some r => FlattenSubtree h r

/-! ### Replace -/

/-- The loop `for( parent = source_node; parent != NULL && parent != m_root; parent = parent->parent )`
of `Replace`: the value of `parent` when it stops. -/
def parentWalk (h : Heap) (m_root : Option Nat) : Nat → Option Nat → Option (Option Nat)
  | 0, _ => none
  | fuel + 1, parent =>
    match parent with
    | none => some none
    | some a =>
      if some a = m_root then some (some a)
      else
        match h[a]? with
        | none => none
        | some n => parentWalk h m_root fuel n.parent

/-- The loop of `Replace` that repoints the first parameter link of `q` that is
`source_node` to `new_subtree`. -/
def replaceSlot (h : Heap) (q source_node new_subtree : Nat) : Option Heap :=
  match h[q]? with
  | none => none
  | some n =>
    if n.p0 = some source_node then setParam h q 0 (some new_subtree)
    else if n.p1 = some source_node then setParam h q 1 (some new_subtree)
    else if n.p2 = some source_node then setParam h q 2 (some new_subtree)
    else some h

/-- `GPTree::Replace( source_node, new_subtree )`: the returned pointer, the tree
object and the heap afterwards. -/
def GPTree.Replace (h : Heap) (t : GPTree) (source_node : Option Nat) (new_subtree : Nat) :
    Option (Option Nat × GPTree × Heap) :=
  match CountSubtree h new_subtree with
  | none => none
  | some new_subtree_size =>
    match source_node with
    | none =>
      if (new_subtree_size : Int) > t.MaxNodes then some (some new_subtree, t, h)
      else some (t.m_root, { t with m_root := some new_subtree, m_count := new_subtree_size }, h)
    | some src =>
      match CountSubtree h src with
      | none => none
      | some existing_subtree_size =>
        match parentWalk h t.m_root (h.length + 1) (some src) with
        | none => none
        | some none => some (some new_subtree, t, h)
        | some (some _) =>
          if t.Count - (existing_subtree_size : Int) + (new_subtree_size : Int) > t.MaxNodes then
            some (some new_subtree, t, h)
          else
            match h[src]? with
            | none => none
            | some sn =>
              let step : Option (Option Nat × Heap) :=
                match sn.parent with
                | some q =>
                  match setParent h new_subtree (some q) with
                  | none => none
                  | some h1 =>
                    match replaceSlot h1 q src new_subtree with
                    | none => none
                    | some h2 => some (t.m_root, h2)
                | none => some (some new_subtree, h)
              match step with
              | none => none
              | some (none, _) => none
              | some (some r, h2) =>
                match CountSubtree h2 r with
                | none => none
                | some c => some (some src, { t with m_root := some r, m_count := c }, h2)

/-! ## gpfunctionlookup.h / gpfunctionlookup.cpp: the registry -/

/-- The id that stands for "no function" (`GPFunctionLookup::NULLFUNC`). -/
def NULLFUNC : Int := -1

/-- A function descriptor, without the erased callable.  `m_nparams` is only ever
assigned 0, 1, 2 or 3; the parameter types that the function does not use read as
`GP_INVALID_PARAMTYPE`. -/
structure GPFunctionDesc where
  m_nparams : Nat
  m_return_type : Int
  m_param_types : List Int
  m_original_function_id : Int
  m_debug_name : String
deriving DecidableEq, Repr

/-- The descriptor built by the default constructor `GPFunctionDescType()`. -/
def GPFunctionDesc.default : GPFunctionDesc :=
  ⟨0, GP_INVALID_PARAMTYPE, [], -1, ""⟩

/-- The entry `m_param_types[ j ]`. -/
def GPFunctionDesc.paramType (d : GPFunctionDesc) (j : Nat) : Int :=
  d.m_param_types.getD j GP_INVALID_PARAMTYPE

/-- The registry: the descriptors registered so far, in order.  `m_nFuncs` is the
length of the list; the array cells behind it hold default descriptors. -/
structure GPFunctionLookup where
  m_functions : List GPFunctionDesc
deriving DecidableEq, Repr

/-- The member `m_nFuncs` (`GetNumFunctions`). -/
def GPFunctionLookup.m_nFuncs (fl : GPFunctionLookup) : Nat := fl.m_functions.length

/-- `GetFunctionByID( id )`, the unchecked array access `m_functions[ id ]` into an
array of `GP_MAX_FUNCTIONS * 2` cells. -/
def GPFunctionLookup.GetFunctionByID (fl : GPFunctionLookup) (id : Int) : Option GPFunctionDesc :=
  if 0 ≤ id ∧ id < ((GP_MAX_FUNCTIONS * 2 : Nat) : Int) then
    some (fl.m_functions.getD id.toNat GPFunctionDesc.default)
  else none

/-- The length of the array `m_debug_name` of a descriptor. -/
def GP_DEBUGNAME_LEN : Nat := 32

/-- What `strncpy( finfo.m_debug_name, name, GP_DEBUGNAME_LEN )` leaves in the array
`m_debug_name`: the first `GP_DEBUGNAME_LEN` characters of the name.  A name
shorter than that is stored whole, with null characters behind it; a stored
name of `GP_DEBUGNAME_LEN` characters fills the array and has no terminating
null character. -/
def storedName (name : String) : String := String.mk (name.data.take GP_DEBUGNAME_LEN)

/-- `RegisterFunction( name, myFunc )` for a function with return type id
`return_type`, whose suspended-computation type `GPDelayedEvaluation< R >` has the
type id `delayed_return_type`, and with the parameter type ids `param_types` (at
most three): the delayed descriptor is stored first, the descriptor of the
function itself behind it, and the id of the latter is returned.  Both hold the
name as `strncpy` stored it. -/
def GPFunctionLookup.RegisterFunction (fl : GPFunctionLookup) (name : String)
    (return_type delayed_return_type : Int) (param_types : List Int) :
    GPFunctionLookup × Int :=
  let finfo : GPFunctionDesc :=
    ⟨param_types.length, return_type, param_types, -1, storedName name⟩
  let delayedfinfo : GPFunctionDesc :=
    { finfo with
      m_return_type := delayed_return_type
      m_original_function_id := (fl.m_nFuncs : Int) + 1 }
  (⟨fl.m_functions ++ [delayedfinfo, finfo]⟩, (fl.m_nFuncs : Int) + 1)

/-- The `do ... while` loop of `GetNextFuncWithReturnType`, started with
`current`; the result is the value returned after the loop. -/
def nextFuncLoop (fl : GPFunctionLookup) (return_type_id previous : Int) : Nat → Int → Option Int
  | 0, _ => none
  | fuel + 1, current =>
    let current1 := Int.tmod (current + 1) (fl.m_nFuncs : Int)
    if previous ≠ current1 then
      match fl.GetFunctionByID current1 with
      | none => none
      | some d =>
        if d.m_return_type ≠ return_type_id then
          nextFuncLoop fl return_type_id previous fuel current1
        else some current1
    else some NULLFUNC

/-- `GetNextFuncWithReturnType( return_type_id, previous )`.  After `m_nFuncs`
rounds every id has been looked at, so more rounds mean the loop never ends. -/
def GPFunctionLookup.GetNextFuncWithReturnType (fl : GPFunctionLookup)
    (return_type_id previous : Int) : Option Int :=
  if fl.m_nFuncs = 0 then none
  else nextFuncLoop fl return_type_id previous (fl.m_nFuncs + 1) previous

/-- `GetRandomFuncWithReturnType( return_type_id )`: the id found and the position
of the next random draw. -/
def GPFunctionLookup.GetRandomFuncWithReturnType (fl : GPFunctionLookup) (return_type_id : Int)
    (rnd : Nat → Nat) (pos : Nat) : Option (Int × Nat) :=
  if fl.m_nFuncs = 0 then none
  else
    let startFunc : Int := ((rnd pos % fl.m_nFuncs : Nat) : Int)
    match fl.GetNextFuncWithReturnType return_type_id startFunc with
    | none => none
    | some foundFunc =>
      match fl.GetFunctionByID startFunc with
      | none => none
      | some d =>
        if foundFunc = NULLFUNC ∧ d.m_return_type = return_type_id then some (startFunc, pos + 1)
        else some (foundFunc, pos + 1)

/-! ## gpenvironment.cpp: construction of random trees -/

/-- The `do ... while` loop of `FindFunctionWithMaxPayload`. -/
def findLoop (fl : GPFunctionLookup) (return_type : Int) (maxPayload : Int) (start : Int) :
    Nat → Int → Option Int
  | 0, _ => none
  | fuel + 1, current =>
    match fl.GetFunctionByID current with
    | none => none
    | some currentDesc =>
      if (currentDesc.m_nparams : Int) ≤ maxPayload then some current
      else
        match fl.GetNextFuncWithReturnType return_type current with
        | none => none
        | some next =>
          if next ≠ start then findLoop fl return_type maxPayload start fuel next
          else some NULLFUNC

/-- `FindFunctionWithMaxPayload( functions, return_type, maxPayload )`: the id found
and the position of the next random draw. -/
def FindFunctionWithMaxPayload (functions : GPFunctionLookup) (return_type : Int)
    (maxPayload : Int) (rnd : Nat → Nat) (pos : Nat) : Option (Int × Nat) :=
  match functions.GetRandomFuncWithReturnType return_type rnd pos with
  | none => none
  | some (start, pos1) =>
    if start = NULLFUNC then some (NULLFUNC, pos1)
    else
      match findLoop functions return_type maxPayload start (functions.m_nFuncs + 1) start with
      | none => none
      | some r => some (r, pos1)

/-- The inner loop of `Stitch`: the rounds `j, j + 1, ..., m_nparams - 1` for the
node `flattened[ i ]`; `n` counts the rounds that are left. -/
def stitchParams (flattened : List (Option Nat)) (node : Nat) :
    Nat → Nat → Heap → Nat → Option (Heap × Nat)
  | 0, _, h, parameters_index => some (h, parameters_index)
  | n + 1, j, h, parameters_index =>
    match (flattened[parameters_index]?).join with
    | none => none
    | some c =>
      match setParent h c (some node) with
      | none => none
      | some h1 =>
        match setParam h1 node j (some c) with
        | none => none
        | some h2 => stitchParams flattened node n (j + 1) h2 (parameters_index + 1)

/-- The outer loop of `Stitch`: the rounds `i, i + 1, ...`; `n` counts the rounds
that are left. -/
def stitchLoop (functions : GPFunctionLookup) (flattened : List (Option Nat)) :
    Nat → Nat → Heap → Nat → Option Heap
  | 0, _, h, _ => some h
  | n + 1, i, h, parameters_index =>
    match (flattened[i]?).join with
    | none => none
    | some a =>
      match h[a]? with
      | none => none
      | some nd =>
        if nd.functionID ≠ NULLFUNC then
          match functions.GetFunctionByID nd.functionID with
          | none => none
          | some function_desc =>
            match stitchParams flattened a function_desc.m_nparams 0 h parameters_index with
            | none => none
            | some (h1, parameters_index1) =>
              stitchLoop functions flattened n (i + 1) h1 parameters_index1
        else stitchLoop functions flattened n (i + 1) h parameters_index

/-- `GPTree::Stitch( functions, flattened, num_flattened_nodes, max_nodes )`: the
heap afterwards and the returned pointer `flattened[ 0 ]`. -/
def Stitch (functions : GPFunctionLookup) (h : Heap) (flattened : List (Option Nat))
    (num_flattened_nodes : Nat) (_max_nodes : Int) : Option (Heap × Option Nat) :=
  match stitchLoop functions flattened num_flattened_nodes 0 h 1 with
  | none => none
  | some h1 =>
    match flattened[0]? with
    | none => none
    | some r => some (h1, r)

/-- The loop state of `CreateRandomTree`. -/
structure CreateState where
  heap : Heap
  flattened_tree : List (Option Nat)
  nodes_used : Nat
  parameter_write_idx : Nat
  reserved_nodes : Int
  pos : Nat

/-- The `for` loop of `CreateRandomTree` over the parameters of one function:
the rounds `j, j + 1, ...`; `n` counts the rounds that are left. -/
def createParams (functions : GPFunctionLookup) (function_desc : GPFunctionDesc)
    (max_nodes : Int) (rnd : Nat → Nat) : Nat → Nat → CreateState → Option CreateState
  | 0, _, s => some s
  | n + 1, j, s =>
    let reserved_nodes := s.reserved_nodes - 1
    let nodes_used := s.nodes_used + 1
    let nodesRemaining : Int := max_nodes - (nodes_used : Int) - reserved_nodes
    match FindFunctionWithMaxPayload functions (function_desc.paramType j) nodesRemaining rnd s.pos with
    | none => none
    | some (parameterFuncID, pos1) =>
      if parameterFuncID = NULLFUNC then none
      else if s.parameter_write_idx < s.flattened_tree.length then
        match functions.GetFunctionByID parameterFuncID with
        | none => none
        | some parameterFuncDesc =>
          createParams functions function_desc max_nodes rnd n (j + 1)
            { heap := s.heap ++ [GPTreeNode.mk0 parameterFuncID]
              flattened_tree := s.flattened_tree.set s.parameter_write_idx (some s.heap.length)
              nodes_used := nodes_used
              parameter_write_idx := s.parameter_write_idx + 1
              reserved_nodes := reserved_nodes + (parameterFuncDesc.m_nparams : Int)
              pos := pos1 }
      else none

/-- The `while` loop of `CreateRandomTree`. -/
def createLoop (functions : GPFunctionLookup) (max_nodes : Int) (rnd : Nat → Nat) :
    Nat → Nat → CreateState → Option CreateState
  | 0, _, _ => none
  | fuel + 1, process_function_idx, s =>
    if process_function_idx < s.nodes_used then
      match (s.flattened_tree[process_function_idx]?).join with
      | none => none
      | some a =>
        match s.heap[a]? with
        | none => none
        | some nd =>
          if nd.functionID ≠ NULLFUNC then
            match functions.GetFunctionByID nd.functionID with
            | none => none
            | some function_desc =>
              match createParams functions function_desc max_nodes rnd
                  function_desc.m_nparams 0 s with
              | none => none
              | some s1 => createLoop functions max_nodes rnd fuel (process_function_idx + 1) s1
          else createLoop functions max_nodes rnd fuel (process_function_idx + 1) s
    else some s

/-- `CreateRandomTree( functions, return_type, nodes_used, max_nodes )`: the
returned pointer, the value left in `nodes_used`, the heap and the position of
the next random draw.  Every round of the `while` loop processes one cell of
the array of `max_nodes` cells, so `max_nodes + 1` rounds cannot all succeed. -/
def CreateRandomTree (functions : GPFunctionLookup) (return_type : Int) (max_nodes : Int)
    (rnd : Nat → Nat) (pos : Nat) (h : Heap) : Option (Option Nat × Nat × Heap × Nat) :=
  if max_nodes < 1 then none
  else
    match FindFunctionWithMaxPayload functions return_type (max_nodes - 1) rnd pos with
    | none => none
    | some (f0, pos1) =>
      match functions.GetFunctionByID f0 with
      | none => none
      | some first_function_desc =>
        match createLoop functions max_nodes rnd (max_nodes.toNat + 1) 0
            { heap := h ++ [GPTreeNode.mk0 f0]
              flattened_tree := (List.replicate max_nodes.toNat none).set 0 (some h.length)
              nodes_used := 1
              parameter_write_idx := 1
              reserved_nodes := (first_function_desc.m_nparams : Int)
              pos := pos1 } with
        | none => none
        | some s =>
          match Stitch functions s.heap s.flattened_tree s.parameter_write_idx max_nodes with
          | none => none
          | some (h1, newsubtree) => some (newsubtree, s.nodes_used, h1, s.pos)

end GP

namespace GP

/-! ## Specification vocabulary: the tree that a pointer denotes -/

/-- The tree of cells below a pointer: `null` for the null pointer, otherwise the
address of the node, its function id and the trees below its three parameter
links. -/
inductive Subtree where
  | null : Subtree
  | node (addr : Nat) (functionID : Int) (c0 c1 c2 : Subtree) : Subtree
deriving DecidableEq, Repr

/-- The pointer to the root of the tree. -/
def Subtree.root : Subtree → Option Nat
  | .null => none
  | .node a _ _ _ _ => some a

/-- The number of nodes. -/
def Subtree.size : Subtree → Nat
  | .null => 0
  | .node _ _ c0 c1 c2 => 1 + c0.size + c1.size + c2.size

/-- The number of nodes on the longest path from the root downwards. -/
def Subtree.height : Subtree → Nat
  | .null => 0
  | .node _ _ c0 c1 c2 => 1 + max c0.height (max c1.height c2.height)

/-- The addresses of the nodes, root first. -/
def Subtree.addrs : Subtree → List Nat
  | .null => []
  | .node a _ c0 c1 c2 => a :: (c0.addrs ++ c1.addrs ++ c2.addrs)

/-- The tree without its addresses: function ids and shape only. -/
def Subtree.shape : Subtree → Subtree
  | .null => .null
  | .node _ f c0 c1 c2 => .node 0 f c0.shape c1.shape c2.shape

/-- The heap `h` holds the tree `t` and the parent link of its root is `par`:
every node of `t` is a cell of `h` with that function id, with the roots of its
three subtrees as parameter links, and with its parent as parent link. -/
def Rep (h : Heap) : Option Nat → Subtree → Prop
  | _, .null => True
  | par, .node a f c0 c1 c2 =>
    h[a]? = some ⟨f, c0.root, c1.root, c2.root, par⟩ ∧
      Rep h (some a) c0 ∧ Rep h (some a) c1 ∧ Rep h (some a) c2

/-- `Rep` can be computed. -/
instance Rep.instDecidable (h : Heap) : (par : Option Nat) → (t : Subtree) → Decidable (Rep h par t)
  | _, .null => isTrue trivial
  | par, .node a f c0 c1 c2 =>
    have := Rep.instDecidable h (some a) c0
    have := Rep.instDecidable h (some a) c1
    have := Rep.instDecidable h (some a) c2
    by unfold Rep; exact inferInstance

/-- The heap holds `t` as a proper tree: no cell is used twice. -/
def IsTree (h : Heap) (par : Option Nat) (t : Subtree) : Prop :=
  Rep h par t ∧ t.addrs.Nodup

instance (h : Heap) (par : Option Nat) (t : Subtree) : Decidable (IsTree h par t) := by
  unfold IsTree; exact inferInstance

/-- The parent link stored in cell `a` (null when there is no such cell). -/
def parentOf (h : Heap) (a : Nat) : Option Nat :=
  match h[a]? with
  | none => none
  | some n => n.parent

/-- The subtree of `t` whose root is the cell `x` (`null` when `x` is not a node
of `t`). -/
def Subtree.find : Subtree → Nat → Subtree
  | .null, _ => .null
  | .node a f c0 c1 c2, x =>
    if a = x then .node a f c0 c1 c2
    else if x ∈ c0.addrs then c0.find x
    else if x ∈ c1.addrs then c1.find x
    else c2.find x

/-- The tree `t` with the subtree rooted at the cell `x` replaced by `s`. -/
def Subtree.subst : Subtree → Nat → Subtree → Subtree
  | .null, _, _ => .null
  | .node a f c0 c1 c2, x, s =>
    if a = x then s else .node a f (c0.subst x s) (c1.subst x s) (c2.subst x s)

/-- Following parent links from the cell `a` zero or more times leads to the
cell `b`. -/
inductive ParentChain (h : Heap) : Nat → Nat → Prop where
  | here (a : Nat) : ParentChain h a a
  | up {a q b : Nat} : parentOf h a = some q → ParentChain h q b → ParentChain h a b

/-- The source node lies within the structure of the tree object, in the sense
that `Replace` tests: its parent links lead to the root. -/
def ReachesRoot (h : Heap) (t : GPTree) (source_node : Nat) : Prop :=
  ∃ r, t.m_root = some r ∧ ParentChain h source_node r

/-- The number of nodes below a pointer, `0` for the null pointer. -/
def actualCount (h : Heap) : Option Nat → Option Nat
  | none => some 0
  | some a => CountSubtree h a

/-- The tree object `T` owns the proper tree `t`: `t` hangs below the root pointer,
the root has no parent, the cached count is the number of nodes and is within
the budget. -/
def TreeInv (h : Heap) (T : GPTree) (t : Subtree) : Prop :=
  IsTree h none t ∧ t.root = T.m_root ∧ T.m_count = (t.size : Int) ∧ T.m_count ≤ T.m_max_nodes

/-- A link after every link to `src` has been repointed to `new`. -/
def swapLink (src new : Nat) (p : Option Nat) : Option Nat :=
  if p = some src then some new else p

/-- A node after each of its parameter links to `src` has been repointed to
`new`. -/
def swapNode (src new : Nat) (n : GPTreeNode) : GPTreeNode :=
  ⟨n.functionID, swapLink src new n.p0, swapLink src new n.p1, swapLink src new n.p2, n.parent⟩

/-! ### Breadth-first order -/

/-- Whether the tree is not `null`. -/
def Subtree.isNode : Subtree → Bool
  | .null => false
  | .node _ _ _ _ _ => true

/-- The trees below the three parameter links of the root. -/
def Subtree.children : Subtree → List Subtree
  | .null => []
  | .node _ _ c0 c1 c2 => [c0, c1, c2]

/-- The function id at the root (`NULLFUNC` for `null`). -/
def Subtree.fid : Subtree → Int
  | .null => -1
  | .node _ f _ _ _ => f

/-- All subtrees of the tree that are not `null`, root first. -/
def Subtree.subtrees : Subtree → List Subtree
  | .null => []
  | .node a f c0 c1 c2 => .node a f c0 c1 c2 :: (c0.subtrees ++ c1.subtrees ++ c2.subtrees)

/-- The trees of a forest that are not `null`. -/
def nonNull (Q : List Subtree) : List Subtree := Q.filter Subtree.isNode

/-- The next level of a forest: the children of its trees, from left to right. -/
def childrenF (Q : List Subtree) : List Subtree := Q.flatMap Subtree.children

/-- The subtrees of a forest level by level, for the first `H` levels: the roots
from left to right, then the same for the forest of their children. -/
def loT : Nat → List Subtree → List Subtree
  | 0, _ => []
  | H + 1, Q => nonNull Q ++ loT H (childrenF Q)

/-- The addresses of the roots of the trees of a list. -/
def rootsOf (Q : List Subtree) : List Nat := Q.filterMap Subtree.root

/-- The subtrees of a tree in breadth-first order: level by level, each level
from left to right. -/
def Subtree.levelOrderT (t : Subtree) : List Subtree := loT t.height [t]

/-- The addresses of the nodes of a tree in breadth-first order. -/
def Subtree.levelOrder (t : Subtree) : List Nat := rootsOf t.levelOrderT

/-- The function ids of the nodes of a tree in breadth-first order. -/
def Subtree.levelOrderIds (t : Subtree) : List Int := t.levelOrderT.map Subtree.fid

/-- The function id and the three parameter links of a node. -/
def GPTreeNode.links (n : GPTreeNode) : Int × Option Nat × Option Nat × Option Nat :=
  (n.functionID, n.p0, n.p1, n.p2)

/-- The heap holds the tree `t` as far as function ids and parameter links go;
the parent links are left open. -/
def RepC (h : Heap) : Subtree → Prop
  | .null => True
  | .node a f c0 c1 c2 =>
    (h[a]?).map GPTreeNode.links = some (f, c0.root, c1.root, c2.root) ∧
      RepC h c0 ∧ RepC h c1 ∧ RepC h c2

/-- `RepC` can be computed. -/
instance RepC.instDecidable (h : Heap) : (t : Subtree) → Decidable (RepC h t)
  | .null => isTrue trivial
  | .node a _ c0 c1 c2 =>
    have := RepC.instDecidable h c0
    have := RepC.instDecidable h c1
    have := RepC.instDecidable h c2
    by unfold RepC; exact inferInstance

/-- The parameter links of a node that are not null, in parameter order. -/
def GPTreeNode.kids (n : GPTreeNode) : List Nat :=
  [n.p0, n.p1, n.p2].filterMap id

/-- The state of the loop of `FlattenSubtree` when the nodes `P` have been moved to
`out` and the forest `Q` is still queued in the working buffer of `N` cells. -/
structure FlattenInv (h : Heap) (N : Nat) (P : List Nat) (Q : List Subtree)
    (s : FlattenState) : Prop where
  out_len : s.out.length = N
  work_len : s.working.length = N
  wo : s.write_out_index = P.length
  rd : s.read_working_index = P.length % N
  wr : s.write_working_index = (P.length + (nonNull Q).length) % N
  total : P.length + (Q.map Subtree.size).sum = N
  work : ∃ junk, s.working = (P ++ rootsOf Q).map some ++ junk
  out : ∃ junk, s.out = ((P ++ rootsOf Q).take (max P.length 1)).map some ++ junk
  first : P.length = 0 → (nonNull Q).length = 1
  rep : ∀ t ∈ Q, RepC h t

/-! ### Well-formed trees and `Stitch` -/

/-- The number of parameters that `Stitch` gives a node with function id `f`:
none for `NULLFUNC`, otherwise `m_nparams` of the descriptor. -/
def arityOf (fl : GPFunctionLookup) (f : Int) : Option Nat :=
  if f = NULLFUNC then some 0 else (fl.GetFunctionByID f).map (fun d => d.m_nparams)

/-- Exactly the parameter slots `0 .. n - 1` hold a child. -/
def slotsFilled (n : Nat) (c0 c1 c2 : Subtree) : Prop :=
  n ≤ 3 ∧ c0.isNode = decide (0 < n) ∧ c1.isNode = decide (1 < n) ∧ c2.isNode = decide (2 < n)

instance (n : Nat) (c0 c1 c2 : Subtree) : Decidable (slotsFilled n c0 c1 c2) := by
  unfold slotsFilled; exact inferInstance

/-- Every node has exactly as many children as its function has parameters, in
the slots `0 .. arity - 1`. -/
def ArityOK (fl : GPFunctionLookup) : Subtree → Prop
  | .null => True
  | .node _ f c0 c1 c2 =>
    (match arityOf fl f with
      | none => False
      | some n => slotsFilled n c0 c1 c2) ∧
      ArityOK fl c0 ∧ ArityOK fl c1 ∧ ArityOK fl c2

/-- `ArityOK` can be computed. -/
instance ArityOK.instDecidable (fl : GPFunctionLookup) : (t : Subtree) → Decidable (ArityOK fl t)
  | .null => isTrue trivial
  | .node _ f c0 c1 c2 =>
    have := ArityOK.instDecidable fl c0
    have := ArityOK.instDecidable fl c1
    have := ArityOK.instDecidable fl c2
    have : Decidable (match arityOf fl f with
      | none => False
      | some n => slotsFilled n c0 c1 c2) := by
      cases arityOf fl f with
      | none => exact isFalse (fun h => h)
      | some n => exact (inferInstance : Decidable (slotsFilled n c0 c1 c2))
    by unfold ArityOK; exact inferInstance

/-- The function id and the parameter links that the cell of the root of `u` has
when the heap holds `u`. -/
def Subtree.links : Subtree → Int × Option Nat × Option Nat × Option Nat
  | .null => (-1, none, none, none)
  | .node _ f c0 c1 c2 => (f, c0.root, c1.root, c2.root)

/-- What `Stitch` needs of the cells of the nodes of `t` before it runs: the
function ids are in place, and the parameter links that `Stitch` will not write
(those of the slots without a child) are null. -/
def PreStitch (h : Heap) : Subtree → Prop
  | .null => True
  | .node b f c0 c1 c2 =>
    (∃ n, h[b]? = some n ∧ n.functionID = f ∧ (c0.isNode = false → n.p0 = none) ∧
      (c1.isNode = false → n.p1 = none) ∧ (c2.isNode = false → n.p2 = none)) ∧
      PreStitch h c0 ∧ PreStitch h c1 ∧ PreStitch h c2

/-- The state of the outer loop of `Stitch` on the breadth-first array of `t`: the
subtrees `Pt` have been given their children, the forest `Q` is what the rest of
the array holds, `h` is the heap at the start and `g` the heap now. -/
structure StitchInv (h : Heap) (t : Subtree) (g : Heap) (Pt Q : List Subtree) : Prop where
  len : g.length = h.length
  frame : ∀ x : Nat, x ∉ t.addrs → g[x]? = h[x]?
  fidq : ∀ x : Nat, (g[x]?).map GPTreeNode.functionID = (h[x]?).map GPTreeNode.functionID
  split : t.levelOrderT = Pt ++ loT t.height Q
  hgt : ∀ u ∈ Q, u.height ≤ t.height
  done : ∀ u ∈ Pt, ∀ b, u.root = some b → (g[b]?).map GPTreeNode.links = some u.links
  kidsP : ∀ u ∈ Pt, ∀ c ∈ u.children, ∀ b x, u.root = some b → c.root = some x →
    (∃ p, p < Pt.length + (nonNull Q).length ∧ t.levelOrder[p]? = some x) ∧
      parentOf g x = some b
  todo : ∀ m x, Pt.length ≤ m → t.levelOrder[m]? = some x →
    (g[x]?).map GPTreeNode.links = (h[x]?).map GPTreeNode.links
  rootpar : ∀ a, t.root = some a → parentOf g a = parentOf h a

/-- The copy of a tree that `Duplicate` builds when the first free address is
`b`: the same function ids and the same shape, with the nodes at the addresses
`b, b + 1, ...` in the order in which `Duplicate` allocates them, a node before
its subtrees and the subtrees from left to right. -/
def Subtree.copyAt : Subtree → Nat → Subtree
  | .null, _ => .null
  | .node _ f c0 c1 c2, b =>
    .node b f (c0.copyAt (b + 1)) (c1.copyAt (b + 1 + c0.size))
      (c2.copyAt (b + 1 + c0.size + c1.size))

/-! ### Random trees -/

/-- The registry fits its array of `GP_MAX_FUNCTIONS * 2` descriptors, and no
descriptor has more than `GP_MAX_PARAMETERS` parameters. -/
def GPFunctionLookup.WF (fl : GPFunctionLookup) : Prop :=
  fl.m_nFuncs ≤ GP_MAX_FUNCTIONS * 2 ∧ ∀ d ∈ fl.m_functions, d.m_nparams ≤ GP_MAX_PARAMETERS

instance (fl : GPFunctionLookup) : Decidable fl.WF := by
  unfold GPFunctionLookup.WF; exact inferInstance

/-- The return types that a tree of return type `return_type` can ask for: the
type itself and the parameter types of the registered functions that return such
a type. -/
inductive Reachable (fl : GPFunctionLookup) (return_type : Int) : Int → Prop where
  | root : Reachable fl return_type return_type
  | param {d : GPFunctionDesc} {j : Nat} : Reachable fl return_type d.m_return_type →
      d ∈ fl.m_functions → j < d.m_nparams → Reachable fl return_type (d.paramType j)

/-- The assumption that `CreateRandomTree` states: every return type that can be
asked for has a registered function without parameters. -/
def LeafContract (fl : GPFunctionLookup) (return_type : Int) : Prop :=
  ∀ ty, Reachable fl return_type ty →
    ∃ d ∈ fl.m_functions, d.m_return_type = ty ∧ d.m_nparams = 0

/-- A set of types that holds `return_type`, is closed under "parameter type of a
function that returns a type of the set", and all of whose types have a registered
function without parameters.  This can be computed, and it gives the
`LeafContract`. -/
def LeafClosed (fl : GPFunctionLookup) (return_type : Int) (S : List Int) : Prop :=
  return_type ∈ S ∧
    (∀ d ∈ fl.m_functions, d.m_return_type ∈ S → ∀ j, j < d.m_nparams → d.paramType j ∈ S) ∧
    ∀ ty ∈ S, ∃ d ∈ fl.m_functions, d.m_return_type = ty ∧ d.m_nparams = 0

instance (fl : GPFunctionLookup) (return_type : Int) (S : List Int) :
    Decidable (LeafClosed fl return_type S) := by
  unfold LeafClosed; exact inferInstance

/-- A tree of return type `ty` that is well-formed for the registry: the function
of the root is registered and returns `ty`, exactly the parameter slots
`0 .. m_nparams - 1` hold a child, and the child in slot `j` is a well-formed tree
of the type `m_param_types[ j ]`. -/
def WellTyped (fl : GPFunctionLookup) : Int → Subtree → Prop
  | _, .null => False
  | ty, .node _ f c0 c1 c2 =>
    match fl.GetFunctionByID f with
    | none => False
    | some d =>
      0 ≤ f ∧ f < (fl.m_nFuncs : Int) ∧ d.m_return_type = ty ∧ d.m_nparams ≤ 3 ∧
        (if 0 < d.m_nparams then WellTyped fl (d.paramType 0) c0 else c0 = .null) ∧
        (if 1 < d.m_nparams then WellTyped fl (d.paramType 1) c1 else c1 = .null) ∧
        (if 2 < d.m_nparams then WellTyped fl (d.paramType 2) c2 else c2 = .null)

/-- The number of parameters of the function with id `f` (0 when there is no
such descriptor). -/
def arityD (fl : GPFunctionLookup) (f : Int) : Nat :=
  match fl.GetFunctionByID f with
  | none => 0
  | some d => d.m_nparams

/-- The number of parameters of the functions of a list, added up. -/
def arSum (fl : GPFunctionLookup) (F : List Int) : Nat := (F.map (arityD fl)).sum

/-- The position in the breadth-first array `F` of function ids at which the
children of the node at position `k` start: behind the root and the children of
all nodes before `k`. -/
def childStart (fl : GPFunctionLookup) (F : List Int) (k : Nat) : Nat :=
  1 + arSum fl (F.take k)

/-- The tree that the breadth-first array `F` of function ids describes below
position `k`, when the node of position `i` is the cell `base + i`; `fuel` bounds
the height. -/
def treeAt (fl : GPFunctionLookup) (base : Nat) (F : List Int) : Nat → Nat → Subtree
  | 0, _ => .null
  | fuel + 1, k =>
    match F[k]? with
    | none => .null
    | some f =>
      .node (base + k) f
        (if 0 < arityD fl f then treeAt fl base F fuel (childStart fl F k + 0) else .null)
        (if 1 < arityD fl f then treeAt fl base F fuel (childStart fl F k + 1) else .null)
        (if 2 < arityD fl f then treeAt fl base F fuel (childStart fl F k + 2) else .null)

/-! ### A small heap used to instantiate the theorems -/

/-- A heap with the tree `Add( Two, Three )` at the cells 0, 1, 2 and a detached
leaf `Two` at cell 3 (function ids as in `exampleRegistry`). -/
def exHeap : Heap :=
  [⟨1, some 1, some 2, none, none⟩, ⟨3, none, none, none, some 0⟩,
    ⟨5, none, none, none, some 0⟩, ⟨3, none, none, none, none⟩]

/-- The tree at the cells 0, 1, 2 of `exHeap`. -/
def exTree : Subtree :=
  .node 0 1 (.node 1 3 .null .null .null) (.node 2 5 .null .null .null) .null

/-- The detached leaf at cell 3 of `exHeap`. -/
def exLeaf : Subtree := .node 3 3 .null .null .null

/-- A tree object with budget 3 that owns `exTree`. -/
def exGPTree : GPTree := ⟨3, 3, some 0⟩

/-- A heap with the tree `Add( Sub( Const1, Const2 ), Sub( Const3, Const4 ) )`, its
cells numbered in depth-first order: `Add` is cell 0, the first `Sub` cell 1 with
`Const1`, `Const2` at 2, 3, the second `Sub` cell 4 with `Const3`, `Const4` at 5, 6.
The function ids are `Add` = 1, `Sub` = 3, `Const1` .. `Const4` = 5, 7, 9, 11. -/
def exHeap7 : Heap :=
  [⟨1, some 1, some 4, none, none⟩,
    ⟨3, some 2, some 3, none, some 0⟩, ⟨5, none, none, none, some 1⟩,
    ⟨7, none, none, none, some 1⟩,
    ⟨3, some 5, some 6, none, some 0⟩, ⟨9, none, none, none, some 4⟩,
    ⟨11, none, none, none, some 4⟩]

/-- The tree in `exHeap7`. -/
def exTree7 : Subtree :=
  .node 0 1
    (.node 1 3 (.node 2 5 .null .null .null) (.node 3 7 .null .null .null) .null)
    (.node 4 3 (.node 5 9 .null .null .null) (.node 6 11 .null .null .null) .null)
    .null

/-- The registry of the first example with `Add`, `Two` and `Three` registered in
this order; the type id of `int` is 1 and that of its delayed twin is 2.  The
ids are `Add` = 1, `Two` = 3, `Three` = 5 (and 0, 2, 4 for the delayed twins). -/
def exampleRegistry : GPFunctionLookup :=
  ((((⟨[]⟩ : GPFunctionLookup).RegisterFunction "Add" 1 2 [1, 1]).1.RegisterFunction
    "Two" 1 2 []).1.RegisterFunction "Three" 1 2 []).1

/-- A registry for `exHeap7`: `Add`, `Sub` and the four constants, with the ids
1, 3, 5, 7, 9, 11. -/
def exampleRegistry7 : GPFunctionLookup :=
  (((((((⟨[]⟩ : GPFunctionLookup).RegisterFunction "Add" 1 2 [1, 1]).1.RegisterFunction
    "Sub" 1 2 [1, 1]).1.RegisterFunction "Const1" 1 2 []).1.RegisterFunction
    "Const2" 1 2 []).1.RegisterFunction "Const3" 1 2 []).1.RegisterFunction
    "Const4" 1 2 []).1

end GP

namespace GP

/-- The array cell `m_functions[ c ]`. -/
def GPFunctionLookup.descAt (fl : GPFunctionLookup) (c : Nat) : GPFunctionDesc :=
  fl.m_functions.getD c GPFunctionDesc.default

/-- In the breadth-first array `F` the node at position `k` has been given its
first `n` children: they sit at the positions `childStart k .. childStart k + n - 1`,
behind `k`, and the function of child `j` returns the type of parameter `j` of the
function of `k`. -/
def NodeKids (fl : GPFunctionLookup) (F : List Int) (k n : Nat) : Prop :=
  k < childStart fl F k ∧ childStart fl F k + n ≤ F.length ∧
    ∀ j, j < n → ∃ c ck : Nat, F[k]? = some (ck : Int) ∧
      F[childStart fl F k + j]? = some (c : Int) ∧
      (fl.descAt c).m_return_type = (fl.descAt ck).paramType j

/-- The state of `CreateRandomTree` in the `while` loop at `process_function_idx = i`,
after `j` rounds of the `for` loop: the function ids chosen so far are `F`, their
nodes are the cells behind the old heap `h0`, and the array holds their addresses.
`M` is `max_nodes`. -/
structure CreateInv (fl : GPFunctionLookup) (rt : Int) (M : Nat) (h0 : Heap) (F : List Int)
    (i j : Nat) (s : CreateState) : Prop where
  heap : s.heap = h0 ++ F.map GPTreeNode.mk0
  flat : s.flattened_tree =
    (List.range' h0.length F.length).map some ++ List.replicate (M - F.length) none
  used : s.nodes_used = F.length
  pwi : s.parameter_write_idx = F.length
  res : s.reserved_nodes + (j : Int) = (arSum fl (F.drop i) : Int)
  budget : F.length + arSum fl (F.drop i) ≤ M + j
  start : childStart fl F i + j = F.length
  idx : i ≤ F.length
  valid : ∀ (k : Nat) (f : Int), F[k]? = some f → ∃ c : Nat, f = (c : Int) ∧ c < fl.m_nFuncs ∧
    Reachable fl rt (fl.descAt c).m_return_type
  root : ∃ c : Nat, F[0]? = some (c : Int) ∧ (fl.descAt c).m_return_type = rt
  hist : ∀ k, k < i → ∀ c : Nat, F[k]? = some (c : Int) →
    NodeKids fl F k (fl.descAt c).m_nparams

end GP

namespace GP

/-! ## gptree.cpp: GPConstSubtreeIter -/

/-- The value `GPConstSubtreeIter::INVALID_INDEX`. -/
def INVALID_INDEX : Int := -1

/-- The class `GPConstSubtreeIter`: the array `m_flattened` and the number
`m_count` of its cells that are in use. -/
structure GPConstSubtreeIter where
  m_flattened : List (Option Nat)
  m_count : Int
deriving DecidableEq, Repr

/-- The constructor `GPConstSubtreeIter( const GPTree* tree )`. -/
def GPConstSubtreeIter.ofTree (h : Heap) (tree : GPTree) : Option GPConstSubtreeIter :=
  match tree.Flatten h with
  | none => none
  | some flat => some ⟨flat, tree.Count⟩

/-- `GetNode( index )` for a node that is then dereferenced: the cell
`m_flattened[ index ]`, `none` when the index is outside the array or the cell
holds the null pointer. -/
def GPConstSubtreeIter.GetNode (it : GPConstSubtreeIter) (index : Int) : Option Nat :=
  if 0 ≤ index then (it.m_flattened[index.toNat]?).join else none

/-- `Count()`. -/
def GPConstSubtreeIter.Count (it : GPConstSubtreeIter) : Int := it.m_count

/-- `Random( prefer_nonroot )`: the index and the position of the next random
draw. -/
def GPConstSubtreeIter.Random (it : GPConstSubtreeIter) (prefer_nonroot : Bool)
    (rnd : Nat → Nat) (pos : Nat) : Int × Nat :=
  let offset : Int := if prefer_nonroot then 1 else 0
  if it.m_count = 0 then (INVALID_INDEX, pos)
  else if it.m_count = 1 then (0, pos)
  else (offset + Int.tmod (rnd pos : Int) (it.m_count - offset), pos + 1)

/-- The `do ... while` loop of the typed `Random`, started at `current_index`. -/
def typedRandomLoop (functions : GPFunctionLookup) (h : Heap) (it : GPConstSubtreeIter)
    (return_type : Int) (prefer_nonroot : Bool) (selected_start_index : Int) :
    Nat → Int → Option Int
  | 0, _ => none
  | fuel + 1, current_index =>
    match it.GetNode current_index with
    | none => none
    | some a =>
      match h[a]? with
      | none => none
      | some nd =>
        match functions.GetFunctionByID nd.functionID with
        | none => none
        | some funcDesc =>
          if funcDesc.m_return_type = return_type then some current_index
          else
            let next := Int.tmod (current_index + 1) it.m_count
            let next1 :=
              if prefer_nonroot = true ∧ next = 0 then Int.tmod (next + 1) it.m_count else next
            if next1 ≠ selected_start_index then
              typedRandomLoop functions h it return_type prefer_nonroot selected_start_index
                fuel next1
            else some INVALID_INDEX

/-- `Random( functions, return_type, prefer_nonroot )`: the index and the position
of the next random draw.  The loop looks at every index at most once. -/
def GPConstSubtreeIter.RandomTyped (it : GPConstSubtreeIter) (functions : GPFunctionLookup)
    (h : Heap) (return_type : Int) (prefer_nonroot : Bool) (rnd : Nat → Nat) (pos : Nat) :
    Option (Int × Nat) :=
  if it.m_count = 0 then some (INVALID_INDEX, pos)
  else
    let offset : Int := if prefer_nonroot then 1 else 0
    let start : Int × Nat :=
      if it.m_count = 1 then (0, pos)
      else (offset + Int.tmod (rnd pos : Int) (it.m_count - offset), pos + 1)
    match typedRandomLoop functions h it return_type prefer_nonroot start.1
        (it.m_count.toNat + 1) start.1 with
    | none => none
    | some r => some (r, start.2)

/-- `IgnoreNode( int index )`. -/
def GPConstSubtreeIter.IgnoreNode (it : GPConstSubtreeIter) (index : Int) :
    Option GPConstSubtreeIter :=
  if index < it.m_count ∧ 0 ≤ index then
    let m_count := it.m_count - 1
    match it.m_flattened[m_count.toNat]? with
    | none => none
    | some v =>
      if index.toNat < it.m_flattened.length then
        some ⟨it.m_flattened.set index.toNat v, m_count⟩
      else none
  else none

/-- The loop of `IgnoreNode( const GPTreeNode* node )` from index `i` on. -/
def ignoreNodeLoop (it : GPConstSubtreeIter) (node : Nat) :
    Nat → Nat → Option (GPConstSubtreeIter × Bool)
  | 0, _ => none
  | fuel + 1, i =>
    if (i : Int) < it.m_count then
      match it.m_flattened[i]? with
      | none => none
      | some v =>
        if v = some node then
          match it.IgnoreNode (i : Int) with
          | none => none
          | some it1 => some (it1, true)
        else ignoreNodeLoop it node fuel (i + 1)
    else some (it, false)

/-- `IgnoreNode( const GPTreeNode* node )`. -/
def GPConstSubtreeIter.IgnoreNodePtr (it : GPConstSubtreeIter) (node : Nat) :
    Option (GPConstSubtreeIter × Bool) :=
  ignoreNodeLoop it node (it.m_count.toNat + 1) 0

/-- One round of the loop of `IgnoreSubtree`: the parameter link `p`. -/
def ignoreParam (rec : GPConstSubtreeIter → Nat → Option (GPConstSubtreeIter × Bool))
    (p : Option Nat) (it : GPConstSubtreeIter) : Option GPConstSubtreeIter :=
  match p with
  | none => some it
  | some c =>
    match rec it c with
    | none => none
    | some (it1, _) => some it1

/-- `IgnoreSubtree( node )` with a bound on the recursion depth. -/
def IgnoreSubtreeAux (h : Heap) :
    Nat → GPConstSubtreeIter → Nat → Option (GPConstSubtreeIter × Bool)
  | 0, _, _ => none
  | fuel + 1, it, node =>
    match h[node]? with
    | none => none
    | some nd =>
      match ignoreParam (IgnoreSubtreeAux h fuel) nd.p0 it with
      | none => none
      | some it0 =>
        match ignoreParam (IgnoreSubtreeAux h fuel) nd.p1 it0 with
        | none => none
        | some it1 =>
          match ignoreParam (IgnoreSubtreeAux h fuel) nd.p2 it1 with
          | none => none
          | some it2 => it2.IgnoreNodePtr node

/-- `IgnoreSubtree( node )`.  A chain of child links without a cycle is shorter
than the heap. -/
def GPConstSubtreeIter.IgnoreSubtree (h : Heap) (it : GPConstSubtreeIter) (node : Nat) :
    Option (GPConstSubtreeIter × Bool) :=
  IgnoreSubtreeAux h h.length it node

/-! ## gpenvironment.cpp: MutateTree, Prune, CrossOver -/

/-- `MutateTree( functions, tree )`: the tree object, the heap and the position of
the next random draw afterwards.  The spare subtree that `Replace` returns is
deleted, which the heap model does not show. -/
def MutateTree (functions : GPFunctionLookup) (h : Heap) (tree : GPTree) (rnd : Nat → Nat)
    (pos : Nat) : Option (GPTree × Heap × Nat) :=
  match GPConstSubtreeIter.ofTree h tree with
  | none => none
  | some flattened =>
    let (mutateNode, pos1) := flattened.Random true rnd pos
    match flattened.GetNode mutateNode with
    | none => none
    | some oldSubtree =>
      match CountSubtree h oldSubtree, h[oldSubtree]? with
      | some subtreeCount, some nd =>
        match functions.GetFunctionByID nd.functionID with
        | none => none
        | some d =>
          let availableNodes : Int := tree.MaxNodes - tree.Count + (subtreeCount : Int)
          match CreateRandomTree functions d.m_return_type availableNodes rnd pos1 h with
          | none => none
          | some (none, _, h1, pos2) => some (tree, h1, pos2)
          | some (some new_subtree, _, h1, pos2) =>
            match tree.Replace h1 (some oldSubtree) new_subtree with
            | none => none
            | some (_, tree1, h2) => some (tree1, h2, pos2)
      | _, _ => none

/-- The loop `while( parent )` of `Prune` that takes the ancestors of the preserved
node out of the iterator. -/
def ignoreAncestors (h : Heap) : Nat → GPConstSubtreeIter → Option Nat →
    Option GPConstSubtreeIter
  | 0, _, _ => none
  | fuel + 1, it, parent =>
    match parent with
    | none => some it
    | some q =>
      match it.IgnoreNodePtr q, h[q]? with
      | some (it1, _), some nd => ignoreAncestors h fuel it1 nd.parent
      | _, _ => none

/-- The state of the `while` loop of `Prune`. -/
structure PruneState where
  flattenedIter : GPConstSubtreeIter
  tree : GPTree
  heap : Heap
  numPruned : Int
  pos : Nat

/-- The `while` loop of `Prune`. -/
def pruneLoop (functions : GPFunctionLookup) (numToPrune : Int) (rnd : Nat → Nat) :
    Nat → PruneState → Option PruneState
  | 0, _ => none
  | fuel + 1, s =>
    if s.numPruned < numToPrune ∧ s.flattenedIter.Count ≠ 0 then
      let (randomNode, pos1) := s.flattenedIter.Random true rnd s.pos
      match s.flattenedIter.GetNode randomNode with
      | none => none
      | some node =>
        match s.heap[node]? with
        | none => none
        | some nd =>
          match functions.GetFunctionByID nd.functionID with
          | none => none
          | some function_desc =>
            match s.flattenedIter.IgnoreSubtree s.heap node with
            | none => none
            | some (it1, _) =>
              let canBePruned : Bool := nd.p0.isSome || nd.p1.isSome || nd.p2.isSome
              if canBePruned then
                match CreateRandomTree functions function_desc.m_return_type 1 rnd pos1
                    s.heap with
                | none => none
                | some (none, _, _, _) => none
                | some (some replacement, _, h1, pos2) =>
                  match s.tree.Replace h1 (some node) replacement with
                  | none => none
                  | some (unusedSubtree, tree1, h2) =>
                    if unusedSubtree = some node then
                      match CountSubtree h2 node with
                      | none => none
                      | some c =>
                        pruneLoop functions numToPrune rnd fuel
                          ⟨it1, tree1, h2, s.numPruned + ((c : Int) - 1), pos2⟩
                    else
                      pruneLoop functions numToPrune rnd fuel
                        ⟨it1, tree1, h2, s.numPruned, pos2⟩
              else
                pruneLoop functions numToPrune rnd fuel
                  ⟨it1, s.tree, s.heap, s.numPruned, pos1⟩
    else some s

/-- The part `if ( preserveNode ) { ... }` of `Prune`: the subtree of the preserved
node and the nodes above it are taken out of the iterator.  A chain of parent
links without a cycle is shorter than the heap. -/
def pruneStart (h : Heap) (flattenedIter : GPConstSubtreeIter) (preserveNode : Option Nat) :
    Option GPConstSubtreeIter :=
  match preserveNode with
  | none => some flattenedIter
  | some p =>
    match flattenedIter.IgnoreSubtree h p, h[p]? with
    | some (it1, _), some nd => ignoreAncestors h (h.length + 1) it1 nd.parent
    | _, _ => none

/-- `Prune( functions, tree, numToPrune, preserveNode )`: the returned number, the
tree object, the heap and the position of the next random draw.  Every round of
the loop takes at least one node out of the iterator, or the loop would not end. -/
def Prune (functions : GPFunctionLookup) (h : Heap) (tree : GPTree) (numToPrune : Int)
    (preserveNode : Option Nat) (rnd : Nat → Nat) (pos : Nat) :
    Option (Int × GPTree × Heap × Nat) :=
  match GPConstSubtreeIter.ofTree h tree with
  | none => none
  | some flattenedIter =>
    match pruneStart h flattenedIter preserveNode with
    | none => none
    | some it =>
      match pruneLoop functions numToPrune rnd (it.m_count.toNat + 1)
          ⟨it, tree, h, 0, pos⟩ with
      | none => none
      | some s => some (s.numPruned, s.tree, s.heap, s.pos)

/-- One round of the `for` loop of `CalculatePotentialPrunes`: the parameter link
`p` of the parent, where `subtree` is the child on the main line. -/
def potentialParam (h : Heap) (subtree : Nat) (p : Option Nat) : Option Int :=
  match p with
  | none => some 0
  | some c =>
    if c ≠ subtree then
      match CountSubtree h c with
      | none => none
      | some n => some ((n : Int) - 1)
    else some 0

/-- The `while` loop of `CalculatePotentialPrunes`. -/
def potentialLoop (h : Heap) : Nat → Int → Nat → Option Nat → Option Int
  | 0, _, _, _ => none
  | fuel + 1, potentialPrunes, subtree, subtreeParent =>
    match subtreeParent with
    | none => some potentialPrunes
    | some q =>
      match h[q]? with
      | none => none
      | some nd =>
        match potentialParam h subtree nd.p0, potentialParam h subtree nd.p1,
            potentialParam h subtree nd.p2 with
        | some a0, some a1, some a2 =>
          potentialLoop h fuel (potentialPrunes + a0 + a1 + a2) q nd.parent
        | _, _, _ => none

/-- `CalculatePotentialPrunes( node )`. -/
def CalculatePotentialPrunes (h : Heap) (node : Nat) : Option Int :=
  match CountSubtree h node, h[node]? with
  | some subtreeCount, some nd =>
    match potentialLoop h (h.length + 1) 0 node nd.parent with
    | none => none
    | some potentialPrunes => some ((subtreeCount : Int) + potentialPrunes)
  | _, _ => none

/-- What the selection loops of `CrossOver` leave in `selected_src_node`,
`selected_target_node`, `src_nodes_to_prune` and `target_nodes_to_prune`. -/
structure CrossSelection where
  selected_src_node : Nat
  selected_target_node : Nat
  src_nodes_to_prune : Int
  target_nodes_to_prune : Int
deriving DecidableEq, Repr

/-- The inner `while` loop of `CrossOver` over the nodes of the target tree, for
one source node: the selection, if one was made, and the position of the next
random draw. -/
def crossTargetLoop (functions : GPFunctionLookup) (h : Heap) (source_node : Nat)
    (src_subtree_count src_potential_space space_left_in_source space_left_in_target : Int)
    (rnd : Nat → Nat) : Nat → GPConstSubtreeIter → Nat → Option (Option CrossSelection × Nat)
  | 0, _, _ => none
  | fuel + 1, flattened_target, pos =>
    if flattened_target.Count ≠ 0 then
      match h[source_node]? with
      | none => none
      | some snd =>
        match functions.GetFunctionByID snd.functionID with
        | none => none
        | some source_function_desc =>
          match flattened_target.RandomTyped functions h source_function_desc.m_return_type
              true rnd pos with
          | none => none
          | some (random_target_node, pos1) =>
            if random_target_node ≠ INVALID_INDEX then
              match flattened_target.GetNode random_target_node with
              | none => none
              | some target_node =>
                match CalculatePotentialPrunes h target_node, CountSubtree h target_node with
                | some cpp, some target_subtree_count =>
                  let target_potential_space : Int := cpp + space_left_in_target
                  let src_fits_in_target : Bool := src_subtree_count ≤ target_potential_space
                  let targ_fits_in_src : Bool :=
                    (target_subtree_count : Int) ≤ src_potential_space
                  if src_fits_in_target && targ_fits_in_src then
                    some (some ⟨source_node, target_node,
                      (target_subtree_count : Int) - src_subtree_count - space_left_in_source,
                      src_subtree_count - (target_subtree_count : Int) - space_left_in_target⟩,
                      pos1)
                  else
                    match flattened_target.IgnoreNode random_target_node with
                    | none => none
                    | some it1 =>
                      crossTargetLoop functions h source_node src_subtree_count
                        src_potential_space space_left_in_source space_left_in_target rnd
                        fuel it1 pos1
                | _, _ => none
            else some (none, pos1)
    else some (none, pos)

/-- The outer `while` loop of `CrossOver` over the nodes of the source tree. -/
def crossSourceLoop (functions : GPFunctionLookup) (h : Heap) (targetTree : GPTree)
    (space_left_in_source space_left_in_target : Int) (rnd : Nat → Nat) :
    Nat → GPConstSubtreeIter → Nat → Option (Option CrossSelection × Nat)
  | 0, _, _ => none
  | fuel + 1, flattenedSource, pos =>
    if flattenedSource.Count ≠ 0 then
      let (random_src_index, pos1) := flattenedSource.Random true rnd pos
      match flattenedSource.GetNode random_src_index with
      | none => none
      | some source_node =>
        match CalculatePotentialPrunes h source_node, CountSubtree h source_node,
            GPConstSubtreeIter.ofTree h targetTree with
        | some cpp, some src_subtree_count, some flattened_target =>
          match crossTargetLoop functions h source_node (src_subtree_count : Int)
              (cpp + space_left_in_source) space_left_in_source space_left_in_target rnd
              (flattened_target.m_count.toNat + 1) flattened_target pos1 with
          | none => none
          | some (selection, pos2) =>
            match flattenedSource.IgnoreNode random_src_index with
            | none => none
            | some it1 =>
              match selection with
              | some sel => some (some sel, pos2)
              | none =>
                crossSourceLoop functions h targetTree space_left_in_source
                  space_left_in_target rnd fuel it1 pos2
        | _, _, _ => none
    else some (none, pos)

/-- The first part of `CrossOver`: the search for a source node and a target node
that can be exchanged.  Every round of either loop takes a node out of its
iterator. -/
def crossSelect (functions : GPFunctionLookup) (h : Heap) (sourceTree targetTree : GPTree)
    (rnd : Nat → Nat) (pos : Nat) : Option (Option CrossSelection × Nat) :=
  match GPConstSubtreeIter.ofTree h sourceTree with
  | none => none
  | some flattenedSource =>
    crossSourceLoop functions h targetTree (sourceTree.MaxNodes - sourceTree.Count)
      (targetTree.MaxNodes - targetTree.Count) rnd (flattenedSource.m_count.toNat + 1)
      flattenedSource pos

/-- What the two calls of `Prune` in `CrossOver` leave behind: the two numbers of
pruned nodes (0 when `Prune` is not called), the two tree objects, the heap and
the position of the next random draw. -/
structure CrossPruned where
  n_pruned_src : Int
  n_pruned_target : Int
  sourceTree : GPTree
  targetTree : GPTree
  heap : Heap
  pos : Nat

/-- One of the two blocks `if ( nodes_to_prune > 0 ) { int n_pruned = Prune( ... );
assert( n_pruned >= nodes_to_prune ); }` of `CrossOver`: the number of pruned
nodes (0 when `Prune` is not called), the tree object, the heap and the position
of the next random draw; a failed `assert` is `none`. -/
def pruneAsserted (functions : GPFunctionLookup) (h : Heap) (tree : GPTree)
    (nodes_to_prune : Int) (selected_node : Nat) (rnd : Nat → Nat) (pos : Nat) :
    Option (Int × GPTree × Heap × Nat) :=
  if nodes_to_prune > 0 then
    match Prune functions h tree nodes_to_prune (some selected_node) rnd pos with
    | none => none
    | some (n_pruned, tree1, h1, pos1) =>
      if n_pruned ≥ nodes_to_prune then some (n_pruned, tree1, h1, pos1) else none
  else some (0, tree, h, pos)

/-- The second part of `CrossOver`: both trees are pruned as far as the selection
asks for. -/
def crossPrune (functions : GPFunctionLookup) (h : Heap) (sourceTree targetTree : GPTree)
    (sel : CrossSelection) (rnd : Nat → Nat) (pos : Nat) : Option CrossPruned :=
  match pruneAsserted functions h sourceTree sel.src_nodes_to_prune sel.selected_src_node
      rnd pos with
  | none => none
  | some (n_src, sourceTree1, h1, pos1) =>
    match pruneAsserted functions h1 targetTree sel.target_nodes_to_prune
        sel.selected_target_node rnd pos1 with
    | none => none
    | some (n_target, targetTree1, h2, pos2) =>
      some ⟨n_src, n_target, sourceTree1, targetTree1, h2, pos2⟩

/-- The last part of `CrossOver`: the two selected subtrees are duplicated and each
tree gets the copy of the other's subtree; a failed `assert` is `none`.  The
two subtrees that are left over are deleted, which the heap model does not
show. -/
def crossSwap (h : Heap) (sourceTree targetTree : GPTree) (sel : CrossSelection) :
    Option (GPTree × GPTree × Heap) :=
  match Duplicate h sel.selected_src_node with
  | none => none
  | some (h1, duplicate_src_subtree) =>
    match Duplicate h1 sel.selected_target_node with
    | none => none
    | some (h2, duplicate_target_subtree) =>
      match sourceTree.Replace h2 (some sel.selected_src_node) duplicate_target_subtree with
      | none => none
      | some (leftOverSourceSubtree, sourceTree1, h3) =>
        if leftOverSourceSubtree = some sel.selected_src_node then
          match targetTree.Replace h3 (some sel.selected_target_node)
              duplicate_src_subtree with
          | none => none
          | some (leftOverTargetSubtree, targetTree1, h4) =>
            if leftOverTargetSubtree = some sel.selected_target_node then
              some (sourceTree1, targetTree1, h4)
            else none
        else none

/-- `CrossOver( functions, sourceTree, targetTree )` for two different tree
objects: the returned flag, the two tree objects, the heap and the position of
the next random draw. -/
def CrossOver (functions : GPFunctionLookup) (h : Heap) (sourceTree targetTree : GPTree)
    (rnd : Nat → Nat) (pos : Nat) : Option (Bool × GPTree × GPTree × Heap × Nat) :=
  match crossSelect functions h sourceTree targetTree rnd pos with
  | none => none
  | some (none, pos1) => some (false, sourceTree, targetTree, h, pos1)
  | some (some sel, pos1) =>
    match crossPrune functions h sourceTree targetTree sel rnd pos1 with
    | none => none
    | some p =>
      match crossSwap p.heap p.sourceTree p.targetTree sel with
      | none => none
      | some (sourceTree1, targetTree1, h1) =>
        some (true, sourceTree1, targetTree1, h1, p.pos)

/-! ## gpfunctionlookup.cpp: lookup by name -/

/-- The loop of `GetFunctionIDByName` from index `i` on, over the descriptors that
are left.  Names are compared as strings (`strcmp`); the stored names are taken
to be terminated, that is shorter than `GP_DEBUGNAME_LEN`. -/
def nameLoop (name : String) (delayed_desired : Bool) : List GPFunctionDesc → Nat → Int
  | [], _ => NULLFUNC
  | this_function :: rest, i =>
    let is_delayed : Bool := this_function.m_original_function_id ≠ NULLFUNC
    if name = this_function.m_debug_name ∧
        ((is_delayed && delayed_desired) || !delayed_desired) = true then (i : Int)
    else nameLoop name delayed_desired rest (i + 1)

/-- `GetFunctionIDByName( name, delayed_desired )`. -/
def GPFunctionLookup.GetFunctionIDByName (fl : GPFunctionLookup) (name : String)
    (delayed_desired : Bool) : Int :=
  nameLoop name delayed_desired fl.m_functions 0

end GP

namespace GP

/-! ### Sequences of registrations -/

/-- A call of `RegisterFunction`: the name, the type id of the return type `R` and
the type ids of the parameters. -/
structure Registration where
  name : String
  return_type : Int
  param_types : List Int
deriving DecidableEq, Repr

/-- The calls `RegisterFunction( name, f )` of a list, one after the other: the
registry afterwards and the ids that the calls returned.  `lazyOf R` is the type
id of `GPDelayedEvaluation< R >`. -/
def registerAll (lazyOf : Int → Int) : GPFunctionLookup → List Registration →
    GPFunctionLookup × List Int
  | fl, [] => (fl, [])
  | fl, r :: rest =>
    let step := fl.RegisterFunction r.name r.return_type (lazyOf r.return_type) r.param_types
    let tail := registerAll lazyOf step.1 rest
    (tail.1, step.2 :: tail.2)

/-- The empty registry, as the constructor `GPFunctionLookup()` leaves it. -/
def GPFunctionLookup.empty : GPFunctionLookup := ⟨[]⟩

/-- The three registrations `Add`, `Two`, `Three` (`int` has the type id 1). -/
def exampleRegistrations : List Registration :=
  [⟨"Add", 1, [1, 1]⟩, ⟨"Two", 1, []⟩, ⟨"Three", 1, []⟩]

/-! ### The nodes that an iterator still holds -/

/-- The iterator holds the nodes `L`, in the order of its array: `m_count` is
their number and the array starts with their addresses. -/
def Live (it : GPConstSubtreeIter) (L : List Nat) : Prop :=
  it.m_count = (L.length : Int) ∧ ∃ junk, it.m_flattened = L.map some ++ junk

/-- What `IgnoreNode( index )` does to the nodes that the iterator holds: the last
one takes the place of the one at `index`. -/
def swapRemove (L : List Nat) (i : Nat) : List Nat :=
  (L.set i (L.getD (L.length - 1) 0)).dropLast

end GP

namespace GP

/-- `WellTyped` can be computed. -/
instance WellTyped.instDecidable (fl : GPFunctionLookup) :
    (ty : Int) → (t : Subtree) → Decidable (WellTyped fl ty t)
  | _, .null => isFalse (fun h => h)
  | ty, .node _ f c0 c1 c2 =>
    match hd : fl.GetFunctionByID f with
    | none => isFalse (by unfold WellTyped; rw [hd]; exact fun h => h)
    | some d =>
      have := WellTyped.instDecidable fl (d.paramType 0) c0
      have := WellTyped.instDecidable fl (d.paramType 1) c1
      have := WellTyped.instDecidable fl (d.paramType 2) c2
      decidable_of_iff
        (0 ≤ f ∧ f < (fl.m_nFuncs : Int) ∧ d.m_return_type = ty ∧ d.m_nparams ≤ 3 ∧
          (if 0 < d.m_nparams then WellTyped fl (d.paramType 0) c0 else c0 = .null) ∧
          (if 1 < d.m_nparams then WellTyped fl (d.paramType 1) c1 else c1 = .null) ∧
          (if 2 < d.m_nparams then WellTyped fl (d.paramType 2) c2 else c2 = .null))
        (by rw [WellTyped, hd])

instance (h : Heap) (T : GPTree) (t : Subtree) : Decidable (TreeInv h T t) := by
  unfold TreeInv; exact inferInstance

/-! ### The nodes that `Prune` keeps -/

/-- The nodes on the way from the root of `t` down to the node `x`, `x` itself left
out: the address and the function id of each, the root first. -/
def Subtree.pathTo : Subtree → Nat → List (Nat × Int)
  | .null, _ => []
  | .node a f c0 c1 c2, x =>
    if a = x then []
    else if x ∈ c0.addrs then (a, f) :: c0.pathTo x
    else if x ∈ c1.addrs then (a, f) :: c1.pathTo x
    else if x ∈ c2.addrs then (a, f) :: c2.pathTo x
    else []

/-- The nodes that `Prune` takes out of its iterator before the loop: the subtree
of `preserveNode` and the nodes above it. -/
def keepSet (t : Subtree) : Option Nat → List Nat
  | none => []
  | some p => (t.find p).addrs ++ (t.pathTo p).map Prod.fst

/-- Walking up the parent links from the pointer `par` visits the cells `l`, in
this order, and ends at the null pointer. -/
def UpChain (h : Heap) : Option Nat → List Nat → Prop
  | par, [] => par = none
  | par, q :: l => par = some q ∧ (∃ nd, h[q]? = some nd) ∧ UpChain h (parentOf h q) l

/-- The number of nodes that pruning can take away beside the way from the root
of `t` down to its node `x`: for every node above `x`, the nodes but one of each
subtree that hangs off the way. -/
def Subtree.potential : Subtree → Nat → Nat
  | .null, _ => 0
  | .node a _ c0 c1 c2, x =>
    if a = x then 0
    else
      (if x ∈ c0.addrs then c0.potential x else c0.size - 1) +
      (if x ∈ c1.addrs then c1.potential x else c1.size - 1) +
      (if x ∈ c2.addrs then c2.potential x else c2.size - 1)

/-- What holds before every round of the loop of `Prune`, for the call on the tree
object `T0` that owns `t0` in the heap `h0`: the tree object owns a well-formed
tree `t`, the iterator holds the nodes `L` of `t`, none of them kept, the kept part
of the tree is as it was, `numPruned` is the number of nodes that are gone, and
the nodes that are neither kept nor in the iterator have no children. -/
structure PruneInv (fl : GPFunctionLookup) (rt : Int) (h0 : Heap) (T0 : GPTree)
    (t0 : Subtree) (preserveNode : Option Nat) (s : PruneState) (t : Subtree)
    (L : List Nat) : Prop where
  inv : TreeInv s.heap s.tree t
  typed : WellTyped fl rt t
  live : Live s.flattenedIter L
  nodup : L.Nodup
  sub : ∀ y ∈ L, y ∈ t.addrs ∧ y ∉ keepSet t0 preserveNode
  keep : ∀ p, preserveNode = some p → t.find p = t0.find p ∧ t.pathTo p = t0.pathTo p
  pruned : s.numPruned = (t0.size : Int) - (t.size : Int)
  pot : ∀ p, preserveNode = some p →
    s.numPruned + (t.potential p : Int) = (t0.potential p : Int)
  leaves : ∀ y ∈ t.addrs, y ∉ keepSet t0 preserveNode → y ∉ L → (t.find y).size = 1
  budget : s.tree.m_max_nodes = T0.m_max_nodes
  old : ∀ y ∈ t.addrs, y ∈ t0.addrs ∨ h0.length ≤ y
  frame : ∀ a : Nat, a < h0.length → a ∉ t0.addrs → s.heap[a]? = h0[a]?
  grow : h0.length ≤ s.heap.length

/-! ### Compatible pairs of nodes for `CrossOver` -/

/-- The return type of the function of the node in cell `a`. -/
def retType (functions : GPFunctionLookup) (h : Heap) (a : Nat) : Option Int :=
  match h[a]? with
  | none => none
  | some nd => (functions.GetFunctionByID nd.functionID).map GPFunctionDesc.m_return_type

/-- The two tests `src_fits_in_target` and `targ_fits_in_src` of `CrossOver` on
the two subtree counts, the two values of `CalculatePotentialPrunes` and the two
free budgets. -/
def fitsBoth : Option Nat → Option Nat → Option Int → Option Int → Int → Int → Prop
  | some src_subtree_count, some target_subtree_count, some src_prunes, some target_prunes,
      space_left_in_source, space_left_in_target =>
    (src_subtree_count : Int) ≤ target_prunes + space_left_in_target ∧
      (target_subtree_count : Int) ≤ src_prunes + space_left_in_source
  | _, _, _, _, _, _ => False

instance fitsBoth.instDecidable : (a b : Option Nat) → (c d : Option Int) → (e f : Int) →
    Decidable (fitsBoth a b c d e f)
  | some _, some _, some _, some _, _, _ => by unfold fitsBoth; exact inferInstance
  | none, _, _, _, _, _ => isFalse (by simp [fitsBoth])
  | some _, none, _, _, _, _ => isFalse (by simp [fitsBoth])
  | some _, some _, none, _, _, _ => isFalse (by simp [fitsBoth])
  | some _, some _, some _, none, _, _ => isFalse (by simp [fitsBoth])

/-- A compatible pair for `CrossOver`: the source node `s` and the target node `t`
have the same return type, the subtree at `s` is no larger than
`CalculatePotentialPrunes( t )` plus the free budget of the target tree, and the
subtree at `t` is no larger than `CalculatePotentialPrunes( s )` plus the free
budget of the source tree. -/
def Compatible (functions : GPFunctionLookup) (h : Heap) (sourceTree targetTree : GPTree)
    (s t : Nat) : Prop :=
  (retType functions h s).isSome ∧ retType functions h s = retType functions h t ∧
    fitsBoth (CountSubtree h s) (CountSubtree h t) (CalculatePotentialPrunes h s)
      (CalculatePotentialPrunes h t) (sourceTree.MaxNodes - sourceTree.Count)
      (targetTree.MaxNodes - targetTree.Count)

instance (functions : GPFunctionLookup) (h : Heap) (sourceTree targetTree : GPTree)
    (s t : Nat) : Decidable (Compatible functions h sourceTree targetTree s t) := by
  unfold Compatible; exact inferInstance

/-- What holds when `CrossOver` on the tree objects `A` and `B`, which own the
trees `tA` and `tB` in the heap `h`, has accepted the pair `sel`: the pair is
compatible; the two guarded calls of `Prune` leave the trees `tA1` and `tB1`, in
which the selected subtrees are as they were, and report the numbers of nodes
that are gone, each at least the deficit; the exchange leaves the tree objects
`A1` and `B1` in the heap `h1`, each with a copy of the other subtree in the place
of its own. -/
structure CrossAccepted (fl : GPFunctionLookup) (h : Heap) (A B : GPTree) (tA tB : Subtree)
    (rtA rtB : Int) (rnd : Nat → Nat) (pos : Nat) (sel : CrossSelection) (pos0 : Nat)
    (hmid : Heap) (posmid : Nat) (p : CrossPruned) (tA1 tB1 : Subtree) (A1 B1 : GPTree)
    (h1 : Heap) : Prop where
  select : crossSelect fl h A B rnd pos = some (some sel, pos0)
  pruneA : pruneAsserted fl h A sel.src_nodes_to_prune sel.selected_src_node rnd pos0 =
    some (p.n_pruned_src, p.sourceTree, hmid, posmid)
  pruneB : pruneAsserted fl hmid B sel.target_nodes_to_prune sel.selected_target_node rnd
    posmid = some (p.n_pruned_target, p.targetTree, p.heap, p.pos)
  swap : crossSwap p.heap p.sourceTree p.targetTree sel = some (A1, B1, h1)
  src_mem : sel.selected_src_node ∈ tA.addrs
  target_mem : sel.selected_target_node ∈ tB.addrs
  compatible : Compatible fl h A B sel.selected_src_node sel.selected_target_node
  src_deficit : sel.src_nodes_to_prune = ((tB.find sel.selected_target_node).size : Int) -
    ((tA.find sel.selected_src_node).size : Int) - (A.MaxNodes - A.Count)
  target_deficit : sel.target_nodes_to_prune = ((tA.find sel.selected_src_node).size : Int) -
    ((tB.find sel.selected_target_node).size : Int) - (B.MaxNodes - B.Count)
  midB : TreeInv hmid B tB
  invA1 : TreeInv p.heap p.sourceTree tA1
  invB1 : TreeInv p.heap p.targetTree tB1
  typedA1 : WellTyped fl rtA tA1
  typedB1 : WellTyped fl rtB tB1
  keepA : tA1.find sel.selected_src_node = tA.find sel.selected_src_node
  keepB : tB1.find sel.selected_target_node = tB.find sel.selected_target_node
  wayA : tA1.pathTo sel.selected_src_node = tA.pathTo sel.selected_src_node
  wayB : tB1.pathTo sel.selected_target_node = tB.pathTo sel.selected_target_node
  removedA : p.n_pruned_src = (tA.size : Int) - (tA1.size : Int)
  removedB : p.n_pruned_target = (tB.size : Int) - (tB1.size : Int)
  enoughA : sel.src_nodes_to_prune ≤ p.n_pruned_src
  enoughB : sel.target_nodes_to_prune ≤ p.n_pruned_target
  nonnegA : 0 ≤ p.n_pruned_src
  nonnegB : 0 ≤ p.n_pruned_target
  zeroA : sel.src_nodes_to_prune ≤ 0 → p.n_pruned_src = 0
  zeroB : sel.target_nodes_to_prune ≤ 0 → p.n_pruned_target = 0
  calledA : 0 < sel.src_nodes_to_prune →
    Prune fl h A sel.src_nodes_to_prune (some sel.selected_src_node) rnd pos0 =
      some (p.n_pruned_src, p.sourceTree, hmid, posmid)
  calledB : 0 < sel.target_nodes_to_prune →
    Prune fl hmid B sel.target_nodes_to_prune (some sel.selected_target_node) rnd posmid =
      some (p.n_pruned_target, p.targetTree, p.heap, p.pos)
  invA2 : TreeInv h1 A1 (tA1.subst sel.selected_src_node
    ((tB.find sel.selected_target_node).copyAt
      (p.heap.length + (tA.find sel.selected_src_node).size)))
  invB2 : TreeInv h1 B1 (tB1.subst sel.selected_target_node
    ((tA.find sel.selected_src_node).copyAt p.heap.length))
  typedA2 : WellTyped fl rtA (tA1.subst sel.selected_src_node
    ((tB.find sel.selected_target_node).copyAt
      (p.heap.length + (tA.find sel.selected_src_node).size)))
  typedB2 : WellTyped fl rtB (tB1.subst sel.selected_target_node
    ((tA.find sel.selected_src_node).copyAt p.heap.length))
  sameType : ∃ ty, WellTyped fl ty (tA.find sel.selected_src_node) ∧
    WellTyped fl ty (tB.find sel.selected_target_node) ∧
    retType fl h sel.selected_src_node = some ty ∧
    retType fl h sel.selected_target_node = some ty
  maxA : A1.m_max_nodes = A.m_max_nodes
  maxB : B1.m_max_nodes = B.m_max_nodes

/-! ### Examples -/

/-- A tree object with budget 7 that owns `exTree7`. -/
def exGPTree7 : GPTree := ⟨7, 7, some 0⟩

/-- A registry with `F( t ) -> int`, `T() -> t` and `Two() -> int`, where the type
id of `int` is 1 and that of `t` is 3 (2 and 4 for their delayed twins): the ids
are `F` = 1, `T` = 3, `Two` = 5. -/
def crossRegistry : GPFunctionLookup :=
  ((((⟨[]⟩ : GPFunctionLookup).RegisterFunction "F" 1 2 [3]).1.RegisterFunction
    "T" 3 4 []).1.RegisterFunction "Two" 1 2 []).1

/-- A heap with the single node `Two` at cell 0 and the tree `F( T )` at the cells
1 and 2. -/
def crossHeap : Heap :=
  [⟨5, none, none, none, none⟩, ⟨1, some 2, none, none, none⟩, ⟨3, none, none, none, some 1⟩]

/-- The tree `Two` at cell 0 of `crossHeap`. -/
def crossSourceTree : Subtree := .node 0 5 .null .null .null

/-- The tree `F( T )` at the cells 1 and 2 of `crossHeap`. -/
def crossTargetTree : Subtree := .node 1 1 (.node 2 3 .null .null .null) .null .null

/-- A tree object with budget 2 that owns `crossSourceTree`. -/
def crossSource : GPTree := ⟨2, 1, some 0⟩

/-- A tree object with budget 2 that owns `crossTargetTree`. -/
def crossTarget : GPTree := ⟨2, 2, some 1⟩

/-- The cells of the tree `Add( Add( Two, Three ), Two )` from the address `b` on,
for the registry `exampleRegistry`: the root at `b`, the inner `Add` at `b + 1`,
the `Two` below the root at `b + 2`, and `Two`, `Three` below the inner `Add` at
`b + 3`, `b + 4`. -/
def addCells (b : Nat) : Heap :=
  [⟨1, some (b + 1), some (b + 2), none, none⟩,
    ⟨1, some (b + 3), some (b + 4), none, some b⟩, ⟨3, none, none, none, some b⟩,
    ⟨3, none, none, none, some (b + 1)⟩, ⟨5, none, none, none, some (b + 1)⟩]

/-- The tree in the cells `addCells b`. -/
def addTree (b : Nat) : Subtree :=
  .node b 1
    (.node (b + 1) 1 (.node (b + 3) 3 .null .null .null) (.node (b + 4) 5 .null .null .null)
      .null)
    (.node (b + 2) 3 .null .null .null) .null

/-- A heap with two copies of the tree `Add( Add( Two, Three ), Two )`, at the cells
0 .. 4 and 5 .. 9. -/
def pruneHeap : Heap := addCells 0 ++ addCells 5

/-- A tree object with budget 6 that owns `addTree 0`. -/
def pruneSource : GPTree := ⟨6, 5, some 0⟩

/-- A tree object with budget 5 that owns `addTree 5`. -/
def pruneTarget : GPTree := ⟨5, 5, some 5⟩

/-- A sequence of random draws: 1 first, 0 ever after. -/
def pruneDraws : Nat → Nat := fun n => if n = 0 then 1 else 0

end GP

namespace GP

/-! ### Walking the functions of one return type -/

/-- The id that `j` calls of `GetNextFuncWithReturnType( return_type_id, . )`
lead to from `previous`, each call on the result of the one before. -/
def nextIter (fl : GPFunctionLookup) (return_type_id : Int) : Nat → Int → Option Int
  | 0, previous => some previous
  | j + 1, previous =>
    match fl.GetNextFuncWithReturnType return_type_id previous with
    | none => none
    | some current => nextIter fl return_type_id j current

/-- The ids of the descriptors with the return type `return_type_id`, in
ascending order. -/
def GPFunctionLookup.idsWithReturnType (fl : GPFunctionLookup) (return_type_id : Int) :
    List Nat :=
  (List.range fl.m_nFuncs).filter (fun c => decide ((fl.descAt c).m_return_type = return_type_id))

end GP

namespace GP

/-! ## gpenvironment.h / gpenvironment.cpp: the environment -/

/-- The value `-std::numeric_limits<double>::max()` that stands for a fitness that
has not been computed; the largest finite `double` is `2^1024 - 2^971`, written
out here. -/
def LOWEST_FITNESS : Int :=
  -179769313486231570814527423731704356798070567525844996598917476803157260780028538760589558632766878171540458953514382464234321326889464182768467546703537516986049910576551282076245490090389328944075868508455133942304583236903222948165808559332123348274797826204144723168738177180919299881250404026184124858368

/-- The struct `Individual`: the tree object (`none` for the null pointer) and the
cached fitness.  The type `GPFitness` of the fitness is `double`; it is an
integer here, as the functions below compare and copy fitness values and do no
arithmetic on them. -/
structure Individual where
  m_tree : Option GPTree
  m_current_fitness : Int
deriving DecidableEq, Repr

/-- The class `GPEnvironment`: the registry it derives from, the array
`m_population` (`m_population_size` is its length), and the members
`m_max_tree_size` and `m_return_type`.  The fitness function and the statistics
are left out. -/
structure GPEnvironment extends GPFunctionLookup where
  m_population : List Individual
  m_max_tree_size : Int
  m_return_type : Int
deriving DecidableEq, Repr

/-- The member `m_population_size`. -/
def GPEnvironment.m_population_size (env : GPEnvironment) : Nat := env.m_population.length

/-- `GetPopulationSize()`. -/
def GPEnvironment.GetPopulationSize (env : GPEnvironment) : Int := (env.m_population_size : Int)

/-- `FunctionIDExists( id )`: the test `id < GetNumFunctions()`. -/
def GPFunctionLookup.FunctionIDExists (fl : GPFunctionLookup) (id : Int) : Bool :=
  decide (id < (fl.m_nFuncs : Int))

/-! ### Fitness scans -/

/-- The loop of `GetBestFitness` over the individuals from index `i` on. -/
def bestFitLoop : List Individual → Int → Int
  | [], bestFit => bestFit
  | ind :: rest, bestFit =>
    if ind.m_current_fitness > bestFit then bestFitLoop rest ind.m_current_fitness
    else bestFitLoop rest bestFit

/-- `GetBestFitness()`. -/
def GPEnvironment.GetBestFitness (env : GPEnvironment) : Int :=
  bestFitLoop env.m_population LOWEST_FITNESS

/-- The loop of `GetFittestIndividual` over the individuals from index `i` on. -/
def fittestLoop : List Individual → Nat → Int → Nat → Nat
  | [], _, _, fittestIndex => fittestIndex
  | ind :: rest, i, bestFit, fittestIndex =>
    if ind.m_current_fitness > bestFit then fittestLoop rest (i + 1) ind.m_current_fitness i
    else fittestLoop rest (i + 1) bestFit fittestIndex

/-- `GetFittestIndividual()`. -/
def GPEnvironment.GetFittestIndividual (env : GPEnvironment) : Nat :=
  fittestLoop env.m_population 0 LOWEST_FITNESS 0

/-- `GetIndividualFitness( idx )`. -/
def GPEnvironment.GetIndividualFitness (env : GPEnvironment) (idx : Nat) : Option Int :=
  (env.m_population[idx]?).map Individual.m_current_fitness

/-! ### OverrideIndividual -/

/-- The loop over `j` in `OverrideIndividual` for the node `this_node` with the
descriptor `this_function`, from `j` on for `n` rounds: `some false` when the
function returns false in it, `some true` when the loop ends. -/
def overrideParams (fl : GPFunctionLookup) (h : Heap) (this_node : GPTreeNode)
    (this_function : GPFunctionDesc) : Nat → Nat → Option Bool
  | 0, _ => some true
  | n + 1, j =>
    let hasParam : Bool := (this_node.parameters j).isSome
    let expectsParam : Bool := decide (this_function.m_nparams > j)
    if (hasParam && !expectsParam) || (!hasParam && expectsParam) then some false
    else if !hasParam && !expectsParam then overrideParams fl h this_node this_function n (j + 1)
    else
      match this_node.parameters j with
      | none => none
      | some p =>
        match h[p]? with
        | none => none
        | some param_node =>
          let paramFunctionExists := fl.FunctionIDExists param_node.functionID
          if !paramFunctionExists then some false
          else
            match fl.GetFunctionByID param_node.functionID with
            | none => none
            | some paramFunction =>
              let hasType := paramFunction.m_return_type
              let expectsType := this_function.paramType j
              if hasType ≠ expectsType then some false
              else overrideParams fl h this_node this_function n (j + 1)

/-- The loop over `i` in `OverrideIndividual`, from `i` on: `some false` when the
function returns false in it, `some true` when the loop ends. -/
def overrideLoop (fl : GPFunctionLookup) (h : Heap) (flattened : GPConstSubtreeIter) :
    Nat → Nat → Option Bool
  | 0, _ => none
  | fuel + 1, i =>
    if (i : Int) < flattened.Count then
      match flattened.GetNode (i : Int) with
      | none => none
      | some a =>
        match h[a]? with
        | none => none
        | some this_node =>
          if !fl.FunctionIDExists this_node.functionID then some false
          else
            match fl.GetFunctionByID this_node.functionID with
            | none => none
            | some this_function =>
              match overrideParams fl h this_node this_function GP_MAX_PARAMETERS 0 with
              | none => none
              | some false => some false
              | some true => overrideLoop fl h flattened fuel (i + 1)
    else some true

/-- `OverrideIndividual( idx, replacement )`: the returned flag and the environment
afterwards.  The tree that the individual had is deleted, which the model does
not show. -/
def GPEnvironment.OverrideIndividual (env : GPEnvironment) (h : Heap) (idx : Int)
    (replacement : GPTree) : Option (Bool × GPEnvironment) :=
  if idx < env.GetPopulationSize then
    match GPConstSubtreeIter.ofTree h replacement with
    | none => none
    | some flattened =>
      match overrideLoop env.toGPFunctionLookup h flattened (flattened.Count.toNat + 1) 0 with
      | none => none
      | some false => some (false, env)
      | some true =>
        if 0 ≤ idx then
          let population1 := env.m_population.set idx.toNat ⟨some replacement, LOWEST_FITNESS⟩
          some (true, { env with m_population := population1 })
        else none
  else none

/-! ### MutateAndCrossover: the ranking -/

/-- The fitness `m_population[ k ].m_current_fitness`. -/
def fitnessAt (m_population : List Individual) (k : Nat) : Option Int :=
  (m_population[k]?).map Individual.m_current_fitness

/-- The `while` loop of the ranking in `MutateAndCrossover`: the array
`ranked_by_fitness` afterwards. -/
def rankSwapLoop (m_population : List Individual) : Nat → List Nat → Nat → Option (List Nat)
  | 0, _, _ => none
  | fuel + 1, ranked_by_fitness, swap_index =>
    if swap_index > 0 then
      match ranked_by_fitness[swap_index]?, ranked_by_fitness[swap_index - 1]? with
      | some a, some b =>
        match fitnessAt m_population a, fitnessAt m_population b with
        | some fa, some fb =>
          if fa > fb then
            rankSwapLoop m_population fuel
              ((ranked_by_fitness.set swap_index b).set (swap_index - 1) a) (swap_index - 1)
          else some ranked_by_fitness
        | _, _ => none
      | _, _ => none
    else some ranked_by_fitness

/-- The `for` loop of the ranking in `MutateAndCrossover`, with `n` rounds to go:
the array `ranked_by_fitness` afterwards. -/
def rankLoop (m_population : List Individual) : Nat → Nat → List Nat → Nat → Option (List Nat)
  | 0, _, ranked_by_fitness, _ => some ranked_by_fitness
  | n + 1, i, ranked_by_fitness, write_index =>
    if write_index < ranked_by_fitness.length then
      match rankSwapLoop m_population (write_index + 1) (ranked_by_fitness.set write_index i)
          write_index with
      | none => none
      | some ranked1 => rankLoop m_population n (i + 1) ranked1 (write_index + 1)
    else none

/-- `memcpy( dst, src, sizeof( int ) * n )` on arrays of `int`. -/
def memcpyInts (dst src : List Nat) (n : Nat) : List Nat := src.take n ++ dst.drop n

/-- The two arrays `ranked_by_fitness` and `original_rankings` of
`MutateAndCrossover` when the ranking is done; the cells of a new array hold 0
here. -/
def rankPopulation (m_population : List Individual) : Option (List Nat × List Nat) :=
  match rankLoop m_population m_population.length 0
      (List.replicate m_population.length 0) 0 with
  | none => none
  | some ranked_by_fitness =>
    some (ranked_by_fitness,
      memcpyInts (List.replicate m_population.length 0) ranked_by_fitness m_population.length)

/-! ### MutateAndCrossover: the actions -/

/-- The enum `BREED_ACTION`. -/
inductive BREED_ACTION where
  | GP_KEEP
  | GP_TWOWAY
  | GP_ONEWAY
  | GP_COPYOF
  | GP_NEW
deriving DecidableEq, Repr

/-- The enum `BREED_INDEX_RELATIVITY`. -/
inductive BREED_INDEX_RELATIVITY where
  | GP_RELATIVE
  | GP_ABSOLUTE
  | GP_NOPARTNER
deriving DecidableEq, Repr

/-- The struct `ActionInfo`. -/
structure ActionInfo where
  m_action : BREED_ACTION
  m_mutate : Bool
  m_partner_index_relativity : BREED_INDEX_RELATIVITY
  m_partner_index : Int
deriving DecidableEq, Repr

/-- The table `actions[]` of `MutateAndCrossover`. -/
def actions : List ActionInfo :=
  [ ⟨.GP_KEEP, false, .GP_NOPARTNER, 0⟩,
    ⟨.GP_KEEP, false, .GP_NOPARTNER, 0⟩,
    ⟨.GP_ONEWAY, true, .GP_ABSOLUTE, 0⟩,
    ⟨.GP_ONEWAY, true, .GP_ABSOLUTE, 0⟩,
    ⟨.GP_ONEWAY, true, .GP_ABSOLUTE, 1⟩,
    ⟨.GP_ONEWAY, true, .GP_ABSOLUTE, 1⟩,
    ⟨.GP_TWOWAY, true, .GP_ABSOLUTE, 2⟩,
    ⟨.GP_TWOWAY, true, .GP_ABSOLUTE, 1⟩,
    ⟨.GP_COPYOF, true, .GP_ABSOLUTE, 0⟩,
    ⟨.GP_COPYOF, true, .GP_ABSOLUTE, 1⟩,
    ⟨.GP_COPYOF, true, .GP_ABSOLUTE, 0⟩,
    ⟨.GP_COPYOF, true, .GP_ABSOLUTE, 1⟩,
    ⟨.GP_COPYOF, true, .GP_ABSOLUTE, 2⟩,
    ⟨.GP_COPYOF, true, .GP_ABSOLUTE, 3⟩,
    ⟨.GP_NEW, false, .GP_NOPARTNER, 0⟩,
    ⟨.GP_NEW, false, .GP_NOPARTNER, 0⟩,
    ⟨.GP_NEW, false, .GP_NOPARTNER, 0⟩,
    ⟨.GP_COPYOF, true, .GP_ABSOLUTE, 0⟩ ]

/-- The value `n_actions`. -/
def n_actions : Nat := actions.length

/-- The first `switch` of the loop of `MutateAndCrossover`: the value of
`partner_index`; a failed `assert` or a read outside an array is `none`. -/
def breedPartner (m_population_size : Nat) (ranked_by_fitness original_rankings : List Nat)
    (current_action : ActionInfo) : Option Nat :=
  match current_action.m_partner_index_relativity with
  | .GP_RELATIVE =>
    if current_action.m_partner_index ≠ 0 then
      if 0 ≤ current_action.m_partner_index then
        ranked_by_fitness[current_action.m_partner_index.toNat]?
      else none
    else none
  | .GP_ABSOLUTE =>
    if current_action.m_partner_index ≥ 0 ∧
        current_action.m_partner_index < (m_population_size : Int) then
      original_rankings[current_action.m_partner_index.toNat]?
    else none
  | .GP_NOPARTNER => some 0

/-- The individual `m_population[ k ]` with another tree object. -/
def setTree (m_population : List Individual) (k : Nat) (tree : GPTree) : List Individual :=
  m_population.modify (fun ind => { ind with m_tree := some tree }) k

/-- The individual `m_population[ k ]` with another cached fitness. -/
def setFitness (m_population : List Individual) (k : Nat) (fitness : Int) :
    List Individual :=
  m_population.modify (fun ind => { ind with m_current_fitness := fitness }) k

/-- The tree object `m_population[ k ].m_tree`, `none` when the index is outside
the array or the pointer is null. -/
def treeAtIndex (m_population : List Individual) (k : Nat) : Option GPTree :=
  (m_population[k]?).bind Individual.m_tree

/-- The second `switch` of the loop of `MutateAndCrossover`, on `m_action`: the
population, the heap and the position of the next random draw afterwards.  The
counters of the statistics are left out, and so are the `delete`s. -/
def breedAction (env : GPEnvironment) (m_population : List Individual) (h : Heap)
    (rnd : Nat → Nat) (pos : Nat) (current_index partner_index : Nat) :
    BREED_ACTION → Option (List Individual × Heap × Nat)
  | .GP_KEEP => some (m_population, h, pos)
  | .GP_TWOWAY =>
    match treeAtIndex m_population current_index, treeAtIndex m_population partner_index with
    | some current_tree, some partner_tree =>
      if current_index ≠ partner_index then
        match CrossOver env.toGPFunctionLookup h current_tree partner_tree rnd pos with
        | none => none
        | some (_, current_tree1, partner_tree1, h1, pos1) =>
          some (setTree (setTree m_population current_index current_tree1) partner_index
            partner_tree1, h1, pos1)
      else none
    | _, _ => none
  | .GP_ONEWAY =>
    match treeAtIndex m_population current_index, treeAtIndex m_population partner_index with
    | some current_tree, some partner_tree =>
      match partner_tree.Duplicate h with
      | none => none
      | some (h1, target_copy) =>
        match CrossOver env.toGPFunctionLookup h1 current_tree target_copy rnd pos with
        | none => none
        | some (_, current_tree1, _, h2, pos1) =>
          some (setTree m_population current_index current_tree1, h2, pos1)
    | _, _ => none
  | .GP_NEW =>
    if current_index < m_population.length then
      match CreateRandomTree env.toGPFunctionLookup env.m_return_type env.m_max_tree_size
          rnd pos h with
      | none => none
      | some (none, _, _, _) => none
      | some (some new_subtree, _, h1, pos1) =>
        match (GPTree.new env.m_max_tree_size).Replace h1 none new_subtree with
        | none => none
        | some (_, tree1, h2) =>
          if tree1.Count > 0 then
            some (setFitness (setTree m_population current_index tree1) current_index
              LOWEST_FITNESS, h2, pos1)
          else none
    else none
  | .GP_COPYOF =>
    if current_index < m_population.length ∧ current_index ≠ partner_index then
      match treeAtIndex m_population partner_index, fitnessAt m_population partner_index with
      | some partner_tree, some partner_fitness =>
        match partner_tree.Duplicate h with
        | none => none
        | some (h1, copy) =>
          some (setFitness (setTree m_population current_index copy) current_index
            partner_fitness, h1, pos)
      | _, _ => none
    else none

/-- The block `if ( current_action.m_mutate )` of the loop of
`MutateAndCrossover`. -/
def breedMutate (env : GPEnvironment) (m_population : List Individual) (h : Heap)
    (rnd : Nat → Nat) (pos : Nat) (current_index : Nat) (m_mutate : Bool) :
    Option (List Individual × Heap × Nat) :=
  if m_mutate then
    match treeAtIndex m_population current_index with
    | none => none
    | some current_tree =>
      match MutateTree env.toGPFunctionLookup h current_tree rnd pos with
      | none => none
      | some (tree1, h1, pos1) =>
        some (setFitness (setTree m_population current_index tree1) current_index
          LOWEST_FITNESS, h1, pos1)
  else some (m_population, h, pos)

/-- The loop `for( int j = 0; j < nLeftToProcess; ++j )` that moves the ranking one
place to the front, from `j` on with `n` rounds to go. -/
def shiftLoop : Nat → Nat → List Nat → Option (List Nat)
  | 0, _, ranked_by_fitness => some ranked_by_fitness
  | n + 1, j, ranked_by_fitness =>
    match ranked_by_fitness[j + 1]? with
    | none => none
    | some v =>
      if j < ranked_by_fitness.length then
        shiftLoop n (j + 1) (ranked_by_fitness.set j v)
      else none

/-- The variables that the loop of `MutateAndCrossover` changes: the population,
the heap, the position of the next random draw, the array `ranked_by_fitness` and
`nLeftToProcess`. -/
structure BreedState where
  m_population : List Individual
  heap : Heap
  pos : Nat
  ranked_by_fitness : List Nat
  nLeftToProcess : Nat
deriving DecidableEq, Repr

/-- One round of the loop of `MutateAndCrossover`, for the loop counter `i`. -/
def breedStep (env : GPEnvironment) (original_rankings : List Nat) (rnd : Nat → Nat) (i : Nat)
    (s : BreedState) : Option BreedState :=
  match s.ranked_by_fitness[0]? with
  | none => none
  | some current_index =>
    let action_index := min i (n_actions - 1)
    match actions[action_index]? with
    | none => none
    | some current_action =>
      match breedPartner env.m_population_size s.ranked_by_fitness original_rankings
          current_action with
      | none => none
      | some partner_index =>
        if current_index < env.m_population_size ∧ partner_index < env.m_population_size then
          match breedAction env s.m_population s.heap rnd s.pos current_index partner_index
              current_action.m_action with
          | none => none
          | some (population1, h1, pos1) =>
            match breedMutate env population1 h1 rnd pos1 current_index
                current_action.m_mutate with
            | none => none
            | some (population2, h2, pos2) =>
              if 0 < s.nLeftToProcess then
                match shiftLoop (s.nLeftToProcess - 1) 0 s.ranked_by_fitness with
                | none => none
                | some ranked1 => some ⟨population2, h2, pos2, ranked1, s.nLeftToProcess - 1⟩
              else none
        else none

/-- The loop of `MutateAndCrossover` from the loop counter `i` on, with `n` rounds
to go. -/
def breedLoop (env : GPEnvironment) (original_rankings : List Nat) (rnd : Nat → Nat) :
    Nat → Nat → BreedState → Option BreedState
  | 0, _, s => some s
  | n + 1, i, s =>
    match breedStep env original_rankings rnd i s with
    | none => none
    | some s1 => breedLoop env original_rankings rnd n (i + 1) s1

/-- `MutateAndCrossover()`: the environment, the heap and the position of the next
random draw afterwards. -/
def GPEnvironment.MutateAndCrossover (env : GPEnvironment) (h : Heap) (rnd : Nat → Nat)
    (pos : Nat) : Option (GPEnvironment × Heap × Nat) :=
  match rankPopulation env.m_population with
  | none => none
  | some (ranked_by_fitness, original_rankings) =>
    match breedLoop env original_rankings rnd env.m_population_size 0
        ⟨env.m_population, h, pos, ranked_by_fitness, env.m_population_size⟩ with
    | none => none
    | some s => some ({ env with m_population := s.m_population }, s.heap, s.pos)

/-- `EvaluateAll()` for the fitness-and-test function `f`, which gets the
environment, the heap and the index of the individual: every individual's cached
fitness is what `f` returns for it, in the order of the indices. -/
def evaluateLoop (f : GPEnvironment → Heap → Nat → Int) (h : Heap) :
    Nat → Nat → GPEnvironment → GPEnvironment
  | 0, _, env => env
  | n + 1, i, env =>
    evaluateLoop f h n (i + 1)
      { env with m_population := setFitness env.m_population i (f env h i) }

/-- `EvaluateAll()`. -/
def GPEnvironment.EvaluateAll (env : GPEnvironment) (f : GPEnvironment → Heap → Nat → Int)
    (h : Heap) : GPEnvironment :=
  evaluateLoop f h env.m_population_size 0 env

/-! ### Example data for the environment -/

/-- An environment with the registry `exampleRegistry` (`Add` = 1, `Two` = 3,
`Three` = 5, six descriptors), budget 3, return type `int` and two individuals
without trees. -/
def exEnvironment : GPEnvironment :=
  { toGPFunctionLookup := exampleRegistry
    m_population := [⟨none, LOWEST_FITNESS⟩, ⟨none, LOWEST_FITNESS⟩]
    m_max_tree_size := 3
    m_return_type := 1 }

/-- A heap with one node, made by `new GPTreeNode( NULLFUNC )`. -/
def nullfuncHeap : Heap := [GPTreeNode.mk0 NULLFUNC]

/-- A tree object with budget 1 that owns the node of `nullfuncHeap`. -/
def nullfuncTree : GPTree := ⟨1, 1, some 0⟩

end GP

namespace GP

/-! ### The population in the heap -/

/-- The population `pop` in the heap `h`: every individual `k` has a tree object
that owns the tree `ts k`, a well-formed tree of the return type `rt` for the
registry, and the trees of two individuals have no cell in common. -/
structure PopInv (fl : GPFunctionLookup) (rt : Int) (h : Heap) (pop : List Individual)
    (ts : Nat → Subtree) : Prop where
  tree : ∀ k, k < pop.length →
    ∃ T, treeAtIndex pop k = some T ∧ TreeInv h T (ts k) ∧ WellTyped fl rt (ts k)
  apart : ∀ j k, j < pop.length → k < pop.length → j ≠ k →
    ∀ z ∈ (ts j).addrs, z ∉ (ts k).addrs

/-- What a part of the loop of `MutateAndCrossover` that writes to the
individuals `W` only leaves behind, from the heap `h`, the population `pop` and
its trees `ts`: the population in the new heap, of the same size; the
individuals outside `W` and their trees as they were; every node of a tree a
node of the tree of before or a cell behind the old heap; and the cells of the
old heap outside the trees of `W` as they were. -/
structure BreedFrame (fl : GPFunctionLookup) (rt : Int) (h : Heap) (pop : List Individual)
    (ts : Nat → Subtree) (W : List Nat) (h1 : Heap) (pop1 : List Individual)
    (ts1 : Nat → Subtree) : Prop where
  inv : PopInv fl rt h1 pop1 ts1
  len : pop1.length = pop.length
  grow : h.length ≤ h1.length
  same : ∀ k, k ∉ W → pop1[k]? = pop[k]? ∧ ts1 k = ts k
  old : ∀ k, k < pop.length → ∀ y ∈ (ts1 k).addrs, y ∈ (ts k).addrs ∨ h.length ≤ y
  frame : ∀ a, a < h.length → (∀ k ∈ W, k < pop.length → a ∉ (ts k).addrs) → h1[a]? = h[a]?

/-- The individuals that round `i` of the loop of `MutateAndCrossover` writes to,
for the ranking `original_rankings`: the individual of rank `i`, unless the entry
of the table is `GP_KEEP` without mutation, and the partner when the entry is
`GP_TWOWAY`. -/
def writtenAt (original_rankings : List Nat) (i : Nat) : List Nat :=
  match actions[min i (n_actions - 1)]? with
  | none => []
  | some a =>
    (if a.m_action = .GP_KEEP ∧ a.m_mutate = false then [] else [original_rankings.getD i 0]) ++
      (if a.m_action = .GP_TWOWAY then [original_rankings.getD a.m_partner_index.toNat 0]
        else [])

/-- The individuals that the rounds `i`, ..., `i + n - 1` write to. -/
def writtenFrom (original_rankings : List Nat) : Nat → Nat → List Nat
  | 0, _ => []
  | n + 1, i => writtenAt original_rankings i ++ writtenFrom original_rankings n (i + 1)

/-- A fitness-and-test function is deterministic: the fitness that it returns for
an individual depends on the index and on the tree of the individual only, that
is, it is the same in two environments and heaps in which the individual has the
same tree object and this owns the same tree. -/
def DeterministicFitness (f : GPEnvironment → Heap → Nat → Int) : Prop :=
  ∀ (e1 e2 : GPEnvironment) (g1 g2 : Heap) (k : Nat) (T : GPTree) (t : Subtree),
    treeAtIndex e1.m_population k = some T → treeAtIndex e2.m_population k = some T →
    TreeInv g1 T t → TreeInv g2 T t → f e1 g1 k = f e2 g2 k

/-! ### Example data for MutateAndCrossover -/

/-- A heap with three copies of the tree `Add( Add( Two, Three ), Two )`, at the
cells 0 .. 4, 5 .. 9 and 10 .. 14. -/
def breedHeap : Heap := addCells 0 ++ addCells 5 ++ addCells 10

/-- The tree of individual `k` in `breedHeap`. -/
def breedTrees (k : Nat) : Subtree := addTree (5 * k)

/-- An environment with the registry `exampleRegistry`, budget 7, return type `int`
and three individuals that own the three trees of `breedHeap`, each with the
cached fitness 5. -/
def breedEnvironment : GPEnvironment :=
  { toGPFunctionLookup := exampleRegistry
    m_population := [⟨some ⟨7, 5, some 0⟩, 5⟩, ⟨some ⟨7, 5, some 5⟩, 5⟩, ⟨some ⟨7, 5, some 10⟩, 5⟩]
    m_max_tree_size := 7
    m_return_type := 1 }

/-- A fitness-and-test function: the cached node count of the tree of the
individual. -/
def countFitness (env : GPEnvironment) (_ : Heap) (k : Nat) : Int :=
  ((treeAtIndex env.m_population k).map GPTree.m_count).getD 0

end GP

namespace GP

/-! ### The test of OverrideIndividual, on trees -/

/-- The test of `OverrideIndividual` on parameter slot `j` of a node with the
descriptor `d`, for the tree `c` below the slot: when the function has a
parameter `j`, the slot holds a node whose function id passes `FunctionIDExists`
and whose function returns the type of the parameter; otherwise the slot is
empty. -/
def childFits (fl : GPFunctionLookup) (d : GPFunctionDesc) (j : Nat) (c : Subtree) : Prop :=
  if j < d.m_nparams then
    c.isNode = true ∧ c.fid < (fl.m_nFuncs : Int) ∧
      (fl.GetFunctionByID c.fid).map GPFunctionDesc.m_return_type = some (d.paramType j)
  else c = .null

instance (fl : GPFunctionLookup) (d : GPFunctionDesc) (j : Nat) (c : Subtree) :
    Decidable (childFits fl d j c) := by
  unfold childFits; exact inferInstance

/-- The test of `OverrideIndividual` on the three parameter slots of a node, for
what `GetFunctionByID` gives for its function id. -/
def slotsFit (fl : GPFunctionLookup) : Option GPFunctionDesc → Subtree → Subtree → Subtree → Prop
  | none, _, _, _ => False
  | some d, c0, c1, c2 => childFits fl d 0 c0 ∧ childFits fl d 1 c1 ∧ childFits fl d 2 c2

instance slotsFit.instDecidable (fl : GPFunctionLookup) :
    (o : Option GPFunctionDesc) → (c0 c1 c2 : Subtree) → Decidable (slotsFit fl o c0 c1 c2)
  | none, _, _, _ => isFalse (fun h => h)
  | some d, c0, c1, c2 =>
    inferInstanceAs (Decidable (childFits fl d 0 c0 ∧ childFits fl d 1 c1 ∧ childFits fl d 2 c2))

/-- The test of `OverrideIndividual` on the root of a tree: the function id passes
`FunctionIDExists`, and the three parameter slots fit the descriptor. -/
def nodeFits (fl : GPFunctionLookup) : Subtree → Prop
  | .null => True
  | .node _ f c0 c1 c2 =>
    f < (fl.m_nFuncs : Int) ∧ slotsFit fl (fl.GetFunctionByID f) c0 c1 c2

instance nodeFits.instDecidable (fl : GPFunctionLookup) : (u : Subtree) → Decidable (nodeFits fl u)
  | .null => isTrue trivial
  | .node _ f c0 c1 c2 =>
    inferInstanceAs (Decidable (f < (fl.m_nFuncs : Int) ∧
      slotsFit fl (fl.GetFunctionByID f) c0 c1 c2))

end GP

namespace GP

/-! ### The subtrees beside the way to a node -/

/-- The subtrees that hang off the way from the root of `t` down to its node `x`:
for every node above `x`, from the root downwards, the trees below those of its
parameter links that are not null and do not lead to `x`. -/
def Subtree.offPath : Subtree → Nat → List Subtree
  | .null, _ => []
  | .node a _ c0 c1 c2, x =>
    if a = x then []
    else
      (if x ∈ c0.addrs then c0.offPath x else nonNull [c0]) ++
      (if x ∈ c1.addrs then c1.offPath x else nonNull [c1]) ++
      (if x ∈ c2.addrs then c2.offPath x else nonNull [c2])

/-- The value of `CalculatePotentialPrunes` in the words of its description: the
size of the subtree of the node `x` plus, for every subtree that hangs off the
way from the root to `x`, its size minus one. -/
def Subtree.potentialPrunes (t : Subtree) (x : Nat) : Int :=
  ((t.find x).size : Int) + ((t.offPath x).map (fun c => (c.size : Int) - 1)).sum

end GP

namespace GP

/-! ### Example data: a population of eight -/

/-- A heap with eight leaves: `Two` at the cells 0 .. 6 and `Three` at cell 7
(function ids as in `exampleRegistry`). -/
def keepHeap : Heap :=
  [GPTreeNode.mk0 3, GPTreeNode.mk0 3, GPTreeNode.mk0 3, GPTreeNode.mk0 3, GPTreeNode.mk0 3,
    GPTreeNode.mk0 3, GPTreeNode.mk0 3, GPTreeNode.mk0 5]

/-- The tree of individual `k` in `keepHeap`. -/
def keepTrees (k : Nat) : Subtree :=
  .node k (if k = 7 then 5 else 3) .null .null .null

/-- An environment with the registry `exampleRegistry`, budget 1, return type `int`
and eight individuals; individual `k` owns the leaf at cell `k` of `keepHeap` and
has the cached fitness `8 - k`, so that the ranking is 0, 1, ..., 7. -/
def keepEnvironment : GPEnvironment :=
  { toGPFunctionLookup := exampleRegistry
    m_population :=
      [⟨some ⟨1, 1, some 0⟩, 8⟩, ⟨some ⟨1, 1, some 1⟩, 7⟩, ⟨some ⟨1, 1, some 2⟩, 6⟩,
        ⟨some ⟨1, 1, some 3⟩, 5⟩, ⟨some ⟨1, 1, some 4⟩, 4⟩, ⟨some ⟨1, 1, some 5⟩, 3⟩,
        ⟨some ⟨1, 1, some 6⟩, 2⟩, ⟨some ⟨1, 1, some 7⟩, 1⟩]
    m_max_tree_size := 1
    m_return_type := 1 }

end GP

namespace GP

/-! ### Example data: a registry with one function -/

/-- The registry after `RegisterFunction( "Add", Add )` alone, for
`int Add( int, int )`: the delayed descriptor has the id 0, `Add` the id 1; the
type id of `int` is 1 and that of its delayed twin is 2. -/
def addOnlyRegistry : GPFunctionLookup :=
  ((⟨[]⟩ : GPFunctionLookup).RegisterFunction "Add" 1 2 [1, 1]).1

end GP

namespace GP

/-! ## gpfunctionlookup.h: dispatch

The registered C++ functions are pure functions here: their side effects and the
order in which C++ evaluates the arguments of a call are not modelled.  All
C++ value types are one type `V`, so the `reinterpret_cast`s of the invoke
functions are not checked. -/

/-- What an invoke function returns to the function above it: a value, or the
object `GPDelayedEvaluation< R >( functions, f )`, of which only the member
function `Evaluate` matters. -/
inductive GPArg (V : Type) where
  | value (v : V) : GPArg V
  | delayed (Evaluate : Unit → Option V) : GPArg V

/-- The invoke function behind `m_invoke_ptr`: null in a default descriptor,
`GPInvokeFunctionN` (or `GPInvokeMemberFunctionN`) for a function with `N`
parameters, or `GPDelayedInvokeFunction`. -/
inductive GPInvoke where
  | null : GPInvoke
  | eager (nparams : Nat) : GPInvoke
  | delayed : GPInvoke
deriving DecidableEq, Repr

/-- The members of a descriptor that hold code: the registered function behind
`m_function_ptr` (with `m_member_owner` bound, for a member function), as a
function of its arguments, and `m_invoke_ptr`. -/
structure GPFunctionCode (V : Type) where
  m_function_ptr : List (GPArg V) → Option V
  m_invoke_ptr : GPInvoke

/-- The code members of the descriptor built by the default constructor: calling
through the zeroed function pointer has no result. -/
def GPFunctionCode.default {V : Type} : GPFunctionCode V := ⟨fun _ => none, .null⟩

/-- The registry with the code members of its descriptors: `m_code[ i ]` belongs
to `m_functions[ i ]`. -/
structure GPDispatch (V : Type) extends GPFunctionLookup where
  m_code : List (GPFunctionCode V)

/-- The code members of `GetFunctionByID( id )`. -/
def GPDispatch.codeAt {V : Type} (d : GPDispatch V) (id : Int) : Option (GPFunctionCode V) :=
  if 0 ≤ id ∧ id < ((GP_MAX_FUNCTIONS * 2 : Nat) : Int) then
    some (d.m_code.getD id.toNat GPFunctionCode.default)
  else none

/-- `RegisterFunction( name, myFunc )` with the code members: `delayedfinfo` is a
copy of `finfo`, so it has the same `m_function_ptr`, and its `m_invoke_ptr` is
`GPDelayedInvokeFunction< R >`; `finfo` has `GPInvokeFunctionN` for the number of
parameters of `myFunc`. -/
def GPDispatch.RegisterFunction {V : Type} (d : GPDispatch V) (name : String)
    (return_type delayed_return_type : Int) (param_types : List Int)
    (myFunc : List (GPArg V) → Option V) : GPDispatch V × Int :=
  let r := d.toGPFunctionLookup.RegisterFunction name return_type delayed_return_type param_types
  (⟨r.1, d.m_code ++ [⟨myFunc, .delayed⟩, ⟨myFunc, .eager param_types.length⟩]⟩, r.2)

/-- The arguments that `GPInvokeFunctionN` builds: the invoke function of the node
behind each of the parameter links `i`, ..., `i + n - 1` called on that node,
where `invoke` stands for such a call. -/
def invokeParams {V : Type} (invoke : Nat → Option (GPArg V)) (f : GPTreeNode) :
    Nat → Nat → Option (List (GPArg V))
  | 0, _ => some []
  | n + 1, i =>
    match f.parameters i with
    | none => none
    | some child =>
      match invoke child with
      | none => none
      | some v =>
        match invokeParams invoke f n (i + 1) with
        | none => none
        | some rest => some (v :: rest)

/-- `GPInvokeFunctionN< R, P1, .., PN >( functions, f )` for `N = nparams`: the
function behind `m_function_ptr` of the descriptor of `f` is called with the
results of the invoke functions of the children. -/
def GPInvokeFunction {V : Type} (d : GPDispatch V) (h : Heap)
    (invoke : Nat → Option (GPArg V)) (nparams : Nat) (f : Nat) : Option V :=
  match h[f]? with
  | none => none
  | some nd =>
    match d.codeAt nd.functionID with
    | none => none
    | some desc =>
      match invokeParams invoke nd nparams 0 with
      | none => none
      | some args => desc.m_function_ptr args

/-- `GPDelayedEvaluation< R >::Evaluate()` for the object that refers to the node
`m_treenode`: the invoke function of the original of the node's descriptor is
called on the node. -/
def Evaluate {V : Type} (d : GPDispatch V) (h : Heap) (invoke : Nat → Option (GPArg V))
    (m_treenode : Nat) : Option V :=
  match h[m_treenode]? with
  | none => none
  | some nd =>
    match d.GetFunctionByID nd.functionID with
    | none => none
    | some desc =>
      match d.codeAt desc.m_original_function_id with
      | none => none
      | some original =>
        match original.m_invoke_ptr with
        | .eager nparams => GPInvokeFunction d h invoke nparams m_treenode
        | _ => none

/-- The call of the invoke function of the descriptor of `node` on `node`, as the
invoke functions and `ExecuteTree` do it.  Every call goes one level down the
tree, so the fuel can only run out when the links of the heap go in a circle. -/
def invokeNode {V : Type} (d : GPDispatch V) (h : Heap) : Nat → Nat → Option (GPArg V)
  | 0, _ => none
  | fuel + 1, node =>
    match h[node]? with
    | none => none
    | some nd =>
      match d.codeAt nd.functionID with
      | none => none
      | some desc =>
        match desc.m_invoke_ptr with
        | .null => none
        | .eager nparams =>
          (GPInvokeFunction d h (invokeNode d h fuel) nparams node).map GPArg.value
        | .delayed => some (.delayed (fun _ => Evaluate d h (invokeNode d h fuel) node))

/-- `ExecuteTree< R >( functions, treeRoot )`: the invoke function of the root is
called as a function that returns an `R`. -/
def ExecuteTree {V : Type} (d : GPDispatch V) (h : Heap) (treeRoot : Option Nat) : Option V :=
  match treeRoot with
  | none => none
  | some root =>
    match invokeNode d h (h.length + 1) root with
    | some (.value v) => some v
    | _ => none

/-! ### Evaluation in the words of the description -/

/-- The first `n` of the results of the children, when each of them is there. -/
def takeArgs {V : Type} : Nat → List (Option (GPArg V)) → Option (List (GPArg V))
  | 0, _ => some []
  | _ + 1, [] => none
  | _ + 1, none :: _ => none
  | n + 1, some v :: rest =>
    match takeArgs n rest with
    | none => none
    | some args => some (v :: args)

/-- What the node at the root of `c` hands to the function above it, when
`applied` is the result of its own function on its children: this value for a
node of a function itself, and a suspended computation of it for a node of a
delayed twin. -/
def Subtree.handUp {V : Type} (d : GPDispatch V) (c : Subtree) (applied : Option V) :
    Option (GPArg V) :=
  match d.codeAt c.fid with
  | none => none
  | some desc =>
    match desc.m_invoke_ptr with
    | .null => none
    | .eager _ => applied.map GPArg.value
    | .delayed => some (.delayed (fun _ => applied))

/-- The registered function of the root applied to what the children hand up, in
the order of the parameters. -/
def Subtree.applied {V : Type} (d : GPDispatch V) : Subtree → Option V
  | .null => none
  | .node _ f c0 c1 c2 =>
    match d.GetFunctionByID f, d.codeAt f with
    | some desc, some code =>
      match takeArgs desc.m_nparams [c0.handUp d (c0.applied d), c1.handUp d (c1.applied d),
          c2.handUp d (c2.applied d)] with
      | none => none
      | some args => code.m_function_ptr args
    | _, _ => none

/-- The registry keeps its pairs in the code members too: the descriptor of a
function itself has the invoke function for its number of parameters; a delayed
descriptor has the delayed invoke function, and its original is a descriptor of
the registry with the same number of parameters, the same function behind
`m_function_ptr` and the invoke function for this number of parameters. -/
def GPDispatch.Paired {V : Type} (d : GPDispatch V) : Prop :=
  ∀ (id : Int) (desc : GPFunctionDesc) (code : GPFunctionCode V),
    0 ≤ id → id < (d.m_nFuncs : Int) → d.GetFunctionByID id = some desc →
    d.codeAt id = some code →
    (desc.m_original_function_id = NULLFUNC → code.m_invoke_ptr = .eager desc.m_nparams) ∧
    (desc.m_original_function_id ≠ NULLFUNC →
      code.m_invoke_ptr = .delayed ∧ 0 ≤ desc.m_original_function_id ∧
      desc.m_original_function_id < (d.m_nFuncs : Int) ∧
      ∃ (odesc : GPFunctionDesc) (ocode : GPFunctionCode V),
        d.GetFunctionByID desc.m_original_function_id = some odesc ∧
        d.codeAt desc.m_original_function_id = some ocode ∧
        odesc.m_original_function_id = NULLFUNC ∧ odesc.m_nparams = desc.m_nparams ∧
        odesc.m_param_types = desc.m_param_types ∧
        ocode.m_function_ptr = code.m_function_ptr)

/-- Every node of the tree is a node of a function itself, none of a delayed
twin. -/
def AllEager (fl : GPFunctionLookup) : Subtree → Prop
  | .null => True
  | .node _ f c0 c1 c2 =>
    (match fl.GetFunctionByID f with
      | none => False
      | some desc => desc.m_original_function_id = NULLFUNC) ∧
      AllEager fl c0 ∧ AllEager fl c1 ∧ AllEager fl c2

instance AllEager.instDecidable (fl : GPFunctionLookup) : (t : Subtree) → Decidable (AllEager fl t)
  | .null => isTrue trivial
  | .node _ f c0 c1 c2 =>
    have := AllEager.instDecidable fl c0
    have := AllEager.instDecidable fl c1
    have := AllEager.instDecidable fl c2
    by
      unfold AllEager
      cases fl.GetFunctionByID f <;> exact inferInstance

/-- The registry without any function, with its code members. -/
def GPDispatch.empty {V : Type} : GPDispatch V := ⟨⟨[]⟩, []⟩

/-- The tree with the function id of its root replaced. -/
def Subtree.withFid : Subtree → Int → Subtree
  | .null, _ => .null
  | .node a _ c0 c1 c2, f => .node a f c0 c1 c2

/-! ### Example data: the functions of the first example with their code -/

/-- The C++ function `int Add( int a, int b )`. -/
def codeAdd : List (GPArg Int) → Option Int
  | [.value a, .value b] => some (a + b)
  | _ => none

/-- The C++ function `int Mul( int a, int b )`. -/
def codeMul : List (GPArg Int) → Option Int
  | [.value a, .value b] => some (a * b)
  | _ => none

/-- The C++ function `int Two()`. -/
def codeTwo : List (GPArg Int) → Option Int
  | [] => some 2
  | _ => none

/-- The C++ function `int Three()`. -/
def codeThree : List (GPArg Int) → Option Int
  | [] => some 3
  | _ => none

/-- A function `int IfPositive( int c, GPDelayedEvaluation< int > a,
GPDelayedEvaluation< int > b )` that evaluates `a` when `c` is above 0 and `b`
otherwise. -/
def codeIfPositive : List (GPArg Int) → Option Int
  | [.value c, .delayed a, .delayed b] => if 0 < c then a () else b ()
  | _ => none

/-- The registry of the first example with `Add`, `Mul`, `Two`, `Three`
registered in this order, and `IfPositive` after them; the type id of `int` is 1
and that of its delayed twin is 2.  The ids are `Add` = 1, `Mul` = 3, `Two` = 5,
`Three` = 7, `IfPositive` = 9 (and 0, 2, 4, 6, 8 for the delayed twins). -/
def exampleDispatch : GPDispatch Int :=
  ((((((GPDispatch.empty : GPDispatch Int).RegisterFunction "Add" 1 2 [1, 1]
    codeAdd).1.RegisterFunction "Mul" 1 2 [1, 1] codeMul).1.RegisterFunction "Two" 1 2 []
    codeTwo).1.RegisterFunction "Three" 1 2 [] codeThree).1.RegisterFunction "IfPositive" 1 2
    [1, 2, 2] codeIfPositive).1

/-- A heap with the tree `Add( Two, Mul( Three, Three ) )` at the cells 0 .. 4 and
the tree `IfPositive( Two, Three', Add'( Two, Two ) )` at the cells 5 .. 10, where
`Three'` and `Add'` are nodes of the delayed twins. -/
def execHeap : Heap :=
  [⟨1, some 1, some 2, none, none⟩, ⟨5, none, none, none, some 0⟩,
    ⟨3, some 3, some 4, none, some 0⟩, ⟨7, none, none, none, some 2⟩,
    ⟨7, none, none, none, some 2⟩,
    ⟨9, some 6, some 7, some 8, none⟩, ⟨5, none, none, none, some 5⟩,
    ⟨6, none, none, none, some 5⟩, ⟨0, some 9, some 10, none, some 5⟩,
    ⟨5, none, none, none, some 8⟩, ⟨5, none, none, none, some 8⟩]

/-- The tree `Add( Two, Mul( Three, Three ) )` of `execHeap`. -/
def execTree : Subtree :=
  .node 0 1 (.node 1 5 .null .null .null)
    (.node 2 3 (.node 3 7 .null .null .null) (.node 4 7 .null .null .null) .null) .null

/-- The tree `IfPositive( Two, Three', Add'( Two, Two ) )` of `execHeap`. -/
def execLazyTree : Subtree :=
  .node 5 9 (.node 6 5 .null .null .null) (.node 7 6 .null .null .null)
    (.node 8 0 (.node 9 5 .null .null .null) (.node 10 5 .null .null .null) .null)

end GP

namespace GP

/-! ## gpreporting.cpp: SerializeTree and DeserializeTree

The text of a `std::stringstream` is a list of characters.  The stream that
`DeserializeTree` reads is in the good state at the start and holds the whole
text, as a stream that `SerializeTree` has written and nothing has read.  The
extraction operators follow C++11 for the default flags of the stream and the
"C" locale; `int` has 32 bits. -/

/-- `isspace` in the "C" locale: space, `\t`, `\n`, `\v`, `\f`, `\r`. -/
def isSpace (c : Char) : Bool :=
  c.toNat = 32 || (9 ≤ c.toNat && c.toNat ≤ 13)

/-- `isdigit`. -/
def isDigit (c : Char) : Bool := 48 ≤ c.toNat && c.toNat ≤ 57

/-- The character of a decimal digit. -/
def digitChar (k : Nat) : Char := Char.ofNat (48 + k)

/-- The space character. -/
def chSpace : Char := Char.ofNat 32

/-- The newline character that `std::endl` writes. -/
def chNewline : Char := Char.ofNat 10

/-- The decimal digits of `n`, the most significant one first; the fuel bounds the
number of digits. -/
def decDigits : Nat → Nat → List Char
  | 0, _ => []
  | fuel + 1, n => if n < 10 then [digitChar n] else decDigits fuel (n / 10) ++ [digitChar (n % 10)]

/-- What `out << i` writes for an `int` that is not negative. -/
def printNat (n : Nat) : List Char := decDigits (n + 1) n

/-- What `out << i` writes for an `int`. -/
def printInt (i : Int) : List Char :=
  if 0 ≤ i then printNat i.toNat else Char.ofNat 45 :: printNat (-i).toNat

/-- The number of a list of decimal digits, the most significant one first, on
top of the number `acc` of the digits before them. -/
def digitsValue (acc : Nat) : List Char → Nat
  | [] => acc
  | c :: rest => digitsValue (acc * 10 + (c.toNat - 48)) rest

/-- The input side of a `std::stringstream`: the characters that have not been
read yet, `eofbit` and `failbit`. -/
structure IStream where
  buf : List Char
  eofbit : Bool
  failbit : Bool
deriving DecidableEq, Repr

/-- The `sentry` of a formatted input function: in a stream that is not good it
sets `failbit`; else it skips the white space, and sets `eofbit` and `failbit`
when the text ends there.  The flag says whether the input may go on. -/
def IStream.sentry (s : IStream) : IStream × Bool :=
  if s.eofbit || s.failbit then ({ s with failbit := true }, false)
  else
    match s.buf.dropWhile isSpace with
    | [] => (⟨[], true, true⟩, false)
    | c :: rest => ({ s with buf := c :: rest }, true)

/-- `in >> val` for an `int`: the stream and the variable afterwards, where `none`
is a variable that has never been given a value.  Without the sentry's consent
the variable keeps what it had.  Else an optional sign and the digits behind it
are read; without a digit `failbit` is set and the value is 0, a number outside
the range of `int` gives the nearest `int` and sets `failbit`, and `eofbit` is
set when the text ends behind the digits. -/
def IStream.readInt (s : IStream) (val : Option Int) : IStream × Option Int :=
  match s.sentry with
  | (s1, false) => (s1, val)
  | (s1, true) =>
    let negative : Bool := s1.buf.head? = some (Char.ofNat 45)
    let signed : Bool := negative || s1.buf.head? = some (Char.ofNat 43)
    let body := if signed then s1.buf.tail else s1.buf
    let digits := body.takeWhile isDigit
    let rest := body.dropWhile isDigit
    let ended : Bool := rest.isEmpty
    if digits.isEmpty then (⟨rest, ended, true⟩, some 0)
    else
      let magnitude : Int := (digitsValue 0 digits : Nat)
      let v : Int := if negative then -magnitude else magnitude
      if v > 2147483647 then (⟨rest, ended, true⟩, some 2147483647)
      else if v < -2147483648 then (⟨rest, ended, true⟩, some (-2147483648))
      else (⟨rest, ended, false⟩, some v)

/-- `in >> str` for a `std::string`: without the sentry's consent the string keeps
what it had; else the characters up to the next white space are read, and
`eofbit` is set when the text ends behind them. -/
def IStream.readString (s : IStream) (str : List Char) : IStream × List Char :=
  match s.sentry with
  | (s1, false) => (s1, str)
  | (s1, true) =>
    let word := s1.buf.takeWhile (fun c => !isSpace c)
    let rest := s1.buf.dropWhile (fun c => !isSpace c)
    (⟨rest, rest.isEmpty, false⟩, word)

/-- The C string behind `str.c_str()`, as functions like `strcmp` see it: the
characters before the first null character. -/
def cstr (str : List Char) : String := String.mk (str.takeWhile (fun c => c.toNat ≠ 0))

/-! ### SerializeTree -/

/-- The loop `for( ; j < tree->Count(); ++j )` of `SerializeTree` that looks for the
node `param` in the array of the iterator: the value of `j` behind the loop,
which is `count` when the node is not found. -/
def findParamIndex (flattened : GPConstSubtreeIter) (count : Int) (param : Nat) :
    Nat → Int → Option Int
  | 0, _ => none
  | fuel + 1, j =>
    if j < count then
      if 0 ≤ j then
        match flattened.m_flattened[j.toNat]? with
        | none => none
        | some cell => if cell = some param then some j
          else findParamIndex flattened count param fuel (j + 1)
      else none
    else some j

/-- The loop over the parameter links `p`, `p + 1`, ... of the node at index `i`
in `SerializeTree`, with `n` rounds to go: the text that is written; a failed
`assert` is `none`. -/
def serializeParams (flattened : GPConstSubtreeIter) (count : Int) (this_node : GPTreeNode)
    (i : Int) : Nat → Nat → List Char → Option (List Char)
  | 0, _, out => some out
  | n + 1, p, out =>
    match this_node.parameters p with
    | none => serializeParams flattened count this_node i n (p + 1) out
    | some param =>
      match findParamIndex flattened count param (count.toNat + 1) (i + 1) with
      | none => none
      | some j =>
        if j ≠ count then
          serializeParams flattened count this_node i n (p + 1) (out ++ chSpace :: printInt j)
        else none

/-- The outer loop of `SerializeTree` from the index `i` on, with `n` rounds to
go.  `out << this_function.m_debug_name` writes the array `m_debug_name` up to its
terminating null character; a stored name of `GP_DEBUGNAME_LEN` characters has
none, so that the read runs past the array (`none`). -/
def serializeLoop (functions : GPFunctionLookup) (h : Heap) (flattened : GPConstSubtreeIter)
    (count : Int) : Nat → Int → List Char → Option (List Char)
  | 0, _, out => some out
  | n + 1, i, out =>
    match flattened.GetNode i with
    | none => none
    | some a =>
      match h[a]? with
      | none => none
      | some this_node =>
        match functions.GetFunctionByID this_node.functionID with
        | none => none
        | some this_function =>
          if this_function.m_debug_name.length < GP_DEBUGNAME_LEN then
            match serializeParams flattened count this_node i GP_MAX_PARAMETERS 0
                (out ++ printInt i ++ chSpace :: this_function.m_debug_name.data) with
            | none => none
            | some out1 =>
              serializeLoop functions h flattened count n (i + 1) (out1 ++ [chNewline])
          else none

/-- `SerializeTree( functions, tree, out_serialized )`: the text of the stream
afterwards, when it was `out` before. -/
def SerializeTree (functions : GPFunctionLookup) (h : Heap) (tree : GPTree)
    (out : List Char) : Option (List Char) :=
  match GPConstSubtreeIter.ofTree h tree with
  | none => none
  | some flattened => serializeLoop functions h flattened tree.Count tree.Count.toNat 0 out

/-! ### DeserializeTree -/

/-- The local `struct IntermediateNode` of `DeserializeTree`.  A cell of `params`
that no extraction has given a value is `none`, and the list has a cell for every
extraction that was tried. -/
structure IntermediateNode where
  functionID : Int
  delayedID : Int
  originalReturnType : Int
  delayedReturnType : Int
  params : List (Option Int)
  referencedByIndex : Int
  finalNode : Option Nat
deriving DecidableEq, Repr

/-- The `std::map< int, IntermediateNode >`: its entries in the order of the
keys. -/
abbrev IntermediateNodes := List (Int × IntermediateNode)

/-- `nodes.find( k )`. -/
def mapFind (nodes : IntermediateNodes) (k : Int) : Option IntermediateNode :=
  match nodes with
  | [] => none
  | (k1, v1) :: rest => if k1 = k then some v1 else mapFind rest k

/-- `nodes[ k ] = v`: a new entry in the place that the order of the keys gives
it, or a new value for the entry that is there. -/
def mapInsert (nodes : IntermediateNodes) (k : Int) (v : IntermediateNode) :
    IntermediateNodes :=
  match nodes with
  | [] => [(k, v)]
  | (k1, v1) :: rest =>
    if k < k1 then (k, v) :: (k1, v1) :: rest
    else if k = k1 then (k, v) :: rest
    else (k1, v1) :: mapInsert rest k v

/-- The loop `for( int i = 0; i < delayed_function.m_nparams; ++i )` that reads the
parameters of a node, with `n` rounds to go: the stream and the cells of `params`
that were written, in order. -/
def readParams : Nat → IStream → IStream × List (Option Int)
  | 0, s => (s, [])
  | n + 1, s =>
    let r := s.readInt none
    let rest := readParams n r.1
    (rest.1, r.2 :: rest.2)

/-- The loop `while( !in_serialized.eof() )` of `DeserializeTree`: `none` when the
loop never ends or reads outside an array, `some none` when the function returns
false from inside the loop, and the map behind the loop else. -/
def readLoop (functions : GPFunctionLookup) :
    Nat → IStream → IntermediateNodes → Option (Option IntermediateNodes)
  | 0, _, _ => none
  | fuel + 1, s, nodes =>
    if s.eofbit then some (some nodes)
    else
      let r := s.readInt (some (-1))
      match r.2 with
      | none => none
      | some this_node_index =>
        if (mapFind nodes this_node_index).isSome ∨ this_node_index = -1 then
          readLoop functions fuel r.1 nodes
        else
          let r2 := r.1.readString []
          let delayed_function_id := functions.GetFunctionIDByName (cstr r2.2) true
          if delayed_function_id = NULLFUNC then some none
          else
            match functions.GetFunctionByID delayed_function_id with
            | none => none
            | some delayed_function =>
              match functions.GetFunctionByID delayed_function.m_original_function_id with
              | none => none
              | some original_function =>
                if delayed_function.m_nparams ≤ GP_MAX_PARAMETERS then
                  let r3 := readParams delayed_function.m_nparams r2.1
                  readLoop functions fuel r3.1
                    (mapInsert nodes this_node_index
                      ⟨delayed_function.m_original_function_id, delayed_function_id,
                        original_function.m_return_type, delayed_function.m_return_type,
                        r3.2, -1, none⟩)
                else none

/-- The loop that creates a placeholder node for every entry of the map, over
the entries that are left. -/
def placeholderLoop : IntermediateNodes → Heap → IntermediateNodes × Heap
  | [], h => ([], h)
  | (k, this_node) :: rest, h =>
    let r := placeholderLoop rest (h ++ [GPTreeNode.mk0 this_node.functionID])
    ((k, { this_node with finalNode := some h.length }) :: r.1, r.2)

/-- The heap after `a->functionID = f`. -/
def setFunctionID (h : Heap) (a : Nat) (f : Int) : Option Heap :=
  match h[a]? with
  | none => none
  | some n => some (h.set a { n with functionID := f })

/-- The entry `k` of the map with `referencedByIndex = v`. -/
def setReferencedBy (nodes : IntermediateNodes) (k : Int) (v : Int) : IntermediateNodes :=
  nodes.map (fun e => if e.1 = k then (e.1, { e.2 with referencedByIndex := v }) else e)

/-- The inner loop of the linking in `DeserializeTree` for the entry `this_key`,
from the parameter `i` on with `n` rounds to go: `tree_is_intact`, the map and the
heap afterwards; a failed `assert` or the use of a value that was never set is
`none`. -/
def linkParams (this_function : GPFunctionDesc) (this_key : Int)
    (this_node : IntermediateNode) :
    Nat → Nat → IntermediateNodes → Heap → Option (Bool × IntermediateNodes × Heap)
  | 0, _, nodes, h => some (true, nodes, h)
  | n + 1, i, nodes, h =>
    match this_node.params[i]? with
    | some (some p) =>
      match mapFind nodes p with
      | none => some (false, nodes, h)
      | some parameter_node =>
        match parameter_node.finalNode, this_node.finalNode with
        | some parameter_final, some this_final =>
          let param_type_required := this_function.paramType i
          let switched : Option Heap :=
            if parameter_node.originalReturnType ≠ param_type_required then
              if parameter_node.delayedReturnType = param_type_required then
                setFunctionID h parameter_final parameter_node.delayedID
              else none
            else some h
          match switched with
          | none => none
          | some h1 =>
            match setParent h1 parameter_final (some this_final) with
            | none => none
            | some h2 =>
              match setParam h2 this_final i (some parameter_final) with
              | none => none
              | some h3 =>
                linkParams this_function this_key this_node n (i + 1)
                  (setReferencedBy nodes p this_key) h3
        | _, _ => none
    | _ => none

/-- The outer loop of the linking over the entries `todo` of the map that are
left.  The members of an entry that the loop reads (`functionID`, `params`,
`finalNode`) are not written by the loop, so each entry is taken as it was behind
the loop of the placeholders. -/
def linkLoop (functions : GPFunctionLookup) :
    IntermediateNodes → IntermediateNodes → Heap → Option (Bool × IntermediateNodes × Heap)
  | [], nodes, h => some (true, nodes, h)
  | (this_key, this_node) :: todo, nodes, h =>
    match functions.GetFunctionByID this_node.functionID with
    | none => none
    | some this_function =>
      match linkParams this_function this_key this_node this_function.m_nparams 0 nodes h with
      | none => none
      | some (false, nodes1, h1) => some (false, nodes1, h1)
      | some (true, nodes1, h1) => linkLoop functions todo nodes1 h1

/-- The last loop of `DeserializeTree`: the first entry that no entry refers
to. -/
def findUnreferenced : IntermediateNodes → Option IntermediateNode
  | [] => none
  | (_, this_node) :: rest =>
    if this_node.referencedByIndex = -1 then some this_node else findUnreferenced rest

/-- `DeserializeTree( functions, tree, in_serialized )` for a stream with the text
`text`: the returned flag, the pointer `tree` and the heap afterwards.  The
`delete`s of the failure path are not shown in the heap. -/
def DeserializeTree (functions : GPFunctionLookup) (h : Heap) (text : List Char) :
    Option (Bool × Option GPTree × Heap) :=
  match readLoop functions (text.length + 2) ⟨text, false, false⟩ [] with
  | none => none
  | some none => some (false, none, h)
  | some (some nodes) =>
    let placed := placeholderLoop nodes h
    match linkLoop functions placed.1 placed.1 placed.2 with
    | none => none
    | some (false, _, h1) => some (false, none, h1)
    | some (true, nodes1, h1) =>
      match findUnreferenced nodes1 with
      | none => none
      | some this_node =>
        match this_node.finalNode with
        | none => none
        | some root =>
          match CountSubtree h1 root with
          | none => none
          | some count =>
            match (GPTree.new count).Replace h1 none root with
            | none => none
            | some (_, tree, h2) => some (true, some tree, h2)

/-! ### The round trip: what is written and what is read back -/

/-- The tree with every address `a` replaced by `φ a`. -/
def Subtree.mapAddr (φ : Nat → Nat) : Subtree → Subtree
  | .null => .null
  | .node a f c0 c1 c2 => .node (φ a) f (c0.mapAddr φ) (c1.mapAddr φ) (c2.mapAddr φ)

/-- A name that `>>` reads back as it was written: a C string that is not empty
and has no white space. -/
def IsToken (name : String) : Prop :=
  name.data ≠ [] ∧ ∀ c ∈ name.data, isSpace c = false ∧ c.toNat ≠ 0

instance (name : String) : Decidable (IsToken name) := by
  unfold IsToken; exact inferInstance

/-- Every stored name is terminated: it is shorter than the array
`m_debug_name`, so that `strncpy` stored the registered name whole, with a null
character behind it. -/
def GPFunctionLookup.TerminatedNames (fl : GPFunctionLookup) : Prop :=
  ∀ d ∈ fl.m_functions, d.m_debug_name.length < GP_DEBUGNAME_LEN

instance (fl : GPFunctionLookup) : Decidable fl.TerminatedNames := by
  unfold GPFunctionLookup.TerminatedNames; exact inferInstance

/-- Every registered name is a token. -/
def GPFunctionLookup.TokenNames (fl : GPFunctionLookup) : Prop :=
  ∀ d ∈ fl.m_functions, IsToken d.m_debug_name

instance (fl : GPFunctionLookup) : Decidable fl.TokenNames := by
  unfold GPFunctionLookup.TokenNames; exact inferInstance

/-- The descriptors come in the pairs that `RegisterFunction` stores: at an even
id the delayed twin, which names the next id as its original and has another
return type, since `GPDelayedEvaluation< R >` is another type than `R`; at the
odd id behind it the function itself, with the same name, number of parameters
and parameter types. -/
def GPFunctionLookup.Twinned (fl : GPFunctionLookup) : Prop :=
  ∀ k, k < fl.m_nFuncs →
    if k % 2 = 0 then
      k + 1 < fl.m_nFuncs ∧ (fl.descAt k).m_original_function_id = (k : Int) + 1 ∧
        (fl.descAt (k + 1)).m_nparams = (fl.descAt k).m_nparams ∧
        (fl.descAt (k + 1)).m_param_types = (fl.descAt k).m_param_types ∧
        (fl.descAt (k + 1)).m_debug_name = (fl.descAt k).m_debug_name ∧
        (fl.descAt (k + 1)).m_return_type ≠ (fl.descAt k).m_return_type
    else (fl.descAt k).m_original_function_id = NULLFUNC

instance (fl : GPFunctionLookup) : Decidable fl.Twinned := by
  unfold GPFunctionLookup.Twinned; exact inferInstance

/-- No name was registered twice: two descriptors with the same name are the two
descriptors of one call of `RegisterFunction`. -/
def GPFunctionLookup.DistinctNames (fl : GPFunctionLookup) : Prop :=
  ∀ i, i < fl.m_nFuncs → ∀ j, j < fl.m_nFuncs →
    (fl.descAt i).m_debug_name = (fl.descAt j).m_debug_name → i / 2 = j / 2

instance (fl : GPFunctionLookup) : Decidable fl.DistinctNames := by
  unfold GPFunctionLookup.DistinctNames; exact inferInstance

/-- The largest `int`. -/
def INT_MAX : Int := 2147483647

/-- The text of the indices of a line. -/
def paramsText (params : List Nat) : List Char :=
  params.flatMap (fun j => chSpace :: printNat j)

/-- A line of the text: the index of the node, the name of its function and the
indices of its children. -/
def lineOf (i : Nat) (name : List Char) (params : List Nat) : List Char :=
  printNat i ++ chSpace :: name ++ paramsText params ++ [chNewline]

/-- The lines of the nodes `i`, `i + 1`, ... with the given names and children. -/
def linesFrom : Nat → List (List Char × List Nat) → List Char
  | _, [] => []
  | i, l :: rest => lineOf i l.1 l.2 ++ linesFrom (i + 1) rest

/-- The entry of the map that `DeserializeTree` builds from a line with this
name and these indices of children. -/
def entryOf (functions : GPFunctionLookup) (name : List Char) (params : List Nat) :
    IntermediateNode :=
  let delayed_function_id := functions.GetFunctionIDByName (String.mk name) true
  let delayed_function := functions.descAt delayed_function_id.toNat
  let original_function := functions.descAt delayed_function.m_original_function_id.toNat
  ⟨delayed_function.m_original_function_id, delayed_function_id,
    original_function.m_return_type, delayed_function.m_return_type,
    params.map (fun (j : Nat) => some (j : Int)), -1, none⟩

/-- The entries of the map for the lines of the nodes `i`, `i + 1`, ... -/
def entriesFrom (functions : GPFunctionLookup) :
    Nat → List (List Char × List Nat) → IntermediateNodes
  | _, [] => []
  | i, l :: rest => ((i : Int), entryOf functions l.1 l.2) :: entriesFrom functions (i + 1) rest

/-- The name and the indices of the children that `SerializeTree` writes for the
node at the address `a`, when `L` is the array of the iterator. -/
def lineData (functions : GPFunctionLookup) (h : Heap) (L : List Nat) (a : Nat) :
    List Char × List Nat :=
  match h[a]? with
  | none => ([], [])
  | some n =>
    ((functions.descAt n.functionID.toNat).m_debug_name.data, n.kids.map (fun c => L.indexOf c))

/-! ### The state of the linking loops of `DeserializeTree` -/

/-- An entry of the map without what the linking writes into it. -/
def IntermediateNode.static (e : IntermediateNode) : IntermediateNode :=
  { e with referencedByIndex := -1 }

/-- The entries of the map behind the loop of the placeholders, for the lines of
the nodes `i`, `i + 1`, ...: their nodes are the cells `b`, `b + 1`, ... -/
def placedFrom (functions : GPFunctionLookup) :
    Nat → Nat → List (List Char × List Nat) → IntermediateNodes
  | _, _, [] => []
  | b, i, l :: rest =>
    ((i : Int), { entryOf functions l.1 l.2 with finalNode := some b }) ::
      placedFrom functions (b + 1) (i + 1) rest

/-- The linking has dealt with parameter `p` of entry `m` when it is at parameter
`q` of entry `k`. -/
def Done (k q m p : Nat) : Prop := m < k ∨ (m = k ∧ p < q)

instance (k q m p : Nat) : Decidable (Done k q m p) := by
  unfold Done; exact inferInstance

/-- The cell that `DeserializeTree` creates for the node at the address `a`, when
the array `L` holds the nodes that were written and the heap had `base` cells. -/
def newAddr (base : Nat) (L : List Nat) (a : Nat) : Nat := base + L.indexOf a

/-- The id of the function itself for the id of the function or of its delayed
twin. -/
def origID (f : Int) : Int := ((2 * (f.toNat / 2) + 1 : Nat) : Int)

/-- The node `a` has been linked below its parent when the linking is at
parameter `q` of entry `k`. -/
def Linked (h : Heap) (L : List Nat) (k q a : Nat) : Prop :=
  ∃ m p b nb, Done k q m p ∧ L[m]? = some b ∧ h[b]? = some nb ∧ nb.parameters p = some a

/-- The heap `g` while `DeserializeTree` links the new nodes, at parameter `q` of
entry `k`: the old cells are as in `h`; the new cell of a node has the children
that were dealt with; a node that was linked below its parent has its function id
and its parent, and any other node the id of the function itself and no
parent. -/
structure LinkInv (h : Heap) (L : List Nat) (k q : Nat) (g : Heap) : Prop where
  len : g.length = h.length + L.length
  old : ∀ x, x < h.length → g[x]? = h[x]?
  cells : ∀ j a n, L[j]? = some a → h[a]? = some n →
    ∃ cur, g[h.length + j]? = some cur ∧
      (∀ p, cur.parameters p =
        if Done k q j p then (n.parameters p).map (newAddr h.length L) else none) ∧
      (Linked h L k q a →
        cur.functionID = n.functionID ∧ cur.parent = n.parent.map (newAddr h.length L)) ∧
      (¬ Linked h L k q a → cur.functionID = origID n.functionID ∧ cur.parent = none)

/-! ### Example data for the text form -/

/-- A registry with one function, whose name has a space. -/
def spaceRegistry : GPFunctionLookup :=
  ((⟨[]⟩ : GPFunctionLookup).RegisterFunction "Big Two" 1 2 []).1

/-- A heap with one node of the function of `spaceRegistry`. -/
def spaceHeap : Heap := [GPTreeNode.mk0 1]

/-- The tree of `spaceHeap`. -/
def spaceTree : Subtree := .node 0 1 .null .null .null

/-- A tree object that owns `spaceTree`. -/
def spaceGPTree : GPTree := ⟨1, 1, some 0⟩

/-- A registry with `Add` and a function without parameters whose name is the
empty string. -/
def namelessRegistry : GPFunctionLookup :=
  (((⟨[]⟩ : GPFunctionLookup).RegisterFunction "Add" 1 2 [1, 1]).1.RegisterFunction
    "" 1 2 []).1

/-- A heap with `Add` of two nodes of the function with the empty name. -/
def namelessHeap : Heap :=
  [⟨1, some 1, some 2, none, none⟩, ⟨3, none, none, none, some 0⟩,
    ⟨3, none, none, none, some 0⟩]

/-- The tree of `namelessHeap`. -/
def namelessTree : Subtree :=
  .node 0 1 (.node 1 3 .null .null .null) (.node 2 3 .null .null .null) .null

/-- A tree object that owns `namelessTree`. -/
def namelessGPTree : GPTree := ⟨3, 3, some 0⟩

/-- A registry with one function, registered with a name of 34 characters. -/
def longRegistry : GPFunctionLookup :=
  ((⟨[]⟩ : GPFunctionLookup).RegisterFunction "ABCDEFGHIJKLMNOPQRSTUVWXYZabcdefgh" 1 2 []).1

/-- A heap with the tree `Add( Two, Three )` at the cells 0, 1, 2, as `exHeap` has
it, and a second tree `Add( Two, Add( Two, Three ) )` at the cells 4, 3, 5, 6, 7:
the leaf at cell 3 is the first child of the node at cell 4. -/
def staleHeap : Heap :=
  [⟨1, some 1, some 2, none, none⟩, ⟨3, none, none, none, some 0⟩,
    ⟨5, none, none, none, some 0⟩, ⟨3, none, none, none, some 4⟩,
    ⟨1, some 3, some 5, none, none⟩, ⟨1, some 6, some 7, none, some 4⟩,
    ⟨3, none, none, none, some 5⟩, ⟨5, none, none, none, some 5⟩]

/-- The leaf at cell 3 of `staleHeap`. -/
def staleLeaf : Subtree := .node 3 3 .null .null .null

/-- A tree object that owns `execLazyTree`. -/
def execLazyGPTree : GPTree := ⟨6, 6, some 5⟩

end GP

namespace GP

/-! ## Basic facts about trees in the heap -/

theorem Subtree.height_le_size (t : Subtree) : t.height ≤ t.size := by
  induction t with
  | null => simp [Subtree.height, Subtree.size]
  | node a f c0 c1 c2 ih0 ih1 ih2 =>
    simp only [Subtree.height, Subtree.size]
    omega

theorem Subtree.length_addrs (t : Subtree) : t.addrs.length = t.size := by
  induction t with
  | null => simp [Subtree.addrs, Subtree.size]
  | node a f c0 c1 c2 ih0 ih1 ih2 =>
    simp only [Subtree.addrs, Subtree.size, List.length_cons, List.length_append, ih0, ih1, ih2]
    omega

theorem Subtree.root_mem_addrs {t : Subtree} {a : Nat} (h : t.root = some a) : a ∈ t.addrs := by
  cases t with
  | null => simp [Subtree.root] at h
  | node b f c0 c1 c2 =>
    simp only [Subtree.root, Option.some.injEq] at h
    simp [Subtree.addrs, h]

theorem Subtree.root_eq_none {t : Subtree} : t.root = none ↔ t = .null := by
  cases t <;> simp [Subtree.root]

theorem Rep.addr_lt {h : Heap} : ∀ {t : Subtree} {par : Option Nat}, Rep h par t →
    ∀ a ∈ t.addrs, a < h.length := by
  intro t
  induction t with
  | null => intro par _ a ha; simp [Subtree.addrs] at ha
  | node b f c0 c1 c2 ih0 ih1 ih2 =>
    intro par hr a ha
    obtain ⟨hb, h0, h1, h2⟩ := hr
    simp only [Subtree.addrs, List.mem_cons, List.mem_append] at ha
    rcases ha with rfl | (ha | ha) | ha
    · by_contra hlt
      rw [List.getElem?_eq_none (by omega)] at hb
      cases hb
    · exact ih0 h0 a ha
    · exact ih1 h1 a ha
    · exact ih2 h2 a ha

/-- A list of distinct numbers below `n` has at most `n` entries. -/
theorem length_le_of_nodup_lt {l : List Nat} {n : Nat} (hn : l.Nodup) (hl : ∀ a ∈ l, a < n) :
    l.length ≤ n := by
  have hsub : l ⊆ List.range n := fun a ha => List.mem_range.mpr (hl a ha)
  have := (List.subperm_of_subset hn hsub).length_le
  simpa using this

theorem IsTree.size_le {h : Heap} {par : Option Nat} {t : Subtree} (ht : IsTree h par t) :
    t.size ≤ h.length := by
  rw [← Subtree.length_addrs]
  exact length_le_of_nodup_lt ht.2 (Rep.addr_lt ht.1)

/-- Cells outside a tree do not matter to it. -/
theorem Rep.frame {h h1 : Heap} : ∀ {t : Subtree} {par : Option Nat}, Rep h par t →
    (∀ a ∈ t.addrs, h1[a]? = h[a]?) → Rep h1 par t := by
  intro t
  induction t with
  | null => intro par _ _; trivial
  | node b f c0 c1 c2 ih0 ih1 ih2 =>
    intro par hr hag
    obtain ⟨hb, h0, h1r, h2⟩ := hr
    refine ⟨?_, ih0 h0 ?_, ih1 h1r ?_, ih2 h2 ?_⟩
    · rw [hag b (by simp [Subtree.addrs])]; exact hb
    · intro a ha; exact hag a (by simp [Subtree.addrs, ha])
    · intro a ha; exact hag a (by simp [Subtree.addrs, ha])
    · intro a ha; exact hag a (by simp [Subtree.addrs, ha])

/-- `CountSubtree` on a tree in the heap, with enough depth. -/
theorem countParam_of_rep {h : Heap} : ∀ {t : Subtree} {par : Option Nat} {fuel : Nat},
    Rep h par t → t.height ≤ fuel →
    countParam (CountSubtreeAux h fuel) t.root = some t.size := by
  intro t
  induction t with
  | null => intro par fuel _ _; simp [Subtree.root, countParam, Subtree.size]
  | node b f c0 c1 c2 ih0 ih1 ih2 =>
    intro par fuel hr hf
    obtain ⟨hb, h0, h1, h2⟩ := hr
    simp only [Subtree.height] at hf
    obtain ⟨fuel, rfl⟩ : ∃ k, fuel = k + 1 := ⟨fuel - 1, by omega⟩
    have e0 := ih0 h0 (show c0.height ≤ fuel by omega)
    have e1 := ih1 h1 (show c1.height ≤ fuel by omega)
    have e2 := ih2 h2 (show c2.height ≤ fuel by omega)
    show CountSubtreeAux h (fuel + 1) b = _
    simp only [CountSubtreeAux, hb, e0, e1, e2, Subtree.size]

theorem CountSubtreeAux_of_rep {h : Heap} {a : Nat} {f : Int} {c0 c1 c2 : Subtree}
    {par : Option Nat} {fuel : Nat} (hr : Rep h par (.node a f c0 c1 c2))
    (hf : (Subtree.node a f c0 c1 c2).height ≤ fuel) :
    CountSubtreeAux h fuel a = some (Subtree.node a f c0 c1 c2).size := by
  have := countParam_of_rep hr hf
  simpa [Subtree.root, countParam] using this

/-- `CountSubtree` of the root of a proper tree is the number of its nodes. -/
theorem CountSubtree_of_isTree {h : Heap} {t : Subtree} {par : Option Nat} {a : Nat}
    (ht : IsTree h par t) (hroot : t.root = some a) : CountSubtree h a = some t.size := by
  cases t with
  | null => simp [Subtree.root] at hroot
  | node b f c0 c1 c2 =>
    simp only [Subtree.root, Option.some.injEq] at hroot
    subst hroot
    exact CountSubtreeAux_of_rep ht.1 (le_trans (Subtree.height_le_size _) ht.size_le)

end GP

namespace GP

/-! ## Subtrees and substitution -/

theorem Subtree.nodup_node {a : Nat} {f : Int} {c0 c1 c2 : Subtree} :
    (Subtree.node a f c0 c1 c2).addrs.Nodup ↔
      a ∉ c0.addrs ∧ a ∉ c1.addrs ∧ a ∉ c2.addrs ∧
      c0.addrs.Nodup ∧ c1.addrs.Nodup ∧ c2.addrs.Nodup ∧
      (∀ y ∈ c0.addrs, y ∉ c1.addrs) ∧ (∀ y ∈ c0.addrs, y ∉ c2.addrs) ∧
      (∀ y ∈ c1.addrs, y ∉ c2.addrs) := by
  simp only [Subtree.addrs, List.nodup_cons, List.nodup_append, List.mem_append, not_or,
    List.Disjoint]
  constructor
  · rintro ⟨⟨⟨h1, h2⟩, h3⟩, ⟨h4, h5, h6⟩, h7, h8⟩
    refine ⟨h1, h2, h3, h4, h5, h7, fun y hy hy1 => h6 hy hy1, fun y hy hy2 => h8 (Or.inl hy) hy2,
      fun y hy hy2 => h8 (Or.inr hy) hy2⟩
  · rintro ⟨h1, h2, h3, h4, h5, h7, h6, h8, h9⟩
    refine ⟨⟨⟨h1, h2⟩, h3⟩, ⟨h4, h5, fun {y} hy hy1 => h6 y hy hy1⟩, h7, ?_⟩
    intro y hy hy2
    rcases hy with hy | hy
    · exact h8 y hy hy2
    · exact h9 y hy hy2

theorem Subtree.mem_addrs_node {a x : Nat} {f : Int} {c0 c1 c2 : Subtree} :
    x ∈ (Subtree.node a f c0 c1 c2).addrs ↔
      x = a ∨ x ∈ c0.addrs ∨ x ∈ c1.addrs ∨ x ∈ c2.addrs := by
  simp only [Subtree.addrs, List.mem_cons, List.mem_append]
  tauto

theorem Subtree.find_of_not_mem {x : Nat} : ∀ {t : Subtree}, x ∉ t.addrs → t.find x = .null := by
  intro t
  induction t with
  | null => intro _; rfl
  | node a f c0 c1 c2 ih0 ih1 ih2 =>
    intro hx
    rw [Subtree.mem_addrs_node] at hx
    push_neg at hx
    obtain ⟨h1, h2, h3, h4⟩ := hx
    simp only [Subtree.find, if_neg (Ne.symm h1), if_neg h2, if_neg h3]
    exact ih2 h4

theorem Subtree.subst_of_not_mem {x : Nat} {s : Subtree} :
    ∀ {t : Subtree}, x ∉ t.addrs → t.subst x s = t := by
  intro t
  induction t with
  | null => intro _; rfl
  | node a f c0 c1 c2 ih0 ih1 ih2 =>
    intro hx
    rw [Subtree.mem_addrs_node] at hx
    push_neg at hx
    obtain ⟨h1, h2, h3, h4⟩ := hx
    simp only [Subtree.subst, if_neg (Ne.symm h1), ih0 h2, ih1 h3, ih2 h4]

theorem Subtree.find_root {x : Nat} : ∀ {t : Subtree}, x ∈ t.addrs → (t.find x).root = some x := by
  intro t
  induction t with
  | null => intro hx; simp [Subtree.addrs] at hx
  | node a f c0 c1 c2 ih0 ih1 ih2 =>
    intro hx
    rw [Subtree.mem_addrs_node] at hx
    simp only [Subtree.find]
    by_cases h1 : a = x
    · simp [h1, Subtree.root]
    · rw [if_neg h1]
      by_cases h2 : x ∈ c0.addrs
      · rw [if_pos h2]; exact ih0 h2
      · rw [if_neg h2]
        by_cases h3 : x ∈ c1.addrs
        · rw [if_pos h3]; exact ih1 h3
        · rw [if_neg h3]
          rcases hx with hx | hx | hx | hx
          · exact absurd hx.symm h1
          · exact absurd hx h2
          · exact absurd hx h3
          · exact ih2 hx

theorem Subtree.find_addrs_sublist {x : Nat} : ∀ (t : Subtree), (t.find x).addrs.Sublist t.addrs := by
  intro t
  induction t with
  | null => simp [Subtree.find]
  | node a f c0 c1 c2 ih0 ih1 ih2 =>
    simp only [Subtree.find]
    by_cases h1 : a = x
    · rw [if_pos h1]
    · rw [if_neg h1]
      have e : (Subtree.node a f c0 c1 c2).addrs = a :: (c0.addrs ++ c1.addrs ++ c2.addrs) := rfl
      rw [e]
      refine List.Sublist.cons _ ?_
      by_cases h2 : x ∈ c0.addrs
      · rw [if_pos h2, List.append_assoc]
        exact ih0.trans (List.sublist_append_left _ _)
      · rw [if_neg h2]
        by_cases h3 : x ∈ c1.addrs
        · rw [if_pos h3]
          exact ih1.trans ((List.sublist_append_right _ _).trans (List.sublist_append_left _ _))
        · rw [if_neg h3]
          exact ih2.trans (List.sublist_append_right _ _)

/-- The subtree at a node of a tree in the heap is itself in the heap. -/
theorem Rep.find_sub {h : Heap} {x : Nat} : ∀ {t : Subtree} {par : Option Nat}, Rep h par t →
    x ∈ t.addrs → Rep h (parentOf h x) (t.find x) := by
  intro t
  induction t with
  | null => intro par _ hx; simp [Subtree.addrs] at hx
  | node a f c0 c1 c2 ih0 ih1 ih2 =>
    intro par hr hx
    rw [Subtree.mem_addrs_node] at hx
    have hr1 := hr
    obtain ⟨hb, h0, h1r, h2⟩ := hr
    simp only [Subtree.find]
    by_cases h1 : a = x
    · rw [if_pos h1]
      have : parentOf h x = par := by simp [parentOf, ← h1, hb]
      rw [this]; exact hr1
    · rw [if_neg h1]
      by_cases h2x : x ∈ c0.addrs
      · rw [if_pos h2x]; exact ih0 h0 h2x
      · rw [if_neg h2x]
        by_cases h3 : x ∈ c1.addrs
        · rw [if_pos h3]; exact ih1 h1r h3
        · rw [if_neg h3]
          rcases hx with hx | hx | hx | hx
          · exact absurd hx.symm h1
          · exact absurd hx h2x
          · exact absurd hx h3
          · exact ih2 h2 hx

theorem IsTree.find_tree {h : Heap} {x : Nat} {t : Subtree} {par : Option Nat} (ht : IsTree h par t)
    (hx : x ∈ t.addrs) : IsTree h (parentOf h x) (t.find x) :=
  ⟨Rep.find_sub ht.1 hx, (Subtree.find_addrs_sublist t).nodup ht.2⟩

/-- `CountSubtree` at a node of a proper tree is the size of the subtree there. -/
theorem CountSubtree_find {h : Heap} {x : Nat} {t : Subtree} {par : Option Nat}
    (ht : IsTree h par t) (hx : x ∈ t.addrs) : CountSubtree h x = some (t.find x).size :=
  CountSubtree_of_isTree (ht.find_tree hx) (Subtree.find_root hx)

theorem Subtree.size_subst {x : Nat} {s : Subtree} : ∀ {t : Subtree}, t.addrs.Nodup →
    x ∈ t.addrs → (t.subst x s).size + (t.find x).size = t.size + s.size := by
  intro t
  induction t with
  | null => intro _ hx; simp [Subtree.addrs] at hx
  | node a f c0 c1 c2 ih0 ih1 ih2 =>
    intro hn hx
    rw [Subtree.mem_addrs_node] at hx
    obtain ⟨n1, n2, n3, n4, n5, n6, d01, d02, d12⟩ := Subtree.nodup_node.mp hn
    simp only [Subtree.subst, Subtree.find]
    by_cases h1 : a = x
    · rw [if_pos h1, if_pos h1]; omega
    · rw [if_neg h1, if_neg h1]
      by_cases h2 : x ∈ c0.addrs
      · rw [if_pos h2, Subtree.subst_of_not_mem (d01 x h2), Subtree.subst_of_not_mem (d02 x h2)]
        have := ih0 n4 h2
        simp only [Subtree.size]; omega
      · rw [if_neg h2, Subtree.subst_of_not_mem h2]
        by_cases h3 : x ∈ c1.addrs
        · rw [if_pos h3, Subtree.subst_of_not_mem (d12 x h3)]
          have := ih1 n5 h3
          simp only [Subtree.size]; omega
        · rw [if_neg h3, Subtree.subst_of_not_mem h3]
          have h4 : x ∈ c2.addrs := by
            rcases hx with hx | hx | hx | hx
            · exact absurd hx.symm h1
            · exact absurd hx h2
            · exact absurd hx h3
            · exact hx
          have := ih2 n6 h4
          simp only [Subtree.size]; omega

theorem Subtree.mem_addrs_subst {x y : Nat} {s : Subtree} : ∀ {t : Subtree},
    y ∈ (t.subst x s).addrs → y ∈ t.addrs ∨ (y ∈ s.addrs ∧ x ∈ t.addrs) := by
  intro t
  induction t with
  | null => intro hy; simp [Subtree.subst, Subtree.addrs] at hy
  | node a f c0 c1 c2 ih0 ih1 ih2 =>
    intro hy
    simp only [Subtree.subst] at hy
    by_cases h1 : a = x
    · rw [if_pos h1] at hy
      exact Or.inr ⟨hy, by rw [Subtree.mem_addrs_node]; exact Or.inl h1.symm⟩
    · rw [if_neg h1, Subtree.mem_addrs_node] at hy
      simp only [Subtree.mem_addrs_node]
      rcases hy with hy | hy | hy | hy
      · exact Or.inl (Or.inl hy)
      · rcases ih0 hy with h | ⟨h, h'⟩
        · exact Or.inl (Or.inr (Or.inl h))
        · exact Or.inr ⟨h, Or.inr (Or.inl h')⟩
      · rcases ih1 hy with h | ⟨h, h'⟩
        · exact Or.inl (Or.inr (Or.inr (Or.inl h)))
        · exact Or.inr ⟨h, Or.inr (Or.inr (Or.inl h'))⟩
      · rcases ih2 hy with h | ⟨h, h'⟩
        · exact Or.inl (Or.inr (Or.inr (Or.inr h)))
        · exact Or.inr ⟨h, Or.inr (Or.inr (Or.inr h'))⟩

theorem Subtree.nodup_subst {x : Nat} {s : Subtree} (hs : s.addrs.Nodup) : ∀ {t : Subtree},
    t.addrs.Nodup → (∀ y ∈ s.addrs, y ∉ t.addrs) → (t.subst x s).addrs.Nodup := by
  intro t
  induction t with
  | null => intro _ _; simp [Subtree.subst, Subtree.addrs]
  | node a f c0 c1 c2 ih0 ih1 ih2 =>
    intro hn hd
    obtain ⟨n1, n2, n3, n4, n5, n6, d01, d02, d12⟩ := Subtree.nodup_node.mp hn
    have hd0 : ∀ y ∈ s.addrs, y ∉ c0.addrs := fun y hy hc =>
      hd y hy (Subtree.mem_addrs_node.mpr (Or.inr (Or.inl hc)))
    have hd1 : ∀ y ∈ s.addrs, y ∉ c1.addrs := fun y hy hc =>
      hd y hy (Subtree.mem_addrs_node.mpr (Or.inr (Or.inr (Or.inl hc))))
    have hd2 : ∀ y ∈ s.addrs, y ∉ c2.addrs := fun y hy hc =>
      hd y hy (Subtree.mem_addrs_node.mpr (Or.inr (Or.inr (Or.inr hc))))
    have hda : a ∉ s.addrs := fun hc => hd a hc (Subtree.mem_addrs_node.mpr (Or.inl rfl))
    simp only [Subtree.subst]
    by_cases h1 : a = x
    · rw [if_pos h1]; exact hs
    · rw [if_neg h1]
      rw [Subtree.nodup_node]
      refine ⟨?_, ?_, ?_, ih0 n4 hd0, ih1 n5 hd1, ih2 n6 hd2, ?_, ?_, ?_⟩
      · intro hc; rcases Subtree.mem_addrs_subst hc with h | ⟨h, _⟩
        · exact n1 h
        · exact hda h
      · intro hc; rcases Subtree.mem_addrs_subst hc with h | ⟨h, _⟩
        · exact n2 h
        · exact hda h
      · intro hc; rcases Subtree.mem_addrs_subst hc with h | ⟨h, _⟩
        · exact n3 h
        · exact hda h
      · intro y hy hy1
        rcases Subtree.mem_addrs_subst hy with h | ⟨h, hx0⟩ <;>
          rcases Subtree.mem_addrs_subst hy1 with h' | ⟨h', hx1⟩
        · exact d01 y h h'
        · exact hd0 y h' h
        · exact hd1 y h h'
        · exact d01 x hx0 hx1
      · intro y hy hy1
        rcases Subtree.mem_addrs_subst hy with h | ⟨h, hx0⟩ <;>
          rcases Subtree.mem_addrs_subst hy1 with h' | ⟨h', hx1⟩
        · exact d02 y h h'
        · exact hd0 y h' h
        · exact hd2 y h h'
        · exact d02 x hx0 hx1
      · intro y hy hy1
        rcases Subtree.mem_addrs_subst hy with h | ⟨h, hx0⟩ <;>
          rcases Subtree.mem_addrs_subst hy1 with h' | ⟨h', hx1⟩
        · exact d12 y h h'
        · exact hd1 y h' h
        · exact hd2 y h h'
        · exact d12 x hx0 hx1

end GP

namespace GP

/-! ## Writes to the heap -/

theorem getElem?_set_heap (h : Heap) (a b : Nat) (n : GPTreeNode) (ha : a < h.length) :
    (h.set a n)[b]? = if b = a then some n else h[b]? := by
  by_cases hb : b = a
  · subst hb; simp [ha]
  · rw [if_neg hb]; exact List.getElem?_set_ne (Ne.symm hb)

theorem lt_of_getElem?_eq_some {h : Heap} {a : Nat} {n : GPTreeNode} (e : h[a]? = some n) :
    a < h.length := by
  by_contra hlt
  rw [List.getElem?_eq_none (by omega)] at e
  cases e

theorem setParent_eq {h h1 : Heap} {a : Nat} {v : Option Nat} (e : setParent h a v = some h1) :
    ∃ n, h[a]? = some n ∧ h1 = h.set a { n with parent := v } := by
  unfold setParent at e
  cases hn : h[a]? with
  | none => rw [hn] at e; cases e
  | some n => rw [hn] at e; exact ⟨n, rfl, (Option.some.inj e).symm⟩

theorem setParent_get {h h1 : Heap} {a : Nat} {v : Option Nat} (e : setParent h a v = some h1)
    (b : Nat) :
    h1[b]? = if b = a then (h[a]?).map (fun n => { n with parent := v }) else h[b]? := by
  obtain ⟨n, hn, rfl⟩ := setParent_eq e
  rw [getElem?_set_heap h a b _ (lt_of_getElem?_eq_some hn), hn]
  rfl

theorem setParent_length {h h1 : Heap} {a : Nat} {v : Option Nat}
    (e : setParent h a v = some h1) : h1.length = h.length := by
  obtain ⟨n, _, rfl⟩ := setParent_eq e
  simp

theorem setParent_isSome {h : Heap} {a : Nat} {n : GPTreeNode} (v : Option Nat)
    (e : h[a]? = some n) : setParent h a v = some (h.set a { n with parent := v }) := by
  simp [setParent, e]

theorem setParam_eq {h h1 : Heap} {a i : Nat} {v : Option Nat} (e : setParam h a i v = some h1) :
    ∃ n n1, h[a]? = some n ∧ n.setParameter i v = some n1 ∧ h1 = h.set a n1 := by
  unfold setParam at e
  cases hn : h[a]? with
  | none => rw [hn] at e; cases e
  | some n =>
    rw [hn] at e
    dsimp only at e
    cases hs : n.setParameter i v with
    | none => rw [hs] at e; cases e
    | some n1 => rw [hs] at e; exact ⟨n, n1, rfl, hs, (Option.some.inj e).symm⟩

theorem setParam_get {h h1 : Heap} {a i : Nat} {v : Option Nat} (e : setParam h a i v = some h1)
    (b : Nat) :
    h1[b]? = if b = a then (h[a]?).bind (fun n => n.setParameter i v) else h[b]? := by
  obtain ⟨n, n1, hn, hs, rfl⟩ := setParam_eq e
  rw [getElem?_set_heap h a b _ (lt_of_getElem?_eq_some hn), hn]
  simp [hs]

theorem setParam_length {h h1 : Heap} {a i : Nat} {v : Option Nat}
    (e : setParam h a i v = some h1) : h1.length = h.length := by
  obtain ⟨n, n1, _, _, rfl⟩ := setParam_eq e
  simp

/-! ## The parent walk of `Replace` -/

theorem parentWalk_none (h : Heap) (R : Option Nat) (fuel : Nat) :
    parentWalk h R (fuel + 1) none = some none := rfl

theorem parentWalk_chain {h : Heap} {R : Option Nat} {r : Nat} : ∀ {fuel : Nat} {p : Option Nat},
    parentWalk h R fuel p = some (some r) →
    R = some r ∧ ∃ src, p = some src ∧ ParentChain h src r := by
  intro fuel
  induction fuel with
  | zero => intro p e; simp [parentWalk] at e
  | succ fuel ih =>
    intro p e
    cases p with
    | none => simp [parentWalk] at e
    | some a =>
      simp only [parentWalk] at e
      by_cases hR : some a = R
      · rw [if_pos hR] at e
        simp only [Option.some.injEq] at e
        subst e
        exact ⟨hR.symm, a, rfl, ParentChain.here a⟩
      · rw [if_neg hR] at e
        cases hn : h[a]? with
        | none => rw [hn] at e; cases e
        | some n =>
          rw [hn] at e
          obtain ⟨hR', q, hq, hc⟩ := ih e
          exact ⟨hR', a, rfl, ParentChain.up (by simp [parentOf, hn, hq]) hc⟩

theorem parentWalk_of_chain {h : Heap} {r src : Nat} (hc : ParentChain h src r) :
    ∀ {fuel : Nat} {w : Option Nat}, parentWalk h (some r) fuel (some src) = some w →
      w = some r := by
  induction hc with
  | here a =>
    intro fuel w e
    cases fuel with
    | zero => simp [parentWalk] at e
    | succ fuel => simp [parentWalk] at e; exact e.symm
  | @up a q b hq _ ih =>
    intro fuel w e
    cases fuel with
    | zero => simp [parentWalk] at e
    | succ fuel =>
      simp only [parentWalk] at e
      by_cases hR : some a = some b
      · rw [if_pos hR] at e
        simp only [Option.some.injEq] at e
        rw [← e]; exact hR
      · rw [if_neg hR] at e
        cases hn : h[a]? with
        | none => rw [hn] at e; cases e
        | some n =>
          rw [hn] at e
          dsimp only at e
          have : n.parent = some q := by simpa [parentOf, hn] using hq
          rw [this] at e
          exact ih e

/-- The walk result, when the walk ends, says whether the parent links of the
source lead to the root. -/
theorem parentWalk_iff {h : Heap} {T : GPTree} {src fuel : Nat} {w : Option Nat}
    (e : parentWalk h T.m_root fuel (some src) = some w) :
    w ≠ none ↔ ReachesRoot h T src := by
  constructor
  · intro hw
    obtain ⟨r, rfl⟩ := Option.ne_none_iff_exists'.mp hw
    obtain ⟨hR, s, hs, hc⟩ := parentWalk_chain e
    simp only [Option.some.injEq] at hs
    subst hs
    exact ⟨r, hR, hc⟩
  · rintro ⟨r, hR, hc⟩
    rw [hR] at e
    rw [parentWalk_of_chain hc e]
    simp

/-- Inside a tree that does not contain the root `R`, the walk climbs to the
parent of the root of that tree. -/
theorem parentWalk_up {h : Heap} {R : Option Nat} : ∀ {t : Subtree} {par : Option Nat},
    Rep h par t → (∀ r, R = some r → r ∉ t.addrs) → ∀ x ∈ t.addrs,
    ∃ k, k ≤ t.height ∧ ∀ fuel, parentWalk h R (fuel + k) (some x) = parentWalk h R fuel par := by
  intro t
  induction t with
  | null => intro par _ _ x hx; simp [Subtree.addrs] at hx
  | node a f c0 c1 c2 ih0 ih1 ih2 =>
    intro par hr hR x hx
    obtain ⟨hb, h0, h1, h2⟩ := hr
    have haR : ¬ (some a = R) := fun e => hR a e.symm (Subtree.mem_addrs_node.mpr (Or.inl rfl))
    have step : ∀ fuel, parentWalk h R (fuel + 1) (some a) = parentWalk h R fuel par := by
      intro fuel
      simp only [parentWalk, if_neg haR, hb]
    have sub : ∀ (c : Subtree), c.height ≤ max c0.height (max c1.height c2.height) →
        (∀ y ∈ c.addrs, y ∈ (Subtree.node a f c0 c1 c2).addrs) →
        (∀ {par : Option Nat}, Rep h par c → (∀ r, R = some r → r ∉ c.addrs) → ∀ x ∈ c.addrs,
          ∃ k, k ≤ c.height ∧
            ∀ fuel, parentWalk h R (fuel + k) (some x) = parentWalk h R fuel par) →
        Rep h (some a) c → x ∈ c.addrs →
        ∃ k, k ≤ (Subtree.node a f c0 c1 c2).height ∧
          ∀ fuel, parentWalk h R (fuel + k) (some x) = parentWalk h R fuel par := by
      intro c hh hsub ih hc hxc
      obtain ⟨k, hk, hw⟩ := ih hc (fun r e hm => hR r e (hsub r hm)) x hxc
      refine ⟨k + 1, by simp only [Subtree.height]; omega, fun fuel => ?_⟩
      rw [show fuel + (k + 1) = (fuel + 1) + k by omega, hw, step]
    rw [Subtree.mem_addrs_node] at hx
    rcases hx with hx | hx | hx | hx
    · subst hx
      exact ⟨1, by simp only [Subtree.height]; omega, step⟩
    · exact sub c0 (by omega) (fun y hy => Subtree.mem_addrs_node.mpr (Or.inr (Or.inl hy)))
        ih0 h0 hx
    · exact sub c1 (by omega)
        (fun y hy => Subtree.mem_addrs_node.mpr (Or.inr (Or.inr (Or.inl hy)))) ih1 h1 hx
    · exact sub c2 (by omega)
        (fun y hy => Subtree.mem_addrs_node.mpr (Or.inr (Or.inr (Or.inr hy)))) ih2 h2 hx

/-- From a node of a proper tree the walk reaches the root. -/
theorem parentWalk_of_mem {h : Heap} {t : Subtree} {par : Option Nat} (ht : IsTree h par t)
    {x : Nat} (hx : x ∈ t.addrs) :
    parentWalk h t.root (h.length + 1) (some x) = some t.root := by
  cases t with
  | null => simp [Subtree.addrs] at hx
  | node a f c0 c1 c2 =>
    have hsz := ht.size_le
    have hhs := Subtree.height_le_size (Subtree.node a f c0 c1 c2)
    obtain ⟨hr, hn⟩ := ht
    obtain ⟨n1, n2, n3, n4, n5, n6, d01, d02, d12⟩ := Subtree.nodup_node.mp hn
    obtain ⟨hb, h0, h1, h2⟩ := hr
    have top : ∀ fuel, parentWalk h (some a) (fuel + 1) (some a) = some (some a) := by
      intro fuel; simp [parentWalk]
    have sub : ∀ (c : Subtree), c.height ≤ max c0.height (max c1.height c2.height) →
        a ∉ c.addrs → Rep h (some a) c → x ∈ c.addrs →
        parentWalk h (some a) (h.length + 1) (some x) = some (some a) := by
      intro c hh hac hc hxc
      obtain ⟨k, hk, hw⟩ := parentWalk_up (R := some a) hc
        (fun r e hm => hac (by simp only [Option.some.injEq] at e; rw [e]; exact hm)) x hxc
      simp only [Subtree.height] at hhs
      rw [show h.length + 1 = (h.length - k + 1) + k by omega, hw, show h.length - k + 1
        = (h.length - k) + 1 by omega, top]
    simp only [Subtree.root]
    rw [Subtree.mem_addrs_node] at hx
    rcases hx with hx | hx | hx | hx
    · subst hx; exact top _
    · exact sub c0 (by omega) n1 h0 hx
    · exact sub c1 (by omega) n2 h1 hx
    · exact sub c2 (by omega) n3 h2 hx

end GP

namespace GP

/-! ## Substitution in the heap -/

theorem Subtree.root_subst {src new : Nat} {s : Subtree} (hsroot : s.root = some new)
    (c : Subtree) : (c.subst src s).root = swapLink src new c.root := by
  cases c with
  | null => simp [Subtree.subst, Subtree.root, swapLink]
  | node b g d0 d1 d2 =>
    by_cases hb : b = src
    · subst hb
      simp only [Subtree.subst, if_true]
      rw [hsroot]
      simp [swapLink, Subtree.root]
    · simp only [Subtree.subst, if_neg hb]
      simp [swapLink, Subtree.root, hb]

/-- If every cell of `t` other than `src` is rewritten by `swapNode` and `s` hangs
in the new heap below the old parent of `src`, then the new heap holds `t` with
`s` in the place of the subtree at `src`. -/
theorem Rep.subst {h h2 : Heap} {src new : Nat} {s : Subtree} (hsroot : s.root = some new)
    (hs2 : Rep h2 (parentOf h src) s) :
    ∀ {t : Subtree} {par : Option Nat}, Rep h par t → t.root ≠ some src →
      (∀ a ∈ t.addrs, a ≠ src → h2[a]? = (h[a]?).map (swapNode src new)) →
      Rep h2 par (t.subst src s) := by
  intro t
  induction t with
  | null => intro par _ _ _; trivial
  | node a f c0 c1 c2 ih0 ih1 ih2 =>
    intro par hr hroot hU
    have ha : a ≠ src := fun e => hroot (by simp [Subtree.root, e])
    obtain ⟨hb, h0, h1, h2r⟩ := hr
    have child : ∀ (c : Subtree), (∀ y ∈ c.addrs, y ∈ (Subtree.node a f c0 c1 c2).addrs) →
        (∀ {par : Option Nat}, Rep h par c → c.root ≠ some src →
          (∀ a ∈ c.addrs, a ≠ src → h2[a]? = (h[a]?).map (swapNode src new)) →
          Rep h2 par (c.subst src s)) →
        Rep h (some a) c → Rep h2 (some a) (c.subst src s) := by
      intro c hsub ih hc
      by_cases hcr : c.root = some src
      · cases c with
        | null => simp [Subtree.root] at hcr
        | node b g d0 d1 d2 =>
          simp only [Subtree.root, Option.some.injEq] at hcr
          subst hcr
          have hp : parentOf h b = some a := by simp [parentOf, hc.1]
          simp only [Subtree.subst, if_true]
          rw [← hp]; exact hs2
      · exact ih hc hcr (fun y hy hne => hU y (hsub y hy) hne)
    simp only [Subtree.subst, if_neg ha]
    refine ⟨?_, ?_, ?_, ?_⟩
    · rw [hU a (Subtree.mem_addrs_node.mpr (Or.inl rfl)) ha, hb]
      simp [swapNode, Subtree.root_subst hsroot]
    · exact child c0 (fun y hy => Subtree.mem_addrs_node.mpr (Or.inr (Or.inl hy))) ih0 h0
    · exact child c1 (fun y hy => Subtree.mem_addrs_node.mpr (Or.inr (Or.inr (Or.inl hy)))) ih1 h1
    · exact child c2 (fun y hy => Subtree.mem_addrs_node.mpr (Or.inr (Or.inr (Or.inr hy)))) ih2
        h2r

/-- The cell of a node of a tree in the heap. -/
theorem Rep.cell {h : Heap} {x : Nat} {t : Subtree} {par : Option Nat} (hr : Rep h par t)
    (hx : x ∈ t.addrs) : ∃ f c0 c1 c2, t.find x = .node x f c0 c1 c2 ∧
      h[x]? = some ⟨f, c0.root, c1.root, c2.root, parentOf h x⟩ := by
  have h1 := Rep.find_sub hr hx
  have h2 := Subtree.find_root hx
  cases hf : t.find x with
  | null => rw [hf] at h2; simp [Subtree.root] at h2
  | node b f c0 c1 c2 =>
    rw [hf] at h1 h2
    simp only [Subtree.root, Option.some.injEq] at h2
    subst h2
    exact ⟨f, c0, c1, c2, rfl, h1.1⟩

/-- A node of a proper tree other than the root has its parent in the tree. -/
theorem Rep.parent_mem {h : Heap} {x : Nat} : ∀ {t : Subtree} {par : Option Nat}, Rep h par t →
    x ∈ t.addrs → t.root ≠ some x → ∃ q, q ∈ t.addrs ∧ parentOf h x = some q := by
  intro t
  induction t with
  | null => intro par _ hx; simp [Subtree.addrs] at hx
  | node a f c0 c1 c2 ih0 ih1 ih2 =>
    intro par hr hx hroot
    have ha : x ≠ a := fun e => hroot (by simp [Subtree.root, e])
    obtain ⟨hb, h0, h1, h2⟩ := hr
    have child : ∀ (c : Subtree), (∀ y ∈ c.addrs, y ∈ (Subtree.node a f c0 c1 c2).addrs) →
        (∀ {par : Option Nat}, Rep h par c → x ∈ c.addrs → c.root ≠ some x →
          ∃ q, q ∈ c.addrs ∧ parentOf h x = some q) →
        Rep h (some a) c → x ∈ c.addrs →
        ∃ q, q ∈ (Subtree.node a f c0 c1 c2).addrs ∧ parentOf h x = some q := by
      intro c hsub ih hc hxc
      by_cases hcr : c.root = some x
      · cases c with
        | null => simp [Subtree.root] at hcr
        | node b g d0 d1 d2 =>
          simp only [Subtree.root, Option.some.injEq] at hcr
          subst hcr
          exact ⟨a, Subtree.mem_addrs_node.mpr (Or.inl rfl), by simp [parentOf, hc.1]⟩
      · obtain ⟨q, hq, hp⟩ := ih hc hxc hcr
        exact ⟨q, hsub q hq, hp⟩
    rw [Subtree.mem_addrs_node] at hx
    rcases hx with hx | hx | hx | hx
    · exact absurd hx ha
    · exact child c0 (fun y hy => Subtree.mem_addrs_node.mpr (Or.inr (Or.inl hy))) ih0 h0 hx
    · exact child c1 (fun y hy => Subtree.mem_addrs_node.mpr (Or.inr (Or.inr (Or.inl hy)))) ih1
        h1 hx
    · exact child c2 (fun y hy => Subtree.mem_addrs_node.mpr (Or.inr (Or.inr (Or.inr hy)))) ih2
        h2 hx

/-- A parameter link of a node of a tree in the heap points to a node of the tree
whose parent link points back. -/
theorem IsTree.child_link {h : Heap} {t : Subtree} {par : Option Nat} (ht : IsTree h par t)
    {a x : Nat} {n : GPTreeNode} (ha : a ∈ t.addrs) (hn : h[a]? = some n)
    (hx : n.p0 = some x ∨ n.p1 = some x ∨ n.p2 = some x) :
    x ∈ t.addrs ∧ parentOf h x = some a := by
  obtain ⟨f, c0, c1, c2, hf, hcell⟩ := Rep.cell ht.1 ha
  have hsub : ∀ y ∈ (t.find a).addrs, y ∈ t.addrs :=
    fun y hy => (Subtree.find_addrs_sublist t).subset hy
  have hrf := Rep.find_sub ht.1 ha
  rw [hf] at hsub hrf
  rw [hn] at hcell
  simp only [Option.some.injEq] at hcell
  obtain ⟨_, r0, r1, r2⟩ := hrf
  have key : ∀ (c : Subtree), Rep h (some a) c → c.root = some x →
      (∀ y ∈ c.addrs, y ∈ (Subtree.node a f c0 c1 c2).addrs) →
      x ∈ t.addrs ∧ parentOf h x = some a := by
    intro c hc hcr hcs
    cases c with
    | null => simp [Subtree.root] at hcr
    | node b g d0 d1 d2 =>
      simp only [Subtree.root, Option.some.injEq] at hcr
      subst hcr
      exact ⟨hsub b (hcs b (Subtree.mem_addrs_node.mpr (Or.inl rfl))), by simp [parentOf, hc.1]⟩
  subst hcell
  rcases hx with hx | hx | hx
  · exact key c0 r0 hx (fun y hy => Subtree.mem_addrs_node.mpr (Or.inr (Or.inl hy)))
  · exact key c1 r1 hx (fun y hy => Subtree.mem_addrs_node.mpr (Or.inr (Or.inr (Or.inl hy))))
  · exact key c2 r2 hx (fun y hy => Subtree.mem_addrs_node.mpr (Or.inr (Or.inr (Or.inr hy))))

/-- The parameter links of a node of a proper tree are pairwise different. -/
theorem IsTree.links_distinct {h : Heap} {t : Subtree} {par : Option Nat} (ht : IsTree h par t)
    {a x : Nat} {n : GPTreeNode} (ha : a ∈ t.addrs) (hn : h[a]? = some n) :
    (n.p0 = some x → n.p1 ≠ some x ∧ n.p2 ≠ some x) ∧ (n.p1 = some x → n.p2 ≠ some x) := by
  obtain ⟨f, c0, c1, c2, hf, hcell⟩ := Rep.cell ht.1 ha
  have hnd : (t.find a).addrs.Nodup := (Subtree.find_addrs_sublist t).nodup ht.2
  rw [hf] at hnd
  obtain ⟨n1, n2, n3, n4, n5, n6, d01, d02, d12⟩ := Subtree.nodup_node.mp hnd
  rw [hn] at hcell
  simp only [Option.some.injEq] at hcell
  subst hcell
  dsimp only
  refine ⟨fun e0 => ⟨fun e1 => ?_, fun e2 => ?_⟩, fun e1 e2 => ?_⟩
  · exact d01 x (Subtree.root_mem_addrs e0) (Subtree.root_mem_addrs e1)
  · exact d02 x (Subtree.root_mem_addrs e0) (Subtree.root_mem_addrs e2)
  · exact d12 x (Subtree.root_mem_addrs e1) (Subtree.root_mem_addrs e2)

end GP

namespace GP

/-! ## Replace -/

theorem CountSubtreeAux_cell {h : Heap} {fuel a e : Nat} (he : CountSubtreeAux h fuel a = some e) :
    ∃ n, h[a]? = some n := by
  cases fuel with
  | zero => simp [CountSubtreeAux] at he
  | succ fuel =>
    simp only [CountSubtreeAux] at he
    cases hn : h[a]? with
    | none => rw [hn] at he; cases he
    | some n => exact ⟨n, rfl⟩

theorem swapNode_eq_self {src new : Nat} {n : GPTreeNode} (h0 : n.p0 ≠ some src)
    (h1 : n.p1 ≠ some src) (h2 : n.p2 ≠ some src) : swapNode src new n = n := by
  cases n
  simp_all [swapNode, swapLink]

/-- What the slot loop of `Replace` does to the heap. -/
theorem replaceSlot_spec {h1 : Heap} {q : Nat} (src new : Nat) {qn : GPTreeNode}
    (hq : h1[q]? = some qn) :
    ∃ h2 qn1, replaceSlot h1 q src new = some h2 ∧ h2.length = h1.length ∧
      (∀ a, a ≠ q → h2[a]? = h1[a]?) ∧ h2[q]? = some qn1 ∧ qn1.parent = qn.parent ∧
      qn1.functionID = qn.functionID ∧
      ((qn.p0 ≠ some src ∧ qn.p1 ≠ some src ∧ qn.p2 ≠ some src) → qn1 = qn) ∧
      (((qn.p0 = some src → qn.p1 ≠ some src ∧ qn.p2 ≠ some src) ∧
        (qn.p1 = some src → qn.p2 ≠ some src)) → qn1 = swapNode src new qn) := by
  have hlt := lt_of_getElem?_eq_some hq
  have setEq : ∀ (i : Nat) (n1 : GPTreeNode), qn.setParameter i (some new) = some n1 →
      setParam h1 q i (some new) = some (h1.set q n1) := by
    intro i n1 e
    simp [setParam, hq, e]
  have fin : ∀ (n1 : GPTreeNode), n1.parent = qn.parent → n1.functionID = qn.functionID →
      ((qn.p0 ≠ some src ∧ qn.p1 ≠ some src ∧ qn.p2 ≠ some src) → n1 = qn) →
      (((qn.p0 = some src → qn.p1 ≠ some src ∧ qn.p2 ≠ some src) ∧
        (qn.p1 = some src → qn.p2 ≠ some src)) → n1 = swapNode src new qn) →
      ∃ h2 qn1, some (h1.set q n1) = some h2 ∧ h2.length = h1.length ∧
      (∀ a, a ≠ q → h2[a]? = h1[a]?) ∧ h2[q]? = some qn1 ∧ qn1.parent = qn.parent ∧
      qn1.functionID = qn.functionID ∧
      ((qn.p0 ≠ some src ∧ qn.p1 ≠ some src ∧ qn.p2 ≠ some src) → qn1 = qn) ∧
      (((qn.p0 = some src → qn.p1 ≠ some src ∧ qn.p2 ≠ some src) ∧
        (qn.p1 = some src → qn.p2 ≠ some src)) → qn1 = swapNode src new qn) := by
    intro n1 hp hf hA hB
    refine ⟨h1.set q n1, n1, rfl, by simp, ?_, ?_, hp, hf, hA, hB⟩
    · intro a ha
      rw [getElem?_set_heap h1 q a n1 hlt, if_neg ha]
    · rw [getElem?_set_heap h1 q q n1 hlt, if_pos rfl]
  unfold replaceSlot
  rw [hq]
  dsimp only
  by_cases c0 : qn.p0 = some src
  · rw [if_pos c0, setEq 0 _ rfl]
    refine fin _ rfl rfl (fun hh => absurd c0 hh.1) (fun hh => ?_)
    obtain ⟨e1, e2⟩ := hh.1 c0
    cases qn
    simp_all [swapNode, swapLink]
  · rw [if_neg c0]
    by_cases c1 : qn.p1 = some src
    · rw [if_pos c1, setEq 1 _ rfl]
      refine fin _ rfl rfl (fun hh => absurd c1 hh.2.1) (fun hh => ?_)
      have e2 := hh.2 c1
      cases qn
      simp_all [swapNode, swapLink]
    · rw [if_neg c1]
      by_cases c2 : qn.p2 = some src
      · rw [if_pos c2, setEq 2 _ rfl]
        refine fin _ rfl rfl (fun hh => absurd c2 hh.2.2) (fun _ => ?_)
        cases qn
        simp_all [swapNode, swapLink]
      · rw [if_neg c2]
        refine ⟨h1, qn, rfl, rfl, fun _ _ => rfl, hq, rfl, rfl, fun _ => rfl, fun _ => ?_⟩
        exact (swapNode_eq_self c0 c1 c2).symm

theorem parentWalk_cell {h : Heap} {R : Option Nat} {fuel q r : Nat}
    (e : parentWalk h R fuel (some q) = some (some r)) : q = r ∨ ∃ n, h[q]? = some n := by
  cases fuel with
  | zero => simp [parentWalk] at e
  | succ fuel =>
    simp only [parentWalk] at e
    by_cases hR : some q = R
    · rw [if_pos hR] at e
      simp only [Option.some.injEq] at e
      exact Or.inl e
    · rw [if_neg hR] at e
      cases hn : h[q]? with
      | none => rw [hn] at e; cases e
      | some n => exact Or.inr ⟨n, rfl⟩

/-! ### The branches of `Replace` -/

theorem Replace_null_eq {h : Heap} {T : GPTree} {new m : Nat} (hm : CountSubtree h new = some m) :
    T.Replace h none new =
      if (m : Int) > T.MaxNodes then some (some new, T, h)
      else some (T.m_root, { T with m_root := some new, m_count := m }, h) := by
  simp only [GPTree.Replace, hm]

theorem Replace_reject_walk {h : Heap} {T : GPTree} {src new m e : Nat}
    (hm : CountSubtree h new = some m) (he : CountSubtree h src = some e)
    (hw : parentWalk h T.m_root (h.length + 1) (some src) = some none) :
    T.Replace h (some src) new = some (some new, T, h) := by
  simp only [GPTree.Replace, hm, he, hw]

theorem Replace_reject_budget {h : Heap} {T : GPTree} {src new m e r0 : Nat}
    (hm : CountSubtree h new = some m) (he : CountSubtree h src = some e)
    (hw : parentWalk h T.m_root (h.length + 1) (some src) = some (some r0))
    (hover : T.Count - (e : Int) + (m : Int) > T.MaxNodes) :
    T.Replace h (some src) new = some (some new, T, h) := by
  simp only [GPTree.Replace, hm, he, hw, if_pos hover]

theorem Replace_accept_root {h : Heap} {T : GPTree} {src new m e r0 : Nat} {sn : GPTreeNode}
    (hm : CountSubtree h new = some m) (he : CountSubtree h src = some e)
    (hw : parentWalk h T.m_root (h.length + 1) (some src) = some (some r0))
    (hfit : ¬ (T.Count - (e : Int) + (m : Int) > T.MaxNodes))
    (hsn : h[src]? = some sn) (hp : sn.parent = none) :
    T.Replace h (some src) new =
      some (some src, { T with m_root := some new, m_count := m }, h) := by
  simp only [GPTree.Replace, hm, he, hw, if_neg hfit, hsn, hp]

theorem Replace_accept_inner {h h1 h2 : Heap} {T : GPTree} {src new m e r0 q c : Nat}
    {sn : GPTreeNode}
    (hm : CountSubtree h new = some m) (he : CountSubtree h src = some e)
    (hw : parentWalk h T.m_root (h.length + 1) (some src) = some (some r0))
    (hfit : ¬ (T.Count - (e : Int) + (m : Int) > T.MaxNodes))
    (hsn : h[src]? = some sn) (hp : sn.parent = some q)
    (e1 : setParent h new (some q) = some h1) (e2 : replaceSlot h1 q src new = some h2)
    (hc : CountSubtree h2 r0 = some c) :
    T.Replace h (some src) new =
      some (some src, { T with m_root := some r0, m_count := c }, h2) := by
  have hR : T.m_root = some r0 := (parentWalk_chain hw).1
  rw [hR] at hw
  simp only [GPTree.Replace, hm, he, hR, hw, if_neg hfit, hsn, hp, e1, e2, hc]

end GP

namespace GP

theorem parentWalk_not_root_step {h : Heap} {R : Option Nat} {fuel src r0 : Nat} {sn : GPTreeNode}
    (hw : parentWalk h R (fuel + 1) (some src) = some (some r0)) (hne : some src ≠ R)
    (hsn : h[src]? = some sn) :
    ∃ q, sn.parent = some q ∧ (q = r0 ∨ ∃ n, h[q]? = some n) := by
  simp only [parentWalk, if_neg hne, hsn] at hw
  obtain ⟨_, q, hq, _⟩ := parentWalk_chain hw
  rw [hq] at hw
  exact ⟨q, hq, parentWalk_cell hw⟩

/-- The accepting branch of `Replace`, for an arbitrary source pointer whose
parent links lead to the root: the tree object afterwards owns `t` with `s` in
the place of the subtree at `src` (which is `t` itself when `src` is not one of
its nodes). -/
theorem Replace_accept {h : Heap} {T : GPTree} {t s : Subtree} {parN : Option Nat}
    {src new e r0 : Nat}
    (ht : IsTree h none t) (hroot : t.root = T.m_root)
    (hs : IsTree h parN s) (hsroot : s.root = some new)
    (hdisj : ∀ y ∈ s.addrs, y ∉ t.addrs)
    (he : CountSubtree h src = some e)
    (hw : parentWalk h T.m_root (h.length + 1) (some src) = some (some r0))
    (hfit : ¬ (T.Count - (e : Int) + (s.size : Int) > T.MaxNodes)) :
    ∃ h2, T.Replace h (some src) new =
        some (some src,
          ⟨T.m_max_nodes, ((t.subst src s).size : Int), (t.subst src s).root⟩, h2) ∧
      IsTree h2 (if t.root = some src then parN else none) (t.subst src s) ∧
      h2.length = h.length ∧
      (∀ a : Nat, a ≠ new → parentOf h src ≠ some a → h2[a]? = h[a]?) ∧
      (∀ a : Nat, (h2[a]?).map GPTreeNode.functionID = (h[a]?).map GPTreeNode.functionID) ∧
      (t.root ≠ some src → parentOf h2 new = parentOf h src) ∧
      (t.root = some src → h2 = h) := by
  have hm := CountSubtree_of_isTree hs hsroot
  have hR : T.m_root = some r0 := (parentWalk_chain hw).1
  have htr : t.root = some r0 := hroot.trans hR
  obtain ⟨sn, hsn⟩ := CountSubtreeAux_cell he
  have hnewmem : new ∈ s.addrs := Subtree.root_mem_addrs hsroot
  have hr0mem : r0 ∈ t.addrs := Subtree.root_mem_addrs htr
  by_cases hsr : t.root = some src
  · -- the source is the root
    have hsrc : src = r0 := by rw [htr] at hsr; exact (Option.some.inj hsr).symm
    have hpar : sn.parent = none := by
      obtain ⟨f, c0, c1, c2, _, hcell⟩ := Rep.cell ht.1 hr0mem
      have hp0 : parentOf h r0 = none := by
        cases t with
        | null => simp [Subtree.root] at htr
        | node a f c0 c1 c2 =>
          simp only [Subtree.root, Option.some.injEq] at htr
          subst htr
          simp [parentOf, ht.1.1]
      rw [← hsrc, hsn] at hcell
      rw [← hsrc] at hp0
      simp only [Option.some.injEq] at hcell
      rw [hcell]; exact hp0
    have hsub : t.subst src s = s := by
      cases t with
      | null => simp [Subtree.root] at htr
      | node a f c0 c1 c2 =>
        simp only [Subtree.root, Option.some.injEq] at hsr
        simp [Subtree.subst, hsr]
    refine ⟨h, ?_, ?_, rfl, fun _ _ _ => rfl, fun _ => rfl, fun hne => absurd hsr hne,
      fun _ => rfl⟩
    · rw [Replace_accept_root hm he hw hfit hsn hpar, hsub, hsroot]
    · rw [hsub, if_pos hsr]; exact hs
  · -- the source is not the root
    have hne : some src ≠ T.m_root := fun e => hsr (hroot.trans e.symm)
    obtain ⟨q, hq, hqcell⟩ := parentWalk_not_root_step hw hne hsn
    have hpo : parentOf h src = some q := by simp [parentOf, hsn, hq]
    have hqc : ∃ qn, h[q]? = some qn := by
      rcases hqcell with e | e
      · obtain ⟨f, c0, c1, c2, _, hcell⟩ := Rep.cell ht.1 hr0mem
        exact ⟨_, e ▸ hcell⟩
      · exact e
    obtain ⟨qn, hqn⟩ := hqc
    cases s with
    | null => simp [Subtree.root] at hsroot
    | node new1 g d0 d1 d2 =>
      simp only [Subtree.root, Option.some.injEq] at hsroot
      subst hsroot
      have hnew : h[new1]? = some ⟨g, d0.root, d1.root, d2.root, parN⟩ := hs.1.1
      have e1 := setParent_isSome (some q) hnew
      have h1get := setParent_get e1
      have h1len := setParent_length e1
      generalize hh1 : h.set new1 { (⟨g, d0.root, d1.root, d2.root, parN⟩ : GPTreeNode) with
        parent := some q } = h1 at e1 h1get h1len
      have h1new : h1[new1]? = some ⟨g, d0.root, d1.root, d2.root, some q⟩ := by
        rw [h1get, if_pos rfl, hnew]; rfl
      have h1q : ∃ qn1, h1[q]? = some qn1 ∧ qn1.parent = (if q = new1 then some q else qn.parent) ∧
          qn1.functionID = qn.functionID ∧ (q ≠ new1 → qn1 = qn) := by
        by_cases hqn1 : q = new1
        · subst hqn1
          rw [hqn] at hnew
          simp only [Option.some.injEq] at hnew
          exact ⟨_, h1new, by simp, by rw [hnew], fun hc => absurd rfl hc⟩
        · refine ⟨qn, ?_, by simp [hqn1], rfl, fun _ => rfl⟩
          rw [h1get, if_neg hqn1, hqn]
      obtain ⟨qn1, hqn1, hqn1p, hqn1f, hqn1e⟩ := h1q
      obtain ⟨h2, qn2, e2, hlen2, hframe2, hq2, hpar2, hfid2, hA, hB⟩ :=
        replaceSlot_spec src new1 hqn1
      -- the tree in the new heap
      have hrep : Rep h2 none (t.subst src (.node new1 g d0 d1 d2)) := by
        by_cases hmem : src ∈ t.addrs
        · obtain ⟨q1, hq1mem, hq1⟩ := Rep.parent_mem ht.1 hmem hsr
          rw [hpo] at hq1
          simp only [Option.some.injEq] at hq1
          subst hq1
          have hqne : q ≠ new1 := fun e => hdisj new1 hnewmem (e ▸ hq1mem)
          have hqq := hqn1e hqne
          subst hqq
          have hsw := hB (ht.links_distinct hq1mem hqn)
          subst hsw
          refine Rep.subst (h := h)
            (show (Subtree.node new1 g d0 d1 d2).root = some new1 from rfl) ?_ ht.1 hsr ?_
          · rw [hpo]
            obtain ⟨_, r0', r1', r2'⟩ := hs.1
            obtain ⟨n1, n2, n3, _⟩ := Subtree.nodup_node.mp hs.2
            have fr : ∀ (d : Subtree), new1 ∉ d.addrs →
                (∀ y ∈ d.addrs, y ∈ (Subtree.node new1 g d0 d1 d2).addrs) →
                Rep h (some new1) d → Rep h2 (some new1) d := by
              intro d hnd hsub hd
              refine Rep.frame hd (fun y hy => ?_)
              have hyq : y ≠ q := fun e => hdisj y (hsub y hy) (e ▸ hq1mem)
              have hyn : y ≠ new1 := fun e => hnd (e ▸ hy)
              rw [hframe2 y hyq, h1get, if_neg hyn]
            refine ⟨?_, ?_, ?_, ?_⟩
            · rw [hframe2 new1 (Ne.symm hqne), h1new]
            · exact fr d0 n1 (fun y hy => Subtree.mem_addrs_node.mpr (Or.inr (Or.inl hy))) r0'
            · exact fr d1 n2
                (fun y hy => Subtree.mem_addrs_node.mpr (Or.inr (Or.inr (Or.inl hy)))) r1'
            · exact fr d2 n3
                (fun y hy => Subtree.mem_addrs_node.mpr (Or.inr (Or.inr (Or.inr hy)))) r2'
          · intro a ha hasrc
            by_cases haq : a = q
            · subst haq; rw [hq2, hqn]; rfl
            · have han : a ≠ new1 := fun e => hdisj new1 hnewmem (e ▸ ha)
              rw [hframe2 a haq, h1get, if_neg han]
              obtain ⟨f, c0, c1, c2, _, hcell⟩ := Rep.cell ht.1 ha
              rw [hcell]
              have key : ∀ x, (⟨f, c0.root, c1.root, c2.root, parentOf h a⟩ : GPTreeNode).p0 = some x ∨
                  (⟨f, c0.root, c1.root, c2.root, parentOf h a⟩ : GPTreeNode).p1 = some x ∨
                  (⟨f, c0.root, c1.root, c2.root, parentOf h a⟩ : GPTreeNode).p2 = some x →
                  x ≠ src := by
                intro x hx hxs
                have := (ht.child_link ha hcell hx).2
                rw [hxs, hpo] at this
                exact haq (Option.some.inj this).symm
              simp only [Option.map_some']
              rw [swapNode_eq_self (fun e => key src (Or.inl e) rfl)
                (fun e => key src (Or.inr (Or.inl e)) rfl)
                (fun e => key src (Or.inr (Or.inr e)) rfl)]
        · rw [Subtree.subst_of_not_mem hmem]
          refine Rep.frame ht.1 (fun a ha => ?_)
          have han : a ≠ new1 := fun e => hdisj new1 hnewmem (e ▸ ha)
          by_cases haq : a = q
          · subst haq
            have hqq := hqn1e han
            subst hqq
            have hno : qn1.p0 ≠ some src ∧ qn1.p1 ≠ some src ∧ qn1.p2 ≠ some src := by
              refine ⟨fun e => ?_, fun e => ?_, fun e => ?_⟩
              · exact hmem (ht.child_link ha hqn (Or.inl e)).1
              · exact hmem (ht.child_link ha hqn (Or.inr (Or.inl e))).1
              · exact hmem (ht.child_link ha hqn (Or.inr (Or.inr e))).1
            rw [hq2, hA hno, hqn]
          · rw [hframe2 a haq, h1get, if_neg han]
      have hnd : (t.subst src (.node new1 g d0 d1 d2)).addrs.Nodup :=
        Subtree.nodup_subst hs.2 ht.2 hdisj
      have hrt : (t.subst src (.node new1 g d0 d1 d2)).root = some r0 := by
        rw [Subtree.root_subst (show (Subtree.node new1 g d0 d1 d2).root = some new1 from rfl),
          swapLink, if_neg hsr, htr]
      have hc := CountSubtree_of_isTree
        (show IsTree h2 none (t.subst src (.node new1 g d0 d1 d2)) from ⟨hrep, hnd⟩) hrt
      refine ⟨h2, ?_, ?_, by rw [hlen2, h1len], ?_, ?_, ?_, fun e => absurd e hsr⟩
      · rw [Replace_accept_inner hm he hw hfit hsn hq e1 e2 hc, hrt]
      · rw [if_neg hsr]; exact ⟨hrep, hnd⟩
      · intro a han haq
        rw [hpo] at haq
        have haq1 : a ≠ q := fun e => haq (by rw [e])
        rw [hframe2 a haq1, h1get, if_neg han]
      · intro a
        by_cases haq : a = q
        · subst haq; rw [hq2, hqn]; simp [hfid2, hqn1f]
        · rw [hframe2 a haq, h1get]
          by_cases han : a = new1
          · subst han; rw [if_pos rfl, hnew]; rfl
          · rw [if_neg han]
      · intro _
        rw [hpo]
        by_cases hqn1' : q = new1
        · subst hqn1'
          simp only [parentOf, hq2, hpar2, hqn1p, if_true]
        · simp only [parentOf, hframe2 new1 (Ne.symm hqn1'), h1new]

end GP

namespace GP

/-! ## Claims about `Replace` -/

/-- C7: `Replace( NULL, S )` on an empty tree with budget `B`.  For every proper
subtree `S` in the heap: if `size(S) <= B` the call installs `S` as the root and
sets the count to `size(S)` (the returned pointer is the old, null root); if
`size(S) > B` the tree stays empty (root null, count 0), the heap is untouched
and the returned pointer is `S`. -/
theorem Replace_null_on_empty_tree (h : Heap) (B : Int) (s : Subtree) (par : Option Nat)
    (S : Nat) (hs : IsTree h par s) (hroot : s.root = some S) :
    ((s.size : Int) ≤ B →
      (GPTree.new B).Replace h none S = some (none, ⟨B, (s.size : Int), some S⟩, h)) ∧
    ((s.size : Int) > B →
      (GPTree.new B).Replace h none S = some (some S, GPTree.new B, h)) := by
  have hm := CountSubtree_of_isTree hs hroot
  rw [Replace_null_eq hm]
  constructor
  · intro hle
    rw [if_neg (by simpa [GPTree.MaxNodes, GPTree.new] using hle)]
    rfl
  · intro hgt
    rw [if_pos (by simpa [GPTree.MaxNodes, GPTree.new] using hgt)]

theorem Replace_null_on_empty_tree_witness :
    (((exTree.size : Int) ≤ 3 →
      (GPTree.new 3).Replace exHeap none 0 = some (none, ⟨3, (exTree.size : Int), some 0⟩, exHeap)) ∧
    ((exTree.size : Int) > 3 →
      (GPTree.new 3).Replace exHeap none 0 = some (some 0, GPTree.new 3, exHeap))) :=
  Replace_null_on_empty_tree exHeap 3 exTree none 0 (by decide) (by decide)

/-- C8: when `Replace` hands back `new_subtree`.  The tree object owns a proper
tree, `new_subtree` is a proper tree of other cells, and `source_node` is any
other non-null pointer whose subtree can be counted and whose chain of parent
links ends.  Then `Replace` returns; it returns `new_subtree` (and not
`source_node`) exactly when the parent links of `source_node` do not lead to the
root or `Count - size(source) + size(new_subtree) > MaxNodes`; in that case the
tree object and the heap are unchanged; in every other case it returns
`source_node`. -/
theorem Replace_returns_new_subtree_iff {h : Heap} {T : GPTree} (t s : Subtree)
    (parN w : Option Nat) {src new e : Nat}
    (ht : IsTree h none t) (hroot : t.root = T.m_root)
    (hs : IsTree h parN s) (hsroot : s.root = some new)
    (hdisj : ∀ y ∈ s.addrs, y ∉ t.addrs)
    (he : CountSubtree h src = some e)
    (hw : parentWalk h T.m_root (h.length + 1) (some src) = some w)
    (hne : src ≠ new) :
    ∃ ret T1 h1, T.Replace h (some src) new = some (ret, T1, h1) ∧
      ((ret = some new ∧ ret ≠ some src) ↔
        (¬ ReachesRoot h T src ∨ T.Count - (e : Int) + (s.size : Int) > T.MaxNodes)) ∧
      ((¬ ReachesRoot h T src ∨ T.Count - (e : Int) + (s.size : Int) > T.MaxNodes) →
        T1 = T ∧ h1 = h) ∧
      (¬ (¬ ReachesRoot h T src ∨ T.Count - (e : Int) + (s.size : Int) > T.MaxNodes) →
        ret = some src) := by
  have hm := CountSubtree_of_isTree hs hsroot
  have hreach := parentWalk_iff hw
  have hne1 : (some new : Option Nat) ≠ some src := fun e => hne (Option.some.inj e).symm
  by_cases hrej : ¬ ReachesRoot h T src ∨ T.Count - (e : Int) + (s.size : Int) > T.MaxNodes
  · have heq : T.Replace h (some src) new = some (some new, T, h) := by
      cases w with
      | none => exact Replace_reject_walk hm he hw
      | some r0 =>
        rcases hrej with hnr | hover
        · exact absurd (hreach.mp (by simp)) hnr
        · exact Replace_reject_budget hm he hw hover
    exact ⟨some new, T, h, heq, ⟨fun _ => hrej, fun _ => ⟨rfl, hne1⟩⟩, fun _ => ⟨rfl, rfl⟩,
      fun hc => absurd hrej hc⟩
  · have hrej1 := hrej
    rw [not_or, not_not] at hrej1
    obtain ⟨hreaches, hfit⟩ := hrej1
    have hwn : w ≠ none := hreach.mpr hreaches
    obtain ⟨r0, rfl⟩ := Option.ne_none_iff_exists'.mp hwn
    obtain ⟨h2, heq, _⟩ := Replace_accept ht hroot hs hsroot hdisj he hw hfit
    exact ⟨some src, _, h2, heq, ⟨fun hc => absurd hc.1.symm hne1, fun hc => absurd hc hrej⟩,
      fun hc => absurd hc hrej, fun _ => rfl⟩

theorem Replace_returns_new_subtree_iff_witness :
    ∃ ret T1 h1, exGPTree.Replace exHeap (some 1) 3 = some (ret, T1, h1) ∧
      ((ret = some 3 ∧ ret ≠ some 1) ↔
        (¬ ReachesRoot exHeap exGPTree 1 ∨
          exGPTree.Count - ((1 : Nat) : Int) + (exLeaf.size : Int) > exGPTree.MaxNodes)) ∧
      ((¬ ReachesRoot exHeap exGPTree 1 ∨
          exGPTree.Count - ((1 : Nat) : Int) + (exLeaf.size : Int) > exGPTree.MaxNodes) →
        T1 = exGPTree ∧ h1 = exHeap) ∧
      (¬ (¬ ReachesRoot exHeap exGPTree 1 ∨
          exGPTree.Count - ((1 : Nat) : Int) + (exLeaf.size : Int) > exGPTree.MaxNodes) →
        ret = some 1) :=
  Replace_returns_new_subtree_iff exTree exLeaf none (some 0)
    (by decide) (by decide) (by decide) (by decide) (by decide) (by decide) (by decide)
    (by decide)

/-- A successful `Replace`, for a new subtree whose root has any parent link
`parN`.  The tree object owns the proper tree `t` and its cached count is right,
`new_subtree` is a proper tree of other cells, `source_node` is a node of `t`,
and the result fits the budget.  Then `Replace` returns `source_node`;
afterwards the tree object holds `t` with the subtree at `source_node` replaced
by `new_subtree` (at the same parameter slot, or as the root when `source_node`
was the root); every cell other than `new_subtree` and the former parent of
`source_node` is unchanged and no function id changes; the new count is the old
count minus the size of the subtree at `source_node` plus the size of
`new_subtree`.  When `source_node` is not the root, the parent link of
`new_subtree` is made the former parent link of `source_node`.  When
`source_node` is the root, no cell is written: `new_subtree` keeps the parent
link `parN` that it had, while the former parent link of `source_node` is
null. -/
theorem Replace_success {h : Heap} {T : GPTree} (t s : Subtree) {parN : Option Nat}
    {src new : Nat}
    (ht : IsTree h none t) (hroot : t.root = T.m_root) (hcount : T.m_count = (t.size : Int))
    (hs : IsTree h parN s) (hsroot : s.root = some new)
    (hdisj : ∀ y ∈ s.addrs, y ∉ t.addrs)
    (hsrc : src ∈ t.addrs)
    (hfit : T.Count - ((t.find src).size : Int) + (s.size : Int) ≤ T.MaxNodes) :
    ∃ h2, T.Replace h (some src) new =
        some (some src,
          ⟨T.m_max_nodes, T.Count - ((t.find src).size : Int) + (s.size : Int),
            (t.subst src s).root⟩, h2) ∧
      IsTree h2 (if t.root = some src then parN else none) (t.subst src s) ∧
      (∀ a : Nat, a ≠ new → parentOf h src ≠ some a → h2[a]? = h[a]?) ∧
      (∀ a : Nat, (h2[a]?).map GPTreeNode.functionID = (h[a]?).map GPTreeNode.functionID) ∧
      (t.root ≠ some src → parentOf h2 new = parentOf h src) ∧
      (t.root = some src → h2 = h ∧ parentOf h2 new = parN ∧ parentOf h src = none) ∧
      CountSubtree h src = some (t.find src).size ∧
      CountSubtree h new = some s.size := by
  have he := CountSubtree_find ht hsrc
  have hw : parentWalk h T.m_root (h.length + 1) (some src) = some T.m_root := by
    rw [← hroot]; exact parentWalk_of_mem ht hsrc
  obtain ⟨r0, hr0⟩ : ∃ r0, T.m_root = some r0 := by
    cases t with
    | null => simp [Subtree.addrs] at hsrc
    | node a f c0 c1 c2 => exact ⟨a, hroot.symm⟩
  replace hw : parentWalk h T.m_root (h.length + 1) (some src) = some (some r0) := by
    rw [hw, hr0]
  obtain ⟨h2, heq, htree, _, hframe, hfid, hpar, hrootcase⟩ :=
    Replace_accept ht hroot hs hsroot hdisj he hw (not_lt.mpr hfit)
  have hsz := Subtree.size_subst (s := s) ht.2 hsrc
  have hcnt : ((t.subst src s).size : Int) =
      T.Count - ((t.find src).size : Int) + (s.size : Int) := by
    simp only [GPTree.Count, hcount]; omega
  refine ⟨h2, by rw [heq, hcnt], htree, hframe, hfid, hpar, ?_, he,
    CountSubtree_of_isTree hs hsroot⟩
  intro hsr
  have h1 : parentOf h new = parN := by
    cases s with
    | null => simp [Subtree.root] at hsroot
    | node b g d0 d1 d2 =>
      simp only [Subtree.root, Option.some.injEq] at hsroot
      subst hsroot
      simp [parentOf, hs.1.1]
  have h2' : parentOf h src = none := by
    cases t with
    | null => simp [Subtree.addrs] at hsrc
    | node a f c0 c1 c2 =>
      simp only [Subtree.root, Option.some.injEq] at hsr
      subst hsr
      simp [parentOf, ht.1.1]
  refine ⟨hrootcase hsr, ?_, h2'⟩
  rw [hrootcase hsr]
  exact h1

theorem Replace_success_witness :
    ∃ h2, exGPTree.Replace exHeap (some 1) 3 =
        some (some 1,
          ⟨exGPTree.m_max_nodes,
            exGPTree.Count - ((exTree.find 1).size : Int) + (exLeaf.size : Int),
            (exTree.subst 1 exLeaf).root⟩, h2) ∧
      IsTree h2 (if exTree.root = some 1 then none else none) (exTree.subst 1 exLeaf) ∧
      (∀ a : Nat, a ≠ 3 → parentOf exHeap 1 ≠ some a → h2[a]? = exHeap[a]?) ∧
      (∀ a : Nat, (h2[a]?).map GPTreeNode.functionID = (exHeap[a]?).map GPTreeNode.functionID) ∧
      (exTree.root ≠ some 1 → parentOf h2 3 = parentOf exHeap 1) ∧
      (exTree.root = some 1 → h2 = exHeap ∧ parentOf h2 3 = none ∧ parentOf exHeap 1 = none) ∧
      CountSubtree exHeap 1 = some (exTree.find 1).size ∧
      CountSubtree exHeap 3 = some exLeaf.size :=
  Replace_success exTree exLeaf (by decide) (by decide) (by decide) (by decide)
    (by decide) (by decide) (by decide) (by decide)

/-- C10: `Replace` keeps the tree invariant.  If the tree object owns a proper
tree, its cached count is the number of nodes below the root and is at most
`MaxNodes`, then after `Replace` with a null source, the root or any other
pointer as source (whose subtree can be counted and whose parent chain ends),
accepted or rejected, the same holds again: the count that is cached then is
the number of nodes below the root then, and it is at most `MaxNodes`. -/
theorem Replace_preserves_invariant {h : Heap} {T : GPTree} (t s : Subtree) {new : Nat}
    (source : Option Nat)
    (hinv : TreeInv h T t)
    (hs : IsTree h none s) (hsroot : s.root = some new)
    (hdisj : ∀ y ∈ s.addrs, y ∉ t.addrs)
    (hsource : ∀ src, source = some src →
      (∃ e, CountSubtree h src = some e) ∧
      (∃ w, parentWalk h T.m_root (h.length + 1) (some src) = some w)) :
    ∃ ret T1 h1 t1, T.Replace h source new = some (ret, T1, h1) ∧ TreeInv h1 T1 t1 ∧
      (actualCount h1 T1.m_root).map Int.ofNat = some T1.Count ∧ T1.Count ≤ T1.MaxNodes ∧
      T1.MaxNodes = T.MaxNodes := by
  obtain ⟨ht, hroot, hcount, hle⟩ := hinv
  have hm := CountSubtree_of_isTree hs hsroot
  have actual : ∀ {h1 : Heap} {T1 : GPTree} {t1 : Subtree}, TreeInv h1 T1 t1 →
      (actualCount h1 T1.m_root).map Int.ofNat = some T1.Count ∧ T1.Count ≤ T1.MaxNodes := by
    intro h1 T1 t1 hi
    obtain ⟨hi1, hi2, hi3, hi4⟩ := hi
    refine ⟨?_, hi4⟩
    cases t1 with
    | null =>
      rw [← hi2]
      simp [Subtree.root, actualCount, GPTree.Count, hi3, Subtree.size]
    | node a f c0 c1 c2 =>
      rw [← hi2]
      simp only [Subtree.root, actualCount]
      rw [CountSubtree_of_isTree hi1 rfl]
      simp [GPTree.Count, hi3]
  have same : TreeInv h T t := ⟨ht, hroot, hcount, hle⟩
  cases source with
  | none =>
    rw [Replace_null_eq hm]
    by_cases hover : (s.size : Int) > T.MaxNodes
    · rw [if_pos hover]
      exact ⟨_, T, h, t, rfl, same, (actual same).1, (actual same).2, rfl⟩
    · rw [if_neg hover]
      have hi : TreeInv h { T with m_root := some new, m_count := (s.size : Int) } s :=
        ⟨hs, hsroot, rfl, not_lt.mp hover⟩
      exact ⟨_, _, h, s, rfl, hi, (actual hi).1, (actual hi).2, rfl⟩
  | some src =>
    obtain ⟨⟨e, he⟩, ⟨w, hw⟩⟩ := hsource src rfl
    cases w with
    | none =>
      rw [Replace_reject_walk hm he hw]
      exact ⟨_, T, h, t, rfl, same, (actual same).1, (actual same).2, rfl⟩
    | some r0 =>
      by_cases hover : T.Count - (e : Int) + (s.size : Int) > T.MaxNodes
      · rw [Replace_reject_budget hm he hw hover]
        exact ⟨_, T, h, t, rfl, same, (actual same).1, (actual same).2, rfl⟩
      · obtain ⟨h2, heq, htree, _, _, _, _, _⟩ :=
          Replace_accept ht hroot hs hsroot hdisj he hw hover
        rw [heq]
        have hi : TreeInv h2 ⟨T.m_max_nodes, ((t.subst src s).size : Int), (t.subst src s).root⟩
            (t.subst src s) := by
          refine ⟨by simpa using htree, rfl, rfl, ?_⟩
          by_cases hmem : src ∈ t.addrs
          · have hsz := Subtree.size_subst (s := s) ht.2 hmem
            have he2 := CountSubtree_find ht hmem
            rw [he] at he2
            simp only [Option.some.injEq] at he2
            subst he2
            simp only [GPTree.Count, GPTree.MaxNodes, hcount] at hover
            show ((t.subst src s).size : Int) ≤ T.m_max_nodes
            omega
          · rw [Subtree.subst_of_not_mem hmem]
            show (t.size : Int) ≤ T.m_max_nodes
            rw [← hcount]; exact hle
        exact ⟨_, _, h2, _, rfl, hi, (actual hi).1, (actual hi).2, rfl⟩

theorem Replace_preserves_invariant_witness :
    ∃ ret T1 h1 t1, exGPTree.Replace exHeap (some 1) 3 = some (ret, T1, h1) ∧ TreeInv h1 T1 t1 ∧
      (actualCount h1 T1.m_root).map Int.ofNat = some T1.Count ∧ T1.Count ≤ T1.MaxNodes ∧
      T1.MaxNodes = exGPTree.MaxNodes :=
  Replace_preserves_invariant exTree exLeaf (some 1)
    ⟨by decide, by decide, by decide, by decide⟩ (by decide) (by decide) (by decide)
    (fun src hsrc => by
      cases hsrc
      exact ⟨⟨1, by decide⟩, ⟨some 0, by decide⟩⟩)

end GP

namespace GP

/-! ## Breadth-first order of a forest -/

theorem nonNull_append (A B : List Subtree) : nonNull (A ++ B) = nonNull A ++ nonNull B := by
  simp [nonNull]

theorem childrenF_append (A B : List Subtree) :
    childrenF (A ++ B) = childrenF A ++ childrenF B := by
  simp [childrenF]

theorem nonNull_null_cons (Q : List Subtree) : nonNull (.null :: Q) = nonNull Q := by
  simp [nonNull, Subtree.isNode]

theorem nonNull_node_cons (a : Nat) (f : Int) (c0 c1 c2 : Subtree) (Q : List Subtree) :
    nonNull (.node a f c0 c1 c2 :: Q) = .node a f c0 c1 c2 :: nonNull Q := by
  simp [nonNull, Subtree.isNode]

theorem childrenF_null_cons (Q : List Subtree) : childrenF (.null :: Q) = childrenF Q := by
  simp [childrenF, Subtree.children]

theorem childrenF_node_cons (a : Nat) (f : Int) (c0 c1 c2 : Subtree) (Q : List Subtree) :
    childrenF (.node a f c0 c1 c2 :: Q) = [c0, c1, c2] ++ childrenF Q := by
  simp [childrenF, Subtree.children]

theorem loT_nil (H : Nat) : loT H [] = [] := by
  induction H with
  | zero => rfl
  | succ H ih => simp [loT, nonNull, childrenF, ih]

theorem loT_null_cons (H : Nat) (Q : List Subtree) : loT H (.null :: Q) = loT H Q := by
  cases H with
  | zero => rfl
  | succ H => simp only [loT, nonNull_null_cons, childrenF_null_cons]

theorem Subtree.height_eq_zero {t : Subtree} (h : t.height ≤ 0) : t = .null := by
  cases t with
  | null => rfl
  | node a f c0 c1 c2 => simp only [Subtree.height] at h; omega

theorem nonNull_of_height_zero {Q : List Subtree} (h : ∀ t ∈ Q, t.height ≤ 0) :
    nonNull Q = [] := by
  induction Q with
  | nil => rfl
  | cons t Q ih =>
    have := Subtree.height_eq_zero (h t (List.mem_cons_self _ _))
    subst this
    rw [nonNull_null_cons]
    exact ih (fun u hu => h u (List.mem_cons_of_mem _ hu))

theorem childrenF_of_height_zero {Q : List Subtree} (h : ∀ t ∈ Q, t.height ≤ 0) :
    childrenF Q = [] := by
  induction Q with
  | nil => rfl
  | cons t Q ih =>
    have := Subtree.height_eq_zero (h t (List.mem_cons_self _ _))
    subst this
    rw [childrenF_null_cons]
    exact ih (fun u hu => h u (List.mem_cons_of_mem _ hu))

theorem height_childrenF {Q : List Subtree} {H : Nat} (h : ∀ t ∈ Q, t.height ≤ H + 1) :
    ∀ c ∈ childrenF Q, c.height ≤ H := by
  intro c hc
  simp only [childrenF, List.mem_flatMap] at hc
  obtain ⟨t, ht, hct⟩ := hc
  have := h t ht
  cases t with
  | null => simp [Subtree.children] at hct
  | node a f c0 c1 c2 =>
    simp only [Subtree.height] at this
    simp only [Subtree.children, List.mem_cons, List.mem_singleton, List.not_mem_nil,
      or_false] at hct
    rcases hct with rfl | rfl | rfl <;> omega

/-- More levels than the forest has do not add anything. -/
theorem loT_succ_of_height : ∀ (H : Nat) {Q : List Subtree}, (∀ t ∈ Q, t.height ≤ H) →
    loT (H + 1) Q = loT H Q := by
  intro H
  induction H with
  | zero =>
    intro Q h
    simp [loT, nonNull_of_height_zero h, childrenF_of_height_zero h]
  | succ H ih =>
    intro Q h
    rw [loT, ih (height_childrenF h)]
    rfl

theorem loT_of_height_le {H K : Nat} {Q : List Subtree} (h : ∀ t ∈ Q, t.height ≤ H)
    (hk : H ≤ K) : loT K Q = loT H Q := by
  induction K with
  | zero =>
    have : H = 0 := by omega
    subst this; rfl
  | succ K ih =>
    by_cases e : H = K + 1
    · subst e; rfl
    · rw [loT_succ_of_height K (fun t ht => le_trans (h t ht) (by omega))]
      exact ih (by omega)

/-- The queue view of the breadth-first order: the roots of the front part come
first; what follows is the breadth-first order of the rest with the children of
the front part queued behind it. -/
theorem loT_rotate : ∀ (H : Nat) (A B : List Subtree), (∀ t ∈ A ++ B, t.height ≤ H) →
    loT H (A ++ B) = nonNull A ++ loT H (B ++ childrenF A) := by
  intro H
  induction H with
  | zero =>
    intro A B h
    have hA : ∀ t ∈ A, t.height ≤ 0 := fun t ht => h t (List.mem_append_left _ ht)
    simp [loT, nonNull_of_height_zero hA]
  | succ H ih =>
    intro A B h
    have hc := height_childrenF h
    rw [childrenF_append] at hc
    simp only [loT, nonNull_append, childrenF_append, List.append_assoc]
    rw [ih (childrenF A) (childrenF B) hc]

theorem loT_node_cons {H : Nat} {a : Nat} {f : Int} {c0 c1 c2 : Subtree} {Q : List Subtree}
    (h : ∀ t ∈ Subtree.node a f c0 c1 c2 :: Q, t.height ≤ H) :
    loT H (.node a f c0 c1 c2 :: Q) = .node a f c0 c1 c2 :: loT H (Q ++ [c0, c1, c2]) := by
  have := loT_rotate H [.node a f c0 c1 c2] Q (by simpa using h)
  simpa [nonNull, Subtree.isNode, childrenF, Subtree.children] using this

theorem height_queue_step {H : Nat} {a : Nat} {f : Int} {c0 c1 c2 : Subtree} {Q : List Subtree}
    (h : ∀ t ∈ Subtree.node a f c0 c1 c2 :: Q, t.height ≤ H) :
    ∀ t ∈ Q ++ [c0, c1, c2], t.height ≤ H := by
  intro t ht
  have h0 := h _ (List.mem_cons_self _ _)
  simp only [Subtree.height] at h0
  simp only [List.mem_append, List.mem_cons, List.mem_singleton, List.not_mem_nil,
    or_false] at ht
  rcases ht with ht | rfl | rfl | rfl
  · exact h t (List.mem_cons_of_mem _ ht)
  · omega
  · omega
  · omega

/-- The breadth-first order lists every subtree exactly once. -/
theorem loT_perm : ∀ (H : Nat) {Q : List Subtree}, (∀ t ∈ Q, t.height ≤ H) →
    (loT H Q).Perm (Q.flatMap Subtree.subtrees) := by
  intro H
  induction H with
  | zero =>
    intro Q h
    have : Q.flatMap Subtree.subtrees = [] := by
      induction Q with
      | nil => rfl
      | cons t Q ih =>
        have := Subtree.height_eq_zero (h t (List.mem_cons_self _ _))
        subst this
        simpa [Subtree.subtrees] using ih (fun u hu => h u (List.mem_cons_of_mem _ hu))
    rw [this]; exact List.Perm.refl _
  | succ H ih =>
    intro Q h
    have h1 := ih (height_childrenF h)
    have key : (Q.flatMap Subtree.subtrees).Perm
        (nonNull Q ++ (childrenF Q).flatMap Subtree.subtrees) := by
      clear h h1 ih
      induction Q with
      | nil => simp [nonNull, childrenF]
      | cons t Q ihQ =>
        cases t with
        | null =>
          rw [nonNull_null_cons, childrenF_null_cons]
          simpa [Subtree.subtrees] using ihQ
        | node a f c0 c1 c2 =>
          rw [nonNull_node_cons, childrenF_node_cons]
          have hL : (Subtree.node a f c0 c1 c2 :: Q).flatMap Subtree.subtrees =
              Subtree.node a f c0 c1 c2 ::
                ((c0.subtrees ++ c1.subtrees ++ c2.subtrees) ++ Q.flatMap Subtree.subtrees) := by
            simp [Subtree.subtrees]
          have hR : ([c0, c1, c2] ++ childrenF Q).flatMap Subtree.subtrees =
              (c0.subtrees ++ c1.subtrees ++ c2.subtrees) ++
                (childrenF Q).flatMap Subtree.subtrees := by
            simp
          rw [hL, hR, List.cons_append]
          refine List.Perm.cons _ ?_
          refine (List.Perm.append_left _ ihQ).trans ?_
          rw [← List.append_assoc, ← List.append_assoc]
          exact List.Perm.append_right _ List.perm_append_comm
    exact (List.Perm.append_left _ h1).trans key.symm

theorem Subtree.addrs_eq_rootsOf_subtrees (t : Subtree) : t.addrs = rootsOf t.subtrees := by
  induction t with
  | null => rfl
  | node a f c0 c1 c2 ih0 ih1 ih2 =>
    simp only [Subtree.addrs, Subtree.subtrees, rootsOf, List.filterMap_cons, Subtree.root,
      List.filterMap_append]
    simp only [rootsOf] at ih0 ih1 ih2
    rw [ih0, ih1, ih2]

/-- The breadth-first order of a tree is a rearrangement of its nodes. -/
theorem Subtree.levelOrder_perm (t : Subtree) : t.levelOrder.Perm t.addrs := by
  have h := loT_perm t.height (Q := [t]) (by simp)
  simp only [List.flatMap_cons, List.flatMap_nil, List.append_nil] at h
  rw [Subtree.addrs_eq_rootsOf_subtrees]
  exact h.filterMap _

theorem Subtree.levelOrderT_perm (t : Subtree) : t.levelOrderT.Perm t.subtrees := by
  have h := loT_perm t.height (Q := [t]) (by simp)
  simpa using h

theorem Subtree.length_levelOrder (t : Subtree) : t.levelOrder.length = t.size := by
  rw [t.levelOrder_perm.length_eq, Subtree.length_addrs]

theorem Subtree.isNode_of_mem_subtrees {t u : Subtree} (h : u ∈ t.subtrees) : u.isNode = true := by
  induction t with
  | null => simp [Subtree.subtrees] at h
  | node a f c0 c1 c2 ih0 ih1 ih2 =>
    simp only [Subtree.subtrees, List.mem_cons, List.mem_append] at h
    rcases h with rfl | (h | h) | h
    · rfl
    · exact ih0 h
    · exact ih1 h
    · exact ih2 h

theorem rootsOf_eq_map {Q : List Subtree} (h : ∀ u ∈ Q, u.isNode = true) :
    (rootsOf Q).map some = Q.map Subtree.root := by
  induction Q with
  | nil => rfl
  | cons u Q ih =>
    have hu := h u (List.mem_cons_self _ _)
    cases u with
    | null => simp [Subtree.isNode] at hu
    | node a f c0 c1 c2 =>
      simp only [rootsOf, List.filterMap_cons, Subtree.root, List.map_cons]
      simp only [rootsOf] at ih
      rw [ih (fun v hv => h v (List.mem_cons_of_mem _ hv))]

theorem Subtree.levelOrder_map_some (t : Subtree) :
    t.levelOrder.map some = t.levelOrderT.map Subtree.root :=
  rootsOf_eq_map (fun _ hu =>
    Subtree.isNode_of_mem_subtrees (t.levelOrderT_perm.subset hu))

end GP

namespace GP

/-! ## Trees in the heap, parent links left open -/

theorem RepC_cell {h : Heap} {a : Nat} {f : Int} {c0 c1 c2 : Subtree}
    (hr : RepC h (.node a f c0 c1 c2)) :
    ∃ n, h[a]? = some n ∧ n.functionID = f ∧ n.p0 = c0.root ∧ n.p1 = c1.root ∧
      n.p2 = c2.root := by
  have h1 := hr.1
  cases hn : h[a]? with
  | none => rw [hn] at h1; simp at h1
  | some n =>
    rw [hn] at h1
    simp only [Option.map_some', Option.some.injEq, GPTreeNode.links, Prod.mk.injEq] at h1
    exact ⟨n, rfl, h1.1, h1.2.1, h1.2.2.1, h1.2.2.2⟩

theorem Rep.toRepC {h : Heap} : ∀ {t : Subtree} {par : Option Nat}, Rep h par t → RepC h t := by
  intro t
  induction t with
  | null => intro _ _; trivial
  | node a f c0 c1 c2 ih0 ih1 ih2 =>
    intro par hr
    obtain ⟨hb, h0, h1, h2⟩ := hr
    exact ⟨by rw [hb]; rfl, ih0 h0, ih1 h1, ih2 h2⟩

theorem RepC.addr_lt_length {h : Heap} : ∀ {t : Subtree}, RepC h t →
    ∀ a ∈ t.addrs, a < h.length := by
  intro t
  induction t with
  | null => intro _ a ha; simp [Subtree.addrs] at ha
  | node b f c0 c1 c2 ih0 ih1 ih2 =>
    intro hr a ha
    obtain ⟨n, hn, _⟩ := RepC_cell hr
    obtain ⟨_, h0, h1, h2⟩ := hr
    rw [Subtree.mem_addrs_node] at ha
    rcases ha with rfl | ha | ha | ha
    · exact lt_of_getElem?_eq_some hn
    · exact ih0 h0 a ha
    · exact ih1 h1 a ha
    · exact ih2 h2 a ha

theorem countParam_of_repC {h : Heap} : ∀ {t : Subtree} {fuel : Nat},
    RepC h t → t.height ≤ fuel →
    countParam (CountSubtreeAux h fuel) t.root = some t.size := by
  intro t
  induction t with
  | null => intro fuel _ _; simp [Subtree.root, countParam, Subtree.size]
  | node b f c0 c1 c2 ih0 ih1 ih2 =>
    intro fuel hr hf
    obtain ⟨n, hn, _, e0, e1, e2⟩ := RepC_cell hr
    obtain ⟨_, h0, h1, h2⟩ := hr
    simp only [Subtree.height] at hf
    obtain ⟨fuel, rfl⟩ : ∃ k, fuel = k + 1 := ⟨fuel - 1, by omega⟩
    have r0 := ih0 h0 (show c0.height ≤ fuel by omega)
    have r1 := ih1 h1 (show c1.height ≤ fuel by omega)
    have r2 := ih2 h2 (show c2.height ≤ fuel by omega)
    rw [← e0] at r0
    rw [← e1] at r1
    rw [← e2] at r2
    show CountSubtreeAux h (fuel + 1) b = _
    simp only [CountSubtreeAux, hn, r0, r1, r2, Subtree.size]

/-- `CountSubtree` only follows parameter links. -/
theorem CountSubtree_of_repC {h : Heap} {t : Subtree} {a : Nat} (hr : RepC h t)
    (hn : t.addrs.Nodup) (hroot : t.root = some a) : CountSubtree h a = some t.size := by
  have hsz : t.size ≤ h.length := by
    rw [← Subtree.length_addrs]
    exact length_le_of_nodup_lt hn (RepC.addr_lt_length hr)
  have := countParam_of_repC hr (le_trans (Subtree.height_le_size t) hsz)
  rw [hroot] at this
  exact this

/-! ## The loop of `FlattenSubtree` -/

theorem rootsOf_cons (c : Subtree) (Q : List Subtree) :
    rootsOf (c :: Q) = c.root.toList ++ rootsOf Q := by
  cases c <;> simp [rootsOf, Subtree.root]

theorem rootsOf_append (A B : List Subtree) : rootsOf (A ++ B) = rootsOf A ++ rootsOf B := by
  simp [rootsOf]

theorem rootsOf_length (Q : List Subtree) : (rootsOf Q).length = (nonNull Q).length := by
  induction Q with
  | nil => rfl
  | cons c Q ih =>
    cases c with
    | null => rw [rootsOf_cons, nonNull_null_cons]; simpa [Subtree.root] using ih
    | node a f c0 c1 c2 =>
      rw [rootsOf_cons, nonNull_node_cons]; simpa [Subtree.root] using ih

theorem nonNull_length_le_size (Q : List Subtree) :
    (nonNull Q).length ≤ (Q.map Subtree.size).sum := by
  induction Q with
  | nil => simp [nonNull]
  | cons c Q ih =>
    cases c with
    | null => rw [nonNull_null_cons]; simpa [Subtree.size] using ih
    | node a f c0 c1 c2 =>
      rw [nonNull_node_cons]
      simp only [List.length_cons, List.map_cons, List.sum_cons, Subtree.size]
      omega

theorem Subtree.toList_root_length_le (c : Subtree) : c.root.toList.length ≤ c.size := by
  cases c with
  | null => simp [Subtree.root]
  | node a f c0 c1 c2 =>
    simp only [Subtree.root, Option.toList, List.length_singleton, Subtree.size]
    omega

theorem loT_of_size_zero (H : Nat) {Q : List Subtree} (h : (Q.map Subtree.size).sum = 0) :
    loT H Q = [] := by
  induction Q with
  | nil => exact loT_nil H
  | cons c Q ih =>
    cases c with
    | null =>
      rw [loT_null_cons]
      exact ih (by simpa [Subtree.size] using h)
    | node a f c0 c1 c2 =>
      simp only [List.map_cons, List.sum_cons, Subtree.size] at h
      omega

/-- One `working[ write ] = p; write = ( write + 1 ) % num_nodes` step, when `p` is
not null, and nothing otherwise. -/
theorem flattenPush_spec {N : Nat} {X : List Nat} {junk w : List (Option Nat)}
    (hw : w = X.map some ++ junk) (hlen : w.length = N) (p : Option Nat)
    (hroom : p ≠ none → X.length < N) :
    ∃ junk1, flattenPush N (w, X.length % N) p =
        ((X ++ p.toList).map some ++ junk1, (X ++ p.toList).length % N) ∧
      ((X ++ p.toList).map some ++ junk1).length = N := by
  cases p with
  | none =>
    refine ⟨junk, ?_, ?_⟩
    · simp [flattenPush, hw]
    · simpa [hw] using hlen
  | some c =>
    have hlt := hroom (by simp)
    have hjl : junk.length = N - X.length := by
      rw [hw] at hlen
      simp only [List.length_append, List.length_map] at hlen
      omega
    cases junk with
    | nil => simp at hjl; omega
    | cons j junk1 =>
      refine ⟨junk1, ?_, ?_⟩
      · simp only [flattenPush, Nat.mod_eq_of_lt hlt, hw, Option.toList, List.length_append,
          List.length_singleton, List.map_append, List.map_cons, List.map_nil]
        rw [List.set_append]
        simp
      · rw [hw] at hlen
        simp only [List.length_append, List.length_map, List.length_cons, Option.toList,
          List.length_singleton, List.length_nil] at hlen ⊢
        omega

end GP

namespace GP

theorem FlattenInv.drop_null {h : Heap} {N : Nat} {P : List Nat} {Q : List Subtree}
    {s : FlattenState} (inv : FlattenInv h N P (.null :: Q) s) : FlattenInv h N P Q s where
  out_len := inv.out_len
  work_len := inv.work_len
  wo := inv.wo
  rd := inv.rd
  wr := by simpa [nonNull_null_cons] using inv.wr
  total := by simpa [Subtree.size] using inv.total
  work := by simpa [rootsOf_cons, Subtree.root] using inv.work
  out := by simpa [rootsOf_cons, Subtree.root] using inv.out
  first := by simpa [nonNull_null_cons] using inv.first
  rep := fun t ht => inv.rep t (List.mem_cons_of_mem _ ht)

theorem take_length_append_cons {α : Type} (P : List α) (a : α) (R : List α) :
    (P ++ a :: R).take (P.length + 1) = P ++ [a] := by
  induction P with
  | nil => simp
  | cons p P ih => simpa using ih

theorem take_max_length_append_cons {α : Type} (P : List α) (a : α) (R : List α) :
    (P ++ a :: R).take (max P.length 1) = if P.length = 0 then [a] else P := by
  cases P with
  | nil => simp
  | cons p P =>
    have : max (p :: P).length 1 = (p :: P).length := by simp
    rw [this, if_neg (by simp)]
    exact List.take_left' rfl

/-- The loop of `FlattenSubtree`, started in a state in which the nodes `P` are
done and the forest `Q` is queued, ends and leaves in `out` the nodes `P`
followed by the breadth-first order of `Q`. -/
theorem flattenLoop_spec (h : Heap) (N H : Nat) : ∀ (fuel : Nat) (Q : List Subtree)
    (P : List Nat) (s : FlattenState), FlattenInv h N P Q s → (∀ t ∈ Q, t.height ≤ H) →
    (Q.map Subtree.size).sum < fuel →
    flattenLoop h N fuel s = some ((P ++ rootsOf (loT H Q)).map some) := by
  intro fuel
  induction fuel with
  | zero => intro Q P s _ _ hlt; omega
  | succ fuel ih =>
    intro Q
    induction Q with
    | nil =>
      intro P s inv _ _
      have htot := inv.total
      simp only [List.map_nil, List.sum_nil, Nat.add_zero] at htot
      have hwr := inv.wr
      simp only [nonNull, List.filter_nil, List.length_nil, Nat.add_zero] at hwr
      rw [flattenLoop, if_neg (by rw [hwr, inv.rd]; simp)]
      obtain ⟨junk, hout⟩ := inv.out
      have hlen := inv.out_len
      rw [loT_nil]
      simp only [rootsOf, List.filterMap_nil, List.append_nil] at hout ⊢
      rw [hout] at hlen ⊢
      cases P with
      | nil =>
        simp only [List.length_nil] at htot
        subst htot
        simp only [List.take_nil, List.map_nil, List.nil_append, List.length_eq_zero] at hlen ⊢
        rw [hlen]
      | cons p P =>
        have hmax : max (p :: P).length 1 = (p :: P).length := by simp
        rw [hmax, List.take_length] at hlen ⊢
        simp only [List.length_append, List.length_map] at hlen
        have : junk = [] := List.length_eq_zero.mp (by omega)
        rw [this, List.append_nil]
    | cons c Q ihQ =>
      intro P s inv hH hlt
      cases c with
      | null =>
        rw [loT_null_cons]
        exact ihQ P s inv.drop_null (fun t ht => hH t (List.mem_cons_of_mem _ ht))
          (by simpa [Subtree.size] using hlt)
      | node a f c0 c1 c2 =>
        have htot := inv.total
        simp only [List.map_cons, List.sum_cons, Subtree.size] at htot hlt
        have hr1 := nonNull_length_le_size Q
        have hwr := inv.wr
        have hfirst := inv.first
        rw [nonNull_node_cons, List.length_cons] at hwr hfirst
        obtain ⟨n, hn, hf, e0, e1, e2⟩ := RepC_cell (inv.rep _ (List.mem_cons_self _ _))
        have hrc := inv.rep _ (List.mem_cons_self _ _)
        have hX : P ++ rootsOf (Subtree.node a f c0 c1 c2 :: Q) = P ++ a :: rootsOf Q := by
          rw [rootsOf_cons]; rfl
        have hlo := loT_node_cons hH
        have hH1 := height_queue_step hH
        have hl0 := c0.toList_root_length_le
        have hl1 := c1.toList_root_length_le
        have hl2 := c2.toList_root_length_le
        obtain ⟨junkO, hout⟩ := inv.out
        obtain ⟨junkW, hwork⟩ := inv.work
        rw [hX] at hout hwork
        rw [take_max_length_append_cons] at hout
        by_cases hexit : P.length = 0 ∧ N = 1
        · -- a single node: the loop does not run
          obtain ⟨hk, hN⟩ := hexit
          have hP : P = [] := List.length_eq_zero.mp hk
          subst hP
          subst hN
          have hsz : (List.map Subtree.size (Q ++ [c0, c1, c2])).sum = 0 := by
            simp only [List.map_append, List.sum_append, List.map_cons, List.sum_cons,
              List.map_nil, List.sum_nil]
            simp only [List.length_nil] at htot
            omega
          rw [flattenLoop, if_neg (by rw [hwr, inv.rd]; simp [Nat.mod_one])]
          rw [hlo, loT_of_size_zero H hsz]
          have hlen := inv.out_len
          rw [hout] at hlen ⊢
          simp only [List.length_nil, if_true, List.map_cons, List.map_nil, List.length_append,
            List.length_singleton] at hlen ⊢
          have : junkO = [] := List.length_eq_zero.mp (by omega)
          rw [this]
          simp [rootsOf, Subtree.root]
        · -- one round of the loop
          have hkN : P.length < N := by omega
          have he : P.length + ((nonNull Q).length + 1) ≤ N := by omega
          have hne : s.write_working_index ≠ s.read_working_index := by
            rw [hwr, inv.rd, Nat.mod_eq_of_lt hkN]
            by_cases heN : P.length + ((nonNull Q).length + 1) = N
            · rw [heN, Nat.mod_self]
              intro h0
              have := hfirst h0.symm
              omega
            · rw [Nat.mod_eq_of_lt (by omega)]
              omega
          have hread : (s.working[s.read_working_index]?).join = some a := by
            rw [inv.rd, Nat.mod_eq_of_lt hkN, hwork, List.map_append,
              List.append_assoc, List.getElem?_append_right (by simp)]
            simp
          -- the three pushes
          have hX0len : (P ++ a :: rootsOf Q).length = P.length + ((nonNull Q).length + 1) := by
            simp [rootsOf_length]
          have hwr0 : s.write_working_index = (P ++ a :: rootsOf Q).length % N := by
            rw [hwr, hX0len]
          obtain ⟨junk1, hp1, hlen1⟩ := flattenPush_spec hwork inv.work_len c0.root (by
            intro hc
            have : 1 ≤ c0.size := by
              cases c0 with
              | null => simp [Subtree.root] at hc
              | node _ _ _ _ _ => simp only [Subtree.size]; omega
            rw [hX0len]; omega)
          obtain ⟨junk2, hp2, hlen2⟩ := flattenPush_spec rfl hlen1 c1.root (by
            intro hc
            have : 1 ≤ c1.size := by
              cases c1 with
              | null => simp [Subtree.root] at hc
              | node _ _ _ _ _ => simp only [Subtree.size]; omega
            rw [List.length_append, hX0len]; omega)
          obtain ⟨junk3, hp3, hlen3⟩ := flattenPush_spec rfl hlen2 c2.root (by
            intro hc
            have : 1 ≤ c2.size := by
              cases c2 with
              | null => simp [Subtree.root] at hc
              | node _ _ _ _ _ => simp only [Subtree.size]; omega
            rw [List.length_append, List.length_append, hX0len]; omega)
          have hX3 : P ++ a :: rootsOf Q ++ c0.root.toList ++ c1.root.toList ++ c2.root.toList
              = (P ++ [a]) ++ rootsOf (Q ++ [c0, c1, c2]) := by
            rw [rootsOf_append, rootsOf_cons, rootsOf_cons, rootsOf_cons]
            simp [rootsOf]
          rw [hX3] at hp3 hlen3
          rw [flattenLoop, if_pos hne, if_pos (by rw [inv.wo]; exact hkN), hread]
          simp only [hn]
          rw [hwr0, ← e0, ← e1, ← e2] at *
          rw [hp1, hp2, hp3]
          have inv1 : FlattenInv h N (P ++ [a]) (Q ++ [c0, c1, c2])
              { out := s.out.set s.write_out_index (some a)
                working := ((P ++ [a]) ++ rootsOf (Q ++ [c0, c1, c2])).map some ++ junk3
                read_working_index := (s.read_working_index + 1) % N
                write_working_index := ((P ++ [a]) ++ rootsOf (Q ++ [c0, c1, c2])).length % N
                write_out_index := s.write_out_index + 1 } := by
            refine ⟨?_, hlen3, ?_, ?_, ?_, ?_, ⟨junk3, rfl⟩, ?_, ?_, ?_⟩
            · simp [inv.out_len]
            · simp [inv.wo]
            · simp only [inv.rd, Nat.mod_eq_of_lt hkN, List.length_append,
                List.length_singleton]
            · simp only [List.length_append, rootsOf_length]
            · simp only [List.length_append, List.length_singleton, List.map_append,
                List.sum_append, List.map_cons, List.sum_cons, List.map_nil, List.sum_nil]
              omega
            · have hmax : max (P ++ [a]).length 1 = P.length + 1 := by simp
              rw [hmax, List.append_assoc, List.singleton_append, take_length_append_cons,
                inv.wo, hout]
              by_cases hk0 : P.length = 0
              · have hP : P = [] := List.length_eq_zero.mp hk0
                subst hP
                exact ⟨junkO, by simp⟩
              · rw [if_neg hk0]
                have hlen := inv.out_len
                rw [hout, if_neg hk0] at hlen
                simp only [List.length_append, List.length_map] at hlen
                cases junkO with
                | nil => simp at hlen; omega
                | cons j junkO1 =>
                  refine ⟨junkO1, ?_⟩
                  rw [List.set_append]
                  simp
            · intro h0
              simp at h0
            · intro t ht
              simp only [List.mem_append, List.mem_cons, List.mem_singleton, List.not_mem_nil,
                or_false] at ht
              rcases ht with ht | rfl | rfl | rfl
              · exact inv.rep t (List.mem_cons_of_mem _ ht)
              · exact hrc.2.1
              · exact hrc.2.2.1
              · exact hrc.2.2.2
          have := ih (Q ++ [c0, c1, c2]) (P ++ [a]) _ inv1 hH1 (by
            simp only [List.map_append, List.sum_append, List.map_cons, List.sum_cons,
              List.map_nil, List.sum_nil]
            omega)
          rw [this, hlo, rootsOf_cons]
          simp [Subtree.root]

end GP

namespace GP

theorem Subtree.levelOrderT_cons {a : Nat} {f : Int} {c0 c1 c2 : Subtree} :
    (Subtree.node a f c0 c1 c2).levelOrderT =
      .node a f c0 c1 c2 :: loT (Subtree.node a f c0 c1 c2).height [c0, c1, c2] := by
  have := @loT_node_cons (Subtree.node a f c0 c1 c2).height a f c0 c1 c2 [] (by simp)
  simpa [Subtree.levelOrderT] using this

/-- `FlattenSubtree` returns the nodes of the tree in breadth-first order. -/
theorem FlattenSubtree_spec {h : Heap} {t : Subtree} {a : Nat} (hr : RepC h t)
    (hn : t.addrs.Nodup) (hroot : t.root = some a) :
    FlattenSubtree h a = some (t.levelOrder.map some) := by
  have hc := CountSubtree_of_repC hr hn hroot
  have hpos : 1 ≤ t.size := by
    cases t with
    | null => simp [Subtree.root] at hroot
    | node _ _ _ _ _ => simp only [Subtree.size]; omega
  obtain ⟨N, hN⟩ : ∃ N, t.size = N + 1 := ⟨t.size - 1, by omega⟩
  have hrep : (List.replicate (N + 1) (none : Option Nat)).set 0 (some a) =
      [some a] ++ List.replicate N none := by
    simp [List.replicate_succ]
  have inv : FlattenInv h t.size [] [t]
      { out := (List.replicate t.size none).set 0 (some a)
        working := (List.replicate t.size none).set 0 (some a)
        read_working_index := 0
        write_working_index := 1 % t.size
        write_out_index := 0 } := by
    have hnn : nonNull [t] = [t] := by
      cases t with
      | null => simp [Subtree.root] at hroot
      | node _ _ _ _ _ => rfl
    have hro : rootsOf [t] = [a] := by
      rw [rootsOf_cons, hroot]; rfl
    refine ⟨by simp, by simp, rfl, by simp, by simp [hnn], by simp, ?_, ?_, by simp [hnn], ?_⟩
    · exact ⟨List.replicate N none, by rw [hN, hrep, hro]; rfl⟩
    · exact ⟨List.replicate N none, by rw [hN, hrep, hro]; rfl⟩
    · intro u hu
      simp only [List.mem_singleton] at hu
      subst hu; exact hr
  have := flattenLoop_spec h t.size t.height (t.size + 1) [t] [] _ inv (by simp) (by simp)
  simp only [FlattenSubtree, hc]
  rw [this]
  rfl

/-- In breadth-first order the children of the subtree at index `m` stand next to
each other, in parameter order, somewhere behind index `m`. -/
theorem loT_children_behind (H : Nat) : ∀ (n : Nat) (Q : List Subtree),
    (∀ t ∈ Q, t.height ≤ H) → (loT H Q).length = n → ∀ (m : Nat) (u : Subtree),
    (loT H Q)[m]? = some u →
    ∃ e rest, m < e ∧ (loT H Q).drop e = nonNull u.children ++ rest := by
  intro n
  induction n with
  | zero =>
    intro Q _ hlen m u hm
    rw [List.length_eq_zero.mp hlen] at hm
    simp at hm
  | succ n ih =>
    intro Q
    induction Q with
    | nil => intro _ hlen; rw [loT_nil] at hlen; simp at hlen
    | cons c Q ihQ =>
      intro hH hlen m u hm
      cases c with
      | null =>
        rw [loT_null_cons] at hlen hm ⊢
        exact ihQ (fun t ht => hH t (List.mem_cons_of_mem _ ht)) hlen m u hm
      | node a f c0 c1 c2 =>
        have hlo := loT_node_cons hH
        have hH1 := height_queue_step hH
        rw [hlo] at hlen hm ⊢
        simp only [List.length_cons, Nat.add_right_cancel_iff] at hlen
        cases m with
        | zero =>
          simp only [List.getElem?_cons_zero, Option.some.injEq] at hm
          subst hm
          have hrot := loT_rotate H (Q ++ [c0, c1, c2]) [] (by simpa using hH1)
          simp only [List.append_nil, List.nil_append, nonNull_append] at hrot
          refine ⟨(nonNull Q).length + 1, loT H (childrenF (Q ++ [c0, c1, c2])), by omega, ?_⟩
          rw [List.drop_succ_cons, hrot, List.append_assoc, List.drop_left]
          simp [Subtree.children]
        | succ m =>
          simp only [List.getElem?_cons_succ] at hm
          obtain ⟨e, rest, hlt, hd⟩ := ih (Q ++ [c0, c1, c2]) hH1 hlen m u hm
          exact ⟨e + 1, rest, by omega, by rw [List.drop_succ_cons]; exact hd⟩

theorem RepC_of_mem_subtrees {h : Heap} : ∀ {t u : Subtree}, RepC h t → u ∈ t.subtrees →
    RepC h u := by
  intro t
  induction t with
  | null => intro u _ hu; simp [Subtree.subtrees] at hu
  | node a f c0 c1 c2 ih0 ih1 ih2 =>
    intro u hr hu
    simp only [Subtree.subtrees, List.mem_cons, List.mem_append] at hu
    rcases hu with rfl | (hu | hu) | hu
    · exact hr
    · exact ih0 hr.2.1 hu
    · exact ih1 hr.2.2.1 hu
    · exact ih2 hr.2.2.2 hu

theorem kids_eq_rootsOf {n : GPTreeNode} {c0 c1 c2 : Subtree} (e0 : n.p0 = c0.root)
    (e1 : n.p1 = c1.root) (e2 : n.p2 = c2.root) :
    n.kids = rootsOf (nonNull [c0, c1, c2]) := by
  rw [GPTreeNode.kids, e0, e1, e2]
  cases c0 <;> cases c1 <;> cases c2 <;> rfl

/-- The position statement in terms of the heap: the non-null parameter links of
the node at index `m` of the breadth-first order are the entries at `e`, `e + 1`,
... of that order, for some `e` behind `m`. -/
theorem levelOrder_children_behind {h : Heap} {t : Subtree} (hr : RepC h t) {m a : Nat}
    {n : GPTreeNode} (hm : t.levelOrder[m]? = some a) (hn : h[a]? = some n) :
    ∃ e, m < e ∧ ∀ j, j < n.kids.length → t.levelOrder[e + j]? = n.kids[j]? := by
  have hmap := t.levelOrder_map_some
  have hm1 : (t.levelOrder.map some)[m]? = some (some a) := by
    rw [List.getElem?_map, hm]; rfl
  rw [hmap, List.getElem?_map] at hm1
  cases hu : t.levelOrderT[m]? with
  | none => rw [hu] at hm1; simp at hm1
  | some u =>
    rw [hu] at hm1
    simp only [Option.map_some', Option.some.injEq] at hm1
    have humem : u ∈ t.subtrees :=
      t.levelOrderT_perm.subset (List.getElem?_mem hu)
    have hru := RepC_of_mem_subtrees hr humem
    cases u with
    | null => simp [Subtree.root] at hm1
    | node b f c0 c1 c2 =>
      simp only [Subtree.root, Option.some.injEq] at hm1
      subst hm1
      obtain ⟨n1, hn1, _, e0, e1, e2⟩ := RepC_cell hru
      rw [hn] at hn1
      simp only [Option.some.injEq] at hn1
      subst hn1
      obtain ⟨e, rest, hlt, hd⟩ := loT_children_behind t.height _ [t] (by simp) rfl m _ hu
      refine ⟨e, hlt, fun j hj => ?_⟩
      have hk := kids_eq_rootsOf e0 e1 e2
      have h1 : (t.levelOrder.map some)[e + j]? = ((t.levelOrderT.drop e).map Subtree.root)[j]? := by
        rw [hmap, List.getElem?_map, List.getElem?_map, List.getElem?_drop]
      have hd1 : t.levelOrderT.drop e = nonNull [c0, c1, c2] ++ rest := hd
      rw [hd1, List.map_append, ← rootsOf_eq_map (Q := nonNull [c0, c1, c2])
        (by intro v hv; simp only [nonNull, List.mem_filter] at hv; exact hv.2), ← hk,
        List.getElem?_append_left (by simpa using hj), List.getElem?_map,
        List.getElem?_map] at h1
      cases hx : t.levelOrder[e + j]? with
      | none => rw [hx] at h1; cases hy : n.kids[j]? with
        | none => rfl
        | some y => rw [hy] at h1; simp at h1
      | some x =>
        rw [hx] at h1
        cases hy : n.kids[j]? with
        | none => rw [hy] at h1; simp at h1
        | some y => rw [hy] at h1; simpa using h1

end GP

namespace GP

theorem Subtree.levelOrder_nodup {t : Subtree} (hn : t.addrs.Nodup) : t.levelOrder.Nodup :=
  (t.levelOrder_perm.nodup_iff).mpr hn

theorem Subtree.levelOrder_getElem? {t u : Subtree} {k x : Nat}
    (hk : t.levelOrderT[k]? = some u) (hx : u.root = some x) : t.levelOrder[k]? = some x := by
  have h1 : (t.levelOrder.map some)[k]? = some (some x) := by
    rw [t.levelOrder_map_some, List.getElem?_map, hk]
    simp [hx]
  rw [List.getElem?_map] at h1
  cases hy : t.levelOrder[k]? with
  | none => rw [hy] at h1; simp at h1
  | some y => rw [hy] at h1; simpa using h1

/-- In breadth-first order every node of the subtree at index `i`, other than its
root, has an index larger than `i`: the ancestors of a node come before it. -/
theorem levelOrder_ancestors_first {t : Subtree} (hn : t.addrs.Nodup) :
    ∀ (s : Nat) (v : Subtree), v.size = s → ∀ (i j x : Nat), t.levelOrderT[i]? = some v →
      t.levelOrder[j]? = some x → x ∈ v.addrs → v.root ≠ some x → i < j := by
  intro s
  induction s using Nat.strong_induction_on with
  | _ s ih =>
    intro v hs i j x hi hj hx hne
    cases v with
    | null => simp [Subtree.addrs] at hx
    | node y f c0 c1 c2 =>
      obtain ⟨e, rest, hlt, hd⟩ := loT_children_behind t.height _ [t] (by simp) rfl i _ hi
      have hd1 : t.levelOrderT.drop e = nonNull [c0, c1, c2] ++ rest := hd
      have hxy : x ≠ y := fun e => hne (by simp [Subtree.root, e])
      rw [Subtree.mem_addrs_node] at hx
      have child : ∀ (c : Subtree), c ∈ [c0, c1, c2] → x ∈ c.addrs → i < j := by
        intro c hc hxc
        have hnode : c.isNode = true := by
          cases c with
          | null => simp [Subtree.addrs] at hxc
          | node _ _ _ _ _ => rfl
        have hcm : c ∈ nonNull [c0, c1, c2] := by
          simp only [nonNull, List.mem_filter]; exact ⟨hc, hnode⟩
        obtain ⟨idx, hidx⟩ := List.mem_iff_getElem?.mp hcm
        have hidxlt : idx < (nonNull [c0, c1, c2]).length := by
          by_contra hge
          rw [List.getElem?_eq_none (by omega)] at hidx
          cases hidx
        have hk : t.levelOrderT[e + idx]? = some c := by
          rw [← List.getElem?_drop, hd1, List.getElem?_append_left hidxlt, hidx]
        have hcs : c.size < s := by
          rw [← hs]
          simp only [List.mem_cons, List.mem_singleton, List.not_mem_nil, or_false] at hc
          simp only [Subtree.size]
          rcases hc with rfl | rfl | rfl <;> omega
        by_cases hcr : c.root = some x
        · have hk2 := Subtree.levelOrder_getElem? hk hcr
          have hjlt : j < t.levelOrder.length := by
            by_contra hge
            rw [List.getElem?_eq_none (by omega)] at hj
            cases hj
          have := List.getElem?_inj hjlt (Subtree.levelOrder_nodup hn) (hj.trans hk2.symm)
          omega
        · have := ih c.size hcs c rfl (e + idx) j x hk hj hxc hcr
          omega
      rcases hx with hx | hx | hx | hx
      · exact absurd hx hxy
      · exact child c0 (by simp) hx
      · exact child c1 (by simp) hx
      · exact child c2 (by simp) hx

end GP

namespace GP

theorem Subtree.root_mem_of_mem_subtrees {t v : Subtree} {y : Nat} (hv : v ∈ t.subtrees)
    (hy : v.root = some y) : y ∈ t.addrs := by
  rw [Subtree.addrs_eq_rootsOf_subtrees]
  simp only [rootsOf, List.mem_filterMap]
  exact ⟨v, hv, hy⟩

theorem Subtree.find_eq_of_mem_subtrees : ∀ {t v : Subtree} {y : Nat}, t.addrs.Nodup →
    v ∈ t.subtrees → v.root = some y → t.find y = v := by
  intro t
  induction t with
  | null => intro v y _ hv; simp [Subtree.subtrees] at hv
  | node a f c0 c1 c2 ih0 ih1 ih2 =>
    intro v y hn hv hy
    obtain ⟨n1, n2, n3, n4, n5, n6, d01, d02, d12⟩ := Subtree.nodup_node.mp hn
    simp only [Subtree.subtrees, List.mem_cons, List.mem_append] at hv
    simp only [Subtree.find]
    rcases hv with rfl | (hv | hv) | hv
    · simp only [Subtree.root, Option.some.injEq] at hy
      rw [if_pos hy]
    · have hm := Subtree.root_mem_of_mem_subtrees hv hy
      rw [if_neg (fun (e : a = y) => n1 (e ▸ hm)), if_pos hm]
      exact ih0 n4 hv hy
    · have hm := Subtree.root_mem_of_mem_subtrees hv hy
      rw [if_neg (fun (e : a = y) => n2 (e ▸ hm)), if_neg (fun hc => d01 y hc hm), if_pos hm]
      exact ih1 n5 hv hy
    · have hm := Subtree.root_mem_of_mem_subtrees hv hy
      rw [if_neg (fun (e : a = y) => n3 (e ▸ hm)), if_neg (fun hc => d02 y hc hm),
        if_neg (fun hc => d12 y hc hm)]
      exact ih2 n6 hv hy

theorem Subtree.levelOrderT_of_levelOrder {t : Subtree} (hn : t.addrs.Nodup) {i y : Nat}
    (hi : t.levelOrder[i]? = some y) : t.levelOrderT[i]? = some (t.find y) := by
  have h1 : (t.levelOrder.map some)[i]? = some (some y) := by
    rw [List.getElem?_map, hi]; rfl
  rw [t.levelOrder_map_some, List.getElem?_map] at h1
  cases hv : t.levelOrderT[i]? with
  | none => rw [hv] at h1; simp at h1
  | some v =>
    rw [hv] at h1
    simp only [Option.map_some', Option.some.injEq] at h1
    rw [Subtree.find_eq_of_mem_subtrees hn (t.levelOrderT_perm.subset (List.getElem?_mem hv)) h1]

/-- C6: `FlattenSubtree` on a proper tree `t` of `N` nodes below the pointer `a`
(only function ids and parameter links matter) returns an array of length `N`
that holds the nodes of `t` in breadth-first order, `t.levelOrder`: level by
level and each level from left to right.  Every node occurs exactly once
(`Perm`, `Nodup`), the root is at index 0, every node in the subtree of the node
at index `i` other than that node has an index above `i` (ancestors come
first), and the non-null children of the node at index `m` stand, in parameter
order, at consecutive indices `e`, `e + 1`, ... behind `m`.  The loop therefore
never stops early: the buffer of `N` cells does not look empty while nodes are
left.  The tree `Add( Sub( Const1, Const2 ), Sub( Const3, Const4 ) )` of
`exHeap7` flattens to `Add, Sub, Sub, Const1, Const2, Const3, Const4`. -/
theorem FlattenSubtree_breadth_first {h : Heap} (t : Subtree) {a : Nat}
    (hr : RepC h t) (hn : t.addrs.Nodup) (hroot : t.root = some a) :
    FlattenSubtree h a = some (t.levelOrder.map some) ∧
    CountSubtree h a = some t.size ∧ t.levelOrder.length = t.size ∧
    t.levelOrder.Perm t.addrs ∧ t.levelOrder.Nodup ∧
    t.levelOrder[0]? = some a ∧
    (∀ i j x y : Nat, t.levelOrder[i]? = some y → t.levelOrder[j]? = some x →
      x ∈ (t.find y).addrs → x ≠ y → i < j) ∧
    (∀ (m b : Nat) (n : GPTreeNode), t.levelOrder[m]? = some b → h[b]? = some n →
      ∃ e, m < e ∧ ∀ j, j < n.kids.length → t.levelOrder[e + j]? = n.kids[j]?) ∧
    (FlattenSubtree exHeap7 0 = some [some 0, some 1, some 4, some 2, some 3, some 5, some 6] ∧
      [0, 1, 4, 2, 3, 5, 6].map (fun b => (exHeap7[b]?).map GPTreeNode.functionID) =
        [some 1, some 3, some 3, some 5, some 7, some 9, some 11]) := by
  refine ⟨FlattenSubtree_spec hr hn hroot, CountSubtree_of_repC hr hn hroot,
    t.length_levelOrder, t.levelOrder_perm, Subtree.levelOrder_nodup hn, ?_, ?_, ?_, ?_⟩
  · cases t with
    | null => simp [Subtree.root] at hroot
    | node b f c0 c1 c2 =>
      simp only [Subtree.root, Option.some.injEq] at hroot
      subst hroot
      simp [Subtree.levelOrder, Subtree.levelOrderT_cons, rootsOf, Subtree.root]
  · intro i j x y hi hj hx hne
    have hv := Subtree.levelOrderT_of_levelOrder hn hi
    refine levelOrder_ancestors_first hn _ _ rfl i j x hv hj hx ?_
    have hy : y ∈ t.addrs := t.levelOrder_perm.subset (List.getElem?_mem hi)
    rw [Subtree.find_root hy]
    intro e
    exact hne (Option.some.inj e).symm
  · intro m b n hm hb
    exact levelOrder_children_behind hr hm hb
  · exact ⟨by decide, by decide⟩

theorem FlattenSubtree_breadth_first_witness :
    FlattenSubtree exHeap7 0 = some (exTree7.levelOrder.map some) ∧
    CountSubtree exHeap7 0 = some exTree7.size ∧ exTree7.levelOrder.length = exTree7.size ∧
    exTree7.levelOrder.Perm exTree7.addrs ∧ exTree7.levelOrder.Nodup ∧
    exTree7.levelOrder[0]? = some 0 ∧
    (∀ i j x y : Nat, exTree7.levelOrder[i]? = some y → exTree7.levelOrder[j]? = some x →
      x ∈ (exTree7.find y).addrs → x ≠ y → i < j) ∧
    (∀ (m b : Nat) (n : GPTreeNode), exTree7.levelOrder[m]? = some b → exHeap7[b]? = some n →
      ∃ e, m < e ∧ ∀ j, j < n.kids.length → exTree7.levelOrder[e + j]? = n.kids[j]?) ∧
    (FlattenSubtree exHeap7 0 = some [some 0, some 1, some 4, some 2, some 3, some 5, some 6] ∧
      [0, 1, 4, 2, 3, 5, 6].map (fun b => (exHeap7[b]?).map GPTreeNode.functionID) =
        [some 1, some 3, some 3, some 5, some 7, some 9, some 11]) :=
  FlattenSubtree_breadth_first exTree7 (by decide) (by decide) (by decide)

end GP

namespace GP

/-! ## Stitch: the inner loop -/

theorem setParameter_isSome (n : GPTreeNode) {j : Nat} (hj : j < 3) (v : Option Nat) :
    ∃ n1, n.setParameter j v = some n1 ∧ n1.functionID = n.functionID ∧ n1.parent = n.parent ∧
      ∀ s, n1.parameters s = if s = j then v else n.parameters s := by
  have : j = 0 ∨ j = 1 ∨ j = 2 := by omega
  rcases this with rfl | rfl | rfl
  · refine ⟨{ n with p0 := v }, rfl, rfl, rfl, fun s => ?_⟩
    rcases s with _ | _ | _ | s <;> simp [GPTreeNode.parameters]
  · refine ⟨{ n with p1 := v }, rfl, rfl, rfl, fun s => ?_⟩
    rcases s with _ | _ | _ | s <;> simp [GPTreeNode.parameters]
  · refine ⟨{ n with p2 := v }, rfl, rfl, rfl, fun s => ?_⟩
    rcases s with _ | _ | _ | s <;> simp [GPTreeNode.parameters]

theorem parentOf_eq {h : Heap} {x : Nat} {n : GPTreeNode} (e : h[x]? = some n) :
    parentOf h x = n.parent := by
  simp [parentOf, e]

/-- One round of the inner loop of `Stitch`: `c->parent = node` and
`node->parameters[ j ] = c`. -/
theorem stitch_round {h : Heap} {node c j : Nat} (hnode : node < h.length) (hc : c < h.length)
    (hj : j < 3) :
    ∃ h1 h2, setParent h c (some node) = some h1 ∧ setParam h1 node j (some c) = some h2 ∧
      h2.length = h.length ∧
      (∀ x : Nat, (h2[x]?).map GPTreeNode.functionID = (h[x]?).map GPTreeNode.functionID) ∧
      (∀ x : Nat, x ≠ node → (h2[x]?).map GPTreeNode.links = (h[x]?).map GPTreeNode.links) ∧
      (∀ x : Nat, x ≠ c → parentOf h2 x = parentOf h x) ∧
      parentOf h2 c = some node ∧
      (∀ s : Nat, (h2[node]?).map (fun m => m.parameters s) =
        if s = j then some (some c) else (h[node]?).map (fun m => m.parameters s)) := by
  obtain ⟨nc, hnc⟩ : ∃ nc, h[c]? = some nc := ⟨h[c], List.getElem?_eq_getElem hc⟩
  have e1 := setParent_isSome (some node) hnc
  have g1 := setParent_get e1
  have l1 := setParent_length e1
  generalize h.set c { nc with parent := some node } = h1 at e1 g1 l1
  have hnlt : node < h1.length := by omega
  obtain ⟨nn, hnn⟩ : ∃ nn, h1[node]? = some nn :=
    ⟨h1[node], List.getElem?_eq_getElem hnlt⟩
  obtain ⟨nn1, hs, hf1, hp1, hq1⟩ := setParameter_isSome nn hj (some c)
  have e2 : setParam h1 node j (some c) = some (h1.set node nn1) := by
    simp [setParam, hnn, hs]
  have g2 : ∀ x : Nat, (h1.set node nn1)[x]? = if x = node then some nn1 else h1[x]? :=
    fun x => getElem?_set_heap h1 node x nn1 (by omega)
  have hnn0 : ∃ n0, h[node]? = some n0 ∧ nn.functionID = n0.functionID ∧
      (∀ s, nn.parameters s = n0.parameters s) ∧
      nn.parent = (if node = c then some node else n0.parent) := by
    rw [g1] at hnn
    by_cases hnc1 : node = c
    · rw [if_pos hnc1, hnc] at hnn
      simp only [Option.map_some', Option.some.injEq] at hnn
      subst hnn
      refine ⟨nc, by rw [hnc1]; exact hnc, rfl, fun s => ?_, by simp [hnc1]⟩
      rcases s with _ | _ | _ | s <;> rfl
    · rw [if_neg hnc1] at hnn
      exact ⟨nn, hnn, rfl, fun _ => rfl, by simp [hnc1]⟩
  obtain ⟨n0, hn0, hf0, hq0, hp0⟩ := hnn0
  refine ⟨h1, h1.set node nn1, e1, e2, by simp [l1], ?_, ?_, ?_, ?_, ?_⟩
  · intro x
    rw [g2]
    by_cases hx : x = node
    · subst hx
      rw [if_pos rfl, hn0]
      simp [hf1, hf0]
    · rw [if_neg hx, g1]
      by_cases hxc : x = c
      · subst hxc; rw [if_pos rfl, hnc]; rfl
      · rw [if_neg hxc]
  · intro x hx
    rw [g2, if_neg hx, g1]
    by_cases hxc : x = c
    · subst hxc; rw [if_pos rfl, hnc]; rfl
    · rw [if_neg hxc]
  · intro x hx
    by_cases hxn : x = node
    · subst hxn
      have : (h1.set x nn1)[x]? = some nn1 := by rw [g2, if_pos rfl]
      rw [parentOf_eq this, parentOf_eq hn0, hp1, hp0, if_neg hx]
    · simp only [parentOf, g2, if_neg hxn, g1, if_neg hx]
  · by_cases hcn : c = node
    · subst hcn
      have : (h1.set c nn1)[c]? = some nn1 := by rw [g2, if_pos rfl]
      rw [parentOf_eq this, hp1, hp0, if_pos rfl]
    · simp only [parentOf, g2, if_neg hcn, g1, if_pos, hnc, Option.map_some']
  · intro s
    rw [g2, if_pos rfl, hn0]
    simp only [Option.map_some', hq1, hq0]
    by_cases hsj : s = j
    · simp [hsj]
    · simp [hsj]

/-- The inner loop of `Stitch` for the node `node`: the `n` pointers of `flattened`
from index `p` on become its parameters `j`, `j + 1`, ... and get it as parent. -/
theorem stitchParams_spec {flattened : List (Option Nat)} {node : Nat} :
    ∀ (n j : Nat) (h : Heap) (p : Nat), node < h.length → j + n ≤ 3 →
    (∀ k, k < n → ∃ c, flattened[p + k]? = some (some c) ∧ c < h.length) →
    ∃ h1, stitchParams flattened node n j h p = some (h1, p + n) ∧ h1.length = h.length ∧
      (∀ x : Nat, (h1[x]?).map GPTreeNode.functionID = (h[x]?).map GPTreeNode.functionID) ∧
      (∀ x : Nat, x ≠ node → (h1[x]?).map GPTreeNode.links = (h[x]?).map GPTreeNode.links) ∧
      (∀ x : Nat, (∀ k, k < n → flattened[p + k]? ≠ some (some x)) →
        parentOf h1 x = parentOf h x) ∧
      (∀ k c, k < n → flattened[p + k]? = some (some c) → parentOf h1 c = some node) ∧
      (∀ s : Nat, (h1[node]?).map (fun m => m.parameters s) =
        if j ≤ s ∧ s < j + n then flattened[p + (s - j)]?
        else (h[node]?).map (fun m => m.parameters s)) := by
  intro n
  induction n with
  | zero =>
    intro j h p _ _ _
    refine ⟨h, rfl, rfl, fun _ => rfl, fun _ _ => rfl, fun _ _ => rfl, ?_, ?_⟩
    · intro k c hk; omega
    · intro s
      rw [if_neg (by omega)]
  | succ n ih =>
    intro j h p hnode hj hfl
    obtain ⟨c, hc, hclt⟩ := hfl 0 (by omega)
    rw [Nat.add_zero] at hc
    obtain ⟨h1, h2, e1, e2, l2, f2, k2, q2, r2, s2⟩ := stitch_round hnode hclt (show j < 3 by omega)
    obtain ⟨h3, e3, l3, f3, k3, q3, r3, s3⟩ := ih (j + 1) h2 (p + 1) (by omega) (by omega) (by
      intro k hk
      obtain ⟨c1, hc1, hc1lt⟩ := hfl (k + 1) (by omega)
      exact ⟨c1, by rw [show p + 1 + k = p + (k + 1) by omega]; exact hc1, by omega⟩)
    refine ⟨h3, ?_, by omega, fun x => (f3 x).trans (f2 x),
      fun x hx => (k3 x hx).trans (k2 x hx), ?_, ?_, ?_⟩
    · have hjoin : (flattened[p]?).join = some c := by rw [hc]; rfl
      simp only [stitchParams, hjoin, e1, e2]
      rw [show p + (n + 1) = p + 1 + n by omega]
      exact e3
    · intro x hx
      rw [q3 x (fun k hk => by
        have := hx (k + 1) (by omega)
        rwa [show p + (k + 1) = p + 1 + k by omega] at this)]
      refine q2 x (fun e => ?_)
      subst e
      exact hx 0 (by omega) (by rw [Nat.add_zero]; exact hc)
    · intro k c1 hk hc1
      by_cases hk0 : k = 0
      · subst hk0
        rw [Nat.add_zero, hc] at hc1
        simp only [Option.some.injEq] at hc1
        subst hc1
        by_cases hlater : ∃ k1, k1 < n ∧ flattened[p + 1 + k1]? = some (some c)
        · obtain ⟨k1, hk1, hk1c⟩ := hlater
          exact r3 k1 c hk1 hk1c
        · rw [q3 c (fun k1 hk1 e => hlater ⟨k1, hk1, e⟩)]
          exact r2
      · obtain ⟨k1, rfl⟩ : ∃ k1, k = k1 + 1 := ⟨k - 1, by omega⟩
        exact r3 k1 c1 (by omega) (by rw [show p + 1 + k1 = p + (k1 + 1) by omega]; exact hc1)
    · intro s
      rw [s3 s]
      by_cases hs1 : j + 1 ≤ s ∧ s < j + 1 + n
      · rw [if_pos hs1, if_pos (by omega)]
        congr 1
        omega
      · rw [if_neg hs1, s2 s]
        by_cases hsj : s = j
        · subst hsj
          rw [if_pos rfl, if_pos (by omega), Nat.sub_self, Nat.add_zero, hc]
        · rw [if_neg hsj, if_neg (by omega)]

end GP

namespace GP

/-! ## Stitch: the outer loop -/

theorem cell_ext {g h : Heap} {x : Nat}
    (hl : (g[x]?).map GPTreeNode.links = (h[x]?).map GPTreeNode.links)
    (hp : parentOf g x = parentOf h x) : g[x]? = h[x]? := by
  cases hh : h[x]? with
  | none =>
    rw [hh] at hl
    cases hg : g[x]? with
    | none => rfl
    | some m => rw [hg] at hl; simp at hl
  | some n =>
    rw [hh] at hl
    cases hg : g[x]? with
    | none => rw [hg] at hl; simp at hl
    | some m =>
      rw [hg] at hl
      simp only [Option.map_some', Option.some.injEq, GPTreeNode.links, Prod.mk.injEq] at hl
      rw [parentOf_eq hg, parentOf_eq hh] at hp
      cases m; cases n
      simp_all

theorem links_of_parameters {g : Heap} {b : Nat} {f : Int} {r0 r1 r2 : Option Nat}
    (hf : (g[b]?).map GPTreeNode.functionID = some f)
    (h0 : (g[b]?).map (fun m => m.parameters 0) = some r0)
    (h1 : (g[b]?).map (fun m => m.parameters 1) = some r1)
    (h2 : (g[b]?).map (fun m => m.parameters 2) = some r2) :
    (g[b]?).map GPTreeNode.links = some (f, r0, r1, r2) := by
  cases hg : g[b]? with
  | none => rw [hg] at hf; simp at hf
  | some n =>
    rw [hg] at hf h0 h1 h2
    simp only [Option.map_some', Option.some.injEq, GPTreeNode.parameters] at hf h0 h1 h2
    simp [GPTreeNode.links, hf, h0, h1, h2]

theorem parameters_of_links {g : Heap} {b : Nat} {l : Int × Option Nat × Option Nat × Option Nat}
    (hl : (g[b]?).map GPTreeNode.links = some l) :
    (g[b]?).map (fun m => m.parameters 0) = some l.2.1 ∧
    (g[b]?).map (fun m => m.parameters 1) = some l.2.2.1 ∧
    (g[b]?).map (fun m => m.parameters 2) = some l.2.2.2 ∧
    (g[b]?).map GPTreeNode.functionID = some l.1 := by
  cases hg : g[b]? with
  | none => rw [hg] at hl; simp at hl
  | some n =>
    rw [hg] at hl
    simp only [Option.map_some', Option.some.injEq] at hl
    subst hl
    simp [GPTreeNode.links, GPTreeNode.parameters]

/-- The pointer to the child in slot `s`. -/
theorem slotsFilled_roots {n : Nat} {c0 c1 c2 : Subtree} (hs : slotsFilled n c0 c1 c2) :
    (nonNull [c0, c1, c2]).length = n ∧
    (∀ s, s < n → ∃ x, ((nonNull [c0, c1, c2]).map Subtree.root)[s]? = some (some x) ∧
      [c0.root, c1.root, c2.root][s]? = some (some x)) ∧
    (∀ s, n ≤ s → s < 3 → [c0.root, c1.root, c2.root][s]? = some none) := by
  obtain ⟨h3, e0, e1, e2⟩ := hs
  have hn : n = 0 ∨ n = 1 ∨ n = 2 ∨ n = 3 := by omega
  have key : ∀ s, s < 3 → s = 0 ∨ s = 1 ∨ s = 2 := fun s hs => by omega
  cases c0 <;> cases c1 <;> cases c2 <;> rcases hn with rfl | rfl | rfl | rfl <;>
    simp [Subtree.isNode] at e0 e1 e2 <;>
    refine ⟨by simp [nonNull, Subtree.isNode], fun s hs => ?_, fun s hs hs3 => ?_⟩ <;>
    first
    | omega
    | (rcases key s (by omega) with rfl | rfl | rfl <;>
        first
        | omega
        | simp [nonNull, Subtree.isNode, Subtree.root])

theorem ArityOK_of_mem_subtrees {fl : GPFunctionLookup} : ∀ {t u : Subtree}, ArityOK fl t →
    u ∈ t.subtrees → ArityOK fl u := by
  intro t
  induction t with
  | null => intro u _ hu; simp [Subtree.subtrees] at hu
  | node a f c0 c1 c2 ih0 ih1 ih2 =>
    intro u hr hu
    simp only [Subtree.subtrees, List.mem_cons, List.mem_append] at hu
    rcases hu with rfl | (hu | hu) | hu
    · exact hr
    · exact ih0 hr.2.1 hu
    · exact ih1 hr.2.2.1 hu
    · exact ih2 hr.2.2.2 hu

theorem PreStitch_of_mem_subtrees {h : Heap} : ∀ {t u : Subtree}, PreStitch h t →
    u ∈ t.subtrees → PreStitch h u := by
  intro t
  induction t with
  | null => intro u _ hu; simp [Subtree.subtrees] at hu
  | node a f c0 c1 c2 ih0 ih1 ih2 =>
    intro u hr hu
    simp only [Subtree.subtrees, List.mem_cons, List.mem_append] at hu
    rcases hu with rfl | (hu | hu) | hu
    · exact hr
    · exact ih0 hr.2.1 hu
    · exact ih1 hr.2.2.1 hu
    · exact ih2 hr.2.2.2 hu

theorem RepC.toPreStitch {h : Heap} : ∀ {t : Subtree}, RepC h t → PreStitch h t := by
  intro t
  induction t with
  | null => intro _; trivial
  | node a f c0 c1 c2 ih0 ih1 ih2 =>
    intro hr
    obtain ⟨n, hn, hf, e0, e1, e2⟩ := RepC_cell hr
    refine ⟨⟨n, hn, hf, fun hc => ?_, fun hc => ?_, fun hc => ?_⟩, ih0 hr.2.1, ih1 hr.2.2.1,
      ih2 hr.2.2.2⟩
    · rw [e0]; cases c0 with
      | null => rfl
      | node _ _ _ _ _ => simp [Subtree.isNode] at hc
    · rw [e1]; cases c1 with
      | null => rfl
      | node _ _ _ _ _ => simp [Subtree.isNode] at hc
    · rw [e2]; cases c2 with
      | null => rfl
      | node _ _ _ _ _ => simp [Subtree.isNode] at hc

/-- Where the array holds the node being processed and its children. -/
theorem loT_positions {H : Nat} {LT Pt Q : List Subtree} {b : Nat} {f : Int}
    {c0 c1 c2 : Subtree} (hsplit : LT = Pt ++ loT H (.node b f c0 c1 c2 :: Q))
    (hH : ∀ u ∈ Subtree.node b f c0 c1 c2 :: Q, u.height ≤ H) :
    LT = (Pt ++ [.node b f c0 c1 c2]) ++ loT H (Q ++ [c0, c1, c2]) ∧
    LT[Pt.length]? = some (.node b f c0 c1 c2) ∧
    (∀ s, s < (nonNull [c0, c1, c2]).length →
      LT[Pt.length + (nonNull (.node b f c0 c1 c2 :: Q)).length + s]? =
        (nonNull [c0, c1, c2])[s]?) := by
  have hlo := loT_node_cons hH
  have hH1 := height_queue_step hH
  have hrot := loT_rotate H (Q ++ [c0, c1, c2]) [] (by simpa using hH1)
  simp only [List.append_nil, List.nil_append, nonNull_append] at hrot
  rw [hlo] at hsplit
  refine ⟨by rw [hsplit]; simp, ?_, ?_⟩
  · rw [hsplit, List.getElem?_append_right (le_refl _)]
    simp
  · intro s hs
    rw [hsplit, hrot, nonNull_node_cons, List.length_cons,
      List.getElem?_append_right (by omega),
      show Pt.length + ((nonNull Q).length + 1) + s - Pt.length = ((nonNull Q).length + s) + 1
        by omega,
      List.getElem?_cons_succ, List.append_assoc,
      List.getElem?_append_right (by omega),
      show (nonNull Q).length + s - (nonNull Q).length = s by omega,
      List.getElem?_append_left hs]

/-- A heap whose cells carry the function ids and parameter links of `t`, and in
which every child points back to its parent, holds `t`. -/
theorem Rep_of_cells {g : Heap} : ∀ {t : Subtree} {par : Option Nat},
    (∀ u ∈ t.subtrees, ∀ b, u.root = some b → (g[b]?).map GPTreeNode.links = some u.links) →
    (∀ u ∈ t.subtrees, ∀ c ∈ u.children, ∀ b x, u.root = some b → c.root = some x →
      parentOf g x = some b) →
    (∀ a, t.root = some a → parentOf g a = par) → Rep g par t := by
  intro t
  induction t with
  | null => intro _ _ _ _; trivial
  | node a f c0 c1 c2 ih0 ih1 ih2 =>
    intro par hd hk hp
    have hself : Subtree.node a f c0 c1 c2 ∈ (Subtree.node a f c0 c1 c2).subtrees := by
      simp [Subtree.subtrees]
    have hl := hd _ hself a rfl
    have hpa := hp a rfl
    have sub : ∀ (c : Subtree), c ∈ [c0, c1, c2] →
        (∀ u ∈ c.subtrees, u ∈ (Subtree.node a f c0 c1 c2).subtrees) →
        (∀ {par : Option Nat},
          (∀ u ∈ c.subtrees, ∀ b, u.root = some b →
            (g[b]?).map GPTreeNode.links = some u.links) →
          (∀ u ∈ c.subtrees, ∀ d ∈ u.children, ∀ b x, u.root = some b → d.root = some x →
            parentOf g x = some b) →
          (∀ a, c.root = some a → parentOf g a = par) → Rep g par c) →
        Rep g (some a) c := by
      intro c hc hsub ih
      refine ih (fun u hu => hd u (hsub u hu)) (fun u hu => hk u (hsub u hu)) ?_
      intro x hx
      exact hk _ hself c (by simpa [Subtree.children] using hc) a x rfl hx
    refine ⟨?_, ?_, ?_, ?_⟩
    · cases hg : g[a]? with
      | none => rw [hg] at hl; simp at hl
      | some n =>
        rw [hg] at hl
        rw [parentOf_eq hg] at hpa
        simp only [Option.map_some', Option.some.injEq, GPTreeNode.links, Subtree.links,
          Prod.mk.injEq] at hl
        obtain ⟨e1, e2, e3, e4⟩ := hl
        cases n with
        | mk f1 q0 q1 q2 pp =>
          simp only at e1 e2 e3 e4 hpa
          subst e1 e2 e3 e4 hpa
          rfl
    · exact sub c0 (by simp) (fun u hu => by simp [Subtree.subtrees, hu]) ih0
    · exact sub c1 (by simp) (fun u hu => by simp [Subtree.subtrees, hu]) ih1
    · exact sub c2 (by simp) (fun u hu => by simp [Subtree.subtrees, hu]) ih2

theorem nonNull_eq_nil_of_loT {H : Nat} {Q : List Subtree} (hH : ∀ u ∈ Q, u.height ≤ H)
    (h : loT H Q = []) : nonNull Q = [] := by
  cases H with
  | zero => exact nonNull_of_height_zero hH
  | succ H =>
    simp only [loT, List.append_eq_nil] at h
    exact h.1

end GP

namespace GP

theorem PreStitch.addr_lt_heap {h : Heap} : ∀ {t : Subtree}, PreStitch h t →
    ∀ a ∈ t.addrs, a < h.length := by
  intro t
  induction t with
  | null => intro _ a ha; simp [Subtree.addrs] at ha
  | node b f c0 c1 c2 ih0 ih1 ih2 =>
    intro hr a ha
    obtain ⟨⟨n, hn, _⟩, h0, h1, h2⟩ := hr
    rw [Subtree.mem_addrs_node] at ha
    rcases ha with rfl | ha | ha | ha
    · exact lt_of_getElem?_eq_some hn
    · exact ih0 h0 a ha
    · exact ih1 h1 a ha
    · exact ih2 h2 a ha

theorem Subtree.levelOrder_zero {t : Subtree} {a : Nat} (hroot : t.root = some a) :
    t.levelOrder[0]? = some a := by
  cases t with
  | null => simp [Subtree.root] at hroot
  | node b f c0 c1 c2 =>
    simp only [Subtree.root, Option.some.injEq] at hroot
    subst hroot
    simp [Subtree.levelOrder, Subtree.levelOrderT_cons, rootsOf, Subtree.root]

theorem Subtree.length_levelOrderT (t : Subtree) : t.levelOrderT.length = t.levelOrder.length := by
  have := congrArg List.length t.levelOrder_map_some
  simpa using this.symm

theorem StitchInv.skip_null {h : Heap} {t : Subtree} {g : Heap} {Pt Q : List Subtree}
    (inv : StitchInv h t g Pt (.null :: Q)) : StitchInv h t g Pt Q where
  len := inv.len
  frame := inv.frame
  fidq := inv.fidq
  split := by rw [inv.split, loT_null_cons]
  hgt := fun u hu => inv.hgt u (List.mem_cons_of_mem _ hu)
  done := inv.done
  kidsP := by simpa [nonNull_null_cons] using inv.kidsP
  todo := inv.todo
  rootpar := inv.rootpar

theorem StitchInv.finish {h : Heap} {t : Subtree} {g : Heap} {Pt Q : List Subtree}
    (inv : StitchInv h t g Pt Q) (hnil : loT t.height Q = []) :
    StitchInv h t g t.levelOrderT [] := by
  have hnn := nonNull_eq_nil_of_loT inv.hgt hnil
  have hPt : t.levelOrderT = Pt := by rw [inv.split, hnil, List.append_nil]
  rw [hPt]
  exact
    { len := inv.len
      frame := inv.frame
      fidq := inv.fidq
      split := by rw [loT_nil, List.append_nil, hPt]
      hgt := by simp
      done := inv.done
      kidsP := by
        have hk := inv.kidsP
        rw [hnn] at hk
        simpa [nonNull] using hk
      todo := inv.todo
      rootpar := inv.rootpar }

theorem mem_index_lt {α : Type} {l r : List α} {u : α} (hu : u ∈ l) :
    ∃ m, m < l.length ∧ (l ++ r)[m]? = some u := by
  obtain ⟨m, hm⟩ := List.mem_iff_getElem?.mp hu
  have hlt : m < l.length := by
    by_contra hge
    rw [List.getElem?_eq_none (by omega)] at hm
    cases hm
  exact ⟨m, hlt, by rw [List.getElem?_append_left hlt]; exact hm⟩

end GP

namespace GP

theorem flattened_get {B : List Nat} {flattened pad : List (Option Nat)}
    (hfl : flattened = B.map some ++ pad) {m x : Nat} (hm : B[m]? = some x) :
    flattened[m]? = some (some x) := by
  have hlt : m < B.length := by
    by_contra hge
    rw [List.getElem?_eq_none (by omega)] at hm
    cases hm
  rw [hfl, List.getElem?_append_left (by simpa using hlt), List.getElem?_map, hm]
  rfl

theorem flattened_get_inv {B : List Nat} {flattened pad : List (Option Nat)}
    (hfl : flattened = B.map some ++ pad) {m x : Nat} (hlt : m < B.length)
    (hm : flattened[m]? = some (some x)) : B[m]? = some x := by
  rw [hfl, List.getElem?_append_left (by simpa using hlt), List.getElem?_map] at hm
  cases hb : B[m]? with
  | none => rw [hb] at hm; simp at hm
  | some y => rw [hb] at hm; simpa using hm

/-- Where the breadth-first array holds the node that the outer loop of `Stitch`
processes next, and its children. -/
theorem stitch_positions {h : Heap} {t : Subtree} {g : Heap} {Pt Q : List Subtree} {b : Nat}
    {f : Int} {c0 c1 c2 : Subtree} {n : Nat}
    (inv : StitchInv h t g Pt (.node b f c0 c1 c2 :: Q)) (hsl : slotsFilled n c0 c1 c2) :
    Subtree.node b f c0 c1 c2 ∈ t.subtrees ∧
    t.levelOrder[Pt.length]? = some b ∧
    (∀ s, s < n → ∃ x, t.levelOrder[Pt.length + (nonNull (.node b f c0 c1 c2 :: Q)).length + s]?
        = some x ∧ [c0.root, c1.root, c2.root][s]? = some (some x)) := by
  obtain ⟨_, hLTi, hLTkids⟩ := loT_positions inv.split inv.hgt
  obtain ⟨hkl, hkroots, _⟩ := slotsFilled_roots hsl
  refine ⟨t.levelOrderT_perm.subset (List.getElem?_mem hLTi),
    Subtree.levelOrder_getElem? hLTi rfl, fun s hs => ?_⟩
  obtain ⟨x, hx1, hx2⟩ := hkroots s hs
  refine ⟨x, ?_, hx2⟩
  have hk := hLTkids s (by omega)
  rw [List.getElem?_map] at hx1
  cases hc : (nonNull [c0, c1, c2])[s]? with
  | none => rw [hc] at hx1; simp at hx1
  | some c =>
    rw [hc] at hx1 hk
    simp only [Option.map_some', Option.some.injEq] at hx1
    exact Subtree.levelOrder_getElem? hk hx1

/-- One round of the outer loop of `Stitch` keeps the invariant. -/
theorem stitch_step {h : Heap} {t : Subtree} {g g1 : Heap} {Pt Q : List Subtree} {b : Nat}
    {f : Int} {c0 c1 c2 : Subtree} {n : Nat} {flattened pad : List (Option Nat)}
    (hfl : flattened = t.levelOrder.map some ++ pad) (hn : t.addrs.Nodup)
    (hpre : PreStitch h t)
    (inv : StitchInv h t g Pt (.node b f c0 c1 c2 :: Q)) (hsl : slotsFilled n c0 c1 c2)
    (l3 : g1.length = g.length)
    (f3 : ∀ x : Nat, (g1[x]?).map GPTreeNode.functionID = (g[x]?).map GPTreeNode.functionID)
    (k3 : ∀ x : Nat, x ≠ b → (g1[x]?).map GPTreeNode.links = (g[x]?).map GPTreeNode.links)
    (q3 : ∀ x : Nat, (∀ k, k < n →
        flattened[Pt.length + (nonNull (.node b f c0 c1 c2 :: Q)).length + k]? ≠ some (some x)) →
      parentOf g1 x = parentOf g x)
    (r3 : ∀ k c, k < n →
      flattened[Pt.length + (nonNull (.node b f c0 c1 c2 :: Q)).length + k]? = some (some c) →
      parentOf g1 c = some b)
    (s3 : ∀ s : Nat, (g1[b]?).map (fun m => m.parameters s) =
      if 0 ≤ s ∧ s < 0 + n then
        flattened[Pt.length + (nonNull (.node b f c0 c1 c2 :: Q)).length + (s - 0)]?
      else (g[b]?).map (fun m => m.parameters s)) :
    StitchInv h t g1 (Pt ++ [.node b f c0 c1 c2]) (Q ++ [c0, c1, c2]) := by
  obtain ⟨humem, hBi, hBk⟩ := stitch_positions inv hsl
  obtain ⟨hkl, _, hknone⟩ := slotsFilled_roots hsl
  obtain ⟨hsplit1, _, _⟩ := loT_positions inv.split inv.hgt
  have hBnd := Subtree.levelOrder_nodup hn
  have hBmem : ∀ {m x : Nat}, t.levelOrder[m]? = some x → x ∈ t.addrs :=
    fun hm => t.levelOrder_perm.subset (List.getElem?_mem hm)
  have hBlt : ∀ {m x : Nat}, t.levelOrder[m]? = some x → m < t.levelOrder.length := by
    intro m x hm
    by_contra hge
    rw [List.getElem?_eq_none (by omega)] at hm
    cases hm
  have hBinj : ∀ {m m1 x : Nat}, t.levelOrder[m]? = some x → t.levelOrder[m1]? = some x →
      m = m1 := fun hm hm1 => List.getElem?_inj (hBlt hm) hBnd (hm.trans hm1.symm)
  have hnnl : (nonNull (Subtree.node b f c0 c1 c2 :: Q)).length = (nonNull Q).length + 1 := by
    rw [nonNull_node_cons]; rfl
  have hnnl1 : (nonNull (Q ++ [c0, c1, c2])).length = (nonNull Q).length + n := by
    rw [nonNull_append, List.length_append, hkl]
  -- a pointer that is written in this round stands at an index behind the queue
  have written : ∀ {x : Nat}, ¬ (∀ k, k < n →
      flattened[Pt.length + (nonNull (.node b f c0 c1 c2 :: Q)).length + k]? ≠ some (some x)) →
      ∃ k, k < n ∧
        t.levelOrder[Pt.length + (nonNull (.node b f c0 c1 c2 :: Q)).length + k]? = some x := by
    intro x hx
    push_neg at hx
    obtain ⟨k, hk, hkx⟩ := hx
    obtain ⟨y, hy, _⟩ := hBk k hk
    exact ⟨k, hk, flattened_get_inv hfl (hBlt hy) hkx⟩
  have hb_mem : b ∈ t.addrs := hBmem hBi
  obtain ⟨⟨n0, hn0, hf0, z0, z1, z2⟩, _⟩ := PreStitch_of_mem_subtrees hpre humem
  refine
    { len := l3.trans inv.len
      frame := ?_
      fidq := fun x => (f3 x).trans (inv.fidq x)
      split := hsplit1
      hgt := height_queue_step inv.hgt
      done := ?_
      kidsP := ?_
      todo := ?_
      rootpar := ?_ }
  · intro x hx
    have hxb : x ≠ b := fun e => hx (e ▸ hb_mem)
    have hp : parentOf g1 x = parentOf g x := by
      apply q3
      by_contra hc
      obtain ⟨k, _, hkx⟩ := written hc
      exact hx (hBmem hkx)
    have e1 : g1[x]? = g[x]? := cell_ext (k3 x hxb) hp
    rw [e1]; exact inv.frame x hx
  · intro u hu b1 hb1
    rw [List.mem_append, List.mem_singleton] at hu
    rcases hu with hu | rfl
    · have hne : b1 ≠ b := by
        intro e
        subst e
        obtain ⟨m, hm, hmu⟩ := mem_index_lt
          (r := loT t.height (Subtree.node b1 f c0 c1 c2 :: Q)) hu
        rw [← inv.split] at hmu
        have := hBinj (Subtree.levelOrder_getElem? hmu hb1) hBi
        omega
      rw [k3 b1 hne]
      exact inv.done u hu b1 hb1
    · simp only [Subtree.root, Option.some.injEq] at hb1
      subst hb1
      have hfid : (g1[b]?).map GPTreeNode.functionID = some f := by
        rw [f3, inv.fidq, hn0]; simp [hf0]
      have hold := parameters_of_links (by
        rw [inv.todo Pt.length b (le_refl _) hBi, hn0]; rfl :
        (g[b]?).map GPTreeNode.links = some n0.links)
      have slot : ∀ s, s < 3 → (g1[b]?).map (fun m => m.parameters s) =
          [c0.root, c1.root, c2.root][s]? := by
        intro s hs3
        rw [s3 s]
        by_cases hsn : s < n
        · rw [if_pos ⟨Nat.zero_le _, by omega⟩, Nat.sub_zero]
          obtain ⟨x, hx1, hx2⟩ := hBk s hsn
          rw [flattened_get hfl hx1, hx2]
        · rw [if_neg (by omega), hknone s (by omega) hs3]
          have hs012 : s = 0 ∨ s = 1 ∨ s = 2 := by omega
          have hz := hknone s (by omega) hs3
          rcases hs012 with rfl | rfl | rfl
          · rw [hold.1]
            simp only [List.getElem?_cons_zero, Option.some.injEq] at hz
            have : c0.isNode = false := by
              cases c0 with
              | null => rfl
              | node _ _ _ _ _ => simp [Subtree.root] at hz
            simp [GPTreeNode.links, z0 this]
          · rw [hold.2.1]
            simp only [List.getElem?_cons_succ, List.getElem?_cons_zero,
              Option.some.injEq] at hz
            have : c1.isNode = false := by
              cases c1 with
              | null => rfl
              | node _ _ _ _ _ => simp [Subtree.root] at hz
            simp [GPTreeNode.links, z1 this]
          · rw [hold.2.2.1]
            simp only [List.getElem?_cons_succ, List.getElem?_cons_zero,
              Option.some.injEq] at hz
            have : c2.isNode = false := by
              cases c2 with
              | null => rfl
              | node _ _ _ _ _ => simp [Subtree.root] at hz
            simp [GPTreeNode.links, z2 this]
      exact links_of_parameters hfid (by simpa using slot 0 (by omega))
        (by simpa using slot 1 (by omega)) (by simpa using slot 2 (by omega))
  · intro u hu c hc b1 x hb1 hx
    rw [List.mem_append, List.mem_singleton] at hu
    rcases hu with hu | rfl
    · obtain ⟨⟨p, hp, hpx⟩, hpar⟩ := inv.kidsP u hu c hc b1 x hb1 hx
      refine ⟨⟨p, ?_, hpx⟩, ?_⟩
      · rw [List.length_append, List.length_singleton, hnnl1]
        rw [hnnl] at hp
        omega
      · rw [← hpar]
        apply q3
        by_contra hcw
        obtain ⟨k, _, hkx⟩ := written hcw
        have := hBinj hpx hkx
        omega
    · simp only [Subtree.root, Option.some.injEq] at hb1
      subst hb1
      simp only [Subtree.children, List.mem_cons, List.mem_singleton, List.not_mem_nil,
        or_false] at hc
      have hs : ∃ s, s < 3 ∧ [c0.root, c1.root, c2.root][s]? = some (some x) := by
        rcases hc with rfl | rfl | rfl
        · exact ⟨0, by omega, by simp [hx]⟩
        · exact ⟨1, by omega, by simp [hx]⟩
        · exact ⟨2, by omega, by simp [hx]⟩
      obtain ⟨s, hs3, hsx⟩ := hs
      have hsn : s < n := by
        by_contra hge
        rw [hknone s (by omega) hs3] at hsx
        simp at hsx
      obtain ⟨y, hy1, hy2⟩ := hBk s hsn
      rw [hsx] at hy2
      simp only [Option.some.injEq] at hy2
      subst hy2
      refine ⟨⟨_, ?_, hy1⟩, r3 s x hsn (flattened_get hfl hy1)⟩
      rw [List.length_append, List.length_singleton, hnnl1, hnnl]
      omega
  · intro m x hm hmx
    rw [List.length_append, List.length_singleton] at hm
    have hxb : x ≠ b := by
      intro e
      subst e
      have := hBinj hmx hBi
      omega
    rw [k3 x hxb]
    exact inv.todo m x (by omega) hmx
  · intro a ha
    rw [← inv.rootpar a ha]
    apply q3
    by_contra hcw
    obtain ⟨k, _, hkx⟩ := written hcw
    have := hBinj (Subtree.levelOrder_zero ha) hkx
    rw [hnnl] at this
    omega

end GP

namespace GP

/-- The outer loop of `Stitch` on the breadth-first array of `t` runs to its end
and gives every node its children and every child its parent. -/
theorem stitchLoop_spec {fl : GPFunctionLookup} {h : Heap} {t : Subtree}
    {flattened pad : List (Option Nat)} (hfl : flattened = t.levelOrder.map some ++ pad)
    (hn : t.addrs.Nodup) (hok : ArityOK fl t) (hpre : PreStitch h t) :
    ∀ (n : Nat) (Q Pt : List Subtree) (g : Heap), StitchInv h t g Pt Q →
      (loT t.height Q).length = n →
      ∃ g1, stitchLoop fl flattened n Pt.length g (Pt.length + (nonNull Q).length) = some g1 ∧
        StitchInv h t g1 t.levelOrderT [] := by
  intro n
  induction n with
  | zero =>
    intro Q Pt g inv hlen
    exact ⟨g, rfl, inv.finish (List.length_eq_zero.mp hlen)⟩
  | succ n ih =>
    intro Q
    induction Q with
    | nil => intro Pt g inv hlen; rw [loT_nil] at hlen; simp at hlen
    | cons c Q ihQ =>
      intro Pt g inv hlen
      cases c with
      | null =>
        rw [nonNull_null_cons]
        exact ihQ Pt g inv.skip_null (by rwa [loT_null_cons] at hlen)
      | node b f c0 c1 c2 =>
        obtain ⟨_, hLTi, _⟩ := loT_positions inv.split inv.hgt
        have humem : Subtree.node b f c0 c1 c2 ∈ t.subtrees :=
          t.levelOrderT_perm.subset (List.getElem?_mem hLTi)
        have hoku := (ArityOK_of_mem_subtrees hok humem).1
        cases harity : arityOf fl f with
        | none => rw [harity] at hoku; exact absurd hoku id
        | some n1 =>
          rw [harity] at hoku
          have hsl : slotsFilled n1 c0 c1 c2 := hoku
          obtain ⟨_, hBi, hBk⟩ := stitch_positions inv hsl
          obtain ⟨⟨n0, hn0, hf0, _⟩, _⟩ := PreStitch_of_mem_subtrees hpre humem
          have haddr := PreStitch.addr_lt_heap hpre
          have hBmem : ∀ {m x : Nat}, t.levelOrder[m]? = some x → x ∈ t.addrs :=
            fun hm => t.levelOrder_perm.subset (List.getElem?_mem hm)
          have hblt : b < g.length := by rw [inv.len]; exact haddr b (hBmem hBi)
          obtain ⟨nd, hnd, hndf⟩ : ∃ nd, g[b]? = some nd ∧ nd.functionID = f := by
            have := inv.fidq b
            rw [hn0] at this
            cases hg : g[b]? with
            | none => rw [hg] at this; simp at this
            | some nd =>
              rw [hg] at this
              simp only [Option.map_some', Option.some.injEq] at this
              exact ⟨nd, rfl, this.trans hf0⟩
          obtain ⟨g1, e3, l3, f3, k3, q3, r3, s3⟩ := @stitchParams_spec flattened
            b n1 0 g (Pt.length + (nonNull (.node b f c0 c1 c2 :: Q)).length) hblt
            (by have := hsl.1; omega) (by
              intro k hk
              obtain ⟨x, hx, _⟩ := hBk k hk
              exact ⟨x, flattened_get hfl hx, by rw [inv.len]; exact haddr x (hBmem hx)⟩)
          have inv1 := stitch_step hfl hn hpre inv hsl l3 f3 k3 q3 r3 s3
          have hlen1 : (loT t.height (Q ++ [c0, c1, c2])).length = n := by
            rw [loT_node_cons inv.hgt, List.length_cons] at hlen
            omega
          obtain ⟨g2, e4, inv2⟩ := ih (Q ++ [c0, c1, c2]) (Pt ++ [.node b f c0 c1 c2]) g1 inv1
            hlen1
          have hkl := (slotsFilled_roots hsl).1
          have hidx : (Pt ++ [Subtree.node b f c0 c1 c2]).length +
              (nonNull (Q ++ [c0, c1, c2])).length =
              Pt.length + (nonNull (.node b f c0 c1 c2 :: Q)).length + n1 := by
            rw [nonNull_append, nonNull_node_cons]
            simp only [List.length_append, List.length_cons, List.length_nil, hkl]
            omega
          rw [hidx, List.length_append, List.length_singleton] at e4
          refine ⟨g2, ?_, inv2⟩
          have hfi : (flattened[Pt.length]?).join = some b := by
            rw [flattened_get hfl hBi]; rfl
          simp only [stitchLoop, hfi, hnd, hndf]
          by_cases hnull : f = NULLFUNC
          · have hn10 : n1 = 0 := by
              rw [arityOf, if_pos hnull] at harity
              exact (Option.some.inj harity).symm
            subst hn10
            simp only [stitchParams, Option.some.injEq, Prod.mk.injEq, Nat.add_zero] at e3
            rw [← e3.1] at e4
            rw [if_neg (by simpa using hnull)]
            exact e4
          · rw [arityOf, if_neg hnull] at harity
            cases hd : fl.GetFunctionByID f with
            | none => rw [hd] at harity; simp at harity
            | some d =>
              rw [hd] at harity
              simp only [Option.map_some', Option.some.injEq] at harity
              rw [if_pos (by simpa using hnull)]
              simp only [harity, e3]
              exact e4

/-- `Stitch` on the breadth-first array of a tree whose nodes have their function
ids in place: the returned pointer is the root, and the heap afterwards holds
the tree, every node with its children in the slots `0 .. arity - 1` and every
child with a parent link to its parent. -/
theorem Stitch_spec {fl : GPFunctionLookup} {h : Heap} {t : Subtree} {a : Nat}
    {flattened pad : List (Option Nat)} (hfl : flattened = t.levelOrder.map some ++ pad)
    (hn : t.addrs.Nodup) (hroot : t.root = some a) (hok : ArityOK fl t)
    (hpre : PreStitch h t) (max_nodes : Int) :
    ∃ h1, Stitch fl h flattened t.size max_nodes = some (h1, some a) ∧
      Rep h1 (parentOf h a) t ∧ h1.length = h.length ∧
      (∀ x : Nat, x ∉ t.addrs → h1[x]? = h[x]?) ∧
      (∀ x : Nat, (h1[x]?).map GPTreeNode.functionID = (h[x]?).map GPTreeNode.functionID) := by
  have inv0 : StitchInv h t h [] [t] :=
    { len := rfl
      frame := fun _ _ => rfl
      fidq := fun _ => rfl
      split := rfl
      hgt := by simp
      done := by simp
      kidsP := by simp
      todo := fun _ _ _ _ => rfl
      rootpar := fun _ _ => rfl }
  have hnn : (nonNull [t]).length = 1 := by
    cases t with
    | null => simp [Subtree.root] at hroot
    | node _ _ _ _ _ => rfl
  have hlen : (loT t.height [t]).length = t.size := by
    have := t.length_levelOrderT
    rw [Subtree.levelOrderT] at this
    rw [this, t.length_levelOrder]
  obtain ⟨g1, e, inv⟩ := stitchLoop_spec hfl hn hok hpre t.size [t] [] h inv0 hlen
  rw [hnn] at e
  refine ⟨g1, ?_, ?_, inv.len, inv.frame, inv.fidq⟩
  · have h0 := flattened_get hfl (Subtree.levelOrder_zero hroot)
    simp only [Stitch]
    simp only [List.length_nil, Nat.zero_add] at e
    rw [e, h0]
  · refine Rep_of_cells (fun u hu => inv.done u (t.levelOrderT_perm.symm.subset hu))
      (fun u hu c hc b x hb hx =>
        (inv.kidsP u (t.levelOrderT_perm.symm.subset hu) c hc b x hb hx).2)
      (fun a1 ha1 => ?_)
    rw [hroot] at ha1
    simp only [Option.some.injEq] at ha1
    subst ha1
    exact inv.rootpar a hroot

/-- C4: the round trip `Stitch( functions, Flatten( T ), Count( T ), max )`.  For a
proper tree `t` below the pointer `a` whose nodes have exactly arity-many
children in the slots `0 .. arity - 1` (the parent links may be anything):
`FlattenSubtree` returns an array, `Stitch` on it returns the root `a`, and the
heap afterwards holds the same tree `t`: the same cells with the same function
ids, the same children in the same parameter slots, and now every child has a
parent link to its parent (the parent link of the root is left as it was).
Flattening again gives the same array, so the breadth-first sequence of nodes
and function ids is the same; no cell outside `t` changes. -/
theorem Stitch_Flatten_roundtrip {fl : GPFunctionLookup} {h : Heap} (t : Subtree) {a : Nat}
    (hr : RepC h t) (hn : t.addrs.Nodup) (hroot : t.root = some a) (hok : ArityOK fl t)
    (max_nodes : Int) :
    ∃ flat h1, FlattenSubtree h a = some flat ∧ CountSubtree h a = some t.size ∧
      Stitch fl h flat t.size max_nodes = some (h1, some a) ∧
      Rep h1 (parentOf h a) t ∧ FlattenSubtree h1 a = some flat ∧
      flat = t.levelOrder.map some ∧
      (∀ x : Nat, (h1[x]?).map GPTreeNode.functionID = (h[x]?).map GPTreeNode.functionID) ∧
      (∀ x : Nat, x ∉ t.addrs → h1[x]? = h[x]?) := by
  obtain ⟨h1, e, hrep, _, hframe, hfid⟩ := @Stitch_spec fl h t a _ []
    (by rw [List.append_nil] : t.levelOrder.map some = t.levelOrder.map some ++ [])
    hn hroot hok hr.toPreStitch max_nodes
  exact ⟨t.levelOrder.map some, h1, FlattenSubtree_spec hr hn hroot,
    CountSubtree_of_repC hr hn hroot, e, hrep, FlattenSubtree_spec hrep.toRepC hn hroot, rfl,
    hfid, hframe⟩

theorem Stitch_Flatten_roundtrip_witness :
    ∃ flat h1, FlattenSubtree exHeap7 0 = some flat ∧ CountSubtree exHeap7 0 = some exTree7.size ∧
      Stitch exampleRegistry7 exHeap7 flat exTree7.size 7 = some (h1, some 0) ∧
      Rep h1 (parentOf exHeap7 0) exTree7 ∧ FlattenSubtree h1 0 = some flat ∧
      flat = exTree7.levelOrder.map some ∧
      (∀ x : Nat, (h1[x]?).map GPTreeNode.functionID =
        (exHeap7[x]?).map GPTreeNode.functionID) ∧
      (∀ x : Nat, x ∉ exTree7.addrs → h1[x]? = exHeap7[x]?) :=
  Stitch_Flatten_roundtrip exTree7 (by decide) (by decide) (by decide) (by decide) 7

end GP

namespace GP

theorem Subtree.size_copyAt : ∀ (t : Subtree) (b : Nat), (t.copyAt b).size = t.size
  | .null, _ => rfl
  | .node _ _ c0 c1 c2, b => by
    simp only [Subtree.copyAt, Subtree.size, Subtree.size_copyAt c0, Subtree.size_copyAt c1,
      Subtree.size_copyAt c2]

theorem Subtree.shape_copyAt : ∀ (t : Subtree) (b : Nat), (t.copyAt b).shape = t.shape
  | .null, _ => rfl
  | .node _ _ c0 c1 c2, b => by
    simp only [Subtree.copyAt, Subtree.shape, Subtree.shape_copyAt c0, Subtree.shape_copyAt c1,
      Subtree.shape_copyAt c2]

theorem Subtree.root_copyAt (t : Subtree) (b : Nat) :
    (t.copyAt b).root = t.root.map (fun _ => b) := by
  cases t <;> rfl

theorem Subtree.addrs_copyAt : ∀ (t : Subtree) (b : Nat),
    (t.copyAt b).addrs = List.range' b t.size
  | .null, _ => rfl
  | .node _ _ c0 c1 c2, b => by
    simp only [Subtree.copyAt, Subtree.addrs, Subtree.size, Subtree.addrs_copyAt c0,
      Subtree.addrs_copyAt c1, Subtree.addrs_copyAt c2]
    have e : b + 1 + c0.size + c1.size = b + 1 + (c1.size + c0.size) := by omega
    rw [List.range'_append_1, e, List.range'_append_1]
    have : 1 + c0.size + c1.size + c2.size = (c2.size + (c1.size + c0.size)) + 1 := by omega
    rw [this, List.range'_succ]

theorem Subtree.mem_addrs_copyAt {t : Subtree} {b y : Nat} :
    y ∈ (t.copyAt b).addrs ↔ b ≤ y ∧ y < b + t.size := by
  rw [Subtree.addrs_copyAt, List.mem_range'_1]

theorem Subtree.nodup_copyAt (t : Subtree) (b : Nat) : (t.copyAt b).addrs.Nodup := by
  rw [Subtree.addrs_copyAt]; exact List.nodup_range' _ _

theorem RepC.frameC {h h1 : Heap} : ∀ {t : Subtree}, RepC h t →
    (∀ a ∈ t.addrs, h1[a]? = h[a]?) → RepC h1 t
  | .null, _, _ => trivial
  | .node a f c0 c1 c2, hr, hf => by
    obtain ⟨hc, r0, r1, r2⟩ := hr
    have hsub : ∀ {c : Subtree}, (∀ x ∈ c.addrs, x ∈ (Subtree.node a f c0 c1 c2).addrs) →
        ∀ x ∈ c.addrs, h1[x]? = h[x]? := fun hin x hx => hf x (hin x hx)
    refine ⟨by rw [hf a (by simp [Subtree.addrs])]; exact hc,
      RepC.frameC r0 (hsub ?_), RepC.frameC r1 (hsub ?_), RepC.frameC r2 (hsub ?_)⟩ <;>
    · intro x hx; simp [Subtree.addrs, hx]

end GP

namespace GP

/-- One round of the loop of `Duplicate`, given that the recursive calls copy
trees of height at most `fuel`. -/
theorem dupParam_spec {rec : Heap → Nat → Option (Heap × Nat)} {fuel : Nat}
    (hrec : ∀ (g : Heap) (c : Nat) (tc : Subtree), RepC g tc → tc.root = some c →
      tc.height ≤ fuel → ∃ g1, rec g c = some (g1, g.length) ∧
        g1.length = g.length + tc.size ∧ (∀ x : Nat, x < g.length → g1[x]? = g[x]?) ∧
        Rep g1 none (tc.copyAt g.length))
    (src b i : Nat) (g : Heap) {s : GPTreeNode} (ci : Subtree) (hs : g[src]? = some s)
    (hp : s.parameters i = ci.root) (hi : i < 3) (hc : RepC g ci) (hh : ci.height ≤ fuel)
    (hb : b < g.length) :
    ∃ g1, dupParam rec src b i g = some g1 ∧ g1.length = g.length + ci.size ∧
      (∀ x : Nat, x < g.length → x ≠ b → g1[x]? = g[x]?) ∧
      g1[b]? = (g[b]?).bind (fun n => n.setParameter i (ci.copyAt g.length).root) ∧
      Rep g1 (some b) (ci.copyAt g.length) := by
  obtain ⟨nb, hnb⟩ : ∃ nb, g[b]? = some nb := ⟨g[b], List.getElem?_eq_getElem hb⟩
  have hset : ∀ (n : GPTreeNode) (v : Option Nat), ∃ n1, n.setParameter i v = some n1 := by
    intro n v
    interval_cases i <;> exact ⟨_, rfl⟩
  cases ci with
  | null =>
    obtain ⟨n1, hn1⟩ := hset nb none
    have e : setParam g b i none = some (g.set b n1) := by simp [setParam, hnb, hn1]
    refine ⟨g.set b n1, ?_, by simp [Subtree.size], ?_, ?_, trivial⟩
    · simp only [dupParam, hs, hp, Subtree.root]; exact e
    · intro x _ hxb; rw [setParam_get e x, if_neg hxb]
    · rw [setParam_get e b, if_pos rfl]; rfl
  | node c f c0 c1 c2 =>
    obtain ⟨g1, e1, l1, p1, r1⟩ := hrec g c (.node c f c0 c1 c2) hc rfl hh
    have hsz : 1 ≤ (Subtree.node c f c0 c1 c2).size := by simp [Subtree.size]; omega
    have hb1 : b < g1.length := by omega
    obtain ⟨nb1, hnb1⟩ : ∃ nb1, g1[b]? = some nb1 := ⟨g1[b], List.getElem?_eq_getElem hb1⟩
    obtain ⟨n1, hn1⟩ := hset nb1 (some g.length)
    have e2 : setParam g1 b i (some g.length) = some (g1.set b n1) := by
      simp [setParam, hnb1, hn1]
    have l2 : (g1.set b n1).length = g1.length := by simp
    have hd : g.length < (g1.set b n1).length := by omega
    obtain ⟨nd, hnd⟩ : ∃ nd, (g1.set b n1)[g.length]? = some nd :=
      ⟨(g1.set b n1)[g.length], List.getElem?_eq_getElem hd⟩
    have e3 : setParent (g1.set b n1) g.length (some b) =
        some ((g1.set b n1).set g.length { nd with parent := some b }) := by
      simp [setParent, hnd]
    have hget : ∀ x : Nat, ((g1.set b n1).set g.length { nd with parent := some b })[x]? =
        if x = g.length then (g1[g.length]?).map (fun n => { n with parent := some b })
        else if x = b then (g1[b]?).bind (fun n => n.setParameter i (some g.length))
        else g1[x]? := by
      intro x
      rw [setParent_get e3 x]
      have hbg : g.length ≠ b := by omega
      rw [setParam_get e2 x, setParam_get e2 g.length, if_neg hbg]
    refine ⟨(g1.set b n1).set g.length { nd with parent := some b }, ?_, ?_, ?_, ?_, ?_⟩
    · simp only [dupParam, hs, hp, Subtree.root, e1, e2, e3]
    · rw [List.length_set, List.length_set, l1]
    · intro x hx hxb
      rw [hget x, if_neg (by omega), if_neg hxb, p1 x hx]
    · rw [hget b, if_neg (by omega), if_pos rfl, p1 b hb]; rfl
    · obtain ⟨hcell, q0, q1, q2⟩ := r1
      have hfr : ∀ y : Nat, g.length + 1 ≤ y →
          ((g1.set b n1).set g.length { nd with parent := some b })[y]? = g1[y]? := by
        intro y hy
        rw [hget y, if_neg (by omega), if_neg (by omega)]
      refine ⟨by rw [hget g.length, if_pos rfl, hcell]; rfl, q0.frame ?_, q1.frame ?_,
        q2.frame ?_⟩ <;>
      · intro y hy
        exact hfr y (by have := (Subtree.mem_addrs_copyAt.mp hy).1; omega)

end GP

namespace GP

/-- `Duplicate( sourceTree )` on a tree: the copy is built in fresh cells behind
the old heap, which is left as it was, and the root of the copy has no parent. -/
theorem DuplicateAux_spec : ∀ (fuel : Nat) (g : Heap) (a : Nat) (t : Subtree), RepC g t →
    t.root = some a → t.height ≤ fuel →
    ∃ g1, DuplicateAux fuel g a = some (g1, g.length) ∧ g1.length = g.length + t.size ∧
      (∀ x : Nat, x < g.length → g1[x]? = g[x]?) ∧ Rep g1 none (t.copyAt g.length) := by
  intro fuel
  induction fuel with
  | zero =>
    intro g a t _ hroot hh
    cases t with
    | null => simp [Subtree.root] at hroot
    | node _ _ _ _ _ => simp [Subtree.height] at hh
  | succ fuel ih =>
    intro g a t hr hroot hh
    cases t with
    | null => simp [Subtree.root] at hroot
    | node a1 f c0 c1 c2 =>
      simp only [Subtree.root, Option.some.injEq] at hroot
      subst hroot
      obtain ⟨s, hs, hsf, hs0, hs1, hs2⟩ := RepC_cell hr
      obtain ⟨_, r0, r1, r2⟩ := hr
      have halt : a1 < g.length := lt_of_getElem?_eq_some hs
      simp only [Subtree.height] at hh
      have hh0 : c0.height ≤ fuel := by omega
      have hh1 : c1.height ≤ fuel := by omega
      have hh2 : c2.height ≤ fuel := by omega
      have hlt : ∀ {c : Subtree}, RepC g c → ∀ y ∈ c.addrs, y < g.length :=
        fun hc => RepC.addr_lt_length hc
      -- the new node
      have l0 : (g ++ [GPTreeNode.mk0 f]).length = g.length + 1 := by simp
      have p0 : ∀ x : Nat, x < g.length → (g ++ [GPTreeNode.mk0 f])[x]? = g[x]? :=
        fun x hx => List.getElem?_append_left hx
      have hb0 : (g ++ [GPTreeNode.mk0 f])[g.length]? = some (GPTreeNode.mk0 f) := by simp
      -- parameter 0
      obtain ⟨g1, e1, l1, p1, b1, q1⟩ := dupParam_spec ih a1 g.length 0
        (g ++ [GPTreeNode.mk0 f]) c0 (by rw [p0 a1 halt]; exact hs) hs0 (by omega)
        (r0.frameC (fun y hy => p0 y (hlt r0 y hy))) hh0 (by omega)
      rw [l0] at l1 q1 b1
      rw [hb0] at b1
      -- parameter 1
      have f1 : ∀ x : Nat, x < g.length → g1[x]? = g[x]? := fun x hx => by
        rw [p1 x (by omega) (by omega), p0 x hx]
      obtain ⟨g2, e2, l2, p2, b2, q2⟩ := dupParam_spec ih a1 g.length 1
        g1 c1 (by rw [f1 a1 halt]; exact hs) hs1 (by omega)
        (r1.frameC (fun y hy => f1 y (hlt r1 y hy))) hh1 (by omega)
      rw [l1] at l2 q2 b2
      rw [b1] at b2
      -- parameter 2
      have f2 : ∀ x : Nat, x < g.length → g2[x]? = g[x]? := fun x hx => by
        rw [p2 x (by omega) (by omega), f1 x hx]
      obtain ⟨g3, e3, l3, p3, b3, q3⟩ := dupParam_spec ih a1 g.length 2
        g2 c2 (by rw [f2 a1 halt]; exact hs) hs2 (by omega)
        (r2.frameC (fun y hy => f2 y (hlt r2 y hy))) hh2 (by omega)
      rw [l2] at l3 q3 b3
      rw [b2] at b3
      refine ⟨g3, ?_, ?_, ?_, ?_, ?_, ?_, q3⟩
      · simp only [DuplicateAux, hs, hsf, e1, e2, e3]
      · rw [l3]; simp only [Subtree.size]; omega
      · intro x hx
        rw [p3 x (by omega) (by omega), f2 x hx]
      · rw [b3]; rfl
      · have q12 : Rep g2 (some g.length) (c0.copyAt (g.length + 1)) := by
          refine q1.frame ?_
          intro y hy
          have := Subtree.mem_addrs_copyAt.mp hy
          exact p2 y (by omega) (by omega)
        refine q12.frame ?_
        intro y hy
        have := Subtree.mem_addrs_copyAt.mp hy
        exact p3 y (by omega) (by omega)
      · refine q2.frame ?_
        intro y hy
        have := Subtree.mem_addrs_copyAt.mp hy
        exact p3 y (by omega) (by omega)

/-- `Duplicate( sourceTree )` on a proper tree. -/
theorem Duplicate_spec {h : Heap} {t : Subtree} {a : Nat} (hr : RepC h t) (hn : t.addrs.Nodup)
    (hroot : t.root = some a) :
    ∃ h1, Duplicate h a = some (h1, h.length) ∧ h1.length = h.length + t.size ∧
      (∀ x : Nat, x < h.length → h1[x]? = h[x]?) ∧ Rep h1 none (t.copyAt h.length) := by
  refine DuplicateAux_spec h.length h a t hr hroot (t.height_le_size.trans ?_)
  rw [← t.length_addrs]
  exact length_le_of_nodup_lt hn (RepC.addr_lt_length hr)

end GP

namespace GP

theorem Subtree.height_shape : ∀ t : Subtree, t.shape.height = t.height
  | .null => rfl
  | .node _ _ c0 c1 c2 => by
    simp only [Subtree.shape, Subtree.height, Subtree.height_shape c0, Subtree.height_shape c1,
      Subtree.height_shape c2]

theorem Subtree.fid_shape (t : Subtree) : t.shape.fid = t.fid := by
  cases t <;> rfl

theorem nonNull_map_shape (Q : List Subtree) :
    nonNull (Q.map Subtree.shape) = (nonNull Q).map Subtree.shape := by
  induction Q with
  | nil => rfl
  | cons c Q ih =>
    cases c with
    | null =>
      rw [List.map_cons]
      show nonNull (Subtree.null :: Q.map Subtree.shape) = _
      rw [nonNull_null_cons, nonNull_null_cons, ih]
    | node a f c0 c1 c2 =>
      rw [List.map_cons]
      show nonNull (Subtree.node 0 f c0.shape c1.shape c2.shape :: Q.map Subtree.shape) = _
      rw [nonNull_node_cons, nonNull_node_cons, ih]
      rfl

theorem childrenF_map_shape (Q : List Subtree) :
    childrenF (Q.map Subtree.shape) = (childrenF Q).map Subtree.shape := by
  induction Q with
  | nil => rfl
  | cons c Q ih =>
    cases c with
    | null =>
      rw [List.map_cons]
      show childrenF (Subtree.null :: Q.map Subtree.shape) = _
      rw [childrenF_null_cons, childrenF_null_cons, ih]
    | node a f c0 c1 c2 =>
      rw [List.map_cons]
      show childrenF (Subtree.node 0 f c0.shape c1.shape c2.shape :: Q.map Subtree.shape) = _
      rw [childrenF_node_cons, childrenF_node_cons, ih]
      rfl

theorem loT_map_shape : ∀ (H : Nat) (Q : List Subtree),
    loT H (Q.map Subtree.shape) = (loT H Q).map Subtree.shape
  | 0, _ => rfl
  | H + 1, Q => by
    simp only [loT, nonNull_map_shape, childrenF_map_shape, loT_map_shape H, List.map_append]

theorem Subtree.levelOrderT_shape (t : Subtree) :
    t.shape.levelOrderT = t.levelOrderT.map Subtree.shape := by
  have := loT_map_shape t.height [t]
  simpa [Subtree.levelOrderT, Subtree.height_shape] using this

theorem Subtree.levelOrderIds_shape (t : Subtree) : t.shape.levelOrderIds = t.levelOrderIds := by
  simp only [Subtree.levelOrderIds, Subtree.levelOrderT_shape, List.map_map]
  congr 1
  funext u
  exact u.fid_shape

theorem replaceSlot_frame {h1 h2 : Heap} {q src new : Nat}
    (e : replaceSlot h1 q src new = some h2) :
    h2.length = h1.length ∧ ∀ x : Nat, x ≠ q → h2[x]? = h1[x]? := by
  unfold replaceSlot at e
  cases hq : h1[q]? with
  | none => rw [hq] at e; cases e
  | some n =>
    rw [hq] at e
    dsimp only at e
    split at e
    · exact ⟨setParam_length e, fun x hx => by rw [setParam_get e x, if_neg hx]⟩
    · split at e
      · exact ⟨setParam_length e, fun x hx => by rw [setParam_get e x, if_neg hx]⟩
      · split at e
        · exact ⟨setParam_length e, fun x hx => by rw [setParam_get e x, if_neg hx]⟩
        · cases e; exact ⟨rfl, fun _ _ => rfl⟩

/-- The cells that `Replace` can write to: the root of the new subtree and, when
the parent links of the source lead to the root of the tree, the parent of the
source. -/
theorem Replace_frame {h h2 : Heap} {T T2 : GPTree} {source res : Option Nat} {new : Nat}
    (e : T.Replace h source new = some (res, T2, h2)) :
    h2.length = h.length ∧ ∀ x : Nat, x ≠ new →
      (∀ src r, source = some src → T.m_root = some r → ParentChain h src r →
        parentOf h src ≠ some x) → h2[x]? = h[x]? := by
  have same : ∀ {r : Option Nat} {T1 : GPTree},
      some (r, T1, h) = some (res, T2, h2) → h2.length = h.length ∧ ∀ x : Nat, x ≠ new →
      (∀ src r, source = some src → T.m_root = some r → ParentChain h src r →
        parentOf h src ≠ some x) → h2[x]? = h[x]? := by
    intro r T1 e1
    simp only [Option.some.injEq, Prod.mk.injEq] at e1
    obtain ⟨_, _, rfl⟩ := e1
    exact ⟨rfl, fun _ _ _ => rfl⟩
  cases hm : CountSubtree h new with
  | none => simp [GPTree.Replace, hm] at e
  | some m =>
    cases source with
    | none =>
      rw [Replace_null_eq hm] at e
      split at e
      · exact same e
      · exact same e
    | some src =>
      cases he : CountSubtree h src with
      | none => simp [GPTree.Replace, hm, he] at e
      | some ex =>
        cases hw : parentWalk h T.m_root (h.length + 1) (some src) with
        | none => simp [GPTree.Replace, hm, he, hw] at e
        | some w =>
          cases w with
          | none => rw [Replace_reject_walk hm he hw] at e; exact same e
          | some r0 =>
            by_cases hover : T.Count - (ex : Int) + (m : Int) > T.MaxNodes
            · rw [Replace_reject_budget hm he hw hover] at e; exact same e
            · obtain ⟨sn, hsn⟩ := CountSubtreeAux_cell he
              obtain ⟨hR, src1, hsrc1, hchain⟩ := parentWalk_chain hw
              cases hsrc1
              cases hp : sn.parent with
              | none => rw [Replace_accept_root hm he hw hover hsn hp] at e; exact same e
              | some q =>
                have hw1 := hw
                rw [hR] at hw1
                cases e1 : setParent h new (some q) with
                | none =>
                  simp only [GPTree.Replace, hm, he, hR, hw1, if_neg hover, hsn, hp, e1] at e
                  cases e
                | some h1 =>
                  cases e2 : replaceSlot h1 q src new with
                  | none =>
                    simp only [GPTree.Replace, hm, he, hR, hw1, if_neg hover, hsn, hp, e1,
                      e2] at e
                    cases e
                  | some h2a =>
                    cases hc : CountSubtree h2a r0 with
                    | none =>
                      simp only [GPTree.Replace, hm, he, hR, hw1, if_neg hover, hsn, hp, e1,
                        e2, hc] at e
                      cases e
                    | some c =>
                      rw [Replace_accept_inner hm he hw hover hsn hp e1 e2 hc] at e
                      simp only [Option.some.injEq, Prod.mk.injEq] at e
                      obtain ⟨_, _, rfl⟩ := e
                      obtain ⟨l2, f2⟩ := replaceSlot_frame e2
                      refine ⟨by rw [l2, setParent_length e1], ?_⟩
                      intro x hxn hxq
                      have hpo : parentOf h src = some q := by simp [parentOf, hsn, hp]
                      have hxq1 : x ≠ q := by
                        intro hq
                        exact hxq src r0 rfl hR hchain (by rw [hpo, hq])
                      rw [f2 x hxq1, setParent_get e1 x, if_neg hxn]

theorem Rep.root_parent {h : Heap} {t : Subtree} {par : Option Nat} {a : Nat}
    (hr : Rep h par t) (hroot : t.root = some a) : parentOf h a = par := by
  cases t with
  | null => simp [Subtree.root] at hroot
  | node b f c0 c1 c2 =>
    simp only [Subtree.root, Option.some.injEq] at hroot
    subst hroot
    simp [parentOf, hr.1]

/-- The parent links of the nodes of a tree whose root has no parent do not lead
out of the tree. -/
theorem ParentChain.mem_of_rep {h : Heap} {t : Subtree} (ht : Rep h none t) {x y : Nat}
    (hc : ParentChain h x y) : x ∈ t.addrs → y ∈ t.addrs := by
  induction hc with
  | here a => exact id
  | @up a q b hp _ ih =>
    intro ha
    by_cases hroot : t.root = some a
    · rw [ht.root_parent hroot] at hp; cases hp
    · obtain ⟨q1, hq1, hpq⟩ := ht.parent_mem ha hroot
      rw [hp] at hpq
      cases hpq
      exact ih hq1

end GP

namespace GP

/-- C5: `Duplicate` of a non-empty tree.  If the tree object `T` owns the proper
tree `t` with root `a`, then `T.Duplicate()` returns a tree object with the same
`Count` and the same `MaxNodes` whose root `d` is a fresh cell and which owns a
proper tree `t1` of fresh cells; both trees count `t.size` nodes; the old cells
are untouched, so `T` still owns `t`; `t1` has the shape of `t`: at every
breadth-first position the subtrees of the two trees have the same function ids
and the same filled parameter slots all the way down, so the breadth-first
function-id sequences agree, and `FlattenSubtree` returns these breadth-first
orders.  A later `Replace` on the copy, with any source and any new subtree
whose root is not a node of `t`, writes to no cell of `t`: `T` still owns `t`
and counts the same nodes. -/
theorem Duplicate_structurally_equal {h : Heap} {T : GPTree} (t : Subtree) {a : Nat}
    (hinv : TreeInv h T t) (hroot : T.m_root = some a) :
    ∃ (h1 : Heap) (T1 : GPTree) (t1 : Subtree) (d : Nat),
      T.Duplicate h = some (h1, T1) ∧ T1.m_root = some d ∧
      T1.Count = T.Count ∧ T1.MaxNodes = T.MaxNodes ∧
      CountSubtree h1 d = some t.size ∧ CountSubtree h1 a = some t.size ∧
      TreeInv h1 T1 t1 ∧ TreeInv h1 T t ∧ (∀ x : Nat, x < h.length → h1[x]? = h[x]?) ∧
      (∀ y ∈ t1.addrs, y ∉ t.addrs) ∧
      t1.shape = t.shape ∧
      t1.levelOrderT.map Subtree.shape = t.levelOrderT.map Subtree.shape ∧
      t1.levelOrderIds = t.levelOrderIds ∧
      FlattenSubtree h1 d = some (t1.levelOrder.map some) ∧
      FlattenSubtree h1 a = some (t.levelOrder.map some) ∧
      (∀ (source : Option Nat) (new : Nat) (res : Option Nat) (T2 : GPTree) (h2 : Heap),
        new ∉ t.addrs → T1.Replace h1 source new = some (res, T2, h2) →
        TreeInv h2 T t ∧ (∀ x ∈ t.addrs, h2[x]? = h1[x]?) ∧
          CountSubtree h2 a = some t.size) := by
  obtain ⟨ht, htroot, hcount, hle⟩ := hinv
  have hta : t.root = some a := htroot.trans hroot
  obtain ⟨h1, e, l1, p1, r1⟩ := Duplicate_spec ht.1.toRepC ht.2 hta
  have hlt : ∀ y ∈ t.addrs, y < h.length := ht.1.addr_lt
  have hroot1 : (t.copyAt h.length).root = some h.length := by
    rw [Subtree.root_copyAt, hta]; rfl
  have ht1 : IsTree h1 none (t.copyAt h.length) := ⟨r1, t.nodup_copyAt h.length⟩
  have htk : IsTree h1 none t := ⟨ht.1.frame (fun y hy => p1 y (hlt y hy)), ht.2⟩
  have hsz : (t.copyAt h.length).size = t.size := t.size_copyAt h.length
  have hsh : (t.copyAt h.length).shape = t.shape := t.shape_copyAt h.length
  have hdisj : ∀ y ∈ (t.copyAt h.length).addrs, y ∉ t.addrs := by
    intro y hy hy1
    have := (Subtree.mem_addrs_copyAt.mp hy).1
    have := hlt y hy1
    omega
  refine ⟨h1, ⟨T.m_max_nodes, T.m_count, some h.length⟩, t.copyAt h.length, h.length, ?_, rfl,
    rfl, rfl, ?_, CountSubtree_of_isTree htk hta, ⟨ht1, hroot1, ?_, hle⟩,
    ⟨htk, htroot, hcount, hle⟩, p1, hdisj, hsh, ?_, ?_,
    FlattenSubtree_spec r1.toRepC ht1.2 hroot1, FlattenSubtree_spec htk.1.toRepC htk.2 hta, ?_⟩
  · simp only [GPTree.Duplicate, hroot, e]
  · rw [← hsz]; exact CountSubtree_of_isTree ht1 hroot1
  · show T.m_count = _
    rw [hsz]; exact hcount
  · rw [← Subtree.levelOrderT_shape, ← Subtree.levelOrderT_shape, hsh]
  · rw [← Subtree.levelOrderIds_shape, ← t.levelOrderIds_shape, hsh]
  · intro source new res T2 h2 hnew e2
    obtain ⟨_, f2⟩ := Replace_frame e2
    have hfr : ∀ x ∈ t.addrs, h2[x]? = h1[x]? := by
      intro x hx
      refine f2 x (fun hxn => hnew (hxn ▸ hx)) ?_
      intro src r _ hr hchain hpar
      have hrd : r = h.length := by
        simp only [Option.some.injEq] at hr
        exact hr.symm
      subst hrd
      cases hchain with
      | here _ =>
        rw [r1.root_parent hroot1] at hpar
        cases hpar
      | up hp hrest =>
        rw [hp] at hpar
        cases hpar
        have := hlt _ (ParentChain.mem_of_rep htk.1 hrest hx)
        omega
    have htk2 : IsTree h2 none t := ⟨htk.1.frame hfr, ht.2⟩
    exact ⟨⟨htk2, htroot, hcount, hle⟩, hfr, CountSubtree_of_isTree htk2 hta⟩

theorem Duplicate_structurally_equal_witness :
    ∃ (h1 : Heap) (T1 : GPTree) (t1 : Subtree) (d : Nat),
      exGPTree.Duplicate exHeap = some (h1, T1) ∧ T1.m_root = some d ∧
      T1.Count = exGPTree.Count ∧ T1.MaxNodes = exGPTree.MaxNodes ∧
      CountSubtree h1 d = some exTree.size ∧ CountSubtree h1 0 = some exTree.size ∧
      TreeInv h1 T1 t1 ∧ TreeInv h1 exGPTree exTree ∧
      (∀ x : Nat, x < exHeap.length → h1[x]? = exHeap[x]?) ∧
      (∀ y ∈ t1.addrs, y ∉ exTree.addrs) ∧
      t1.shape = exTree.shape ∧
      t1.levelOrderT.map Subtree.shape = exTree.levelOrderT.map Subtree.shape ∧
      t1.levelOrderIds = exTree.levelOrderIds ∧
      FlattenSubtree h1 d = some (t1.levelOrder.map some) ∧
      FlattenSubtree h1 0 = some (exTree.levelOrder.map some) ∧
      (∀ (source : Option Nat) (new : Nat) (res : Option Nat) (T2 : GPTree) (h2 : Heap),
        new ∉ exTree.addrs → T1.Replace h1 source new = some (res, T2, h2) →
        TreeInv h2 exGPTree exTree ∧ (∀ x ∈ exTree.addrs, h2[x]? = h1[x]?) ∧
          CountSubtree h2 0 = some exTree.size) :=
  Duplicate_structurally_equal exTree ⟨by decide, by decide, by decide, by decide⟩ rfl

end GP

namespace GP

theorem GetFunctionByID_nat (fl : GPFunctionLookup) {c : Nat} (hc : c < GP_MAX_FUNCTIONS * 2) :
    fl.GetFunctionByID (c : Int) = some (fl.descAt c) := by
  unfold GPFunctionLookup.GetFunctionByID
  rw [if_pos ⟨by omega, by exact_mod_cast hc⟩]
  rfl

theorem descAt_mem {fl : GPFunctionLookup} {c : Nat} (hc : c < fl.m_nFuncs) :
    fl.descAt c ∈ fl.m_functions := by
  have hc1 : c < fl.m_functions.length := hc
  unfold GPFunctionLookup.descAt
  rw [List.getD_eq_getElem _ _ hc1]
  exact List.getElem_mem hc1

theorem mem_descAt {fl : GPFunctionLookup} {d : GPFunctionDesc} (hd : d ∈ fl.m_functions) :
    ∃ c, c < fl.m_nFuncs ∧ fl.descAt c = d := by
  obtain ⟨c, hc, e⟩ := List.mem_iff_getElem.mp hd
  refine ⟨c, hc, ?_⟩
  unfold GPFunctionLookup.descAt
  rw [List.getD_eq_getElem _ _ hc]
  exact e

theorem add_mod_ne {n p k : Nat} (hp : p < n) (hk0 : 0 < k) (hk : k < n) : (p + k) % n ≠ p := by
  intro h
  by_cases hlt : p + k < n
  · rw [Nat.mod_eq_of_lt hlt] at h; omega
  · have : (p + k) % n = p + k - n := by
      rw [Nat.mod_eq_sub_mod (by omega), Nat.mod_eq_of_lt (by omega)]
    omega

theorem tmod_step (a n : Nat) :
    Int.tmod (((a % n : Nat) : Int) + 1) (n : Int) = (((a + 1) % n : Nat) : Int) := by
  have : (((a % n : Nat) : Int) + 1) = ((a % n + 1 : Nat) : Int) := by push_cast; rfl
  rw [this, ← Int.ofNat_tmod, Nat.mod_add_mod]

/-- The loop of `GetNextFuncWithReturnType` stops at the first id behind `p` whose
function has the return type. -/
theorem nextFuncLoop_found {fl : GPFunctionLookup} (hwf : fl.WF) {rt : Int} {p k : Nat}
    (hp : p < fl.m_nFuncs) (hk : k < fl.m_nFuncs)
    (hty : (fl.descAt ((p + k) % fl.m_nFuncs)).m_return_type = rt) :
    ∀ (fuel m : Nat), m < k →
      (∀ k1, m < k1 → k1 < k → (fl.descAt ((p + k1) % fl.m_nFuncs)).m_return_type ≠ rt) →
      k - m ≤ fuel →
      nextFuncLoop fl rt (p : Int) fuel (((p + m) % fl.m_nFuncs : Nat) : Int) =
        some (((p + k) % fl.m_nFuncs : Nat) : Int) := by
  intro fuel
  induction fuel with
  | zero => intro m hm _ hf; omega
  | succ fuel ih =>
    intro m hm hmin hf
    have hlt : (p + m + 1) % fl.m_nFuncs < GP_MAX_FUNCTIONS * 2 :=
      lt_of_lt_of_le (Nat.mod_lt _ (by omega)) hwf.1
    have hne : (p : Int) ≠ (((p + m + 1) % fl.m_nFuncs : Nat) : Int) := by
      have := add_mod_ne hp (Nat.succ_pos m) (by omega : m + 1 < fl.m_nFuncs)
      intro h
      exact this (by exact_mod_cast h.symm)
    simp only [nextFuncLoop, tmod_step]
    rw [if_pos hne, GetFunctionByID_nat fl hlt]
    by_cases hmk : m + 1 = k
    · subst hmk
      show (if (fl.descAt ((p + (m + 1)) % fl.m_nFuncs)).m_return_type ≠ rt then _ else _) = _
      rw [if_neg (not_not.mpr hty)]
      rfl
    · have := hmin (m + 1) (by omega) (by omega)
      show (if (fl.descAt ((p + (m + 1)) % fl.m_nFuncs)).m_return_type ≠ rt then _ else _) = _
      rw [if_pos this]
      exact ih (m + 1) (by omega) (fun k1 h1 h2 => hmin k1 (by omega) h2) (by omega)

/-- The loop of `GetNextFuncWithReturnType` comes back to `p` when no other
function has the return type. -/
theorem nextFuncLoop_none {fl : GPFunctionLookup} (hwf : fl.WF) {rt : Int} {p : Nat}
    (hp : p < fl.m_nFuncs) :
    ∀ (fuel m : Nat), m < fl.m_nFuncs →
      (∀ k1, m < k1 → k1 < fl.m_nFuncs →
        (fl.descAt ((p + k1) % fl.m_nFuncs)).m_return_type ≠ rt) →
      fl.m_nFuncs - m ≤ fuel →
      nextFuncLoop fl rt (p : Int) fuel (((p + m) % fl.m_nFuncs : Nat) : Int) =
        some NULLFUNC := by
  intro fuel
  induction fuel with
  | zero => intro m hm _ hf; omega
  | succ fuel ih =>
    intro m hm hmin hf
    simp only [nextFuncLoop, tmod_step]
    by_cases hmk : m + 1 = fl.m_nFuncs
    · have : (p + m + 1) % fl.m_nFuncs = p := by
        rw [Nat.add_assoc, hmk, Nat.add_mod_right, Nat.mod_eq_of_lt hp]
      rw [this, if_neg (by simp)]
    · have hlt : (p + m + 1) % fl.m_nFuncs < GP_MAX_FUNCTIONS * 2 :=
        lt_of_lt_of_le (Nat.mod_lt _ (by omega)) hwf.1
      have hne : (p : Int) ≠ (((p + m + 1) % fl.m_nFuncs : Nat) : Int) := by
        have := add_mod_ne hp (Nat.succ_pos m) (by omega : m + 1 < fl.m_nFuncs)
        intro h
        exact this (by exact_mod_cast h.symm)
      rw [if_pos hne, GetFunctionByID_nat fl hlt]
      have := hmin (m + 1) (by omega) (by omega)
      show (if (fl.descAt ((p + (m + 1)) % fl.m_nFuncs)).m_return_type ≠ rt then _ else _) = _
      rw [if_pos this]
      exact ih (m + 1) (by omega) (fun k1 h1 h2 => hmin k1 (by omega) h2) (by omega)

theorem GetNext_found {fl : GPFunctionLookup} (hwf : fl.WF) {rt : Int} {p k : Nat}
    (hp : p < fl.m_nFuncs) (hk0 : 0 < k) (hk : k < fl.m_nFuncs)
    (hty : (fl.descAt ((p + k) % fl.m_nFuncs)).m_return_type = rt)
    (hmin : ∀ k1, 0 < k1 → k1 < k →
      (fl.descAt ((p + k1) % fl.m_nFuncs)).m_return_type ≠ rt) :
    fl.GetNextFuncWithReturnType rt (p : Int) =
      some (((p + k) % fl.m_nFuncs : Nat) : Int) := by
  have := nextFuncLoop_found hwf hp hk hty (fl.m_nFuncs + 1) 0 hk0 hmin (by omega)
  simp only [Nat.add_zero, Nat.mod_eq_of_lt hp] at this
  unfold GPFunctionLookup.GetNextFuncWithReturnType
  rw [if_neg (by omega)]
  exact this

theorem GetNext_none {fl : GPFunctionLookup} (hwf : fl.WF) {rt : Int} {p : Nat}
    (hp : p < fl.m_nFuncs)
    (hno : ∀ k1, 0 < k1 → k1 < fl.m_nFuncs →
      (fl.descAt ((p + k1) % fl.m_nFuncs)).m_return_type ≠ rt) :
    fl.GetNextFuncWithReturnType rt (p : Int) = some NULLFUNC := by
  have := nextFuncLoop_none hwf hp (fl.m_nFuncs + 1) 0 (by omega) hno (by omega)
  simp only [Nat.add_zero, Nat.mod_eq_of_lt hp] at this
  unfold GPFunctionLookup.GetNextFuncWithReturnType
  rw [if_neg (by omega)]
  exact this

end GP

namespace GP

/-- The first step behind `p` at which a function with the return type sits, when
there is one within `k` steps. -/
theorem exists_first_step {fl : GPFunctionLookup} {rt : Int} {p k : Nat} (hk0 : 0 < k)
    (hty : (fl.descAt ((p + k) % fl.m_nFuncs)).m_return_type = rt) :
    ∃ k1, 0 < k1 ∧ k1 ≤ k ∧ (fl.descAt ((p + k1) % fl.m_nFuncs)).m_return_type = rt ∧
      ∀ k2, 0 < k2 → k2 < k1 → (fl.descAt ((p + k2) % fl.m_nFuncs)).m_return_type ≠ rt := by
  have hex : ∃ k1, 0 < k1 ∧ (fl.descAt ((p + k1) % fl.m_nFuncs)).m_return_type = rt :=
    ⟨k, hk0, hty⟩
  refine ⟨Nat.find hex, (Nat.find_spec hex).1, Nat.find_min' hex ⟨hk0, hty⟩,
    (Nat.find_spec hex).2, ?_⟩
  intro k2 h0 h2 hc
  exact Nat.find_min hex h2 ⟨h0, hc⟩

/-- The loop of `FindFunctionWithMaxPayload` finds a function when one without
parameters has the return type. -/
theorem findLoop_spec {fl : GPFunctionLookup} (hwf : fl.WF) {rt maxPayload : Int}
    (hmp : 0 ≤ maxPayload) {s mL : Nat} (hs : s < fl.m_nFuncs) (hmL : mL < fl.m_nFuncs)
    (hLty : (fl.descAt ((s + mL) % fl.m_nFuncs)).m_return_type = rt)
    (hLar : (fl.descAt ((s + mL) % fl.m_nFuncs)).m_nparams = 0) :
    ∀ (fuel m : Nat), m ≤ mL → mL - m < fuel →
      (fl.descAt ((s + m) % fl.m_nFuncs)).m_return_type = rt →
      ∃ c, c < fl.m_nFuncs ∧
        findLoop fl rt maxPayload (s : Int) fuel (((s + m) % fl.m_nFuncs : Nat) : Int) =
          some (c : Int) ∧
        (fl.descAt c).m_return_type = rt ∧ ((fl.descAt c).m_nparams : Int) ≤ maxPayload := by
  have hn0 : 0 < fl.m_nFuncs := by omega
  intro fuel
  induction fuel with
  | zero => intro m _ hf; omega
  | succ fuel ih =>
    intro m hm hf hty
    have hclt : (s + m) % fl.m_nFuncs < fl.m_nFuncs := Nat.mod_lt _ hn0
    simp only [findLoop]
    rw [GetFunctionByID_nat fl (lt_of_lt_of_le hclt hwf.1)]
    dsimp only
    by_cases hfit : ((fl.descAt ((s + m) % fl.m_nFuncs)).m_nparams : Int) ≤ maxPayload
    · rw [if_pos hfit]
      exact ⟨_, hclt, rfl, hty, hfit⟩
    · rw [if_neg hfit]
      have hmne : m ≠ mL := by
        intro e
        rw [e, hLar] at hfit
        exact hfit (by simpa using hmp)
      have hk0 : 0 < mL - m := by omega
      have hty2 : (fl.descAt (((s + m) % fl.m_nFuncs + (mL - m)) % fl.m_nFuncs)).m_return_type
          = rt := by
        rw [Nat.mod_add_mod]
        have : s + m + (mL - m) = s + mL := by omega
        rw [this]; exact hLty
      obtain ⟨k1, h0, hle, hk1, hmin⟩ := exists_first_step hk0 hty2
      rw [GetNext_found hwf hclt h0 (by omega) hk1 hmin]
      dsimp only
      have hidx : ((s + m) % fl.m_nFuncs + k1) % fl.m_nFuncs = (s + (m + k1)) % fl.m_nFuncs := by
        rw [Nat.mod_add_mod, Nat.add_assoc]
      rw [hidx] at hk1 ⊢
      have hne : ((((s + (m + k1)) % fl.m_nFuncs : Nat) : Int)) ≠ (s : Int) := by
        have := add_mod_ne hs (by omega : 0 < m + k1) (by omega)
        intro h
        exact this (by exact_mod_cast h)
      rw [if_pos hne]
      exact ih (m + k1) (by omega) (by omega) hk1

/-- `FindFunctionWithMaxPayload` for a return type that has a function without
parameters, and a payload that is not negative: one random number is drawn, and
the function found is registered, has the return type and fits the payload. -/
theorem FindFunctionWithMaxPayload_spec {fl : GPFunctionLookup} (hwf : fl.WF)
    {rt maxPayload : Int} (hmp : 0 ≤ maxPayload)
    (hleaf : ∃ d ∈ fl.m_functions, d.m_return_type = rt ∧ d.m_nparams = 0)
    (rnd : Nat → Nat) (pos : Nat) :
    ∃ c, c < fl.m_nFuncs ∧
      FindFunctionWithMaxPayload fl rt maxPayload rnd pos = some ((c : Int), pos + 1) ∧
      (fl.descAt c).m_return_type = rt ∧ ((fl.descAt c).m_nparams : Int) ≤ maxPayload := by
  obtain ⟨d, hd, hdty, hdar⟩ := hleaf
  obtain ⟨L, hL, hLd⟩ := mem_descAt hd
  have hn0 : 0 < fl.m_nFuncs := by omega
  have hs0 : rnd pos % fl.m_nFuncs < fl.m_nFuncs := Nat.mod_lt _ hn0
  -- the offset of the leaf from any id
  have hoff : ∀ s, s < fl.m_nFuncs → (s + (L + fl.m_nFuncs - s) % fl.m_nFuncs) % fl.m_nFuncs = L := by
    intro s hs
    rw [Nat.add_mod_mod]
    have : s + (L + fl.m_nFuncs - s) = L + fl.m_nFuncs := by omega
    rw [this, Nat.add_mod_right, Nat.mod_eq_of_lt hL]
  -- the start of the search
  have hstart : ∃ s, s < fl.m_nFuncs ∧ (fl.descAt s).m_return_type = rt ∧
      fl.GetRandomFuncWithReturnType rt rnd pos = some ((s : Int), pos + 1) := by
    by_cases hex : ∃ k, 0 < k ∧ k < fl.m_nFuncs ∧
        (fl.descAt ((rnd pos % fl.m_nFuncs + k) % fl.m_nFuncs)).m_return_type = rt
    · obtain ⟨k, hk0, hk, hty⟩ := hex
      obtain ⟨k1, h0, hle, hk1, hmin⟩ := exists_first_step hk0 hty
      refine ⟨_, Nat.mod_lt _ hn0, hk1, ?_⟩
      unfold GPFunctionLookup.GetRandomFuncWithReturnType
      rw [if_neg (by omega)]
      dsimp only
      rw [GetNext_found hwf hs0 h0 (by omega) hk1 hmin,
        GetFunctionByID_nat fl (lt_of_lt_of_le hs0 hwf.1)]
      dsimp only
      rw [if_neg]
      intro hc
      have := hc.1
      unfold NULLFUNC at this
      omega
    · have hno : ∀ k1, 0 < k1 → k1 < fl.m_nFuncs →
          (fl.descAt ((rnd pos % fl.m_nFuncs + k1) % fl.m_nFuncs)).m_return_type ≠ rt :=
        fun k1 h0 h1 hc => hex ⟨k1, h0, h1, hc⟩
      have hty0 : (fl.descAt (rnd pos % fl.m_nFuncs)).m_return_type = rt := by
        have hk := hoff _ hs0
        by_cases hz : (L + fl.m_nFuncs - rnd pos % fl.m_nFuncs) % fl.m_nFuncs = 0
        · rw [hz, Nat.add_zero, Nat.mod_eq_of_lt hs0] at hk
          rw [hk, hLd]; exact hdty
        · exfalso
          refine hno _ (Nat.pos_of_ne_zero hz) (Nat.mod_lt _ hn0) ?_
          rw [hk, hLd]; exact hdty
      refine ⟨_, hs0, hty0, ?_⟩
      unfold GPFunctionLookup.GetRandomFuncWithReturnType
      rw [if_neg (by omega)]
      dsimp only
      rw [GetNext_none hwf hs0 hno, GetFunctionByID_nat fl (lt_of_lt_of_le hs0 hwf.1)]
      dsimp only
      rw [if_pos ⟨rfl, hty0⟩]
  obtain ⟨s, hs, hsty, hrand⟩ := hstart
  subst hdty
  have hfl := findLoop_spec hwf hmp hs (Nat.mod_lt (L + fl.m_nFuncs - s) hn0)
    (by rw [hoff s hs, hLd]) (by rw [hoff s hs, hLd]; exact hdar)
    (fl.m_nFuncs + 1) 0 (Nat.zero_le _)
    (by have := Nat.mod_lt (L + fl.m_nFuncs - s) hn0; omega)
    (by rw [Nat.add_zero, Nat.mod_eq_of_lt hs]; exact hsty)
  simp only [Nat.add_zero, Nat.mod_eq_of_lt hs] at hfl
  obtain ⟨c, hc, hfind, hcty, hcar⟩ := hfl
  refine ⟨c, hc, ?_, hcty, hcar⟩
  unfold FindFunctionWithMaxPayload
  rw [hrand]
  dsimp only
  rw [if_neg (by unfold NULLFUNC; omega), hfind]

end GP

namespace GP

theorem arityD_nat {fl : GPFunctionLookup} (hwf : fl.WF) {c : Nat} (hc : c < fl.m_nFuncs) :
    arityD fl (c : Int) = (fl.descAt c).m_nparams := by
  unfold arityD
  rw [GetFunctionByID_nat fl (lt_of_lt_of_le hc hwf.1)]

theorem arSum_append (fl : GPFunctionLookup) (A B : List Int) :
    arSum fl (A ++ B) = arSum fl A + arSum fl B := by
  simp [arSum]

theorem arSum_cons (fl : GPFunctionLookup) (f : Int) (A : List Int) :
    arSum fl (f :: A) = arityD fl f + arSum fl A := by
  simp [arSum]

theorem arSum_nil (fl : GPFunctionLookup) : arSum fl [] = 0 := rfl

theorem childStart_append {fl : GPFunctionLookup} {F : List Int} (E : List Int) {k : Nat}
    (hk : k ≤ F.length) : childStart fl (F ++ E) k = childStart fl F k := by
  unfold childStart
  rw [List.take_append_of_le_length hk]

theorem arSum_drop_of_get (fl : GPFunctionLookup) {F : List Int} {i : Nat} {f : Int}
    (hf : F[i]? = some f) : arSum fl (F.drop i) = arityD fl f + arSum fl (F.drop (i + 1)) := by
  have hi : i < F.length := by
    by_contra hc
    rw [List.getElem?_eq_none (by omega)] at hf
    cases hf
  rw [List.drop_eq_getElem_cons hi, arSum_cons]
  rw [List.getElem?_eq_getElem hi] at hf
  cases hf
  rfl

theorem childStart_succ (fl : GPFunctionLookup) {F : List Int} {i : Nat} {f : Int}
    (hf : F[i]? = some f) : childStart fl F (i + 1) = childStart fl F i + arityD fl f := by
  have hi : i < F.length := by
    by_contra hc
    rw [List.getElem?_eq_none (by omega)] at hf
    cases hf
  unfold childStart
  rw [List.take_succ, hf, arSum_append]
  simp [arSum]
  omega

theorem NodeKids.append {fl : GPFunctionLookup} {F : List Int} {k n : Nat}
    (h : NodeKids fl F k n) (E : List Int) : NodeKids fl (F ++ E) k n := by
  obtain ⟨h1, h2, h3⟩ := h
  have hk : k ≤ F.length := by omega
  rw [NodeKids, childStart_append E hk]
  refine ⟨h1, by rw [List.length_append]; omega, ?_⟩
  intro j hj
  obtain ⟨c, ck, e1, e2, e3⟩ := h3 j hj
  refine ⟨c, ck, ?_, ?_, e3⟩
  · rw [List.getElem?_append_left (by omega)]; exact e1
  · rw [List.getElem?_append_left (by omega)]; exact e2

/-- Writing the next address into the array of `CreateRandomTree`. -/
theorem flat_set (b n M : Nat) (hn : n < M) :
    ((List.range' b n).map some ++ List.replicate (M - n) (none : Option Nat)).set n
        (some (b + n)) =
      (List.range' b (n + 1)).map some ++ List.replicate (M - (n + 1)) none := by
  have hM : M - n = (M - (n + 1)) + 1 := by omega
  rw [hM, List.replicate_succ]
  have hlen : ((List.range' b n).map some).length = n := by simp
  rw [List.set_append_right _ _ (by rw [hlen]), hlen, Nat.sub_self, List.set_cons_zero,
    List.range'_concat, List.map_append]
  simp

end GP

namespace GP

theorem getElem?_lt_length {F : List Int} {i : Nat} {f : Int} (hf : F[i]? = some f) :
    i < F.length := by
  by_contra hc
  rw [List.getElem?_eq_none (by omega)] at hf
  cases hf

/-- The `for` loop of `CreateRandomTree` over the parameters of the function at
position `i`. -/
theorem createParams_spec {fl : GPFunctionLookup} (hwf : fl.WF) {rt : Int}
    (hleaf : LeafContract fl rt) {M : Nat} {h0 : Heap} (rnd : Nat → Nat) {i ci : Nat} :
    ∀ (n j : Nat) (F : List Int) (s : CreateState), CreateInv fl rt M h0 F i j s →
      NodeKids fl F i j → F[i]? = some (ci : Int) → j + n = (fl.descAt ci).m_nparams →
      ∃ F1 s1, createParams fl (fl.descAt ci) (M : Int) rnd n j s = some s1 ∧
        CreateInv fl rt M h0 F1 i (j + n) s1 ∧ NodeKids fl F1 i (j + n) ∧
        ∃ E, F1 = F ++ E := by
  intro n
  induction n with
  | zero =>
    intro j F s inv kids _ _
    exact ⟨F, s, rfl, inv, kids, [], (List.append_nil F).symm⟩
  | succ n ih =>
    intro j F s inv kids hFi hjn
    have hilt := getElem?_lt_length hFi
    obtain ⟨c0, hc0, hcilt, hreach0⟩ := inv.valid i _ hFi
    have hc0' : ci = c0 := by exact_mod_cast hc0
    subst hc0'
    have hreach : Reachable fl rt ((fl.descAt ci).paramType j) :=
      Reachable.param hreach0 (descAt_mem hcilt) (by omega)
    have hdrop := arSum_drop_of_get fl hFi
    rw [arityD_nat hwf hcilt] at hdrop
    have hres := inv.res
    have hbud := inv.budget
    have hused := inv.used
    have hmp : 0 ≤ (M : Int) - ((s.nodes_used + 1 : Nat) : Int) - (s.reserved_nodes - 1) := by
      rw [hused]; push_cast; omega
    obtain ⟨c, hc, hfind, hcty, hcar⟩ := FindFunctionWithMaxPayload_spec hwf hmp
      (hleaf _ hreach) rnd s.pos
    have hlen : F.length < M := by omega
    have hflen : s.parameter_write_idx < s.flattened_tree.length := by
      rw [inv.pwi, inv.flat]
      simp only [List.length_append, List.length_map, List.length_range', List.length_replicate]
      omega
    have hki := kids
    obtain ⟨k1, k2, k3⟩ := kids
    have inv1 : CreateInv fl rt M h0 (F ++ [(c : Int)]) i (j + 1)
        { heap := s.heap ++ [GPTreeNode.mk0 (c : Int)]
          flattened_tree := s.flattened_tree.set s.parameter_write_idx (some s.heap.length)
          nodes_used := s.nodes_used + 1
          parameter_write_idx := s.parameter_write_idx + 1
          reserved_nodes := s.reserved_nodes - 1 + ((fl.descAt c).m_nparams : Int)
          pos := s.pos + 1 } :=
      { heap := by simp [inv.heap]
        flat := by
          show s.flattened_tree.set s.parameter_write_idx (some s.heap.length) = _
          rw [inv.flat, inv.pwi, inv.heap, List.length_append, List.length_map,
            flat_set _ _ _ hlen]
          simp
        used := by simp [inv.used]
        pwi := by simp [inv.pwi]
        res := by
          show s.reserved_nodes - 1 + ((fl.descAt c).m_nparams : Int) + ((j + 1 : Nat) : Int) = _
          rw [List.drop_append_of_le_length (by omega), arSum_append, arSum_cons, arSum_nil,
            arityD_nat hwf hc]
          push_cast
          omega
        budget := by
          rw [List.drop_append_of_le_length (by omega), arSum_append, arSum_cons, arSum_nil,
            arityD_nat hwf hc, List.length_append, List.length_singleton]
          rw [hused] at hcar
          push_cast at hcar
          omega
        start := by
          rw [childStart_append _ (by omega), List.length_append, List.length_singleton]
          have := inv.start
          omega
        idx := by rw [List.length_append]; omega
        valid := by
          intro k f hk
          by_cases hkl : k < F.length
          · rw [List.getElem?_append_left hkl] at hk
            exact inv.valid k f hk
          · have hkl2 : k = F.length := by
              have := getElem?_lt_length hk
              rw [List.length_append, List.length_singleton] at this
              omega
            subst hkl2
            rw [List.getElem?_append_right (le_refl _), Nat.sub_self] at hk
            simp only [List.getElem?_cons_zero, Option.some.injEq] at hk
            refine ⟨c, hk.symm, hc, ?_⟩
            rw [hcty]; exact hreach
        root := by
          obtain ⟨r, hr, hrt⟩ := inv.root
          refine ⟨r, ?_, hrt⟩
          rw [List.getElem?_append_left (getElem?_lt_length hr)]; exact hr
        hist := by
          intro k hk c1 hc1
          rw [List.getElem?_append_left (by omega)] at hc1
          exact (inv.hist k hk c1 hc1).append _ }
    have kids1 : NodeKids fl (F ++ [(c : Int)]) i (j + 1) := by
      rw [NodeKids, childStart_append _ (by omega)]
      have hst := inv.start
      refine ⟨k1, by rw [List.length_append, List.length_singleton]; omega, ?_⟩
      intro j1 hj1
      by_cases hjj : j1 < j
      · obtain ⟨a, ak, e1, e2, e3⟩ := k3 j1 hjj
        refine ⟨a, ak, ?_, ?_, e3⟩
        · rw [List.getElem?_append_left (by omega)]; exact e1
        · rw [List.getElem?_append_left (by omega)]; exact e2
      · have hj1j : j1 = j := by omega
        subst hj1j
        refine ⟨c, ci, ?_, ?_, hcty⟩
        · rw [List.getElem?_append_left (by omega)]; exact hFi
        · rw [hst, List.getElem?_append_right (le_refl _), Nat.sub_self]
          rfl
    obtain ⟨F1, s1, e1, i1, kd1, E, hE⟩ := ih (j + 1) _ _ inv1 kids1
      (by rw [List.getElem?_append_left hilt]; exact hFi) (by omega)
    have hj : j + (n + 1) = j + 1 + n := by omega
    rw [hj]
    refine ⟨F1, s1, ?_, i1, kd1, [(c : Int)] ++ E, by rw [hE, List.append_assoc]⟩
    simp only [createParams]
    rw [hfind]
    dsimp only
    rw [if_neg (by unfold NULLFUNC; omega), if_pos hflen,
      GetFunctionByID_nat fl (lt_of_lt_of_le hc hwf.1)]
    exact e1

end GP

namespace GP

/-- The `while` loop of `CreateRandomTree` ends, with every node given all its
children. -/
theorem createLoop_spec {fl : GPFunctionLookup} (hwf : fl.WF) {rt : Int}
    (hleaf : LeafContract fl rt) {M : Nat} {h0 : Heap} (rnd : Nat → Nat) :
    ∀ (fuel i : Nat) (F : List Int) (s : CreateState), CreateInv fl rt M h0 F i 0 s →
      M + 1 ≤ i + fuel →
      ∃ F1 s1, createLoop fl (M : Int) rnd fuel i s = some s1 ∧
        CreateInv fl rt M h0 F1 F1.length 0 s1 := by
  intro fuel
  induction fuel with
  | zero =>
    intro i F s inv hf
    have := inv.idx
    have := inv.budget
    omega
  | succ fuel ih =>
    intro i F s inv hf
    by_cases hi : i < F.length
    · obtain ⟨ci, hFi, hcilt, _⟩ : ∃ ci : Nat, F[i]? = some (ci : Int) ∧ ci < fl.m_nFuncs ∧
          Reachable fl rt (fl.descAt ci).m_return_type := by
        obtain ⟨c, hc, h1, h2⟩ := inv.valid i F[i] (List.getElem?_eq_getElem hi)
        exact ⟨c, by rw [List.getElem?_eq_getElem hi, hc], h1, h2⟩
      have hflat : (s.flattened_tree[i]?).join = some (h0.length + i) := by
        rw [inv.flat, List.getElem?_append_left (by simpa using hi), List.getElem?_map,
          List.getElem?_range' _ _ hi]
        simp
      have hcell : s.heap[h0.length + i]? = some (GPTreeNode.mk0 (ci : Int)) := by
        rw [inv.heap, List.getElem?_append_right (by omega), Nat.add_sub_cancel_left,
          List.getElem?_map, hFi]
        rfl
      have kids0 : NodeKids fl F i 0 := by
        have := inv.start
        exact ⟨by omega, by omega, fun j hj => absurd hj (Nat.not_lt_zero j)⟩
      obtain ⟨F1, s1, e1, inv1, kids1, E, hE⟩ := createParams_spec hwf hleaf rnd
        (fl.descAt ci).m_nparams 0 F s inv kids0 hFi (Nat.zero_add _)
      rw [Nat.zero_add] at inv1 kids1
      have hFi1 : F1[i]? = some (ci : Int) := by
        rw [hE, List.getElem?_append_left hi]; exact hFi
      have hdrop := arSum_drop_of_get fl hFi1
      have hsucc := childStart_succ fl hFi1
      rw [arityD_nat hwf hcilt] at hdrop hsucc
      have inv2 : CreateInv fl rt M h0 F1 (i + 1) 0 s1 :=
        { heap := inv1.heap
          flat := inv1.flat
          used := inv1.used
          pwi := inv1.pwi
          res := by
            have := inv1.res
            rw [hdrop] at this
            push_cast at this ⊢
            omega
          budget := by
            have := inv1.budget
            omega
          start := by
            have := inv1.start
            omega
          idx := getElem?_lt_length hFi1
          valid := inv1.valid
          root := inv1.root
          hist := by
            intro k hk c hc
            by_cases hki : k < i
            · exact inv1.hist k hki c hc
            · have hkeq : k = i := by omega
              subst hkeq
              rw [hFi1] at hc
              have hcc : ci = c := by
                simp only [Option.some.injEq] at hc
                exact_mod_cast hc
              subst hcc
              exact kids1 }
      obtain ⟨F2, s2, e2, inv3⟩ := ih (i + 1) F1 s1 inv2 (by omega)
      refine ⟨F2, s2, ?_, inv3⟩
      simp only [createLoop]
      rw [if_pos (by rw [inv.used]; exact hi), hflat]
      dsimp only
      rw [hcell]
      dsimp only
      have hne : (GPTreeNode.mk0 (ci : Int)).functionID ≠ NULLFUNC := by
        show (ci : Int) ≠ NULLFUNC
        unfold NULLFUNC; omega
      rw [if_pos hne]
      show (match fl.GetFunctionByID (ci : Int) with
        | none => none
        | some function_desc =>
          match createParams fl function_desc (M : Int) rnd function_desc.m_nparams 0 s with
          | none => none
          | some s1 => createLoop fl (M : Int) rnd fuel (i + 1) s1) = some s2
      rw [GetFunctionByID_nat fl (lt_of_lt_of_le hcilt hwf.1)]
      dsimp only
      rw [e1]
      exact e2
    · have hieq : i = F.length := by
        have := inv.idx
        omega
      subst hieq
      refine ⟨F, s, ?_, inv⟩
      simp only [createLoop]
      rw [if_neg (by rw [inv.used]; exact hi)]

end GP

namespace GP

theorem treeAt_eq (fl : GPFunctionLookup) (base : Nat) (F : List Int) (fuel k : Nat) :
    treeAt fl base F (fuel + 1) k =
      match F[k]? with
      | none => .null
      | some f =>
        .node (base + k) f
          (if 0 < arityD fl f then treeAt fl base F fuel (childStart fl F k + 0) else .null)
          (if 1 < arityD fl f then treeAt fl base F fuel (childStart fl F k + 1) else .null)
          (if 2 < arityD fl f then treeAt fl base F fuel (childStart fl F k + 2) else .null) :=
  rfl

theorem childrenF_nonNull (Q : List Subtree) : childrenF (nonNull Q) = childrenF Q := by
  induction Q with
  | nil => rfl
  | cons c Q ih =>
    cases c with
    | null => rw [nonNull_null_cons, childrenF_null_cons, ih]
    | node a f c0 c1 c2 => rw [nonNull_node_cons, childrenF_node_cons, childrenF_node_cons, ih]

theorem nonNull_nonNull (Q : List Subtree) : nonNull (nonNull Q) = nonNull Q := by
  simp [nonNull]

/-- The level order of a forest does not see its `null` trees. -/
theorem loT_nonNull (H : Nat) (Q : List Subtree) : loT H Q = loT H (nonNull Q) := by
  cases H with
  | zero => rfl
  | succ H => simp only [loT, nonNull_nonNull, childrenF_nonNull]

theorem loT_congr {H : Nat} {Q R : List Subtree} (h : nonNull Q = nonNull R) :
    loT H Q = loT H R := by
  rw [loT_nonNull H Q, loT_nonNull H R, h]

theorem height_treeAt (fl : GPFunctionLookup) (base : Nat) (F : List Int) :
    ∀ (fuel k : Nat), (treeAt fl base F fuel k).height ≤ fuel := by
  intro fuel
  induction fuel with
  | zero => intro k; simp [treeAt, Subtree.height]
  | succ fuel ih =>
    intro k
    rw [treeAt_eq]
    cases F[k]? with
    | none => simp [Subtree.height]
    | some f =>
      have hkid : ∀ (b : Prop) [Decidable b] (x : Nat),
          (if b then treeAt fl base F fuel x else Subtree.null).height ≤ fuel := by
        intro b _ x
        split
        · exact ih x
        · simp [Subtree.height]
      have h0 := hkid (0 < arityD fl f) (childStart fl F k + 0)
      have h1 := hkid (1 < arityD fl f) (childStart fl F k + 1)
      have h2 := hkid (2 < arityD fl f) (childStart fl F k + 2)
      simp only [Subtree.height]
      omega

theorem root_treeAt {fl : GPFunctionLookup} {base : Nat} {F : List Int} (fuel : Nat) {k : Nat}
    (hk : k < F.length) : (treeAt fl base F (fuel + 1) k).root = some (base + k) := by
  rw [treeAt_eq, List.getElem?_eq_getElem hk]
  rfl

theorem isNode_treeAt {fl : GPFunctionLookup} {base : Nat} {F : List Int} (fuel : Nat) {k : Nat}
    (hk : k < F.length) : (treeAt fl base F (fuel + 1) k).isNode = true := by
  rw [treeAt_eq, List.getElem?_eq_getElem hk]
  rfl

/-- More fuel than the positions that are left does not change the tree. -/
theorem treeAt_succ {fl : GPFunctionLookup} {base : Nat} {F : List Int}
    (hV : ∀ (k : Nat) (f : Int), F[k]? = some f → ∃ c : Nat, f = (c : Int) ∧ c < fl.m_nFuncs)
    (hK : ∀ (k c : Nat), F[k]? = some (c : Int) → NodeKids fl F k (fl.descAt c).m_nparams) :
    ∀ (fuel k : Nat), F.length ≤ k + fuel →
      treeAt fl base F (fuel + 1) k = treeAt fl base F fuel k := by
  intro fuel
  induction fuel with
  | zero =>
    intro k hk
    rw [treeAt_eq, List.getElem?_eq_none (by omega)]
    rfl
  | succ fuel ih =>
    intro k hk
    rw [treeAt_eq fl base F (fuel + 1) k, treeAt_eq fl base F fuel k]
    cases hf : F[k]? with
    | none => rfl
    | some f =>
      obtain ⟨c, hc, _⟩ := hV k f hf
      subst hc
      have h1 := (hK k c hf).1
      dsimp only
      rw [ih (childStart fl F k + 0) (by omega), ih (childStart fl F k + 1) (by omega),
        ih (childStart fl F k + 2) (by omega)]

/-- The tree below position `k`, with its children read off the array. -/
theorem treeAt_unfold {fl : GPFunctionLookup} (hwf : fl.WF) (base : Nat) {F : List Int}
    (hV : ∀ (k : Nat) (f : Int), F[k]? = some f → ∃ c : Nat, f = (c : Int) ∧ c < fl.m_nFuncs)
    (hK : ∀ (k c : Nat), F[k]? = some (c : Int) → NodeKids fl F k (fl.descAt c).m_nparams)
    {k c : Nat} (hf : F[k]? = some (c : Int)) :
    treeAt fl base F F.length k =
      .node (base + k) (c : Int)
        (if 0 < (fl.descAt c).m_nparams then treeAt fl base F F.length (childStart fl F k + 0)
          else .null)
        (if 1 < (fl.descAt c).m_nparams then treeAt fl base F F.length (childStart fl F k + 1)
          else .null)
        (if 2 < (fl.descAt c).m_nparams then treeAt fl base F F.length (childStart fl F k + 2)
          else .null) := by
  have hk := getElem?_lt_length hf
  obtain ⟨c1, hc1, hclt⟩ := hV k _ hf
  have hcc : c = c1 := by exact_mod_cast hc1
  subst hcc
  have h1 := (hK k c hf).1
  obtain ⟨m, hm⟩ : ∃ m, F.length = m + 1 := ⟨F.length - 1, by omega⟩
  have e : ∀ j, treeAt fl base F F.length (childStart fl F k + j) =
      treeAt fl base F m (childStart fl F k + j) := by
    intro j
    rw [hm]
    exact treeAt_succ hV hK m _ (by omega)
  rw [e 0, e 1, e 2]
  conv_lhs => rw [hm, treeAt_eq, hf]
  dsimp only
  rw [arityD_nat hwf hclt]

end GP

namespace GP

/-- The children of a node of the array, as a forest, are the trees of the next
positions of the array. -/
theorem nonNull_kids (T : Nat → Subtree) (n cs : Nat) (hn : n ≤ 3) :
    nonNull [if 0 < n then T (cs + 0) else .null, if 1 < n then T (cs + 1) else .null,
      if 2 < n then T (cs + 2) else .null] = nonNull ((List.range' cs n).map T) := by
  interval_cases n
  · simp [nonNull, Subtree.isNode]
  · simp [nonNull, Subtree.isNode, List.range', List.filter_cons]
  · simp [nonNull, Subtree.isNode, List.range', List.filter_cons]
  · simp [nonNull, Subtree.isNode, List.range']

/-- The queue view of the array: the level order of the trees of the positions
`i .. childStart i - 1` is the rest of the array. -/
theorem loT_treeAt {fl : GPFunctionLookup} (hwf : fl.WF) (base : Nat) {F : List Int}
    (hV : ∀ (k : Nat) (f : Int), F[k]? = some f → ∃ c : Nat, f = (c : Int) ∧ c < fl.m_nFuncs)
    (hK : ∀ (k c : Nat), F[k]? = some (c : Int) → NodeKids fl F k (fl.descAt c).m_nparams)
    (hS : childStart fl F F.length = F.length) :
    ∀ (d i : Nat), i + d = F.length →
      loT F.length ((List.range' i (childStart fl F i - i)).map (treeAt fl base F F.length)) =
        (List.range' i (F.length - i)).map (treeAt fl base F F.length) := by
  intro d
  induction d with
  | zero =>
    intro i hi
    have hiN : i = F.length := by omega
    subst hiN
    rw [hS, Nat.sub_self]
    simp [loT_nil]
  | succ d ih =>
    intro i hi
    have hilt : i < F.length := by omega
    obtain ⟨c, hc, hclt⟩ := hV i F[i] (List.getElem?_eq_getElem hilt)
    have hf : F[i]? = some (c : Int) := by rw [List.getElem?_eq_getElem hilt, hc]
    obtain ⟨k1, k2, _⟩ := hK i c hf
    have hsucc := childStart_succ fl hf
    rw [arityD_nat hwf hclt] at hsucc
    have hn3 : (fl.descAt c).m_nparams ≤ 3 := hwf.2 _ (descAt_mem hclt)
    have hT := treeAt_unfold hwf base hV hK hf
    have e1 : childStart fl F i - i = (childStart fl F i - i - 1) + 1 := by omega
    have e2 : F.length - i = (F.length - (i + 1)) + 1 := by omega
    have hh : ∀ u ∈ treeAt fl base F F.length i ::
        (List.range' (i + 1) (childStart fl F i - i - 1)).map (treeAt fl base F F.length),
        u.height ≤ F.length := by
      intro u hu
      rcases List.mem_cons.mp hu with h | h
      · rw [h]; exact height_treeAt _ _ _ _ _
      · obtain ⟨x, _, hx⟩ := List.mem_map.mp h
        rw [← hx]; exact height_treeAt _ _ _ _ _
    rw [e1, e2, List.range'_succ, List.range'_succ, List.map_cons, List.map_cons]
    rw [hT] at hh ⊢
    rw [loT_node_cons hh]
    congr 1
    have := ih (i + 1) (by omega)
    rw [← this]
    apply loT_congr
    rw [nonNull_append, nonNull_kids _ _ _ hn3, ← nonNull_append, ← List.map_append]
    have e4 : childStart fl F (i + 1) - (i + 1) =
        (fl.descAt c).m_nparams + (childStart fl F i - i - 1) := by omega
    have e5 : i + 1 + (childStart fl F i - i - 1) = childStart fl F i := by omega
    have hr : List.range' (i + 1) (childStart fl F i - i - 1) ++
        List.range' (childStart fl F i) (fl.descAt c).m_nparams =
        List.range' (i + 1) (childStart fl F (i + 1) - (i + 1)) := by
      have := List.range'_append_1 (i + 1) (childStart fl F i - i - 1) (fl.descAt c).m_nparams
      rw [e5] at this
      rw [e4]; exact this
    rw [hr]

/-- The tree that the array describes has the array as its breadth-first order. -/
theorem levelOrderT_treeAt {fl : GPFunctionLookup} (hwf : fl.WF) (base : Nat) {F : List Int}
    (hV : ∀ (k : Nat) (f : Int), F[k]? = some f → ∃ c : Nat, f = (c : Int) ∧ c < fl.m_nFuncs)
    (hK : ∀ (k c : Nat), F[k]? = some (c : Int) → NodeKids fl F k (fl.descAt c).m_nparams)
    (hS : childStart fl F F.length = F.length) :
    (treeAt fl base F F.length 0).levelOrderT =
      (List.range' 0 F.length).map (treeAt fl base F F.length) := by
  have h := loT_treeAt hwf base hV hK hS F.length 0 (Nat.zero_add _)
  have hcs : childStart fl F 0 - 0 = 1 := by simp [childStart, arSum]
  rw [hcs] at h
  simp only [List.range', List.map_cons, List.map_nil, Nat.sub_zero] at h
  rw [Subtree.levelOrderT, ← h]
  exact (loT_of_height_le (by
    intro u hu
    rw [List.mem_singleton] at hu
    rw [hu]) (height_treeAt _ _ _ _ _)).symm

theorem levelOrder_treeAt {fl : GPFunctionLookup} (hwf : fl.WF) (base : Nat) {F : List Int}
    (hV : ∀ (k : Nat) (f : Int), F[k]? = some f → ∃ c : Nat, f = (c : Int) ∧ c < fl.m_nFuncs)
    (hK : ∀ (k c : Nat), F[k]? = some (c : Int) → NodeKids fl F k (fl.descAt c).m_nparams)
    (hS : childStart fl F F.length = F.length) :
    (treeAt fl base F F.length 0).levelOrder = List.range' base F.length := by
  rw [Subtree.levelOrder, levelOrderT_treeAt hwf base hV hK hS]
  have hN : ∀ (n : Nat), n ≤ F.length → rootsOf ((List.range' 0 n).map
      (treeAt fl base F F.length)) = List.range' base n := by
    intro n
    induction n with
    | zero => intro _; rfl
    | succ n ih =>
      intro hn
      obtain ⟨m, hm⟩ : ∃ m, F.length = m + 1 := ⟨F.length - 1, by omega⟩
      rw [List.range'_concat, List.map_append, rootsOf_append, ih (by omega),
        List.range'_concat]
      congr 1
      simp only [Nat.one_mul, Nat.zero_add, List.map_cons, List.map_nil, rootsOf_cons]
      have hr : (treeAt fl base F F.length n).root = some (base + n) := by
        rw [hm]; exact root_treeAt m (by omega)
      rw [hr]
      simp [rootsOf]
  exact hN F.length (le_refl _)

end GP

namespace GP

theorem arityOf_nat {fl : GPFunctionLookup} (hwf : fl.WF) {c : Nat} (hc : c < fl.m_nFuncs) :
    arityOf fl (c : Int) = some (fl.descAt c).m_nparams := by
  unfold arityOf
  rw [if_neg (by unfold NULLFUNC; omega), GetFunctionByID_nat fl (lt_of_lt_of_le hc hwf.1)]
  rfl

/-- The tree that the array describes is well-formed, and the fresh cells are
ready for `Stitch`. -/
theorem treeAt_good {fl : GPFunctionLookup} (hwf : fl.WF) {base : Nat} {F : List Int} {g : Heap}
    (hV : ∀ (k : Nat) (f : Int), F[k]? = some f → ∃ c : Nat, f = (c : Int) ∧ c < fl.m_nFuncs)
    (hK : ∀ (k c : Nat), F[k]? = some (c : Int) → NodeKids fl F k (fl.descAt c).m_nparams)
    (hg : ∀ (k : Nat) (f : Int), F[k]? = some f → g[base + k]? = some (GPTreeNode.mk0 f)) :
    ∀ (fuel k : Nat), F.length ≤ k + fuel →
      ArityOK fl (treeAt fl base F fuel k) ∧ PreStitch g (treeAt fl base F fuel k) ∧
      ∀ c : Nat, F[k]? = some (c : Int) →
        WellTyped fl (fl.descAt c).m_return_type (treeAt fl base F fuel k) := by
  intro fuel
  induction fuel with
  | zero =>
    intro k hk
    refine ⟨trivial, trivial, fun c hc => ?_⟩
    rw [List.getElem?_eq_none (by omega)] at hc
    cases hc
  | succ fuel ih =>
    intro k hk
    rw [treeAt_eq]
    cases hf : F[k]? with
    | none => exact ⟨trivial, trivial, fun c hc => by cases hc⟩
    | some f =>
      obtain ⟨c, hc, hclt⟩ := hV k f hf
      subst hc
      obtain ⟨k1, k2, k3⟩ := hK k c hf
      have hn3 : (fl.descAt c).m_nparams ≤ 3 := hwf.2 _ (descAt_mem hclt)
      dsimp only
      rw [arityD_nat hwf hclt]
      have hkid : ∀ j : Nat,
          ArityOK fl (if j < (fl.descAt c).m_nparams then
            treeAt fl base F fuel (childStart fl F k + j) else .null) ∧
          PreStitch g (if j < (fl.descAt c).m_nparams then
            treeAt fl base F fuel (childStart fl F k + j) else .null) ∧
          (if j < (fl.descAt c).m_nparams then
            treeAt fl base F fuel (childStart fl F k + j) else Subtree.null).isNode =
              decide (j < (fl.descAt c).m_nparams) ∧
          (if j < (fl.descAt c).m_nparams then
            WellTyped fl ((fl.descAt c).paramType j)
              (if j < (fl.descAt c).m_nparams then
                treeAt fl base F fuel (childStart fl F k + j) else .null)
          else (if j < (fl.descAt c).m_nparams then
            treeAt fl base F fuel (childStart fl F k + j) else Subtree.null) = .null) := by
        intro j
        by_cases hj : j < (fl.descAt c).m_nparams
        · simp only [if_pos hj, decide_eq_true hj]
          obtain ⟨a1, a2, a3⟩ := ih (childStart fl F k + j) (by omega)
          obtain ⟨c1, ck, e1, e2, e3⟩ := k3 j hj
          rw [hf] at e1
          have hck : c = ck := by
            simp only [Option.some.injEq] at e1
            exact_mod_cast e1
          subst hck
          obtain ⟨m, hm⟩ : ∃ m, fuel = m + 1 := ⟨fuel - 1, by omega⟩
          refine ⟨a1, a2, ?_, ?_⟩
          · rw [hm]; exact isNode_treeAt (k := childStart fl F k + j) m (by omega)
          · rw [← e3]; exact a3 c1 e2
        · simp only [if_neg hj, decide_eq_false hj]
          exact ⟨trivial, trivial, rfl, trivial⟩
      obtain ⟨a0, p0, n0, w0⟩ := hkid 0
      obtain ⟨a1, p1, n1, w1⟩ := hkid 1
      obtain ⟨a2, p2, n2, w2⟩ := hkid 2
      refine ⟨⟨?_, a0, a1, a2⟩, ⟨⟨GPTreeNode.mk0 (c : Int), hg k _ hf, rfl, fun _ => rfl,
        fun _ => rfl, fun _ => rfl⟩, p0, p1, p2⟩, ?_⟩
      · rw [arityOf_nat hwf hclt]
        exact ⟨hn3, n0, n1, n2⟩
      · intro c2 hc2
        have hcc : c = c2 := by
          simp only [Option.some.injEq] at hc2
          exact_mod_cast hc2
        subst hcc
        unfold WellTyped
        rw [GetFunctionByID_nat fl (lt_of_lt_of_le hclt hwf.1)]
        exact ⟨by omega, by exact_mod_cast hclt, rfl, hn3, w0, w1, w2⟩

end GP

namespace GP

/-- `CreateRandomTree` under its leaf assumption, with the addresses of the new
tree: they all lie behind the old heap. -/
theorem CreateRandomTree_fresh {fl : GPFunctionLookup} (hwf : fl.WF) {rt : Int}
    (hleaf : LeafContract fl rt) {max_nodes : Int} (hmax : 1 ≤ max_nodes) (rnd : Nat → Nat)
    (pos : Nat) (h : Heap) :
    ∃ (t : Subtree) (h1 : Heap) (pos1 : Nat),
      CreateRandomTree fl rt max_nodes rnd pos h = some (some h.length, t.size, h1, pos1) ∧
      IsTree h1 none t ∧ t.root = some h.length ∧ (t.size : Int) ≤ max_nodes ∧
      WellTyped fl rt t ∧ (∀ x : Nat, x < h.length → h1[x]? = h[x]?) ∧
      h1.length = h.length + t.size ∧ (∀ y ∈ t.addrs, h.length ≤ y) := by
  obtain ⟨M, hM⟩ : ∃ M : Nat, max_nodes = (M : Int) := ⟨max_nodes.toNat, by omega⟩
  subst hM
  have hM1 : 1 ≤ M := by exact_mod_cast hmax
  obtain ⟨c0, hc0, hfind, hty0, har0⟩ := FindFunctionWithMaxPayload_spec hwf
    (by omega : (0 : Int) ≤ (M : Int) - 1) (hleaf rt Reachable.root) rnd pos
  have inv0 : CreateInv fl rt M h [(c0 : Int)] 0 0
      { heap := h ++ [GPTreeNode.mk0 (c0 : Int)]
        flattened_tree := (List.replicate M none).set 0 (some h.length)
        nodes_used := 1
        parameter_write_idx := 1
        reserved_nodes := ((fl.descAt c0).m_nparams : Int)
        pos := pos + 1 } :=
    { heap := rfl
      flat := by
        have := flat_set h.length 0 M (by omega)
        simpa using this
      used := rfl
      pwi := rfl
      res := by
        show ((fl.descAt c0).m_nparams : Int) + ((0 : Nat) : Int) = _
        rw [List.drop_zero, arSum_cons, arSum_nil, arityD_nat hwf hc0]
        simp
      budget := by
        rw [List.drop_zero, arSum_cons, arSum_nil, arityD_nat hwf hc0]
        simp only [List.length_singleton]
        omega
      start := by simp [childStart, arSum]
      idx := Nat.zero_le _
      valid := by
        intro k f hk
        cases k with
        | zero =>
          simp only [List.getElem?_cons_zero, Option.some.injEq] at hk
          exact ⟨c0, hk.symm, hc0, by rw [hty0]; exact Reachable.root⟩
        | succ k => simp at hk
      root := ⟨c0, rfl, hty0⟩
      hist := fun k hk => absurd hk (Nat.not_lt_zero k) }
  obtain ⟨F, s, eloop, inv⟩ := createLoop_spec hwf hleaf rnd (M + 1) 0 _ _ inv0 (by omega)
  have hV : ∀ (k : Nat) (f : Int), F[k]? = some f → ∃ c : Nat, f = (c : Int) ∧ c < fl.m_nFuncs :=
    fun k f hk => by
      obtain ⟨c, h1, h2, _⟩ := inv.valid k f hk
      exact ⟨c, h1, h2⟩
  have hK : ∀ (k c : Nat), F[k]? = some (c : Int) → NodeKids fl F k (fl.descAt c).m_nparams :=
    fun k c hk => inv.hist k (getElem?_lt_length hk) c hk
  have hS : childStart fl F F.length = F.length := by
    have := inv.start
    omega
  have hg : ∀ (k : Nat) (f : Int), F[k]? = some f →
      s.heap[h.length + k]? = some (GPTreeNode.mk0 f) := by
    intro k f hk
    rw [inv.heap, List.getElem?_append_right (by omega), Nat.add_sub_cancel_left,
      List.getElem?_map, hk]
    rfl
  obtain ⟨r, hr, hrt⟩ := inv.root
  have hN : 0 < F.length := getElem?_lt_length hr
  obtain ⟨m, hm⟩ : ∃ m, F.length = m + 1 := ⟨F.length - 1, by omega⟩
  obtain ⟨hok, hpre, hwt⟩ := treeAt_good hwf hV hK hg F.length 0 (by omega)
  have hlo := levelOrder_treeAt hwf h.length hV hK hS
  have hroot : (treeAt fl h.length F F.length 0).root = some h.length := by
    rw [hm]; exact root_treeAt m (by omega)
  have hsize : (treeAt fl h.length F F.length 0).size = F.length := by
    rw [← Subtree.length_levelOrder, hlo, List.length_range']
  have hnd : (treeAt fl h.length F F.length 0).addrs.Nodup :=
    ((treeAt fl h.length F F.length 0).levelOrder_perm.nodup_iff).mp
      (by rw [hlo]; exact List.nodup_range' _ _)
  have hfl : s.flattened_tree = (treeAt fl h.length F F.length 0).levelOrder.map some ++
      List.replicate (M - F.length) none := by
    rw [hlo]; exact inv.flat
  obtain ⟨h1, eS, hrep, hlen, hframe, _⟩ := Stitch_spec hfl hnd hroot hok hpre (M : Int)
  have hpar : parentOf s.heap h.length = none := by
    have := hg 0 _ hr
    rw [Nat.add_zero] at this
    simp [parentOf, this, GPTreeNode.mk0]
  rw [hpar] at hrep
  have hbud := inv.budget
  refine ⟨treeAt fl h.length F F.length 0, h1, s.pos, ?_, ⟨hrep, hnd⟩, hroot,
    by rw [hsize]; exact_mod_cast (by omega : F.length ≤ M), ?_, ?_, ?_, ?_⟩
  · unfold CreateRandomTree
    rw [if_neg (by omega), hfind]
    dsimp only
    rw [GetFunctionByID_nat fl (lt_of_lt_of_le hc0 hwf.1)]
    dsimp only
    rw [Int.toNat_ofNat, eloop]
    dsimp only
    rw [hsize] at eS ⊢
    rw [inv.pwi, eS]
    dsimp only
    rw [inv.used]
  · rw [← hrt]; exact hwt r hr
  · intro x hx
    have hxn : x ∉ (treeAt fl h.length F F.length 0).addrs := by
      intro hc
      have := (treeAt fl h.length F F.length 0).levelOrder_perm.symm.subset hc
      rw [hlo, List.mem_range'_1] at this
      omega
    rw [hframe x hxn, inv.heap, List.getElem?_append_left hx]
  · rw [hlen, inv.heap, List.length_append, List.length_map, hsize]
  · intro y hy
    have := (treeAt fl h.length F F.length 0).levelOrder_perm.symm.subset hy
    rw [hlo, List.mem_range'_1] at this
    exact this.1

/-- `CreateRandomTree` under its leaf assumption: it returns, the returned pointer
is the first fresh cell, and the heap afterwards holds below it a proper tree of
fresh cells that is well-formed for the registry and within the budget;
`nodes_used` is the number of its nodes.  The old cells are untouched. -/
theorem CreateRandomTree_spec {fl : GPFunctionLookup} (hwf : fl.WF) {rt : Int}
    (hleaf : LeafContract fl rt) {max_nodes : Int} (hmax : 1 ≤ max_nodes) (rnd : Nat → Nat)
    (pos : Nat) (h : Heap) :
    ∃ (t : Subtree) (h1 : Heap) (pos1 : Nat),
      CreateRandomTree fl rt max_nodes rnd pos h = some (some h.length, t.size, h1, pos1) ∧
      IsTree h1 none t ∧ t.root = some h.length ∧ (t.size : Int) ≤ max_nodes ∧
      WellTyped fl rt t ∧ (∀ x : Nat, x < h.length → h1[x]? = h[x]?) ∧
      h1.length = h.length + t.size := by
  obtain ⟨t, h1, pos1, e, a1, a2, a3, a4, a5, a6, _⟩ :=
    CreateRandomTree_fresh hwf hleaf hmax rnd pos h
  exact ⟨t, h1, pos1, e, a1, a2, a3, a4, a5, a6⟩

end GP

namespace GP

/-- A closed set of types with leaves gives the leaf assumption. -/
theorem LeafClosed.contract {fl : GPFunctionLookup} {rt : Int} {S : List Int}
    (h : LeafClosed fl rt S) : LeafContract fl rt := by
  obtain ⟨h1, h2, h3⟩ := h
  intro ty hr
  refine h3 ty ?_
  induction hr with
  | root => exact h1
  | param _ hd hj ih => exact h2 _ hd ih _ hj

/-- A well-formed tree has children in exactly the slots of the parameters. -/
theorem WellTyped.arityOK {fl : GPFunctionLookup} : ∀ (t : Subtree) (ty : Int),
    WellTyped fl ty t → ArityOK fl t
  | .null, _, h => absurd h id
  | .node a f c0 c1 c2, ty, hwt => by
    unfold WellTyped at hwt
    unfold ArityOK
    cases hd : fl.GetFunctionByID f with
    | none => rw [hd] at hwt; exact absurd hwt id
    | some d =>
      rw [hd] at hwt
      obtain ⟨h0, _, _, h3, w0, w1, w2⟩ := hwt
      have hne : f ≠ NULLFUNC := by unfold NULLFUNC; omega
      have har : arityOf fl f = some d.m_nparams := by
        unfold arityOf
        rw [if_neg hne, hd]; rfl
      rw [har]
      have kid : ∀ (j : Nat) (c : Subtree),
          (if j < d.m_nparams then WellTyped fl (d.paramType j) c else c = .null) →
          (∀ ty, WellTyped fl ty c → ArityOK fl c) →
          c.isNode = decide (j < d.m_nparams) ∧ ArityOK fl c := by
        intro j c hc ihc
        by_cases hj : j < d.m_nparams
        · rw [if_pos hj] at hc
          rw [decide_eq_true hj]
          refine ⟨?_, ihc _ hc⟩
          cases c with
          | null => exact absurd hc id
          | node _ _ _ _ _ => rfl
        · rw [if_neg hj] at hc
          rw [decide_eq_false hj, hc]
          exact ⟨rfl, trivial⟩
      obtain ⟨n0, a0⟩ := kid 0 c0 w0 (WellTyped.arityOK c0)
      obtain ⟨n1, a1⟩ := kid 1 c1 w1 (WellTyped.arityOK c1)
      obtain ⟨n2, a2⟩ := kid 2 c2 w2 (WellTyped.arityOK c2)
      exact ⟨⟨h3, n0, n1, n2⟩, a0, a1, a2⟩

/-- C1: for every registry (within the bounds of its arrays) in which every return
type that can be reached from `return_type` has a function without parameters,
every `max_nodes ≥ 1`, every sequence `rnd` of random draws and every heap,
`CreateRandomTree` returns a pointer to a node; the number of nodes below it,
as `CountSubtree` counts them, is at most `max_nodes`, and it is the value left in
`nodes_used`. -/
theorem CreateRandomTree_within_budget (fl : GPFunctionLookup) (return_type max_nodes : Int)
    (rnd : Nat → Nat) (pos : Nat) (h : Heap) (hwf : fl.WF)
    (hleaf : LeafContract fl return_type) (hmax : 1 ≤ max_nodes) :
    ∃ (a nodes_used : Nat) (h1 : Heap) (pos1 : Nat),
      CreateRandomTree fl return_type max_nodes rnd pos h = some (some a, nodes_used, h1, pos1) ∧
      CountSubtree h1 a = some nodes_used ∧ (nodes_used : Int) ≤ max_nodes := by
  obtain ⟨t, h1, pos1, e, ht, hroot, hsz, _, _, _⟩ :=
    CreateRandomTree_spec hwf hleaf hmax rnd pos h
  exact ⟨h.length, t.size, h1, pos1, e, CountSubtree_of_isTree ht hroot, hsz⟩

theorem CreateRandomTree_within_budget_witness :
    ∃ (a nodes_used : Nat) (h1 : Heap) (pos1 : Nat),
      CreateRandomTree exampleRegistry 1 3 (fun n => n) 0 [] =
        some (some a, nodes_used, h1, pos1) ∧
      CountSubtree h1 a = some nodes_used ∧ (nodes_used : Int) ≤ 3 :=
  CreateRandomTree_within_budget exampleRegistry 1 3 (fun n => n) 0 [] (by decide)
    (LeafClosed.contract (S := [1]) (by decide)) (by decide)

/-- C2: under the same assumptions the tree that `CreateRandomTree` returns is
well-formed: the heap holds below the returned pointer a proper tree `t` (child
and parent links agree, the root has no parent) with `WellTyped fl return_type t`,
that is, the function of the root is registered and returns `return_type`, every
node has a child in exactly the parameter slots `0 .. m_nparams - 1` of its
function, and the function of the child in slot `j` returns the type
`m_param_types[ j ]` of the parent's function. -/
theorem CreateRandomTree_well_formed (fl : GPFunctionLookup) (return_type max_nodes : Int)
    (rnd : Nat → Nat) (pos : Nat) (h : Heap) (hwf : fl.WF)
    (hleaf : LeafContract fl return_type) (hmax : 1 ≤ max_nodes) :
    ∃ (a nodes_used : Nat) (h1 : Heap) (pos1 : Nat) (t : Subtree),
      CreateRandomTree fl return_type max_nodes rnd pos h = some (some a, nodes_used, h1, pos1) ∧
      IsTree h1 none t ∧ t.root = some a ∧ WellTyped fl return_type t ∧ ArityOK fl t := by
  obtain ⟨t, h1, pos1, e, ht, hroot, _, hwt, _, _⟩ :=
    CreateRandomTree_spec hwf hleaf hmax rnd pos h
  exact ⟨h.length, t.size, h1, pos1, t, e, ht, hroot, hwt, hwt.arityOK⟩

theorem CreateRandomTree_well_formed_witness :
    ∃ (a nodes_used : Nat) (h1 : Heap) (pos1 : Nat) (t : Subtree),
      CreateRandomTree exampleRegistry7 1 7 (fun n => 5 * n + 3) 0 exHeap =
        some (some a, nodes_used, h1, pos1) ∧
      IsTree h1 none t ∧ t.root = some a ∧ WellTyped exampleRegistry7 1 t ∧
      ArityOK exampleRegistry7 t :=
  CreateRandomTree_well_formed exampleRegistry7 1 7 (fun n => 5 * n + 3) 0 exHeap (by decide)
    (LeafClosed.contract (S := [1]) (by decide)) (by decide)

end GP

namespace GP

theorem Subtree.eq_null_of_size {t : Subtree} (h : t.size = 0) : t = .null := by
  cases t with
  | null => rfl
  | node _ _ _ _ _ => simp [Subtree.size] at h

theorem WellTyped.size_pos {fl : GPFunctionLookup} {ty : Int} {t : Subtree}
    (h : WellTyped fl ty t) : 0 < t.size := by
  cases t with
  | null => exact absurd h id
  | node _ _ _ _ _ => simp [Subtree.size]

/-- The int trees over `Add`, `Two`, `Three`: a node is `Two` or `Three` without
children, or `Add` with two int trees. -/
theorem WellTyped_example {a : Nat} {f : Int} {c0 c1 c2 : Subtree}
    (h : WellTyped exampleRegistry 1 (.node a f c0 c1 c2)) :
    ((f = 3 ∨ f = 5) ∧ c0 = .null ∧ c1 = .null ∧ c2 = .null) ∨
      (f = 1 ∧ WellTyped exampleRegistry 1 c0 ∧ WellTyped exampleRegistry 1 c1 ∧ c2 = .null) := by
  unfold WellTyped at h
  cases hd : exampleRegistry.GetFunctionByID f with
  | none => rw [hd] at h; exact absurd h id
  | some d =>
    rw [hd] at h
    obtain ⟨h0, hlt, hret, _, w0, w1, w2⟩ := h
    have hn : (exampleRegistry.m_nFuncs : Int) = 6 := by decide
    rw [hn] at hlt
    interval_cases f
    · have : exampleRegistry.GetFunctionByID 0 = some ⟨2, 2, [1, 1], 1, "Add"⟩ := by decide
      rw [this] at hd; cases hd; simp at hret
    · have : exampleRegistry.GetFunctionByID 1 = some ⟨2, 1, [1, 1], -1, "Add"⟩ := by decide
      rw [this] at hd; cases hd
      exact Or.inr ⟨rfl, w0, w1, w2⟩
    · have : exampleRegistry.GetFunctionByID 2 = some ⟨0, 2, [], 3, "Two"⟩ := by decide
      rw [this] at hd; cases hd; simp at hret
    · have : exampleRegistry.GetFunctionByID 3 = some ⟨0, 1, [], -1, "Two"⟩ := by decide
      rw [this] at hd; cases hd
      exact Or.inl ⟨Or.inl rfl, w0, w1, w2⟩
    · have : exampleRegistry.GetFunctionByID 4 = some ⟨0, 2, [], 5, "Three"⟩ := by decide
      rw [this] at hd; cases hd; simp at hret
    · have : exampleRegistry.GetFunctionByID 5 = some ⟨0, 1, [], -1, "Three"⟩ := by decide
      rw [this] at hd; cases hd
      exact Or.inl ⟨Or.inr rfl, w0, w1, w2⟩

/-- An int tree over `Add`, `Two`, `Three` with one node is `Two` or `Three`. -/
theorem WellTyped_example_leaf {t : Subtree} (h : WellTyped exampleRegistry 1 t)
    (hs : t.size = 1) :
    ∃ b f, (f = 3 ∨ f = 5) ∧ t = .node b f .null .null .null := by
  cases t with
  | null => exact absurd h id
  | node b f c0 c1 c2 =>
    rcases WellTyped_example h with ⟨hf, e0, e1, e2⟩ | ⟨_, w0, _, _⟩
    · exact ⟨b, f, hf, by rw [e0, e1, e2]⟩
    · have := w0.size_pos
      simp only [Subtree.size] at hs
      omega

/-- C3: with the registry that holds `Add( int, int ) -> int` (id 1), `Two` (id 3)
and `Three` (id 5), each with its delayed twin (ids 0, 2, 4), for every sequence
of random draws and every heap `CreateRandomTree( int, max_nodes = 3 )` returns a
tree that is a single node `Two` or `Three`, or an `Add` node whose two children
are single nodes `Two` or `Three`; it has at most 3 nodes, as `CountSubtree`
counts them. -/
theorem CreateRandomTree_example (rnd : Nat → Nat) (pos : Nat) (h : Heap) :
    ∃ (a nodes_used : Nat) (h1 : Heap) (pos1 : Nat) (t : Subtree),
      CreateRandomTree exampleRegistry 1 3 rnd pos h = some (some a, nodes_used, h1, pos1) ∧
      IsTree h1 none t ∧ t.root = some a ∧ CountSubtree h1 a = some t.size ∧
      nodes_used = t.size ∧ t.size ≤ 3 ∧
      ((∃ f, (f = 3 ∨ f = 5) ∧ t = .node a f .null .null .null) ∨
        (∃ b c f1 f2, (f1 = 3 ∨ f1 = 5) ∧ (f2 = 3 ∨ f2 = 5) ∧
          t = .node a 1 (.node b f1 .null .null .null) (.node c f2 .null .null .null)
            .null)) := by
  obtain ⟨t, h1, pos1, e, ht, hroot, hsz, hwt, _, _⟩ :=
    @CreateRandomTree_spec exampleRegistry (by decide) 1
      (LeafClosed.contract (S := [1]) (by decide)) 3 (by decide) rnd pos h
  have hsz3 : t.size ≤ 3 := by exact_mod_cast hsz
  refine ⟨h.length, t.size, h1, pos1, t, e, ht, hroot, CountSubtree_of_isTree ht hroot, rfl,
    hsz3, ?_⟩
  cases t with
  | null => exact absurd hwt id
  | node a f c0 c1 c2 =>
    simp only [Subtree.root, Option.some.injEq] at hroot
    subst hroot
    rcases WellTyped_example hwt with ⟨hf, e0, e1, e2⟩ | ⟨hf, w0, w1, e2⟩
    · exact Or.inl ⟨f, hf, by rw [e0, e1, e2]⟩
    · have p0 := w0.size_pos
      have p1 := w1.size_pos
      simp only [Subtree.size] at hsz3
      obtain ⟨b, f1, hf1, eb⟩ := WellTyped_example_leaf w0 (by omega)
      obtain ⟨c, f2, hf2, ec⟩ := WellTyped_example_leaf w1 (by omega)
      exact Or.inr ⟨b, c, f1, f2, hf1, hf2, by rw [hf, eb, ec, e2]⟩

end GP

namespace GP

theorem RegisterFunction_funcs (fl : GPFunctionLookup) (name : String) (R L : Int)
    (ps : List Int) :
    (fl.RegisterFunction name R L ps).1.m_functions =
      fl.m_functions ++ [⟨ps.length, L, ps, (fl.m_nFuncs : Int) + 1, storedName name⟩,
        ⟨ps.length, R, ps, -1, storedName name⟩] := rfl

theorem RegisterFunction_id (fl : GPFunctionLookup) (name : String) (R L : Int)
    (ps : List Int) : (fl.RegisterFunction name R L ps).2 = (fl.m_nFuncs : Int) + 1 := rfl

/-- A sequence of registrations appends its pairs of descriptors behind the
descriptors that are there. -/
theorem registerAll_spec (lazyOf : Int → Int) : ∀ (regs : List Registration)
    (fl : GPFunctionLookup),
    (registerAll lazyOf fl regs).1.m_nFuncs = fl.m_nFuncs + 2 * regs.length ∧
    (registerAll lazyOf fl regs).2.length = regs.length ∧
    (∀ i : Nat, i < fl.m_nFuncs →
      (registerAll lazyOf fl regs).1.m_functions[i]? = fl.m_functions[i]?) ∧
    ∀ (k : Nat) (r : Registration), regs[k]? = some r →
      (registerAll lazyOf fl regs).2[k]? = some ((fl.m_nFuncs + 2 * k + 1 : Nat) : Int) ∧
      (registerAll lazyOf fl regs).1.m_functions[fl.m_nFuncs + 2 * k]? =
        some ⟨r.param_types.length, lazyOf r.return_type, r.param_types,
          ((fl.m_nFuncs + 2 * k + 1 : Nat) : Int), storedName r.name⟩ ∧
      (registerAll lazyOf fl regs).1.m_functions[fl.m_nFuncs + 2 * k + 1]? =
        some ⟨r.param_types.length, r.return_type, r.param_types, -1, storedName r.name⟩ := by
  intro regs
  induction regs with
  | nil =>
    intro fl
    refine ⟨rfl, rfl, fun _ _ => rfl, ?_⟩
    intro k r hk
    simp at hk
  | cons r0 rest ih =>
    intro fl
    obtain ⟨i1, i2, i3, i4⟩ := ih (fl.RegisterFunction r0.name r0.return_type
      (lazyOf r0.return_type) r0.param_types).1
    have hn : (fl.RegisterFunction r0.name r0.return_type (lazyOf r0.return_type)
        r0.param_types).1.m_nFuncs = fl.m_nFuncs + 2 := by
      simp [GPFunctionLookup.m_nFuncs, RegisterFunction_funcs]
    rw [hn] at i1 i3 i4
    have hlen : fl.m_functions.length = fl.m_nFuncs := rfl
    refine ⟨?_, ?_, ?_, ?_⟩
    · show (registerAll lazyOf _ rest).1.m_nFuncs = _
      rw [i1, List.length_cons]; omega
    · show (_ :: (registerAll lazyOf _ rest).2).length = _
      rw [List.length_cons, i2, List.length_cons]
    · intro i hi
      show (registerAll lazyOf _ rest).1.m_functions[i]? = _
      rw [i3 i (by omega), RegisterFunction_funcs, List.getElem?_append_left (by omega)]
    · intro k r hk
      cases k with
      | zero =>
        simp only [List.getElem?_cons_zero, Option.some.injEq] at hk
        subst hk
        refine ⟨?_, ?_, ?_⟩
        · show (_ :: (registerAll lazyOf _ rest).2)[0]? = _
          rw [List.getElem?_cons_zero, RegisterFunction_id]
          simp
        · show (registerAll lazyOf _ rest).1.m_functions[fl.m_nFuncs + 2 * 0]? = _
          rw [i3 _ (by omega), RegisterFunction_funcs,
            List.getElem?_append_right (by omega)]
          simp [hlen]
        · show (registerAll lazyOf _ rest).1.m_functions[fl.m_nFuncs + 2 * 0 + 1]? = _
          rw [i3 _ (by omega), RegisterFunction_funcs,
            List.getElem?_append_right (by omega)]
          simp [hlen]
      | succ k =>
        rw [List.getElem?_cons_succ] at hk
        obtain ⟨j1, j2, j3⟩ := i4 k r hk
        have e1 : fl.m_nFuncs + 2 + 2 * k = fl.m_nFuncs + 2 * (k + 1) := by omega
        rw [e1] at j1 j2 j3
        exact ⟨by
          show (_ :: (registerAll lazyOf _ rest).2)[k + 1]? = _
          rw [List.getElem?_cons_succ]; exact j1, j2, j3⟩

/-- C19: the pairing invariant of the registry.  After `n` registrations on an
empty registry, `n` at most `GP_MAX_FUNCTIONS`, the registry holds `2 * n`
descriptors; the registration `k` (counted from 0) returned the id `2 * k + 1`;
descriptor `2 * k` is the delayed entry with the original id `2 * k + 1`,
descriptor `2 * k + 1` is the entry of the function itself with the original id
`NULLFUNC`; both have the name of the registration as `strncpy` stored it, the
number of parameters and the parameter types of the registration, the second
has its return type `R` and the first the type id `lazyOf R` of
`GPDelayedEvaluation< R >`. -/
theorem RegisterFunction_pairing (lazyOf : Int → Int) (regs : List Registration)
    (hcap : regs.length ≤ GP_MAX_FUNCTIONS) :
    (registerAll lazyOf GPFunctionLookup.empty regs).1.m_nFuncs = 2 * regs.length ∧
    (registerAll lazyOf GPFunctionLookup.empty regs).2.length = regs.length ∧
    ∀ (k : Nat) (r : Registration), regs[k]? = some r →
      (registerAll lazyOf GPFunctionLookup.empty regs).2[k]? = some (2 * (k : Int) + 1) ∧
      (registerAll lazyOf GPFunctionLookup.empty regs).1.GetFunctionByID (2 * (k : Int)) =
        some ⟨r.param_types.length, lazyOf r.return_type, r.param_types,
          2 * (k : Int) + 1, storedName r.name⟩ ∧
      (registerAll lazyOf GPFunctionLookup.empty regs).1.GetFunctionByID
          (2 * (k : Int) + 1) =
        some ⟨r.param_types.length, r.return_type, r.param_types, NULLFUNC, storedName r.name⟩ := by
  obtain ⟨h1, h2, _, h4⟩ := registerAll_spec lazyOf regs GPFunctionLookup.empty
  have h0 : GPFunctionLookup.empty.m_nFuncs = 0 := rfl
  rw [h0, Nat.zero_add] at h1
  refine ⟨h1, h2, ?_⟩
  intro k r hk
  obtain ⟨j1, j2, j3⟩ := h4 k r hk
  rw [h0, Nat.zero_add] at j1 j2 j3
  have hklt : k < regs.length := by
    by_contra hc
    rw [List.getElem?_eq_none (by omega)] at hk
    cases hk
  have hcap2 : regs.length ≤ 30 := hcap
  have c1 : (2 * (k : Int)) = ((2 * k : Nat) : Int) := by push_cast; rfl
  have c2 : (2 * (k : Int) + 1) = ((2 * k + 1 : Nat) : Int) := by push_cast; rfl
  have g : ∀ (c : Nat) (d : GPFunctionDesc),
      (registerAll lazyOf GPFunctionLookup.empty regs).1.m_functions[c]? = some d →
      c < 60 →
      (registerAll lazyOf GPFunctionLookup.empty regs).1.GetFunctionByID (c : Int) =
        some d := by
    intro c d hc hlt
    rw [GetFunctionByID_nat _ (by unfold GP_MAX_FUNCTIONS; omega)]
    unfold GPFunctionLookup.descAt
    rw [List.getD_eq_getElem?_getD, hc]
    rfl
  refine ⟨by rw [j1, ← c2], ?_, ?_⟩
  · rw [c1, g _ _ j2 (by omega), ← c2, ← c1]
  · rw [c2, g _ _ j3 (by omega)]
    rfl

theorem RegisterFunction_pairing_witness :
    (registerAll (fun R => R + 1) GPFunctionLookup.empty exampleRegistrations).1.m_nFuncs =
      2 * exampleRegistrations.length ∧
    (registerAll (fun R => R + 1) GPFunctionLookup.empty exampleRegistrations).2.length =
      exampleRegistrations.length ∧
    ∀ (k : Nat) (r : Registration), exampleRegistrations[k]? = some r →
      (registerAll (fun R => R + 1) GPFunctionLookup.empty exampleRegistrations).2[k]? =
        some (2 * (k : Int) + 1) ∧
      (registerAll (fun R => R + 1) GPFunctionLookup.empty
          exampleRegistrations).1.GetFunctionByID (2 * (k : Int)) =
        some ⟨r.param_types.length, (fun R => R + 1) r.return_type, r.param_types,
          2 * (k : Int) + 1, storedName r.name⟩ ∧
      (registerAll (fun R => R + 1) GPFunctionLookup.empty
          exampleRegistrations).1.GetFunctionByID (2 * (k : Int) + 1) =
        some ⟨r.param_types.length, r.return_type, r.param_types, NULLFUNC, storedName r.name⟩ :=
  RegisterFunction_pairing (fun R => R + 1) exampleRegistrations (by decide)

/-- C20: `GetFunctionIDByName` on the registry with `Add`, `Two` and `Three`, where
`RegisterFunction` returned the ids 1, 3 and 5.  With `delayed_desired = false`
the call returns the ids 0, 2 and 4 of the delayed descriptors, not the ids that
`RegisterFunction` returned; with `delayed_desired = true` it returns the same
ids 0, 2 and 4; for a name that was never registered it returns `NULLFUNC` in
both cases. -/
theorem GetFunctionIDByName_ignores_kind :
    (registerAll (fun R => R + 1) GPFunctionLookup.empty exampleRegistrations).2 = [1, 3, 5] ∧
    (registerAll (fun R => R + 1) GPFunctionLookup.empty exampleRegistrations).1 =
      exampleRegistry ∧
    exampleRegistry.GetFunctionIDByName "Add" false = 0 ∧
    exampleRegistry.GetFunctionIDByName "Two" false = 2 ∧
    exampleRegistry.GetFunctionIDByName "Three" false = 4 ∧
    exampleRegistry.GetFunctionIDByName "Add" true = 0 ∧
    exampleRegistry.GetFunctionIDByName "Two" true = 2 ∧
    exampleRegistry.GetFunctionIDByName "Three" true = 4 ∧
    (exampleRegistry.GetFunctionByID 0).map (fun d => d.m_original_function_id) = some 1 ∧
    (exampleRegistry.GetFunctionByID 1).map (fun d => d.m_original_function_id) =
      some NULLFUNC ∧
    exampleRegistry.GetFunctionIDByName "Mul" false = NULLFUNC ∧
    exampleRegistry.GetFunctionIDByName "Mul" true = NULLFUNC := by
  decide

end GP

namespace GP

theorem Live.getElem? {it : GPConstSubtreeIter} {L : List Nat} (hl : Live it L) {i : Nat}
    (hi : i < L.length) : it.m_flattened[i]? = some (some L[i]) := by
  obtain ⟨_, junk, hj⟩ := hl
  rw [hj, List.getElem?_append_left (by simpa using hi), List.getElem?_map,
    List.getElem?_eq_getElem hi]
  rfl

theorem Live.getNode {it : GPConstSubtreeIter} {L : List Nat} (hl : Live it L) {i : Nat}
    (hi : i < L.length) : it.GetNode (i : Int) = some L[i] := by
  unfold GPConstSubtreeIter.GetNode
  rw [if_pos (by omega), Int.toNat_ofNat, hl.getElem? hi]
  rfl

theorem swapRemove_length {L : List Nat} {i : Nat} : (swapRemove L i).length = L.length - 1 := by
  simp [swapRemove]

theorem swapRemove_perm : ∀ {L : List Nat} {i : Nat}, i < L.length →
    (swapRemove L i).Perm (L.eraseIdx i) := by
  intro L
  induction L using List.reverseRecOn with
  | nil => intro i hi; simp at hi
  | append_singleton A x _ =>
    intro i hi
    have hlast : (A ++ [x]).getD ((A ++ [x]).length - 1) 0 = x := by simp
    unfold swapRemove
    rw [hlast]
    by_cases hiA : i < A.length
    · rw [List.set_append_left _ _ hiA, List.dropLast_concat, List.eraseIdx_append_of_lt_length hiA]
      -- A.set i x ~ A.eraseIdx i ++ [x]
      have : (A.set i x).Perm (x :: A.eraseIdx i) := by
        rw [List.set_eq_take_append_cons_drop, if_pos hiA]
        have h2 : A.eraseIdx i = A.take i ++ A.drop (i + 1) := List.eraseIdx_eq_take_drop_succ _ _
        rw [h2]
        exact List.perm_middle
      exact this.trans (List.perm_append_singleton _ _).symm
    · have hiA2 : i = A.length := by
        rw [List.length_append, List.length_singleton] at hi; omega
      subst hiA2
      rw [List.set_append_right _ _ (le_refl _), Nat.sub_self, List.set_cons_zero,
        List.dropLast_concat, List.eraseIdx_append_of_length_le (le_refl _), Nat.sub_self]
      simp

theorem swapRemove_head {L : List Nat} {i : Nat} (h0 : 0 < i) (hi : i < L.length) :
    (swapRemove L i)[0]? = L[0]? := by
  unfold swapRemove
  rw [List.getElem?_dropLast, if_pos (by simp; omega), List.getElem?_set_ne (by omega)]

theorem IgnoreNode_spec {it : GPConstSubtreeIter} {L : List Nat} (hl : Live it L) {i : Nat}
    (hi : i < L.length) :
    ∃ it1, it.IgnoreNode (i : Int) = some it1 ∧ Live it1 (swapRemove L i) := by
  have hl0 := hl
  obtain ⟨hc, junk, hj⟩ := hl
  have hlast : L.length - 1 < L.length := by omega
  have hcnt : (it.m_count - 1).toNat = L.length - 1 := by rw [hc]; omega
  have hM : L.set i (L.getD (L.length - 1) 0) ≠ [] := by
    intro h
    have := congrArg List.length h
    rw [List.length_set, List.length_nil] at this
    omega
  refine ⟨⟨it.m_flattened.set i (some (L.getD (L.length - 1) 0)), it.m_count - 1⟩, ?_, ?_, ?_⟩
  · unfold GPConstSubtreeIter.IgnoreNode
    rw [if_pos ⟨by rw [hc]; exact_mod_cast hi, by omega⟩]
    dsimp only
    rw [hcnt, hl0.getElem? hlast, Int.toNat_ofNat]
    dsimp only
    rw [if_pos (by rw [hj]; simp; omega), List.getD_eq_getElem _ _ hlast]
  · show it.m_count - 1 = ((swapRemove L i).length : Int)
    rw [swapRemove_length, hc]; omega
  · refine ⟨[some ((L.set i (L.getD (L.length - 1) 0)).getLast hM)] ++ junk, ?_⟩
    show it.m_flattened.set i (some (L.getD (L.length - 1) 0)) = _
    rw [hj, List.set_append_left _ _ (by simpa using hi), ← List.append_assoc]
    congr 1
    unfold swapRemove
    rw [← List.map_set]
    conv_lhs => rw [← List.dropLast_concat_getLast hM]
    simp

/-- The nodes of a list that are not in `S`. -/
theorem filter_not_mem_nil (L : List Nat) : L.filter (fun y => decide (y ∉ ([] : List Nat))) = L := by
  simp

theorem eraseIdx_perm_filter {L : List Nat} (hn : L.Nodup) {i : Nat} (hi : i < L.length) :
    L.eraseIdx i = L.filter (fun y => decide (y ∉ [L[i]])) := by
  rw [← hn.erase_getElem i hi, hn.erase_eq_filter]
  apply List.filter_congr
  intro y _
  by_cases hy : y = L[i] <;> simp [hy]

/-- `IgnoreNode( node )`: the node is taken out if the iterator holds it. -/
theorem ignoreNodeLoop_spec {it : GPConstSubtreeIter} {L : List Nat} (hl : Live it L)
    (hn : L.Nodup) (x : Nat) :
    ∀ (fuel i : Nat), (∀ j, j < i → L[j]? ≠ some x) → i ≤ L.length → L.length - i < fuel →
      ∃ it1 L1 b, ignoreNodeLoop it x fuel i = some (it1, b) ∧ Live it1 L1 ∧
        L1.Perm (L.filter (fun y => decide (y ∉ [x]))) := by
  intro fuel
  induction fuel with
  | zero => intro i _ _ hf; omega
  | succ fuel ih =>
    intro i hpre hile hf
    by_cases hi : i < L.length
    · simp only [ignoreNodeLoop]
      rw [if_pos (by rw [hl.1]; exact_mod_cast hi), hl.getElem? hi]
      dsimp only
      by_cases hx : L[i] = x
      · rw [if_pos (by rw [hx])]
        obtain ⟨it1, e1, l1⟩ := IgnoreNode_spec hl hi
        rw [e1]
        refine ⟨it1, swapRemove L i, true, rfl, l1, ?_⟩
        rw [← hx, ← eraseIdx_perm_filter hn hi]
        exact swapRemove_perm hi
      · rw [if_neg (by simpa using hx)]
        refine ih (i + 1) ?_ hi (by omega)
        intro j hj
        by_cases hji : j < i
        · exact hpre j hji
        · have : j = i := by omega
          subst this
          rw [List.getElem?_eq_getElem hi]
          simpa using hx
    · simp only [ignoreNodeLoop]
      rw [if_neg (by rw [hl.1]; exact_mod_cast hi)]
      refine ⟨it, L, false, rfl, hl, ?_⟩
      have : L.filter (fun y => decide (y ∉ [x])) = L := by
        rw [List.filter_eq_self]
        intro a ha
        obtain ⟨j, hj, e⟩ := List.mem_iff_getElem.mp ha
        have := hpre j (by omega)
        rw [List.getElem?_eq_getElem hj, e] at this
        simpa using this
      rw [this]

theorem IgnoreNodePtr_spec {it : GPConstSubtreeIter} {L : List Nat} (hl : Live it L)
    (hn : L.Nodup) (x : Nat) :
    ∃ it1 L1 b, it.IgnoreNodePtr x = some (it1, b) ∧ Live it1 L1 ∧
      L1.Perm (L.filter (fun y => decide (y ∉ [x]))) := by
  unfold GPConstSubtreeIter.IgnoreNodePtr
  exact ignoreNodeLoop_spec hl hn x _ 0 (fun j hj => absurd hj (Nat.not_lt_zero j))
    (Nat.zero_le _) (by rw [hl.1]; simp)

/-- `Random( true )` on an iterator that holds a node: an index of a node that it
holds, and not index 0 when it holds more. -/
theorem Random_spec {it : GPConstSubtreeIter} {L : List Nat} (hl : Live it L) (h0 : L ≠ [])
    (rnd : Nat → Nat) (pos : Nat) :
    ∃ (i pos1 : Nat), it.Random true rnd pos = ((i : Int), pos1) ∧ i < L.length ∧
      (2 ≤ L.length → 1 ≤ i ∧ i = 1 + rnd pos % (L.length - 1) ∧ pos1 = pos + 1) ∧
      (L.length = 1 → i = 0 ∧ pos1 = pos) := by
  have hlen : 0 < L.length := List.length_pos.mpr h0
  unfold GPConstSubtreeIter.Random
  rw [hl.1]
  by_cases h1 : L.length = 1
  · refine ⟨0, pos, ?_, by omega, fun h => by omega, fun _ => ⟨rfl, rfl⟩⟩
    simp [h1]
  · have h2 : 2 ≤ L.length := by omega
    have hm := Nat.mod_lt (rnd pos) (by omega : 0 < L.length - 1)
    refine ⟨1 + rnd pos % (L.length - 1), pos + 1, ?_, ?_,
      fun _ => ⟨Nat.le_add_right 1 _, rfl, rfl⟩, fun h => absurd h h1⟩
    · have e : ((L.length : Int) - 1) = ((L.length - 1 : Nat) : Int) := by omega
      have hmod : Int.tmod (rnd pos : Int) ((L.length : Int) - 1) =
          ((rnd pos % (L.length - 1) : Nat) : Int) := by
        rw [e, ← Int.ofNat_tmod]
      rw [if_neg (by omega), if_neg (by omega)]
      simp only [if_true]
      rw [hmod]
      simp only [Nat.cast_add, Nat.cast_one]
    · generalize rnd pos % (L.length - 1) = m at hm
      omega

end GP

namespace GP

theorem filter_not_mem_congr (L S S1 : List Nat) (h : ∀ y, y ∈ S ↔ y ∈ S1) :
    L.filter (fun y => decide (y ∉ S)) = L.filter (fun y => decide (y ∉ S1)) := by
  apply List.filter_congr
  intro y _
  simp [h y]

theorem perm_filter_step {L L1 L2 S1 S2 : List Nat}
    (h1 : L1.Perm (L.filter (fun y => decide (y ∉ S1))))
    (h2 : L2.Perm (L1.filter (fun y => decide (y ∉ S2)))) :
    L2.Perm (L.filter (fun y => decide (y ∉ S1 ++ S2))) := by
  refine h2.trans ((h1.filter _).trans ?_)
  rw [List.filter_filter]
  apply List.Perm.of_eq
  apply List.filter_congr
  intro y _
  simp [not_or, Bool.and_comm]

theorem nodup_of_perm_filter {L L1 : List Nat} {p : Nat → Bool} (hn : L.Nodup)
    (h : L1.Perm (L.filter p)) : L1.Nodup :=
  h.nodup_iff.mpr (hn.filter _)

/-- The constructor of the iterator on a tree object that owns a tree: the
iterator holds the nodes of the tree in breadth-first order. -/
theorem ofTree_spec {h : Heap} {T : GPTree} {t : Subtree} {a : Nat} (hinv : TreeInv h T t)
    (hroot : T.m_root = some a) :
    GPConstSubtreeIter.ofTree h T = some ⟨t.levelOrder.map some, T.Count⟩ ∧
      Live ⟨t.levelOrder.map some, T.Count⟩ t.levelOrder := by
  obtain ⟨ht, htr, hc, _⟩ := hinv
  have hfl := FlattenSubtree_spec ht.1.toRepC ht.2 (htr.trans hroot)
  refine ⟨?_, ?_, [], by simp⟩
  · unfold GPConstSubtreeIter.ofTree GPTree.Flatten
    rw [hroot]
    dsimp only
    rw [hfl]
  · show T.m_count = _
    rw [hc, t.length_levelOrder]

/-- `IgnoreSubtree( node )` takes the nodes of the subtree out of the iterator. -/
theorem IgnoreSubtreeAux_spec {h : Heap} : ∀ (fuel : Nat) (u : Subtree) (x : Nat)
    (it : GPConstSubtreeIter) (L : List Nat), RepC h u → u.root = some x → u.height ≤ fuel →
    Live it L → L.Nodup →
    ∃ it1 L1 b, IgnoreSubtreeAux h fuel it x = some (it1, b) ∧ Live it1 L1 ∧
      L1.Perm (L.filter (fun y => decide (y ∉ u.addrs))) := by
  intro fuel
  induction fuel with
  | zero =>
    intro u x it L _ hroot hh
    cases u with
    | null => simp [Subtree.root] at hroot
    | node _ _ _ _ _ => simp [Subtree.height] at hh
  | succ fuel ih =>
    intro u x it L hr hroot hh hl hn
    cases u with
    | null => simp [Subtree.root] at hroot
    | node a f c0 c1 c2 =>
      simp only [Subtree.root, Option.some.injEq] at hroot
      subst hroot
      obtain ⟨nd, hnd, _, hp0, hp1, hp2⟩ := RepC_cell hr
      obtain ⟨_, r0, r1, r2⟩ := hr
      simp only [Subtree.height] at hh
      have kid : ∀ (c : Subtree) (it : GPConstSubtreeIter) (L : List Nat), RepC h c →
          c.height ≤ fuel → Live it L → L.Nodup →
          ∃ it1 L1, ignoreParam (IgnoreSubtreeAux h fuel) c.root it = some it1 ∧ Live it1 L1 ∧
            L1.Perm (L.filter (fun y => decide (y ∉ c.addrs))) := by
        intro c it L hc hhc hl hn
        cases c with
        | null =>
          exact ⟨it, L, rfl, hl, by simp [Subtree.addrs]⟩
        | node b g d0 d1 d2 =>
          obtain ⟨it1, L1, bb, e, l1, p1⟩ := ih _ b it L hc rfl hhc hl hn
          refine ⟨it1, L1, ?_, l1, p1⟩
          simp only [ignoreParam, Subtree.root, e]
      obtain ⟨it0, L0, e0, l0, q0⟩ := kid c0 it L r0 (by omega) hl hn
      have n0 := nodup_of_perm_filter hn q0
      obtain ⟨it1, L1, e1, l1, q1⟩ := kid c1 it0 L0 r1 (by omega) l0 n0
      have n1 := nodup_of_perm_filter n0 q1
      obtain ⟨it2, L2, e2, l2, q2⟩ := kid c2 it1 L1 r2 (by omega) l1 n1
      have n2 := nodup_of_perm_filter n1 q2
      obtain ⟨it3, L3, b3, e3, l3, q3⟩ := IgnoreNodePtr_spec l2 n2 a
      refine ⟨it3, L3, b3, ?_, l3, ?_⟩
      · simp only [IgnoreSubtreeAux, hnd, hp0, hp1, hp2, e0, e1, e2, e3]
      · have := perm_filter_step (perm_filter_step (perm_filter_step q0 q1) q2) q3
        rw [filter_not_mem_congr L _ (Subtree.node a f c0 c1 c2).addrs (by
          intro y
          simp only [Subtree.addrs, List.mem_append, List.mem_cons, List.mem_singleton,
            List.not_mem_nil, or_false]
          tauto)] at this
        exact this

theorem IgnoreSubtree_spec {h : Heap} {u : Subtree} {x : Nat} {it : GPConstSubtreeIter}
    {L : List Nat} (hr : RepC h u) (hnu : u.addrs.Nodup) (hroot : u.root = some x)
    (hl : Live it L) (hn : L.Nodup) :
    ∃ it1 L1 b, it.IgnoreSubtree h x = some (it1, b) ∧ Live it1 L1 ∧
      L1.Perm (L.filter (fun y => decide (y ∉ u.addrs))) := by
  refine IgnoreSubtreeAux_spec h.length u x it L hr hroot (u.height_le_size.trans ?_) hl hn
  rw [← u.length_addrs]
  exact length_le_of_nodup_lt hnu (RepC.addr_lt_length hr)

end GP

namespace GP

theorem Reachable.trans {fl : GPFunctionLookup} {a b c : Int} (h1 : Reachable fl a b)
    (h2 : Reachable fl b c) : Reachable fl a c := by
  induction h2 with
  | root => exact h1
  | param _ hd hj ih => exact Reachable.param ih hd hj

theorem LeafContract.of_reachable {fl : GPFunctionLookup} {a b : Int} (h : LeafContract fl a)
    (hr : Reachable fl a b) : LeafContract fl b :=
  fun ty hty => h ty (hr.trans hty)

theorem GetFunctionByID_mem {fl : GPFunctionLookup} {f : Int} {d : GPFunctionDesc}
    (hd : fl.GetFunctionByID f = some d) (h0 : 0 ≤ f) (h1 : f < (fl.m_nFuncs : Int)) :
    d ∈ fl.m_functions := by
  unfold GPFunctionLookup.GetFunctionByID at hd
  split at hd
  · simp only [Option.some.injEq] at hd
    have hlt : f.toNat < fl.m_functions.length := by
      have : f.toNat < fl.m_nFuncs := by omega
      exact this
    rw [← hd, List.getD_eq_getElem _ _ hlt]
    exact List.getElem_mem _
  · exact absurd hd (by simp)

/-- What `WellTyped` says about the root of a tree. -/
theorem WellTyped.node_iff {fl : GPFunctionLookup} {ty : Int} {a : Nat} {f : Int}
    {c0 c1 c2 : Subtree} :
    WellTyped fl ty (.node a f c0 c1 c2) ↔
      ∃ d, fl.GetFunctionByID f = some d ∧ 0 ≤ f ∧ f < (fl.m_nFuncs : Int) ∧
        d.m_return_type = ty ∧ d.m_nparams ≤ 3 ∧
        (if 0 < d.m_nparams then WellTyped fl (d.paramType 0) c0 else c0 = .null) ∧
        (if 1 < d.m_nparams then WellTyped fl (d.paramType 1) c1 else c1 = .null) ∧
        (if 2 < d.m_nparams then WellTyped fl (d.paramType 2) c2 else c2 = .null) := by
  rw [WellTyped]
  cases hd : fl.GetFunctionByID f with
  | none => simp
  | some d => simp

/-- A well-formed tree has one return type only. -/
theorem WellTyped.unique {fl : GPFunctionLookup} {ty ty1 : Int} {t : Subtree}
    (h : WellTyped fl ty t) (h1 : WellTyped fl ty1 t) : ty = ty1 := by
  cases t with
  | null => exact absurd h id
  | node a f c0 c1 c2 =>
    obtain ⟨d, hd, _, _, hr, _⟩ := WellTyped.node_iff.mp h
    obtain ⟨d1, hd1, _, _, hr1, _⟩ := WellTyped.node_iff.mp h1
    rw [hd] at hd1
    simp only [Option.some.injEq] at hd1
    subst hd1
    rw [← hr, ← hr1]

/-- The subtree at a node of a well-formed tree is well-formed, for a type that
the type of the tree can ask for. -/
theorem WellTyped.find_typed {fl : GPFunctionLookup} {x : Nat} : ∀ {t : Subtree} {ty : Int},
    WellTyped fl ty t → x ∈ t.addrs →
    ∃ ty1, WellTyped fl ty1 (t.find x) ∧ Reachable fl ty ty1 := by
  intro t
  induction t with
  | null => intro _ h; exact absurd h id
  | node a f c0 c1 c2 ih0 ih1 ih2 =>
    intro ty hwt hx
    obtain ⟨d, hd, h0, h1, hr, h3, w0, w1, w2⟩ := WellTyped.node_iff.mp hwt
    have hmem := GetFunctionByID_mem hd h0 h1
    simp only [Subtree.find]
    by_cases e1 : a = x
    · rw [if_pos e1]; exact ⟨ty, hwt, Reachable.root⟩
    · rw [if_neg e1]
      have child : ∀ (c : Subtree) (j : Nat),
          (if j < d.m_nparams then WellTyped fl (d.paramType j) c else c = .null) →
          (∀ {ty : Int}, WellTyped fl ty c → x ∈ c.addrs →
            ∃ ty1, WellTyped fl ty1 (c.find x) ∧ Reachable fl ty ty1) →
          x ∈ c.addrs → ∃ ty1, WellTyped fl ty1 (c.find x) ∧ Reachable fl ty ty1 := by
        intro c j hw ih hxc
        by_cases hj : j < d.m_nparams
        · rw [if_pos hj] at hw
          obtain ⟨ty1, a1, a2⟩ := ih hw hxc
          refine ⟨ty1, a1, Reachable.trans ?_ a2⟩
          exact Reachable.param (hr ▸ Reachable.root) hmem hj
        · rw [if_neg hj] at hw
          rw [hw] at hxc
          simp [Subtree.addrs] at hxc
      by_cases e2 : x ∈ c0.addrs
      · rw [if_pos e2]; exact child c0 0 w0 ih0 e2
      · rw [if_neg e2]
        by_cases e3 : x ∈ c1.addrs
        · rw [if_pos e3]; exact child c1 1 w1 ih1 e3
        · rw [if_neg e3]
          rw [Subtree.mem_addrs_node] at hx
          rcases hx with hx | hx | hx | hx
          · exact absurd hx.symm e1
          · exact absurd hx e2
          · exact absurd hx e3
          · exact child c2 2 w2 ih2 hx

/-- A well-formed tree stays well-formed when the subtree at a node is replaced by
a well-formed tree of the same return type. -/
theorem WellTyped.subst_typed {fl : GPFunctionLookup} {x : Nat} {s : Subtree} :
    ∀ {t : Subtree} {ty : Int}, t.addrs.Nodup → WellTyped fl ty t →
    (∀ ty1, WellTyped fl ty1 (t.find x) → WellTyped fl ty1 s) →
    WellTyped fl ty (t.subst x s) := by
  intro t
  induction t with
  | null => intro _ _ h; exact absurd h id
  | node a f c0 c1 c2 ih0 ih1 ih2 =>
    intro ty hn hwt hs
    obtain ⟨d, hd, h0, h1, hr, h3, w0, w1, w2⟩ := WellTyped.node_iff.mp hwt
    obtain ⟨n1, n2, n3, n4, n5, n6, d01, d02, d12⟩ := Subtree.nodup_node.mp hn
    simp only [Subtree.subst]
    by_cases e1 : a = x
    · rw [if_pos e1]
      apply hs
      simp only [Subtree.find, if_pos e1]
      exact hwt
    · rw [if_neg e1]
      simp only [Subtree.find, if_neg e1] at hs
      have child : ∀ (c : Subtree) (j : Nat), c.addrs.Nodup →
          (if j < d.m_nparams then WellTyped fl (d.paramType j) c else c = .null) →
          (∀ {ty : Int}, c.addrs.Nodup → WellTyped fl ty c →
            (∀ ty1, WellTyped fl ty1 (c.find x) → WellTyped fl ty1 s) →
            WellTyped fl ty (c.subst x s)) →
          (x ∈ c.addrs → ∀ ty1, WellTyped fl ty1 (c.find x) → WellTyped fl ty1 s) →
          (if j < d.m_nparams then WellTyped fl (d.paramType j) (c.subst x s)
            else c.subst x s = .null) := by
        intro c j hnc hw ih hsc
        by_cases hxc : x ∈ c.addrs
        · by_cases hj : j < d.m_nparams
          · rw [if_pos hj] at hw ⊢
            exact ih hnc hw (hsc hxc)
          · rw [if_neg hj] at hw
            rw [hw] at hxc
            simp [Subtree.addrs] at hxc
        · rw [Subtree.subst_of_not_mem hxc]; exact hw
      refine WellTyped.node_iff.mpr ⟨d, hd, h0, h1, hr, h3, ?_, ?_, ?_⟩
      · refine child c0 0 n4 w0 ih0 ?_
        intro hx0
        rw [if_pos hx0] at hs
        exact hs
      · refine child c1 1 n5 w1 ih1 ?_
        intro hx1
        have hx0 : x ∉ c0.addrs := fun hc => d01 x hc hx1
        rw [if_neg hx0, if_pos hx1] at hs
        exact hs
      · refine child c2 2 n6 w2 ih2 ?_
        intro hx2
        have hx0 : x ∉ c0.addrs := fun hc => d02 x hc hx2
        have hx1 : x ∉ c1.addrs := fun hc => d12 x hc hx2
        rw [if_neg hx0, if_neg hx1] at hs
        exact hs

end GP

namespace GP

/-! ## MutateTree -/

theorem Subtree.subst_root_fid {x : Nat} {s t : Subtree} (h : t.root ≠ some x) :
    (t.subst x s).root = t.root ∧ (t.subst x s).fid = t.fid := by
  cases t with
  | null => simp [Subtree.subst]
  | node a f c0 c1 c2 =>
    have : a ≠ x := fun e => h (by simp [Subtree.root, e])
    simp [Subtree.subst, if_neg this, Subtree.root, Subtree.fid]

/-- The parent of a node is not below the node. -/
theorem IsTree.parent_not_below {h : Heap} {x : Nat} : ∀ {t : Subtree} {par : Option Nat},
    IsTree h par t → (∀ q, par = some q → q ∉ t.addrs) → x ∈ t.addrs →
    ∀ q, parentOf h x = some q → q ∉ (t.find x).addrs := by
  intro t
  induction t with
  | null => intro par _ _ hx; simp [Subtree.addrs] at hx
  | node a f c0 c1 c2 ih0 ih1 ih2 =>
    intro par ht hpar hx q hq
    obtain ⟨hr, hn⟩ := ht
    obtain ⟨n1, n2, n3, n4, n5, n6, d01, d02, d12⟩ := Subtree.nodup_node.mp hn
    obtain ⟨hc, r0, r1, r2⟩ := hr
    simp only [Subtree.find]
    by_cases e1 : a = x
    · rw [if_pos e1]
      subst e1
      have : parentOf h a = par := by simp [parentOf, hc]
      rw [this] at hq
      exact hpar q hq
    · rw [if_neg e1]
      have hs : ∀ q1, some a = some q1 → ∀ c : Subtree, a ∉ c.addrs → q1 ∉ c.addrs := by
        intro q1 e c hc1
        simp only [Option.some.injEq] at e
        subst e
        exact hc1
      by_cases e2 : x ∈ c0.addrs
      · rw [if_pos e2]
        exact ih0 ⟨r0, n4⟩ (fun q1 e => hs q1 e c0 n1) e2 q hq
      · rw [if_neg e2]
        by_cases e3 : x ∈ c1.addrs
        · rw [if_pos e3]
          exact ih1 ⟨r1, n5⟩ (fun q1 e => hs q1 e c1 n2) e3 q hq
        · rw [if_neg e3]
          rw [Subtree.mem_addrs_node] at hx
          rcases hx with hx | hx | hx | hx
          · exact absurd hx.symm e1
          · exact absurd hx e2
          · exact absurd hx e3
          · exact ih2 ⟨r2, n6⟩ (fun q1 e => hs q1 e c2 n3) hx q hq

/-- Cells outside the tree do not matter to the tree object. -/
theorem TreeInv.frame_inv {h h1 : Heap} {T : GPTree} {t : Subtree} (hinv : TreeInv h T t)
    (hf : ∀ a ∈ t.addrs, h1[a]? = h[a]?) : TreeInv h1 T t :=
  ⟨⟨Rep.frame hinv.1.1 hf, hinv.1.2⟩, hinv.2⟩

/-- `Replace` at a node of the tree with a detached tree that fits: the new
subtree is installed, the old one is returned, and the cells of the old subtree
and the cells outside the tree are not written to. -/
theorem Replace_install {h : Heap} {T : GPTree} {t s : Subtree} {x new : Nat}
    (hinv : TreeInv h T t) (hx : x ∈ t.addrs) (hs : IsTree h none s)
    (hsroot : s.root = some new) (hdisj : ∀ y ∈ s.addrs, y ∉ t.addrs)
    (hfit : T.m_count - ((t.find x).size : Int) + (s.size : Int) ≤ T.m_max_nodes) :
    ∃ h2 T1, T.Replace h (some x) new = some (some x, T1, h2) ∧
      TreeInv h2 T1 (t.subst x s) ∧ T1.m_max_nodes = T.m_max_nodes ∧
      h2.length = h.length ∧
      (∀ a : Nat, a ∉ t.addrs → a ≠ new → h2[a]? = h[a]?) ∧
      (∀ a ∈ (t.find x).addrs, h2[a]? = h[a]?) ∧
      (∀ a : Nat, (h2[a]?).map GPTreeNode.functionID = (h[a]?).map GPTreeNode.functionID) := by
  obtain ⟨ht, htr, hc, hmaxc⟩ := hinv
  have he := CountSubtree_find ht hx
  have hw := parentWalk_of_mem ht hx
  obtain ⟨r0, hr0⟩ : ∃ r0, t.root = some r0 := by
    cases t with
    | null => simp [Subtree.addrs] at hx
    | node a _ _ _ _ => exact ⟨a, rfl⟩
  have hw2 : parentWalk h T.m_root (h.length + 1) (some x) = some (some r0) := by
    rw [← htr, hw, hr0]
  have hover : ¬ (T.Count - ((t.find x).size : Int) + (s.size : Int) > T.MaxNodes) := by
    simp only [GPTree.Count, GPTree.MaxNodes]; omega
  obtain ⟨h2, heq, htree, hlen, hfr, hfid, _, _⟩ :=
    Replace_accept ht htr hs hsroot hdisj he hw2 hover
  have hsz := Subtree.size_subst (s := s) ht.2 hx
  have hnewmem : new ∈ s.addrs := Subtree.root_mem_addrs hsroot
  refine ⟨h2, _, heq, ⟨by simpa using htree, rfl, rfl, ?_⟩, rfl, hlen, ?_, ?_, hfid⟩
  · show ((t.subst x s).size : Int) ≤ T.m_max_nodes
    omega
  · intro a ha hne
    apply hfr a hne
    intro hp
    by_cases hroot : t.root = some x
    · rw [ht.1.root_parent hroot] at hp; cases hp
    · obtain ⟨q, hq, hpq⟩ := ht.1.parent_mem hx hroot
      rw [hpq] at hp
      simp only [Option.some.injEq] at hp
      exact ha (hp ▸ hq)
  · intro a ha
    apply hfr a
    · intro e
      subst e
      exact hdisj a hnewmem ((Subtree.find_addrs_sublist t).subset ha)
    · intro hp
      exact IsTree.parent_not_below ht (fun q e => by cases e) hx a hp ha

/-- `MutateTree` on a tree object that owns a well-formed tree, with the cells
that it leaves alone: the new subtree lies behind the old heap, and the cells of
the old heap outside the tree are not written to. -/
theorem MutateTree_full {fl : GPFunctionLookup} (hwf : fl.WF) {rt : Int}
    (hleaf : LeafContract fl rt) {h : Heap} {T : GPTree} {t : Subtree} (hinv : TreeInv h T t)
    (hwt : WellTyped fl rt t) (rnd : Nat → Nat) (pos : Nat) :
    ∃ (x new : Nat) (s : Subtree) (ty : Int) (h1 h2 : Heap) (pos1 pos2 : Nat) (T1 : GPTree),
      x ∈ t.addrs ∧ (2 ≤ t.size → t.root ≠ some x) ∧
      WellTyped fl ty (t.find x) ∧ WellTyped fl ty s ∧ s.root = some new ∧
      (∀ y ∈ s.addrs, y ∉ t.addrs) ∧
      CreateRandomTree fl ty (T.MaxNodes - T.Count + ((t.find x).size : Int)) rnd pos1 h =
        some (some new, s.size, h1, pos2) ∧
      T.Replace h1 (some x) new = some (some x, T1, h2) ∧
      MutateTree fl h T rnd pos = some (T1, h2, pos2) ∧
      TreeInv h2 T1 (t.subst x s) ∧ WellTyped fl rt (t.subst x s) ∧
      T1.m_max_nodes = T.m_max_nodes ∧ (∀ y ∈ s.addrs, h.length ≤ y) ∧
      (∀ a : Nat, a < h.length → a ∉ t.addrs → h2[a]? = h[a]?) ∧ h.length ≤ h2.length := by
  have hinv0 := hinv
  obtain ⟨ht, htr, hc, hmaxc⟩ := hinv
  obtain ⟨a, hra⟩ : ∃ a, t.root = some a := by
    cases t with
    | null => exact absurd hwt id
    | node a _ _ _ _ => exact ⟨a, rfl⟩
  have hTroot : T.m_root = some a := htr ▸ hra
  obtain ⟨eit, hlive⟩ := ofTree_spec hinv0 hTroot
  have hlen := t.length_levelOrder
  have hsz := hwt.size_pos
  have hne : t.levelOrder ≠ [] := by
    intro e
    rw [e] at hlen
    simp at hlen
    omega
  obtain ⟨i, pos1, eR, hi, hge2, _⟩ := Random_spec hlive hne rnd pos
  obtain ⟨x, hxdef⟩ : ∃ x, x = t.levelOrder[i] := ⟨_, rfl⟩
  have hget := hlive.getNode hi
  rw [← hxdef] at hget
  have hxmem : x ∈ t.addrs := by
    rw [hxdef]; exact t.levelOrder_perm.subset (List.getElem_mem _)
  have hnotroot : 2 ≤ t.size → t.root ≠ some x := by
    intro h2 hrx
    obtain ⟨h1i, _, _⟩ := hge2 (by omega)
    have h0 := Subtree.levelOrder_zero hrx
    have hnd := Subtree.levelOrder_nodup ht.2
    have h0lt : 0 < t.levelOrder.length := by omega
    rw [List.getElem?_eq_getElem h0lt] at h0
    simp only [Option.some.injEq] at h0
    have e : t.levelOrder[0] = t.levelOrder[i] := h0.trans hxdef
    have := hnd.getElem_inj_iff.mp e
    omega
  have hcount := CountSubtree_find ht hxmem
  obtain ⟨f, c0, c1, c2, hfind, hcell⟩ := Rep.cell ht.1 hxmem
  obtain ⟨ty, hwx, hreach⟩ := hwt.find_typed hxmem
  have hwx0 := hwx
  rw [hfind] at hwx
  obtain ⟨d, hd, _, _, hdr, _⟩ := WellTyped.node_iff.mp hwx
  have hfs : 1 ≤ (t.find x).size := by rw [hfind]; simp [Subtree.size]; omega
  have hmax : (1 : Int) ≤ T.MaxNodes - T.Count + ((t.find x).size : Int) := by
    simp only [GPTree.Count, GPTree.MaxNodes]; omega
  obtain ⟨s, h1, pos2, ecreate, hs, hsroot, hsle, hws, hframe, hl1, hfresh⟩ :=
    CreateRandomTree_fresh hwf (hleaf.of_reachable hreach) hmax rnd pos1 h
  have hdisj : ∀ y ∈ s.addrs, y ∉ t.addrs := by
    intro y hy hyt
    have := hfresh y hy
    have := Rep.addr_lt ht.1 y hyt
    omega
  have hinv1 : TreeInv h1 T t :=
    hinv0.frame_inv (fun b hb => hframe b (Rep.addr_lt ht.1 b hb))
  have hfit : T.m_count - ((t.find x).size : Int) + (s.size : Int) ≤ T.m_max_nodes := by
    simp only [GPTree.Count, GPTree.MaxNodes] at hsle; omega
  obtain ⟨h2, T1, erep, hinv2, hmax2, hlen2, hout2, _⟩ :=
    Replace_install hinv1 hxmem hs hsroot hdisj hfit
  refine ⟨x, h.length, s, ty, h1, h2, pos1, pos2, T1, hxmem, hnotroot, hwx0, hws, hsroot, hdisj,
    ecreate, erep, ?_, hinv2, ?_, hmax2, hfresh,
    fun a ha hat => by rw [hout2 a hat (by omega), hframe a ha], by omega⟩
  · unfold MutateTree
    rw [eit]
    dsimp only
    rw [eR]
    dsimp only
    rw [hget]
    dsimp only
    rw [hcount, hcell]
    dsimp only
    rw [hd]
    dsimp only
    rw [hdr, ecreate]
    dsimp only
    rw [erep]
  · exact WellTyped.subst_typed ht.2 hwt (fun ty1 h1 => by
      have := WellTyped.unique hwx0 h1
      subst this
      exact hws)

/-- `MutateTree` on a tree object that owns a well-formed tree: the node `x` that
is drawn is not the root when there is another node, `CreateRandomTree` returns a
tree `s` of the return type of `x`, `Replace` installs it, and the tree object
owns the well-formed tree `t.subst x s` afterwards. -/
theorem MutateTree_spec {fl : GPFunctionLookup} (hwf : fl.WF) {rt : Int}
    (hleaf : LeafContract fl rt) {h : Heap} {T : GPTree} {t : Subtree} (hinv : TreeInv h T t)
    (hwt : WellTyped fl rt t) (rnd : Nat → Nat) (pos : Nat) :
    ∃ (x new : Nat) (s : Subtree) (ty : Int) (h1 h2 : Heap) (pos1 pos2 : Nat) (T1 : GPTree),
      x ∈ t.addrs ∧ (2 ≤ t.size → t.root ≠ some x) ∧
      WellTyped fl ty (t.find x) ∧ WellTyped fl ty s ∧ s.root = some new ∧
      (∀ y ∈ s.addrs, y ∉ t.addrs) ∧
      CreateRandomTree fl ty (T.MaxNodes - T.Count + ((t.find x).size : Int)) rnd pos1 h =
        some (some new, s.size, h1, pos2) ∧
      T.Replace h1 (some x) new = some (some x, T1, h2) ∧
      MutateTree fl h T rnd pos = some (T1, h2, pos2) ∧
      TreeInv h2 T1 (t.subst x s) ∧ WellTyped fl rt (t.subst x s) ∧
      T1.m_max_nodes = T.m_max_nodes := by
  obtain ⟨x, new, s, ty, h1, h2, pos1, pos2, T1, a1, a2, a3, a4, a5, a6, a7, a8, a9, a10, a11,
    a12, _⟩ := MutateTree_full hwf hleaf hinv hwt rnd pos
  exact ⟨x, new, s, ty, h1, h2, pos1, pos2, T1, a1, a2, a3, a4, a5, a6, a7, a8, a9, a10, a11,
    a12⟩

end GP

namespace GP

/-- C18: `MutateTree` on a tree object that owns a non-empty well-formed tree `t`
with `Count <= MaxNodes`, with a registry that keeps the leaf contract, for any
random draws: it returns; `CreateRandomTree` is asked for the return type `ty` of
the drawn node `x` and returns a tree `s`; `Replace` does not reject, it returns
the old subtree `x` and not the new one; the tree object owns `t` with `s` in the
place of the subtree at `x` afterwards; the subtree at `x` and `s` are well-formed
for the same return type and the new tree is well-formed for the type of the old
one; `Count <= MaxNodes` holds afterwards; and when `t` has more than one node,
the root and its function id are the old ones. -/
theorem MutateTree_installs_replacement (fl : GPFunctionLookup) (rt : Int) (h : Heap)
    (T : GPTree) (t : Subtree) (rnd : Nat → Nat) (pos : Nat) (hwf : fl.WF)
    (hleaf : LeafContract fl rt) (hinv : TreeInv h T t) (hwt : WellTyped fl rt t) :
    ∃ (T1 : GPTree) (h2 : Heap) (pos2 x new : Nat) (s : Subtree) (ty : Int) (h1 : Heap)
      (pos1 : Nat),
      MutateTree fl h T rnd pos = some (T1, h2, pos2) ∧ x ∈ t.addrs ∧
      CreateRandomTree fl ty (T.MaxNodes - T.Count + ((t.find x).size : Int)) rnd pos1 h =
        some (some new, s.size, h1, pos2) ∧
      s.root = some new ∧
      T.Replace h1 (some x) new = some (some x, T1, h2) ∧ x ≠ new ∧
      TreeInv h2 T1 (t.subst x s) ∧
      WellTyped fl ty (t.find x) ∧ WellTyped fl ty s ∧ WellTyped fl rt (t.subst x s) ∧
      T1.Count ≤ T1.MaxNodes ∧ T1.MaxNodes = T.MaxNodes ∧
      (2 ≤ t.size → (t.subst x s).root = t.root ∧ (t.subst x s).fid = t.fid) := by
  obtain ⟨x, new, s, ty, h1, h2, pos1, pos2, T1, hx, hnr, hwx, hws, hsroot, hdisj, ecreate,
    erep, emut, hinv2, hwt2, hmax2⟩ := MutateTree_spec hwf hleaf hinv hwt rnd pos
  refine ⟨T1, h2, pos2, x, new, s, ty, h1, pos1, emut, hx, ecreate, hsroot, erep, ?_, hinv2,
    hwx, hws, hwt2, hinv2.2.2.2, hmax2, fun h2 => Subtree.subst_root_fid (hnr h2)⟩
  intro e
  subst e
  exact hdisj x (Subtree.root_mem_addrs hsroot) hx

theorem MutateTree_installs_replacement_witness :
    ∃ (T1 : GPTree) (h2 : Heap) (pos2 x new : Nat) (s : Subtree) (ty : Int) (h1 : Heap)
      (pos1 : Nat),
      MutateTree exampleRegistry exHeap exGPTree (fun n => n) 0 = some (T1, h2, pos2) ∧
      x ∈ exTree.addrs ∧
      CreateRandomTree exampleRegistry ty
          (exGPTree.MaxNodes - exGPTree.Count + ((exTree.find x).size : Int)) (fun n => n) pos1
          exHeap = some (some new, s.size, h1, pos2) ∧
      s.root = some new ∧
      exGPTree.Replace h1 (some x) new = some (some x, T1, h2) ∧ x ≠ new ∧
      TreeInv h2 T1 (exTree.subst x s) ∧
      WellTyped exampleRegistry ty (exTree.find x) ∧ WellTyped exampleRegistry ty s ∧
      WellTyped exampleRegistry 1 (exTree.subst x s) ∧
      T1.Count ≤ T1.MaxNodes ∧ T1.MaxNodes = exGPTree.MaxNodes ∧
      (2 ≤ exTree.size →
        (exTree.subst x s).root = exTree.root ∧ (exTree.subst x s).fid = exTree.fid) :=
  MutateTree_installs_replacement exampleRegistry 1 exHeap exGPTree exTree (fun n => n) 0
    (by decide) (LeafClosed.contract (S := [1]) (by decide))
    ⟨by decide, by decide, by decide, by decide⟩ (by decide)

end GP

namespace GP

/-! ## Subtrees, substitution and the way to a node -/

theorem Subtree.find_child {a : Nat} {f : Int} {c0 c1 c2 : Subtree}
    (hn : (Subtree.node a f c0 c1 c2).addrs.Nodup) {y : Nat} (hy : a ≠ y) :
    (y ∈ c0.addrs → (Subtree.node a f c0 c1 c2).find y = c0.find y) ∧
    (y ∈ c1.addrs → (Subtree.node a f c0 c1 c2).find y = c1.find y) ∧
    (y ∈ c2.addrs → (Subtree.node a f c0 c1 c2).find y = c2.find y) := by
  obtain ⟨n1, n2, n3, n4, n5, n6, d01, d02, d12⟩ := Subtree.nodup_node.mp hn
  refine ⟨fun h0 => ?_, fun h1 => ?_, fun h2 => ?_⟩
  · simp only [Subtree.find, if_neg hy, if_pos h0]
  · have h0 : y ∉ c0.addrs := fun hc => d01 y hc h1
    simp only [Subtree.find, if_neg hy, if_neg h0, if_pos h1]
  · have h0 : y ∉ c0.addrs := fun hc => d02 y hc h2
    have h1 : y ∉ c1.addrs := fun hc => d12 y hc h2
    simp only [Subtree.find, if_neg hy, if_neg h0, if_neg h1]

theorem Subtree.find_child_sub {a : Nat} {f : Int} {c0 c1 c2 : Subtree}
    (hn : (Subtree.node a f c0 c1 c2).addrs.Nodup) {y : Nat} (hy : a ≠ y) {c : Subtree}
    (hc : c = c0 ∨ c = c1 ∨ c = c2) {z : Nat} (hz : z ∈ (c.find y).addrs) :
    z ∈ ((Subtree.node a f c0 c1 c2).find y).addrs := by
  have hyc : y ∈ c.addrs := by
    by_contra hne
    rw [Subtree.find_of_not_mem hne] at hz
    simp [Subtree.addrs] at hz
  obtain ⟨e0, e1, e2⟩ := Subtree.find_child hn hy
  rcases hc with rfl | rfl | rfl
  · rw [e0 hyc]; exact hz
  · rw [e1 hyc]; exact hz
  · rw [e2 hyc]; exact hz

theorem Subtree.find_self {a : Nat} {f : Int} {c0 c1 c2 : Subtree} :
    (Subtree.node a f c0 c1 c2).find a = Subtree.node a f c0 c1 c2 := by
  simp [Subtree.find]

theorem Subtree.mem_find_self {t : Subtree} {x : Nat} (hx : x ∈ t.addrs) :
    x ∈ (t.find x).addrs :=
  Subtree.root_mem_addrs (Subtree.find_root hx)

/-- A node outside the replaced subtree is still in the tree. -/
theorem Subtree.mem_subst_of_mem {x p : Nat} {s : Subtree} : ∀ {t : Subtree}, t.addrs.Nodup →
    p ∈ t.addrs → p ∉ (t.find x).addrs → p ∈ (t.subst x s).addrs := by
  intro t
  induction t with
  | null => intro _ hp; simp [Subtree.addrs] at hp
  | node a f c0 c1 c2 ih0 ih1 ih2 =>
    intro hn hp hpx
    obtain ⟨n1, n2, n3, n4, n5, n6, d01, d02, d12⟩ := Subtree.nodup_node.mp hn
    by_cases ex : a = x
    · subst ex
      rw [Subtree.find_self] at hpx
      exact absurd hp hpx
    · simp only [Subtree.subst, if_neg ex]
      rw [Subtree.mem_addrs_node] at hp ⊢
      have sub := fun (c : Subtree) hc (hz : p ∈ (c.find x).addrs) =>
        hpx (Subtree.find_child_sub hn ex (c := c) hc hz)
      rcases hp with hp | hp | hp | hp
      · exact Or.inl hp
      · exact Or.inr (Or.inl (ih0 n4 hp (sub c0 (Or.inl rfl))))
      · exact Or.inr (Or.inr (Or.inl (ih1 n5 hp (sub c1 (Or.inr (Or.inl rfl))))))
      · exact Or.inr (Or.inr (Or.inr (ih2 n6 hp (sub c2 (Or.inr (Or.inr rfl))))))

/-- The nodes of the new subtree are in the tree. -/
theorem Subtree.mem_subst_new {x y : Nat} {s : Subtree} (hy : y ∈ s.addrs) :
    ∀ {t : Subtree}, x ∈ t.addrs → y ∈ (t.subst x s).addrs := by
  intro t
  induction t with
  | null => intro hx; simp [Subtree.addrs] at hx
  | node a f c0 c1 c2 ih0 ih1 ih2 =>
    intro hx
    by_cases ex : a = x
    · simp only [Subtree.subst, if_pos ex]; exact hy
    · simp only [Subtree.subst, if_neg ex]
      rw [Subtree.mem_addrs_node] at hx ⊢
      rcases hx with hx | hx | hx | hx
      · exact absurd hx.symm ex
      · exact Or.inr (Or.inl (ih0 hx))
      · exact Or.inr (Or.inr (Or.inl (ih1 hx)))
      · exact Or.inr (Or.inr (Or.inr (ih2 hx)))

theorem Subtree.pathTo_of_not_mem {p : Nat} : ∀ {t : Subtree}, p ∉ t.addrs → t.pathTo p = [] := by
  intro t
  cases t with
  | null => intro _; rfl
  | node a f c0 c1 c2 =>
    intro hp
    rw [Subtree.mem_addrs_node] at hp
    simp only [not_or] at hp
    obtain ⟨h0, h1, h2, h3⟩ := hp
    simp only [Subtree.pathTo, if_neg (fun (e : a = p) => h0 e.symm), if_neg h1, if_neg h2, if_neg h3]

/-- Replacing a subtree that neither holds `p` nor lies below `p` leaves the
subtree at `p` as it is. -/
theorem Subtree.find_subst_other {x p : Nat} {s : Subtree} (hps : p ∉ s.addrs) :
    ∀ {t : Subtree}, t.addrs.Nodup → p ∉ (t.find x).addrs → x ∉ (t.find p).addrs →
      (t.subst x s).find p = t.find p ∧ (t.subst x s).pathTo p = t.pathTo p := by
  intro t
  induction t with
  | null => intro _ _ _; simp [Subtree.subst]
  | node a f c0 c1 c2 ih0 ih1 ih2 =>
    intro hn h1 h2
    obtain ⟨n1, n2, n3, n4, n5, n6, d01, d02, d12⟩ := Subtree.nodup_node.mp hn
    by_cases ex : a = x
    · subst ex
      rw [Subtree.find_self] at h1
      simp only [Subtree.subst, if_true]
      rw [Subtree.find_of_not_mem hps, Subtree.find_of_not_mem h1,
        Subtree.pathTo_of_not_mem hps, Subtree.pathTo_of_not_mem h1]
      exact ⟨rfl, rfl⟩
    · by_cases ep : a = p
      · subst ep
        rw [Subtree.find_self] at h2
        rw [Subtree.subst_of_not_mem h2]
        exact ⟨rfl, rfl⟩
      · have s1 := fun (c : Subtree) hc (hz : p ∈ (c.find x).addrs) =>
          h1 (Subtree.find_child_sub hn ex (c := c) hc hz)
        have s2 := fun (c : Subtree) hc (hz : x ∈ (c.find p).addrs) =>
          h2 (Subtree.find_child_sub hn ep (c := c) hc hz)
        have m : ∀ c : Subtree, c.addrs.Nodup → (c = c0 ∨ c = c1 ∨ c = c2) →
            (p ∈ (c.subst x s).addrs ↔ p ∈ c.addrs) := by
          intro c hnc hc
          constructor
          · intro hm
            exact (Subtree.mem_addrs_subst hm).resolve_right (fun h => hps h.1)
          · intro hm
            exact Subtree.mem_subst_of_mem hnc hm (s1 c hc)
        obtain ⟨i0, j0⟩ := ih0 n4 (s1 c0 (Or.inl rfl)) (s2 c0 (Or.inl rfl))
        obtain ⟨i1, j1⟩ := ih1 n5 (s1 c1 (Or.inr (Or.inl rfl))) (s2 c1 (Or.inr (Or.inl rfl)))
        obtain ⟨i2, j2⟩ := ih2 n6 (s1 c2 (Or.inr (Or.inr rfl))) (s2 c2 (Or.inr (Or.inr rfl)))
        constructor <;>
        simp only [Subtree.subst, if_neg ex, Subtree.find, Subtree.pathTo, if_neg ep,
          m c0 n4 (Or.inl rfl), m c1 n5 (Or.inr (Or.inl rfl)), m c2 n6 (Or.inr (Or.inr rfl)),
          i0, i1, i2, j0, j1, j2]

/-- The subtree at a node of the new subtree. -/
theorem Subtree.find_subst_new {x y : Nat} {s : Subtree} (hy : y ∈ s.addrs) :
    ∀ {t : Subtree}, t.addrs.Nodup → x ∈ t.addrs → y ∉ t.addrs →
      (t.subst x s).find y = s.find y := by
  intro t
  induction t with
  | null => intro _ hx; simp [Subtree.addrs] at hx
  | node a f c0 c1 c2 ih0 ih1 ih2 =>
    intro hn hx hyt
    obtain ⟨n1, n2, n3, n4, n5, n6, d01, d02, d12⟩ := Subtree.nodup_node.mp hn
    by_cases ex : a = x
    · simp only [Subtree.subst, if_pos ex]
    · rw [Subtree.mem_addrs_node] at hx hyt
      simp only [not_or] at hyt
      obtain ⟨y0, y1, y2, y3⟩ := hyt
      have m : ∀ c : Subtree, y ∉ c.addrs → (y ∈ (c.subst x s).addrs ↔ x ∈ c.addrs) := by
        intro c hyc
        constructor
        · intro hm
          rcases Subtree.mem_addrs_subst hm with h | h
          · exact absurd h hyc
          · exact h.2
        · exact Subtree.mem_subst_new hy
      simp only [Subtree.subst, if_neg ex, Subtree.find, if_neg (fun (e : a = y) => y0 e.symm),
        m c0 y1, m c1 y2]
      rcases hx with hx | hx | hx | hx
      · exact absurd hx.symm ex
      · rw [if_pos hx]; exact ih0 n4 hx y1
      · rw [if_neg (fun hc => d01 x hc hx), if_pos hx]; exact ih1 n5 hx y2
      · rw [if_neg (fun hc => d02 x hc hx), if_neg (fun hc => d12 x hc hx)]
        exact ih2 n6 hx y3

theorem Subtree.pathTo_subset {p a : Nat} : ∀ {t : Subtree},
    a ∈ (t.pathTo p).map Prod.fst → a ∈ t.addrs := by
  intro t
  induction t with
  | null => intro h; simp [Subtree.pathTo] at h
  | node b f c0 c1 c2 ih0 ih1 ih2 =>
    intro h
    rw [Subtree.mem_addrs_node]
    simp only [Subtree.pathTo] at h
    split at h
    · simp at h
    · split at h
      · simp only [List.map_cons, List.mem_cons] at h
        rcases h with h | h
        · exact Or.inl h
        · exact Or.inr (Or.inl (ih0 h))
      · split at h
        · simp only [List.map_cons, List.mem_cons] at h
          rcases h with h | h
          · exact Or.inl h
          · exact Or.inr (Or.inr (Or.inl (ih1 h)))
        · split at h
          · simp only [List.map_cons, List.mem_cons] at h
            rcases h with h | h
            · exact Or.inl h
            · exact Or.inr (Or.inr (Or.inr (ih2 h)))
          · simp at h

theorem Subtree.length_pathTo_le {p : Nat} : ∀ (t : Subtree), (t.pathTo p).length + 1 ≤ t.size + 1
  | .null => by simp [Subtree.pathTo]
  | .node b f c0 c1 c2 => by
    have i0 := Subtree.length_pathTo_le (p := p) c0
    have i1 := Subtree.length_pathTo_le (p := p) c1
    have i2 := Subtree.length_pathTo_le (p := p) c2
    simp only [Subtree.pathTo, Subtree.size]
    split
    · simp
    · split
      · simp only [List.length_cons]; omega
      · split
        · simp only [List.length_cons]; omega
        · split
          · simp only [List.length_cons]; omega
          · simp

/-- A node that has `p` below it is on the way to `p`. -/
theorem Subtree.mem_pathTo {a p : Nat} : ∀ {t : Subtree}, t.addrs.Nodup → a ∈ t.addrs → a ≠ p →
    p ∈ (t.find a).addrs → a ∈ (t.pathTo p).map Prod.fst := by
  intro t
  induction t with
  | null => intro _ ha; simp [Subtree.addrs] at ha
  | node b f c0 c1 c2 ih0 ih1 ih2 =>
    intro hn ha hap hp
    obtain ⟨n1, n2, n3, n4, n5, n6, d01, d02, d12⟩ := Subtree.nodup_node.mp hn
    have hpt : p ∈ (Subtree.node b f c0 c1 c2).addrs :=
      (Subtree.find_addrs_sublist _).subset hp
    rw [Subtree.mem_addrs_node] at ha hpt
    by_cases eb : b = a
    · subst eb
      rcases hpt with hpt | hpt | hpt | hpt
      · exact absurd hpt.symm hap
      · simp [Subtree.pathTo, hap, hpt]
      · have hp0 : p ∉ c0.addrs := fun hc => d01 p hc hpt
        simp [Subtree.pathTo, hap, hpt, hp0]
      · have hp0 : p ∉ c0.addrs := fun hc => d02 p hc hpt
        have hp1 : p ∉ c1.addrs := fun hc => d12 p hc hpt
        simp [Subtree.pathTo, hap, hpt, hp0, hp1]
    · obtain ⟨e0, e1, e2⟩ := Subtree.find_child hn eb
      have inc : ∀ c : Subtree, p ∈ (c.find a).addrs → p ∈ c.addrs :=
        fun c h => (Subtree.find_addrs_sublist c).subset h
      rcases ha with ha | ha | ha | ha
      · exact absurd ha.symm eb
      · rw [e0 ha] at hp
        have hp0 := inc c0 hp
        have hbp : b ≠ p := fun e => n1 (e ▸ hp0)
        simp only [Subtree.pathTo, if_neg hbp, if_pos hp0, List.map_cons, List.mem_cons]
        exact Or.inr (ih0 n4 ha hap hp)
      · rw [e1 ha] at hp
        have hp1 := inc c1 hp
        have hbp : b ≠ p := fun e => n2 (e ▸ hp1)
        have hp0 : p ∉ c0.addrs := fun hc => d01 p hc hp1
        simp only [Subtree.pathTo, if_neg hbp, if_neg hp0, if_pos hp1, List.map_cons,
          List.mem_cons]
        exact Or.inr (ih1 n5 ha hap hp)
      · rw [e2 ha] at hp
        have hp2 := inc c2 hp
        have hbp : b ≠ p := fun e => n3 (e ▸ hp2)
        have hp0 : p ∉ c0.addrs := fun hc => d02 p hc hp2
        have hp1 : p ∉ c1.addrs := fun hc => d12 p hc hp2
        simp only [Subtree.pathTo, if_neg hbp, if_neg hp0, if_neg hp1, if_pos hp2, List.map_cons,
          List.mem_cons]
        exact Or.inr (ih2 n6 ha hap hp)

end GP

namespace GP

/-! ## Prune: the iterator before the loop -/

theorem UpChain.of_tree {h : Heap} {p : Nat} : ∀ {t : Subtree} {par : Option Nat}
    {l0 : List Nat}, IsTree h par t → UpChain h par l0 → p ∈ t.addrs →
    UpChain h (parentOf h p) (((t.pathTo p).map Prod.fst).reverse ++ l0) := by
  intro t
  induction t with
  | null => intro _ _ _ _ hp; simp [Subtree.addrs] at hp
  | node b f c0 c1 c2 ih0 ih1 ih2 =>
    intro par l0 ht hl hp
    obtain ⟨hr, hn⟩ := ht
    obtain ⟨n1, n2, n3, n4, n5, n6, d01, d02, d12⟩ := Subtree.nodup_node.mp hn
    obtain ⟨hc, r0, r1, r2⟩ := hr
    have hpb : parentOf h b = par := by simp [parentOf, hc]
    have hup : UpChain h (some b) (b :: l0) := ⟨rfl, ⟨_, hc⟩, by rw [hpb]; exact hl⟩
    by_cases eb : b = p
    · subst eb
      simp only [Subtree.pathTo, if_true, List.map_nil, List.reverse_nil, List.nil_append]
      rw [hpb]; exact hl
    · rw [Subtree.mem_addrs_node] at hp
      rcases hp with hp | hp | hp | hp
      · exact absurd hp.symm eb
      · have := ih0 ⟨r0, n4⟩ hup hp
        simp only [Subtree.pathTo, if_neg eb, if_pos hp, List.map_cons, List.reverse_cons,
          List.append_assoc, List.singleton_append]
        exact this
      · have hp0 : p ∉ c0.addrs := fun hc1 => d01 p hc1 hp
        have := ih1 ⟨r1, n5⟩ hup hp
        simp only [Subtree.pathTo, if_neg eb, if_neg hp0, if_pos hp, List.map_cons,
          List.reverse_cons, List.append_assoc, List.singleton_append]
        exact this
      · have hp0 : p ∉ c0.addrs := fun hc1 => d02 p hc1 hp
        have hp1 : p ∉ c1.addrs := fun hc1 => d12 p hc1 hp
        have := ih2 ⟨r2, n6⟩ hup hp
        simp only [Subtree.pathTo, if_neg eb, if_neg hp0, if_neg hp1, if_pos hp, List.map_cons,
          List.reverse_cons, List.append_assoc, List.singleton_append]
        exact this

/-- The loop of `Prune` over the parents of the preserved node takes them out of
the iterator. -/
theorem ignoreAncestors_spec {h : Heap} : ∀ (l : List Nat) (fuel : Nat) (par : Option Nat)
    (it : GPConstSubtreeIter) (L : List Nat), UpChain h par l → l.length < fuel → Live it L →
    L.Nodup →
    ∃ it1 L1, ignoreAncestors h fuel it par = some it1 ∧ Live it1 L1 ∧
      L1.Perm (L.filter (fun y => decide (y ∉ l))) := by
  intro l
  induction l with
  | nil =>
    intro fuel par it L hu hf hl _
    cases fuel with
    | zero => omega
    | succ fuel =>
      have hp : par = none := hu
      subst hp
      exact ⟨it, L, rfl, hl, by rw [filter_not_mem_nil]⟩
  | cons q l ih =>
    intro fuel par it L hu hf hl hn
    cases fuel with
    | zero => omega
    | succ fuel =>
      obtain ⟨hp, ⟨nd, hnd⟩, hu1⟩ := hu
      subst hp
      obtain ⟨it1, L1, b, e1, hl1, hp1⟩ := IgnoreNodePtr_spec hl hn q
      have hpar : parentOf h q = nd.parent := by simp [parentOf, hnd]
      rw [hpar] at hu1
      obtain ⟨it2, L2, e2, hl2, hp2⟩ := ih fuel nd.parent it1 L1 hu1
        (by simp only [List.length_cons] at hf; omega) hl1 (nodup_of_perm_filter hn hp1)
      refine ⟨it2, L2, ?_, hl2, ?_⟩
      · simp only [ignoreAncestors, e1, hnd]
        exact e2
      · have := perm_filter_step hp1 hp2
        rw [List.singleton_append] at this
        exact this

/-- The iterator of `Prune` when the loop starts: it holds the nodes of the tree
that are not kept. -/
theorem Prune_start {h : Heap} {T : GPTree} {t : Subtree} (hinv : TreeInv h T t)
    (hne : 0 < t.size) (preserveNode : Option Nat)
    (hp : ∀ p, preserveNode = some p → p ∈ t.addrs) :
    ∃ it0 it L, GPConstSubtreeIter.ofTree h T = some it0 ∧
      pruneStart h it0 preserveNode = some it ∧
      Live it L ∧ L.Nodup ∧
      L.Perm (t.levelOrder.filter (fun y => decide (y ∉ keepSet t preserveNode))) := by
  have hinv0 := hinv
  obtain ⟨ht, htr, hc, hmaxc⟩ := hinv
  obtain ⟨a, hra⟩ : ∃ a, t.root = some a := by
    cases t with
    | null => simp [Subtree.size] at hne
    | node a _ _ _ _ => exact ⟨a, rfl⟩
  have hTroot : T.m_root = some a := htr ▸ hra
  obtain ⟨eit, hlive⟩ := ofTree_spec hinv0 hTroot
  have hnd := Subtree.levelOrder_nodup ht.2
  cases preserveNode with
  | none =>
    refine ⟨_, _, t.levelOrder, eit, rfl, hlive, hnd, ?_⟩
    simp [keepSet]
  | some p =>
    have hpm := hp p rfl
    have hsub := Rep.find_sub ht.1 hpm
    obtain ⟨it1, L1, b, e1, hl1, hp1⟩ := IgnoreSubtree_spec hsub.toRepC
      ((Subtree.find_addrs_sublist t).nodup ht.2) (Subtree.find_root hpm) hlive hnd
    obtain ⟨f, c0, c1, c2, hfind, hcell⟩ := Rep.cell ht.1 hpm
    have hup : UpChain h (parentOf h p) (((t.pathTo p).map Prod.fst).reverse ++ []) :=
      UpChain.of_tree ht rfl hpm
    have hlen : (((t.pathTo p).map Prod.fst).reverse ++ []).length < h.length + 1 := by
      have := Subtree.length_pathTo_le (p := p) t
      have := ht.size_le
      simp only [List.append_nil, List.length_reverse, List.length_map]
      omega
    obtain ⟨it2, L2, e2, hl2, hp2⟩ := ignoreAncestors_spec _ _ _ it1 L1 hup hlen hl1
      (nodup_of_perm_filter hnd hp1)
    refine ⟨_, it2, L2, eit, ?_, hl2, nodup_of_perm_filter (nodup_of_perm_filter hnd hp1) hp2,
      ?_⟩
    · simp only [pruneStart, e1, hcell]
      exact e2
    · have := perm_filter_step hp1 hp2
      rw [filter_not_mem_congr _ _ (keepSet t (some p)) (by
        intro y; simp [keepSet])] at this
      exact this

end GP

namespace GP

/-! ## Prune: one round of the loop -/

theorem Subtree.find_size_le (t : Subtree) (x : Nat) : (t.find x).size ≤ t.size := by
  rw [← Subtree.length_addrs, ← Subtree.length_addrs]
  exact (Subtree.find_addrs_sublist t).length_le

theorem Subtree.find_size_pos {t : Subtree} {x : Nat} (hx : x ∈ t.addrs) :
    1 ≤ (t.find x).size := by
  have := Subtree.find_root hx
  cases hf : t.find x with
  | null => rw [hf] at this; simp [Subtree.root] at this
  | node _ _ _ _ _ => simp [Subtree.size]; omega

/-- A node of the old tree that is still there was not below the replaced node. -/
theorem Subtree.not_mem_find_of_mem_subst {x y : Nat} {s : Subtree} :
    ∀ {t : Subtree}, t.addrs.Nodup → (∀ z ∈ s.addrs, z ∉ t.addrs) →
      y ∈ (t.subst x s).addrs → y ∈ t.addrs → y ∉ (t.find x).addrs := by
  intro t
  induction t with
  | null => intro _ _ _ hy; simp [Subtree.addrs] at hy
  | node a f c0 c1 c2 ih0 ih1 ih2 =>
    intro hn hd hy hyt
    obtain ⟨n1, n2, n3, n4, n5, n6, d01, d02, d12⟩ := Subtree.nodup_node.mp hn
    by_cases ex : a = x
    · simp only [Subtree.subst, if_pos ex] at hy
      exact absurd hyt (hd y hy)
    · simp only [Subtree.subst, if_neg ex] at hy
      rw [Subtree.mem_addrs_node] at hy
      have hds : ∀ c : Subtree, (∀ z ∈ c.addrs, z ∈ (Subtree.node a f c0 c1 c2).addrs) →
          ∀ z ∈ s.addrs, z ∉ c.addrs := fun c hc z hz hzc => hd z hz (hc z hzc)
      have i0 : ∀ z ∈ c0.addrs, z ∈ (Subtree.node a f c0 c1 c2).addrs :=
        fun z hz => Subtree.mem_addrs_node.mpr (Or.inr (Or.inl hz))
      have i1 : ∀ z ∈ c1.addrs, z ∈ (Subtree.node a f c0 c1 c2).addrs :=
        fun z hz => Subtree.mem_addrs_node.mpr (Or.inr (Or.inr (Or.inl hz)))
      have i2 : ∀ z ∈ c2.addrs, z ∈ (Subtree.node a f c0 c1 c2).addrs :=
        fun z hz => Subtree.mem_addrs_node.mpr (Or.inr (Or.inr (Or.inr hz)))
      have old : ∀ c : Subtree, (∀ z ∈ c.addrs, z ∈ (Subtree.node a f c0 c1 c2).addrs) →
          y ∈ (c.subst x s).addrs → y ∈ c.addrs := by
        intro c hc hyc
        rcases Subtree.mem_addrs_subst hyc with h | h
        · exact h
        · exact absurd hyt (hd y h.1)
      have inc : ∀ c : Subtree, y ∈ (c.find x).addrs → y ∈ c.addrs :=
        fun c h => (Subtree.find_addrs_sublist c).subset h
      intro hyf
      simp only [Subtree.find, if_neg ex] at hyf
      by_cases x0 : x ∈ c0.addrs
      · rw [if_pos x0] at hyf
        have hy0 := inc c0 hyf
        rcases hy with hy | hy | hy | hy
        · exact n1 (hy ▸ hy0)
        · exact ih0 n4 (hds c0 i0) hy hy0 hyf
        · exact d01 y hy0 (old c1 i1 hy)
        · exact d02 y hy0 (old c2 i2 hy)
      · rw [if_neg x0] at hyf
        by_cases x1 : x ∈ c1.addrs
        · rw [if_pos x1] at hyf
          have hy1 := inc c1 hyf
          rcases hy with hy | hy | hy | hy
          · exact n2 (hy ▸ hy1)
          · exact d01 y (old c0 i0 hy) hy1
          · exact ih1 n5 (hds c1 i1) hy hy1 hyf
          · exact d12 y hy1 (old c2 i2 hy)
        · rw [if_neg x1] at hyf
          have hy2 := inc c2 hyf
          rcases hy with hy | hy | hy | hy
          · exact n3 (hy ▸ hy2)
          · exact d02 y (old c0 i0 hy) hy2
          · exact d12 y (old c1 i1 hy) hy2
          · exact ih2 n6 (hds c2 i2) hy hy2 hyf

/-- Replacing a subtree beside the way to `p` by a tree takes the nodes of the
subtree out of what can be pruned and puts the nodes of the new tree in. -/
theorem Subtree.potential_subst {x p : Nat} {s : Subtree} (hps : p ∉ s.addrs)
    (hs1 : 1 ≤ s.size) :
    ∀ {t : Subtree}, t.addrs.Nodup → p ∈ t.addrs → x ∈ t.addrs → x ∉ (t.find p).addrs →
      p ∉ (t.find x).addrs →
      (t.subst x s).potential p + (t.find x).size = t.potential p + s.size := by
  intro t
  induction t with
  | null => intro _ hp; simp [Subtree.addrs] at hp
  | node a f c0 c1 c2 ih0 ih1 ih2 =>
    intro hn hpt hx hxp hpx
    obtain ⟨n1, n2, n3, n4, n5, n6, d01, d02, d12⟩ := Subtree.nodup_node.mp hn
    by_cases ep : a = p
    · subst ep
      rw [Subtree.find_self] at hxp
      exact absurd hx hxp
    · by_cases ex : a = x
      · subst ex
        rw [Subtree.find_self] at hpx
        exact absurd hpt hpx
      · obtain ⟨fx0, fx1, fx2⟩ := Subtree.find_child hn ex
        have term : ∀ c : Subtree, c.addrs.Nodup → (c = c0 ∨ c = c1 ∨ c = c2) →
            (x ∈ c.addrs → (Subtree.node a f c0 c1 c2).find x = c.find x) →
            (c.addrs.Nodup → p ∈ c.addrs → x ∈ c.addrs → x ∉ (c.find p).addrs →
              p ∉ (c.find x).addrs →
              (c.subst x s).potential p + (c.find x).size = c.potential p + s.size) →
            (if p ∈ (c.subst x s).addrs then (c.subst x s).potential p
                else (c.subst x s).size - 1) +
              (if x ∈ c.addrs then ((Subtree.node a f c0 c1 c2).find x).size else 0) =
            (if p ∈ c.addrs then c.potential p else c.size - 1) +
              (if x ∈ c.addrs then s.size else 0) := by
          intro c hnc hc hfx ih
          by_cases hxc : x ∈ c.addrs
          · rw [if_pos hxc, if_pos hxc, hfx hxc]
            have hpc : p ∉ (c.find x).addrs :=
              fun hz => hpx (Subtree.find_child_sub hn ex hc hz)
            by_cases hpc1 : p ∈ c.addrs
            · rw [if_pos hpc1, if_pos (Subtree.mem_subst_of_mem hnc hpc1 hpc)]
              exact ih hnc hpc1 hxc (fun hz => hxp (Subtree.find_child_sub hn ep hc hz)) hpc
            · have hpc2 : p ∉ (c.subst x s).addrs := by
                intro hm
                rcases Subtree.mem_addrs_subst hm with h | h
                · exact hpc1 h
                · exact hps h.1
              rw [if_neg hpc1, if_neg hpc2]
              have h1 := Subtree.size_subst (s := s) hnc hxc
              have h2 := Subtree.find_size_le c x
              have h3 := Subtree.find_size_pos hxc
              omega
          · rw [if_neg hxc, if_neg hxc, Subtree.subst_of_not_mem hxc]
        have t0 := term c0 n4 (Or.inl rfl) fx0 ih0
        have t1 := term c1 n5 (Or.inr (Or.inl rfl)) fx1 ih1
        have t2 := term c2 n6 (Or.inr (Or.inr rfl)) fx2 ih2
        simp only [Subtree.subst, if_neg ex, Subtree.potential, if_neg ep]
        rw [Subtree.mem_addrs_node] at hx
        rcases hx with hx | hx | hx | hx
        · exact absurd hx.symm ex
        · have x1 : x ∉ c1.addrs := d01 x hx
          have x2 : x ∉ c2.addrs := d02 x hx
          rw [if_pos hx] at t0
          rw [if_neg x1] at t1
          rw [if_neg x2] at t2
          rw [if_pos hx] at t0
          rw [if_neg x1] at t1
          rw [if_neg x2] at t2
          omega
        · have x0 : x ∉ c0.addrs := fun hc => d01 x hc hx
          have x2 : x ∉ c2.addrs := d12 x hx
          rw [if_neg x0] at t0
          rw [if_pos hx] at t1
          rw [if_neg x2] at t2
          rw [if_neg x0] at t0
          rw [if_pos hx] at t1
          rw [if_neg x2] at t2
          omega
        · have x0 : x ∉ c0.addrs := fun hc => d02 x hc hx
          have x1 : x ∉ c1.addrs := fun hc => d12 x hc hx
          rw [if_neg x0] at t0
          rw [if_neg x1] at t1
          rw [if_pos hx] at t2
          rw [if_neg x0] at t0
          rw [if_neg x1] at t1
          rw [if_pos hx] at t2
          omega

end GP

namespace GP

/-! ## Prune: the loop -/

/-- What the invariant of `Prune` says about a node of the iterator and the
preserved node: neither is below the other. -/
theorem PruneInv.apart {fl : GPFunctionLookup} {rt : Int} {h0 : Heap} {T0 : GPTree}
    {t0 : Subtree} {preserveNode : Option Nat} {s : PruneState} {t : Subtree} {L : List Nat}
    (I : PruneInv fl rt h0 T0 t0 preserveNode s t L)
    (hp0 : ∀ p, preserveNode = some p → p ∈ t0.addrs) {x : Nat} (hxL : x ∈ L) {p : Nat}
    (hp : preserveNode = some p) :
    p ∈ t.addrs ∧ x ∉ (t.find p).addrs ∧ p ∉ (t.find x).addrs := by
  obtain ⟨k1, k2⟩ := I.keep p hp
  obtain ⟨hxt, hxK⟩ := I.sub x hxL
  have hpt0 := hp0 p hp
  have hpt : p ∈ t.addrs := by
    by_contra hne
    have h1 := Subtree.find_of_not_mem hne
    have h2 := Subtree.find_root hpt0
    rw [← k1, h1] at h2
    simp [Subtree.root] at h2
  have hxsub : x ∉ (t.find p).addrs := by
    rw [k1]
    intro hc
    exact hxK (by rw [hp]; simp [keepSet, hc])
  have hxp : x ≠ p := fun e => hxsub (by rw [e]; exact Subtree.mem_find_self hpt)
  refine ⟨hpt, hxsub, fun hc => hxK ?_⟩
  have := Subtree.mem_pathTo I.inv.1.2 hxt hxp hc
  rw [k2] at this
  rw [hp]
  simp only [keepSet, List.mem_append]
  exact Or.inr this

/-- The loop of `Prune` ends, keeps the invariant, and stops only when enough
nodes are pruned or the iterator is empty. -/
theorem pruneLoop_spec {fl : GPFunctionLookup} (hwf : fl.WF) {rt : Int}
    (hleaf : LeafContract fl rt) {h0 : Heap} {T0 : GPTree} {t0 : Subtree}
    {preserveNode : Option Nat} (hp0 : ∀ p, preserveNode = some p → p ∈ t0.addrs)
    (numToPrune : Int) (rnd : Nat → Nat) :
    ∀ (fuel : Nat) (s : PruneState) (t : Subtree) (L : List Nat),
      PruneInv fl rt h0 T0 t0 preserveNode s t L → L.length < fuel →
      ∃ s1 t1 L1, pruneLoop fl numToPrune rnd fuel s = some s1 ∧
        PruneInv fl rt h0 T0 t0 preserveNode s1 t1 L1 ∧
        (numToPrune ≤ s1.numPruned ∨ L1 = []) ∧ (¬ s.numPruned < numToPrune → s1 = s) := by
  intro fuel
  induction fuel with
  | zero => intro _ _ _ _ hf; omega
  | succ fuel ih =>
    intro s t L I hf
    by_cases hcond : s.numPruned < numToPrune ∧ s.flattenedIter.Count ≠ 0
    swap
    · refine ⟨s, t, L, ?_, I, ?_, fun _ => rfl⟩
      · rw [pruneLoop, if_neg hcond]
      · by_cases h1 : s.numPruned < numToPrune
        · right
          have h2 : s.flattenedIter.Count = 0 := by
            by_contra h2
            exact hcond ⟨h1, h2⟩
          have h3 := I.live.1
          simp only [GPConstSubtreeIter.Count] at h2
          rw [h2] at h3
          exact List.length_eq_zero.mp (by omega)
        · left; omega
    · obtain ⟨hlt, hcnt⟩ := hcond
      have hLne : L ≠ [] := by
        intro e
        apply hcnt
        have := I.live.1
        rw [e] at this
        simpa [GPConstSubtreeIter.Count] using this
      obtain ⟨i, pos1, eR, hi, _, _⟩ := Random_spec I.live hLne rnd s.pos
      obtain ⟨x, hxdef⟩ : ∃ x, x = L[i] := ⟨_, rfl⟩
      have hxL : x ∈ L := by rw [hxdef]; exact List.getElem_mem _
      obtain ⟨hxt, hxK⟩ := I.sub x hxL
      have hget := I.live.getNode hi
      rw [← hxdef] at hget
      have hinv := I.inv
      obtain ⟨ht, htr, hc, hmaxc⟩ := hinv
      obtain ⟨f, c0, c1, c2, hfind, hcell⟩ := Rep.cell ht.1 hxt
      obtain ⟨ty, hwx, hreach⟩ := I.typed.find_typed hxt
      have hwx0 := hwx
      rw [hfind] at hwx
      obtain ⟨d, hd, _, _, hdr, _⟩ := WellTyped.node_iff.mp hwx
      obtain ⟨it1, L1, b, eig, hl1, hp1⟩ := IgnoreSubtree_spec (Rep.find_sub ht.1 hxt).toRepC
        ((Subtree.find_addrs_sublist t).nodup ht.2) (Subtree.find_root hxt) I.live I.nodup
      have hn1 : L1.Nodup := nodup_of_perm_filter I.nodup hp1
      have hmem1 : ∀ y, y ∈ L1 ↔ y ∈ L ∧ y ∉ (t.find x).addrs := by
        intro y
        rw [hp1.mem_iff]
        simp [List.mem_filter]
      have hlen1 : L1.length < L.length := by
        rw [hp1.length_eq]
        apply List.length_filter_lt_length_iff_exists.mpr
        exact ⟨x, hxL, by simp [Subtree.mem_find_self hxt]⟩
      by_cases hcan : (c0.root.isSome || c1.root.isSome || c2.root.isSome) = true
      · -- the node has a child: it is replaced by a leaf
        obtain ⟨s', h1, pos2, ecreate, hs, hsroot, hsle, hws, hframe, hl1len, hfresh⟩ :=
          CreateRandomTree_fresh hwf (hleaf.of_reachable hreach) (le_refl (1 : Int)) rnd pos1
            s.heap
        have hs1 : s'.size = 1 := by
          have := hws.size_pos
          omega
        have hdisj : ∀ y ∈ s'.addrs, y ∉ t.addrs := by
          intro y hy hyt
          have := hfresh y hy
          have := Rep.addr_lt ht.1 y hyt
          omega
        have hinv1 : TreeInv h1 s.tree t :=
          I.inv.frame_inv (fun b hb => hframe b (Rep.addr_lt ht.1 b hb))
        have hfs := Subtree.find_size_pos hxt
        have hfit : s.tree.m_count - ((t.find x).size : Int) + (s'.size : Int) ≤
            s.tree.m_max_nodes := by omega
        obtain ⟨h2, T1, erep, hinv2, hmax2, hlen2, hfr_out, hfr_sub, _⟩ :=
          Replace_install hinv1 hxt hs hsroot hdisj hfit
        have hcnt2 : CountSubtree h2 x = some (t.find x).size := by
          have ht1 := hinv1.1.find_tree hxt
          exact CountSubtree_of_isTree ⟨Rep.frame ht1.1 hfr_sub, ht1.2⟩ (Subtree.find_root hxt)
        have hsz := Subtree.size_subst (s := s') ht.2 hxt
        have hsleaf : ∀ y ∈ s'.addrs, (s'.find y).size = 1 := by
          intro y hy
          have := Subtree.find_size_pos hy
          have := Subtree.find_size_le s' y
          omega
        have Inew : PruneInv fl rt h0 T0 t0 preserveNode
            ⟨it1, T1, h2, s.numPruned + (((t.find x).size : Int) - 1), pos2⟩ (t.subst x s')
            L1 :=
          { inv := hinv2
            typed := WellTyped.subst_typed ht.2 I.typed (fun ty1 hw1 => by
              have := WellTyped.unique hwx0 hw1
              subst this
              exact hws)
            live := hl1
            nodup := hn1
            sub := fun y hy => by
              obtain ⟨hyL, hyx⟩ := (hmem1 y).mp hy
              exact ⟨Subtree.mem_subst_of_mem ht.2 (I.sub y hyL).1 hyx, (I.sub y hyL).2⟩
            keep := fun p hp => by
              obtain ⟨k1, k2⟩ := I.keep p hp
              obtain ⟨hpt, hxsub, hpx⟩ := I.apart hp0 hxL hp
              have hps : p ∉ s'.addrs := fun hc => hdisj p hc hpt
              obtain ⟨e1, e2⟩ := Subtree.find_subst_other hps ht.2 hpx hxsub
              exact ⟨e1.trans k1, e2.trans k2⟩
            pruned := by
              show s.numPruned + (((t.find x).size : Int) - 1) = _
              rw [I.pruned]
              omega
            pot := fun p hp => by
              obtain ⟨hpt, hxsub, hpx⟩ := I.apart hp0 hxL hp
              have hps : p ∉ s'.addrs := fun hc => hdisj p hc hpt
              have e := Subtree.potential_subst hps (by omega) ht.2 hpt hxt hxsub hpx
              have e0 := I.pot p hp
              show s.numPruned + (((t.find x).size : Int) - 1) + _ = _
              omega
            leaves := fun y hy hyK hyL => by
              by_cases hys : y ∈ s'.addrs
              · rw [Subtree.find_subst_new hys ht.2 hxt (hdisj y hys)]
                exact hsleaf y hys
              · have hyt : y ∈ t.addrs := by
                  rcases Subtree.mem_addrs_subst hy with h | h
                  · exact h
                  · exact absurd h.1 hys
                have hyx := Subtree.not_mem_find_of_mem_subst ht.2 hdisj hy hyt
                have hyL0 : y ∉ L := fun hc => hyL ((hmem1 y).mpr ⟨hc, hyx⟩)
                have hleaf1 := I.leaves y hyt hyK hyL0
                have hxy : x ∉ (t.find y).addrs := by
                  intro hc
                  have hroot := Subtree.find_root hyt
                  have hlen := (t.find y).length_addrs
                  rw [hleaf1] at hlen
                  have hymem := Subtree.mem_find_self hyt
                  obtain ⟨z, hz⟩ := List.length_eq_one.mp hlen
                  rw [hz] at hc hymem
                  simp only [List.mem_singleton] at hc hymem
                  exact hyx (by rw [hymem, ← hc]; exact Subtree.mem_find_self hxt)
                rw [(Subtree.find_subst_other hys ht.2 hyx hxy).1]
                exact hleaf1
            budget := hmax2.trans I.budget
            old := fun y hy => by
              rcases Subtree.mem_addrs_subst hy with h | h
              · exact I.old y h
              · right
                have := hfresh y h.1
                have := I.grow
                omega
            frame := fun a ha hat => by
              have hat1 : a ∉ t.addrs := by
                intro hc
                rcases I.old a hc with h | h
                · exact hat h
                · omega
              have hg := I.grow
              have hnew : a ≠ s.heap.length := by omega
              rw [hfr_out a hat1 hnew, hframe a (by omega)]
              exact I.frame a ha hat
            grow := by
              have := I.grow
              show h0.length ≤ h2.length
              omega }
        obtain ⟨s1, t1, L2, e, I1, hend, _⟩ := ih _ _ L1 Inew (by omega)
        refine ⟨s1, t1, L2, ?_, I1, hend, fun hnot => absurd hlt hnot⟩
        rw [pruneLoop, if_pos ⟨hlt, hcnt⟩, eR]
        dsimp only
        rw [hget]
        dsimp only
        rw [hcell]
        dsimp only
        rw [hd]
        dsimp only
        rw [eig]
        dsimp only
        rw [if_pos hcan, hdr, ecreate]
        dsimp only
        rw [erep]
        dsimp only
        rw [if_pos rfl, hcnt2]
        exact e
      · -- the node has no child: nothing happens to the tree
        have hnull : c0 = .null ∧ c1 = .null ∧ c2 = .null := by
          simp only [Bool.or_eq_true, not_or, Option.isSome_iff_exists, not_exists] at hcan
          refine ⟨?_, ?_, ?_⟩ <;> apply Subtree.root_eq_none.mp
          · cases e : c0.root with
            | none => rfl
            | some v => exact absurd e (hcan.1.1 v)
          · cases e : c1.root with
            | none => rfl
            | some v => exact absurd e (hcan.1.2 v)
          · cases e : c2.root with
            | none => rfl
            | some v => exact absurd e (hcan.2 v)
        obtain ⟨e0, e1, e2⟩ := hnull
        subst e0 e1 e2
        have Inew : PruneInv fl rt h0 T0 t0 preserveNode
            ⟨it1, s.tree, s.heap, s.numPruned, pos1⟩ t L1 :=
          { inv := I.inv
            typed := I.typed
            live := hl1
            nodup := hn1
            sub := fun y hy => I.sub y ((hmem1 y).mp hy).1
            keep := I.keep
            pruned := I.pruned
            pot := I.pot
            leaves := fun y hy hyK hyL => by
              by_cases hyL0 : y ∈ L
              · have hyx : y ∈ (t.find x).addrs := by
                  by_contra hc
                  exact hyL ((hmem1 y).mpr ⟨hyL0, hc⟩)
                rw [hfind] at hyx
                simp only [Subtree.addrs, List.append_nil, List.mem_singleton] at hyx
                rw [hyx, hfind]
                simp [Subtree.size]
              · exact I.leaves y hy hyK hyL0
            budget := I.budget
            old := I.old
            frame := I.frame
            grow := I.grow }
        obtain ⟨s1, t1, L2, e, I1, hend, _⟩ := ih _ _ L1 Inew (by omega)
        refine ⟨s1, t1, L2, ?_, I1, hend, fun hnot => absurd hlt hnot⟩
        rw [pruneLoop, if_pos ⟨hlt, hcnt⟩, eR]
        dsimp only
        rw [hget]
        dsimp only
        rw [hcell]
        dsimp only
        rw [hd]
        dsimp only
        rw [eig]
        dsimp only
        rw [if_neg hcan]
        exact e

end GP

namespace GP

/-! ## Prune -/

/-- `Prune` on a tree object that owns a well-formed tree `t`: it returns; the
tree object owns a well-formed tree `t1` afterwards; the returned number is the
number of nodes that are gone; the subtree of the preserved node and the way to
it are as they were; nothing happens when `numToPrune <= 0`; when the returned
number is below `numToPrune`, the nodes that are not kept have no children; and
cells outside the tree are not written to. -/
theorem Prune_spec {fl : GPFunctionLookup} (hwf : fl.WF) {rt : Int}
    (hleaf : LeafContract fl rt) {h : Heap} {T : GPTree} {t : Subtree} (hinv : TreeInv h T t)
    (hwt : WellTyped fl rt t) (preserveNode : Option Nat)
    (hp : ∀ p, preserveNode = some p → p ∈ t.addrs) (numToPrune : Int) (rnd : Nat → Nat)
    (pos : Nat) :
    ∃ (n : Int) (T1 : GPTree) (h1 : Heap) (pos1 : Nat) (t1 : Subtree),
      Prune fl h T numToPrune preserveNode rnd pos = some (n, T1, h1, pos1) ∧
      TreeInv h1 T1 t1 ∧ WellTyped fl rt t1 ∧
      n = (t.size : Int) - (t1.size : Int) ∧
      T1.m_max_nodes = T.m_max_nodes ∧
      (∀ p, preserveNode = some p → t1.find p = t.find p ∧ t1.pathTo p = t.pathTo p) ∧
      (numToPrune ≤ 0 → n = 0 ∧ T1 = T ∧ h1 = h ∧ t1 = t) ∧
      (n < numToPrune →
        ∀ y ∈ t1.addrs, y ∉ keepSet t preserveNode → (t1.find y).size = 1) ∧
      (∀ p, preserveNode = some p → n + (t1.potential p : Int) = (t.potential p : Int)) ∧
      (∀ y ∈ t1.addrs, y ∈ t.addrs ∨ h.length ≤ y) ∧
      (∀ a : Nat, a < h.length → a ∉ t.addrs → h1[a]? = h[a]?) ∧ h.length ≤ h1.length := by
  obtain ⟨it0, it, L, eit, estart, hlive, hnd, hperm⟩ :=
    Prune_start hinv hwt.size_pos preserveNode hp
  have hmem : ∀ y, y ∈ L ↔ y ∈ t.addrs ∧ y ∉ keepSet t preserveNode := by
    intro y
    rw [hperm.mem_iff, List.mem_filter, t.levelOrder_perm.mem_iff]
    simp
  have I0 : PruneInv fl rt h T t preserveNode ⟨it, T, h, 0, pos⟩ t L :=
    { inv := hinv
      typed := hwt
      live := hlive
      nodup := hnd
      sub := fun y hy => (hmem y).mp hy
      keep := fun _ _ => ⟨rfl, rfl⟩
      pruned := by show (0 : Int) = _; omega
      pot := fun _ _ => by show (0 : Int) + _ = _; omega
      leaves := fun y hy hyK hyL => absurd ((hmem y).mpr ⟨hy, hyK⟩) hyL
      budget := rfl
      old := fun y hy => Or.inl hy
      frame := fun _ _ _ => rfl
      grow := le_refl _ }
  have hfuel : L.length < it.m_count.toNat + 1 := by
    rw [hlive.1]
    simp
  obtain ⟨s1, t1, L1, eloop, I1, hend, hsame⟩ :=
    pruneLoop_spec hwf hleaf hp numToPrune rnd _ _ t L I0 hfuel
  have eP : Prune fl h T numToPrune preserveNode rnd pos =
      some (s1.numPruned, s1.tree, s1.heap, s1.pos) := by
    unfold Prune
    rw [eit]
    dsimp only
    rw [estart]
    dsimp only
    rw [eloop]
  by_cases hle : numToPrune ≤ 0
  · have hs : s1 = ⟨it, T, h, 0, pos⟩ := hsame (by show ¬ ((0 : Int) < numToPrune); omega)
    rw [hs] at eP
    refine ⟨0, T, h, pos, t, eP, hinv, hwt, by omega, rfl, fun _ _ => ⟨rfl, rfl⟩,
      fun _ => ⟨rfl, rfl, rfl, rfl⟩, fun hlt => absurd hlt (by omega), fun _ _ => by omega,
      fun y hy => Or.inl hy, fun _ _ _ => rfl, le_refl _⟩
  · refine ⟨s1.numPruned, s1.tree, s1.heap, s1.pos, t1, eP, I1.inv, I1.typed, I1.pruned,
      I1.budget, I1.keep, fun h0 => absurd h0 hle, ?_, I1.pot, I1.old, I1.frame, I1.grow⟩
    intro hlt y hy hyK
    rcases hend with h1 | h1
    · omega
    · exact I1.leaves y hy hyK (by rw [h1]; simp)

end GP

namespace GP

/-- C15: `Prune` on a tree object that owns a well-formed tree, with a registry
that keeps the leaf contract, any `numToPrune`, any `preserveNode` that is null or
a node of the tree, and any random draws: it returns, and the returned number is
the number of nodes that are gone from the tree, `Count` before the call minus
`Count` after the call, where `Count` after the call is the number of nodes that
the tree has in the heap; with `numToPrune <= 0` the returned number is 0 and the
tree object and the heap are as before. -/
theorem Prune_returns_removed (fl : GPFunctionLookup) (rt : Int) (h : Heap) (T : GPTree)
    (t : Subtree) (preserveNode : Option Nat) (numToPrune : Int) (rnd : Nat → Nat) (pos : Nat)
    (hwf : fl.WF) (hleaf : LeafContract fl rt) (hinv : TreeInv h T t) (hwt : WellTyped fl rt t)
    (hp : ∀ p, preserveNode = some p → p ∈ t.addrs) :
    ∃ (n : Int) (T1 : GPTree) (h1 : Heap) (pos1 : Nat) (t1 : Subtree),
      Prune fl h T numToPrune preserveNode rnd pos = some (n, T1, h1, pos1) ∧
      TreeInv h1 T1 t1 ∧ n = T.Count - T1.Count ∧ n = (t.size : Int) - (t1.size : Int) ∧
      (actualCount h1 T1.m_root).map Int.ofNat = some T1.Count ∧
      (numToPrune ≤ 0 → n = 0 ∧ T1 = T ∧ h1 = h) := by
  obtain ⟨n, T1, h1, pos1, t1, e, hinv1, _, hn, _, _, hz, _⟩ :=
    Prune_spec hwf hleaf hinv hwt preserveNode hp numToPrune rnd pos
  refine ⟨n, T1, h1, pos1, t1, e, hinv1, ?_, hn, ?_, fun hle => ?_⟩
  · simp only [GPTree.Count]
    rw [hinv.2.2.1, hinv1.2.2.1]
    exact hn
  · obtain ⟨ht1, hr1, hc1, _⟩ := hinv1
    rw [← hr1]
    cases hroot : t1.root with
    | none =>
      rw [Subtree.root_eq_none.mp hroot] at hc1
      simp [actualCount, GPTree.Count, hc1, Subtree.size]
    | some a =>
      simp only [actualCount, CountSubtree_of_isTree ht1 hroot, Option.map_some',
        GPTree.Count, hc1]
      rfl
  · obtain ⟨a1, a2, a3, _⟩ := hz hle
    exact ⟨a1, a2, a3⟩

theorem Prune_returns_removed_witness :
    ∃ (n : Int) (T1 : GPTree) (h1 : Heap) (pos1 : Nat) (t1 : Subtree),
      Prune exampleRegistry7 exHeap7 exGPTree7 2 none (fun n => n) 0 =
        some (n, T1, h1, pos1) ∧
      TreeInv h1 T1 t1 ∧ n = exGPTree7.Count - T1.Count ∧
      n = (exTree7.size : Int) - (t1.size : Int) ∧
      (actualCount h1 T1.m_root).map Int.ofNat = some T1.Count ∧
      ((2 : Int) ≤ 0 → n = 0 ∧ T1 = exGPTree7 ∧ h1 = exHeap7) :=
  Prune_returns_removed exampleRegistry7 1 exHeap7 exGPTree7 exTree7 none 2 (fun n => n) 0
    (by decide) (LeafClosed.contract (S := [1]) (by decide))
    ⟨by decide, by decide, by decide, by decide⟩ (by decide) (fun p hp => by cases hp)

/-- C16: `Prune` with a `preserveNode` that is a node `p` of the tree (a
well-formed tree that the tree object owns, a registry that keeps the leaf
contract, any random draws): it returns, and in the tree `t1` that the tree
object owns afterwards the subtree at `p` is the subtree that was there before,
cell by cell, and the way from the root down to `p` is the same list of nodes
with the same function ids. -/
theorem Prune_preserves_node (fl : GPFunctionLookup) (rt : Int) (h : Heap) (T : GPTree)
    (t : Subtree) (p : Nat) (numToPrune : Int) (rnd : Nat → Nat) (pos : Nat)
    (hwf : fl.WF) (hleaf : LeafContract fl rt) (hinv : TreeInv h T t) (hwt : WellTyped fl rt t)
    (hp : p ∈ t.addrs) :
    ∃ (n : Int) (T1 : GPTree) (h1 : Heap) (pos1 : Nat) (t1 : Subtree),
      Prune fl h T numToPrune (some p) rnd pos = some (n, T1, h1, pos1) ∧
      TreeInv h1 T1 t1 ∧ p ∈ t1.addrs ∧ t1.find p = t.find p ∧
      Rep h1 (parentOf h1 p) (t.find p) ∧ t1.pathTo p = t.pathTo p := by
  obtain ⟨n, T1, h1, pos1, t1, e, hinv1, _, _, _, hk, _⟩ :=
    Prune_spec hwf hleaf hinv hwt (some p)
      (fun q hq => by cases hq; exact hp) numToPrune rnd pos
  obtain ⟨k1, k2⟩ := hk p rfl
  have hp1 : p ∈ t1.addrs := by
    by_contra hne
    have h1 := Subtree.find_of_not_mem hne
    have h2 := Subtree.find_root hp
    rw [← k1, h1] at h2
    simp [Subtree.root] at h2
  refine ⟨n, T1, h1, pos1, t1, e, hinv1, hp1, k1, ?_, k2⟩
  rw [← k1]
  exact Rep.find_sub hinv1.1.1 hp1

theorem Prune_preserves_node_witness :
    ∃ (n : Int) (T1 : GPTree) (h1 : Heap) (pos1 : Nat) (t1 : Subtree),
      Prune exampleRegistry7 exHeap7 exGPTree7 3 (some 2) (fun n => n) 0 =
        some (n, T1, h1, pos1) ∧
      TreeInv h1 T1 t1 ∧ 2 ∈ t1.addrs ∧ t1.find 2 = exTree7.find 2 ∧
      Rep h1 (parentOf h1 2) (exTree7.find 2) ∧ t1.pathTo 2 = exTree7.pathTo 2 :=
  Prune_preserves_node exampleRegistry7 1 exHeap7 exGPTree7 exTree7 2 3 (fun n => n) 0
    (by decide) (LeafClosed.contract (S := [1]) (by decide))
    ⟨by decide, by decide, by decide, by decide⟩ (by decide) (by decide)

/-- C17: `Prune` on a tree object that owns a well-formed tree, with a registry
that keeps the leaf contract, a `preserveNode` that is null or a node of the
tree, and any random draws: it returns, and when the returned number is below
`numToPrune`, every node of the tree afterwards that is neither in the subtree
of `preserveNode` nor above `preserveNode` has no children (the subtree at it is
one node); without a `preserveNode` the tree afterwards is one node. -/
theorem Prune_short_only_when_exhausted (fl : GPFunctionLookup) (rt : Int) (h : Heap)
    (T : GPTree) (t : Subtree) (preserveNode : Option Nat) (numToPrune : Int)
    (rnd : Nat → Nat) (pos : Nat) (hwf : fl.WF) (hleaf : LeafContract fl rt)
    (hinv : TreeInv h T t) (hwt : WellTyped fl rt t)
    (hp : ∀ p, preserveNode = some p → p ∈ t.addrs) :
    ∃ (n : Int) (T1 : GPTree) (h1 : Heap) (pos1 : Nat) (t1 : Subtree),
      Prune fl h T numToPrune preserveNode rnd pos = some (n, T1, h1, pos1) ∧
      TreeInv h1 T1 t1 ∧
      (n < numToPrune →
        (∀ y ∈ t1.addrs, y ∉ keepSet t1 preserveNode → (t1.find y).size = 1) ∧
        (preserveNode = none → t1.size = 1 ∧ T1.Count = 1)) := by
  obtain ⟨n, T1, h1, pos1, t1, e, hinv1, hwt1, _, _, hk, _, hshort, _⟩ :=
    Prune_spec hwf hleaf hinv hwt preserveNode hp numToPrune rnd pos
  have hkeep : keepSet t1 preserveNode = keepSet t preserveNode := by
    cases hpn : preserveNode with
    | none => rfl
    | some p =>
      obtain ⟨k1, k2⟩ := hk p hpn
      simp only [keepSet, k1, k2]
  refine ⟨n, T1, h1, pos1, t1, e, hinv1, fun hlt => ⟨?_, fun hnone => ?_⟩⟩
  · rw [hkeep]
    exact hshort hlt
  · have hsz : t1.size = 1 := by
      cases ht1 : t1 with
      | null => rw [ht1] at hwt1; exact absurd hwt1 id
      | node a f c0 c1 c2 =>
        have := hshort hlt a (by rw [ht1]; simp [Subtree.addrs]) (by rw [hnone]; simp [keepSet])
        rw [ht1, Subtree.find_self] at this
        exact this
    refine ⟨hsz, ?_⟩
    simp only [GPTree.Count]
    rw [hinv1.2.2.1, hsz]
    rfl

theorem Prune_short_only_when_exhausted_witness :
    ∃ (n : Int) (T1 : GPTree) (h1 : Heap) (pos1 : Nat) (t1 : Subtree),
      Prune exampleRegistry7 exHeap7 exGPTree7 100 (some 4) (fun n => n) 0 =
        some (n, T1, h1, pos1) ∧
      TreeInv h1 T1 t1 ∧
      (n < 100 →
        (∀ y ∈ t1.addrs, y ∉ keepSet t1 (some 4) → (t1.find y).size = 1) ∧
        ((some 4 : Option Nat) = none → t1.size = 1 ∧ T1.Count = 1)) :=
  Prune_short_only_when_exhausted exampleRegistry7 1 exHeap7 exGPTree7 exTree7 (some 4) 100
    (fun n => n) 0 (by decide) (LeafClosed.contract (S := [1]) (by decide))
    ⟨by decide, by decide, by decide, by decide⟩ (by decide)
    (fun p hp => by cases hp; decide)

end GP

namespace GP

/-! ## CalculatePotentialPrunes -/

theorem potentialParam_spec {h : Heap} {c : Subtree} {par : Option Nat} (hc : IsTree h par c)
    (sub : Nat) :
    potentialParam h sub c.root =
      some (if c.root = some sub then 0 else ((c.size - 1 : Nat) : Int)) := by
  cases hr : c.root with
  | none =>
    rw [Subtree.root_eq_none.mp hr]
    simp [potentialParam, Subtree.size]
  | some r =>
    have hcount := CountSubtree_of_isTree hc hr
    have hpos : 1 ≤ c.size := by
      cases c with
      | null => simp [Subtree.root] at hr
      | node _ _ _ _ _ => simp [Subtree.size]; omega
    by_cases e : r = sub
    · subst e
      simp [potentialParam]
    · have e1 : ¬ (some r = some sub) := fun hc => e (Option.some.inj hc)
      simp only [potentialParam, if_pos e, hcount, if_neg e1]
      congr 1
      omega

/-- One round of the loop of `CalculatePotentialPrunes` at the parent `b` of the
node `sub` on the main line. -/
theorem potentialLoop_step {h : Heap} {b : Nat} {f : Int} {c0 c1 c2 : Subtree}
    {par : Option Nat} (ht : IsTree h par (.node b f c0 c1 c2)) (sub : Nat) (fuel : Nat)
    (acc : Int) :
    potentialLoop h (fuel + 1) acc sub (some b) =
      potentialLoop h fuel
        (acc + (if c0.root = some sub then 0 else ((c0.size - 1 : Nat) : Int)) +
          (if c1.root = some sub then 0 else ((c1.size - 1 : Nat) : Int)) +
          (if c2.root = some sub then 0 else ((c2.size - 1 : Nat) : Int))) b par := by
  obtain ⟨hr, hn⟩ := ht
  obtain ⟨n1, n2, n3, n4, n5, n6, d01, d02, d12⟩ := Subtree.nodup_node.mp hn
  obtain ⟨hc, r0, r1, r2⟩ := hr
  simp only [potentialLoop, hc, potentialParam_spec ⟨r0, n4⟩ sub,
    potentialParam_spec ⟨r1, n5⟩ sub, potentialParam_spec ⟨r2, n6⟩ sub]

/-- The loop of `CalculatePotentialPrunes`, started at a node `p` of the tree `t`
whose root is `r`: when the loop from `r` on adds `v0`, the loop from `p` on adds
what can be pruned in `t` beside the way to `p`, and `v0`. -/
theorem potentialLoop_up {h : Heap} {p : Nat} : ∀ {t : Subtree} {par : Option Nat} {r n : Nat}
    {v0 : Int}, IsTree h par t → t.root = some r → p ∈ t.addrs →
    (∀ fuel acc, n < fuel → potentialLoop h fuel acc r par = some (acc + v0)) →
    ∀ fuel acc, (t.pathTo p).length + n < fuel →
      potentialLoop h fuel acc p (parentOf h p) = some (acc + (t.potential p : Int) + v0) := by
  intro t
  induction t with
  | null => intro _ _ _ _ _ _ hp; simp [Subtree.addrs] at hp
  | node b f c0 c1 c2 ih0 ih1 ih2 =>
    intro par r n v0 ht hroot hp hk fuel acc hfuel
    simp only [Subtree.root, Option.some.injEq] at hroot
    subst hroot
    have ht0 := ht
    obtain ⟨hr, hn⟩ := ht
    obtain ⟨n1, n2, n3, n4, n5, n6, d01, d02, d12⟩ := Subtree.nodup_node.mp hn
    obtain ⟨hc, r0, r1, r2⟩ := hr
    have hpb : parentOf h b = par := by simp [parentOf, hc]
    by_cases eb : b = p
    · subst eb
      simp only [Subtree.pathTo, if_true, List.length_nil, Nat.zero_add] at hfuel
      simp only [Subtree.potential, if_true, Nat.cast_zero, add_zero]
      rw [hpb]
      exact hk fuel acc hfuel
    · rw [Subtree.mem_addrs_node] at hp
      -- the loop from the root of a child on
      have hstep : ∀ (ri : Nat) (fuel : Nat) (acc : Int), n + 1 < fuel →
          potentialLoop h fuel acc ri (some b) =
            some (acc + ((if c0.root = some ri then 0 else ((c0.size - 1 : Nat) : Int)) +
              (if c1.root = some ri then 0 else ((c1.size - 1 : Nat) : Int)) +
              (if c2.root = some ri then 0 else ((c2.size - 1 : Nat) : Int)) + v0)) := by
        intro ri fuel acc hf
        cases fuel with
        | zero => omega
        | succ fuel =>
          rw [potentialLoop_step ht0 ri fuel acc, hk fuel _ (by omega)]
          congr 1
          omega
      have hrootc : ∀ c : Subtree, p ∈ c.addrs → ∃ ri, c.root = some ri ∧ ri ∈ c.addrs := by
        intro c hpc
        cases c with
        | null => simp [Subtree.addrs] at hpc
        | node a _ _ _ _ => exact ⟨a, rfl, by simp [Subtree.addrs]⟩
      have hne : ∀ (c c1 : Subtree) (ri : Nat), c.root = some ri → ri ∉ c1.addrs →
          c1.root ≠ some ri := by
        intro c c1 ri _ hni hc1
        exact hni (Subtree.root_mem_addrs hc1)
      rcases hp with hp | hp | hp | hp
      · exact absurd hp.symm eb
      · obtain ⟨ri, hri, hrim⟩ := hrootc c0 hp
        have q1 : p ∉ c1.addrs := d01 p hp
        have q2 : p ∉ c2.addrs := d02 p hp
        have := ih0 (n := n + 1) ⟨r0, n4⟩ hri hp (hstep ri) fuel acc (by
          simp only [Subtree.pathTo, if_neg eb, if_pos hp, List.length_cons] at hfuel; omega)
        rw [this, if_pos hri, if_neg (hne c0 c1 ri hri (d01 ri hrim)),
          if_neg (hne c0 c2 ri hri (d02 ri hrim))]
        simp only [Subtree.potential, if_neg eb, if_pos hp, if_neg q1, if_neg q2]
        congr 1
        push_cast
        omega
      · obtain ⟨ri, hri, hrim⟩ := hrootc c1 hp
        have q0 : p ∉ c0.addrs := fun hc => d01 p hc hp
        have q2 : p ∉ c2.addrs := d12 p hp
        have := ih1 (n := n + 1) ⟨r1, n5⟩ hri hp (hstep ri) fuel acc (by
          simp only [Subtree.pathTo, if_neg eb, if_neg q0, if_pos hp, List.length_cons] at hfuel
          omega)
        rw [this, if_pos hri, if_neg (hne c1 c0 ri hri (fun hc => d01 ri hc hrim)),
          if_neg (hne c1 c2 ri hri (d12 ri hrim))]
        simp only [Subtree.potential, if_neg eb, if_pos hp, if_neg q0, if_neg q2]
        congr 1
        push_cast
        omega
      · obtain ⟨ri, hri, hrim⟩ := hrootc c2 hp
        have q0 : p ∉ c0.addrs := fun hc => d02 p hc hp
        have q1 : p ∉ c1.addrs := fun hc => d12 p hc hp
        have := ih2 (n := n + 1) ⟨r2, n6⟩ hri hp (hstep ri) fuel acc (by
          simp only [Subtree.pathTo, if_neg eb, if_neg q0, if_neg q1, if_pos hp,
            List.length_cons] at hfuel
          omega)
        rw [this, if_pos hri, if_neg (hne c2 c0 ri hri (fun hc => d02 ri hc hrim)),
          if_neg (hne c2 c1 ri hri (fun hc => d12 ri hc hrim))]
        simp only [Subtree.potential, if_neg eb, if_pos hp, if_neg q0, if_neg q1]
        congr 1
        push_cast
        omega

/-- `CalculatePotentialPrunes` at a node of a proper tree: the size of the subtree
at the node and what can be pruned beside the way to it. -/
theorem CalculatePotentialPrunes_spec {h : Heap} {t : Subtree} (ht : IsTree h none t) {x : Nat}
    (hx : x ∈ t.addrs) :
    CalculatePotentialPrunes h x = some (((t.find x).size : Int) + (t.potential x : Int)) := by
  obtain ⟨r, hr⟩ : ∃ r, t.root = some r := by
    cases t with
    | null => simp [Subtree.addrs] at hx
    | node a _ _ _ _ => exact ⟨a, rfl⟩
  obtain ⟨f, c0, c1, c2, hfind, hcell⟩ := Rep.cell ht.1 hx
  have hloop := @potentialLoop_up h x t none r 0 0 ht hr hx (by
    intro fuel acc hf
    cases fuel with
    | zero => omega
    | succ fuel => simp [potentialLoop]) (h.length + 1) 0 (by
      have := Subtree.length_pathTo_le (p := x) t
      have := ht.size_le
      omega)
  simp only [CalculatePotentialPrunes, CountSubtree_find ht hx, hcell, hloop]
  congr 1
  omega

end GP

namespace GP

/-! ## Prune reaches what CalculatePotentialPrunes promises -/

/-- When every node beside the way to `p` and outside the subtree of `p` has no
children, nothing can be pruned any more. -/
theorem Subtree.potential_eq_zero {p : Nat} : ∀ {t : Subtree}, t.addrs.Nodup → p ∈ t.addrs →
    (∀ y ∈ t.addrs, y ∉ (t.find p).addrs → y ∉ (t.pathTo p).map Prod.fst →
      (t.find y).size = 1) →
    t.potential p = 0 := by
  intro t
  induction t with
  | null => intro _ hp; simp [Subtree.addrs] at hp
  | node b f c0 c1 c2 ih0 ih1 ih2 =>
    intro hn hp hl
    obtain ⟨n1, n2, n3, n4, n5, n6, d01, d02, d12⟩ := Subtree.nodup_node.mp hn
    by_cases eb : b = p
    · simp [Subtree.potential, eb]
    · obtain ⟨f0, f1, f2⟩ := Subtree.find_child hn eb
      -- a child on the way to `p`
      have onWay : ∀ ci : Subtree, ci.addrs.Nodup → p ∈ ci.addrs → b ∉ ci.addrs →
          (∀ z ∈ ci.addrs, z ∈ (Subtree.node b f c0 c1 c2).addrs) →
          (∀ z ∈ ci.addrs, (Subtree.node b f c0 c1 c2).find z = ci.find z) →
          (Subtree.node b f c0 c1 c2).pathTo p = (b, f) :: ci.pathTo p →
          (ci.addrs.Nodup → p ∈ ci.addrs →
            (∀ y ∈ ci.addrs, y ∉ (ci.find p).addrs → y ∉ (ci.pathTo p).map Prod.fst →
              (ci.find y).size = 1) → ci.potential p = 0) →
          ci.potential p = 0 := by
        intro ci hni hpi hbi hin hfi hpath ih
        apply ih hni hpi
        intro y hy hy1 hy2
        rw [← hfi y hy]
        apply hl y (hin y hy)
        · rw [hfi p hpi]; exact hy1
        · rw [hpath]
          simp only [List.map_cons, List.mem_cons, not_or]
          exact ⟨fun e => hbi (e ▸ hy), hy2⟩
      -- a child beside the way to `p`
      have offWay : ∀ ci cj : Subtree, p ∈ ci.addrs → b ∉ cj.addrs →
          (∀ z ∈ cj.addrs, z ∉ ci.addrs) →
          (∀ z ∈ cj.addrs, z ∈ (Subtree.node b f c0 c1 c2).addrs) →
          (∀ z ∈ cj.addrs, (Subtree.node b f c0 c1 c2).find z = cj.find z) →
          (Subtree.node b f c0 c1 c2).find p = ci.find p →
          (Subtree.node b f c0 c1 c2).pathTo p = (b, f) :: ci.pathTo p →
          cj.size - 1 = 0 := by
        intro ci cj hpi hbj hd hin hfj hfi hpath
        cases cj with
        | null => simp [Subtree.size]
        | node r g e0 e1 e2 =>
          have hr : r ∈ (Subtree.node r g e0 e1 e2).addrs := by simp [Subtree.addrs]
          have := hl r (hin r hr) (by
            rw [hfi]
            intro hc
            exact hd r hr ((Subtree.find_addrs_sublist ci).subset hc)) (by
            rw [hpath]
            simp only [List.map_cons, List.mem_cons, not_or]
            exact ⟨fun e => hbj (e ▸ hr), fun hc => hd r hr (Subtree.pathTo_subset hc)⟩)
          rw [hfj r hr, Subtree.find_self] at this
          omega
      have i0 : ∀ z ∈ c0.addrs, z ∈ (Subtree.node b f c0 c1 c2).addrs :=
        fun z hz => Subtree.mem_addrs_node.mpr (Or.inr (Or.inl hz))
      have i1 : ∀ z ∈ c1.addrs, z ∈ (Subtree.node b f c0 c1 c2).addrs :=
        fun z hz => Subtree.mem_addrs_node.mpr (Or.inr (Or.inr (Or.inl hz)))
      have i2 : ∀ z ∈ c2.addrs, z ∈ (Subtree.node b f c0 c1 c2).addrs :=
        fun z hz => Subtree.mem_addrs_node.mpr (Or.inr (Or.inr (Or.inr hz)))
      have g0 : ∀ z ∈ c0.addrs, (Subtree.node b f c0 c1 c2).find z = c0.find z :=
        fun z hz => (Subtree.find_child hn (fun e => n1 (e ▸ hz))).1 hz
      have g1 : ∀ z ∈ c1.addrs, (Subtree.node b f c0 c1 c2).find z = c1.find z :=
        fun z hz => (Subtree.find_child hn (fun e => n2 (e ▸ hz))).2.1 hz
      have g2 : ∀ z ∈ c2.addrs, (Subtree.node b f c0 c1 c2).find z = c2.find z :=
        fun z hz => (Subtree.find_child hn (fun e => n3 (e ▸ hz))).2.2 hz
      rw [Subtree.mem_addrs_node] at hp
      rcases hp with hp | hp | hp | hp
      · exact absurd hp.symm eb
      · have q1 : p ∉ c1.addrs := d01 p hp
        have q2 : p ∉ c2.addrs := d02 p hp
        have hpath : (Subtree.node b f c0 c1 c2).pathTo p = (b, f) :: c0.pathTo p := by
          simp only [Subtree.pathTo, if_neg eb, if_pos hp]
        simp only [Subtree.potential, if_neg eb, if_pos hp, if_neg q1, if_neg q2]
        rw [onWay c0 n4 hp n1 i0 g0 hpath ih0,
          offWay c0 c1 hp n2 (fun z hz hc => d01 z hc hz) i1 g1 (f0 hp) hpath,
          offWay c0 c2 hp n3 (fun z hz hc => d02 z hc hz) i2 g2 (f0 hp) hpath]
      · have q0 : p ∉ c0.addrs := fun hc => d01 p hc hp
        have q2 : p ∉ c2.addrs := d12 p hp
        have hpath : (Subtree.node b f c0 c1 c2).pathTo p = (b, f) :: c1.pathTo p := by
          simp only [Subtree.pathTo, if_neg eb, if_neg q0, if_pos hp]
        simp only [Subtree.potential, if_neg eb, if_pos hp, if_neg q0, if_neg q2]
        rw [onWay c1 n5 hp n2 i1 g1 hpath ih1,
          offWay c1 c0 hp n1 (fun z hz => d01 z hz) i0 g0 (f1 hp) hpath,
          offWay c1 c2 hp n3 (fun z hz hc => d12 z hc hz) i2 g2 (f1 hp) hpath]
      · have q0 : p ∉ c0.addrs := fun hc => d02 p hc hp
        have q1 : p ∉ c1.addrs := fun hc => d12 p hc hp
        have hpath : (Subtree.node b f c0 c1 c2).pathTo p = (b, f) :: c2.pathTo p := by
          simp only [Subtree.pathTo, if_neg eb, if_neg q0, if_neg q1, if_pos hp]
        simp only [Subtree.potential, if_neg eb, if_pos hp, if_neg q0, if_neg q1]
        rw [onWay c2 n6 hp n3 i2 g2 hpath ih2,
          offWay c2 c0 hp n1 (fun z hz => d02 z hz) i0 g0 (f2 hp) hpath,
          offWay c2 c1 hp n2 (fun z hz => d12 z hz) i1 g1 (f2 hp) hpath]

/-- `Prune` with a preserved node prunes as many nodes as it is asked for, when
that is no more than what can be pruned beside the way to the preserved node. -/
theorem Prune_enough {fl : GPFunctionLookup} (hwf : fl.WF) {rt : Int}
    (hleaf : LeafContract fl rt) {h : Heap} {T : GPTree} {t : Subtree} (hinv : TreeInv h T t)
    (hwt : WellTyped fl rt t) {p : Nat} (hp : p ∈ t.addrs) {numToPrune : Int}
    (hnum : numToPrune ≤ (t.potential p : Int)) (rnd : Nat → Nat) (pos : Nat)
    {n : Int} {T1 : GPTree} {h1 : Heap} {pos1 : Nat}
    (e : Prune fl h T numToPrune (some p) rnd pos = some (n, T1, h1, pos1)) :
    numToPrune ≤ n := by
  obtain ⟨n1, T2, h2, pos2, t1, e1, hinv1, _, _, _, hk, _, hshort, hpot, _⟩ :=
    Prune_spec hwf hleaf hinv hwt (some p)
      (fun q hq => by cases hq; exact hp) numToPrune rnd pos
  rw [e] at e1
  simp only [Option.some.injEq, Prod.mk.injEq] at e1
  obtain ⟨rfl, _, _, _⟩ := e1
  by_contra hlt
  obtain ⟨k1, k2⟩ := hk p rfl
  have hp1 : p ∈ t1.addrs := by
    by_contra hne
    have a1 := Subtree.find_of_not_mem hne
    have a2 := Subtree.find_root hp
    rw [← k1, a1] at a2
    simp [Subtree.root] at a2
  have hz := Subtree.potential_eq_zero hinv1.1.2 hp1 (by
    intro y hy hy1 hy2
    apply hshort (by omega) y hy
    simp only [keepSet, List.mem_append, not_or]
    rw [← k1, ← k2]
    exact ⟨hy1, hy2⟩)
  have := hpot p rfl
  rw [hz] at this
  omega

end GP

namespace GP

/-! ## The typed Random of the iterator -/

theorem retType_eq_some {fl : GPFunctionLookup} {h : Heap} {a : Nat} {ty : Int}
    (e : retType fl h a = some ty) :
    ∃ nd d, h[a]? = some nd ∧ fl.GetFunctionByID nd.functionID = some d ∧
      d.m_return_type = ty := by
  unfold retType at e
  cases hc : h[a]? with
  | none => simp [hc] at e
  | some nd =>
    simp only [hc] at e
    cases hd : fl.GetFunctionByID nd.functionID with
    | none => simp [hd] at e
    | some d =>
      simp only [hd, Option.map_some', Option.some.injEq] at e
      exact ⟨nd, d, rfl, hd, e⟩

/-- The return type of a node of a well-formed tree in the heap. -/
theorem retType_of_wellTyped {fl : GPFunctionLookup} {h : Heap} {t : Subtree}
    {par : Option Nat} {rt : Int} (hr : Rep h par t) (hwt : WellTyped fl rt t) {x : Nat}
    (hx : x ∈ t.addrs) :
    ∃ ty, retType fl h x = some ty ∧ WellTyped fl ty (t.find x) ∧ Reachable fl rt ty := by
  obtain ⟨f, c0, c1, c2, hfind, hcell⟩ := Rep.cell hr hx
  obtain ⟨ty, hwx, hreach⟩ := hwt.find_typed hx
  refine ⟨ty, ?_, hwx, hreach⟩
  rw [hfind] at hwx
  obtain ⟨d, hd, _, _, hdr, _⟩ := WellTyped.node_iff.mp hwx
  simp [retType, hcell, hd, hdr]

/-- One round of the loop of the typed `Random`. -/
theorem typedRandomLoop_succ {fl : GPFunctionLookup} {h : Heap} {it : GPConstSubtreeIter}
    {L : List Nat} (hl : Live it L) {c : Nat} (hc : c < L.length) {ty1 : Int}
    (hty : retType fl h L[c] = some ty1) (ty : Int) (start : Int) (fuel : Nat) :
    typedRandomLoop fl h it ty true start (fuel + 1) (c : Int) =
      if ty1 = ty then some (c : Int)
      else
        if (if Int.tmod ((c : Int) + 1) (L.length : Int) = 0 then
              Int.tmod (Int.tmod ((c : Int) + 1) (L.length : Int) + 1) (L.length : Int)
            else Int.tmod ((c : Int) + 1) (L.length : Int)) ≠ start then
          typedRandomLoop fl h it ty true start fuel
            (if Int.tmod ((c : Int) + 1) (L.length : Int) = 0 then
              Int.tmod (Int.tmod ((c : Int) + 1) (L.length : Int) + 1) (L.length : Int)
            else Int.tmod ((c : Int) + 1) (L.length : Int))
        else some INVALID_INDEX := by
  obtain ⟨nd, d, hcell, hd, hdr⟩ := retType_eq_some hty
  rw [typedRandomLoop, hl.getNode hc]
  dsimp only
  rw [hcell]
  dsimp only
  rw [hd]
  dsimp only
  rw [hdr, hl.1]
  simp only [true_and]

/-- The loop of the typed `Random` on an iterator with at least two nodes: it
goes through the indices `1 .. m_count - 1`, from the start index on and around,
and returns the first one with the return type, or `INVALID_INDEX` when there is
none. -/
theorem typedRandomLoop_spec {fl : GPFunctionLookup} {h : Heap} {it : GPConstSubtreeIter}
    {L : List Nat} (hl : Live it L) (hty : ∀ y ∈ L, (retType fl h y).isSome) (ty : Int)
    (start : Nat) (hs1 : 1 ≤ start) (hs2 : start < L.length) :
    ∀ (fuel c : Nat), 1 ≤ c → c < L.length →
      (if start ≤ c then L.length - c + (start - 1) else start - c) ≤ fuel →
      (∀ (j y : Nat), L[j]? = some y →
        ((start ≤ c ∧ start ≤ j ∧ j < c) ∨ (c < start ∧ (start ≤ j ∨ (1 ≤ j ∧ j < c)))) →
        retType fl h y ≠ some ty) →
      ∃ r, typedRandomLoop fl h it ty true (start : Int) fuel (c : Int) = some r ∧
        ((r = INVALID_INDEX ∧
            ∀ (j y : Nat), L[j]? = some y → 1 ≤ j → retType fl h y ≠ some ty) ∨
          (∃ (j y : Nat), r = (j : Int) ∧ L[j]? = some y ∧ 1 ≤ j ∧
            retType fl h y = some ty)) := by
  intro fuel
  induction fuel with
  | zero =>
    intro c hc1 hc2 hrem _
    split at hrem <;> omega
  | succ fuel ih =>
    intro c hc1 hc2 hrem hvis
    obtain ⟨ty1, hty1⟩ := Option.isSome_iff_exists.mp (hty L[c] (List.getElem_mem _))
    rw [typedRandomLoop_succ hl hc2 hty1]
    by_cases e : ty1 = ty
    · rw [if_pos e]
      exact ⟨_, rfl, Or.inr ⟨c, L[c], rfl, List.getElem?_eq_getElem hc2, hc1, e ▸ hty1⟩⟩
    · rw [if_neg e]
      have hcne : retType fl h L[c] ≠ some ty := by
        rw [hty1]
        intro hc
        exact e (Option.some.inj hc)
      have hjlt : ∀ j y, L[j]? = some y → j < L.length := by
        intro j y hj
        by_contra hge
        rw [List.getElem?_eq_none (by omega)] at hj
        cases hj
      have hjc : ∀ y, L[c]? = some y → retType fl h y ≠ some ty := by
        intro y hy
        rw [List.getElem?_eq_getElem hc2] at hy
        cases hy
        exact hcne
      have hmod : Int.tmod ((c : Int) + 1) (L.length : Int) = (((c + 1) % L.length : Nat) : Int) := by
        rw [Int.ofNat_tmod]
        rfl
      by_cases hlast : c + 1 < L.length
      · have hnext : (if Int.tmod ((c : Int) + 1) (L.length : Int) = 0 then
              Int.tmod (Int.tmod ((c : Int) + 1) (L.length : Int) + 1) (L.length : Int)
            else Int.tmod ((c : Int) + 1) (L.length : Int)) = ((c + 1 : Nat) : Int) := by
          rw [hmod, Nat.mod_eq_of_lt hlast, if_neg (by omega)]
        rw [hnext]
        by_cases hst : c + 1 = start
        · rw [if_neg (by rw [hst]; simp)]
          refine ⟨_, rfl, Or.inl ⟨rfl, ?_⟩⟩
          intro j y hj hj1
          have := hjlt j y hj
          by_cases hjc' : j = c
          · subst hjc'; exact hjc y hj
          · exact hvis j y hj (by omega)
        · rw [if_pos (by intro hc; exact hst (by exact_mod_cast hc))]
          apply ih (c + 1) (by omega) hlast
          · split at hrem <;> split <;> omega
          · intro j y hj hv
            by_cases hjc' : j = c
            · subst hjc'; exact hjc y hj
            · exact hvis j y hj (by omega)
      · have hceq : c + 1 = L.length := by omega
        have hnext : (if Int.tmod ((c : Int) + 1) (L.length : Int) = 0 then
              Int.tmod (Int.tmod ((c : Int) + 1) (L.length : Int) + 1) (L.length : Int)
            else Int.tmod ((c : Int) + 1) (L.length : Int)) = ((1 : Nat) : Int) := by
          rw [hmod, hceq, Nat.mod_self, if_pos (by simp)]
          have : ((0 : Nat) : Int) + 1 = ((1 : Nat) : Int) := by simp
          rw [this, ← Int.ofNat_tmod, Nat.mod_eq_of_lt (by omega)]
        rw [hnext]
        by_cases hst : start = 1
        · rw [if_neg (by rw [hst]; simp)]
          refine ⟨_, rfl, Or.inl ⟨rfl, ?_⟩⟩
          intro j y hj hj1
          have := hjlt j y hj
          by_cases hjc' : j = c
          · subst hjc'; exact hjc y hj
          · exact hvis j y hj (by omega)
        · rw [if_pos (by intro hc; exact hst (by exact_mod_cast hc.symm))]
          apply ih 1 (le_refl 1) (by omega)
          · split at hrem <;> split <;> omega
          · intro j y hj hv
            have := hjlt j y hj
            by_cases hjc' : j = c
            · subst hjc'; exact hjc y hj
            · exact hvis j y hj (by omega)

/-- The typed `Random` with `prefer_nonroot`: it returns an index other than 0
whose node has the return type, or `INVALID_INDEX` when no index other than 0 has
such a node; index 0 is looked at only when it is the only one. -/
theorem RandomTyped_spec {fl : GPFunctionLookup} {h : Heap} {it : GPConstSubtreeIter}
    {L : List Nat} (hl : Live it L) (h0 : L ≠ []) (hty : ∀ y ∈ L, (retType fl h y).isSome)
    (ty : Int) (rnd : Nat → Nat) (pos : Nat) :
    ∃ r pos1, it.RandomTyped fl h ty true rnd pos = some (r, pos1) ∧
      ((r = INVALID_INDEX ∧
          ∀ (j y : Nat), L[j]? = some y → (1 ≤ j ∨ L.length = 1) →
            retType fl h y ≠ some ty) ∨
        (∃ (j y : Nat), r = (j : Int) ∧ L[j]? = some y ∧ (1 ≤ j ∨ L.length = 1) ∧
          retType fl h y = some ty)) := by
  have hlen : 0 < L.length := List.length_pos.mpr h0
  unfold GPConstSubtreeIter.RandomTyped
  rw [hl.1, if_neg (by omega)]
  dsimp only
  by_cases h1 : L.length = 1
  · -- the root is the only node
    have hc1 : ((L.length : Nat) : Int) = 1 := by rw [h1]; rfl
    rw [if_pos hc1]
    dsimp only
    have hfuel : ((L.length : Nat) : Int).toNat + 1 = 1 + 1 := by rw [h1]; rfl
    rw [hfuel]
    obtain ⟨ty1, hty1⟩ := Option.isSome_iff_exists.mp (hty L[0] (List.getElem_mem _))
    have hstep := typedRandomLoop_succ hl hlen hty1 ty 0 1
    simp only [Nat.cast_zero] at hstep
    rw [hstep]
    have hj0 : ∀ j y, L[j]? = some y → j = 0 ∧ y = L[0] := by
      intro j y hj
      have hjl : j < L.length := by
        by_contra hge
        rw [List.getElem?_eq_none (by omega)] at hj
        cases hj
      have hj0 : j = 0 := by omega
      subst hj0
      rw [List.getElem?_eq_getElem hlen] at hj
      cases hj
      exact ⟨rfl, rfl⟩
    by_cases e : ty1 = ty
    · rw [if_pos e]
      exact ⟨_, _, rfl, Or.inr ⟨0, L[0], rfl, List.getElem?_eq_getElem hlen, Or.inr h1,
        e ▸ hty1⟩⟩
    · rw [if_neg e, h1]
      simp only [Nat.cast_one, zero_add, Int.tmod_self, if_true, ne_eq, not_true_eq_false,
        if_false]
      refine ⟨_, _, rfl, Or.inl ⟨rfl, ?_⟩⟩
      intro j y hj _
      obtain ⟨_, rfl⟩ := hj0 j y hj
      rw [hty1]
      intro hc
      exact e (Option.some.inj hc)
  · -- there are other nodes
    have hc1 : ¬ (((L.length : Nat) : Int) = 1) := by omega
    rw [if_neg hc1]
    dsimp only
    have hstart : (1 : Int) + Int.tmod (rnd pos : Int) ((L.length : Int) - 1) =
        ((1 + rnd pos % (L.length - 1) : Nat) : Int) := by
      have e : ((L.length : Int) - 1) = ((L.length - 1 : Nat) : Int) := by omega
      rw [e, ← Int.ofNat_tmod]
      simp only [Nat.cast_add, Nat.cast_one]
    simp only [if_true]
    rw [hstart]
    have hm : rnd pos % (L.length - 1) < L.length - 1 := Nat.mod_lt _ (by omega)
    obtain ⟨r, er, hr⟩ := typedRandomLoop_spec hl hty ty
      (1 + rnd pos % (L.length - 1)) (Nat.le_add_right 1 _) (by omega)
      (((L.length : Nat) : Int).toNat + 1) (1 + rnd pos % (L.length - 1))
      (Nat.le_add_right 1 _) (by omega) (by
        rw [if_pos (le_refl _), Int.toNat_ofNat]
        omega) (by
        intro j y _ hv
        omega)
    rw [er]
    refine ⟨_, _, rfl, ?_⟩
    rcases hr with ⟨hr1, hr2⟩ | ⟨j, y, hr1, hr2, hr3, hr4⟩
    · refine Or.inl ⟨hr1, fun j y hj hj1 => hr2 j y hj ?_⟩
      rcases hj1 with hj1 | hj1
      · exact hj1
      · exact absurd hj1 h1
    · exact Or.inr ⟨j, y, hr1, hr2, Or.inl hr3, hr4⟩

end GP

namespace GP

/-! ## CrossOver: the search for a pair of nodes -/

theorem Compatible_iff {fl : GPFunctionLookup} {h : Heap} {A B : GPTree} {tA tB : Subtree}
    {rtA : Int} (hA : TreeInv h A tA) (wA : WellTyped fl rtA tA) (hB : TreeInv h B tB)
    {s y : Nat} (hs : s ∈ tA.addrs) (hy : y ∈ tB.addrs) :
    Compatible fl h A B s y ↔
      retType fl h s = retType fl h y ∧
      ((tA.find s).size : Int) ≤
        ((tB.find y).size : Int) + (tB.potential y : Int) + (B.MaxNodes - B.Count) ∧
      ((tB.find y).size : Int) ≤
        ((tA.find s).size : Int) + (tA.potential s : Int) + (A.MaxNodes - A.Count) := by
  obtain ⟨ty, hty, _, _⟩ := retType_of_wellTyped hA.1.1 wA hs
  unfold Compatible
  rw [CountSubtree_find hA.1 hs, CountSubtree_find hB.1 hy,
    CalculatePotentialPrunes_spec hA.1 hs, CalculatePotentialPrunes_spec hB.1 hy, hty]
  simp only [Option.isSome_some, true_and, fitsBoth]

theorem mem_swapRemove {L : List Nat} (hn : L.Nodup) {i : Nat} (hi : i < L.length) (y : Nat) :
    y ∈ swapRemove L i ↔ y ∈ L ∧ y ≠ L[i] := by
  rw [(swapRemove_perm hi).mem_iff, eraseIdx_perm_filter hn hi, List.mem_filter]
  simp

theorem nodup_swapRemove {L : List Nat} (hn : L.Nodup) {i : Nat} (hi : i < L.length) :
    (swapRemove L i).Nodup := by
  rw [(swapRemove_perm hi).nodup_iff, eraseIdx_perm_filter hn hi]
  exact hn.filter _

/-- The inner loop of `CrossOver` for the source node `s`: it ends; when it selects
a target node, the pair is compatible and the two numbers of nodes to prune are
the two deficits; when it selects none, no node of the target tree other than
the root is compatible with `s`, and the root is not either when it is the only
node. -/
theorem crossTargetLoop_spec {fl : GPFunctionLookup} {h : Heap} {A B : GPTree}
    {tA tB : Subtree} {rtA rtB : Int} (hA : TreeInv h A tA) (wA : WellTyped fl rtA tA)
    (hB : TreeInv h B tB) (wB : WellTyped fl rtB tB) {s : Nat} (hs : s ∈ tA.addrs)
    (rnd : Nat → Nat) :
    ∀ (fuel : Nat) (it : GPConstSubtreeIter) (L : List Nat) (pos : Nat), Live it L → L.Nodup →
      (∀ y ∈ L, y ∈ tB.addrs) → (L ≠ [] → L[0]? = tB.root) →
      (∀ y ∈ tB.addrs, y ∉ L → ¬ Compatible fl h A B s y) → L.length < fuel →
      ∃ res pos1,
        crossTargetLoop fl h s ((tA.find s).size : Int)
          (((tA.find s).size : Int) + (tA.potential s : Int) + (A.MaxNodes - A.Count))
          (A.MaxNodes - A.Count) (B.MaxNodes - B.Count) rnd fuel it pos = some (res, pos1) ∧
        (res = none → ∀ y ∈ tB.addrs, (tB.root ≠ some y ∨ tB.size = 1) →
          ¬ Compatible fl h A B s y) ∧
        (∀ sel, res = some sel →
          sel.selected_src_node = s ∧ sel.selected_target_node ∈ tB.addrs ∧
          Compatible fl h A B s sel.selected_target_node ∧
          sel.src_nodes_to_prune = ((tB.find sel.selected_target_node).size : Int) -
            ((tA.find s).size : Int) - (A.MaxNodes - A.Count) ∧
          sel.target_nodes_to_prune = ((tA.find s).size : Int) -
            ((tB.find sel.selected_target_node).size : Int) - (B.MaxNodes - B.Count)) := by
  obtain ⟨tyS, htyS, _, _⟩ := retType_of_wellTyped hA.1.1 wA hs
  obtain ⟨snd, sd, hscell, hsd, hsdr⟩ := retType_eq_some htyS
  intro fuel
  induction fuel with
  | zero => intro _ _ _ _ _ _ _ _ hf; omega
  | succ fuel ih =>
    intro it L pos hl hn hsub hhead hinc hf
    by_cases hcnt : it.Count ≠ 0
    swap
    · have hL : L = [] := by
        have h1 := hl.1
        simp only [GPConstSubtreeIter.Count, ne_eq, not_not] at hcnt
        rw [hcnt] at h1
        exact List.length_eq_zero.mp (by omega)
      refine ⟨none, pos, ?_, ?_, fun sel hsel => by cases hsel⟩
      · rw [crossTargetLoop, if_neg hcnt]
      · intro _ y hy _
        exact hinc y hy (by rw [hL]; simp)
    · have hLne : L ≠ [] := by
        intro e
        apply hcnt
        have := hl.1
        rw [e] at this
        simpa [GPConstSubtreeIter.Count] using this
      have hty : ∀ y ∈ L, (retType fl h y).isSome := by
        intro y hy
        obtain ⟨ty, e, _⟩ := retType_of_wellTyped hB.1.1 wB (hsub y hy)
        rw [e]; rfl
      obtain ⟨r, pos1, eR, hr⟩ := RandomTyped_spec hl hLne hty tyS rnd pos
      have hjlt : ∀ (j y : Nat), L[j]? = some y → j < L.length := by
        intro j y hj
        by_contra hge
        rw [List.getElem?_eq_none (by omega)] at hj
        cases hj
      rcases hr with ⟨hr1, hr2⟩ | ⟨j, y, hr1, hr2, hr3, hr4⟩
      · -- no node with the return type
        refine ⟨none, pos1, ?_, ?_, fun sel hsel => by cases hsel⟩
        · rw [crossTargetLoop, if_pos hcnt, hscell]
          dsimp only
          rw [hsd]
          dsimp only
          rw [hsdr, eR]
          dsimp only
          rw [if_neg (by rw [hr1]; simp)]
        · intro _ y hy hroot
          by_cases hyL : y ∈ L
          · obtain ⟨j, hj, hjy⟩ := List.getElem_of_mem hyL
            have hjy1 : L[j]? = some y := by rw [List.getElem?_eq_getElem hj, hjy]
            have hne : retType fl h y ≠ some tyS := by
              apply hr2 j y hjy1
              by_cases hj0 : 1 ≤ j
              · exact Or.inl hj0
              · right
                have hj00 : j = 0 := by omega
                subst hj00
                have hh := hhead hLne
                rw [hjy1] at hh
                rcases hroot with hroot | hroot
                · exact absurd hh.symm hroot
                · have hle : L.length ≤ tB.size := by
                    rw [← tB.length_addrs]
                    exact (List.subperm_of_subset hn hsub).length_le
                  omega
            intro hc
            have := ((Compatible_iff hA wA hB hs hy).mp hc).1
            rw [htyS] at this
            exact hne this.symm
          · exact hinc y hy hyL
      · -- a node with the return type
        have hj := hjlt j y hr2
        have hyL : y = L[j] := by
          rw [List.getElem?_eq_getElem hj] at hr2
          exact (Option.some.inj hr2).symm
        have hymem : y ∈ tB.addrs := hsub y (by rw [hyL]; exact List.getElem_mem _)
        have hget := hl.getNode hj
        rw [← hyL] at hget
        have hcomp := Compatible_iff hA wA hB hs hymem
        by_cases hfit : ((tA.find s).size : Int) ≤
              ((tB.find y).size : Int) + (tB.potential y : Int) + (B.MaxNodes - B.Count) ∧
            ((tB.find y).size : Int) ≤
              ((tA.find s).size : Int) + (tA.potential s : Int) + (A.MaxNodes - A.Count)
        · refine ⟨some ⟨s, y, ((tB.find y).size : Int) - ((tA.find s).size : Int) -
              (A.MaxNodes - A.Count), ((tA.find s).size : Int) - ((tB.find y).size : Int) -
              (B.MaxNodes - B.Count)⟩, pos1, ?_, (fun hc => by cases hc), ?_⟩
          · rw [crossTargetLoop, if_pos hcnt, hscell]
            dsimp only
            rw [hsd]
            dsimp only
            rw [hsdr, eR]
            dsimp only
            rw [if_pos (by rw [hr1, INVALID_INDEX]; omega), hr1, hget]
            dsimp only
            rw [CalculatePotentialPrunes_spec hB.1 hymem, CountSubtree_find hB.1 hymem]
            dsimp only
            rw [if_pos (by simp [hfit.1, hfit.2])]
          · intro sel hsel
            cases hsel
            exact ⟨rfl, hymem, hcomp.mpr ⟨by rw [htyS, hr4], hfit⟩, rfl, rfl⟩
        · obtain ⟨it1, eign, hl1⟩ := IgnoreNode_spec hl hj
          obtain ⟨res, pos2, erec, hnone, hsome⟩ := ih it1 (swapRemove L j) pos1 hl1
            (nodup_swapRemove hn hj)
            (fun z hz => hsub z ((mem_swapRemove hn hj z).mp hz).1)
            (by
              intro hne1
              rcases hr3 with hr3 | hr3
              · rw [swapRemove_head hr3 hj]
                exact hhead hLne
              · exfalso
                apply hne1
                apply List.length_eq_zero.mp
                rw [swapRemove_length]
                omega)
            (by
              intro z hz hzL
              by_cases hzL0 : z ∈ L
              · have hzy : z = y := by
                  by_contra hne1
                  exact hzL ((mem_swapRemove hn hj z).mpr ⟨hzL0, by rw [← hyL]; exact hne1⟩)
                subst hzy
                intro hc
                exact hfit (hcomp.mp hc).2
              · exact hinc z hz hzL0)
            (by rw [swapRemove_length]; omega)
          refine ⟨res, pos2, ?_, hnone, hsome⟩
          rw [crossTargetLoop, if_pos hcnt, hscell]
          dsimp only
          rw [hsd]
          dsimp only
          rw [hsdr, eR]
          dsimp only
          rw [if_pos (by rw [hr1, INVALID_INDEX]; omega), hr1, hget]
          dsimp only
          rw [CalculatePotentialPrunes_spec hB.1 hymem, CountSubtree_find hB.1 hymem]
          dsimp only
          rw [if_neg (by
            simp only [Bool.and_eq_true, decide_eq_true_eq]
            exact hfit), eign]
          exact erec

end GP

namespace GP

theorem TreeInv.root_some {fl : GPFunctionLookup} {h : Heap} {T : GPTree} {t : Subtree}
    {rt : Int} (hinv : TreeInv h T t) (hwt : WellTyped fl rt t) :
    ∃ a, T.m_root = some a ∧ t.root = some a := by
  cases t with
  | null => exact absurd hwt id
  | node a _ _ _ _ => exact ⟨a, hinv.2.1 ▸ rfl, rfl⟩

/-- The outer loop of `CrossOver`: it ends; when it selects a pair, the pair is
compatible and the two numbers of nodes to prune are the two deficits; when it
selects none, no node of the source tree has a compatible node in the target tree
other than the root of the target tree (which counts when it is the only node). -/
theorem crossSourceLoop_spec {fl : GPFunctionLookup} {h : Heap} {A B : GPTree}
    {tA tB : Subtree} {rtA rtB : Int} (hA : TreeInv h A tA) (wA : WellTyped fl rtA tA)
    (hB : TreeInv h B tB) (wB : WellTyped fl rtB tB) (rnd : Nat → Nat) :
    ∀ (fuel : Nat) (it : GPConstSubtreeIter) (L : List Nat) (pos : Nat), Live it L → L.Nodup →
      (∀ s ∈ L, s ∈ tA.addrs) →
      (∀ s ∈ tA.addrs, s ∉ L → ∀ y ∈ tB.addrs, (tB.root ≠ some y ∨ tB.size = 1) →
        ¬ Compatible fl h A B s y) →
      L.length < fuel →
      ∃ res pos1,
        crossSourceLoop fl h B (A.MaxNodes - A.Count) (B.MaxNodes - B.Count) rnd fuel it pos =
          some (res, pos1) ∧
        (res = none → ∀ s ∈ tA.addrs, ∀ y ∈ tB.addrs, (tB.root ≠ some y ∨ tB.size = 1) →
          ¬ Compatible fl h A B s y) ∧
        (∀ sel, res = some sel →
          sel.selected_src_node ∈ tA.addrs ∧ sel.selected_target_node ∈ tB.addrs ∧
          Compatible fl h A B sel.selected_src_node sel.selected_target_node ∧
          sel.src_nodes_to_prune = ((tB.find sel.selected_target_node).size : Int) -
            ((tA.find sel.selected_src_node).size : Int) - (A.MaxNodes - A.Count) ∧
          sel.target_nodes_to_prune = ((tA.find sel.selected_src_node).size : Int) -
            ((tB.find sel.selected_target_node).size : Int) - (B.MaxNodes - B.Count)) := by
  obtain ⟨rB, hTB, hrB⟩ := hB.root_some wB
  obtain ⟨eitB, hliveB⟩ := ofTree_spec hB hTB
  intro fuel
  induction fuel with
  | zero => intro _ _ _ _ _ _ _ hf; omega
  | succ fuel ih =>
    intro it L pos hl hn hsub hinc hf
    by_cases hcnt : it.Count ≠ 0
    swap
    · have hL : L = [] := by
        have h1 := hl.1
        simp only [GPConstSubtreeIter.Count, ne_eq, not_not] at hcnt
        rw [hcnt] at h1
        exact List.length_eq_zero.mp (by omega)
      refine ⟨none, pos, ?_, ?_, fun sel hsel => by cases hsel⟩
      · rw [crossSourceLoop, if_neg hcnt]
      · intro _ s hs
        exact hinc s hs (by rw [hL]; simp)
    · have hLne : L ≠ [] := by
        intro e
        apply hcnt
        have := hl.1
        rw [e] at this
        simpa [GPConstSubtreeIter.Count] using this
      obtain ⟨i, pos1, eR, hi, _, _⟩ := Random_spec hl hLne rnd pos
      obtain ⟨s, hsdef⟩ : ∃ s, s = L[i] := ⟨_, rfl⟩
      have hsL : s ∈ L := by rw [hsdef]; exact List.getElem_mem _
      have hs := hsub s hsL
      have hget := hl.getNode hi
      rw [← hsdef] at hget
      obtain ⟨res, pos2, etl, hnone, hsome⟩ := crossTargetLoop_spec hA wA hB wB hs rnd
        ((B.Count).toNat + 1) ⟨tB.levelOrder.map some, B.Count⟩ tB.levelOrder pos1 hliveB
        (Subtree.levelOrder_nodup hB.1.2) (fun y hy => tB.levelOrder_perm.subset hy)
        (fun _ => by rw [Subtree.levelOrder_zero hrB, hrB])
        (fun y hy hyL => absurd (tB.levelOrder_perm.symm.subset hy) hyL)
        (by
          have := hliveB.1
          simp only [GPTree.Count] at this ⊢
          rw [this]
          simp)
      obtain ⟨it1, eign, hl1⟩ := IgnoreNode_spec hl hi
      cases res with
      | some sel =>
        refine ⟨some sel, pos2, ?_, (fun hc => by cases hc), ?_⟩
        · rw [crossSourceLoop, if_pos hcnt, eR]
          dsimp only
          rw [hget]
          dsimp only
          rw [CalculatePotentialPrunes_spec hA.1 hs, CountSubtree_find hA.1 hs, eitB]
          dsimp only
          rw [etl]
          dsimp only
          rw [eign]
        · intro sel1 hsel1
          cases hsel1
          obtain ⟨a1, a2, a3, a4, a5⟩ := hsome sel rfl
          rw [a1]
          exact ⟨hs, a2, a3, a4, a5⟩
      | none =>
        obtain ⟨res1, pos3, erec, hnone1, hsome1⟩ := ih it1 (swapRemove L i) pos2 hl1
          (nodup_swapRemove hn hi) (fun z hz => hsub z ((mem_swapRemove hn hi z).mp hz).1)
          (by
            intro z hz hzL
            by_cases hzL0 : z ∈ L
            · have hzs : z = s := by
                by_contra hne1
                exact hzL ((mem_swapRemove hn hi z).mpr ⟨hzL0, by rw [← hsdef]; exact hne1⟩)
              subst hzs
              exact hnone rfl
            · exact hinc z hz hzL0)
          (by rw [swapRemove_length]; omega)
        refine ⟨res1, pos3, ?_, hnone1, hsome1⟩
        rw [crossSourceLoop, if_pos hcnt, eR]
        dsimp only
        rw [hget]
        dsimp only
        rw [CalculatePotentialPrunes_spec hA.1 hs, CountSubtree_find hA.1 hs, eitB]
        dsimp only
        rw [etl]
        dsimp only
        rw [eign]
        exact erec

/-- The search of `CrossOver` for a pair of nodes. -/
theorem crossSelect_spec {fl : GPFunctionLookup} {h : Heap} {A B : GPTree}
    {tA tB : Subtree} {rtA rtB : Int} (hA : TreeInv h A tA) (wA : WellTyped fl rtA tA)
    (hB : TreeInv h B tB) (wB : WellTyped fl rtB tB) (rnd : Nat → Nat) (pos : Nat) :
    ∃ res pos1, crossSelect fl h A B rnd pos = some (res, pos1) ∧
      (res = none → ∀ s ∈ tA.addrs, ∀ y ∈ tB.addrs, (tB.root ≠ some y ∨ tB.size = 1) →
        ¬ Compatible fl h A B s y) ∧
      (∀ sel, res = some sel →
        sel.selected_src_node ∈ tA.addrs ∧ sel.selected_target_node ∈ tB.addrs ∧
        Compatible fl h A B sel.selected_src_node sel.selected_target_node ∧
        sel.src_nodes_to_prune = ((tB.find sel.selected_target_node).size : Int) -
          ((tA.find sel.selected_src_node).size : Int) - (A.MaxNodes - A.Count) ∧
        sel.target_nodes_to_prune = ((tA.find sel.selected_src_node).size : Int) -
          ((tB.find sel.selected_target_node).size : Int) - (B.MaxNodes - B.Count)) := by
  obtain ⟨rA, hTA, hrA⟩ := hA.root_some wA
  obtain ⟨eitA, hliveA⟩ := ofTree_spec hA hTA
  obtain ⟨res, pos1, e, h1, h2⟩ := crossSourceLoop_spec hA wA hB wB rnd ((A.Count).toNat + 1)
    ⟨tA.levelOrder.map some, A.Count⟩ tA.levelOrder pos hliveA
    (Subtree.levelOrder_nodup hA.1.2) (fun y hy => tA.levelOrder_perm.subset hy)
    (fun s hs hsL => absurd (tA.levelOrder_perm.symm.subset hs) hsL)
    (by
      have := hliveA.1
      simp only [GPTree.Count] at this ⊢
      rw [this]
      simp)
  refine ⟨res, pos1, ?_, h1, h2⟩
  unfold crossSelect
  rw [eitA]
  exact e

end GP

namespace GP

/-! ## CrossOver: pruning and the exchange -/

/-- One guarded call of `Prune` in `CrossOver`, when the number of nodes to prune
is no more than what can be pruned beside the way to the selected node: the
`assert` holds. -/
theorem pruneAsserted_spec {fl : GPFunctionLookup} (hwf : fl.WF) {rt : Int}
    (hleaf : LeafContract fl rt) {h : Heap} {T : GPTree} {t : Subtree} (hinv : TreeInv h T t)
    (hwt : WellTyped fl rt t) {p : Nat} (hp : p ∈ t.addrs) (numToPrune : Int)
    (hnum : numToPrune ≤ (t.potential p : Int)) (rnd : Nat → Nat) (pos : Nat) :
    ∃ (n : Int) (T1 : GPTree) (h1 : Heap) (pos1 : Nat) (t1 : Subtree),
      pruneAsserted fl h T numToPrune p rnd pos = some (n, T1, h1, pos1) ∧
      TreeInv h1 T1 t1 ∧ WellTyped fl rt t1 ∧ n = (t.size : Int) - (t1.size : Int) ∧
      T1.m_max_nodes = T.m_max_nodes ∧ t1.find p = t.find p ∧ t1.pathTo p = t.pathTo p ∧
      p ∈ t1.addrs ∧ numToPrune ≤ n ∧ 0 ≤ n ∧ (numToPrune ≤ 0 → n = 0) ∧
      (0 < numToPrune → Prune fl h T numToPrune (some p) rnd pos = some (n, T1, h1, pos1)) ∧
      (∀ y ∈ t1.addrs, y ∈ t.addrs ∨ h.length ≤ y) ∧
      (∀ a : Nat, a < h.length → a ∉ t.addrs → h1[a]? = h[a]?) ∧ h.length ≤ h1.length := by
  by_cases hpos : numToPrune > 0
  · obtain ⟨n, T1, h1, pos1, t1, e, hinv1, hwt1, hn, hmax, hk, _, _, _, hold, hframe, hgrow⟩ :=
      Prune_spec hwf hleaf hinv hwt (some p)
        (fun q hq => by cases hq; exact hp) numToPrune rnd pos
    have hge := Prune_enough hwf hleaf hinv hwt hp hnum rnd pos e
    obtain ⟨k1, k2⟩ := hk p rfl
    have hp1 : p ∈ t1.addrs := by
      by_contra hne
      have a1 := Subtree.find_of_not_mem hne
      have a2 := Subtree.find_root hp
      rw [← k1, a1] at a2
      simp [Subtree.root] at a2
    refine ⟨n, T1, h1, pos1, t1, ?_, hinv1, hwt1, hn, hmax, k1, k2, hp1, hge, by omega,
      fun hle => by omega, fun _ => e, hold, hframe, hgrow⟩
    unfold pruneAsserted
    rw [if_pos hpos, e]
    dsimp only
    rw [if_pos hge]
  · refine ⟨0, T, h, pos, t, ?_, hinv, hwt, by omega, rfl, rfl, rfl, hp, by omega, le_refl _,
      fun _ => rfl, fun hc => absurd hc hpos, fun y hy => Or.inl hy, fun _ _ _ => rfl,
      le_refl _⟩
    unfold pruneAsserted
    rw [if_neg hpos]

theorem Subtree.root_copyAt_some {t : Subtree} {a : Nat} (hr : t.root = some a) (b : Nat) :
    (t.copyAt b).root = some b := by
  rw [Subtree.root_copyAt, hr]; rfl

/-- The exchange of `CrossOver`, with the cells that it leaves alone: the cells of
the old heap outside the two trees are not written to. -/
theorem crossSwap_full {h : Heap} {A B : GPTree} {tA tB : Subtree} (hA : TreeInv h A tA)
    (hB : TreeInv h B tB) (hdisj : ∀ z ∈ tA.addrs, z ∉ tB.addrs) {sel : CrossSelection}
    (hs : sel.selected_src_node ∈ tA.addrs) (hy : sel.selected_target_node ∈ tB.addrs)
    (hfitA : A.m_count - ((tA.find sel.selected_src_node).size : Int) +
      ((tB.find sel.selected_target_node).size : Int) ≤ A.m_max_nodes)
    (hfitB : B.m_count - ((tB.find sel.selected_target_node).size : Int) +
      ((tA.find sel.selected_src_node).size : Int) ≤ B.m_max_nodes) :
    ∃ A1 B1 h1, crossSwap h A B sel = some (A1, B1, h1) ∧
      TreeInv h1 A1 (tA.subst sel.selected_src_node
        ((tB.find sel.selected_target_node).copyAt
          (h.length + (tA.find sel.selected_src_node).size))) ∧
      TreeInv h1 B1 (tB.subst sel.selected_target_node
        ((tA.find sel.selected_src_node).copyAt h.length)) ∧
      A1.m_max_nodes = A.m_max_nodes ∧ B1.m_max_nodes = B.m_max_nodes ∧ h.length ≤ h1.length ∧
      ∀ a : Nat, a < h.length → a ∉ tA.addrs → a ∉ tB.addrs → h1[a]? = h[a]? := by
  obtain ⟨s, hsdef⟩ : ∃ s, s = sel.selected_src_node := ⟨_, rfl⟩
  obtain ⟨y, hydef⟩ : ∃ y, y = sel.selected_target_node := ⟨_, rfl⟩
  rw [← hsdef] at hs hfitA hfitB ⊢
  rw [← hydef] at hy hfitA hfitB ⊢
  have hAlt := Rep.addr_lt hA.1.1
  have hBlt := Rep.addr_lt hB.1.1
  have hSpos := Subtree.find_size_pos hs
  have hTpos := Subtree.find_size_pos hy
  -- the two copies
  obtain ⟨h1, e1, hlen1, hpre1, hrep1⟩ := Duplicate_spec (Rep.find_sub hA.1.1 hs).toRepC
    ((Subtree.find_addrs_sublist tA).nodup hA.1.2) (Subtree.find_root hs)
  have hTg1 : RepC h1 (tB.find y) :=
    RepC.frameC (Rep.find_sub hB.1.1 hy).toRepC (fun a ha =>
      hpre1 a (hBlt a ((Subtree.find_addrs_sublist tB).subset ha)))
  obtain ⟨h2, e2, hlen2, hpre2, hrep2⟩ := Duplicate_spec hTg1
    ((Subtree.find_addrs_sublist tB).nodup hB.1.2) (Subtree.find_root hy)
  rw [hlen1] at hrep2 e2
  -- the source tree gets the copy of the target subtree
  have hA2 : TreeInv h2 A tA := hA.frame_inv (fun a ha => by
    rw [hpre2 a (by have := hAlt a ha; omega), hpre1 a (hAlt a ha)])
  have hdA : ∀ z ∈ ((tB.find y).copyAt (h.length + (tA.find s).size)).addrs, z ∉ tA.addrs := by
    intro z hz hzA
    have := (Subtree.mem_addrs_copyAt.mp hz).1
    have := hAlt z hzA
    omega
  obtain ⟨h3, A1, er3, hA3, hmaxA, hlen3, hout3, _, _⟩ := Replace_install hA2 hs
    ⟨hrep2, Subtree.nodup_copyAt _ _⟩ (Subtree.root_copyAt_some (Subtree.find_root hy) _) hdA
    (by rw [Subtree.size_copyAt]; exact hfitA)
  -- the target tree gets the copy of the source subtree
  have hB3 : TreeInv h3 B tB := hB.frame_inv (fun a ha => by
    have := hBlt a ha
    rw [hout3 a (fun hc => hdisj a hc ha) (by omega), hpre2 a (by omega), hpre1 a (hBlt a ha)])
  have hS3 : Rep h3 none ((tA.find s).copyAt h.length) :=
    Rep.frame hrep1 (fun a ha => by
      have := Subtree.mem_addrs_copyAt.mp ha
      rw [hout3 a (fun hc => by have := hAlt a hc; omega) (by omega), hpre2 a (by omega)])
  have hdB : ∀ z ∈ ((tA.find s).copyAt h.length).addrs, z ∉ tB.addrs := by
    intro z hz hzB
    have := (Subtree.mem_addrs_copyAt.mp hz).1
    have := hBlt z hzB
    omega
  obtain ⟨h4, B1, er4, hB4, hmaxB, hlen4, hout4, _, _⟩ := Replace_install hB3 hy
    ⟨hS3, Subtree.nodup_copyAt _ _⟩ (Subtree.root_copyAt_some (Subtree.find_root hs) _) hdB
    (by rw [Subtree.size_copyAt]; exact hfitB)
  have hA4 : TreeInv h4 A1
      (tA.subst s ((tB.find y).copyAt (h.length + (tA.find s).size))) :=
    hA3.frame_inv (fun a ha => by
      apply hout4 a
      · intro hc
        rcases Subtree.mem_addrs_subst ha with h5 | h5
        · exact hdisj a h5 hc
        · have := (Subtree.mem_addrs_copyAt.mp h5.1).1
          have := hBlt a hc
          omega
      · rcases Subtree.mem_addrs_subst ha with h5 | h5
        · have := hAlt a h5
          omega
        · have := (Subtree.mem_addrs_copyAt.mp h5.1).1
          omega)
  refine ⟨A1, B1, h4, ?_, hA4, hB4, hmaxA, hmaxB, by omega, fun a ha haA haB => by
    rw [hout4 a haB (by omega), hout3 a haA (by omega), hpre2 a (by omega), hpre1 a ha]⟩
  unfold crossSwap
  rw [← hsdef, ← hydef, e1]
  dsimp only
  rw [e2]
  dsimp only
  rw [er3]
  dsimp only
  rw [if_pos rfl, er4]
  dsimp only
  rw [if_pos rfl]

/-- The exchange of `CrossOver`, when each of the two subtrees fits into the other
tree: both calls of `Replace` accept, and each tree object owns its tree with a
copy of the other subtree in the place of its own. -/
theorem crossSwap_spec {h : Heap} {A B : GPTree} {tA tB : Subtree} (hA : TreeInv h A tA)
    (hB : TreeInv h B tB) (hdisj : ∀ z ∈ tA.addrs, z ∉ tB.addrs) {sel : CrossSelection}
    (hs : sel.selected_src_node ∈ tA.addrs) (hy : sel.selected_target_node ∈ tB.addrs)
    (hfitA : A.m_count - ((tA.find sel.selected_src_node).size : Int) +
      ((tB.find sel.selected_target_node).size : Int) ≤ A.m_max_nodes)
    (hfitB : B.m_count - ((tB.find sel.selected_target_node).size : Int) +
      ((tA.find sel.selected_src_node).size : Int) ≤ B.m_max_nodes) :
    ∃ A1 B1 h1, crossSwap h A B sel = some (A1, B1, h1) ∧
      TreeInv h1 A1 (tA.subst sel.selected_src_node
        ((tB.find sel.selected_target_node).copyAt
          (h.length + (tA.find sel.selected_src_node).size))) ∧
      TreeInv h1 B1 (tB.subst sel.selected_target_node
        ((tA.find sel.selected_src_node).copyAt h.length)) ∧
      A1.m_max_nodes = A.m_max_nodes ∧ B1.m_max_nodes = B.m_max_nodes := by
  obtain ⟨A1, B1, h1, a1, a2, a3, a4, a5, _⟩ := crossSwap_full hA hB hdisj hs hy hfitA hfitB
  exact ⟨A1, B1, h1, a1, a2, a3, a4, a5⟩

end GP

namespace GP

/-! ## CrossOver -/

/-- A copy of a well-formed tree is well-formed. -/
theorem WellTyped.copyAt_typed {fl : GPFunctionLookup} : ∀ {t : Subtree} {ty : Int} (b : Nat),
    WellTyped fl ty t → WellTyped fl ty (t.copyAt b) := by
  intro t
  induction t with
  | null => intro _ _ h; exact absurd h id
  | node a f c0 c1 c2 ih0 ih1 ih2 =>
    intro ty b hwt
    obtain ⟨d, hd, h0, h1, hr, h3, w0, w1, w2⟩ := WellTyped.node_iff.mp hwt
    have child : ∀ (c : Subtree) (j b1 : Nat),
        (if j < d.m_nparams then WellTyped fl (d.paramType j) c else c = .null) →
        (∀ {ty : Int} (b : Nat), WellTyped fl ty c → WellTyped fl ty (c.copyAt b)) →
        (if j < d.m_nparams then WellTyped fl (d.paramType j) (c.copyAt b1)
          else c.copyAt b1 = .null) := by
      intro c j b1 hw ih
      by_cases hj : j < d.m_nparams
      · rw [if_pos hj] at hw ⊢
        exact ih b1 hw
      · rw [if_neg hj] at hw ⊢
        rw [hw]; rfl
    simp only [Subtree.copyAt]
    exact WellTyped.node_iff.mpr ⟨d, hd, h0, h1, hr, h3, child c0 0 _ w0 ih0,
      child c1 1 _ w1 ih1, child c2 2 _ w2 ih2⟩

/-- `CrossOver` on two tree objects that own well-formed trees in different cells
of the heap, with what it leaves behind in either case: two well-formed trees in
different cells, whose nodes are nodes of before or lie behind the old heap, and
the cells of the old heap outside the two trees as they were. -/
theorem CrossOver_full {fl : GPFunctionLookup} (hwf : fl.WF) {rtA rtB : Int}
    (leafA : LeafContract fl rtA) (leafB : LeafContract fl rtB) {h : Heap} {A B : GPTree}
    {tA tB : Subtree} (hA : TreeInv h A tA) (wA : WellTyped fl rtA tA) (hB : TreeInv h B tB)
    (wB : WellTyped fl rtB tB) (hdisj : ∀ z ∈ tA.addrs, z ∉ tB.addrs) (rnd : Nat → Nat)
    (pos : Nat) :
    ∃ (b : Bool) (A1 B1 : GPTree) (h1 : Heap) (pos1 : Nat),
      CrossOver fl h A B rnd pos = some (b, A1, B1, h1, pos1) ∧
      (b = false → A1 = A ∧ B1 = B ∧ h1 = h ∧
        ∀ s ∈ tA.addrs, ∀ y ∈ tB.addrs, (tB.root ≠ some y ∨ tB.size = 1) →
          ¬ Compatible fl h A B s y) ∧
      (b = true → ∃ (sel : CrossSelection) (pos0 : Nat) (hmid : Heap) (posmid : Nat)
          (p : CrossPruned) (tA1 tB1 : Subtree),
        CrossAccepted fl h A B tA tB rtA rtB rnd pos sel pos0 hmid posmid p tA1 tB1 A1 B1 h1) ∧
      ∃ tA2 tB2, TreeInv h1 A1 tA2 ∧ TreeInv h1 B1 tB2 ∧ WellTyped fl rtA tA2 ∧
        WellTyped fl rtB tB2 ∧ (∀ z ∈ tA2.addrs, z ∉ tB2.addrs) ∧
        (∀ y ∈ tA2.addrs, y ∈ tA.addrs ∨ h.length ≤ y) ∧
        (∀ y ∈ tB2.addrs, y ∈ tB.addrs ∨ h.length ≤ y) ∧
        (∀ a : Nat, a < h.length → a ∉ tA.addrs → a ∉ tB.addrs → h1[a]? = h[a]?) ∧
        h.length ≤ h1.length ∧ A1.m_max_nodes = A.m_max_nodes ∧
        B1.m_max_nodes = B.m_max_nodes := by
  obtain ⟨res, pos0, esel, hnone, hsome⟩ := crossSelect_spec hA wA hB wB rnd pos
  cases res with
  | none =>
    refine ⟨false, A, B, h, pos0, ?_, fun _ => ⟨rfl, rfl, rfl, hnone rfl⟩,
      (fun hc => by cases hc), tA, tB, hA, hB, wA, wB, hdisj, fun y hy => Or.inl hy,
      fun y hy => Or.inl hy, fun _ _ _ _ => rfl, le_refl _, rfl, rfl⟩
    unfold CrossOver
    rw [esel]
  | some sel =>
    obtain ⟨hs, hy, hcompat, hdefA, hdefB⟩ := hsome sel rfl
    obtain ⟨hty, hfit1, hfit2⟩ := (Compatible_iff hA wA hB hs hy).mp hcompat
    obtain ⟨tyS, htyS, hwS, hreachS⟩ := retType_of_wellTyped hA.1.1 wA hs
    obtain ⟨tyT, htyT, hwT, hreachT⟩ := retType_of_wellTyped hB.1.1 wB hy
    have htyeq : tyS = tyT := by
      rw [htyS, htyT] at hty
      exact Option.some.inj hty
    subst htyeq
    have hAlt := Rep.addr_lt hA.1.1
    have hBlt := Rep.addr_lt hB.1.1
    -- the source tree is pruned
    obtain ⟨nA, A', hmid, posmid, tA1, ePA, hA1, wA1, hnA, hmaxA, kA, kpA, hsA1, hgeA, hnnA, hzA,
      hcallA, holdA, hframeA, hgrowA⟩ :=
      pruneAsserted_spec hwf leafA hA wA hs sel.src_nodes_to_prune
        (by rw [hdefA]; omega) rnd pos0
    have hBmid : TreeInv hmid B tB :=
      hB.frame_inv (fun a ha => hframeA a (hBlt a ha) (fun hc => hdisj a hc ha))
    -- the target tree is pruned
    obtain ⟨nB, B', h2, pos2, tB1, ePB, hB1, wB1, hnB, hmaxB, kB, kpB, hyB1, hgeB, hnnB, hzB,
      hcallB, holdB, hframeB, hgrowB⟩ :=
      pruneAsserted_spec hwf leafB hBmid wB hy sel.target_nodes_to_prune
        (by rw [hdefB]; omega) rnd posmid
    have hA1lt := Rep.addr_lt hA1.1.1
    have hA2 : TreeInv h2 A' tA1 :=
      hA1.frame_inv (fun a ha => hframeB a (hA1lt a ha) (fun hc => by
        rcases holdA a ha with h5 | h5
        · exact hdisj a h5 hc
        · have := hBlt a hc; omega))
    have hdisj1 : ∀ z ∈ tA1.addrs, z ∉ tB1.addrs := by
      intro z hz hzB
      have := hA1lt z hz
      rcases holdA z hz with h5 | h5 <;> rcases holdB z hzB with h6 | h6
      · exact hdisj z h5 h6
      · omega
      · have := hBlt z h6; omega
      · omega
    have hcA := hA.2.2.1
    have hcB := hB.2.2.1
    have hcA2 := hA2.2.2.1
    have hcB1 := hB1.2.2.1
    simp only [GPTree.MaxNodes, GPTree.Count] at hdefA hdefB hfit1 hfit2
    obtain ⟨A1, B1, h4, eswap, hA4, hB4, hmaxA4, hmaxB4, hgrow4, hframe4⟩ :=
      crossSwap_full hA2 hB1 hdisj1 hsA1 hyB1 (by rw [kA, kB, hmaxA]; omega)
        (by rw [kA, kB, hmaxB]; omega)
    rw [kA, kB] at hA4
    rw [kA] at hB4
    have ecp : crossPrune fl h A B sel rnd pos0 = some ⟨nA, nB, A', B', h2, pos2⟩ := by
      unfold crossPrune
      rw [ePA]
      dsimp only
      rw [ePB]
    have hB1lt := Rep.addr_lt hB1.1.1
    have hA2lt := Rep.addr_lt hA2.1.1
    have hwA2 : WellTyped fl rtA (tA1.subst sel.selected_src_node
        ((tB.find sel.selected_target_node).copyAt
          (h2.length + (tA.find sel.selected_src_node).size))) :=
      WellTyped.subst_typed hA1.1.2 wA1 (fun ty1 hw1 => by
        rw [kA] at hw1
        have := WellTyped.unique hwS hw1
        subst this
        exact WellTyped.copyAt_typed _ hwT)
    have hwB2 : WellTyped fl rtB (tB1.subst sel.selected_target_node
        ((tA.find sel.selected_src_node).copyAt h2.length)) :=
      WellTyped.subst_typed hB1.1.2 wB1 (fun ty1 hw1 => by
        rw [kB] at hw1
        have := WellTyped.unique hwT hw1
        subst this
        exact WellTyped.copyAt_typed _ hwS)
    refine ⟨true, A1, B1, h4, pos2, ?_, (fun hc => by cases hc),
      fun _ => ⟨sel, pos0, hmid, posmid, ⟨nA, nB, A', B', h2, pos2⟩, tA1, tB1, ?_⟩,
      _, _, hA4, hB4, hwA2, hwB2, ?_, ?_, ?_, ?_, by omega, hmaxA4.trans hmaxA,
      hmaxB4.trans hmaxB⟩
    · unfold CrossOver
      rw [esel]
      dsimp only
      rw [ecp]
      dsimp only
      rw [eswap]
    rotate_left
    · intro z hz hzB
      rcases Subtree.mem_addrs_subst hz with h5 | h5 <;>
        rcases Subtree.mem_addrs_subst hzB with h6 | h6
      · exact hdisj1 z h5 h6
      · have := hA2lt z h5
        have := (Subtree.mem_addrs_copyAt.mp h6.1).1
        omega
      · have := hB1lt z h6
        have := (Subtree.mem_addrs_copyAt.mp h5.1).1
        omega
      · have := (Subtree.mem_addrs_copyAt.mp h5.1).1
        have := (Subtree.mem_addrs_copyAt.mp h6.1).2
        omega
    · intro y hy
      rcases Subtree.mem_addrs_subst hy with h5 | h5
      · exact holdA y h5
      · have := (Subtree.mem_addrs_copyAt.mp h5.1).1
        exact Or.inr (by omega)
    · intro y hy
      rcases Subtree.mem_addrs_subst hy with h5 | h5
      · rcases holdB y h5 with h6 | h6
        · exact Or.inl h6
        · exact Or.inr (by omega)
      · have := (Subtree.mem_addrs_copyAt.mp h5.1).1
        exact Or.inr (by omega)
    · intro a ha haA haB
      have haA1 : a ∉ tA1.addrs := by
        intro hc
        rcases holdA a hc with h5 | h5
        · exact haA h5
        · omega
      have haB1 : a ∉ tB1.addrs := by
        intro hc
        rcases holdB a hc with h5 | h5
        · exact haB h5
        · omega
      rw [hframe4 a (by omega) haA1 haB1, hframeB a (by omega) haB, hframeA a ha haA]
    · exact
        { select := esel
          pruneA := ePA
          pruneB := ePB
          swap := eswap
          src_mem := hs
          target_mem := hy
          compatible := hcompat
          src_deficit := by simp only [GPTree.MaxNodes, GPTree.Count]; exact hdefA
          target_deficit := by simp only [GPTree.MaxNodes, GPTree.Count]; exact hdefB
          midB := hBmid
          invA1 := hA2
          invB1 := hB1
          typedA1 := wA1
          typedB1 := wB1
          keepA := kA
          keepB := kB
          wayA := kpA
          wayB := kpB
          removedA := hnA
          removedB := hnB
          enoughA := hgeA
          enoughB := hgeB
          nonnegA := hnnA
          nonnegB := hnnB
          zeroA := hzA
          zeroB := hzB
          calledA := hcallA
          calledB := hcallB
          invA2 := hA4
          invB2 := hB4
          typedA2 := hwA2
          typedB2 := hwB2
          sameType := ⟨tyS, hwS, hwT, htyS, htyT⟩
          maxA := hmaxA4.trans hmaxA
          maxB := hmaxB4.trans hmaxB }

/-- `CrossOver` on two tree objects that own well-formed trees in different cells
of the heap: it returns; when it returns false, nothing has changed and no node of
the source tree has a compatible node in the target tree other than the root of
the target tree (which counts when it is the only node); when it returns true,
`CrossAccepted` holds. -/
theorem CrossOver_spec {fl : GPFunctionLookup} (hwf : fl.WF) {rtA rtB : Int}
    (leafA : LeafContract fl rtA) (leafB : LeafContract fl rtB) {h : Heap} {A B : GPTree}
    {tA tB : Subtree} (hA : TreeInv h A tA) (wA : WellTyped fl rtA tA) (hB : TreeInv h B tB)
    (wB : WellTyped fl rtB tB) (hdisj : ∀ z ∈ tA.addrs, z ∉ tB.addrs) (rnd : Nat → Nat)
    (pos : Nat) :
    ∃ (b : Bool) (A1 B1 : GPTree) (h1 : Heap) (pos1 : Nat),
      CrossOver fl h A B rnd pos = some (b, A1, B1, h1, pos1) ∧
      (b = false → A1 = A ∧ B1 = B ∧ h1 = h ∧
        ∀ s ∈ tA.addrs, ∀ y ∈ tB.addrs, (tB.root ≠ some y ∨ tB.size = 1) →
          ¬ Compatible fl h A B s y) ∧
      (b = true → ∃ (sel : CrossSelection) (pos0 : Nat) (hmid : Heap) (posmid : Nat)
          (p : CrossPruned) (tA1 tB1 : Subtree),
        CrossAccepted fl h A B tA tB rtA rtB rnd pos sel pos0 hmid posmid p tA1 tB1 A1 B1 h1) := by
  obtain ⟨b, A1, B1, h1, pos1, a1, a2, a3, _⟩ :=
    CrossOver_full hwf leafA leafB hA wA hB wB hdisj rnd pos
  exact ⟨b, A1, B1, h1, pos1, a1, a2, a3⟩

end GP

namespace GP

theorem Subtree.find_root_self {s : Subtree} {n : Nat} (hr : s.root = some n) :
    s.find n = s := by
  cases s with
  | null => simp [Subtree.root] at hr
  | node a f c0 c1 c2 =>
    simp only [Subtree.root, Option.some.injEq] at hr
    subst hr
    exact Subtree.find_self

/-- The way to the root of the new subtree is the way to the replaced node. -/
theorem Subtree.pathTo_subst_new {x n : Nat} {s : Subtree} (hsroot : s.root = some n) :
    ∀ {t : Subtree}, t.addrs.Nodup → x ∈ t.addrs → (∀ z ∈ s.addrs, z ∉ t.addrs) →
      (t.subst x s).pathTo n = t.pathTo x := by
  have hn : n ∈ s.addrs := Subtree.root_mem_addrs hsroot
  intro t
  induction t with
  | null => intro _ hx; simp [Subtree.addrs] at hx
  | node a f c0 c1 c2 ih0 ih1 ih2 =>
    intro hnd hx hd
    obtain ⟨n1, n2, n3, n4, n5, n6, d01, d02, d12⟩ := Subtree.nodup_node.mp hnd
    by_cases ex : a = x
    · simp only [Subtree.subst, if_pos ex, Subtree.pathTo]
      cases s with
      | null => simp [Subtree.root] at hsroot
      | node b g e0 e1 e2 =>
        simp only [Subtree.root, Option.some.injEq] at hsroot
        simp [Subtree.pathTo, hsroot]
    · have hnt := hd n hn
      rw [Subtree.mem_addrs_node] at hx hnt
      simp only [not_or] at hnt
      obtain ⟨y0, y1, y2, y3⟩ := hnt
      have m : ∀ c : Subtree, n ∉ c.addrs → (n ∈ (c.subst x s).addrs ↔ x ∈ c.addrs) := by
        intro c hyc
        constructor
        · intro hm
          rcases Subtree.mem_addrs_subst hm with h | h
          · exact absurd h hyc
          · exact h.2
        · exact Subtree.mem_subst_new hn
      have hds : ∀ c : Subtree, (∀ z ∈ c.addrs, z ∈ (Subtree.node a f c0 c1 c2).addrs) →
          ∀ z ∈ s.addrs, z ∉ c.addrs := fun c hc z hz hzc => hd z hz (hc z hzc)
      have i0 : ∀ z ∈ c0.addrs, z ∈ (Subtree.node a f c0 c1 c2).addrs :=
        fun z hz => Subtree.mem_addrs_node.mpr (Or.inr (Or.inl hz))
      have i1 : ∀ z ∈ c1.addrs, z ∈ (Subtree.node a f c0 c1 c2).addrs :=
        fun z hz => Subtree.mem_addrs_node.mpr (Or.inr (Or.inr (Or.inl hz)))
      have i2 : ∀ z ∈ c2.addrs, z ∈ (Subtree.node a f c0 c1 c2).addrs :=
        fun z hz => Subtree.mem_addrs_node.mpr (Or.inr (Or.inr (Or.inr hz)))
      simp only [Subtree.subst, if_neg ex, Subtree.pathTo, if_neg (fun (e : a = n) => y0 e.symm),
        m c0 y1, m c1 y2, m c2 y3]
      rcases hx with hx | hx | hx | hx
      · exact absurd hx.symm ex
      · simp only [if_pos hx, ih0 n4 hx (hds c0 i0)]
      · have x0 : x ∉ c0.addrs := fun hc => d01 x hc hx
        simp only [if_neg x0, if_pos hx, ih1 n5 hx (hds c1 i1)]
      · have x0 : x ∉ c0.addrs := fun hc => d02 x hc hx
        have x1 : x ∉ c1.addrs := fun hc => d12 x hc hx
        simp only [if_neg x0, if_neg x1, if_pos hx, ih2 n6 hx (hds c2 i2)]

/-- The cached count of a tree object that owns a tree is what `CountSubtree`
counts. -/
theorem TreeInv.count_actual {h : Heap} {T : GPTree} {t : Subtree} (hinv : TreeInv h T t) :
    (actualCount h T.m_root).map Int.ofNat = some T.Count := by
  obtain ⟨ht1, hr1, hc1, _⟩ := hinv
  rw [← hr1]
  cases hroot : t.root with
  | none =>
    rw [Subtree.root_eq_none.mp hroot] at hc1
    simp [actualCount, GPTree.Count, hc1, Subtree.size]
  | some a =>
    simp only [actualCount, CountSubtree_of_isTree ht1 hroot, Option.map_some',
      GPTree.Count, hc1]
    rfl

/-- C11: `CrossOver` on two tree objects that own well-formed trees in different
cells of the heap, each with `Count <= MaxNodes`, with a registry that keeps the
leaf contract, for any random draws: it returns, and when it returns true, then
afterwards `Count <= MaxNodes` holds for both tree objects, where `Count` is the
number of nodes that the tree has in the heap and `MaxNodes` is what it was. -/
theorem CrossOver_within_budget (fl : GPFunctionLookup) (rtA rtB : Int) (h : Heap)
    (A B : GPTree) (tA tB : Subtree) (rnd : Nat → Nat) (pos : Nat) (hwf : fl.WF)
    (leafA : LeafContract fl rtA) (leafB : LeafContract fl rtB) (hA : TreeInv h A tA)
    (wA : WellTyped fl rtA tA) (hB : TreeInv h B tB) (wB : WellTyped fl rtB tB)
    (hdisj : ∀ z ∈ tA.addrs, z ∉ tB.addrs) :
    ∃ (b : Bool) (A1 B1 : GPTree) (h1 : Heap) (pos1 : Nat),
      CrossOver fl h A B rnd pos = some (b, A1, B1, h1, pos1) ∧
      (b = true → A1.Count ≤ A1.MaxNodes ∧ B1.Count ≤ B1.MaxNodes ∧
        (actualCount h1 A1.m_root).map Int.ofNat = some A1.Count ∧
        (actualCount h1 B1.m_root).map Int.ofNat = some B1.Count ∧
        A1.MaxNodes = A.MaxNodes ∧ B1.MaxNodes = B.MaxNodes) := by
  obtain ⟨b, A1, B1, h1, pos1, e, _, htrue⟩ :=
    CrossOver_spec hwf leafA leafB hA wA hB wB hdisj rnd pos
  refine ⟨b, A1, B1, h1, pos1, e, fun hb => ?_⟩
  obtain ⟨sel, pos0, hmid, posmid, p, tA1, tB1, acc⟩ := htrue hb
  exact ⟨acc.invA2.2.2.2, acc.invB2.2.2.2, acc.invA2.count_actual, acc.invB2.count_actual,
    acc.maxA, acc.maxB⟩

theorem CrossOver_within_budget_witness :
    ∃ (b : Bool) (A1 B1 : GPTree) (h1 : Heap) (pos1 : Nat),
      CrossOver exampleRegistry pruneHeap pruneSource pruneTarget pruneDraws 0 =
        some (b, A1, B1, h1, pos1) ∧
      (b = true → A1.Count ≤ A1.MaxNodes ∧ B1.Count ≤ B1.MaxNodes ∧
        (actualCount h1 A1.m_root).map Int.ofNat = some A1.Count ∧
        (actualCount h1 B1.m_root).map Int.ofNat = some B1.Count ∧
        A1.MaxNodes = pruneSource.MaxNodes ∧ B1.MaxNodes = pruneTarget.MaxNodes) :=
  CrossOver_within_budget exampleRegistry 1 1 pruneHeap pruneSource pruneTarget (addTree 0)
    (addTree 5) pruneDraws 0 (by decide) (LeafClosed.contract (S := [1]) (by decide))
    (LeafClosed.contract (S := [1]) (by decide)) (by decide) (by decide) (by decide)
    (by decide) (by decide)

/-- C12: `CrossOver` on two tree objects that own well-formed trees `tA` and `tB`
in different cells of the heap, with a registry that keeps the leaf contract: it
returns, and when it returns true, there are a node `s` of `tA` and a node `y` of
`tB` whose functions have the same return type `ty`; the source tree object owns
afterwards a tree `tA2` that has, at the end of the way that led to `s`, a subtree
`cB` with the function ids and the shape of the subtree of `tB` at `y`; the target
tree object owns a tree `tB2` that has, at the end of the way that led to `y`, a
subtree `cA` with the function ids and the shape of the subtree of `tA` at `s`; and
`tA2` and `tB2` are well-formed: every node has a child in exactly the parameter
slots of its function, and each child returns the type of its slot. -/
theorem CrossOver_exchanges_copies (fl : GPFunctionLookup) (rtA rtB : Int) (h : Heap)
    (A B : GPTree) (tA tB : Subtree) (rnd : Nat → Nat) (pos : Nat) (hwf : fl.WF)
    (leafA : LeafContract fl rtA) (leafB : LeafContract fl rtB) (hA : TreeInv h A tA)
    (wA : WellTyped fl rtA tA) (hB : TreeInv h B tB) (wB : WellTyped fl rtB tB)
    (hdisj : ∀ z ∈ tA.addrs, z ∉ tB.addrs) :
    ∃ (b : Bool) (A1 B1 : GPTree) (h1 : Heap) (pos1 : Nat),
      CrossOver fl h A B rnd pos = some (b, A1, B1, h1, pos1) ∧
      (b = true → ∃ (s y nA nB : Nat) (ty : Int) (tA2 tB2 cA cB : Subtree),
        s ∈ tA.addrs ∧ y ∈ tB.addrs ∧
        retType fl h s = some ty ∧ retType fl h y = some ty ∧
        WellTyped fl ty (tA.find s) ∧ WellTyped fl ty (tB.find y) ∧
        TreeInv h1 A1 tA2 ∧ TreeInv h1 B1 tB2 ∧
        cB.root = some nB ∧ tA2.find nB = cB ∧ tA2.pathTo nB = tA.pathTo s ∧
        cB.shape = (tB.find y).shape ∧
        cA.root = some nA ∧ tB2.find nA = cA ∧ tB2.pathTo nA = tB.pathTo y ∧
        cA.shape = (tA.find s).shape ∧
        WellTyped fl rtA tA2 ∧ WellTyped fl rtB tB2 ∧ ArityOK fl tA2 ∧ ArityOK fl tB2) := by
  obtain ⟨b, A1, B1, h1, pos1, e, _, htrue⟩ :=
    CrossOver_spec hwf leafA leafB hA wA hB wB hdisj rnd pos
  refine ⟨b, A1, B1, h1, pos1, e, fun hb => ?_⟩
  obtain ⟨sel, pos0, hmid, posmid, p, tA1, tB1, acc⟩ := htrue hb
  obtain ⟨ty, hwS, hwT, htyS, htyT⟩ := acc.sameType
  have hsA1 : sel.selected_src_node ∈ tA1.addrs := by
    by_contra hne
    have a1 := Subtree.find_of_not_mem hne
    have a2 := Subtree.find_root acc.src_mem
    rw [← acc.keepA, a1] at a2
    simp [Subtree.root] at a2
  have hyB1 : sel.selected_target_node ∈ tB1.addrs := by
    by_contra hne
    have a1 := Subtree.find_of_not_mem hne
    have a2 := Subtree.find_root acc.target_mem
    rw [← acc.keepB, a1] at a2
    simp [Subtree.root] at a2
  have hA1lt := Rep.addr_lt acc.invA1.1.1
  have hB1lt := Rep.addr_lt acc.invB1.1.1
  have hrB := Subtree.root_copyAt_some (Subtree.find_root acc.target_mem)
    (p.heap.length + (tA.find sel.selected_src_node).size)
  have hrA := Subtree.root_copyAt_some (Subtree.find_root acc.src_mem) p.heap.length
  have hdB : ∀ z ∈ ((tB.find sel.selected_target_node).copyAt
      (p.heap.length + (tA.find sel.selected_src_node).size)).addrs, z ∉ tA1.addrs := by
    intro z hz hzA
    have := (Subtree.mem_addrs_copyAt.mp hz).1
    have := hA1lt z hzA
    omega
  have hdA : ∀ z ∈ ((tA.find sel.selected_src_node).copyAt p.heap.length).addrs,
      z ∉ tB1.addrs := by
    intro z hz hzB
    have := (Subtree.mem_addrs_copyAt.mp hz).1
    have := hB1lt z hzB
    omega
  refine ⟨sel.selected_src_node, sel.selected_target_node, p.heap.length,
    p.heap.length + (tA.find sel.selected_src_node).size, ty, _, _,
    (tA.find sel.selected_src_node).copyAt p.heap.length,
    (tB.find sel.selected_target_node).copyAt
      (p.heap.length + (tA.find sel.selected_src_node).size),
    acc.src_mem, acc.target_mem, htyS, htyT, hwS, hwT, acc.invA2, acc.invB2, hrB, ?_, ?_,
    Subtree.shape_copyAt _ _, hrA, ?_, ?_, Subtree.shape_copyAt _ _, acc.typedA2, acc.typedB2,
    WellTyped.arityOK _ _ acc.typedA2, WellTyped.arityOK _ _ acc.typedB2⟩
  · rw [Subtree.find_subst_new (Subtree.root_mem_addrs hrB) acc.invA1.1.2 hsA1
      (hdB _ (Subtree.root_mem_addrs hrB))]
    exact Subtree.find_root_self hrB
  · rw [Subtree.pathTo_subst_new hrB acc.invA1.1.2 hsA1 hdB]
    exact acc.wayA
  · rw [Subtree.find_subst_new (Subtree.root_mem_addrs hrA) acc.invB1.1.2 hyB1
      (hdA _ (Subtree.root_mem_addrs hrA))]
    exact Subtree.find_root_self hrA
  · rw [Subtree.pathTo_subst_new hrA acc.invB1.1.2 hyB1 hdA]
    exact acc.wayB

theorem CrossOver_exchanges_copies_witness :
    ∃ (b : Bool) (A1 B1 : GPTree) (h1 : Heap) (pos1 : Nat),
      CrossOver exampleRegistry pruneHeap pruneSource pruneTarget pruneDraws 0 =
        some (b, A1, B1, h1, pos1) ∧
      (b = true → ∃ (s y nA nB : Nat) (ty : Int) (tA2 tB2 cA cB : Subtree),
        s ∈ (addTree 0).addrs ∧ y ∈ (addTree 5).addrs ∧
        retType exampleRegistry pruneHeap s = some ty ∧
        retType exampleRegistry pruneHeap y = some ty ∧
        WellTyped exampleRegistry ty ((addTree 0).find s) ∧
        WellTyped exampleRegistry ty ((addTree 5).find y) ∧
        TreeInv h1 A1 tA2 ∧ TreeInv h1 B1 tB2 ∧
        cB.root = some nB ∧ tA2.find nB = cB ∧ tA2.pathTo nB = (addTree 0).pathTo s ∧
        cB.shape = ((addTree 5).find y).shape ∧
        cA.root = some nA ∧ tB2.find nA = cA ∧ tB2.pathTo nA = (addTree 5).pathTo y ∧
        cA.shape = ((addTree 0).find s).shape ∧
        WellTyped exampleRegistry 1 tA2 ∧ WellTyped exampleRegistry 1 tB2 ∧
        ArityOK exampleRegistry tA2 ∧ ArityOK exampleRegistry tB2) :=
  CrossOver_exchanges_copies exampleRegistry 1 1 pruneHeap pruneSource pruneTarget (addTree 0)
    (addTree 5) pruneDraws 0 (by decide) (LeafClosed.contract (S := [1]) (by decide))
    (LeafClosed.contract (S := [1]) (by decide)) (by decide) (by decide) (by decide)
    (by decide) (by decide)

end GP

namespace GP

/-- C13, as the claim states it, fails: with the registry `F( t ) -> int`,
`T() -> t`, `Two() -> int`, the source tree `Two` (budget 2) and the target tree
`F( T )` (budget 2), `CrossOver` returns false and changes nothing, although the
root `Two` of the source tree and the root `F` of the target tree are a compatible
pair: both return `int`, the source subtree has 1 node and
`CalculatePotentialPrunes` of the target root is 2 with free budget 0, the target
subtree has 2 nodes and `CalculatePotentialPrunes` of the source root is 1 with
free budget 1.  The typed `Random` with `prefer_nonroot` does not look at the
root of the target tree, which has another node. -/
theorem CrossOver_false_despite_compatible_pair :
    CrossOver crossRegistry crossHeap crossSource crossTarget (fun n => n) 0 =
        some (false, crossSource, crossTarget, crossHeap, 1) ∧
      crossRegistry.WF ∧ LeafClosed crossRegistry 1 [1, 3] ∧
      TreeInv crossHeap crossSource crossSourceTree ∧
      TreeInv crossHeap crossTarget crossTargetTree ∧
      WellTyped crossRegistry 1 crossSourceTree ∧ WellTyped crossRegistry 1 crossTargetTree ∧
      (∀ z ∈ crossSourceTree.addrs, z ∉ crossTargetTree.addrs) ∧
      0 ∈ crossSourceTree.addrs ∧ 1 ∈ crossTargetTree.addrs ∧
      retType crossRegistry crossHeap 0 = some 1 ∧ retType crossRegistry crossHeap 1 = some 1 ∧
      CountSubtree crossHeap 0 = some 1 ∧ CalculatePotentialPrunes crossHeap 1 = some 2 ∧
      crossTarget.MaxNodes - crossTarget.Count = 0 ∧
      CountSubtree crossHeap 1 = some 2 ∧ CalculatePotentialPrunes crossHeap 0 = some 1 ∧
      crossSource.MaxNodes - crossSource.Count = 1 ∧
      Compatible crossRegistry crossHeap crossSource crossTarget 0 1 := by
  repeat' apply And.intro
  all_goals decide

/-- C13, amended: `CrossOver` on two tree objects that own well-formed trees in
different cells of the heap, with a registry that keeps the leaf contract, for
any random draws: it returns, and it returns false only if no node `s` of the
source tree and node `y` of the target tree, where `y` is not the root of the
target tree or is its only node, are a compatible pair (equal return types, the
subtree at `s` no larger than `CalculatePotentialPrunes( y )` plus the free budget
of the target tree, the subtree at `y` no larger than
`CalculatePotentialPrunes( s )` plus the free budget of the source tree); the
tree objects and the heap are then as before. -/
theorem CrossOver_false_only_without_candidate (fl : GPFunctionLookup) (rtA rtB : Int)
    (h : Heap) (A B : GPTree) (tA tB : Subtree) (rnd : Nat → Nat) (pos : Nat) (hwf : fl.WF)
    (leafA : LeafContract fl rtA) (leafB : LeafContract fl rtB) (hA : TreeInv h A tA)
    (wA : WellTyped fl rtA tA) (hB : TreeInv h B tB) (wB : WellTyped fl rtB tB)
    (hdisj : ∀ z ∈ tA.addrs, z ∉ tB.addrs) :
    ∃ (b : Bool) (A1 B1 : GPTree) (h1 : Heap) (pos1 : Nat),
      CrossOver fl h A B rnd pos = some (b, A1, B1, h1, pos1) ∧
      (b = false → A1 = A ∧ B1 = B ∧ h1 = h ∧
        ∀ s ∈ tA.addrs, ∀ y ∈ tB.addrs, (tB.root ≠ some y ∨ tB.size = 1) →
          ¬ Compatible fl h A B s y) := by
  obtain ⟨b, A1, B1, h1, pos1, e, hfalse, _⟩ :=
    CrossOver_spec hwf leafA leafB hA wA hB wB hdisj rnd pos
  exact ⟨b, A1, B1, h1, pos1, e, hfalse⟩

theorem CrossOver_false_only_without_candidate_witness :
    ∃ (b : Bool) (A1 B1 : GPTree) (h1 : Heap) (pos1 : Nat),
      CrossOver crossRegistry crossHeap crossSource crossTarget (fun n => n) 0 =
        some (b, A1, B1, h1, pos1) ∧
      (b = false → A1 = crossSource ∧ B1 = crossTarget ∧ h1 = crossHeap ∧
        ∀ s ∈ crossSourceTree.addrs, ∀ y ∈ crossTargetTree.addrs,
          (crossTargetTree.root ≠ some y ∨ crossTargetTree.size = 1) →
          ¬ Compatible crossRegistry crossHeap crossSource crossTarget s y) :=
  CrossOver_false_only_without_candidate crossRegistry 1 1 crossHeap crossSource crossTarget
    crossSourceTree crossTargetTree (fun n => n) 0 (by decide)
    (LeafClosed.contract (S := [1, 3]) (by decide))
    (LeafClosed.contract (S := [1, 3]) (by decide)) (by decide) (by decide) (by decide)
    (by decide) (by decide)

/-- C14, as the claim states it, fails: with the registry `Add`, `Two`, `Three`,
two trees `Add( Add( Two, Three ), Two )` with the budgets 6 and 5, and the random
draws 1, 0, 0, ..., `CrossOver` selects the `Two` below the root of the source tree
(1 node) and the inner `Add` of the target tree (3 nodes); the free source budget
is 1, so that the deficit of the source tree is 3 - 1 - 1 = 1, and `Prune` is
called with `numToPrune` 1; it replaces the inner `Add` of the source tree by a
leaf, returns 2 and leaves a tree of 3 nodes: 2 nodes are gone, not 1.  `CrossOver`
returns true. -/
theorem CrossOver_prunes_more_than_deficit :
    crossSelect exampleRegistry pruneHeap pruneSource pruneTarget pruneDraws 0 =
        some (some ⟨2, 6, 1, -2⟩, 2) ∧
      CountSubtree pruneHeap 2 = some 1 ∧ CountSubtree pruneHeap 6 = some 3 ∧
      pruneSource.MaxNodes - pruneSource.Count = 1 ∧ max 0 ((3 : Int) - 1 - 1) = 1 ∧
      (Prune exampleRegistry pruneHeap pruneSource 1 (some 2) pruneDraws 2).map
        (fun r => (r.1, r.2.1.Count)) = some (2, 3) ∧
      (crossPrune exampleRegistry pruneHeap pruneSource pruneTarget ⟨2, 6, 1, -2⟩ pruneDraws
        2).map (fun p => (p.n_pruned_src, p.sourceTree.Count, p.n_pruned_target)) =
        some (2, 3, 0) ∧
      (CrossOver exampleRegistry pruneHeap pruneSource pruneTarget pruneDraws 0).map
        (fun r => r.1) = some true ∧
      exampleRegistry.WF ∧ LeafClosed exampleRegistry 1 [1] ∧
      TreeInv pruneHeap pruneSource (addTree 0) ∧ TreeInv pruneHeap pruneTarget (addTree 5) ∧
      WellTyped exampleRegistry 1 (addTree 0) ∧ WellTyped exampleRegistry 1 (addTree 5) ∧
      (∀ z ∈ (addTree 0).addrs, z ∉ (addTree 5).addrs) := by
  repeat' apply And.intro
  all_goals decide

/-- C14, amended: when `CrossOver` (on two tree objects that own well-formed trees
in different cells of the heap, with a registry that keeps the leaf contract)
accepts a pair `s`, `y`, each tree is pruned by at least its deficit before the
exchange: `src_nodes_to_prune` is the size of the target subtree minus the size
of the source subtree minus the free source budget, and `target_nodes_to_prune`
the same the other way round; `Prune` is called on a tree with exactly this
number and the selected node to preserve when the number is above 0, and the
`assert` holds; the number of nodes that are gone from the tree, `Count` before
minus `Count` after the pruning, is what `Prune` returns, is at least
`max( 0, deficit )`, and is 0 when the deficit is not above 0. -/
theorem CrossOver_prunes_at_least_deficit (fl : GPFunctionLookup) (rtA rtB : Int) (h : Heap)
    (A B : GPTree) (tA tB : Subtree) (rnd : Nat → Nat) (pos : Nat) (hwf : fl.WF)
    (leafA : LeafContract fl rtA) (leafB : LeafContract fl rtB) (hA : TreeInv h A tA)
    (wA : WellTyped fl rtA tA) (hB : TreeInv h B tB) (wB : WellTyped fl rtB tB)
    (hdisj : ∀ z ∈ tA.addrs, z ∉ tB.addrs) :
    ∃ (b : Bool) (A1 B1 : GPTree) (h1 : Heap) (pos1 : Nat),
      CrossOver fl h A B rnd pos = some (b, A1, B1, h1, pos1) ∧
      (b = true → ∃ (sel : CrossSelection) (pos0 : Nat) (hmid : Heap) (posmid : Nat)
          (p : CrossPruned),
        crossSelect fl h A B rnd pos = some (some sel, pos0) ∧
        crossPrune fl h A B sel rnd pos0 = some p ∧
        crossSwap p.heap p.sourceTree p.targetTree sel = some (A1, B1, h1) ∧
        (∃ ns nt, CountSubtree h sel.selected_src_node = some ns ∧
          CountSubtree h sel.selected_target_node = some nt ∧
          sel.src_nodes_to_prune = (nt : Int) - (ns : Int) - (A.MaxNodes - A.Count) ∧
          sel.target_nodes_to_prune = (ns : Int) - (nt : Int) - (B.MaxNodes - B.Count)) ∧
        (0 < sel.src_nodes_to_prune →
          Prune fl h A sel.src_nodes_to_prune (some sel.selected_src_node) rnd pos0 =
            some (p.n_pruned_src, p.sourceTree, hmid, posmid)) ∧
        (sel.src_nodes_to_prune ≤ 0 → p.n_pruned_src = 0 ∧ p.sourceTree = A ∧ hmid = h) ∧
        (0 < sel.target_nodes_to_prune →
          Prune fl hmid B sel.target_nodes_to_prune (some sel.selected_target_node) rnd
            posmid = some (p.n_pruned_target, p.targetTree, p.heap, p.pos)) ∧
        (sel.target_nodes_to_prune ≤ 0 →
          p.n_pruned_target = 0 ∧ p.targetTree = B ∧ p.heap = hmid) ∧
        p.n_pruned_src = A.Count - p.sourceTree.Count ∧
        p.n_pruned_target = B.Count - p.targetTree.Count ∧
        max 0 sel.src_nodes_to_prune ≤ p.n_pruned_src ∧
        max 0 sel.target_nodes_to_prune ≤ p.n_pruned_target) := by
  obtain ⟨b, A1, B1, h1, pos1, e, _, htrue⟩ :=
    CrossOver_spec hwf leafA leafB hA wA hB wB hdisj rnd pos
  refine ⟨b, A1, B1, h1, pos1, e, fun hb => ?_⟩
  obtain ⟨sel, pos0, hmid, posmid, p, tA1, tB1, acc⟩ := htrue hb
  have ecp : crossPrune fl h A B sel rnd pos0 = some p := by
    unfold crossPrune
    rw [acc.pruneA]
    dsimp only
    rw [acc.pruneB]
  have hguardA : sel.src_nodes_to_prune ≤ 0 → p.sourceTree = A ∧ hmid = h := by
    intro hle
    have := acc.pruneA
    unfold pruneAsserted at this
    rw [if_neg (by omega)] at this
    simp only [Option.some.injEq, Prod.mk.injEq] at this
    exact ⟨this.2.1.symm, this.2.2.1.symm⟩
  have hguardB : sel.target_nodes_to_prune ≤ 0 → p.targetTree = B ∧ p.heap = hmid := by
    intro hle
    have := acc.pruneB
    unfold pruneAsserted at this
    rw [if_neg (by omega)] at this
    simp only [Option.some.injEq, Prod.mk.injEq] at this
    exact ⟨this.2.1.symm, this.2.2.1.symm⟩
  refine ⟨sel, pos0, hmid, posmid, p, acc.select, ecp, acc.swap,
    ⟨_, _, CountSubtree_find hA.1 acc.src_mem, CountSubtree_find hB.1 acc.target_mem,
      acc.src_deficit, acc.target_deficit⟩, acc.calledA,
    fun hle => ⟨acc.zeroA hle, hguardA hle⟩, acc.calledB,
    fun hle => ⟨acc.zeroB hle, hguardB hle⟩, ?_, ?_,
    max_le acc.nonnegA acc.enoughA, max_le acc.nonnegB acc.enoughB⟩
  · simp only [GPTree.Count]
    rw [hA.2.2.1, acc.invA1.2.2.1]
    exact acc.removedA
  · simp only [GPTree.Count]
    rw [hB.2.2.1, acc.invB1.2.2.1]
    exact acc.removedB

theorem CrossOver_prunes_at_least_deficit_witness :
    ∃ (b : Bool) (A1 B1 : GPTree) (h1 : Heap) (pos1 : Nat),
      CrossOver exampleRegistry pruneHeap pruneSource pruneTarget pruneDraws 0 =
        some (b, A1, B1, h1, pos1) ∧
      (b = true → ∃ (sel : CrossSelection) (pos0 : Nat) (hmid : Heap) (posmid : Nat)
          (p : CrossPruned),
        crossSelect exampleRegistry pruneHeap pruneSource pruneTarget pruneDraws 0 =
          some (some sel, pos0) ∧
        crossPrune exampleRegistry pruneHeap pruneSource pruneTarget sel pruneDraws pos0 =
          some p ∧
        crossSwap p.heap p.sourceTree p.targetTree sel = some (A1, B1, h1) ∧
        (∃ ns nt, CountSubtree pruneHeap sel.selected_src_node = some ns ∧
          CountSubtree pruneHeap sel.selected_target_node = some nt ∧
          sel.src_nodes_to_prune =
            (nt : Int) - (ns : Int) - (pruneSource.MaxNodes - pruneSource.Count) ∧
          sel.target_nodes_to_prune =
            (ns : Int) - (nt : Int) - (pruneTarget.MaxNodes - pruneTarget.Count)) ∧
        (0 < sel.src_nodes_to_prune →
          Prune exampleRegistry pruneHeap pruneSource sel.src_nodes_to_prune
            (some sel.selected_src_node) pruneDraws pos0 =
            some (p.n_pruned_src, p.sourceTree, hmid, posmid)) ∧
        (sel.src_nodes_to_prune ≤ 0 →
          p.n_pruned_src = 0 ∧ p.sourceTree = pruneSource ∧ hmid = pruneHeap) ∧
        (0 < sel.target_nodes_to_prune →
          Prune exampleRegistry hmid pruneTarget sel.target_nodes_to_prune
            (some sel.selected_target_node) pruneDraws posmid =
            some (p.n_pruned_target, p.targetTree, p.heap, p.pos)) ∧
        (sel.target_nodes_to_prune ≤ 0 →
          p.n_pruned_target = 0 ∧ p.targetTree = pruneTarget ∧ p.heap = hmid) ∧
        p.n_pruned_src = pruneSource.Count - p.sourceTree.Count ∧
        p.n_pruned_target = pruneTarget.Count - p.targetTree.Count ∧
        max 0 sel.src_nodes_to_prune ≤ p.n_pruned_src ∧
        max 0 sel.target_nodes_to_prune ≤ p.n_pruned_target) :=
  CrossOver_prunes_at_least_deficit exampleRegistry 1 1 pruneHeap pruneSource pruneTarget
    (addTree 0) (addTree 5) pruneDraws 0 (by decide)
    (LeafClosed.contract (S := [1]) (by decide))
    (LeafClosed.contract (S := [1]) (by decide)) (by decide) (by decide) (by decide)
    (by decide) (by decide)

end GP

namespace GP

/-! ## The registry: functions of one return type -/

/-- The number of steps from the id `s` forward, around the end, to the id `c`. -/
theorem mod_offset {n s c : Nat} (hs : s < n) (hc : c < n) :
    (c + n - s) % n < n ∧ (s + (c + n - s) % n) % n = c ∧ ((c + n - s) % n = 0 ↔ c = s) := by
  have hn : 0 < n := by omega
  refine ⟨Nat.mod_lt _ hn, ?_, ?_⟩
  · rw [Nat.add_mod_mod]
    have : s + (c + n - s) = c + n := by omega
    rw [this, Nat.add_mod_right, Nat.mod_eq_of_lt hc]
  · by_cases hcs : s ≤ c
    · have e : c + n - s = (c - s) + n := by omega
      rw [e, Nat.add_mod_right, Nat.mod_eq_of_lt (by omega)]
      omega
    · rw [Nat.mod_eq_of_lt (by omega)]
      omega

/-- `GetNextFuncWithReturnType` on a registered id: it returns the first id with
the return type on the way forward and around, or `NULLFUNC` when no other id has
the return type. -/
theorem GetNext_total {fl : GPFunctionLookup} (hwf : fl.WF) (rt : Int) {p : Nat}
    (hp : p < fl.m_nFuncs) :
    (∃ k, 0 < k ∧ k < fl.m_nFuncs ∧
        fl.GetNextFuncWithReturnType rt (p : Int) =
          some (((p + k) % fl.m_nFuncs : Nat) : Int) ∧
        (fl.descAt ((p + k) % fl.m_nFuncs)).m_return_type = rt ∧
        ∀ k1, 0 < k1 → k1 < k → (fl.descAt ((p + k1) % fl.m_nFuncs)).m_return_type ≠ rt) ∨
      (fl.GetNextFuncWithReturnType rt (p : Int) = some NULLFUNC ∧
        ∀ c, c < fl.m_nFuncs → c ≠ p → (fl.descAt c).m_return_type ≠ rt) := by
  by_cases hex : ∃ k, 0 < k ∧ k < fl.m_nFuncs ∧
      (fl.descAt ((p + k) % fl.m_nFuncs)).m_return_type = rt
  · obtain ⟨k, hk0, hk, hty⟩ := hex
    obtain ⟨k1, h0, hle, hk1, hmin⟩ := exists_first_step hk0 hty
    exact Or.inl ⟨k1, h0, by omega, GetNext_found hwf hp h0 (by omega) hk1 hmin, hk1, hmin⟩
  · have hno : ∀ k1, 0 < k1 → k1 < fl.m_nFuncs →
        (fl.descAt ((p + k1) % fl.m_nFuncs)).m_return_type ≠ rt :=
      fun k1 h0 h1 hc => hex ⟨k1, h0, h1, hc⟩
    refine Or.inr ⟨GetNext_none hwf hp hno, ?_⟩
    intro c hc hcp
    obtain ⟨o1, o2, o3⟩ := mod_offset hp hc
    have := hno _ (Nat.pos_of_ne_zero (fun e => hcp (o3.mp e))) o1
    rwa [o2] at this

/-- `GetRandomFuncWithReturnType` on a registry that is not empty: one random
number is drawn; the result is `NULLFUNC` exactly when no descriptor has the
return type, and otherwise the id of a registered descriptor with the return
type. -/
theorem GetRandom_total {fl : GPFunctionLookup} (hwf : fl.WF) (hne : fl.m_nFuncs ≠ 0)
    (rt : Int) (rnd : Nat → Nat) (pos : Nat) :
    ∃ r, fl.GetRandomFuncWithReturnType rt rnd pos = some (r, pos + 1) ∧
      (r = NULLFUNC ↔ ∀ d ∈ fl.m_functions, d.m_return_type ≠ rt) ∧
      (r ≠ NULLFUNC →
        ∃ c, c < fl.m_nFuncs ∧ r = (c : Int) ∧ (fl.descAt c).m_return_type = rt) := by
  have hn0 : 0 < fl.m_nFuncs := Nat.pos_of_ne_zero hne
  have hs0 : rnd pos % fl.m_nFuncs < fl.m_nFuncs := Nat.mod_lt _ hn0
  have hnn : ∀ c : Nat, ((c : Nat) : Int) ≠ NULLFUNC := by
    intro c hc
    unfold NULLFUNC at hc
    omega
  have hmemno : ∀ {c : Nat}, c < fl.m_nFuncs → (fl.descAt c).m_return_type = rt →
      ¬ ∀ d ∈ fl.m_functions, d.m_return_type ≠ rt :=
    fun hc hty hall => hall _ (descAt_mem hc) hty
  unfold GPFunctionLookup.GetRandomFuncWithReturnType
  rw [if_neg hne]
  dsimp only
  rw [GetFunctionByID_nat fl (lt_of_lt_of_le hs0 hwf.1)]
  rcases GetNext_total hwf rt hs0 with ⟨k, hk0, hk, e, hty, _⟩ | ⟨e, hno⟩
  · rw [e]
    dsimp only
    rw [if_neg (fun hc => hnn _ hc.1)]
    have hlt : (rnd pos % fl.m_nFuncs + k) % fl.m_nFuncs < fl.m_nFuncs := Nat.mod_lt _ hn0
    exact ⟨_, rfl, ⟨fun hc => absurd hc (hnn _), fun hall => absurd hall (hmemno hlt hty)⟩,
      fun _ => ⟨_, hlt, rfl, hty⟩⟩
  · rw [e]
    dsimp only
    by_cases hst : (fl.descAt (rnd pos % fl.m_nFuncs)).m_return_type = rt
    · rw [if_pos ⟨rfl, hst⟩]
      exact ⟨_, rfl, ⟨fun hc => absurd hc (hnn _), fun hall => absurd hall (hmemno hs0 hst)⟩,
        fun _ => ⟨_, hs0, rfl, hst⟩⟩
    · rw [if_neg (fun hc => hst hc.2)]
      refine ⟨_, rfl, ⟨fun _ => ?_, fun _ => rfl⟩, fun hc => absurd rfl hc⟩
      intro d hd
      obtain ⟨c, hc, rfl⟩ := mem_descAt hd
      by_cases hcs : c = rnd pos % fl.m_nFuncs
      · rw [hcs]; exact hst
      · exact hno c hc hcs

/-- Every descriptor with the return type is what `GetRandomFuncWithReturnType`
returns for some random number: the one that leads to the slot before it. -/
theorem GetRandom_onto {fl : GPFunctionLookup} (hwf : fl.WF) (rt : Int) {c : Nat}
    (hc : c < fl.m_nFuncs) (hty : (fl.descAt c).m_return_type = rt) (rnd : Nat → Nat)
    (pos : Nat) (hdraw : rnd pos = (c + fl.m_nFuncs - 1) % fl.m_nFuncs) :
    fl.GetRandomFuncWithReturnType rt rnd pos = some ((c : Int), pos + 1) := by
  have hn0 : 0 < fl.m_nFuncs := by omega
  have hs0 : rnd pos % fl.m_nFuncs < fl.m_nFuncs := Nat.mod_lt _ hn0
  have hs : rnd pos % fl.m_nFuncs = (c + fl.m_nFuncs - 1) % fl.m_nFuncs := by
    rw [hdraw, Nat.mod_mod]
  unfold GPFunctionLookup.GetRandomFuncWithReturnType
  rw [if_neg (by omega)]
  dsimp only
  rw [GetFunctionByID_nat fl (lt_of_lt_of_le hs0 hwf.1)]
  by_cases h1 : fl.m_nFuncs = 1
  · have hc0 : c = 0 := by omega
    have hs1 : rnd pos % fl.m_nFuncs = 0 := by omega
    rw [GetNext_none hwf hs0 (fun k1 h0 hk1 => by omega)]
    dsimp only
    rw [hs1, if_pos ⟨rfl, by rw [← hc0]; exact hty⟩, hc0]
  · have hnext : (rnd pos % fl.m_nFuncs + 1) % fl.m_nFuncs = c := by
      rw [hs, Nat.mod_add_mod]
      have : c + fl.m_nFuncs - 1 + 1 = c + fl.m_nFuncs := by omega
      rw [this, Nat.add_mod_right, Nat.mod_eq_of_lt hc]
    rw [GetNext_found hwf hs0 Nat.one_pos (by omega) (by rw [hnext]; exact hty)
      (fun k1 h0 hk1 => by omega), hnext]
    dsimp only
    rw [if_neg]
    intro hcn
    have := hcn.1
    unfold NULLFUNC at this
    omega

/-- C21, on the input where the code leaves the claim: `GetRandomFuncWithReturnType`
on the empty registry computes `rand() % m_nFuncs` with `m_nFuncs = 0`, a division
by zero, so the call has no result at all (the claim asks for `NULLFUNC`). -/
theorem GetRandomFuncWithReturnType_empty_registry (t : Int) (rnd : Nat → Nat) (pos : Nat) :
    GPFunctionLookup.empty.m_nFuncs = 0 ∧
      GPFunctionLookup.empty.GetRandomFuncWithReturnType t rnd pos = none ∧
      GPFunctionLookup.empty.GetRandomFuncWithReturnType t rnd pos ≠ some (NULLFUNC, pos + 1) := by
  refine ⟨rfl, rfl, ?_⟩
  intro h
  cases h

end GP

namespace GP

theorem mem_idsWithReturnType {fl : GPFunctionLookup} {t : Int} {c : Nat} :
    c ∈ fl.idsWithReturnType t ↔ c < fl.m_nFuncs ∧ (fl.descAt c).m_return_type = t := by
  simp [GPFunctionLookup.idsWithReturnType]

theorem idsWithReturnType_sorted (fl : GPFunctionLookup) (t : Int) :
    (fl.idsWithReturnType t).Pairwise (· < ·) :=
  List.Pairwise.filter _ (List.pairwise_lt_range _)

theorem idsWithReturnType_nodup (fl : GPFunctionLookup) (t : Int) :
    (fl.idsWithReturnType t).Nodup :=
  (idsWithReturnType_sorted fl t).imp (fun h => Nat.ne_of_lt h)

theorem idsWithReturnType_lt {fl : GPFunctionLookup} {t : Int} {i j : Nat}
    (hi : i < (fl.idsWithReturnType t).length) (hj : j < (fl.idsWithReturnType t).length)
    (hij : i < j) : (fl.idsWithReturnType t)[i] < (fl.idsWithReturnType t)[j] :=
  List.pairwise_iff_getElem.mp (idsWithReturnType_sorted fl t) i j hi hj hij

/-- From a descriptor with the return type, `GetNextFuncWithReturnType` leads to
the next one in ascending order, and from the last one to the first. -/
theorem GetNext_ids {fl : GPFunctionLookup} (hwf : fl.WF) (t : Int)
    (h2 : 2 ≤ (fl.idsWithReturnType t).length) {i : Nat}
    (hi : i < (fl.idsWithReturnType t).length) :
    ∃ q, (fl.idsWithReturnType t)[(i + 1) % (fl.idsWithReturnType t).length]? = some q ∧
      fl.GetNextFuncWithReturnType t (((fl.idsWithReturnType t)[i] : Nat) : Int) =
        some (q : Int) := by
  obtain ⟨M, hM⟩ : ∃ M, M = fl.idsWithReturnType t := ⟨_, rfl⟩
  rw [← hM] at h2 hi
  simp only [← hM]
  have hi1 : (i + 1) % M.length < M.length := Nat.mod_lt _ (by omega)
  refine ⟨M[(i + 1) % M.length], List.getElem?_eq_getElem hi1, ?_⟩
  have hmem : ∀ c, c ∈ M ↔ c < fl.m_nFuncs ∧ (fl.descAt c).m_return_type = t := by
    intro c; rw [hM]; exact mem_idsWithReturnType
  have hlt : ∀ {a b : Nat} (ha : a < M.length) (hb : b < M.length), a < b → M[a] < M[b] := by
    intro a b ha hb hab
    have := @idsWithReturnType_lt fl t a b (by rw [← hM]; exact ha) (by rw [← hM]; exact hb) hab
    simpa only [← hM] using this
  obtain ⟨hpn, _⟩ := (hmem M[i]).mp (List.getElem_mem hi)
  obtain ⟨hqn, hqt⟩ := (hmem M[(i + 1) % M.length]).mp (List.getElem_mem hi1)
  obtain ⟨o1, o2, o3⟩ := mod_offset hpn hqn
  by_cases hlast : i + 1 < M.length
  · have e1 : (i + 1) % M.length = i + 1 := Nat.mod_eq_of_lt hlast
    have hpq : M[i] < M[(i + 1) % M.length] := hlt hi hi1 (by omega)
    have hk : (M[(i + 1) % M.length] + fl.m_nFuncs - M[i]) % fl.m_nFuncs =
        M[(i + 1) % M.length] - M[i] := by
      have : M[(i + 1) % M.length] + fl.m_nFuncs - M[i] =
          (M[(i + 1) % M.length] - M[i]) + fl.m_nFuncs := by omega
      rw [this, Nat.add_mod_right, Nat.mod_eq_of_lt (by omega)]
    have hk0 : 0 < (M[(i + 1) % M.length] + fl.m_nFuncs - M[i]) % fl.m_nFuncs := by
      rw [hk]; omega
    have hqt2 : (fl.descAt ((M[i] + (M[(i + 1) % M.length] + fl.m_nFuncs - M[i]) % fl.m_nFuncs) %
        fl.m_nFuncs)).m_return_type = t := by rw [o2]; exact hqt
    have := GetNext_found hwf hpn hk0 o1 hqt2 (by
      intro k1 h0 hk1 hc
      rw [hk] at hk1
      have hck : (M[i] + k1) % fl.m_nFuncs = M[i] + k1 := Nat.mod_eq_of_lt (by omega)
      rw [hck] at hc
      have hcm : M[i] + k1 ∈ M := (hmem _).mpr ⟨by omega, hc⟩
      obtain ⟨j, hj, ej⟩ := List.mem_iff_getElem.mp hcm
      have hij : i < j := by
        by_contra hge
        rcases Nat.lt_or_eq_of_le (Nat.le_of_not_lt hge) with hji | hji
        · have := hlt hj hi hji; omega
        · subst hji; omega
      have hj1 : j < (i + 1) % M.length := by
        by_contra hge
        rcases Nat.lt_or_eq_of_le (Nat.le_of_not_lt hge) with hji | hji
        · have := hlt hi1 hj hji; omega
        · have : M[(i + 1) % M.length] = M[j] := by congr 1
          omega
      omega)
    rw [o2] at this
    exact this
  · have e1 : (i + 1) % M.length = 0 := by
      have : i + 1 = M.length := by omega
      rw [this, Nat.mod_self]
    have h0lt : 0 < M.length := by omega
    have hq0 : M[(i + 1) % M.length] = M[0] := by congr 1
    have hpq : M[0] < M[i] := hlt h0lt hi (by omega)
    have hk : (M[(i + 1) % M.length] + fl.m_nFuncs - M[i]) % fl.m_nFuncs =
        M[0] + fl.m_nFuncs - M[i] := by
      rw [hq0, Nat.mod_eq_of_lt (by omega)]
    have hk0 : 0 < (M[(i + 1) % M.length] + fl.m_nFuncs - M[i]) % fl.m_nFuncs := by
      rw [hk]; omega
    have hqt2 : (fl.descAt ((M[i] + (M[(i + 1) % M.length] + fl.m_nFuncs - M[i]) % fl.m_nFuncs) %
        fl.m_nFuncs)).m_return_type = t := by rw [o2]; exact hqt
    have := GetNext_found hwf hpn hk0 o1 hqt2 (by
      intro k1 h0 hk1 hc
      rw [hk] at hk1
      by_cases hwrap : M[i] + k1 < fl.m_nFuncs
      · rw [Nat.mod_eq_of_lt hwrap] at hc
        have hcm : M[i] + k1 ∈ M := (hmem _).mpr ⟨hwrap, hc⟩
        obtain ⟨j, hj, ej⟩ := List.mem_iff_getElem.mp hcm
        have hij : i < j := by
          by_contra hge
          rcases Nat.lt_or_eq_of_le (Nat.le_of_not_lt hge) with hji | hji
          · have := hlt hj hi hji; omega
          · subst hji; omega
        omega
      · have hck : (M[i] + k1) % fl.m_nFuncs = M[i] + k1 - fl.m_nFuncs := by
          rw [Nat.mod_eq_sub_mod (by omega), Nat.mod_eq_of_lt (by omega)]
        rw [hck] at hc
        have hcm : M[i] + k1 - fl.m_nFuncs ∈ M := (hmem _).mpr ⟨by omega, hc⟩
        obtain ⟨j, hj, ej⟩ := List.mem_iff_getElem.mp hcm
        rcases Nat.eq_zero_or_pos j with hj0 | hj0
        · subst hj0; omega
        · have := hlt h0lt hj hj0; omega)
    rw [o2] at this
    exact this

/-- Repeated calls of `GetNextFuncWithReturnType` from a descriptor with the
return type go through the descriptors with the return type in ascending order,
around the end. -/
theorem nextIter_ids {fl : GPFunctionLookup} (hwf : fl.WF) (t : Int)
    (h2 : 2 ≤ (fl.idsWithReturnType t).length) :
    ∀ (j i : Nat) (hi : i < (fl.idsWithReturnType t).length),
      ∃ q, (fl.idsWithReturnType t)[(i + j) % (fl.idsWithReturnType t).length]? = some q ∧
        nextIter fl t j (((fl.idsWithReturnType t)[i] : Nat) : Int) = some (q : Int) := by
  intro j
  induction j with
  | zero =>
    intro i hi
    refine ⟨_, ?_, rfl⟩
    rw [Nat.add_zero, Nat.mod_eq_of_lt hi, List.getElem?_eq_getElem hi]
  | succ j ih =>
    intro i hi
    obtain ⟨q, hq, e⟩ := GetNext_ids hwf t h2 hi
    have hi1 : (i + 1) % (fl.idsWithReturnType t).length < (fl.idsWithReturnType t).length :=
      Nat.mod_lt _ (by omega)
    obtain ⟨q2, hq2, e2⟩ := ih _ hi1
    rw [List.getElem?_eq_getElem hi1] at hq
    cases hq
    refine ⟨q2, ?_, ?_⟩
    · rw [← hq2]
      congr 1
      rw [Nat.mod_add_mod]
      congr 1
      omega
    · rw [nextIter, e]
      exact e2

end GP

namespace GP

/-- C22: for a registry with at most 60 descriptors and a registered id `p`,
`GetNextFuncWithReturnType( t, p )` returns; the result is `NULLFUNC` exactly when
no descriptor other than `p` has the return type `t`; otherwise it is the first id
behind `p`, going forward and around the end and stopping before `p`, whose
descriptor has the return type `t`.  When at least two descriptors have the
return type and `p` is the `i`-th of them, the calls repeated from `p` go through
all of them, each once (the ascending list of their ids, rotated to start at `p`),
and then come back to `p`. -/
theorem GetNextFuncWithReturnType_cyclic_scan {fl : GPFunctionLookup} (hwf : fl.WF) (t : Int)
    {p : Nat} (hp : p < fl.m_nFuncs) :
    ∃ r : Int, fl.GetNextFuncWithReturnType t (p : Int) = some r ∧
      (r = NULLFUNC ↔ ∀ c, c < fl.m_nFuncs → c ≠ p → (fl.descAt c).m_return_type ≠ t) ∧
      (r ≠ NULLFUNC → ∃ k, 0 < k ∧ k < fl.m_nFuncs ∧
        r = (((p + k) % fl.m_nFuncs : Nat) : Int) ∧
        (fl.descAt ((p + k) % fl.m_nFuncs)).m_return_type = t ∧
        ∀ k1, 0 < k1 → k1 < k → (fl.descAt ((p + k1) % fl.m_nFuncs)).m_return_type ≠ t) ∧
      (∀ c, c ∈ fl.idsWithReturnType t ↔ c < fl.m_nFuncs ∧ (fl.descAt c).m_return_type = t) ∧
      (fl.idsWithReturnType t).Nodup ∧
      (2 ≤ (fl.idsWithReturnType t).length → ∀ i, (fl.idsWithReturnType t)[i]? = some p →
        ((fl.idsWithReturnType t).rotate i).Perm (fl.idsWithReturnType t) ∧
        (List.range (fl.idsWithReturnType t).length).map (fun j => nextIter fl t j (p : Int)) =
          ((fl.idsWithReturnType t).rotate i).map (fun c : Nat => some (c : Int)) ∧
        nextIter fl t (fl.idsWithReturnType t).length (p : Int) = some (p : Int)) := by
  have hnn : ∀ c : Nat, ((c : Nat) : Int) ≠ NULLFUNC := by
    intro c hc
    unfold NULLFUNC at hc
    omega
  have hpart : ∃ r : Int, fl.GetNextFuncWithReturnType t (p : Int) = some r ∧
      (r = NULLFUNC ↔ ∀ c, c < fl.m_nFuncs → c ≠ p → (fl.descAt c).m_return_type ≠ t) ∧
      (r ≠ NULLFUNC → ∃ k, 0 < k ∧ k < fl.m_nFuncs ∧
        r = (((p + k) % fl.m_nFuncs : Nat) : Int) ∧
        (fl.descAt ((p + k) % fl.m_nFuncs)).m_return_type = t ∧
        ∀ k1, 0 < k1 → k1 < k →
          (fl.descAt ((p + k1) % fl.m_nFuncs)).m_return_type ≠ t) := by
    rcases GetNext_total hwf t hp with ⟨k, hk0, hk, e, hty, hmin⟩ | ⟨e, hno⟩
    · refine ⟨_, e, ⟨fun hc => absurd hc (hnn _), fun hall => ?_⟩,
        fun _ => ⟨k, hk0, hk, rfl, hty, hmin⟩⟩
      exact absurd hty (hall _ (Nat.mod_lt _ (by omega)) (add_mod_ne hp hk0 hk))
    · exact ⟨_, e, ⟨fun _ => hno, fun _ => rfl⟩, fun hc => absurd rfl hc⟩
  obtain ⟨r, e, hnull, hfound⟩ := hpart
  refine ⟨r, e, hnull, hfound, fun c => mem_idsWithReturnType, idsWithReturnType_nodup fl t, ?_⟩
  intro h2 i hi
  have hil : i < (fl.idsWithReturnType t).length := by
    by_contra hge
    rw [List.getElem?_eq_none (by omega)] at hi
    cases hi
  have hpi : (fl.idsWithReturnType t)[i] = p := by
    rw [List.getElem?_eq_getElem hil] at hi
    exact Option.some.inj hi
  refine ⟨List.rotate_perm _ _, ?_, ?_⟩
  · apply List.ext_getElem
    · simp
    · intro j hj1 hj2
      have hj : j < (fl.idsWithReturnType t).length := by simpa using hj1
      obtain ⟨q, hq, eq⟩ := nextIter_ids hwf t h2 j i hil
      rw [hpi] at eq
      have hm : (i + j) % (fl.idsWithReturnType t).length < (fl.idsWithReturnType t).length :=
        Nat.mod_lt _ (by omega)
      rw [List.getElem?_eq_getElem hm] at hq
      rw [List.getElem_map, List.getElem_range, List.getElem_map, List.getElem_rotate, eq]
      congr 2
      rw [← Option.some.inj hq]
      congr 1
      rw [Nat.add_comm]
  · obtain ⟨q, hq, eq⟩ := nextIter_ids hwf t h2 (fl.idsWithReturnType t).length i hil
    rw [hpi] at eq
    rw [Nat.add_mod_right, Nat.mod_eq_of_lt hil, List.getElem?_eq_getElem hil, hpi] at hq
    rw [eq, ← Option.some.inj hq]

theorem GetNextFuncWithReturnType_cyclic_scan_witness :
    ∃ r : Int, exampleRegistry.GetNextFuncWithReturnType 1 ((3 : Nat) : Int) = some r ∧
      (r = NULLFUNC ↔
        ∀ c, c < exampleRegistry.m_nFuncs → c ≠ 3 →
          (exampleRegistry.descAt c).m_return_type ≠ 1) ∧
      (r ≠ NULLFUNC → ∃ k, 0 < k ∧ k < exampleRegistry.m_nFuncs ∧
        r = (((3 + k) % exampleRegistry.m_nFuncs : Nat) : Int) ∧
        (exampleRegistry.descAt ((3 + k) % exampleRegistry.m_nFuncs)).m_return_type = 1 ∧
        ∀ k1, 0 < k1 → k1 < k →
          (exampleRegistry.descAt ((3 + k1) % exampleRegistry.m_nFuncs)).m_return_type ≠ 1) ∧
      (∀ c, c ∈ exampleRegistry.idsWithReturnType 1 ↔
        c < exampleRegistry.m_nFuncs ∧ (exampleRegistry.descAt c).m_return_type = 1) ∧
      (exampleRegistry.idsWithReturnType 1).Nodup ∧
      (2 ≤ (exampleRegistry.idsWithReturnType 1).length →
        ∀ i, (exampleRegistry.idsWithReturnType 1)[i]? = some 3 →
        ((exampleRegistry.idsWithReturnType 1).rotate i).Perm
          (exampleRegistry.idsWithReturnType 1) ∧
        (List.range (exampleRegistry.idsWithReturnType 1).length).map
            (fun j => nextIter exampleRegistry 1 j ((3 : Nat) : Int)) =
          ((exampleRegistry.idsWithReturnType 1).rotate i).map (fun c : Nat => some (c : Int)) ∧
        nextIter exampleRegistry 1 (exampleRegistry.idsWithReturnType 1).length
          ((3 : Nat) : Int) = some ((3 : Nat) : Int)) :=
  GetNextFuncWithReturnType_cyclic_scan (by decide) 1 (by decide)

end GP

namespace GP

/-! ## The iterator: Random -/

/-- C23: `Random( prefer_nonroot )` on an iterator with the count `c`, for every
random number: the result is `INVALID_INDEX` exactly when `c = 0`; it is 0 when
`c = 1`; for `c > 1` it lies in `[1, c)` when `prefer_nonroot` is set and in
`[0, c)` when it is not, and every index of that range is the result for some
random number. -/
theorem Random_index_range (it : GPConstSubtreeIter) (prefer_nonroot : Bool) (rnd : Nat → Nat)
    (pos : Nat) :
    ((it.Random prefer_nonroot rnd pos).1 = INVALID_INDEX ↔ it.Count = 0) ∧
      (it.Count = 1 → (it.Random prefer_nonroot rnd pos).1 = 0) ∧
      (1 < it.Count → prefer_nonroot = true →
        1 ≤ (it.Random prefer_nonroot rnd pos).1 ∧
          (it.Random prefer_nonroot rnd pos).1 < it.Count) ∧
      (1 < it.Count → prefer_nonroot = false →
        0 ≤ (it.Random prefer_nonroot rnd pos).1 ∧
          (it.Random prefer_nonroot rnd pos).1 < it.Count) ∧
      (1 < it.Count → ∀ i : Int, (if prefer_nonroot then 1 else 0) ≤ i → i < it.Count →
        ∃ r : Nat, ∀ draws : Nat → Nat, draws pos = r →
          (it.Random prefer_nonroot draws pos).1 = i) := by
  have hoff : ∀ b : Bool, (0 : Int) ≤ (if b then 1 else 0) := by
    intro b; cases b <;> simp
  have hnn : 0 ≤ Int.tmod (rnd pos : Int) (it.m_count - if prefer_nonroot then 1 else 0) :=
    Int.tmod_nonneg _ (Int.ofNat_nonneg _)
  simp only [GPConstSubtreeIter.Count]
  refine ⟨?_, ?_, ?_, ?_, ?_⟩
  · unfold GPConstSubtreeIter.Random
    dsimp only
    by_cases h0 : it.m_count = 0
    · rw [if_pos h0]; exact ⟨fun _ => h0, fun _ => rfl⟩
    · rw [if_neg h0]
      by_cases h1 : it.m_count = 1
      · rw [if_pos h1]
        exact ⟨fun hc => by simp [INVALID_INDEX] at hc, fun hc => absurd hc h0⟩
      · rw [if_neg h1]
        refine ⟨fun hc => ?_, fun hc => absurd hc h0⟩
        exfalso
        have := hoff prefer_nonroot
        simp only [INVALID_INDEX] at hc
        omega
  · intro h1
    unfold GPConstSubtreeIter.Random
    dsimp only
    rw [if_neg (by omega), if_pos h1]
  · intro h1 hp
    subst hp
    unfold GPConstSubtreeIter.Random
    dsimp only
    rw [if_neg (by omega), if_neg (by omega)]
    simp only [if_true] at hnn ⊢
    have := Int.tmod_lt_of_pos (rnd pos : Int) (by omega : (0 : Int) < it.m_count - 1)
    constructor <;> omega
  · intro h1 hp
    subst hp
    unfold GPConstSubtreeIter.Random
    dsimp only
    rw [if_neg (by omega), if_neg (by omega)]
    simp only [Bool.false_eq_true, if_false, sub_zero, zero_add] at hnn ⊢
    have := Int.tmod_lt_of_pos (rnd pos : Int) (by omega : (0 : Int) < it.m_count)
    constructor <;> omega
  · intro h1 i hlo hhi
    have h0 := hoff prefer_nonroot
    refine ⟨(i - if prefer_nonroot then 1 else 0).toNat, ?_⟩
    intro draws hd
    unfold GPConstSubtreeIter.Random
    dsimp only
    rw [if_neg (by omega), if_neg (by omega), hd]
    have hcast : (((i - if prefer_nonroot then 1 else 0).toNat : Nat) : Int) =
        i - if prefer_nonroot then 1 else 0 := Int.toNat_of_nonneg (by omega)
    rw [hcast, Int.tmod_eq_of_lt (by omega) (by omega)]
    omega

end GP

namespace GP

/-! ## The iterator: the typed Random without `prefer_nonroot` -/

/-- One round of the loop of the typed `Random` when index 0 is not skipped. -/
theorem typedRandomLoop_succ_all {fl : GPFunctionLookup} {h : Heap} {it : GPConstSubtreeIter}
    {L : List Nat} (hl : Live it L) {c : Nat} (hc : c < L.length) {ty1 : Int}
    (hty : retType fl h L[c] = some ty1) (ty : Int) (start : Int) (fuel : Nat) :
    typedRandomLoop fl h it ty false start (fuel + 1) (c : Int) =
      if ty1 = ty then some (c : Int)
      else
        if Int.tmod ((c : Int) + 1) (L.length : Int) ≠ start then
          typedRandomLoop fl h it ty false start fuel (Int.tmod ((c : Int) + 1) (L.length : Int))
        else some INVALID_INDEX := by
  obtain ⟨nd, d, hcell, hd, hdr⟩ := retType_eq_some hty
  rw [typedRandomLoop, hl.getNode hc]
  dsimp only
  rw [hcell]
  dsimp only
  rw [hd]
  dsimp only
  rw [hdr, hl.1]
  simp only [Bool.false_eq_true, false_and, if_false]

/-- The loop of the typed `Random` when index 0 is not skipped: it goes through
all indices, from the start index on and around, and returns the first one with
the return type, or `INVALID_INDEX` when there is none. -/
theorem typedRandomLoop_spec_all {fl : GPFunctionLookup} {h : Heap} {it : GPConstSubtreeIter}
    {L : List Nat} (hl : Live it L) (hty : ∀ y ∈ L, (retType fl h y).isSome) (ty : Int)
    (start : Nat) (hs2 : start < L.length) :
    ∀ (fuel c : Nat), c < L.length →
      (if start ≤ c then L.length - c + start else start - c) ≤ fuel →
      (∀ (j y : Nat), L[j]? = some y →
        ((start ≤ c ∧ start ≤ j ∧ j < c) ∨ (c < start ∧ (start ≤ j ∨ j < c))) →
        retType fl h y ≠ some ty) →
      ∃ r, typedRandomLoop fl h it ty false (start : Int) fuel (c : Int) = some r ∧
        ((r = INVALID_INDEX ∧ ∀ (j y : Nat), L[j]? = some y → retType fl h y ≠ some ty) ∨
          (∃ (j y : Nat), r = (j : Int) ∧ L[j]? = some y ∧ retType fl h y = some ty)) := by
  intro fuel
  induction fuel with
  | zero =>
    intro c hc2 hrem _
    split at hrem <;> omega
  | succ fuel ih =>
    intro c hc2 hrem hvis
    obtain ⟨ty1, hty1⟩ := Option.isSome_iff_exists.mp (hty L[c] (List.getElem_mem _))
    rw [typedRandomLoop_succ_all hl hc2 hty1]
    by_cases e : ty1 = ty
    · rw [if_pos e]
      exact ⟨_, rfl, Or.inr ⟨c, L[c], rfl, List.getElem?_eq_getElem hc2, e ▸ hty1⟩⟩
    · rw [if_neg e]
      have hcne : retType fl h L[c] ≠ some ty := by
        rw [hty1]
        intro hc
        exact e (Option.some.inj hc)
      have hjlt : ∀ j y, L[j]? = some y → j < L.length := by
        intro j y hj
        by_contra hge
        rw [List.getElem?_eq_none (by omega)] at hj
        cases hj
      have hjc : ∀ y, L[c]? = some y → retType fl h y ≠ some ty := by
        intro y hy
        rw [List.getElem?_eq_getElem hc2] at hy
        cases hy
        exact hcne
      have hmod : Int.tmod ((c : Int) + 1) (L.length : Int) = (((c + 1) % L.length : Nat) : Int) := by
        rw [Int.ofNat_tmod]
        rfl
      rw [hmod]
      have hnlt : (c + 1) % L.length < L.length := Nat.mod_lt _ (by omega)
      have hnext : ∃ n1, (c + 1) % L.length = n1 ∧
          ((c + 1 < L.length ∧ n1 = c + 1) ∨ (c + 1 = L.length ∧ n1 = 0)) := by
        by_cases hlast : c + 1 < L.length
        · exact ⟨_, rfl, Or.inl ⟨hlast, Nat.mod_eq_of_lt hlast⟩⟩
        · have : c + 1 = L.length := by omega
          exact ⟨_, rfl, Or.inr ⟨this, by rw [this, Nat.mod_self]⟩⟩
      obtain ⟨n1, en1, hn1⟩ := hnext
      rw [en1]
      rw [en1] at hnlt
      by_cases hst : n1 = start
      · rw [if_neg (by rw [hst]; simp)]
        refine ⟨_, rfl, Or.inl ⟨rfl, ?_⟩⟩
        intro j y hj
        have := hjlt j y hj
        by_cases hjc' : j = c
        · subst hjc'; exact hjc y hj
        · refine hvis j y hj ?_
          omega
      · rw [if_pos (by intro hc; exact hst (by exact_mod_cast hc))]
        apply ih _ hnlt
        · split at hrem <;> split <;> omega
        · intro j y hj hv
          have := hjlt j y hj
          by_cases hjc' : j = c
          · subst hjc'; exact hjc y hj
          · refine hvis j y hj ?_
            omega

/-- The typed `Random` without `prefer_nonroot`: it returns an index whose node
has the return type, or `INVALID_INDEX` when no node that the iterator holds has
the return type. -/
theorem RandomTyped_spec_all {fl : GPFunctionLookup} {h : Heap} {it : GPConstSubtreeIter}
    {L : List Nat} (hl : Live it L) (h0 : L ≠ []) (hty : ∀ y ∈ L, (retType fl h y).isSome)
    (ty : Int) (rnd : Nat → Nat) (pos : Nat) :
    ∃ r pos1, it.RandomTyped fl h ty false rnd pos = some (r, pos1) ∧
      ((r = INVALID_INDEX ∧ ∀ (j y : Nat), L[j]? = some y → retType fl h y ≠ some ty) ∨
        (∃ (j y : Nat), r = (j : Int) ∧ L[j]? = some y ∧ retType fl h y = some ty)) := by
  have hlen : 0 < L.length := List.length_pos.mpr h0
  unfold GPConstSubtreeIter.RandomTyped
  rw [hl.1, if_neg (by omega)]
  dsimp only
  simp only [Bool.false_eq_true, if_false, sub_zero, zero_add]
  have hstart : ∃ s : Nat, s < L.length ∧
      (if ((L.length : Nat) : Int) = 1 then ((0 : Int), pos)
        else (Int.tmod (rnd pos : Int) (L.length : Int), pos + 1)) =
        ((s : Int), if ((L.length : Nat) : Int) = 1 then pos else pos + 1) := by
    by_cases h1 : ((L.length : Nat) : Int) = 1
    · exact ⟨0, hlen, by rw [if_pos h1, if_pos h1]; rfl⟩
    · refine ⟨rnd pos % L.length, Nat.mod_lt _ hlen, ?_⟩
      rw [if_neg h1, if_neg h1, ← Int.ofNat_tmod]
  obtain ⟨s, hs, es⟩ := hstart
  rw [es]
  dsimp only
  obtain ⟨r, er, hr⟩ := typedRandomLoop_spec_all hl hty ty s hs
    (((L.length : Nat) : Int).toNat + 1) s hs (by
      rw [if_pos (le_refl _), Int.toNat_ofNat]
      omega) (by
      intro j y _ hv
      omega)
  rw [er]
  exact ⟨_, _, rfl, hr⟩

end GP

namespace GP

/-- C24, as the claim states it, fails: the iterator over the tree `F( T )` of
`crossHeap` holds the root `F` (cell 1, index 0) and the leaf `T` (cell 2,
index 1); with the registry `F( t ) -> int`, `T() -> t`, `Two() -> int` the typed
`Random` for the return type `int` with `prefer_nonroot` returns `INVALID_INDEX`,
although the node at index 0 has a function with the return type `int`: with
`prefer_nonroot` the scan starts at index 1 and steps over index 0. -/
theorem RandomTyped_invalid_despite_match :
    GPConstSubtreeIter.ofTree crossHeap crossTarget = some ⟨[some 1, some 2], 2⟩ ∧
      GPConstSubtreeIter.RandomTyped ⟨[some 1, some 2], 2⟩ crossRegistry crossHeap 1 true
        (fun _ => 0) 0 = some (INVALID_INDEX, 1) ∧
      GPConstSubtreeIter.GetNode ⟨[some 1, some 2], 2⟩ 0 = some 1 ∧
      (crossHeap[1]?).map GPTreeNode.functionID = some 1 ∧
      (crossRegistry.GetFunctionByID 1).map GPFunctionDesc.m_return_type = some 1 ∧
      retType crossRegistry crossHeap 1 = some 1 := by
  repeat' apply And.intro
  all_goals decide

/-- C24, amended: the typed `Random( functions, t, prefer_nonroot )` on an iterator
that holds the nodes `L`, each a cell of the heap with a function id inside the
descriptor array, for any random draws: it returns; a result other than
`INVALID_INDEX` is an index in `[0, count)` of a node whose function has the
return type `t`; and the result is `INVALID_INDEX` only if no node at an index
that the scan can visit has a function with the return type `t`, where the scan
can visit every index when `prefer_nonroot` is not set or the count is 1, and
every index other than 0 when `prefer_nonroot` is set and the count is above 1. -/
theorem RandomTyped_invalid_only_without_visited_match (fl : GPFunctionLookup) (h : Heap)
    (it : GPConstSubtreeIter) (L : List Nat) (t : Int) (prefer_nonroot : Bool)
    (rnd : Nat → Nat) (pos : Nat) (hl : Live it L)
    (hty : ∀ y ∈ L, (retType fl h y).isSome) :
    ∃ r pos1, it.RandomTyped fl h t prefer_nonroot rnd pos = some (r, pos1) ∧
      (r ≠ INVALID_INDEX → ∃ (j y : Nat), r = (j : Int) ∧ (j : Int) < it.Count ∧
        it.GetNode r = some y ∧ retType fl h y = some t) ∧
      (r = INVALID_INDEX → ∀ (j y : Nat), (j : Int) < it.Count → it.GetNode (j : Int) = some y →
        (prefer_nonroot = false ∨ 1 ≤ j ∨ it.Count = 1) → retType fl h y ≠ some t) := by
  have hnn : ∀ c : Nat, ((c : Nat) : Int) ≠ INVALID_INDEX := by
    intro c hc
    unfold INVALID_INDEX at hc
    omega
  have hjlt : ∀ j y, L[j]? = some y → j < L.length := by
    intro j y hj
    by_contra hge
    rw [List.getElem?_eq_none (by omega)] at hj
    cases hj
  have hcount : it.Count = (L.length : Int) := hl.1
  have hget : ∀ j : Nat, (j : Int) < it.Count → ∀ y, it.GetNode (j : Int) = some y →
      L[j]? = some y := by
    intro j hj y hy
    rw [hcount] at hj
    have hj2 : j < L.length := by exact_mod_cast hj
    rw [hl.getNode hj2] at hy
    rw [List.getElem?_eq_getElem hj2]
    exact hy
  by_cases h0 : L = []
  · subst h0
    refine ⟨INVALID_INDEX, pos, ?_, fun hc => absurd rfl hc, ?_⟩
    · unfold GPConstSubtreeIter.RandomTyped
      rw [if_pos (by rw [hl.1]; rfl)]
    · intro _ j y hj
      rw [hcount] at hj
      simp only [List.length_nil, Nat.cast_zero] at hj
      omega
  · have key : ∃ r pos1, it.RandomTyped fl h t prefer_nonroot rnd pos = some (r, pos1) ∧
        ((r = INVALID_INDEX ∧
            ∀ (j y : Nat), L[j]? = some y → (prefer_nonroot = false ∨ 1 ≤ j ∨ L.length = 1) →
              retType fl h y ≠ some t) ∨
          (∃ (j y : Nat), r = (j : Int) ∧ L[j]? = some y ∧ retType fl h y = some t)) := by
      cases prefer_nonroot with
      | true =>
        obtain ⟨r, pos1, e, hr⟩ := RandomTyped_spec hl h0 hty t rnd pos
        refine ⟨r, pos1, e, ?_⟩
        rcases hr with ⟨hr1, hr2⟩ | ⟨j, y, hr1, hr2, _, hr4⟩
        · refine Or.inl ⟨hr1, fun j y hj hv => hr2 j y hj ?_⟩
          rcases hv with hv | hv | hv
          · cases hv
          · exact Or.inl hv
          · exact Or.inr hv
        · exact Or.inr ⟨j, y, hr1, hr2, hr4⟩
      | false =>
        obtain ⟨r, pos1, e, hr⟩ := RandomTyped_spec_all hl h0 hty t rnd pos
        refine ⟨r, pos1, e, ?_⟩
        rcases hr with ⟨hr1, hr2⟩ | hr
        · exact Or.inl ⟨hr1, fun j y hj _ => hr2 j y hj⟩
        · exact Or.inr hr
    obtain ⟨r, pos1, e, hr⟩ := key
    refine ⟨r, pos1, e, ?_, ?_⟩
    · intro hne
      rcases hr with ⟨hr1, _⟩ | ⟨j, y, hr1, hr2, hr3⟩
      · exact absurd hr1 hne
      · have hj := hjlt j y hr2
        refine ⟨j, y, hr1, by rw [hcount]; exact_mod_cast hj, ?_, hr3⟩
        rw [hr1, hl.getNode hj, ← List.getElem?_eq_getElem hj]
        exact hr2
    · intro hinv j y hj hy hv
      rcases hr with ⟨_, hr2⟩ | ⟨j2, _, hr1, _, _⟩
      · refine hr2 j y (hget j hj y hy) ?_
        rcases hv with hv | hv | hv
        · exact Or.inl hv
        · exact Or.inr (Or.inl hv)
        · refine Or.inr (Or.inr ?_)
          rw [hcount] at hv
          exact_mod_cast hv
      · rw [hr1] at hinv
        exact absurd hinv (hnn _)

theorem RandomTyped_invalid_only_without_visited_match_witness :
    ∃ r pos1, GPConstSubtreeIter.RandomTyped ⟨[some 1, some 2], 2⟩ crossRegistry crossHeap 3
        false (fun _ => 0) 0 = some (r, pos1) ∧
      (r ≠ INVALID_INDEX → ∃ (j y : Nat), r = (j : Int) ∧
        (j : Int) < GPConstSubtreeIter.Count ⟨[some 1, some 2], 2⟩ ∧
        GPConstSubtreeIter.GetNode ⟨[some 1, some 2], 2⟩ r = some y ∧
        retType crossRegistry crossHeap y = some 3) ∧
      (r = INVALID_INDEX → ∀ (j y : Nat),
        (j : Int) < GPConstSubtreeIter.Count ⟨[some 1, some 2], 2⟩ →
        GPConstSubtreeIter.GetNode ⟨[some 1, some 2], 2⟩ (j : Int) = some y →
        (false = false ∨ 1 ≤ j ∨ GPConstSubtreeIter.Count ⟨[some 1, some 2], 2⟩ = 1) →
        retType crossRegistry crossHeap y ≠ some 3) :=
  RandomTyped_invalid_only_without_visited_match crossRegistry crossHeap
    ⟨[some 1, some 2], 2⟩ [1, 2] 3 false (fun _ => 0) 0 ⟨rfl, [], rfl⟩ (by decide)

end GP

namespace GP

/-! ## The iterator: what `IgnoreNode( node )` and `IgnoreSubtree` return -/

/-- The loop of `IgnoreNode( node )` returns true exactly when the node is among
the nodes that are still to be looked at. -/
theorem ignoreNodeLoop_flag {it : GPConstSubtreeIter} {L : List Nat} (hl : Live it L)
    (x : Nat) :
    ∀ (fuel i : Nat) (it1 : GPConstSubtreeIter) (b : Bool),
      ignoreNodeLoop it x fuel i = some (it1, b) →
      (b = true ↔ ∃ j, i ≤ j ∧ L[j]? = some x) := by
  intro fuel
  induction fuel with
  | zero => intro i it1 b e; simp [ignoreNodeLoop] at e
  | succ fuel ih =>
    intro i it1 b e
    by_cases hi : i < L.length
    · simp only [ignoreNodeLoop] at e
      rw [if_pos (by rw [hl.1]; exact_mod_cast hi), hl.getElem? hi] at e
      dsimp only at e
      by_cases hx : L[i] = x
      · rw [if_pos (by rw [hx])] at e
        cases hig : it.IgnoreNode (i : Int) with
        | none => rw [hig] at e; cases e
        | some it2 =>
          rw [hig] at e
          simp only [Option.some.injEq, Prod.mk.injEq] at e
          refine ⟨fun _ => ⟨i, le_refl _, ?_⟩, fun _ => e.2.symm⟩
          rw [List.getElem?_eq_getElem hi, hx]
      · rw [if_neg (by simpa using hx)] at e
        rw [ih (i + 1) it1 b e]
        constructor
        · rintro ⟨j, hj, hjx⟩
          exact ⟨j, by omega, hjx⟩
        · rintro ⟨j, hj, hjx⟩
          refine ⟨j, ?_, hjx⟩
          by_contra hlt
          have : j = i := by omega
          subst this
          rw [List.getElem?_eq_getElem hi] at hjx
          exact hx (Option.some.inj hjx)
    · simp only [ignoreNodeLoop] at e
      rw [if_neg (by rw [hl.1]; exact_mod_cast hi)] at e
      simp only [Option.some.injEq, Prod.mk.injEq] at e
      constructor
      · intro hb
        rw [← e.2] at hb
        cases hb
      · rintro ⟨j, hj, hjx⟩
        rw [List.getElem?_eq_none (by omega)] at hjx
        cases hjx

/-- `IgnoreNode( node )` returns true exactly when the iterator holds the node. -/
theorem IgnoreNodePtr_flag {it : GPConstSubtreeIter} {L : List Nat} (hl : Live it L)
    {x : Nat} {it1 : GPConstSubtreeIter} {b : Bool} (e : it.IgnoreNodePtr x = some (it1, b)) :
    b = true ↔ x ∈ L := by
  unfold GPConstSubtreeIter.IgnoreNodePtr at e
  rw [ignoreNodeLoop_flag hl x _ 0 it1 b e, List.mem_iff_getElem?]
  constructor
  · rintro ⟨j, _, hj⟩; exact ⟨j, hj⟩
  · rintro ⟨j, hj⟩; exact ⟨j, Nat.zero_le _, hj⟩

/-- `IgnoreSubtree( node )` returns true when the iterator holds the node. -/
theorem IgnoreSubtreeAux_flag {h : Heap} {fuel : Nat} {u : Subtree} {x : Nat}
    {it : GPConstSubtreeIter} {L : List Nat} (hr : RepC h u) (hroot : u.root = some x)
    (hh : u.height ≤ fuel) (hnu : u.addrs.Nodup) (hl : Live it L) (hn : L.Nodup) (hx : x ∈ L)
    {it1 : GPConstSubtreeIter} {b : Bool} (e : IgnoreSubtreeAux h fuel it x = some (it1, b)) :
    b = true := by
  cases fuel with
  | zero => simp [IgnoreSubtreeAux] at e
  | succ fuel =>
    cases u with
    | null => simp [Subtree.root] at hroot
    | node a f c0 c1 c2 =>
      simp only [Subtree.root, Option.some.injEq] at hroot
      subst hroot
      obtain ⟨nd, hnd, _, hp0, hp1, hp2⟩ := RepC_cell hr
      obtain ⟨_, r0, r1, r2⟩ := hr
      simp only [Subtree.height] at hh
      have kid : ∀ (c : Subtree) (it : GPConstSubtreeIter) (L : List Nat), RepC h c →
          c.height ≤ fuel → Live it L → L.Nodup →
          ∃ it1 L1, ignoreParam (IgnoreSubtreeAux h fuel) c.root it = some it1 ∧ Live it1 L1 ∧
            L1.Perm (L.filter (fun y => decide (y ∉ c.addrs))) := by
        intro c it L hc hhc hl hn
        cases c with
        | null =>
          exact ⟨it, L, rfl, hl, by simp [Subtree.addrs]⟩
        | node b g d0 d1 d2 =>
          obtain ⟨it1, L1, bb, e, l1, p1⟩ :=
            IgnoreSubtreeAux_spec fuel _ b it L hc rfl hhc hl hn
          refine ⟨it1, L1, ?_, l1, p1⟩
          simp only [ignoreParam, Subtree.root, e]
      obtain ⟨it0, L0, e0, l0, q0⟩ := kid c0 it L r0 (by omega) hl hn
      have n0 := nodup_of_perm_filter hn q0
      obtain ⟨it1', L1, e1, l1, q1⟩ := kid c1 it0 L0 r1 (by omega) l0 n0
      have n1 := nodup_of_perm_filter n0 q1
      obtain ⟨it2, L2, e2, l2, q2⟩ := kid c2 it1' L1 r2 (by omega) l1 n1
      simp only [IgnoreSubtreeAux, hnd, hp0, hp1, hp2, e0, e1, e2] at e
      rw [IgnoreNodePtr_flag l2 e]
      have q := perm_filter_step (perm_filter_step q0 q1) q2
      rw [q.mem_iff, List.mem_filter]
      refine ⟨hx, ?_⟩
      simp only [Subtree.addrs, List.nodup_cons, List.mem_append, not_or] at hnu
      simp only [List.mem_append, not_or, decide_eq_true_eq]
      exact ⟨⟨hnu.1.1.1, hnu.1.1.2⟩, hnu.1.2⟩

theorem IgnoreSubtree_flag {h : Heap} {u : Subtree} {x : Nat} {it : GPConstSubtreeIter}
    {L : List Nat} (hr : RepC h u) (hnu : u.addrs.Nodup) (hroot : u.root = some x)
    (hl : Live it L) (hn : L.Nodup) (hx : x ∈ L) {it1 : GPConstSubtreeIter} {b : Bool}
    (e : it.IgnoreSubtree h x = some (it1, b)) : b = true := by
  refine IgnoreSubtreeAux_flag hr hroot (u.height_le_size.trans ?_) hnu hl hn hx e
  rw [← u.length_addrs]
  exact length_le_of_nodup_lt hnu (RepC.addr_lt_length hr)

/-- The number of nodes of a list without repetition that are not in a part of
it. -/
theorem length_filter_not_mem {L S : List Nat} (hL : L.Nodup) (hS : S.Nodup)
    (hsub : ∀ y ∈ S, y ∈ L) :
    (L.filter (fun y => decide (y ∉ S))).length = L.length - S.length := by
  have h1 := List.length_eq_length_filter_add (l := L) (fun y => decide (y ∉ S))
  have h2 : (L.filter (fun y => !decide (y ∉ S))).Perm S := by
    rw [List.perm_ext_iff_of_nodup (hL.filter _) hS]
    intro y
    simp only [List.mem_filter, Bool.not_eq_true', decide_eq_false_iff_not, not_not]
    exact ⟨fun hy => hy.2, fun hy => ⟨hsub y hy, hy⟩⟩
  rw [h2.length_eq] at h1
  omega

end GP

namespace GP

/-- C25: for the iterator that the constructor builds over a tree object which
owns the tree `t` (the nodes of `t` in breadth-first order): `IgnoreNode( index )`
for an index below the count returns, lowers the count by exactly one and leaves
the nodes of before without the one at the index, the last one in its slot
(`swapRemove`); `IgnoreSubtree( n )` for a node `n` of `t` returns true and leaves
exactly the nodes of `t` that are not in the subtree of `n`, each once, and the
count is `Count()` of the tree less `CountSubtree( n )`.  Both operations write to
the count and the array of the iterator only: the heap and the tree object are
no results of theirs. -/
theorem IgnoreNode_IgnoreSubtree_on_fresh_iterator (h : Heap) (T : GPTree) (t : Subtree)
    (hinv : TreeInv h T t) (hne : t ≠ .null) :
    ∃ it, GPConstSubtreeIter.ofTree h T = some it ∧ Live it t.levelOrder ∧
      it.Count = T.Count ∧
      (∀ index : Nat, (index : Int) < it.Count →
        ∃ it1, it.IgnoreNode (index : Int) = some it1 ∧ it1.Count = it.Count - 1 ∧
          Live it1 (swapRemove t.levelOrder index) ∧
          (swapRemove t.levelOrder index).Perm (t.levelOrder.eraseIdx index)) ∧
      (∀ n ∈ t.addrs, ∃ it1 L1 cnt, it.IgnoreSubtree h n = some (it1, true) ∧ Live it1 L1 ∧
        L1.Nodup ∧ (∀ y, y ∈ L1 ↔ y ∈ t.addrs ∧ y ∉ (t.find n).addrs) ∧
        CountSubtree h n = some cnt ∧ it1.Count = T.Count - (cnt : Int)) := by
  obtain ⟨a, hra⟩ : ∃ a, t.root = some a := by
    cases t with
    | null => exact absurd rfl hne
    | node a _ _ _ _ => exact ⟨a, rfl⟩
  have hTroot : T.m_root = some a := hinv.2.1 ▸ hra
  obtain ⟨eit, hlive⟩ := ofTree_spec hinv hTroot
  have hnd := Subtree.levelOrder_nodup hinv.1.2
  have hcnt : T.Count = (t.levelOrder.length : Int) := hlive.1
  refine ⟨_, eit, hlive, rfl, ?_, ?_⟩
  · intro index hi
    have hi2 : index < t.levelOrder.length := by
      simp only [GPConstSubtreeIter.Count] at hi
      rw [hcnt] at hi
      exact_mod_cast hi
    obtain ⟨it1, e1, l1⟩ := IgnoreNode_spec hlive hi2
    refine ⟨it1, e1, ?_, l1, swapRemove_perm hi2⟩
    simp only [GPConstSubtreeIter.Count]
    rw [l1.1, hcnt, swapRemove_length]
    omega
  · intro n hn
    have hsub := hinv.1.find_tree hn
    have hroot := Subtree.find_root hn (t := t)
    have hnL : n ∈ t.levelOrder := t.levelOrder_perm.symm.subset hn
    obtain ⟨it1, L1, b, e, l1, p1⟩ :=
      IgnoreSubtree_spec hsub.1.toRepC hsub.2 hroot hlive hnd
    have hb := IgnoreSubtree_flag hsub.1.toRepC hsub.2 hroot hlive hnd hnL e
    subst hb
    refine ⟨it1, L1, (t.find n).size, e, l1, nodup_of_perm_filter hnd p1, ?_,
      CountSubtree_find hinv.1 hn, ?_⟩
    · intro y
      rw [p1.mem_iff, List.mem_filter, t.levelOrder_perm.mem_iff]
      simp
    · simp only [GPConstSubtreeIter.Count, GPTree.Count]
      rw [l1.1, p1.length_eq, length_filter_not_mem hnd hsub.2
        (fun y hy => t.levelOrder_perm.symm.subset ((Subtree.find_addrs_sublist t).subset hy)),
        t.length_levelOrder, Subtree.length_addrs, hinv.2.2.1]
      have := Subtree.find_size_le t n
      omega

theorem IgnoreNode_IgnoreSubtree_on_fresh_iterator_witness :
    ∃ it, GPConstSubtreeIter.ofTree exHeap7 exGPTree7 = some it ∧ Live it exTree7.levelOrder ∧
      it.Count = exGPTree7.Count ∧
      (∀ index : Nat, (index : Int) < it.Count →
        ∃ it1, it.IgnoreNode (index : Int) = some it1 ∧ it1.Count = it.Count - 1 ∧
          Live it1 (swapRemove exTree7.levelOrder index) ∧
          (swapRemove exTree7.levelOrder index).Perm (exTree7.levelOrder.eraseIdx index)) ∧
      (∀ n ∈ exTree7.addrs, ∃ it1 L1 cnt,
        it.IgnoreSubtree exHeap7 n = some (it1, true) ∧ Live it1 L1 ∧
        L1.Nodup ∧ (∀ y, y ∈ L1 ↔ y ∈ exTree7.addrs ∧ y ∉ (exTree7.find n).addrs) ∧
        CountSubtree exHeap7 n = some cnt ∧ it1.Count = exGPTree7.Count - (cnt : Int)) :=
  IgnoreNode_IgnoreSubtree_on_fresh_iterator exHeap7 exGPTree7 exTree7 (by decide) (by decide)

end GP

namespace GP

/-! ## OverrideIndividual -/

/-- C26, on an input where the code leaves the claim: the candidate tree is the
single node `new GPTreeNode( NULLFUNC )`.  `FunctionIDExists( -1 )` is the test
`-1 < GetNumFunctions()` and holds, so `OverrideIndividual` does not return false
there; it goes on to `GetFunctionByID( -1 )`, the read `m_functions[ -1 ]` outside
the array, and has no defined result. -/
theorem OverrideIndividual_accepts_negative_id :
    exEnvironment.toGPFunctionLookup.FunctionIDExists NULLFUNC = true ∧
      exEnvironment.toGPFunctionLookup.GetFunctionByID NULLFUNC = none ∧
      GPConstSubtreeIter.ofTree nullfuncHeap nullfuncTree = some ⟨[some 0], 1⟩ ∧
      (nullfuncHeap[0]?).map GPTreeNode.functionID = some NULLFUNC ∧
      exEnvironment.OverrideIndividual nullfuncHeap 0 nullfuncTree = none ∧
      exEnvironment.OverrideIndividual nullfuncHeap 0 nullfuncTree ≠
        some (false, exEnvironment) := by
  repeat' apply And.intro
  all_goals decide

/-- C27: whenever `OverrideIndividual( idx, replacement )` returns false, the
environment (every individual's tree object and cached fitness) is as before; and
whenever it returns true, `idx` is an index of the population, the individual
`idx` has the replacement as its tree and `LOWEST_FITNESS` as its cached fitness,
and every other individual and the other members are as before.  The heap is
not written to. -/
theorem OverrideIndividual_atomic (env : GPEnvironment) (h : Heap) (idx : Int)
    (replacement : GPTree) (b : Bool) (env1 : GPEnvironment)
    (e : env.OverrideIndividual h idx replacement = some (b, env1)) :
    (b = false → env1 = env) ∧
      (b = true → 0 ≤ idx ∧ idx.toNat < env.m_population.length ∧
        env1.m_population[idx.toNat]? = some ⟨some replacement, LOWEST_FITNESS⟩ ∧
        (∀ k : Nat, k ≠ idx.toNat → env1.m_population[k]? = env.m_population[k]?) ∧
        env1.m_population.length = env.m_population.length ∧
        env1.toGPFunctionLookup = env.toGPFunctionLookup ∧
        env1.m_max_tree_size = env.m_max_tree_size ∧ env1.m_return_type = env.m_return_type) := by
  unfold GPEnvironment.OverrideIndividual at e
  by_cases hidx : idx < env.GetPopulationSize
  · rw [if_pos hidx] at e
    cases hit : GPConstSubtreeIter.ofTree h replacement with
    | none => rw [hit] at e; cases e
    | some flattened =>
      rw [hit] at e
      dsimp only at e
      cases hloop : overrideLoop env.toGPFunctionLookup h flattened
          (flattened.Count.toNat + 1) 0 with
      | none => rw [hloop] at e; cases e
      | some r =>
        rw [hloop] at e
        cases r with
        | false =>
          simp only [Option.some.injEq, Prod.mk.injEq] at e
          obtain ⟨e1, e2⟩ := e
          subst e1 e2
          exact ⟨fun _ => rfl, (fun hc => by cases hc)⟩
        | true =>
          dsimp only at e
          by_cases h0 : 0 ≤ idx
          · rw [if_pos h0] at e
            simp only [Option.some.injEq, Prod.mk.injEq] at e
            obtain ⟨e1, e2⟩ := e
            subst e1 e2
            have hlt : idx.toNat < env.m_population.length := by
              simp only [GPEnvironment.GetPopulationSize, GPEnvironment.m_population_size]
                at hidx
              omega
            refine ⟨(fun hc => by cases hc), fun _ => ⟨h0, hlt, ?_, ?_, ?_, rfl, rfl, rfl⟩⟩
            · simp only [List.getElem?_set_self hlt]
            · intro k hk
              simp only [List.getElem?_set_ne (Ne.symm hk)]
            · simp only [List.length_set]
          · rw [if_neg h0] at e; cases e
  · rw [if_neg hidx] at e; cases e

theorem OverrideIndividual_atomic_witness :
    exEnvironment.OverrideIndividual exHeap 1 exGPTree =
        some (true, { exEnvironment with
          m_population := [⟨none, LOWEST_FITNESS⟩, ⟨some exGPTree, LOWEST_FITNESS⟩] }) ∧
      ((true = false → ({ exEnvironment with
          m_population := [⟨none, LOWEST_FITNESS⟩, ⟨some exGPTree, LOWEST_FITNESS⟩] } :
            GPEnvironment) = exEnvironment) ∧
      (true = true → (0 : Int) ≤ 1 ∧ (1 : Int).toNat < exEnvironment.m_population.length ∧
        ({ exEnvironment with
          m_population := [⟨none, LOWEST_FITNESS⟩, ⟨some exGPTree, LOWEST_FITNESS⟩] } :
            GPEnvironment).m_population[(1 : Int).toNat]? =
          some ⟨some exGPTree, LOWEST_FITNESS⟩ ∧
        (∀ k : Nat, k ≠ (1 : Int).toNat →
          ({ exEnvironment with
            m_population := [⟨none, LOWEST_FITNESS⟩, ⟨some exGPTree, LOWEST_FITNESS⟩] } :
              GPEnvironment).m_population[k]? = exEnvironment.m_population[k]?) ∧
        ({ exEnvironment with
          m_population := [⟨none, LOWEST_FITNESS⟩, ⟨some exGPTree, LOWEST_FITNESS⟩] } :
            GPEnvironment).m_population.length = exEnvironment.m_population.length ∧
        ({ exEnvironment with
          m_population := [⟨none, LOWEST_FITNESS⟩, ⟨some exGPTree, LOWEST_FITNESS⟩] } :
            GPEnvironment).toGPFunctionLookup = exEnvironment.toGPFunctionLookup ∧
        ({ exEnvironment with
          m_population := [⟨none, LOWEST_FITNESS⟩, ⟨some exGPTree, LOWEST_FITNESS⟩] } :
            GPEnvironment).m_max_tree_size = exEnvironment.m_max_tree_size ∧
        ({ exEnvironment with
          m_population := [⟨none, LOWEST_FITNESS⟩, ⟨some exGPTree, LOWEST_FITNESS⟩] } :
            GPEnvironment).m_return_type = exEnvironment.m_return_type)) :=
  ⟨by decide, OverrideIndividual_atomic exEnvironment exHeap 1 exGPTree true _ (by decide)⟩

end GP

namespace GP

/-! ## MutateAndCrossover: the ranking -/

theorem fitnessAt_lt {pop : List Individual} {k : Nat} (hk : k < pop.length) :
    fitnessAt pop k = some (pop[k]).m_current_fitness := by
  simp [fitnessAt, List.getElem?_eq_getElem hk]

/-- The `while` loop of the ranking: the new index `x` at the place `swap_index`
moves to the front past the indices `A2` with a smaller fitness and stops behind
the first index whose fitness is not smaller. -/
theorem rankSwapLoop_spec (pop : List Individual) (g : Nat → Int)
    (hg : ∀ k, k < pop.length → fitnessAt pop k = some (g k)) (x : Nat)
    (hx : x < pop.length) :
    ∀ (A T : List Nat) (fuel : Nat), (∀ a ∈ A, a < pop.length) → A.length < fuel →
      ∃ A1 A2, A = A1 ++ A2 ∧
        rankSwapLoop pop fuel (A ++ x :: T) A.length = some (A1 ++ x :: (A2 ++ T)) ∧
        (∀ b ∈ A2, g b < g x) ∧ (∀ a, A1.getLast? = some a → g x ≤ g a) := by
  intro A
  induction A using List.reverseRecOn with
  | nil =>
    intro T fuel _ hf
    refine ⟨[], [], rfl, ?_, (fun b hb => by cases hb), (fun a ha => by cases ha)⟩
    obtain ⟨f1, rfl⟩ : ∃ f1, fuel = f1 + 1 := ⟨fuel - 1, by omega⟩
    simp [rankSwapLoop]
  | append_singleton A a ih =>
    intro T fuel hA hf
    rw [List.length_append, List.length_singleton] at hf
    obtain ⟨f1, rfl⟩ : ∃ f1, fuel = f1 + 1 := ⟨fuel - 1, by omega⟩
    have ha : a < pop.length := hA a (by simp)
    have hA1 : ∀ b ∈ A, b < pop.length := fun b hb => hA b (by simp [hb])
    have e1 : (A ++ [a] ++ x :: T)[(A ++ [a]).length]? = some x := by
      rw [List.getElem?_append_right (le_refl _), Nat.sub_self, List.getElem?_cons_zero]
    have e2 : (A ++ [a] ++ x :: T)[(A ++ [a]).length - 1]? = some a := by
      rw [List.length_append, List.length_singleton, Nat.add_sub_cancel,
        List.append_assoc, List.getElem?_append_right (le_refl _), Nat.sub_self]
      simp
    rw [rankSwapLoop, if_pos (by simp), e1, e2]
    dsimp only
    rw [hg x hx, hg a ha]
    dsimp only
    by_cases hgt : g x > g a
    · rw [if_pos hgt]
      have eset : ((A ++ [a] ++ x :: T).set (A ++ [a]).length a).set ((A ++ [a]).length - 1) x =
          A ++ x :: (a :: T) := by
        rw [List.set_append_right _ _ (le_refl _), Nat.sub_self, List.set_cons_zero,
          List.length_append, List.length_singleton, Nat.add_sub_cancel, List.append_assoc,
          List.set_append_right _ _ (le_refl _), Nat.sub_self]
        rfl
      have elen : (A ++ [a]).length - 1 = A.length := by simp
      rw [eset, elen]
      obtain ⟨A1, A2, eA, eloop, hlt, hstop⟩ := ih (a :: T) f1 hA1 (by omega)
      refine ⟨A1, A2 ++ [a], ?_, ?_, ?_, hstop⟩
      · rw [eA, List.append_assoc]
      · rw [eloop]
        simp
      · intro b hb
        rcases List.mem_append.mp hb with hb | hb
        · exact hlt b hb
        · simp only [List.mem_singleton] at hb
          subst hb
          exact hgt
    · rw [if_neg hgt]
      refine ⟨A ++ [a], [], by simp, by simp, (fun b hb => by cases hb), ?_⟩
      intro a1 ha1
      rw [List.getLast?_concat] at ha1
      cases ha1
      omega

/-- The order of the ranking: a higher fitness first, and the lower index first
among equal fitness values. -/
theorem rank_insert_sorted (g : Nat → Int) {A1 A2 : List Nat} {i : Nat}
    (hs : (A1 ++ A2).Pairwise (fun a b => g b < g a ∨ (g a = g b ∧ a < b)))
    (hlt : ∀ a ∈ A1 ++ A2, a < i) (h2 : ∀ b ∈ A2, g b < g i)
    (h1 : ∀ a, A1.getLast? = some a → g i ≤ g a) :
    (A1 ++ i :: A2).Pairwise (fun a b => g b < g a ∨ (g a = g b ∧ a < b)) := by
  rw [List.pairwise_append] at hs ⊢
  obtain ⟨s1, s2, s12⟩ := hs
  refine ⟨s1, List.pairwise_cons.mpr ⟨fun b hb => Or.inl (h2 b hb), s2⟩, ?_⟩
  intro a ha b hb
  rcases List.mem_cons.mp hb with hb | hb
  · subst hb
    have hai : a < b := hlt a (List.mem_append_left _ ha)
    -- the fitness of `a` is at least that of the last index of `A1`
    have hge : g b ≤ g a := by
      have hne : A1 ≠ [] := List.ne_nil_of_mem ha
      have hl := h1 (A1.getLast hne) (List.getLast?_eq_getLast _ hne)
      by_cases hal : a = A1.getLast hne
      · rw [hal]; exact hl
      · have hmem : a ∈ A1.dropLast := by
          have := List.dropLast_append_getLast hne
          rw [← this] at ha
          rcases List.mem_append.mp ha with h | h
          · exact h
          · simp only [List.mem_singleton] at h
            exact absurd h hal
        have hp : (A1.dropLast ++ [A1.getLast hne]).Pairwise
            (fun a b => g b < g a ∨ (g a = g b ∧ a < b)) := by
          rw [List.dropLast_append_getLast hne]; exact s1
        have := (List.pairwise_append.mp hp).2.2 a hmem (A1.getLast hne) (by simp)
        rcases this with h | h
        · omega
        · omega
    by_cases heq : g a = g b
    · exact Or.inr ⟨heq, hai⟩
    · exact Or.inl (by omega)
  · exact s12 a ha b hb

/-- The `for` loop of the ranking: after the rounds for the indices below `i` the
array starts with these indices in the order of the ranking. -/
theorem rankLoop_spec (pop : List Individual) (g : Nat → Int)
    (hg : ∀ k, k < pop.length → fitnessAt pop k = some (g k)) :
    ∀ (n i : Nat) (S J : List Nat), i + n = pop.length → S.length = i → J.length = n →
      S.Perm (List.range i) →
      S.Pairwise (fun a b => g b < g a ∨ (g a = g b ∧ a < b)) →
      ∃ R, rankLoop pop n i (S ++ J) i = some R ∧ R.Perm (List.range pop.length) ∧
        R.Pairwise (fun a b => g b < g a ∨ (g a = g b ∧ a < b)) := by
  intro n
  induction n with
  | zero =>
    intro i S J hin hS hJ hperm hsort
    have : J = [] := List.length_eq_zero.mp hJ
    subst this
    refine ⟨S, ?_, ?_, hsort⟩
    · simp [rankLoop]
    · rw [← hin]; exact hperm
  | succ n ih =>
    intro i S J hin hS hJ hperm hsort
    obtain ⟨j0, J1, rfl⟩ : ∃ j0 J1, J = j0 :: J1 := by
      cases J with
      | nil => simp at hJ
      | cons j0 J1 => exact ⟨j0, J1, rfl⟩
    have hJ1 : J1.length = n := by simpa using hJ
    have hmemS : ∀ a ∈ S, a < i := fun a ha => List.mem_range.mp (hperm.subset ha)
    have hset : (S ++ j0 :: J1).set i i = S ++ i :: J1 := by
      rw [← hS, List.set_append_right _ _ (le_refl _), Nat.sub_self, List.set_cons_zero]
    obtain ⟨A1, A2, eA, eloop, hlt, hstop⟩ := rankSwapLoop_spec pop g hg i (by omega) S J1
      (i + 1) (fun a ha => by have := hmemS a ha; omega) (by omega)
    rw [rankLoop, if_pos (by simp; omega), hset]
    rw [hS] at eloop
    rw [eloop]
    dsimp only
    have hlen : (A1 ++ i :: A2).length = i + 1 := by
      have := congrArg List.length eA
      simp only [List.length_append, List.length_cons] at this ⊢
      omega
    have := ih (i + 1) (A1 ++ i :: A2) J1 (by omega) hlen hJ1 (by
      rw [List.range_succ]
      refine (List.perm_middle).trans ?_
      refine ((List.Perm.cons i (eA ▸ hperm)).trans ?_)
      exact (List.perm_append_singleton _ _).symm) (by
      apply rank_insert_sorted g (eA ▸ hsort) (fun a ha => hmemS a (eA ▸ ha)) hlt hstop)
    simpa using this

/-- The ranking of `MutateAndCrossover`: both arrays hold the indices of the
population, ordered by fitness from high to low, and by index among equal fitness
values. -/
theorem rankPopulation_spec (pop : List Individual) :
    ∃ R, rankPopulation pop = some (R, R) ∧ R.Perm (List.range pop.length) ∧
      R.Pairwise (fun a b =>
        (fitnessAt pop b).getD 0 < (fitnessAt pop a).getD 0 ∨
          ((fitnessAt pop a).getD 0 = (fitnessAt pop b).getD 0 ∧ a < b)) := by
  obtain ⟨R, e, hperm, hsort⟩ := rankLoop_spec pop (fun k => (fitnessAt pop k).getD 0)
    (fun k hk => by simp only [fitnessAt_lt hk, Option.getD_some]) pop.length 0 [] (List.replicate pop.length 0)
    (by omega) rfl (by simp) (by simp) List.Pairwise.nil
  refine ⟨R, ?_, hperm, hsort⟩
  have hlen : R.length = pop.length := by rw [hperm.length_eq, List.length_range]
  unfold rankPopulation
  rw [List.nil_append] at e
  rw [e]
  simp only [memcpyInts, Option.some.injEq, Prod.mk.injEq, true_and]
  rw [List.drop_of_length_le (by simp), List.append_nil, ← hlen, List.take_length]

end GP

namespace GP

/-! ## The fitness scans -/

/-- The loop of `GetBestFitness`: the result is the start value or the fitness of an
individual, and no smaller than either. -/
theorem bestFitLoop_spec : ∀ (rest : List Individual) (bestFit : Int),
    bestFit ≤ bestFitLoop rest bestFit ∧
      (∀ ind ∈ rest, ind.m_current_fitness ≤ bestFitLoop rest bestFit) ∧
      (bestFitLoop rest bestFit = bestFit ∨
        ∃ ind ∈ rest, ind.m_current_fitness = bestFitLoop rest bestFit) := by
  intro rest
  induction rest with
  | nil => intro b; simp [bestFitLoop]
  | cons ind rest ih =>
    intro b
    by_cases hgt : ind.m_current_fitness > b
    · obtain ⟨h1, h2, h3⟩ := ih ind.m_current_fitness
      simp only [bestFitLoop, if_pos hgt]
      refine ⟨by omega, ?_, ?_⟩
      · intro x hx
        rcases List.mem_cons.mp hx with hx | hx
        · rw [hx]; exact h1
        · exact h2 x hx
      · rcases h3 with h3 | ⟨y, hy, ey⟩
        · exact Or.inr ⟨ind, by simp, h3.symm⟩
        · exact Or.inr ⟨y, by simp [hy], ey⟩
    · obtain ⟨h1, h2, h3⟩ := ih b
      simp only [bestFitLoop, if_neg hgt]
      refine ⟨h1, ?_, ?_⟩
      · intro x hx
        rcases List.mem_cons.mp hx with hx | hx
        · rw [hx]; omega
        · exact h2 x hx
      · rcases h3 with h3 | ⟨y, hy, ey⟩
        · exact Or.inl h3
        · exact Or.inr ⟨y, by simp [hy], ey⟩

/-- The loop of `GetFittestIndividual`: the result is the start index when no
individual is above the start value, and otherwise the first index with the
highest fitness. -/
theorem fittestLoop_spec : ∀ (rest : List Individual) (i : Nat) (bestFit : Int)
    (fittestIndex : Nat),
    (fittestLoop rest i bestFit fittestIndex = fittestIndex ∧
        ∀ ind ∈ rest, ind.m_current_fitness ≤ bestFit) ∨
      (∃ (j : Nat) (hj : j < rest.length), fittestLoop rest i bestFit fittestIndex = i + j ∧
        bestFit < (rest[j]).m_current_fitness ∧
        (∀ (j1 : Nat) (hj1 : j1 < rest.length), j1 < j →
          (rest[j1]).m_current_fitness < (rest[j]).m_current_fitness) ∧
        ∀ ind ∈ rest, ind.m_current_fitness ≤ (rest[j]).m_current_fitness) := by
  intro rest
  induction rest with
  | nil => intro i b idx; exact Or.inl ⟨rfl, fun x hx => by cases hx⟩
  | cons ind rest ih =>
    intro i b idx
    by_cases hgt : ind.m_current_fitness > b
    · simp only [fittestLoop, if_pos hgt]
      rcases ih (i + 1) ind.m_current_fitness i with ⟨e, hall⟩ | ⟨j, hj, e, hb, hfirst, hall⟩
      · refine Or.inr ⟨0, by simp, by rw [e]; rfl, hgt, fun j1 _ h => by omega, ?_⟩
        intro x hx
        rcases List.mem_cons.mp hx with hx | hx
        · rw [hx]; exact le_refl _
        · exact hall x hx
      · refine Or.inr ⟨j + 1, by simp; omega, by rw [e]; omega, ?_, ?_, ?_⟩
        · simp only [List.getElem_cons_succ]; omega
        · intro j1 hj1 hlt
          simp only [List.getElem_cons_succ]
          cases j1 with
          | zero => simpa using hb
          | succ j2 =>
            simp only [List.getElem_cons_succ]
            exact hfirst j2 (by simpa using hj1) (by omega)
        · intro x hx
          simp only [List.getElem_cons_succ]
          rcases List.mem_cons.mp hx with hx | hx
          · rw [hx]; omega
          · exact hall x hx
    · simp only [fittestLoop, if_neg hgt]
      rcases ih (i + 1) b idx with ⟨e, hall⟩ | ⟨j, hj, e, hb, hfirst, hall⟩
      · refine Or.inl ⟨e, ?_⟩
        intro x hx
        rcases List.mem_cons.mp hx with hx | hx
        · rw [hx]; omega
        · exact hall x hx
      · refine Or.inr ⟨j + 1, by simp; omega, by rw [e]; omega, ?_, ?_, ?_⟩
        · simp only [List.getElem_cons_succ]; exact hb
        · intro j1 hj1 hlt
          simp only [List.getElem_cons_succ]
          cases j1 with
          | zero =>
            simp only [List.getElem_cons_zero]
            omega
          | succ j2 =>
            simp only [List.getElem_cons_succ]
            exact hfirst j2 (by simpa using hj1) (by omega)
        · intro x hx
          simp only [List.getElem_cons_succ]
          rcases List.mem_cons.mp hx with hx | hx
          · rw [hx]; omega
          · exact hall x hx

/-- `GetFittestIndividual` and `GetBestFitness` on a population with a fitness
above `LOWEST_FITNESS` everywhere: the index is the lowest one with the highest
fitness, and the value is that fitness. -/
theorem fittest_spec {pop : List Individual} (hP : 1 ≤ pop.length)
    (hfit : ∀ ind ∈ pop, LOWEST_FITNESS < ind.m_current_fitness) :
    ∃ (hk : fittestLoop pop 0 LOWEST_FITNESS 0 < pop.length),
      (pop[fittestLoop pop 0 LOWEST_FITNESS 0]).m_current_fitness =
          bestFitLoop pop LOWEST_FITNESS ∧
        (∀ ind ∈ pop, ind.m_current_fitness ≤ bestFitLoop pop LOWEST_FITNESS) ∧
        ∀ (j : Nat) (hj : j < pop.length), j < fittestLoop pop 0 LOWEST_FITNESS 0 →
          (pop[j]).m_current_fitness < bestFitLoop pop LOWEST_FITNESS := by
  obtain ⟨b1, b2, b3⟩ := bestFitLoop_spec pop LOWEST_FITNESS
  rcases fittestLoop_spec pop 0 LOWEST_FITNESS 0 with ⟨_, hall⟩ | ⟨j, hj, e, hb, hfirst, hall⟩
  · exfalso
    have h0 : 0 < pop.length := by omega
    have := hall pop[0] (List.getElem_mem h0)
    have := hfit pop[0] (List.getElem_mem h0)
    omega
  · rw [Nat.zero_add] at e
    have hbest : (pop[j]).m_current_fitness = bestFitLoop pop LOWEST_FITNESS := by
      have h1 := b2 pop[j] (List.getElem_mem hj)
      rcases b3 with h3 | ⟨y, hy, ey⟩
      · omega
      · have := hall y hy
        omega
    simp only [e]
    refine ⟨hj, hbest, b2, ?_⟩
    intro j1 hj1 hlt
    rw [← hbest]
    exact hfirst j1 hj1 hlt

/-- C28: for a population of at least one individual whose cached fitness values
are all above `LOWEST_FITNESS`: `GetBestFitness` returns the highest cached
fitness; `GetFittestIndividual` returns the lowest index whose cached fitness is
that value; and this index stands first in the ranking that `MutateAndCrossover`
computes. -/
theorem fittest_individual_ranked_first (env : GPEnvironment)
    (hP : 1 ≤ env.m_population_size)
    (hfit : ∀ ind ∈ env.m_population, LOWEST_FITNESS < ind.m_current_fitness) :
    env.GetFittestIndividual < env.m_population_size ∧
      env.GetIndividualFitness env.GetFittestIndividual = some env.GetBestFitness ∧
      (∀ k v, env.GetIndividualFitness k = some v → v ≤ env.GetBestFitness) ∧
      (∀ k v, env.GetIndividualFitness k = some v → v = env.GetBestFitness →
        env.GetFittestIndividual ≤ k) ∧
      ∃ ranked_by_fitness original_rankings,
        rankPopulation env.m_population = some (ranked_by_fitness, original_rankings) ∧
        ranked_by_fitness[0]? = some env.GetFittestIndividual := by
  obtain ⟨hk, hbest, hall, hfirst⟩ := fittest_spec hP hfit
  have hget : ∀ k v, env.GetIndividualFitness k = some v →
      ∃ hk : k < env.m_population.length, (env.m_population[k]).m_current_fitness = v := by
    intro k v e
    unfold GPEnvironment.GetIndividualFitness at e
    have hk : k < env.m_population.length := by
      by_contra hge
      rw [List.getElem?_eq_none (by omega)] at e
      cases e
    rw [List.getElem?_eq_getElem hk] at e
    exact ⟨hk, Option.some.inj e⟩
  have hmax : ∀ k v, env.GetIndividualFitness k = some v → v ≤ env.GetBestFitness := by
    intro k v e
    obtain ⟨hk1, ev⟩ := hget k v e
    rw [← ev]
    exact hall _ (List.getElem_mem hk1)
  have hlow : ∀ k v, env.GetIndividualFitness k = some v → v = env.GetBestFitness →
      env.GetFittestIndividual ≤ k := by
    intro k v e hv
    obtain ⟨hk1, ev⟩ := hget k v e
    by_contra hlt
    have := hfirst k hk1 (by
      simp only [GPEnvironment.GetFittestIndividual] at hlt
      omega)
    rw [ev, hv] at this
    simp only [GPEnvironment.GetBestFitness] at this
    omega
  have hfitk : env.GetIndividualFitness env.GetFittestIndividual = some env.GetBestFitness := by
    unfold GPEnvironment.GetIndividualFitness GPEnvironment.GetFittestIndividual
      GPEnvironment.GetBestFitness
    rw [List.getElem?_eq_getElem hk, Option.map_some', hbest]
  refine ⟨hk, hfitk, hmax, hlow, ?_⟩
  obtain ⟨R, e, hperm, hsort⟩ := rankPopulation_spec env.m_population
  refine ⟨R, R, e, ?_⟩
  have hlen : R.length = env.m_population.length := by
    rw [hperm.length_eq, List.length_range]
  have h0 : 0 < R.length := by
    rw [hlen]; exact hP
  rw [List.getElem?_eq_getElem h0]
  congr 1
  -- the fittest index is in the ranking
  have hmem : env.GetFittestIndividual ∈ R := hperm.symm.subset (List.mem_range.mpr hk)
  obtain ⟨p, hp, ep⟩ := List.mem_iff_getElem.mp hmem
  by_contra hne
  have hp0 : 0 < p := by
    rcases Nat.eq_zero_or_pos p with h | h
    · subst h; exact absurd ep hne
    · exact h
  have hrel := List.pairwise_iff_getElem.mp hsort 0 p h0 hp hp0
  rw [ep] at hrel
  have hR0 : R[0] < env.m_population.length :=
    List.mem_range.mp (hperm.subset (List.getElem_mem h0))
  have e0 : fitnessAt env.m_population R[0] = env.GetIndividualFitness R[0] := rfl
  have ek : fitnessAt env.m_population env.GetFittestIndividual =
      env.GetIndividualFitness env.GetFittestIndividual := rfl
  obtain ⟨v0, hv0⟩ : ∃ v0, env.GetIndividualFitness R[0] = some v0 := by
    unfold GPEnvironment.GetIndividualFitness
    rw [List.getElem?_eq_getElem hR0]
    exact ⟨_, rfl⟩
  rw [e0, ek, hfitk, hv0] at hrel
  simp only [Option.getD_some] at hrel
  have h1 := hmax _ _ hv0
  rcases hrel with h | ⟨h, hlt⟩
  · omega
  · have := hlow _ _ hv0 h
    omega

theorem fittest_individual_ranked_first_witness :
    ({ exEnvironment with m_population := [⟨none, 3⟩, ⟨none, 7⟩, ⟨none, 7⟩] } :
        GPEnvironment).GetFittestIndividual <
        ({ exEnvironment with m_population := [⟨none, 3⟩, ⟨none, 7⟩, ⟨none, 7⟩] } :
          GPEnvironment).m_population_size ∧
      ({ exEnvironment with m_population := [⟨none, 3⟩, ⟨none, 7⟩, ⟨none, 7⟩] } :
        GPEnvironment).GetIndividualFitness
          ({ exEnvironment with m_population := [⟨none, 3⟩, ⟨none, 7⟩, ⟨none, 7⟩] } :
            GPEnvironment).GetFittestIndividual =
        some ({ exEnvironment with m_population := [⟨none, 3⟩, ⟨none, 7⟩, ⟨none, 7⟩] } :
          GPEnvironment).GetBestFitness ∧
      (∀ k v, ({ exEnvironment with m_population := [⟨none, 3⟩, ⟨none, 7⟩, ⟨none, 7⟩] } :
          GPEnvironment).GetIndividualFitness k = some v →
        v ≤ ({ exEnvironment with m_population := [⟨none, 3⟩, ⟨none, 7⟩, ⟨none, 7⟩] } :
          GPEnvironment).GetBestFitness) ∧
      (∀ k v, ({ exEnvironment with m_population := [⟨none, 3⟩, ⟨none, 7⟩, ⟨none, 7⟩] } :
          GPEnvironment).GetIndividualFitness k = some v →
        v = ({ exEnvironment with m_population := [⟨none, 3⟩, ⟨none, 7⟩, ⟨none, 7⟩] } :
          GPEnvironment).GetBestFitness →
        ({ exEnvironment with m_population := [⟨none, 3⟩, ⟨none, 7⟩, ⟨none, 7⟩] } :
          GPEnvironment).GetFittestIndividual ≤ k) ∧
      ∃ ranked_by_fitness original_rankings,
        rankPopulation ({ exEnvironment with
            m_population := [⟨none, 3⟩, ⟨none, 7⟩, ⟨none, 7⟩] } : GPEnvironment).m_population =
          some (ranked_by_fitness, original_rankings) ∧
        ranked_by_fitness[0]? =
          some ({ exEnvironment with m_population := [⟨none, 3⟩, ⟨none, 7⟩, ⟨none, 7⟩] } :
            GPEnvironment).GetFittestIndividual :=
  fittest_individual_ranked_first
    { exEnvironment with m_population := [⟨none, 3⟩, ⟨none, 7⟩, ⟨none, 7⟩] }
    (by decide) (by decide)

/-- C29: the ranking at the start of `MutateAndCrossover`, for every population:
the array `ranked_by_fitness` is a rearrangement of the indices `0 .. P - 1`; of
two places in it, the earlier one holds an individual with a cached fitness that
is no lower, and with the lower index when the two values are equal; and the
array `original_rankings` is equal to it. -/
theorem ranking_stable_descending (m_population : List Individual) :
    ∃ ranked_by_fitness original_rankings,
      rankPopulation m_population = some (ranked_by_fitness, original_rankings) ∧
      original_rankings = ranked_by_fitness ∧
      ranked_by_fitness.Perm (List.range m_population.length) ∧
      ∀ (a b : Nat) (hb : b < ranked_by_fitness.length) (hab : a < b),
        ∃ fa fb, fitnessAt m_population (ranked_by_fitness[a]) = some fa ∧
          fitnessAt m_population (ranked_by_fitness[b]) = some fb ∧ fb ≤ fa ∧
          (fa = fb → ranked_by_fitness[a] < ranked_by_fitness[b]) := by
  obtain ⟨R, e, hperm, hsort⟩ := rankPopulation_spec m_population
  refine ⟨R, R, e, rfl, hperm, ?_⟩
  intro a b hb hab
  have ha : a < R.length := by omega
  have hRa : R[a] < m_population.length :=
    List.mem_range.mp (hperm.subset (List.getElem_mem ha))
  have hRb : R[b] < m_population.length :=
    List.mem_range.mp (hperm.subset (List.getElem_mem hb))
  have hrel := List.pairwise_iff_getElem.mp hsort a b ha hb hab
  rw [fitnessAt_lt hRa, fitnessAt_lt hRb] at hrel
  simp only [Option.getD_some] at hrel
  refine ⟨_, _, fitnessAt_lt hRa, fitnessAt_lt hRb, ?_, ?_⟩
  · rcases hrel with h | ⟨h, _⟩ <;> omega
  · intro heq
    rcases hrel with h | ⟨_, h⟩
    · omega
    · exact h

end GP

namespace GP

/-! ## The population: reading and writing individuals -/

theorem length_setTree (pop : List Individual) (k : Nat) (T : GPTree) :
    (setTree pop k T).length = pop.length := by
  simp [setTree]

theorem length_setFitness (pop : List Individual) (k : Nat) (f : Int) :
    (setFitness pop k f).length = pop.length := by
  simp [setFitness]

theorem getElem?_setTree_ne (pop : List Individual) {j k : Nat} (T : GPTree) (hjk : j ≠ k) :
    (setTree pop k T)[j]? = pop[j]? := by
  simp only [setTree, List.getElem?_modify_ne _ _ (Ne.symm hjk)]

theorem getElem?_setFitness_ne (pop : List Individual) {j k : Nat} (f : Int) (hjk : j ≠ k) :
    (setFitness pop k f)[j]? = pop[j]? := by
  simp only [setFitness, List.getElem?_modify_ne _ _ (Ne.symm hjk)]

theorem treeAtIndex_setTree_self {pop : List Individual} {k : Nat} (hk : k < pop.length)
    (T : GPTree) : treeAtIndex (setTree pop k T) k = some T := by
  simp [treeAtIndex, setTree, List.getElem?_modify_eq, List.getElem?_eq_getElem hk]

theorem treeAtIndex_setTree_ne (pop : List Individual) {j k : Nat} (T : GPTree) (hjk : j ≠ k) :
    treeAtIndex (setTree pop k T) j = treeAtIndex pop j := by
  simp only [treeAtIndex, getElem?_setTree_ne pop T hjk]

theorem treeAtIndex_setFitness (pop : List Individual) (j k : Nat) (f : Int) :
    treeAtIndex (setFitness pop k f) j = treeAtIndex pop j := by
  by_cases hjk : j = k
  · subst hjk
    simp only [treeAtIndex, setFitness, List.getElem?_modify_eq]
    cases pop[j]? <;> rfl
  · simp only [treeAtIndex, getElem?_setFitness_ne pop f hjk]

theorem fitnessAt_setFitness_self {pop : List Individual} {k : Nat} (hk : k < pop.length)
    (f : Int) : fitnessAt (setFitness pop k f) k = some f := by
  simp [fitnessAt, setFitness, List.getElem?_modify_eq, List.getElem?_eq_getElem hk]

theorem treeAtIndex_lt {pop : List Individual} {k : Nat} {T : GPTree}
    (e : treeAtIndex pop k = some T) : k < pop.length := by
  by_contra hge
  simp [treeAtIndex, List.getElem?_eq_none (Nat.le_of_not_lt hge)] at e

theorem treeAtIndex_congr {pop pop1 : List Individual} {k : Nat} (e : pop1[k]? = pop[k]?) :
    treeAtIndex pop1 k = treeAtIndex pop k := by
  simp only [treeAtIndex, e]

theorem fitnessAt_congr {pop pop1 : List Individual} {k : Nat} (e : pop1[k]? = pop[k]?) :
    fitnessAt pop1 k = fitnessAt pop k := by
  simp only [fitnessAt, e]

/-! ## The population in the heap -/

theorem PopInv.addr_below {fl : GPFunctionLookup} {rt : Int} {h : Heap} {pop : List Individual}
    {ts : Nat → Subtree} (inv : PopInv fl rt h pop ts) {k : Nat} (hk : k < pop.length)
    {a : Nat} (ha : a ∈ (ts k).addrs) : a < h.length := by
  obtain ⟨T, _, hT, _⟩ := inv.tree k hk
  exact Rep.addr_lt hT.1.1 a ha

/-- Nothing is written. -/
theorem BreedFrame.refl {fl : GPFunctionLookup} {rt : Int} {h : Heap} {pop : List Individual}
    {ts : Nat → Subtree} (inv : PopInv fl rt h pop ts) (W : List Nat) :
    BreedFrame fl rt h pop ts W h pop ts where
  inv := inv
  len := rfl
  grow := le_refl _
  same := fun _ _ => ⟨rfl, rfl⟩
  old := fun _ _ _ hy => Or.inl hy
  frame := fun _ _ _ => rfl

/-- The cells of the tree of an individual that is not written to stay as they
are. -/
theorem BreedFrame.cells {fl : GPFunctionLookup} {rt : Int} {h h1 : Heap}
    {pop pop1 : List Individual} {ts ts1 : Nat → Subtree} {W : List Nat}
    (hinv : PopInv fl rt h pop ts) (fr : BreedFrame fl rt h pop ts W h1 pop1 ts1) {k : Nat}
    (hk : k < pop.length) (hkW : k ∉ W) : ∀ a ∈ (ts k).addrs, h1[a]? = h[a]? := by
  intro a ha
  refine fr.frame a (hinv.addr_below hk ha) ?_
  intro j hj hjl hc
  have hjk : j ≠ k := fun e => hkW (e ▸ hj)
  exact hinv.apart j k hjl hk hjk a hc ha

/-- More individuals may be named as written to. -/
theorem BreedFrame.mono {fl : GPFunctionLookup} {rt : Int} {h h1 : Heap}
    {pop pop1 : List Individual} {ts ts1 : Nat → Subtree} {W W1 : List Nat}
    (fr : BreedFrame fl rt h pop ts W h1 pop1 ts1) (hsub : ∀ k ∈ W, k ∈ W1) :
    BreedFrame fl rt h pop ts W1 h1 pop1 ts1 where
  inv := fr.inv
  len := fr.len
  grow := fr.grow
  same := fun k hk => fr.same k (fun hc => hk (hsub k hc))
  old := fr.old
  frame := fun a ha hout => fr.frame a ha (fun k hk hkl => hout k (hsub k hk) hkl)

/-- Two parts of the loop, one after the other. -/
theorem BreedFrame.compose {fl : GPFunctionLookup} {rt : Int} {h h1 h2 : Heap}
    {pop pop1 pop2 : List Individual} {ts ts1 ts2 : Nat → Subtree} {W W1 : List Nat}
    (fr : BreedFrame fl rt h pop ts W h1 pop1 ts1)
    (fr1 : BreedFrame fl rt h1 pop1 ts1 W1 h2 pop2 ts2) :
    BreedFrame fl rt h pop ts (W ++ W1) h2 pop2 ts2 where
  inv := fr1.inv
  len := fr1.len.trans fr.len
  grow := fr.grow.trans fr1.grow
  same := fun k hk => by
    have h1k : k ∉ W := fun hc => hk (List.mem_append_left _ hc)
    have h2k : k ∉ W1 := fun hc => hk (List.mem_append_right _ hc)
    exact ⟨(fr1.same k h2k).1.trans (fr.same k h1k).1, (fr1.same k h2k).2.trans (fr.same k h1k).2⟩
  old := fun k hk y hy => by
    rcases fr1.old k (fr.len ▸ hk) y hy with h5 | h5
    · rcases fr.old k hk y h5 with h6 | h6
      · exact Or.inl h6
      · exact Or.inr h6
    · exact Or.inr (fr.grow.trans h5)
  frame := fun a ha hout => by
    rw [fr1.frame a (lt_of_lt_of_le ha fr.grow) ?_,
      fr.frame a ha (fun k hk hkl => hout k (List.mem_append_left _ hk) hkl)]
    intro k hk hkl hc
    rw [fr.len] at hkl
    rcases fr.old k hkl a hc with h5 | h5
    · by_cases hkW : k ∈ W
      · exact hout k (List.mem_append_left _ hkW) hkl h5
      · exact hout k (List.mem_append_right _ hk) hkl h5
    · omega

/-- The trees of some individuals are replaced by trees that are made of their
old cells and of cells behind the old heap, and the other cells of the old heap
stay as they are: the population is in the new heap. -/
theorem BreedFrame.of_update {fl : GPFunctionLookup} {rt : Int} {h h1 : Heap}
    {pop pop1 : List Individual} {ts ts1 : Nat → Subtree} {W : List Nat}
    (hinv : PopInv fl rt h pop ts) (hlen : pop1.length = pop.length)
    (hgrow : h.length ≤ h1.length)
    (hsame : ∀ k, k ∉ W → pop1[k]? = pop[k]? ∧ ts1 k = ts k)
    (hnew : ∀ k ∈ W, k < pop.length →
      ∃ T, treeAtIndex pop1 k = some T ∧ TreeInv h1 T (ts1 k) ∧ WellTyped fl rt (ts1 k) ∧
        ∀ y ∈ (ts1 k).addrs, y ∈ (ts k).addrs ∨ h.length ≤ y)
    (hapart : ∀ j ∈ W, ∀ k ∈ W, j < pop.length → k < pop.length → j ≠ k →
      ∀ z ∈ (ts1 j).addrs, z ∉ (ts1 k).addrs)
    (hframe : ∀ a, a < h.length → (∀ k ∈ W, k < pop.length → a ∉ (ts k).addrs) →
      h1[a]? = h[a]?) :
    BreedFrame fl rt h pop ts W h1 pop1 ts1 := by
  have hold : ∀ k, k < pop.length → ∀ y ∈ (ts1 k).addrs, y ∈ (ts k).addrs ∨ h.length ≤ y := by
    intro k hk y hy
    by_cases hkW : k ∈ W
    · obtain ⟨_, _, _, _, ho⟩ := hnew k hkW hk
      exact ho y hy
    · rw [(hsame k hkW).2] at hy
      exact Or.inl hy
  refine ⟨⟨?_, ?_⟩, hlen, hgrow, hsame, hold, hframe⟩
  · intro k hk
    rw [hlen] at hk
    by_cases hkW : k ∈ W
    · obtain ⟨T, e, hT, hw, _⟩ := hnew k hkW hk
      exact ⟨T, e, hT, hw⟩
    · obtain ⟨T, e, hT, hw⟩ := hinv.tree k hk
      obtain ⟨e1, e2⟩ := hsame k hkW
      refine ⟨T, by rw [treeAtIndex_congr e1]; exact e, ?_, by rw [e2]; exact hw⟩
      rw [e2]
      refine hT.frame_inv (fun a ha => hframe a (hinv.addr_below hk ha) ?_)
      intro j hj hjl hc
      exact hinv.apart j k hjl hk (fun e => hkW (e ▸ hj)) a hc ha
  · intro j k hj hk hjk z hz hzk
    rw [hlen] at hj hk
    by_cases hjW : j ∈ W <;> by_cases hkW : k ∈ W
    · exact hapart j hjW k hkW hj hk hjk z hz hzk
    · rw [(hsame k hkW).2] at hzk
      rcases hold j hj z hz with h5 | h5
      · exact hinv.apart j k hj hk hjk z h5 hzk
      · have := hinv.addr_below hk hzk
        omega
    · rw [(hsame j hjW).2] at hz
      rcases hold k hk z hzk with h5 | h5
      · exact hinv.apart j k hj hk hjk z hz h5
      · have := hinv.addr_below hj hz
        omega
    · rw [(hsame j hjW).2] at hz
      rw [(hsame k hkW).2] at hzk
      exact hinv.apart j k hj hk hjk z hz hzk

/-- A new cached fitness for one individual. -/
theorem BreedFrame.setFitness_frame {fl : GPFunctionLookup} {rt : Int} {h : Heap}
    {pop : List Individual} {ts : Nat → Subtree} (hinv : PopInv fl rt h pop ts) (c : Nat)
    (f : Int) : BreedFrame fl rt h pop ts [c] h (setFitness pop c f) ts where
  inv :=
    ⟨fun k hk => by
      rw [length_setFitness] at hk
      rw [treeAtIndex_setFitness]
      exact hinv.tree k hk,
    fun j k hj hk => by
      rw [length_setFitness] at hj hk
      exact hinv.apart j k hj hk⟩
  len := length_setFitness _ _ _
  grow := le_refl _
  same := fun k hk =>
    ⟨getElem?_setFitness_ne pop f (fun e => hk (by rw [e]; exact List.mem_singleton_self _)), rfl⟩
  old := fun _ _ _ hy => Or.inl hy
  frame := fun _ _ _ => rfl

end GP

namespace GP

/-! ## The operations of MutateAndCrossover on one tree -/

/-- `GPTree::Duplicate()` on a tree object that owns a tree: the copy is a tree
object with the same budget and count that owns a copy of the tree behind the old
heap, and the old heap is not written to. -/
theorem treeDuplicate_frame {fl : GPFunctionLookup} {rt : Int} {h : Heap} {T : GPTree}
    {t : Subtree} (hinv : TreeInv h T t) (hwt : WellTyped fl rt t) :
    ∃ h1, T.Duplicate h = some (h1, ⟨T.m_max_nodes, T.m_count, some h.length⟩) ∧
      TreeInv h1 ⟨T.m_max_nodes, T.m_count, some h.length⟩ (t.copyAt h.length) ∧
      WellTyped fl rt (t.copyAt h.length) ∧ (∀ x : Nat, x < h.length → h1[x]? = h[x]?) ∧
      h1.length = h.length + t.size := by
  obtain ⟨a, hTa, hta⟩ := hinv.root_some hwt
  obtain ⟨h1, e, hlen, hpre, hrep⟩ := Duplicate_spec hinv.1.1.toRepC hinv.1.2 hta
  refine ⟨h1, ?_, ⟨⟨hrep, Subtree.nodup_copyAt _ _⟩, Subtree.root_copyAt_some hta _, ?_, hinv.2.2.2⟩,
    WellTyped.copyAt_typed _ hwt, hpre, hlen⟩
  · simp only [GPTree.Duplicate, hTa, e]
  · show T.m_count = _
    rw [Subtree.size_copyAt]
    exact hinv.2.2.1

/-- The action `GP_NEW` on one tree object: `CreateRandomTree` returns a tree
behind the old heap and `Replace( NULL, ... )` on the new tree object installs
it. -/
theorem newTree_frame {fl : GPFunctionLookup} (hwf : fl.WF) {rt : Int}
    (hleaf : LeafContract fl rt) {max_nodes : Int} (hmax : 1 ≤ max_nodes) (rnd : Nat → Nat)
    (pos : Nat) (h : Heap) :
    ∃ (t : Subtree) (h1 : Heap) (pos1 : Nat) (nodes_used : Nat),
      CreateRandomTree fl rt max_nodes rnd pos h =
        some (some h.length, nodes_used, h1, pos1) ∧
      (GPTree.new max_nodes).Replace h1 none h.length =
        some (none, ⟨max_nodes, (t.size : Int), some h.length⟩, h1) ∧
      (0 : Int) < (t.size : Int) ∧
      TreeInv h1 ⟨max_nodes, (t.size : Int), some h.length⟩ t ∧ WellTyped fl rt t ∧
      (∀ x : Nat, x < h.length → h1[x]? = h[x]?) ∧ h.length ≤ h1.length ∧
      (∀ y ∈ t.addrs, h.length ≤ y) := by
  obtain ⟨t, h1, pos1, e, ht, hroot, hle, hwt, hpre, hlen, hfresh⟩ :=
    CreateRandomTree_fresh hwf hleaf hmax rnd pos h
  have hm := CountSubtree_of_isTree ht hroot
  refine ⟨t, h1, pos1, t.size, e, ?_, by have := hwt.size_pos; omega,
    ⟨ht, hroot, rfl, hle⟩, hwt, hpre, by omega, hfresh⟩
  rw [Replace_null_eq hm, if_neg (by simpa [GPTree.MaxNodes, GPTree.new] using hle)]
  rfl

/-! ## The operations of MutateAndCrossover on the population -/

/-- One individual gets a tree that is made of cells of its old tree and of cells
behind the old heap. -/
theorem BreedFrame.single {fl : GPFunctionLookup} {rt : Int} {h h1 : Heap}
    {pop : List Individual} {ts : Nat → Subtree} (hinv : PopInv fl rt h pop ts) {c : Nat}
    (hc : c < pop.length) {T1 : GPTree} {t1 : Subtree} (hT1 : TreeInv h1 T1 t1)
    (hw1 : WellTyped fl rt t1) (hold : ∀ y ∈ t1.addrs, y ∈ (ts c).addrs ∨ h.length ≤ y)
    (hgrow : h.length ≤ h1.length)
    (hframe : ∀ a : Nat, a < h.length → a ∉ (ts c).addrs → h1[a]? = h[a]?) :
    BreedFrame fl rt h pop ts [c] h1 (setTree pop c T1) (Function.update ts c t1) := by
  apply BreedFrame.of_update hinv (length_setTree _ _ _) hgrow
  · intro k hk
    have hkc : k ≠ c := fun e => hk (by rw [e]; exact List.mem_singleton_self _)
    exact ⟨getElem?_setTree_ne pop T1 hkc, Function.update_noteq hkc _ _⟩
  · intro k hk _
    rw [List.mem_singleton] at hk
    subst hk
    rw [Function.update_same]
    exact ⟨T1, treeAtIndex_setTree_self hc T1, hT1, hw1, hold⟩
  · intro j hj k hk _ _ hjk
    rw [List.mem_singleton] at hj hk
    exact absurd (hj.trans hk.symm) hjk
  · intro a ha hout
    exact hframe a ha (hout c (List.mem_singleton_self _) hc)

/-- Two individuals get trees that are made of cells of their old trees and of
cells behind the old heap. -/
theorem BreedFrame.pair {fl : GPFunctionLookup} {rt : Int} {h h1 : Heap}
    {pop : List Individual} {ts : Nat → Subtree} (hinv : PopInv fl rt h pop ts) {c q : Nat}
    (hc : c < pop.length) (hq : q < pop.length) (hcq : c ≠ q) {T1 T2 : GPTree}
    {t1 t2 : Subtree} (hT1 : TreeInv h1 T1 t1) (hT2 : TreeInv h1 T2 t2)
    (hw1 : WellTyped fl rt t1) (hw2 : WellTyped fl rt t2)
    (hdisj : ∀ z ∈ t1.addrs, z ∉ t2.addrs)
    (hold1 : ∀ y ∈ t1.addrs, y ∈ (ts c).addrs ∨ h.length ≤ y)
    (hold2 : ∀ y ∈ t2.addrs, y ∈ (ts q).addrs ∨ h.length ≤ y)
    (hgrow : h.length ≤ h1.length)
    (hframe : ∀ a : Nat, a < h.length → a ∉ (ts c).addrs → a ∉ (ts q).addrs →
      h1[a]? = h[a]?) :
    BreedFrame fl rt h pop ts [c, q] h1 (setTree (setTree pop c T1) q T2)
      (Function.update (Function.update ts c t1) q t2) := by
  have hu1 : Function.update (Function.update ts c t1) q t2 c = t1 := by
    rw [Function.update_noteq hcq, Function.update_same]
  have hu2 : Function.update (Function.update ts c t1) q t2 q = t2 := Function.update_same _ _ _
  apply BreedFrame.of_update hinv (by rw [length_setTree, length_setTree]) hgrow
  · intro k hk
    have hkc : k ≠ c := fun e => hk (by rw [e]; simp)
    have hkq : k ≠ q := fun e => hk (by rw [e]; simp)
    refine ⟨by rw [getElem?_setTree_ne _ T2 hkq, getElem?_setTree_ne _ T1 hkc], ?_⟩
    rw [Function.update_noteq hkq, Function.update_noteq hkc]
  · intro k hk _
    simp only [List.mem_cons, List.mem_singleton, List.not_mem_nil, or_false] at hk
    rcases hk with hk | hk
    · subst hk
      rw [hu1]
      refine ⟨T1, ?_, hT1, hw1, hold1⟩
      rw [treeAtIndex_setTree_ne _ T2 hcq]
      exact treeAtIndex_setTree_self hc T1
    · subst hk
      rw [hu2]
      exact ⟨T2, treeAtIndex_setTree_self (by rw [length_setTree]; exact hq) T2, hT2, hw2,
        hold2⟩
  · intro j hj k hk _ _ hjk z hz hzk
    simp only [List.mem_cons, List.mem_singleton, List.not_mem_nil, or_false] at hj hk
    rcases hj with hj | hj <;> rcases hk with hk | hk
    · exact hjk (hj.trans hk.symm)
    · subst hj; subst hk
      rw [hu1] at hz
      rw [hu2] at hzk
      exact hdisj z hz hzk
    · subst hj; subst hk
      rw [hu2] at hz
      rw [hu1] at hzk
      exact hdisj z hzk hz
    · exact hjk (hj.trans hk.symm)
  · intro a ha hout
    exact hframe a ha (hout c (by simp) hc) (hout q (by simp) hq)

end GP

namespace GP

/-! ## The actions of MutateAndCrossover -/

/-- The block `if ( current_action.m_mutate )`: it returns, and writes to the
current individual only, and to nobody when the flag is not set. -/
theorem breedMutate_spec {env : GPEnvironment} (hwf : env.toGPFunctionLookup.WF)
    (hleaf : LeafContract env.toGPFunctionLookup env.m_return_type) {h : Heap}
    {pop : List Individual} {ts : Nat → Subtree}
    (hinv : PopInv env.toGPFunctionLookup env.m_return_type h pop ts) {c : Nat}
    (hc : c < pop.length) (m_mutate : Bool) (rnd : Nat → Nat) (pos : Nat) :
    ∃ pop1 h1 pos1 ts1, breedMutate env pop h rnd pos c m_mutate = some (pop1, h1, pos1) ∧
      BreedFrame env.toGPFunctionLookup env.m_return_type h pop ts
        (if m_mutate = true then [c] else []) h1 pop1 ts1 ∧
      (m_mutate = true → fitnessAt pop1 c = some LOWEST_FITNESS) := by
  cases m_mutate with
  | false =>
    exact ⟨pop, h, pos, ts, rfl, BreedFrame.refl hinv _, fun hc => by cases hc⟩
  | true =>
    obtain ⟨T, eT, hT, hw⟩ := hinv.tree c hc
    obtain ⟨x, new, s, ty, h1, h2, pos1, pos2, T1, _, _, _, _, _, _, _, _, emut, hT1, hw1, _,
      hfresh, hframe, hgrow⟩ := MutateTree_full hwf hleaf hT hw rnd pos
    have fr1 := BreedFrame.single hinv hc hT1 hw1 (fun y hy => by
      rcases Subtree.mem_addrs_subst hy with h5 | h5
      · exact Or.inl h5
      · exact Or.inr (hfresh y h5.1)) hgrow hframe
    have fr2 := BreedFrame.setFitness_frame fr1.inv c LOWEST_FITNESS
    refine ⟨_, h2, pos2, _, ?_, (fr1.compose fr2).mono (fun k hk => by simpa using hk), fun _ => ?_⟩
    · simp only [breedMutate, if_true, eT, emut]
    · exact fitnessAt_setFitness_self (by rw [length_setTree]; exact hc) _

/-- The individuals that an action writes to: nobody for `GP_KEEP`, the current
individual and the partner for `GP_TWOWAY`, the current individual for the other
actions. -/
theorem breedAction_spec {env : GPEnvironment} (hwf : env.toGPFunctionLookup.WF)
    (hleaf : LeafContract env.toGPFunctionLookup env.m_return_type)
    (hmax : 1 ≤ env.m_max_tree_size) {h : Heap} {pop : List Individual} {ts : Nat → Subtree}
    (hinv : PopInv env.toGPFunctionLookup env.m_return_type h pop ts) {c q : Nat}
    (hc : c < pop.length) (hq : q < pop.length) (action : BREED_ACTION)
    (hcq : action = .GP_TWOWAY ∨ action = .GP_COPYOF → c ≠ q) (rnd : Nat → Nat) (pos : Nat) :
    ∃ pop1 h1 pos1 ts1, breedAction env pop h rnd pos c q action = some (pop1, h1, pos1) ∧
      BreedFrame env.toGPFunctionLookup env.m_return_type h pop ts
        ((if action = .GP_KEEP then [] else [c]) ++ (if action = .GP_TWOWAY then [q] else []))
        h1 pop1 ts1 := by
  obtain ⟨Tc, eTc, hTc, hwc⟩ := hinv.tree c hc
  obtain ⟨Tq, eTq, hTq, hwq⟩ := hinv.tree q hq
  have hclt := Rep.addr_lt hTc.1.1
  have hqlt := Rep.addr_lt hTq.1.1
  cases action with
  | GP_KEEP =>
    exact ⟨pop, h, pos, ts, rfl, BreedFrame.refl hinv _⟩
  | GP_TWOWAY =>
    have hne : c ≠ q := hcq (Or.inl rfl)
    obtain ⟨b, A1, B1, h1, pos1, e, _, _, tA2, tB2, hA2, hB2, wA2, wB2, hdisj2, holdA, holdB,
      hframe, hgrow, _, _⟩ :=
      CrossOver_full hwf hleaf hleaf hTc hwc hTq hwq (hinv.apart c q hc hq hne) rnd pos
    have fr := BreedFrame.pair hinv hc hq hne hA2 hB2 wA2 wB2 hdisj2 holdA holdB hgrow hframe
    refine ⟨_, h1, pos1, _, ?_, fr⟩
    simp only [breedAction, eTc, eTq, if_pos hne, e]
  | GP_ONEWAY =>
    obtain ⟨h1, edup, hcopy, wcopy, hpre, hlen1⟩ := treeDuplicate_frame hTq hwq
    have hTc1 : TreeInv h1 Tc (ts c) := hTc.frame_inv (fun a ha => hpre a (hclt a ha))
    obtain ⟨b, A1, B1, h2, pos1, e, _, _, tA2, tB2, hA2, _, wA2, _, _, holdA, _,
      hframe, hgrow, _, _⟩ :=
      CrossOver_full hwf hleaf hleaf hTc1 hwc hcopy wcopy (fun z hz hzc => by
        have := hclt z hz
        have := (Subtree.mem_addrs_copyAt.mp hzc).1
        omega) rnd pos
    have fr := BreedFrame.single hinv hc hA2 wA2 (fun y hy => by
      rcases holdA y hy with h5 | h5
      · exact Or.inl h5
      · exact Or.inr (by omega)) (by omega) (fun a ha hac => by
      rw [hframe a (by omega) hac (fun hcc => by
        have := (Subtree.mem_addrs_copyAt.mp hcc).1
        omega), hpre a ha])
    refine ⟨_, h2, pos1, _, ?_, fr.mono (fun k hk => by simpa using hk)⟩
    simp only [breedAction, eTc, eTq, edup, e]
  | GP_NEW =>
    obtain ⟨t, h1, pos1, used, ecreate, erep, hpos, hT1, hw1, hpre, hgrow, hfresh⟩ :=
      newTree_frame hwf hleaf hmax rnd pos h
    have fr1 := BreedFrame.single hinv hc hT1 hw1 (fun y hy => Or.inr (hfresh y hy)) hgrow
      (fun a ha _ => hpre a ha)
    have fr2 := BreedFrame.setFitness_frame fr1.inv c LOWEST_FITNESS
    refine ⟨_, h1, pos1, _, ?_, (fr1.compose fr2).mono (fun k hk => by simpa using hk)⟩
    simp only [breedAction, if_pos hc, ecreate, erep, GPTree.Count]
    rw [if_pos hpos]
  | GP_COPYOF =>
    have hne : c ≠ q := hcq (Or.inr rfl)
    obtain ⟨h1, edup, hcopy, wcopy, hpre, hlen1⟩ := treeDuplicate_frame hTq hwq
    have fr1 := BreedFrame.single hinv hc hcopy wcopy (fun y hy =>
      Or.inr (Subtree.mem_addrs_copyAt.mp hy).1) (by omega) (fun a ha _ => hpre a ha)
    have fr2 := BreedFrame.setFitness_frame fr1.inv c (pop[q]).m_current_fitness
    refine ⟨_, h1, pos, _, ?_, (fr1.compose fr2).mono (fun k hk => by simpa using hk)⟩
    simp only [breedAction, if_pos (And.intro hc hne), eTq, fitnessAt_lt hq, edup]

end GP

namespace GP

/-! ## The loop of MutateAndCrossover -/

/-- The table of actions: the entry for round `i` has no relative partner; an
absolute partner has a rank below `i`; the entries for the rounds 0 and 1 are
`GP_KEEP` without mutation; the partner of `GP_TWOWAY` has a rank of at least 1;
and `GP_TWOWAY`, `GP_ONEWAY` and `GP_COPYOF` have an absolute partner. -/
theorem actions_entry (i : Nat) :
    ∃ a, actions[min i (n_actions - 1)]? = some a ∧
      a.m_partner_index_relativity ≠ .GP_RELATIVE ∧
      (a.m_partner_index_relativity = .GP_ABSOLUTE →
        0 ≤ a.m_partner_index ∧ a.m_partner_index < (i : Int)) ∧
      (i < 2 → a.m_action = .GP_KEEP ∧ a.m_mutate = false) ∧
      (a.m_action = .GP_TWOWAY → 1 ≤ a.m_partner_index) ∧
      (a.m_action ≠ .GP_KEEP → 2 ≤ i) ∧ (a.m_mutate = true → 2 ≤ i) ∧
      (a.m_action = .GP_TWOWAY ∨ a.m_action = .GP_ONEWAY ∨ a.m_action = .GP_COPYOF →
        a.m_partner_index_relativity = .GP_ABSOLUTE) := by
  by_cases hi : i < 18
  · have hm : min i (n_actions - 1) = i := by
      have : n_actions - 1 = 17 := rfl
      rw [this]; omega
    rw [hm]
    interval_cases i <;> exact ⟨_, rfl, by decide⟩
  · have hm : min i (n_actions - 1) = 17 := by
      have : n_actions - 1 = 17 := rfl
      rw [this]; omega
    rw [hm]
    refine ⟨_, rfl, by decide, fun _ => ⟨by decide, ?_⟩, fun h => by omega, by decide,
      fun _ => by omega, fun _ => by omega, by decide⟩
    show (0 : Int) < (i : Int)
    omega

/-- The loop that moves the ranking one place to the front. -/
theorem shiftLoop_spec : ∀ (n j : Nat) (L : List Nat), j + n < L.length →
    ∃ L1, shiftLoop n j L = some L1 ∧ L1.length = L.length ∧
      (∀ k, j ≤ k → k < j + n → L1[k]? = L[k + 1]?) ∧
      (∀ k, k < j ∨ j + n ≤ k → L1[k]? = L[k]?) := by
  intro n
  induction n with
  | zero =>
    intro j L _
    exact ⟨L, rfl, rfl, fun k h1 h2 => by omega, fun _ _ => rfl⟩
  | succ n ih =>
    intro j L hj
    have hj1 : j + 1 < L.length := by omega
    obtain ⟨L1, e, hlen, hsh, hout⟩ := ih (j + 1) (L.set j L[j + 1])
      (by rw [List.length_set]; omega)
    refine ⟨L1, ?_, by rw [hlen, List.length_set], ?_, ?_⟩
    · rw [shiftLoop, List.getElem?_eq_getElem hj1]
      dsimp only
      rw [if_pos (by omega)]
      exact e
    · intro k hk1 hk2
      by_cases hkj : k = j
      · subst hkj
        rw [hout k (Or.inl (by omega)), List.getElem?_set_self (by omega),
          List.getElem?_eq_getElem hj1]
      · rw [hsh k (by omega) (by omega), List.getElem?_set_ne (by omega)]
    · intro k hk
      rw [hout k (by omega), List.getElem?_set_ne (by omega)]

/-- One round of the loop of `MutateAndCrossover`, for a population in the heap
and the ranking `R`, of which the array `ranked_by_fitness` holds the part from
rank `i` on: the round returns, the current individual is the one of rank `i`,
only the individuals `writtenAt R i` are written to, and the array holds the
ranking from rank `i + 1` on afterwards. -/
theorem breedStep_spec {env : GPEnvironment} (hwf : env.toGPFunctionLookup.WF)
    (hleaf : LeafContract env.toGPFunctionLookup env.m_return_type)
    (hmax : 1 ≤ env.m_max_tree_size) {R : List Nat}
    (hperm : R.Perm (List.range env.m_population_size)) (rnd : Nat → Nat) {i : Nat}
    (hi : i < env.m_population_size) {s : BreedState} {ts : Nat → Subtree}
    (hinv : PopInv env.toGPFunctionLookup env.m_return_type s.heap s.m_population ts)
    (hlen : s.m_population.length = env.m_population_size)
    (hrl : s.ranked_by_fitness.length = env.m_population_size)
    (hrank : ∀ j, i + j < env.m_population_size → s.ranked_by_fitness[j]? = R[i + j]?)
    (hleft : s.nLeftToProcess = env.m_population_size - i) :
    ∃ s1 ts1, breedStep env R rnd i s = some s1 ∧
      BreedFrame env.toGPFunctionLookup env.m_return_type s.heap s.m_population ts
        (writtenAt R i) s1.heap s1.m_population ts1 ∧
      s1.ranked_by_fitness.length = env.m_population_size ∧
      (∀ j, i + 1 + j < env.m_population_size → s1.ranked_by_fitness[j]? = R[i + 1 + j]?) ∧
      s1.nLeftToProcess = env.m_population_size - (i + 1) := by
  have hRlen : R.length = env.m_population_size := by rw [hperm.length_eq, List.length_range]
  have hRnd : R.Nodup := hperm.nodup_iff.mpr (List.nodup_range _)
  have hRlt : ∀ j (hj : j < R.length), R[j] < env.m_population_size :=
    fun j hj => List.mem_range.mp (hperm.subset (List.getElem_mem hj))
  have hiR : i < R.length := by omega
  have hcur : s.ranked_by_fitness[0]? = some R[i] := by
    rw [hrank 0 (by omega), Nat.add_zero, List.getElem?_eq_getElem hiR]
  have hc : R[i] < s.m_population.length := by rw [hlen]; exact hRlt i hiR
  obtain ⟨a, ea, hrel, habs, hkeep, htwo, hact2, hmut2, hpart⟩ := actions_entry i
  -- the partner
  have hpartner : ∃ q, breedPartner env.m_population_size s.ranked_by_fitness R a = some q ∧
      q < env.m_population_size ∧
      (a.m_partner_index_relativity = .GP_ABSOLUTE → q ≠ R[i] ∧
        q = R.getD a.m_partner_index.toNat 0) := by
    cases hr : a.m_partner_index_relativity with
    | GP_RELATIVE => exact absurd hr hrel
    | GP_ABSOLUTE =>
      obtain ⟨h0, h1⟩ := habs hr
      have hp : a.m_partner_index.toNat < R.length := by omega
      refine ⟨R[a.m_partner_index.toNat], ?_, hRlt _ hp, fun _ => ⟨?_, ?_⟩⟩
      · simp only [breedPartner, hr]
        rw [if_pos ⟨h0, by omega⟩, List.getElem?_eq_getElem hp]
      · intro e
        have := (hRnd.getElem_inj_iff).mp e
        omega
      · rw [List.getD_eq_getElem _ _ hp]
    | GP_NOPARTNER =>
      refine ⟨0, ?_, by omega, fun hc => by cases hc⟩
      simp only [breedPartner, hr]
  obtain ⟨q, eq, hq, hqabs⟩ := hpartner
  have hcq : a.m_action = .GP_TWOWAY ∨ a.m_action = .GP_COPYOF → R[i] ≠ q := by
    intro hcase
    have hr := hpart (by rcases hcase with h | h <;> simp [h])
    exact fun e => (hqabs hr).1 e.symm
  obtain ⟨pop1, h1, pos1, ts1, eact, fr1⟩ :=
    breedAction_spec hwf hleaf hmax hinv hc (by rw [hlen]; exact hq) a.m_action hcq rnd s.pos
  obtain ⟨pop2, h2, pos2, ts2, emut, fr2, _⟩ :=
    breedMutate_spec hwf hleaf fr1.inv (by rw [fr1.len]; exact hc) a.m_mutate rnd pos1
  obtain ⟨L1, esh, hlen1, hsh, _⟩ := shiftLoop_spec (s.nLeftToProcess - 1) 0 s.ranked_by_fitness
    (by omega)
  refine ⟨⟨pop2, h2, pos2, L1, s.nLeftToProcess - 1⟩, ts2, ?_, ?_, ?_, ?_, ?_⟩
  · simp only [breedStep, hcur, ea, eq]
    rw [if_pos ⟨hRlt i hiR, hq⟩]
    simp only [eact, emut]
    rw [if_pos (by omega)]
    simp only [esh]
  · refine (fr1.compose fr2).mono ?_
    intro k hk
    have hgi : R.getD i 0 = R[i] := List.getD_eq_getElem _ _ hiR
    simp only [writtenAt, ea, hgi]
    simp only [List.mem_append] at hk ⊢
    rcases hk with (hk | hk) | hk
    · left
      by_cases hK : a.m_action = .GP_KEEP
      · rw [if_pos hK] at hk; cases hk
      · rw [if_neg hK] at hk
        rw [if_neg (fun hc => hK hc.1)]
        exact hk
    · right
      by_cases hT : a.m_action = .GP_TWOWAY
      · rw [if_pos hT] at hk ⊢
        rw [← (hqabs (hpart (Or.inl hT))).2]
        exact hk
      · rw [if_neg hT] at hk; cases hk
    · left
      by_cases hM : a.m_mutate = true
      · rw [if_pos hM] at hk
        rw [if_neg (fun hc => by rw [hc.2] at hM; cases hM)]
        exact hk
      · rw [if_neg hM] at hk; cases hk
  · show L1.length = _
    rw [hlen1, hrl]
  · intro j hj
    show L1[j]? = _
    rw [hsh j (Nat.zero_le _) (by omega), hrank (j + 1) (by omega)]
    congr 1
    omega
  · show s.nLeftToProcess - 1 = _
    omega

end GP

namespace GP

/-- The loop of `MutateAndCrossover` from round `i` on, for a population in the
heap: it returns, and only the individuals that the rounds write to are written
to. -/
theorem breedLoop_spec {env : GPEnvironment} (hwf : env.toGPFunctionLookup.WF)
    (hleaf : LeafContract env.toGPFunctionLookup env.m_return_type)
    (hmax : 1 ≤ env.m_max_tree_size) {R : List Nat}
    (hperm : R.Perm (List.range env.m_population_size)) (rnd : Nat → Nat) :
    ∀ (n i : Nat) (s : BreedState) (ts : Nat → Subtree), i + n = env.m_population_size →
      PopInv env.toGPFunctionLookup env.m_return_type s.heap s.m_population ts →
      s.m_population.length = env.m_population_size →
      s.ranked_by_fitness.length = env.m_population_size →
      (∀ j, i + j < env.m_population_size → s.ranked_by_fitness[j]? = R[i + j]?) →
      s.nLeftToProcess = env.m_population_size - i →
      ∃ s1 ts1, breedLoop env R rnd n i s = some s1 ∧
        BreedFrame env.toGPFunctionLookup env.m_return_type s.heap s.m_population ts
          (writtenFrom R n i) s1.heap s1.m_population ts1 := by
  intro n
  induction n with
  | zero =>
    intro i s ts _ hinv _ _ _ _
    exact ⟨s, ts, rfl, BreedFrame.refl hinv _⟩
  | succ n ih =>
    intro i s ts hin hinv hlen hrl hrank hleft
    obtain ⟨s1, ts1, e1, fr1, hrl1, hrank1, hleft1⟩ :=
      breedStep_spec hwf hleaf hmax hperm rnd (by omega) hinv hlen hrl hrank hleft
    obtain ⟨s2, ts2, e2, fr2⟩ := ih (i + 1) s1 ts1 (by omega) fr1.inv (fr1.len.trans hlen)
      hrl1 hrank1 hleft1
    refine ⟨s2, ts2, ?_, fr1.compose fr2⟩
    simp only [breedLoop, e1, e2]

/-- The individual of rank 0 is not among those that a round writes to. -/
theorem top_not_writtenAt {R : List Nat} (hnd : R.Nodup) {top : Nat} (htop : R[0]? = some top)
    {i : Nat} (hi : i < R.length) : top ∉ writtenAt R i := by
  obtain ⟨a, ea, _, habs, hkeep, htwo, hact2, hmut2, hpart⟩ := actions_entry i
  have h0 : 0 < R.length := by omega
  rw [List.getElem?_eq_getElem h0] at htop
  have htop' : R[0] = top := Option.some.inj htop
  simp only [writtenAt, ea, List.mem_append, not_or]
  constructor
  · by_cases hk : a.m_action = .GP_KEEP ∧ a.m_mutate = false
    · rw [if_pos hk]; exact List.not_mem_nil _
    · rw [if_neg hk, List.getD_eq_getElem _ _ hi, List.mem_singleton]
      intro e
      have h2 : 2 ≤ i := by
        by_cases hK : a.m_action = .GP_KEEP
        · have hm : a.m_mutate = true := by
            cases hmm : a.m_mutate with
            | true => rfl
            | false => exact absurd ⟨hK, hmm⟩ hk
          exact hmut2 hm
        · exact hact2 hK
      have := (hnd.getElem_inj_iff).mp (htop'.trans e)
      omega
  · by_cases hT : a.m_action = .GP_TWOWAY
    · rw [if_pos hT]
      obtain ⟨hp0, hp1⟩ := habs (hpart (Or.inl hT))
      have hp2 := htwo hT
      have hpl : a.m_partner_index.toNat < R.length := by omega
      rw [List.getD_eq_getElem _ _ hpl, List.mem_singleton]
      intro e
      have := (hnd.getElem_inj_iff).mp (htop'.trans e)
      omega
    · rw [if_neg hT]; exact List.not_mem_nil _

theorem top_not_writtenFrom {R : List Nat} (hnd : R.Nodup) {top : Nat}
    (htop : R[0]? = some top) : ∀ (n i : Nat), i + n ≤ R.length → top ∉ writtenFrom R n i := by
  intro n
  induction n with
  | zero => intro i _; exact List.not_mem_nil _
  | succ n ih =>
    intro i hin
    simp only [writtenFrom, List.mem_append, not_or]
    exact ⟨top_not_writtenAt hnd htop (by omega), ih (i + 1) (by omega)⟩

/-! ## EvaluateAll -/

/-- The loop of `EvaluateAll` from index `i` on: the trees stay, the individuals
below `i` stay, and every individual from `i` on has the fitness that the function
returned for it in an environment with the same trees. -/
theorem evaluateLoop_spec (f : GPEnvironment → Heap → Nat → Int) (h : Heap) :
    ∀ (n i : Nat) (env : GPEnvironment), i + n = env.m_population.length →
      (evaluateLoop f h n i env).m_population.length = env.m_population.length ∧
      (∀ k, treeAtIndex (evaluateLoop f h n i env).m_population k =
        treeAtIndex env.m_population k) ∧
      (∀ k, k < i → (evaluateLoop f h n i env).m_population[k]? = env.m_population[k]?) ∧
      (∀ k, i ≤ k → k < env.m_population.length →
        ∃ e : GPEnvironment, (∀ j, treeAtIndex e.m_population j = treeAtIndex env.m_population j) ∧
          fitnessAt (evaluateLoop f h n i env).m_population k = some (f e h k)) := by
  intro n
  induction n with
  | zero =>
    intro i env hin
    exact ⟨rfl, fun _ => rfl, fun _ _ => rfl, fun k h1 h2 => by omega⟩
  | succ n ih =>
    intro i env hin
    obtain ⟨a1, a2, a3, a4⟩ := ih (i + 1)
      { env with m_population := setFitness env.m_population i (f env h i) }
      (by simp only [length_setFitness]; omega)
    simp only [length_setFitness] at a1 a4
    simp only [treeAtIndex_setFitness] at a2 a4
    refine ⟨a1, a2, ?_, ?_⟩
    · intro k hk
      rw [evaluateLoop, a3 k (by omega)]
      exact getElem?_setFitness_ne _ _ (by omega)
    · intro k hk1 hk2
      by_cases hki : k = i
      · subst hki
        refine ⟨env, fun _ => rfl, ?_⟩
        rw [evaluateLoop]
        simp only [fitnessAt]
        rw [a3 k (by omega)]
        exact fitnessAt_setFitness_self hk2 _
      · obtain ⟨e, he, hf⟩ := a4 k (by omega) hk2
        exact ⟨e, he, hf⟩

/-- The highest cached fitness is that of the individual of rank 0, or
`LOWEST_FITNESS` when that is higher. -/
theorem bestFit_le_top {pop : List Individual} {R : List Nat}
    (hperm : R.Perm (List.range pop.length))
    (hsort : R.Pairwise (fun a b =>
      (fitnessAt pop b).getD 0 < (fitnessAt pop a).getD 0 ∨
        ((fitnessAt pop a).getD 0 = (fitnessAt pop b).getD 0 ∧ a < b)))
    {top : Nat} (htop : R[0]? = some top) {v : Int} (hv : fitnessAt pop top = some v) :
    bestFitLoop pop LOWEST_FITNESS ≤ max LOWEST_FITNESS v := by
  obtain ⟨_, _, b3⟩ := bestFitLoop_spec pop LOWEST_FITNESS
  rcases b3 with b3 | ⟨ind, hind, eind⟩
  · rw [b3]; exact le_max_left _ _
  · obtain ⟨k, hk, ek⟩ := List.mem_iff_getElem.mp hind
    have hkR : k ∈ R := hperm.symm.subset (List.mem_range.mpr hk)
    obtain ⟨p, hp, ep⟩ := List.mem_iff_getElem.mp hkR
    have h0 : 0 < R.length := by omega
    rw [List.getElem?_eq_getElem h0] at htop
    have htop' : R[0] = top := Option.some.inj htop
    have hfk : fitnessAt pop k = some ind.m_current_fitness := by
      rw [fitnessAt_lt hk, ek]
    have hle : ind.m_current_fitness ≤ v := by
      rcases Nat.eq_zero_or_pos p with hp0 | hp0
      · subst hp0
        rw [htop'] at ep
        rw [ep, hfk] at hv
        have := Option.some.inj hv
        omega
      · have hrel := List.pairwise_iff_getElem.mp hsort 0 p h0 hp hp0
        rw [ep, htop', hfk, hv] at hrel
        simp only [Option.getD_some] at hrel
        omega
    rw [← eind]
    exact le_trans hle (le_max_right _ _)

end GP

namespace GP

/-- C30: for an environment whose registry keeps the leaf contract for the return
type, with a budget of at least 1 and a population of `P >= 1` individuals that
own well-formed trees in different cells of the heap, and for any random draws:
`MutateAndCrossover` returns; the population has `P` individuals afterwards; the
individual that the ranking puts first has the same tree object and the same
cached fitness as before, and the cells of its tree are as before.  With a
deterministic fitness-and-test function `f` whose values are the cached fitness
values before the call, `GetBestFitness` after `EvaluateAll` on the new population
is at least `GetBestFitness` before the call; the new population is again one of
well-formed trees in different cells whose cached fitness values are those of
`f`, so the same holds for the next call. -/
theorem MutateAndCrossover_keeps_fittest (env : GPEnvironment) (h : Heap)
    (ts : Nat → Subtree) (rnd : Nat → Nat) (pos : Nat)
    (f : GPEnvironment → Heap → Nat → Int) (hwf : env.toGPFunctionLookup.WF)
    (hleaf : LeafContract env.toGPFunctionLookup env.m_return_type)
    (hmax : 1 ≤ env.m_max_tree_size)
    (hinv : PopInv env.toGPFunctionLookup env.m_return_type h env.m_population ts)
    (hP : 1 ≤ env.m_population_size) (hdet : DeterministicFitness f)
    (heval : ∀ k, k < env.m_population_size →
      fitnessAt env.m_population k = some (f env h k)) :
    ∃ (env1 : GPEnvironment) (h1 : Heap) (pos1 : Nat) (ranked_by_fitness : List Nat)
        (top : Nat) (ts1 : Nat → Subtree) (T : GPTree),
      rankPopulation env.m_population = some (ranked_by_fitness, ranked_by_fitness) ∧
      ranked_by_fitness[0]? = some top ∧
      env.MutateAndCrossover h rnd pos = some (env1, h1, pos1) ∧
      env1.m_population_size = env.m_population_size ∧
      env1.m_population[top]? = env.m_population[top]? ∧
      treeAtIndex env.m_population top = some T ∧ treeAtIndex env1.m_population top = some T ∧
      TreeInv h T (ts top) ∧ TreeInv h1 T (ts top) ∧
      (∀ a ∈ (ts top).addrs, h1[a]? = h[a]?) ∧
      env.GetBestFitness ≤ (env1.EvaluateAll f h1).GetBestFitness ∧
      PopInv env.toGPFunctionLookup env.m_return_type h1
        (env1.EvaluateAll f h1).m_population ts1 ∧
      (env1.EvaluateAll f h1).m_population_size = env.m_population_size ∧
      ∀ k, k < env.m_population_size →
        fitnessAt (env1.EvaluateAll f h1).m_population k =
          some (f (env1.EvaluateAll f h1) h1 k) := by
  obtain ⟨R, eR, hperm, hsort⟩ := rankPopulation_spec env.m_population
  have hRlen : R.length = env.m_population.length := by
    rw [hperm.length_eq, List.length_range]
  have hRnd : R.Nodup := hperm.nodup_iff.mpr (List.nodup_range _)
  have hP' : 1 ≤ env.m_population.length := hP
  have h0 : 0 < R.length := by omega
  have htop : R[0]? = some R[0] := List.getElem?_eq_getElem h0
  have htopl : R[0] < env.m_population.length :=
    List.mem_range.mp (hperm.subset (List.getElem_mem h0))
  obtain ⟨s1, ts1, eloop, fr⟩ := breedLoop_spec hwf hleaf hmax hperm rnd env.m_population_size 0
    ⟨env.m_population, h, pos, R, env.m_population_size⟩ ts (by omega) hinv rfl hRlen
    (fun j _ => by rw [Nat.zero_add]) (Nat.sub_zero _).symm
  have hnot : R[0] ∉ writtenFrom R env.m_population_size 0 :=
    top_not_writtenFrom hRnd htop _ 0 (by
      simp only [GPEnvironment.m_population_size]; omega)
  obtain ⟨hsame, hts⟩ := fr.same R[0] hnot
  obtain ⟨T, eT, hT, _⟩ := hinv.tree R[0] htopl
  obtain ⟨T1, eT1, hT1, _⟩ := fr.inv.tree R[0] (by rw [fr.len]; exact htopl)
  have eT1' : treeAtIndex s1.m_population R[0] = some T := by
    rw [treeAtIndex_congr hsame]; exact eT
  have hTT : T1 = T := Option.some.inj (eT1.symm.trans eT1')
  rw [hTT] at hT1 eT1
  rw [hts] at hT1
  -- the evaluation of the new population
  obtain ⟨v1, v2, v3, v4⟩ := evaluateLoop_spec f s1.heap env.m_population_size 0
    { env with m_population := s1.m_population } (by
      show 0 + env.m_population_size = s1.m_population.length
      rw [fr.len]; simp [GPEnvironment.m_population_size])
  have hElen : ({ env with m_population := s1.m_population } : GPEnvironment).m_population_size =
      env.m_population_size := fr.len
  have hEeq : ({ env with m_population := s1.m_population } : GPEnvironment).EvaluateAll f s1.heap =
      evaluateLoop f s1.heap env.m_population_size 0
        { env with m_population := s1.m_population } := by
    simp only [GPEnvironment.EvaluateAll, hElen]
  have hfitE : ∀ k, k < env.m_population_size →
      fitnessAt (evaluateLoop f s1.heap env.m_population_size 0
        { env with m_population := s1.m_population }).m_population k =
        some (f (evaluateLoop f s1.heap env.m_population_size 0
          { env with m_population := s1.m_population }) s1.heap k) := by
    intro k hk
    obtain ⟨e, he, hf⟩ := v4 k (Nat.zero_le _) (by
      show k < s1.m_population.length
      rw [fr.len]; exact hk)
    obtain ⟨Tk, eTk, hTk, _⟩ := fr.inv.tree k (by rw [fr.len]; exact hk)
    rw [hf]
    congr 1
    exact hdet _ _ _ _ k Tk (ts1 k) ((he k).trans eTk) ((v2 k).trans eTk) hTk hTk
  refine ⟨{ env with m_population := s1.m_population }, s1.heap, s1.pos, R, R[0], ts1, T, eR,
    htop, ?_, fr.len, hsame, eT, eT1, hT, hT1, fr.cells hinv htopl hnot, ?_, ?_, ?_, ?_⟩
  · simp only [GPEnvironment.MutateAndCrossover, eR, eloop]
  · -- the best fitness does not go down
    rw [hEeq]
    obtain ⟨e, he, hf⟩ := v4 R[0] (Nat.zero_le _) (by
      show R[0] < s1.m_population.length
      rw [fr.len]; exact htopl)
    have hfe : f e s1.heap R[0] = f env h R[0] :=
      hdet _ _ _ _ R[0] T (ts R[0]) ((he R[0]).trans eT1) eT hT1 hT
    rw [hfe] at hf
    have hold := bestFit_le_top hperm hsort htop (heval R[0] htopl)
    obtain ⟨b1, b2, _⟩ := bestFitLoop_spec
      (evaluateLoop f s1.heap env.m_population_size 0
        { env with m_population := s1.m_population }).m_population LOWEST_FITNESS
    have hkE : R[0] < (evaluateLoop f s1.heap env.m_population_size 0
        { env with m_population := s1.m_population }).m_population.length := by
      rw [v1]
      show R[0] < s1.m_population.length
      rw [fr.len]; exact htopl
    have hge := b2 _ (List.getElem_mem hkE)
    rw [fitnessAt_lt hkE] at hf
    rw [Option.some.inj hf] at hge
    simp only [GPEnvironment.GetBestFitness]
    exact le_trans hold (max_le b1 hge)
  · rw [hEeq]
    refine ⟨fun k hk => ?_, fun j k hj hk => ?_⟩
    · rw [v1] at hk
      rw [v2 k]
      exact fr.inv.tree k hk
    · rw [v1] at hj hk
      exact fr.inv.apart j k hj hk
  · rw [hEeq]
    show (evaluateLoop f s1.heap env.m_population_size 0
      { env with m_population := s1.m_population }).m_population.length = _
    rw [v1]
    exact fr.len
  · rw [hEeq]
    exact hfitE

end GP

namespace GP

theorem breedPopulation_inv :
    PopInv breedEnvironment.toGPFunctionLookup breedEnvironment.m_return_type breedHeap
      breedEnvironment.m_population breedTrees := by
  constructor
  · intro k hk
    have hk3 : k < 3 := hk
    interval_cases k
    · exact ⟨⟨7, 5, some 0⟩, rfl, by decide, by decide⟩
    · exact ⟨⟨7, 5, some 5⟩, rfl, by decide, by decide⟩
    · exact ⟨⟨7, 5, some 10⟩, rfl, by decide, by decide⟩
  · intro j k hj hk hjk
    have hj3 : j < 3 := hj
    have hk3 : k < 3 := hk
    interval_cases j <;> interval_cases k <;> first | exact absurd rfl hjk | decide

theorem countFitness_deterministic : DeterministicFitness countFitness := by
  intro e1 e2 g1 g2 k T t h1 h2 _ _
  simp only [countFitness, h1, h2]

theorem MutateAndCrossover_keeps_fittest_witness :
    ∃ (env1 : GPEnvironment) (h1 : Heap) (pos1 : Nat) (ranked_by_fitness : List Nat)
        (top : Nat) (ts1 : Nat → Subtree) (T : GPTree),
      rankPopulation breedEnvironment.m_population =
        some (ranked_by_fitness, ranked_by_fitness) ∧
      ranked_by_fitness[0]? = some top ∧
      breedEnvironment.MutateAndCrossover breedHeap (fun n => n) 0 = some (env1, h1, pos1) ∧
      env1.m_population_size = breedEnvironment.m_population_size ∧
      env1.m_population[top]? = breedEnvironment.m_population[top]? ∧
      treeAtIndex breedEnvironment.m_population top = some T ∧
      treeAtIndex env1.m_population top = some T ∧
      TreeInv breedHeap T (breedTrees top) ∧ TreeInv h1 T (breedTrees top) ∧
      (∀ a ∈ (breedTrees top).addrs, h1[a]? = breedHeap[a]?) ∧
      breedEnvironment.GetBestFitness ≤ (env1.EvaluateAll countFitness h1).GetBestFitness ∧
      PopInv breedEnvironment.toGPFunctionLookup breedEnvironment.m_return_type h1
        (env1.EvaluateAll countFitness h1).m_population ts1 ∧
      (env1.EvaluateAll countFitness h1).m_population_size =
        breedEnvironment.m_population_size ∧
      ∀ k, k < breedEnvironment.m_population_size →
        fitnessAt (env1.EvaluateAll countFitness h1).m_population k =
          some (countFitness (env1.EvaluateAll countFitness h1) h1 k) :=
  MutateAndCrossover_keeps_fittest breedEnvironment breedHeap breedTrees (fun n => n) 0
    countFitness (by decide) (LeafClosed.contract (S := [1]) (by decide)) (by decide)
    breedPopulation_inv (by decide) countFitness_deterministic (by decide)

end GP

namespace GP

/-! ## OverrideIndividual on trees with function ids that are not negative -/

/-- One round of the loop over the parameter slots in `OverrideIndividual`. -/
theorem overrideParams_step {fl : GPFunctionLookup} (hwf : fl.WF) {h : Heap} {nd : GPTreeNode}
    (d : GPFunctionDesc) {j : Nat} {c : Subtree} (hp : nd.parameters j = c.root)
    (hr : RepC h c) (hid : c.isNode = true → 0 ≤ c.fid) (n : Nat) :
    overrideParams fl h nd d (n + 1) j =
      if childFits fl d j c then overrideParams fl h nd d n (j + 1) else some false := by
  cases c with
  | null =>
    simp only [Subtree.root] at hp
    by_cases hj : j < d.m_nparams
    · have hcf : ¬ childFits fl d j .null := by
        simp [childFits, hj, Subtree.isNode]
      rw [if_neg hcf]
      simp [overrideParams, hp, hj]
    · have hcf : childFits fl d j .null := by
        simp [childFits, hj]
      rw [if_pos hcf]
      simp [overrideParams, hp, hj]
  | node b g c0 c1 c2 =>
    simp only [Subtree.root] at hp
    obtain ⟨pn, hpn, hg, _⟩ := RepC_cell hr
    have hg0 : 0 ≤ g := hid rfl
    by_cases hj : j < d.m_nparams
    · by_cases hex : g < (fl.m_nFuncs : Int)
      · have hlt : g < ((GP_MAX_FUNCTIONS * 2 : Nat) : Int) := by
          have := hwf.1
          omega
        obtain ⟨dg, hget⟩ : ∃ dg, fl.GetFunctionByID g = some dg := by
          unfold GPFunctionLookup.GetFunctionByID
          rw [if_pos ⟨hg0, hlt⟩]
          exact ⟨_, rfl⟩
        by_cases hty : dg.m_return_type = d.paramType j
        · have hcf : childFits fl d j (.node b g c0 c1 c2) := by
            simp [childFits, hj, Subtree.isNode, Subtree.fid, hex, hget, hty]
          rw [if_pos hcf]
          simp [overrideParams, hp, hj, hpn, hg, GPFunctionLookup.FunctionIDExists, hex, hget, hty]
        · have hcf : ¬ childFits fl d j (.node b g c0 c1 c2) := by
            simp [childFits, hj, Subtree.isNode, Subtree.fid, hex, hget, hty]
          rw [if_neg hcf]
          simp [overrideParams, hp, hj, hpn, hg, GPFunctionLookup.FunctionIDExists, hex, hget, hty]
      · have hcf : ¬ childFits fl d j (.node b g c0 c1 c2) := by
          simp [childFits, hj, Subtree.isNode, Subtree.fid, hex]
        rw [if_neg hcf]
        simp [overrideParams, hp, hj, hpn, hg, GPFunctionLookup.FunctionIDExists, hex]
    · have hcf : ¬ childFits fl d j (.node b g c0 c1 c2) := by
        simp [childFits, hj]
      rw [if_neg hcf]
      simp [overrideParams, hp, hj]

/-- The loop over the parameter slots in `OverrideIndividual` for one node of a
tree in the heap. -/
theorem overrideParams_spec {fl : GPFunctionLookup} (hwf : fl.WF) {h : Heap} {a : Nat}
    {f : Int} {c0 c1 c2 : Subtree} (hr : RepC h (.node a f c0 c1 c2)) {nd : GPTreeNode}
    (hnd : h[a]? = some nd) (d : GPFunctionDesc) (h0 : c0.isNode = true → 0 ≤ c0.fid)
    (h1 : c1.isNode = true → 0 ≤ c1.fid) (h2 : c2.isNode = true → 0 ≤ c2.fid) :
    overrideParams fl h nd d GP_MAX_PARAMETERS 0 =
      some (decide (childFits fl d 0 c0 ∧ childFits fl d 1 c1 ∧ childFits fl d 2 c2)) := by
  obtain ⟨nd1, hnd1, _, hp0, hp1, hp2⟩ := RepC_cell hr
  rw [hnd] at hnd1
  cases hnd1
  obtain ⟨_, r0, r1, r2⟩ := hr
  have e : GP_MAX_PARAMETERS = 2 + 1 := rfl
  rw [e, overrideParams_step hwf d (by simpa [GPTreeNode.parameters] using hp0) r0 h0]
  by_cases f0 : childFits fl d 0 c0
  · rw [if_pos f0, overrideParams_step hwf d (by simpa [GPTreeNode.parameters] using hp1) r1 h1]
    by_cases f1 : childFits fl d 1 c1
    · rw [if_pos f1,
        overrideParams_step hwf d (by simpa [GPTreeNode.parameters] using hp2) r2 h2]
      by_cases f2 : childFits fl d 2 c2
      · rw [if_pos f2]
        simp [overrideParams, f0, f1, f2]
      · rw [if_neg f2]
        simp [f2]
    · rw [if_neg f1]
      simp [f1]
  · rw [if_neg f0]
    simp [f0]

end GP

namespace GP

theorem Subtree.self_mem_subtrees {u : Subtree} (hu : u.isNode = true) : u ∈ u.subtrees := by
  cases u with
  | null => cases hu
  | node a f c0 c1 c2 => simp [Subtree.subtrees]

theorem Subtree.mem_subtrees_trans : ∀ {t u v : Subtree}, v ∈ u.subtrees → u ∈ t.subtrees →
    v ∈ t.subtrees := by
  intro t
  induction t with
  | null => intro u v _ hu; simp [Subtree.subtrees] at hu
  | node a f c0 c1 c2 ih0 ih1 ih2 =>
    intro u v hv hu
    simp only [Subtree.subtrees, List.mem_cons, List.mem_append] at hu
    rcases hu with rfl | (hu | hu) | hu
    · exact hv
    · simp only [Subtree.subtrees, List.mem_cons, List.mem_append]
      exact Or.inr (Or.inl (Or.inl (ih0 hv hu)))
    · simp only [Subtree.subtrees, List.mem_cons, List.mem_append]
      exact Or.inr (Or.inl (Or.inr (ih1 hv hu)))
    · simp only [Subtree.subtrees, List.mem_cons, List.mem_append]
      exact Or.inr (Or.inr (ih2 hv hu))

/-- The children of a node of a tree are subtrees of the tree. -/
theorem Subtree.child_mem_subtrees {t : Subtree} {a : Nat} {f : Int} {c0 c1 c2 c : Subtree}
    (hu : Subtree.node a f c0 c1 c2 ∈ t.subtrees) (hc : c = c0 ∨ c = c1 ∨ c = c2)
    (hn : c.isNode = true) : c ∈ t.subtrees := by
  refine Subtree.mem_subtrees_trans ?_ hu
  have hself := Subtree.self_mem_subtrees hn
  simp only [Subtree.subtrees, List.mem_cons, List.mem_append]
  rcases hc with rfl | rfl | rfl
  · exact Or.inr (Or.inl (Or.inl hself))
  · exact Or.inr (Or.inl (Or.inr hself))
  · exact Or.inr (Or.inr hself)

/-- The loop over the nodes in `OverrideIndividual`, for the iterator over a tree
in the heap whose function ids are not negative: it returns whether every node
passes the test. -/
theorem overrideLoop_spec {fl : GPFunctionLookup} (hwf : fl.WF) {h : Heap} {t : Subtree}
    (hr : RepC h t) (hids : ∀ u ∈ t.subtrees, 0 ≤ u.fid) {it : GPConstSubtreeIter}
    (hl : Live it t.levelOrder) :
    ∀ (fuel i : Nat), i ≤ t.levelOrderT.length → t.levelOrderT.length - i < fuel →
      overrideLoop fl h it fuel i =
        some (decide (∀ u ∈ t.levelOrderT.drop i, nodeFits fl u)) := by
  intro fuel
  induction fuel with
  | zero => intro i _ hf; omega
  | succ fuel ih =>
    intro i hi hf
    have hlenT := t.length_levelOrderT
    by_cases hiN : i < t.levelOrderT.length
    · have hiL : i < t.levelOrder.length := by omega
      have hmem : t.levelOrderT[i] ∈ t.subtrees :=
        t.levelOrderT_perm.subset (List.getElem_mem hiN)
      obtain ⟨a, f, c0, c1, c2, eu⟩ : ∃ a f c0 c1 c2, t.levelOrderT[i] = .node a f c0 c1 c2 := by
        have := Subtree.isNode_of_mem_subtrees hmem
        cases hu : t.levelOrderT[i] with
        | null => rw [hu] at this; cases this
        | node a f c0 c1 c2 => exact ⟨a, f, c0, c1, c2, rfl⟩
      rw [eu] at hmem
      have hru := RepC_of_mem_subtrees hr hmem
      obtain ⟨nd, hnd, hf0, _⟩ := RepC_cell hru
      have hLi : t.levelOrder[i] = a := by
        have hk : t.levelOrderT[i]? = some (Subtree.node a f c0 c1 c2) := by
          rw [List.getElem?_eq_getElem hiN, eu]
        have hx : (Subtree.node a f c0 c1 c2).root = some a := rfl
        have := Subtree.levelOrder_getElem? hk hx
        rw [List.getElem?_eq_getElem hiL] at this
        exact Option.some.inj this
      have hdrop : t.levelOrderT.drop i = .node a f c0 c1 c2 :: t.levelOrderT.drop (i + 1) := by
        rw [← eu]; exact List.drop_eq_getElem_cons hiN
      have hf00 : 0 ≤ f := hids _ hmem
      rw [overrideLoop, if_pos (by
        simp only [GPConstSubtreeIter.Count]; rw [hl.1]; exact_mod_cast hiL),
        hl.getNode hiL, hLi]
      dsimp only
      rw [hnd]
      dsimp only
      rw [hf0, hdrop]
      by_cases hex : f < (fl.m_nFuncs : Int)
      · have hlt : f < ((GP_MAX_FUNCTIONS * 2 : Nat) : Int) := by
          have := hwf.1
          omega
        obtain ⟨d, hget⟩ : ∃ d, fl.GetFunctionByID f = some d := by
          unfold GPFunctionLookup.GetFunctionByID
          rw [if_pos ⟨hf00, hlt⟩]
          exact ⟨_, rfl⟩
        have hpar := overrideParams_spec hwf hru hnd d
          (fun hn => hids _ (Subtree.child_mem_subtrees hmem (Or.inl rfl) hn))
          (fun hn => hids _ (Subtree.child_mem_subtrees hmem (Or.inr (Or.inl rfl)) hn))
          (fun hn => hids _ (Subtree.child_mem_subtrees hmem (Or.inr (Or.inr rfl)) hn))
        have hfe : fl.FunctionIDExists f = true := by
          simp [GPFunctionLookup.FunctionIDExists, hex]
        rw [hfe, hget]
        dsimp only
        rw [hpar]
        by_cases hch : childFits fl d 0 c0 ∧ childFits fl d 1 c1 ∧ childFits fl d 2 c2
        · have hnf : nodeFits fl (.node a f c0 c1 c2) := ⟨hex, by rw [hget]; exact hch⟩
          rw [decide_eq_true hch]
          simp only [Bool.not_true, Bool.false_eq_true, if_false]
          rw [ih (i + 1) (by omega) (by omega)]
          congr 1
          simp only [List.mem_cons, forall_eq_or_imp, hnf, true_and]
        · have hnf : ¬ nodeFits fl (.node a f c0 c1 c2) := by
            intro hc
            have := hc.2
            rw [hget] at this
            exact hch this
          rw [decide_eq_false hch]
          simp only [Bool.not_true, Bool.false_eq_true, if_false]
          congr 1
          simp only [List.mem_cons, forall_eq_or_imp, hnf, false_and, decide_False]
      · have hnf : ¬ nodeFits fl (.node a f c0 c1 c2) := fun hc => hex hc.1
        have hfe : fl.FunctionIDExists f = false := by
          simp [GPFunctionLookup.FunctionIDExists, hex]
        rw [hfe]
        simp only [Bool.not_false, if_true]
        congr 1
        simp only [List.mem_cons, forall_eq_or_imp, hnf, false_and, decide_False]
    · have hiE : i = t.levelOrderT.length := by omega
      rw [overrideLoop, if_neg (by
        simp only [GPConstSubtreeIter.Count]; rw [hl.1]
        intro hc
        have : i < t.levelOrder.length := by exact_mod_cast hc
        omega)]
      rw [List.drop_of_length_le (by omega)]
      simp

/-- A well-formed tree passes the test of `OverrideIndividual` at every node. -/
theorem nodeFits_of_wellTyped {fl : GPFunctionLookup} : ∀ {t : Subtree} {ty : Int},
    WellTyped fl ty t → ∀ u ∈ t.subtrees, nodeFits fl u := by
  intro t
  induction t with
  | null => intro _ _ u hu; simp [Subtree.subtrees] at hu
  | node a f c0 c1 c2 ih0 ih1 ih2 =>
    intro ty hwt u hu
    obtain ⟨d, hd, h0, h1, hr, h3, w0, w1, w2⟩ := WellTyped.node_iff.mp hwt
    have child : ∀ (c : Subtree) (j : Nat),
        (if j < d.m_nparams then WellTyped fl (d.paramType j) c else c = .null) →
        childFits fl d j c := by
      intro c j hw
      unfold childFits
      by_cases hj : j < d.m_nparams
      · rw [if_pos hj] at hw ⊢
        cases c with
        | null => exact absurd hw id
        | node b g d0 d1 d2 =>
          obtain ⟨dg, hdg, _, hg1, hgr, _⟩ := WellTyped.node_iff.mp hw
          refine ⟨rfl, hg1, ?_⟩
          simp only [Subtree.fid, hdg, Option.map_some', hgr]
      · rw [if_neg hj] at hw ⊢
        exact hw
    have sub : ∀ (c : Subtree) (j : Nat),
        (if j < d.m_nparams then WellTyped fl (d.paramType j) c else c = .null) →
        (∀ {ty : Int}, WellTyped fl ty c → ∀ u ∈ c.subtrees, nodeFits fl u) →
        ∀ u ∈ c.subtrees, nodeFits fl u := by
      intro c j hw ih u hu
      by_cases hj : j < d.m_nparams
      · rw [if_pos hj] at hw
        exact ih hw u hu
      · rw [if_neg hj] at hw
        rw [hw] at hu
        simp [Subtree.subtrees] at hu
    simp only [Subtree.subtrees, List.mem_cons, List.mem_append] at hu
    rcases hu with rfl | (hu | hu) | hu
    · refine ⟨h1, ?_⟩
      rw [hd]
      exact ⟨child c0 0 w0, child c1 1 w1, child c2 2 w2⟩
    · exact sub c0 0 w0 ih0 u hu
    · exact sub c1 1 w1 ih1 u hu
    · exact sub c2 2 w2 ih2 u hu

/-- A tree with function ids that are not negative, every node of which passes
the test of `OverrideIndividual`, is well-formed, of the return type of the
function of its root. -/
theorem wellTyped_of_nodeFits {fl : GPFunctionLookup} (hwf : fl.WF) : ∀ {t : Subtree},
    t.isNode = true → (∀ u ∈ t.subtrees, nodeFits fl u) → (∀ u ∈ t.subtrees, 0 ≤ u.fid) →
    ∃ d, fl.GetFunctionByID t.fid = some d ∧ WellTyped fl d.m_return_type t := by
  intro t
  induction t with
  | null => intro hn; cases hn
  | node a f c0 c1 c2 ih0 ih1 ih2 =>
    intro _ hfit hids
    have hself : Subtree.node a f c0 c1 c2 ∈ (Subtree.node a f c0 c1 c2).subtrees :=
      Subtree.self_mem_subtrees rfl
    obtain ⟨hex, hslots⟩ := hfit _ hself
    have hf0 : 0 ≤ f := hids _ hself
    cases hd : fl.GetFunctionByID f with
    | none => rw [hd] at hslots; exact absurd hslots id
    | some d =>
      rw [hd] at hslots
      obtain ⟨f0, f1, f2⟩ := hslots
      have hdmem : d ∈ fl.m_functions := by
        have hlt : f.toNat < fl.m_nFuncs := by omega
        have e : fl.GetFunctionByID f = some (fl.descAt f.toNat) := by
          have := GetFunctionByID_nat fl (lt_of_lt_of_le hlt hwf.1)
          rwa [Int.toNat_of_nonneg hf0] at this
        rw [e] at hd
        rw [← Option.some.inj hd]
        exact descAt_mem hlt
      have child : ∀ (c : Subtree) (j : Nat), (c = c0 ∨ c = c1 ∨ c = c2) → childFits fl d j c →
          (c.isNode = true → (∀ u ∈ c.subtrees, nodeFits fl u) → (∀ u ∈ c.subtrees, 0 ≤ u.fid) →
            ∃ d, fl.GetFunctionByID c.fid = some d ∧ WellTyped fl d.m_return_type c) →
          (if j < d.m_nparams then WellTyped fl (d.paramType j) c else c = .null) := by
        intro c j hc hcf ih
        unfold childFits at hcf
        by_cases hj : j < d.m_nparams
        · rw [if_pos hj] at hcf ⊢
          obtain ⟨hn, _, hret⟩ := hcf
          have hcm := Subtree.child_mem_subtrees hself hc hn
          obtain ⟨dc, hdc, hwc⟩ := ih hn
            (fun u hu => hfit u (Subtree.mem_subtrees_trans hu hcm))
            (fun u hu => hids u (Subtree.mem_subtrees_trans hu hcm))
          rw [hdc] at hret
          simp only [Option.map_some', Option.some.injEq] at hret
          rw [← hret]
          exact hwc
        · rw [if_neg hj] at hcf ⊢
          exact hcf
      refine ⟨d, hd, WellTyped.node_iff.mpr ⟨d, hd, hf0, hex, rfl, hwf.2 d hdmem,
        child c0 0 (Or.inl rfl) f0 ih0, child c1 1 (Or.inr (Or.inl rfl)) f1 ih1,
        child c2 2 (Or.inr (Or.inr rfl)) f2 ih2⟩⟩

/-- `OverrideIndividual` for an index of the population and a tree object that
owns a tree with function ids that are not negative: it returns, and it returns
true exactly when the tree is well-formed for the registry (every function id is
registered, exactly the parameter slots below the arity hold a child, and every
child returns the type of its parameter). -/
theorem OverrideIndividual_spec (env : GPEnvironment) (hwf : env.toGPFunctionLookup.WF)
    {h : Heap} {T : GPTree} {t : Subtree} (hinv : TreeInv h T t) (hne : t.isNode = true)
    (hids : ∀ u ∈ t.subtrees, 0 ≤ u.fid) {idx : Int} (h0 : 0 ≤ idx)
    (hidx : idx < env.GetPopulationSize) :
    ∃ b env1, env.OverrideIndividual h idx T = some (b, env1) ∧
      (b = true ↔ ∃ ty, WellTyped env.toGPFunctionLookup ty t) := by
  obtain ⟨a, hra⟩ : ∃ a, t.root = some a := by
    cases t with
    | null => cases hne
    | node a _ _ _ _ => exact ⟨a, rfl⟩
  have hTroot : T.m_root = some a := hinv.2.1 ▸ hra
  obtain ⟨eit, hlive⟩ := ofTree_spec hinv hTroot
  have hloop := overrideLoop_spec hwf hinv.1.1.toRepC hids hlive
    ((GPConstSubtreeIter.Count ⟨t.levelOrder.map some, T.Count⟩).toNat + 1) 0 (Nat.zero_le _) (by
      have := hlive.1
      have := t.length_levelOrderT
      simp only [GPConstSubtreeIter.Count] at *
      omega)
  rw [List.drop_zero] at hloop
  have hiff : (∀ u ∈ t.levelOrderT, nodeFits env.toGPFunctionLookup u) ↔
      ∃ ty, WellTyped env.toGPFunctionLookup ty t := by
    constructor
    · intro hall
      obtain ⟨d, _, hw⟩ := wellTyped_of_nodeFits hwf hne
        (fun u hu => hall u (t.levelOrderT_perm.symm.subset hu)) hids
      exact ⟨_, hw⟩
    · rintro ⟨ty, hw⟩ u hu
      exact nodeFits_of_wellTyped hw u (t.levelOrderT_perm.subset hu)
  unfold GPEnvironment.OverrideIndividual
  rw [if_pos hidx, eit]
  dsimp only
  rw [hloop]
  by_cases hall : ∀ u ∈ t.levelOrderT, nodeFits env.toGPFunctionLookup u
  · rw [decide_eq_true hall]
    dsimp only
    rw [if_pos h0]
    exact ⟨true, _, rfl, ⟨fun _ => hiff.mp hall, fun _ => rfl⟩⟩
  · rw [decide_eq_false hall]
    exact ⟨false, _, rfl, ⟨(fun hc => by cases hc), fun hc => absurd (hiff.mpr hc) hall⟩⟩

end GP

namespace GP

/-! ## CalculatePotentialPrunes in closed form -/

theorem nonNull_single_size (c : Subtree) :
    ((nonNull [c]).map Subtree.size).sum = c.size ∧
    ((nonNull [c]).map (fun c => (c.size : Int) - 1)).sum = ((c.size - 1 : Nat) : Int) ∧
    (c.size : Int) = ((c.size - 1 : Nat) : Int) + ((nonNull [c]).length : Int) := by
  cases c with
  | null => simp [nonNull, Subtree.isNode, Subtree.size]
  | node a f c0 c1 c2 =>
    simp only [nonNull, List.filter, Subtree.isNode, List.map, List.sum_cons, List.sum_nil,
      List.length_cons, List.length_nil, Subtree.size]
    omega

/-- The sum of the sizes minus one over the subtrees off the way is the number
`potential`, and the tree is made of the subtree of the node, the nodes above it
and the subtrees off the way. -/
theorem Subtree.potential_offPath {x : Nat} : ∀ {t : Subtree}, t.addrs.Nodup → x ∈ t.addrs →
    ((t.offPath x).map (fun c => (c.size : Int) - 1)).sum = (t.potential x : Int) ∧
    (t.size : Int) = ((t.find x).size : Int) + ((t.pathTo x).length : Int) +
      (t.potential x : Int) + ((t.offPath x).length : Int) := by
  intro t
  induction t with
  | null => intro _ hx; simp [Subtree.addrs] at hx
  | node a f c0 c1 c2 ih0 ih1 ih2 =>
    intro hn hx
    obtain ⟨n1, n2, n3, n4, n5, n6, d01, d02, d12⟩ := Subtree.nodup_node.mp hn
    by_cases hax : a = x
    · subst hax
      simp [Subtree.offPath, Subtree.potential, Subtree.find, Subtree.pathTo]
    · rw [Subtree.mem_addrs_node] at hx
      have s0 := nonNull_single_size c0
      have s1 := nonNull_single_size c1
      have s2 := nonNull_single_size c2
      rcases hx with hx | hx | hx | hx
      · exact absurd hx.symm hax
      · have hx1 : x ∉ c1.addrs := d01 x hx
        have hx2 : x ∉ c2.addrs := d02 x hx
        obtain ⟨e1, e2⟩ := ih0 n4 hx
        simp only [Subtree.offPath, Subtree.potential, Subtree.find, Subtree.pathTo, if_neg hax,
          if_pos hx, if_neg hx1, if_neg hx2, List.map_append, List.sum_append,
          List.length_append, List.length_cons, Subtree.size, Nat.cast_add]
        refine ⟨by rw [e1, s1.2.1, s2.2.1], ?_⟩
        push_cast
        omega
      · have hx0 : x ∉ c0.addrs := fun hc => d01 x hc hx
        have hx2 : x ∉ c2.addrs := d12 x hx
        obtain ⟨e1, e2⟩ := ih1 n5 hx
        simp only [Subtree.offPath, Subtree.potential, Subtree.find, Subtree.pathTo, if_neg hax,
          if_pos hx, if_neg hx0, if_neg hx2, List.map_append, List.sum_append,
          List.length_append, List.length_cons, Subtree.size, Nat.cast_add]
        refine ⟨by rw [e1, s0.2.1, s2.2.1], ?_⟩
        push_cast
        omega
      · have hx0 : x ∉ c0.addrs := fun hc => d02 x hc hx
        have hx1 : x ∉ c1.addrs := fun hc => d12 x hc hx
        obtain ⟨e1, e2⟩ := ih2 n6 hx
        simp only [Subtree.offPath, Subtree.potential, Subtree.find, Subtree.pathTo, if_neg hax,
          if_pos hx, if_neg hx0, if_neg hx1, List.map_append, List.sum_append,
          List.length_append, List.length_cons, Subtree.size, Nat.cast_add]
        refine ⟨by rw [e1, s0.2.1, s1.2.1], ?_⟩
        push_cast
        omega

/-- A subtree off the way to `x` is not null and does not hold `x`. -/
theorem Subtree.mem_offPath {x : Nat} : ∀ {t : Subtree} {c : Subtree}, c ∈ t.offPath x →
    c.isNode = true ∧ x ∉ c.addrs ∧ ∀ z ∈ c.addrs, z ∈ t.addrs := by
  intro t
  induction t with
  | null => intro c hc; simp [Subtree.offPath] at hc
  | node a f c0 c1 c2 ih0 ih1 ih2 =>
    intro c hc
    have one : ∀ (d : Subtree), (∀ {c : Subtree}, c ∈ d.offPath x →
          c.isNode = true ∧ x ∉ c.addrs ∧ ∀ z ∈ c.addrs, z ∈ d.addrs) →
        c ∈ (if x ∈ d.addrs then d.offPath x else nonNull [d]) →
        c.isNode = true ∧ x ∉ c.addrs ∧ ∀ z ∈ c.addrs, z ∈ d.addrs := by
      intro d ih hd
      by_cases hxd : x ∈ d.addrs
      · rw [if_pos hxd] at hd
        exact ih hd
      · rw [if_neg hxd] at hd
        simp only [nonNull, List.mem_filter, List.mem_singleton] at hd
        obtain ⟨rfl, hnode⟩ := hd
        exact ⟨hnode, hxd, fun z hz => hz⟩
    unfold Subtree.offPath at hc
    by_cases hax : a = x
    · rw [if_pos hax] at hc
      simp at hc
    · rw [if_neg hax] at hc
      simp only [List.mem_append] at hc
      rcases hc with (hc | hc) | hc
      · obtain ⟨p1, p2, p3⟩ := one c0 ih0 hc
        exact ⟨p1, p2, fun z hz => Subtree.mem_addrs_node.mpr (Or.inr (Or.inl (p3 z hz)))⟩
      · obtain ⟨p1, p2, p3⟩ := one c1 ih1 hc
        exact ⟨p1, p2, fun z hz => Subtree.mem_addrs_node.mpr (Or.inr (Or.inr (Or.inl (p3 z hz))))⟩
      · obtain ⟨p1, p2, p3⟩ := one c2 ih2 hc
        exact ⟨p1, p2, fun z hz => Subtree.mem_addrs_node.mpr (Or.inr (Or.inr (Or.inr (p3 z hz))))⟩

/-- C38: for a node `x` of the tree `t` that the tree object `T` owns,
`CalculatePotentialPrunes( x )` returns the size of the subtree of `x` plus the sum
of (size - 1) over the subtrees that hang off the way from the root to `x` (the
child subtrees of the nodes above `x` that do not lead to `x`); this is the size
of the whole tree minus the number of nodes above `x` minus the number of those
subtrees; it is at most `Count()`, and it is `Count()` for the root. -/
theorem CalculatePotentialPrunes_closed_form (h : Heap) (T : GPTree) (t : Subtree) (x : Nat)
    (hinv : TreeInv h T t) (hx : x ∈ t.addrs) :
    ∃ v : Int, CalculatePotentialPrunes h x = some v ∧
      CountSubtree h x = some (t.find x).size ∧
      v = t.potentialPrunes x ∧
      v = (t.size : Int) - ((t.pathTo x).length : Int) - ((t.offPath x).length : Int) ∧
      (∀ c ∈ t.offPath x, c.isNode = true ∧ x ∉ c.addrs ∧ ∀ z ∈ c.addrs, z ∈ t.addrs) ∧
      v ≤ T.Count ∧ (T.Root = some x → v = T.Count) := by
  obtain ⟨e1, e2⟩ := Subtree.potential_offPath hinv.1.2 hx
  refine ⟨_, CalculatePotentialPrunes_spec hinv.1 hx, CountSubtree_find hinv.1 hx, ?_, ?_,
    fun c hc => Subtree.mem_offPath hc, ?_, ?_⟩
  · unfold Subtree.potentialPrunes
    rw [e1]
  · omega
  · simp only [GPTree.Count]
    rw [hinv.2.2.1]
    omega
  · intro hroot
    simp only [GPTree.Count, GPTree.Root] at hroot ⊢
    rw [hinv.2.2.1]
    have hr : t.root = some x := by rw [hinv.2.1]; exact hroot
    cases t with
    | null => simp [Subtree.root] at hr
    | node a f c0 c1 c2 =>
      simp only [Subtree.root, Option.some.injEq] at hr
      subst hr
      simp [Subtree.find, Subtree.potential]

theorem CalculatePotentialPrunes_closed_form_witness :
    TreeInv exHeap7 exGPTree7 exTree7 ∧ 3 ∈ exTree7.addrs ∧
    ∃ v : Int, CalculatePotentialPrunes exHeap7 3 = some v ∧
      CountSubtree exHeap7 3 = some (exTree7.find 3).size ∧
      v = exTree7.potentialPrunes 3 ∧
      v = (exTree7.size : Int) - ((exTree7.pathTo 3).length : Int) -
        ((exTree7.offPath 3).length : Int) ∧
      (∀ c ∈ exTree7.offPath 3,
        c.isNode = true ∧ 3 ∉ c.addrs ∧ ∀ z ∈ c.addrs, z ∈ exTree7.addrs) ∧
      v ≤ exGPTree7.Count ∧ (exGPTree7.Root = some 3 → v = exGPTree7.Count) :=
  ⟨by decide, by decide,
    CalculatePotentialPrunes_closed_form exHeap7 exGPTree7 exTree7 3 (by decide) (by decide)⟩

end GP

namespace GP

/-! ## CrossOver: the assertions, and the case without a selection -/

/-- What `CrossOver` returns is decided by the selection: without a selected pair
it returns false and hands back what it was given, and only then. -/
theorem CrossOver_of_select {fl : GPFunctionLookup} {h : Heap} {A B : GPTree} {rnd : Nat → Nat}
    {pos : Nat} {res : Option CrossSelection} {pos0 : Nat}
    (esel : crossSelect fl h A B rnd pos = some (res, pos0)) :
    (res = none → CrossOver fl h A B rnd pos = some (false, A, B, h, pos0)) ∧
    (∀ (b : Bool) (A1 B1 : GPTree) (h1 : Heap) (pos1 : Nat),
      CrossOver fl h A B rnd pos = some (b, A1, B1, h1, pos1) →
      (b = false ↔ res = none) ∧
      (b = false → A1 = A ∧ B1 = B ∧ h1 = h ∧ pos1 = pos0)) := by
  refine ⟨fun hres => ?_, fun b A1 B1 h1 pos1 e => ?_⟩
  · subst hres
    unfold CrossOver
    rw [esel]
  · unfold CrossOver at e
    rw [esel] at e
    cases res with
    | none =>
      simp only [Option.some.injEq, Prod.mk.injEq] at e
      obtain ⟨rfl, rfl, rfl, rfl, rfl⟩ := e
      exact ⟨⟨fun _ => rfl, fun _ => rfl⟩, fun _ => ⟨rfl, rfl, rfl, rfl⟩⟩
    | some sel =>
      dsimp only at e
      split at e
      · exact absurd e (by simp)
      · split at e
        · exact absurd e (by simp)
        · simp only [Option.some.injEq, Prod.mk.injEq] at e
          have hb : b = true := e.1.symm
          subst hb
          exact ⟨⟨(fun hc => by cases hc), (fun hc => by cases hc)⟩, (fun hc => by cases hc)⟩

/-- C40: `CrossOver` on two tree objects that own well-formed trees, for any
random draws: the selection loops return; when they end without a selected pair
`CrossOver` returns false; and whenever `CrossOver` returns false no pair was
selected, the two tree objects (budget, `Count`, root) and the whole heap are
exactly as before the call, so both objects still own the same trees with the
same nodes, links and function ids: nothing is pruned or exchanged unless a pair
has been accepted. -/
theorem CrossOver_all_or_nothing (fl : GPFunctionLookup) (rtA rtB : Int) (h : Heap)
    (A B : GPTree) (tA tB : Subtree) (rnd : Nat → Nat) (pos : Nat)
    (hA : TreeInv h A tA) (wA : WellTyped fl rtA tA) (hB : TreeInv h B tB)
    (wB : WellTyped fl rtB tB) :
    ∃ (res : Option CrossSelection) (pos0 : Nat),
      crossSelect fl h A B rnd pos = some (res, pos0) ∧
      (res = none → CrossOver fl h A B rnd pos = some (false, A, B, h, pos0)) ∧
      (∀ (A1 B1 : GPTree) (h1 : Heap) (pos1 : Nat),
        CrossOver fl h A B rnd pos = some (false, A1, B1, h1, pos1) →
        res = none ∧ A1 = A ∧ B1 = B ∧ h1 = h ∧ pos1 = pos0 ∧
        TreeInv h1 A1 tA ∧ TreeInv h1 B1 tB ∧ A1.Count = A.Count ∧ B1.Count = B.Count ∧
        A1.Flatten h1 = A.Flatten h ∧ B1.Flatten h1 = B.Flatten h) := by
  obtain ⟨res, pos0, esel, _, _⟩ := crossSelect_spec hA wA hB wB rnd pos
  obtain ⟨hnone, hall⟩ := CrossOver_of_select esel
  refine ⟨res, pos0, esel, hnone, fun A1 B1 h1 pos1 e => ?_⟩
  obtain ⟨hiff, hsame⟩ := hall false A1 B1 h1 pos1 e
  obtain ⟨rfl, rfl, rfl, rfl⟩ := hsame rfl
  exact ⟨hiff.mp rfl, rfl, rfl, rfl, rfl, hA, hB, rfl, rfl, rfl, rfl⟩

theorem CrossOver_all_or_nothing_witness :
    TreeInv crossHeap crossSource crossSourceTree ∧ WellTyped crossRegistry 1 crossSourceTree ∧
    TreeInv crossHeap crossTarget crossTargetTree ∧ WellTyped crossRegistry 1 crossTargetTree ∧
    ∃ (res : Option CrossSelection) (pos0 : Nat),
      crossSelect crossRegistry crossHeap crossSource crossTarget (fun n => n) 0 =
        some (res, pos0) ∧
      (res = none → CrossOver crossRegistry crossHeap crossSource crossTarget (fun n => n) 0 =
        some (false, crossSource, crossTarget, crossHeap, pos0)) ∧
      (∀ (A1 B1 : GPTree) (h1 : Heap) (pos1 : Nat),
        CrossOver crossRegistry crossHeap crossSource crossTarget (fun n => n) 0 =
          some (false, A1, B1, h1, pos1) →
        res = none ∧ A1 = crossSource ∧ B1 = crossTarget ∧ h1 = crossHeap ∧ pos1 = pos0 ∧
        TreeInv h1 A1 crossSourceTree ∧ TreeInv h1 B1 crossTargetTree ∧
        A1.Count = crossSource.Count ∧ B1.Count = crossTarget.Count ∧
        A1.Flatten h1 = crossSource.Flatten crossHeap ∧
        B1.Flatten h1 = crossTarget.Flatten crossHeap) :=
  ⟨by decide, by decide, by decide, by decide,
    CrossOver_all_or_nothing crossRegistry 1 1 crossHeap crossSource crossTarget
      crossSourceTree crossTargetTree (fun n => n) 0 (by decide) (by decide) (by decide)
      (by decide)⟩

/-- The two duplications and the two replacements behind a successful
`crossSwap`. -/
theorem crossSwap_calls {h : Heap} {A B A1 B1 : GPTree} {sel : CrossSelection} {h1 : Heap}
    (e : crossSwap h A B sel = some (A1, B1, h1)) :
    ∃ (hd1 : Heap) (duplicate_src_subtree : Nat) (hd2 : Heap) (duplicate_target_subtree : Nat)
        (h3 : Heap),
      Duplicate h sel.selected_src_node = some (hd1, duplicate_src_subtree) ∧
      Duplicate hd1 sel.selected_target_node = some (hd2, duplicate_target_subtree) ∧
      A.Replace hd2 (some sel.selected_src_node) duplicate_target_subtree =
        some (some sel.selected_src_node, A1, h3) ∧
      B.Replace h3 (some sel.selected_target_node) duplicate_src_subtree =
        some (some sel.selected_target_node, B1, h1) := by
  unfold crossSwap at e
  split at e
  · exact absurd e (by simp)
  · rename_i hd1 dS e1
    split at e
    · exact absurd e (by simp)
    · rename_i hd2 dT e2
      split at e
      · exact absurd e (by simp)
      · rename_i l1 A' h3 e3
        split at e
        · rename_i hl1
          split at e
          · exact absurd e (by simp)
          · rename_i l2 B' h4 e4
            split at e
            · rename_i hl2
              simp only [Option.some.injEq, Prod.mk.injEq] at e
              obtain ⟨rfl, rfl, rfl⟩ := e
              subst hl1 hl2
              exact ⟨hd1, dS, hd2, dT, h3, e1, e2, e3, e4⟩
            · exact absurd e (by simp)
        · exact absurd e (by simp)

/-- C36: `CrossOver` on two tree objects that own well-formed trees within
budget in different cells of the heap, with a registry that keeps the leaf
contract, for any random draws: the call returns, so no assertion fails; and
once the selection loops have accepted a pair, the deficit of each side is at
most the number of nodes off the way to the selected node (the part of
`CalculatePotentialPrunes` beyond the subtree itself), the guarded call of
`Prune` on each side returns a number that is at least the deficit and leaves the
selected subtree as it was, both duplications succeed, and both calls of
`Replace` return the selected source node and the selected target node. -/
theorem CrossOver_assertions_hold (fl : GPFunctionLookup) (rtA rtB : Int) (h : Heap)
    (A B : GPTree) (tA tB : Subtree) (rnd : Nat → Nat) (pos : Nat) (hwf : fl.WF)
    (leafA : LeafContract fl rtA) (leafB : LeafContract fl rtB) (hA : TreeInv h A tA)
    (wA : WellTyped fl rtA tA) (hB : TreeInv h B tB) (wB : WellTyped fl rtB tB)
    (hdisj : ∀ z ∈ tA.addrs, z ∉ tB.addrs) :
    ∃ (b : Bool) (A1 B1 : GPTree) (h1 : Heap) (pos1 : Nat),
      CrossOver fl h A B rnd pos = some (b, A1, B1, h1, pos1) ∧
      ∀ (sel : CrossSelection) (pos0 : Nat),
        crossSelect fl h A B rnd pos = some (some sel, pos0) →
        b = true ∧ sel.selected_src_node ∈ tA.addrs ∧ sel.selected_target_node ∈ tB.addrs ∧
        sel.src_nodes_to_prune ≤ (tA.potential sel.selected_src_node : Int) ∧
        sel.target_nodes_to_prune ≤ (tB.potential sel.selected_target_node : Int) ∧
        ∃ (n_pruned_src n_pruned_target : Int) (sourceTree1 targetTree1 : GPTree)
            (hmid hpruned : Heap) (posmid : Nat) (tA1 tB1 : Subtree),
          pruneAsserted fl h A sel.src_nodes_to_prune sel.selected_src_node rnd pos0 =
            some (n_pruned_src, sourceTree1, hmid, posmid) ∧
          pruneAsserted fl hmid B sel.target_nodes_to_prune sel.selected_target_node rnd
            posmid = some (n_pruned_target, targetTree1, hpruned, pos1) ∧
          (0 < sel.src_nodes_to_prune →
            Prune fl h A sel.src_nodes_to_prune (some sel.selected_src_node) rnd pos0 =
              some (n_pruned_src, sourceTree1, hmid, posmid)) ∧
          (0 < sel.target_nodes_to_prune →
            Prune fl hmid B sel.target_nodes_to_prune (some sel.selected_target_node) rnd
              posmid = some (n_pruned_target, targetTree1, hpruned, pos1)) ∧
          sel.src_nodes_to_prune ≤ n_pruned_src ∧
          sel.target_nodes_to_prune ≤ n_pruned_target ∧
          TreeInv hpruned sourceTree1 tA1 ∧ TreeInv hpruned targetTree1 tB1 ∧
          tA1.find sel.selected_src_node = tA.find sel.selected_src_node ∧
          tB1.find sel.selected_target_node = tB.find sel.selected_target_node ∧
          ∃ (hd1 : Heap) (duplicate_src_subtree : Nat) (hd2 : Heap)
              (duplicate_target_subtree : Nat) (h3 : Heap),
            Duplicate hpruned sel.selected_src_node = some (hd1, duplicate_src_subtree) ∧
            Duplicate hd1 sel.selected_target_node = some (hd2, duplicate_target_subtree) ∧
            sourceTree1.Replace hd2 (some sel.selected_src_node) duplicate_target_subtree =
              some (some sel.selected_src_node, A1, h3) ∧
            targetTree1.Replace h3 (some sel.selected_target_node) duplicate_src_subtree =
              some (some sel.selected_target_node, B1, h1) := by
  obtain ⟨b, A1, B1, h1, pos1, e, _, htrue⟩ :=
    CrossOver_spec hwf leafA leafB hA wA hB wB hdisj rnd pos
  refine ⟨b, A1, B1, h1, pos1, e, fun sel pos0 esel => ?_⟩
  have hb : b = true := by
    obtain ⟨hiff, _⟩ := (CrossOver_of_select esel).2 b A1 B1 h1 pos1 e
    cases b with
    | true => rfl
    | false => exact absurd (hiff.mp rfl) (by simp)
  obtain ⟨sel', pos0', hmid, posmid, p, tA1, tB1, acc⟩ := htrue hb
  have hsel := acc.select
  rw [esel] at hsel
  simp only [Option.some.injEq, Prod.mk.injEq] at hsel
  obtain ⟨rfl, rfl⟩ := hsel
  obtain ⟨_, hfit1, hfit2⟩ :=
    (Compatible_iff hA wA hB acc.src_mem acc.target_mem).mp acc.compatible
  have hpos : p.pos = pos1 := by
    have e2 := e
    unfold CrossOver at e2
    rw [esel] at e2
    dsimp only at e2
    have ecp : crossPrune fl h A B sel rnd pos0 = some p := by
      unfold crossPrune
      rw [acc.pruneA]
      dsimp only
      rw [acc.pruneB]
    rw [ecp] at e2
    dsimp only at e2
    rw [acc.swap] at e2
    simp only [Option.some.injEq, Prod.mk.injEq] at e2
    exact e2.2.2.2.2
  have hdA := acc.src_deficit
  have hdB := acc.target_deficit
  refine ⟨hb, acc.src_mem, acc.target_mem, by omega, by omega, p.n_pruned_src,
    p.n_pruned_target, p.sourceTree, p.targetTree, hmid, p.heap, posmid, tA1, tB1, acc.pruneA,
    ?_, acc.calledA, ?_, acc.enoughA, acc.enoughB, acc.invA1, acc.invB1, acc.keepA, acc.keepB,
    crossSwap_calls acc.swap⟩
  · rw [← hpos]; exact acc.pruneB
  · rw [← hpos]; exact acc.calledB

theorem CrossOver_assertions_hold_witness :
    ∃ (b : Bool) (A1 B1 : GPTree) (h1 : Heap) (pos1 : Nat),
      CrossOver exampleRegistry pruneHeap pruneSource pruneTarget pruneDraws 0 = some (b, A1, B1, h1, pos1) ∧
      ∀ (sel : CrossSelection) (pos0 : Nat),
        crossSelect exampleRegistry pruneHeap pruneSource pruneTarget pruneDraws 0 = some (some sel, pos0) →
        b = true ∧ sel.selected_src_node ∈ (addTree 0).addrs ∧ sel.selected_target_node ∈ (addTree 5).addrs ∧
        sel.src_nodes_to_prune ≤ ((addTree 0).potential sel.selected_src_node : Int) ∧
        sel.target_nodes_to_prune ≤ ((addTree 5).potential sel.selected_target_node : Int) ∧
        ∃ (n_pruned_src n_pruned_target : Int) (sourceTree1 targetTree1 : GPTree)
            (hmid hpruned : Heap) (posmid : Nat) (tA1 tB1 : Subtree),
          pruneAsserted exampleRegistry pruneHeap pruneSource sel.src_nodes_to_prune sel.selected_src_node pruneDraws pos0 =
            some (n_pruned_src, sourceTree1, hmid, posmid) ∧
          pruneAsserted exampleRegistry hmid pruneTarget sel.target_nodes_to_prune sel.selected_target_node pruneDraws
            posmid = some (n_pruned_target, targetTree1, hpruned, pos1) ∧
          (0 < sel.src_nodes_to_prune →
            Prune exampleRegistry pruneHeap pruneSource sel.src_nodes_to_prune (some sel.selected_src_node) pruneDraws pos0 =
              some (n_pruned_src, sourceTree1, hmid, posmid)) ∧
          (0 < sel.target_nodes_to_prune →
            Prune exampleRegistry hmid pruneTarget sel.target_nodes_to_prune (some sel.selected_target_node) pruneDraws
              posmid = some (n_pruned_target, targetTree1, hpruned, pos1)) ∧
          sel.src_nodes_to_prune ≤ n_pruned_src ∧
          sel.target_nodes_to_prune ≤ n_pruned_target ∧
          TreeInv hpruned sourceTree1 tA1 ∧ TreeInv hpruned targetTree1 tB1 ∧
          tA1.find sel.selected_src_node = (addTree 0).find sel.selected_src_node ∧
          tB1.find sel.selected_target_node = (addTree 5).find sel.selected_target_node ∧
          ∃ (hd1 : Heap) (duplicate_src_subtree : Nat) (hd2 : Heap)
              (duplicate_target_subtree : Nat) (h3 : Heap),
            Duplicate hpruned sel.selected_src_node = some (hd1, duplicate_src_subtree) ∧
            Duplicate hd1 sel.selected_target_node = some (hd2, duplicate_target_subtree) ∧
            sourceTree1.Replace hd2 (some sel.selected_src_node) duplicate_target_subtree =
              some (some sel.selected_src_node, A1, h3) ∧
            targetTree1.Replace h3 (some sel.selected_target_node) duplicate_src_subtree =
              some (some sel.selected_target_node, B1, h1) :=
  CrossOver_assertions_hold exampleRegistry 1 1 pruneHeap pruneSource pruneTarget
    (addTree 0) (addTree 5) pruneDraws 0 (by decide)
    (LeafClosed.contract (S := [1]) (by decide))
    (LeafClosed.contract (S := [1]) (by decide)) (by decide) (by decide) (by decide)
    (by decide) (by decide)

end GP

namespace GP

/-! ## The rounds of MutateAndCrossover, one by one -/

theorem fitnessAt_setTree (pop : List Individual) (j k : Nat) (T : GPTree) :
    fitnessAt (setTree pop k T) j = fitnessAt pop j := by
  by_cases hjk : j = k
  · subst hjk
    simp only [fitnessAt, setTree, List.getElem?_modify_eq]
    cases pop[j]? <;> rfl
  · simp only [fitnessAt, getElem?_setTree_ne pop T hjk]

theorem fitnessAt_setFitness_ne (pop : List Individual) {j k : Nat} (f : Int) (hjk : j ≠ k) :
    fitnessAt (setFitness pop k f) j = fitnessAt pop j := by
  simp only [fitnessAt, getElem?_setFitness_ne pop f hjk]

/-- The calls behind a round of the loop of `MutateAndCrossover` that returns. -/
theorem breedStep_calls {env : GPEnvironment} {R : List Nat} {rnd : Nat → Nat} {i : Nat}
    {s s1 : BreedState} (e : breedStep env R rnd i s = some s1) :
    ∃ (current_index : Nat) (current_action : ActionInfo) (partner_index : Nat)
        (population1 : List Individual) (h1 : Heap) (pos1 : Nat),
      s.ranked_by_fitness[0]? = some current_index ∧
      actions[min i (n_actions - 1)]? = some current_action ∧
      breedPartner env.m_population_size s.ranked_by_fitness R current_action =
        some partner_index ∧
      current_index < env.m_population_size ∧ partner_index < env.m_population_size ∧
      breedAction env s.m_population s.heap rnd s.pos current_index partner_index
        current_action.m_action = some (population1, h1, pos1) ∧
      breedMutate env population1 h1 rnd pos1 current_index current_action.m_mutate =
        some (s1.m_population, s1.heap, s1.pos) := by
  unfold breedStep at e
  split at e
  · exact absurd e (by simp)
  · rename_i c ec
    dsimp only at e
    split at e
    · exact absurd e (by simp)
    · rename_i a ea
      split at e
      · exact absurd e (by simp)
      · rename_i q eq
        split at e
        · rename_i hlt
          split at e
          · exact absurd e (by simp)
          · rename_i pop1 h1 pos1 eact
            split at e
            · exact absurd e (by simp)
            · rename_i pop2 h2 pos2 emut
              split at e
              · split at e
                · exact absurd e (by simp)
                · simp only [Option.some.injEq] at e
                  subst e
                  exact ⟨c, a, q, pop1, h1, pos1, ec, ea, eq, hlt.1, hlt.2, eact, emut⟩
              · exact absurd e (by simp)
        · exact absurd e (by simp)

/-- The second `switch` writes the cached fitness of the current individual
only. -/
theorem breedAction_fitness {env : GPEnvironment} {pop pop1 : List Individual} {h h1 : Heap}
    {rnd : Nat → Nat} {pos pos1 c q : Nat} {action : BREED_ACTION}
    (e : breedAction env pop h rnd pos c q action = some (pop1, h1, pos1)) :
    (∀ k, k ≠ c → fitnessAt pop1 k = fitnessAt pop k) ∧
    (action = .GP_KEEP → pop1 = pop ∧ h1 = h ∧ pos1 = pos) := by
  cases action with
  | GP_KEEP =>
    simp only [breedAction, Option.some.injEq, Prod.mk.injEq] at e
    obtain ⟨rfl, rfl, rfl⟩ := e
    exact ⟨fun _ _ => rfl, fun _ => ⟨rfl, rfl, rfl⟩⟩
  | GP_TWOWAY =>
    refine ⟨fun k _ => ?_, fun hc => by cases hc⟩
    simp only [breedAction] at e
    split at e
    · split at e
      · split at e
        · exact absurd e (by simp)
        · simp only [Option.some.injEq, Prod.mk.injEq] at e
          rw [← e.1, fitnessAt_setTree, fitnessAt_setTree]
      · exact absurd e (by simp)
    · exact absurd e (by simp)
  | GP_ONEWAY =>
    refine ⟨fun k _ => ?_, fun hc => by cases hc⟩
    simp only [breedAction] at e
    split at e
    · split at e
      · exact absurd e (by simp)
      · split at e
        · exact absurd e (by simp)
        · simp only [Option.some.injEq, Prod.mk.injEq] at e
          rw [← e.1, fitnessAt_setTree]
    · exact absurd e (by simp)
  | GP_NEW =>
    refine ⟨fun k hk => ?_, fun hc => by cases hc⟩
    simp only [breedAction] at e
    split at e
    · split at e
      · exact absurd e (by simp)
      · exact absurd e (by simp)
      · split at e
        · exact absurd e (by simp)
        · split at e
          · simp only [Option.some.injEq, Prod.mk.injEq] at e
            rw [← e.1, fitnessAt_setFitness_ne _ _ hk, fitnessAt_setTree]
          · exact absurd e (by simp)
    · exact absurd e (by simp)
  | GP_COPYOF =>
    refine ⟨fun k hk => ?_, fun hc => by cases hc⟩
    simp only [breedAction] at e
    split at e
    · split at e
      · split at e
        · exact absurd e (by simp)
        · simp only [Option.some.injEq, Prod.mk.injEq] at e
          rw [← e.1, fitnessAt_setFitness_ne _ _ hk, fitnessAt_setTree]
      · exact absurd e (by simp)
    · exact absurd e (by simp)

/-- The mutation block writes the cached fitness of the current individual
only, and nothing when the entry does not ask for a mutation. -/
theorem breedMutate_fitness {env : GPEnvironment} {pop pop1 : List Individual} {h h1 : Heap}
    {rnd : Nat → Nat} {pos pos1 c : Nat} {m_mutate : Bool}
    (e : breedMutate env pop h rnd pos c m_mutate = some (pop1, h1, pos1)) :
    (∀ k, k ≠ c → fitnessAt pop1 k = fitnessAt pop k) ∧
    (m_mutate = false → pop1 = pop ∧ h1 = h ∧ pos1 = pos) := by
  cases m_mutate with
  | false =>
    simp only [breedMutate, Bool.false_eq_true, if_false, Option.some.injEq,
      Prod.mk.injEq] at e
    obtain ⟨rfl, rfl, rfl⟩ := e
    exact ⟨fun _ _ => rfl, fun _ => ⟨rfl, rfl, rfl⟩⟩
  | true =>
    refine ⟨fun k hk => ?_, fun hc => by cases hc⟩
    simp only [breedMutate, if_true] at e
    split at e
    · exact absurd e (by simp)
    · split at e
      · exact absurd e (by simp)
      · simp only [Option.some.injEq, Prod.mk.injEq] at e
        rw [← e.1, fitnessAt_setFitness_ne _ _ hk, fitnessAt_setTree]

/-- A round of the loop of `MutateAndCrossover` writes the cached fitness of the
current individual only, and the first two rounds write nothing. -/
theorem breedStep_fitness {env : GPEnvironment} {R : List Nat} {rnd : Nat → Nat} {i : Nat}
    {s s1 : BreedState} (e : breedStep env R rnd i s = some s1) {c : Nat}
    (hc : s.ranked_by_fitness[0]? = some c) :
    (∀ k, k ≠ c → fitnessAt s1.m_population k = fitnessAt s.m_population k) ∧
    (i < 2 → s1.m_population = s.m_population ∧ s1.heap = s.heap ∧ s1.pos = s.pos) := by
  obtain ⟨c', a, q, pop1, h1, pos1, ec, ea, _, _, _, eact, emut⟩ := breedStep_calls e
  rw [hc] at ec
  obtain rfl := Option.some.inj ec
  obtain ⟨fa, ka⟩ := breedAction_fitness eact
  obtain ⟨fm, km⟩ := breedMutate_fitness emut
  refine ⟨fun k hk => (fm k hk).trans (fa k hk), fun hi => ?_⟩
  obtain ⟨a', ea', _, _, hkeep, _⟩ := actions_entry i
  rw [ea] at ea'
  obtain rfl := Option.some.inj ea'
  obtain ⟨hK, hM⟩ := hkeep hi
  obtain ⟨r1, r2, r3⟩ := ka hK
  obtain ⟨r4, r5, r6⟩ := km hM
  exact ⟨r4.trans r1, r5.trans r2, r6.trans r3⟩

/-- The value of `partner_index` in round `i`, for the ranking `R`: for an entry
with an absolute partner the individual of that rank, which is a rank below `i`
and so another individual than the one of rank `i`; 0 for an entry without
partner. -/
theorem breedPartner_spec {P : Nat} {R : List Nat} (hperm : R.Perm (List.range P)) {i : Nat}
    (hi : i < P) (ranked_by_fitness : List Nat) :
    ∃ (a : ActionInfo) (q : Nat), actions[min i (n_actions - 1)]? = some a ∧
      breedPartner P ranked_by_fitness R a = some q ∧ q < P ∧
      a.m_partner_index_relativity ≠ .GP_RELATIVE ∧
      (a.m_partner_index_relativity = .GP_NOPARTNER → q = 0) ∧
      (a.m_partner_index_relativity = .GP_ABSOLUTE →
        0 ≤ a.m_partner_index ∧ a.m_partner_index < (i : Int) ∧
        a.m_partner_index < (P : Int) ∧ R[a.m_partner_index.toNat]? = some q ∧
        R[i]? ≠ some q) ∧
      (a.m_action = .GP_TWOWAY ∨ a.m_action = .GP_ONEWAY ∨ a.m_action = .GP_COPYOF →
        a.m_partner_index_relativity = .GP_ABSOLUTE) := by
  have hRlen : R.length = P := by rw [hperm.length_eq, List.length_range]
  have hRnd : R.Nodup := hperm.nodup_iff.mpr (List.nodup_range _)
  have hRlt : ∀ j (hj : j < R.length), R[j] < P :=
    fun j hj => List.mem_range.mp (hperm.subset (List.getElem_mem hj))
  have hiR : i < R.length := by omega
  obtain ⟨a, ea, hrel, habs, _, _, _, _, hpart⟩ := actions_entry i
  cases hr : a.m_partner_index_relativity with
  | GP_RELATIVE => exact absurd hr hrel
  | GP_ABSOLUTE =>
    obtain ⟨h0, h1⟩ := habs hr
    have hp : a.m_partner_index.toNat < R.length := by omega
    refine ⟨a, R[a.m_partner_index.toNat], ea, ?_, hRlt _ hp, by simp [hr],
      (fun hc => by rw [hr] at hc; cases hc),
      (fun _ => ⟨h0, h1, by omega, List.getElem?_eq_getElem hp, ?_⟩), fun hc => hr ▸ hpart hc⟩
    · simp only [breedPartner, hr]
      rw [if_pos ⟨h0, by omega⟩, List.getElem?_eq_getElem hp]
    · rw [List.getElem?_eq_getElem hiR]
      intro e
      have := (hRnd.getElem_inj_iff).mp (Option.some.inj e)
      omega
  | GP_NOPARTNER =>
    refine ⟨a, 0, ea, ?_, by omega, by simp [hr], fun _ => rfl,
      (fun hc => by rw [hr] at hc; cases hc), fun hc => ?_⟩
    · simp only [breedPartner, hr]
    · have := hpart hc
      rw [hr] at this
      cases this

/-- The loop of `MutateAndCrossover` over the rounds `i`, ..., `i + n - 1`, which
need not be the last ones: it returns; only the individuals that these rounds
write to are written to; the array `ranked_by_fitness` holds the ranking from
rank `i + n` on afterwards; and the cached fitness of an individual that is not
the current one in any of these rounds from round 2 on is as before. -/
theorem breedLoop_prefix {env : GPEnvironment} (hwf : env.toGPFunctionLookup.WF)
    (hleaf : LeafContract env.toGPFunctionLookup env.m_return_type)
    (hmax : 1 ≤ env.m_max_tree_size) {R : List Nat}
    (hperm : R.Perm (List.range env.m_population_size)) (rnd : Nat → Nat) :
    ∀ (n i : Nat) (s : BreedState) (ts : Nat → Subtree), i + n ≤ env.m_population_size →
      PopInv env.toGPFunctionLookup env.m_return_type s.heap s.m_population ts →
      s.m_population.length = env.m_population_size →
      s.ranked_by_fitness.length = env.m_population_size →
      (∀ j, i + j < env.m_population_size → s.ranked_by_fitness[j]? = R[i + j]?) →
      s.nLeftToProcess = env.m_population_size - i →
      ∃ s1 ts1, breedLoop env R rnd n i s = some s1 ∧
        BreedFrame env.toGPFunctionLookup env.m_return_type s.heap s.m_population ts
          (writtenFrom R n i) s1.heap s1.m_population ts1 ∧
        s1.m_population.length = env.m_population_size ∧
        s1.ranked_by_fitness.length = env.m_population_size ∧
        (∀ j, i + n + j < env.m_population_size →
          s1.ranked_by_fitness[j]? = R[i + n + j]?) ∧
        s1.nLeftToProcess = env.m_population_size - (i + n) ∧
        (∀ k, (∀ j, i ≤ j → j < i + n → 2 ≤ j → R[j]? ≠ some k) →
          fitnessAt s1.m_population k = fitnessAt s.m_population k) := by
  intro n
  induction n with
  | zero =>
    intro i s ts _ hinv hlen hrl hrank hleft
    exact ⟨s, ts, rfl, BreedFrame.refl hinv _, hlen, hrl, hrank, hleft, fun _ _ => rfl⟩
  | succ n ih =>
    intro i s ts hin hinv hlen hrl hrank hleft
    obtain ⟨s1, ts1, e1, fr1, hrl1, hrank1, hleft1⟩ :=
      breedStep_spec hwf hleaf hmax hperm rnd (by omega) hinv hlen hrl hrank hleft
    obtain ⟨s2, ts2, e2, fr2, hlen2, hrl2, hrank2, hleft2, hfit2⟩ :=
      ih (i + 1) s1 ts1 (by omega) fr1.inv (fr1.len.trans hlen) hrl1 hrank1 hleft1
    have hcur : s.ranked_by_fitness[0]? = R[i]? := by rw [hrank 0 (by omega), Nat.add_zero]
    have hRlen : R.length = env.m_population_size := by
      rw [hperm.length_eq, List.length_range]
    have hiR : i < R.length := by omega
    rw [List.getElem?_eq_getElem hiR] at hcur
    obtain ⟨hf1, hk1⟩ := breedStep_fitness e1 hcur
    refine ⟨s2, ts2, ?_, fr1.compose fr2, hlen2, hrl2, ?_, ?_, fun k hk => ?_⟩
    · simp only [breedLoop, e1, e2]
    · intro j hj
      rw [hrank2 j (by omega)]
      congr 1
      omega
    · rw [hleft2]
      omega
    · rw [hfit2 k (fun j h1 h2 h3 => hk j (by omega) (by omega) h3)]
      by_cases hi2 : i < 2
      · rw [(hk1 hi2).1]
      · refine hf1 k (fun e => ?_)
        apply hk i (le_refl _) (by omega) (by omega)
        rw [List.getElem?_eq_getElem hiR, e]

end GP

namespace GP

/-! ## The breeding schedule -/

/-- The state of the loop of `MutateAndCrossover` before round `i`, for a
population in the heap: the loop gets there, the population is one of
well-formed trees in different cells, and the array `ranked_by_fitness` holds the
ranking from rank `i` on. -/
theorem breedLoop_reach {env : GPEnvironment} (hwf : env.toGPFunctionLookup.WF)
    (hleaf : LeafContract env.toGPFunctionLookup env.m_return_type)
    (hmax : 1 ≤ env.m_max_tree_size) {h : Heap} {ts : Nat → Subtree}
    (hinv : PopInv env.toGPFunctionLookup env.m_return_type h env.m_population ts)
    {R : List Nat} (hperm : R.Perm (List.range env.m_population_size)) (rnd : Nat → Nat)
    (pos : Nat) {i : Nat} (hi : i ≤ env.m_population_size) :
    ∃ s ts0, breedLoop env R rnd i 0
          ⟨env.m_population, h, pos, R, env.m_population_size⟩ = some s ∧
      BreedFrame env.toGPFunctionLookup env.m_return_type h env.m_population ts
        (writtenFrom R i 0) s.heap s.m_population ts0 ∧
      s.m_population.length = env.m_population_size ∧
      s.ranked_by_fitness.length = env.m_population_size ∧
      (∀ j, i + j < env.m_population_size → s.ranked_by_fitness[j]? = R[i + j]?) ∧
      s.nLeftToProcess = env.m_population_size - i ∧
      (∀ k, (∀ j, j < i → 2 ≤ j → R[j]? ≠ some k) →
          fitnessAt s.m_population k = fitnessAt env.m_population k) := by
  have hRlen : R.length = env.m_population_size := by rw [hperm.length_eq, List.length_range]
  obtain ⟨s, ts0, e, fr, hlen, hrl, hrank, hleft, hfit⟩ :=
    breedLoop_prefix hwf hleaf hmax hperm rnd i 0
      ⟨env.m_population, h, pos, R, env.m_population_size⟩ ts (by omega) hinv rfl hRlen
      (fun j _ => by rw [Nat.zero_add]) (Nat.sub_zero _).symm
  refine ⟨s, ts0, e, fr, hlen, hrl, fun j hj => ?_, ?_, fun k hk => ?_⟩
  · rw [hrank j (by omega), Nat.zero_add]
  · rw [hleft, Nat.zero_add]
  · exact hfit k (fun j _ h2 h3 => hk j (by omega) h3)

/-- C39: for an environment whose registry keeps the leaf contract, with a budget
of at least 1 and a population of `P` individuals that own well-formed trees in
different cells of the heap, and for any random draws: the ranking `R` is a
permutation of the indices, and for every round `i < P` of the loop of
`MutateAndCrossover` the loop reaches the round; the current individual
`ranked_by_fitness[ 0 ]` is the individual of rank `i` in the original ranking;
the entry used is `actions[ min( i, n_actions - 1 ) ]`; it is never a relative
entry; an absolute partner rank is at least 0 and below `i`, hence below `P`, and
the partner is the individual of that rank, another individual than the current
one; a crossover or copy entry has an absolute partner; `current_index` and
`partner_index` are below `P`; and the round returns, so none of its assertions
fails. -/
theorem breeding_schedule_safe (env : GPEnvironment) (h : Heap) (ts : Nat → Subtree)
    (rnd : Nat → Nat) (pos : Nat) (hwf : env.toGPFunctionLookup.WF)
    (hleaf : LeafContract env.toGPFunctionLookup env.m_return_type)
    (hmax : 1 ≤ env.m_max_tree_size)
    (hinv : PopInv env.toGPFunctionLookup env.m_return_type h env.m_population ts) :
    ∃ R : List Nat, rankPopulation env.m_population = some (R, R) ∧
      R.Perm (List.range env.m_population_size) ∧
      ∀ i, i < env.m_population_size →
        ∃ (s s1 : BreedState) (current_index : Nat) (current_action : ActionInfo)
            (partner_index : Nat),
          breedLoop env R rnd i 0
            ⟨env.m_population, h, pos, R, env.m_population_size⟩ = some s ∧
          s.ranked_by_fitness[0]? = some current_index ∧ R[i]? = some current_index ∧
          actions[min i (n_actions - 1)]? = some current_action ∧
          breedPartner env.m_population_size s.ranked_by_fitness R current_action =
            some partner_index ∧
          current_index < env.m_population_size ∧ partner_index < env.m_population_size ∧
          current_action.m_partner_index_relativity ≠ .GP_RELATIVE ∧
          (current_action.m_partner_index_relativity = .GP_ABSOLUTE →
            0 ≤ current_action.m_partner_index ∧ current_action.m_partner_index < (i : Int) ∧
            current_action.m_partner_index < (env.m_population_size : Int) ∧
            R[current_action.m_partner_index.toNat]? = some partner_index ∧
            partner_index ≠ current_index) ∧
          (current_action.m_action = .GP_TWOWAY ∨ current_action.m_action = .GP_ONEWAY ∨
              current_action.m_action = .GP_COPYOF →
            current_action.m_partner_index_relativity = .GP_ABSOLUTE) ∧
          breedStep env R rnd i s = some s1 := by
  obtain ⟨R, eR, hperm, _⟩ := rankPopulation_spec env.m_population
  refine ⟨R, eR, hperm, fun i hi => ?_⟩
  have hRlen : R.length = env.m_population_size := by rw [hperm.length_eq]; exact List.length_range _
  have hRlt : ∀ j (hj : j < R.length), R[j] < env.m_population_size :=
    fun j hj => List.mem_range.mp (hperm.subset (List.getElem_mem hj))
  have hiR : i < R.length := by omega
  obtain ⟨s, ts0, e, fr, hlen, hrl, hrank, hleft, _⟩ :=
    breedLoop_reach hwf hleaf hmax hinv hperm rnd pos (le_of_lt hi)
  obtain ⟨s1, ts1, e1, _⟩ :=
    breedStep_spec hwf hleaf hmax hperm rnd hi fr.inv hlen hrl hrank hleft
  obtain ⟨a, q, ea, eq, hq, hrel, _, habs, hpart⟩ :=
    breedPartner_spec hperm hi s.ranked_by_fitness
  have hcur : s.ranked_by_fitness[0]? = some R[i] := by
    rw [hrank 0 (by omega), Nat.add_zero, List.getElem?_eq_getElem hiR]
  refine ⟨s, s1, R[i], a, q, e, hcur, List.getElem?_eq_getElem hiR, ea, eq, hRlt i hiR, hq,
    hrel, fun hr => ?_, hpart, e1⟩
  obtain ⟨p0, p1, p2, p3, p4⟩ := habs hr
  refine ⟨p0, p1, p2, p3, fun hc => p4 ?_⟩
  rw [List.getElem?_eq_getElem hiR, hc]

theorem breeding_schedule_safe_witness :
    ∃ R : List Nat, rankPopulation breedEnvironment.m_population = some (R, R) ∧
      R.Perm (List.range breedEnvironment.m_population_size) ∧
      ∀ i, i < breedEnvironment.m_population_size →
        ∃ (s s1 : BreedState) (current_index : Nat) (current_action : ActionInfo)
            (partner_index : Nat),
          breedLoop breedEnvironment R (fun n => n) i 0
            ⟨breedEnvironment.m_population, breedHeap, 0, R,
              breedEnvironment.m_population_size⟩ = some s ∧
          s.ranked_by_fitness[0]? = some current_index ∧ R[i]? = some current_index ∧
          actions[min i (n_actions - 1)]? = some current_action ∧
          breedPartner breedEnvironment.m_population_size s.ranked_by_fitness R
            current_action = some partner_index ∧
          current_index < breedEnvironment.m_population_size ∧
          partner_index < breedEnvironment.m_population_size ∧
          current_action.m_partner_index_relativity ≠ .GP_RELATIVE ∧
          (current_action.m_partner_index_relativity = .GP_ABSOLUTE →
            0 ≤ current_action.m_partner_index ∧ current_action.m_partner_index < (i : Int) ∧
            current_action.m_partner_index < (breedEnvironment.m_population_size : Int) ∧
            R[current_action.m_partner_index.toNat]? = some partner_index ∧
            partner_index ≠ current_index) ∧
          (current_action.m_action = .GP_TWOWAY ∨ current_action.m_action = .GP_ONEWAY ∨
              current_action.m_action = .GP_COPYOF →
            current_action.m_partner_index_relativity = .GP_ABSOLUTE) ∧
          breedStep breedEnvironment R (fun n => n) i s = some s1 :=
  breeding_schedule_safe breedEnvironment breedHeap breedTrees (fun n => n) 0 (by decide)
    (LeafClosed.contract (S := [1]) (by decide)) (by decide) breedPopulation_inv

end GP

namespace GP

/-! ## One-way crossover in MutateAndCrossover -/

/-- The calls behind the case `GP_ONEWAY` of the second `switch`: the tree of the
partner is duplicated, `CrossOver` runs on the tree of the current individual and
the duplicate, and the tree object of the current individual is what is written
back. -/
theorem breedAction_oneway_calls {env : GPEnvironment} {pop pop1 : List Individual}
    {h h1 : Heap} {rnd : Nat → Nat} {pos pos1 c q : Nat}
    (e : breedAction env pop h rnd pos c q .GP_ONEWAY = some (pop1, h1, pos1)) :
    ∃ (current_tree partner_tree : GPTree) (hd : Heap) (target_copy : GPTree) (success : Bool)
        (current_tree1 target_copy1 : GPTree),
      treeAtIndex pop c = some current_tree ∧ treeAtIndex pop q = some partner_tree ∧
      partner_tree.Duplicate h = some (hd, target_copy) ∧
      CrossOver env.toGPFunctionLookup hd current_tree target_copy rnd pos =
        some (success, current_tree1, target_copy1, h1, pos1) ∧
      pop1 = setTree pop c current_tree1 := by
  simp only [breedAction] at e
  split at e
  · rename_i Tc Tq ec eq
    split at e
    · exact absurd e (by simp)
    · rename_i hd target_copy edup
      split at e
      · exact absurd e (by simp)
      · rename_i b Tc1 copy1 h2 pos2 ecross
        simp only [Option.some.injEq, Prod.mk.injEq] at e
        obtain ⟨rfl, rfl, rfl⟩ := e
        exact ⟨Tc, Tq, hd, target_copy, b, Tc1, copy1, ec, eq, edup, ecross, rfl⟩
  · exact absurd e (by simp)

/-- C32: for an environment whose registry keeps the leaf contract, with a budget
of at least 1 and a population of individuals that own well-formed trees in
different cells of the heap, for any random draws and for every round `i` of the
loop of `MutateAndCrossover` whose entry of the table is `GP_ONEWAY`: the round
is reached and returns; the partner is another individual than the current one;
`CrossOver` is called on the tree of the current individual and a duplicate of
the tree of the partner; and, whatever `CrossOver` returns, after the round
(crossover and mutation) the partner is the same individual as before, with
the same tree object and the same cached fitness, its tree object owns the same
tree, and the cells of this tree are as before.  The same holds for the
individual record of every individual but the current one. -/
theorem oneway_crossover_keeps_partner (env : GPEnvironment) (h : Heap) (ts : Nat → Subtree)
    (rnd : Nat → Nat) (pos : Nat) (hwf : env.toGPFunctionLookup.WF)
    (hleaf : LeafContract env.toGPFunctionLookup env.m_return_type)
    (hmax : 1 ≤ env.m_max_tree_size)
    (hinv : PopInv env.toGPFunctionLookup env.m_return_type h env.m_population ts)
    (i : Nat) (hi : i < env.m_population_size) (current_action : ActionInfo)
    (ea : actions[min i (n_actions - 1)]? = some current_action)
    (hone : current_action.m_action = .GP_ONEWAY) :
    ∃ (R : List Nat) (s s1 : BreedState) (ts0 : Nat → Subtree)
        (current_index partner_index : Nat) (current_tree partner_tree : GPTree) (hd : Heap)
        (target_copy : GPTree) (success : Bool) (current_tree1 target_copy1 : GPTree)
        (h2 : Heap) (pos2 : Nat),
      rankPopulation env.m_population = some (R, R) ∧
      breedLoop env R rnd i 0
        ⟨env.m_population, h, pos, R, env.m_population_size⟩ = some s ∧
      breedStep env R rnd i s = some s1 ∧
      R[i]? = some current_index ∧
      breedPartner env.m_population_size s.ranked_by_fitness R current_action =
        some partner_index ∧
      partner_index ≠ current_index ∧
      treeAtIndex s.m_population current_index = some current_tree ∧
      treeAtIndex s.m_population partner_index = some partner_tree ∧
      TreeInv s.heap partner_tree (ts0 partner_index) ∧
      partner_tree.Duplicate s.heap = some (hd, target_copy) ∧
      CrossOver env.toGPFunctionLookup hd current_tree target_copy rnd s.pos =
        some (success, current_tree1, target_copy1, h2, pos2) ∧
      s1.m_population[partner_index]? = s.m_population[partner_index]? ∧
      treeAtIndex s1.m_population partner_index = some partner_tree ∧
      fitnessAt s1.m_population partner_index = fitnessAt s.m_population partner_index ∧
      TreeInv s1.heap partner_tree (ts0 partner_index) ∧
      (∀ x ∈ (ts0 partner_index).addrs, s1.heap[x]? = s.heap[x]?) ∧
      (∀ k, k ≠ current_index → s1.m_population[k]? = s.m_population[k]?) := by
  obtain ⟨R, eR, hperm0, _⟩ := rankPopulation_spec env.m_population
  have hperm : R.Perm (List.range env.m_population_size) := hperm0
  have hRlen : R.length = env.m_population_size := by
    rw [hperm.length_eq]; exact List.length_range _
  have hiR : i < R.length := by omega
  obtain ⟨s, ts0, e, fr0, hlen, hrl, hrank, hleft, _⟩ :=
    breedLoop_reach hwf hleaf hmax hinv hperm rnd pos (le_of_lt hi)
  obtain ⟨s1, ts1, e1, fr, _⟩ :=
    breedStep_spec hwf hleaf hmax hperm rnd hi fr0.inv hlen hrl hrank hleft
  obtain ⟨a, q, ea', eq, hq, _, _, habs, hpart⟩ :=
    breedPartner_spec hperm hi s.ranked_by_fitness
  rw [ea] at ea'
  obtain rfl := Option.some.inj ea'
  obtain ⟨_, _, _, p3, p4⟩ := habs (hpart (Or.inr (Or.inl hone)))
  have hqc : q ≠ R[i] := by
    intro hc
    apply p4
    rw [List.getElem?_eq_getElem hiR, hc]
  have hcur : s.ranked_by_fitness[0]? = some R[i] := by
    rw [hrank 0 (by omega), Nat.add_zero, List.getElem?_eq_getElem hiR]
  obtain ⟨c', a', q', pop1, h1, pos1, ec, ea2, eq2, _, _, eact, emut⟩ := breedStep_calls e1
  rw [hcur] at ec
  obtain rfl := Option.some.inj ec
  rw [ea] at ea2
  obtain rfl := Option.some.inj ea2
  rw [eq] at eq2
  obtain rfl := Option.some.inj eq2
  rw [hone] at eact
  obtain ⟨Tc, Tq, hd, target_copy, b, Tc1, copy1, eTc, eTq, edup, ecross, _⟩ :=
    breedAction_oneway_calls eact
  have hW : ∀ k, k ≠ R[i] → k ∉ writtenAt R i := by
    intro k hk
    have hgi : R.getD i 0 = R[i] := List.getD_eq_getElem _ _ hiR
    simp only [writtenAt, ea, hone, hgi]
    simp [hk]
  have hql : q < s.m_population.length := by rw [hlen]; exact hq
  obtain ⟨hsame, hts⟩ := fr.same q (hW q hqc)
  obtain ⟨T0, eT0, hT0, _⟩ := fr0.inv.tree q hql
  rw [eTq] at eT0
  obtain rfl := Option.some.inj eT0
  obtain ⟨T1, eT1, hT1, _⟩ := fr.inv.tree q (by rw [fr.len]; exact hql)
  have eT1' : treeAtIndex s1.m_population q = some Tq := by
    rw [treeAtIndex_congr hsame]; exact eTq
  rw [eT1'] at eT1
  obtain rfl := Option.some.inj eT1
  rw [hts] at hT1
  exact ⟨R, s, s1, ts0, R[i], q, Tc, Tq, hd, target_copy, b, Tc1, copy1, h1, pos1, eR, e, e1,
    List.getElem?_eq_getElem hiR, eq, hqc, eTc, eTq, hT0, edup, ecross, hsame, eT1',
    fitnessAt_congr hsame, hT1, fr.cells fr0.inv hql (hW q hqc),
    fun k hk => (fr.same k (hW k hk)).1⟩

theorem oneway_crossover_keeps_partner_witness :
    ∃ (R : List Nat) (s s1 : BreedState) (ts0 : Nat → Subtree)
        (current_index partner_index : Nat) (current_tree partner_tree : GPTree) (hd : Heap)
        (target_copy : GPTree) (success : Bool) (current_tree1 target_copy1 : GPTree)
        (h2 : Heap) (pos2 : Nat),
      rankPopulation breedEnvironment.m_population = some (R, R) ∧
      breedLoop breedEnvironment R (fun n => n) 2 0
        ⟨breedEnvironment.m_population, breedHeap, 0, R,
          breedEnvironment.m_population_size⟩ = some s ∧
      breedStep breedEnvironment R (fun n => n) 2 s = some s1 ∧
      R[2]? = some current_index ∧
      breedPartner breedEnvironment.m_population_size s.ranked_by_fitness R
        ⟨.GP_ONEWAY, true, .GP_ABSOLUTE, 0⟩ = some partner_index ∧
      partner_index ≠ current_index ∧
      treeAtIndex s.m_population current_index = some current_tree ∧
      treeAtIndex s.m_population partner_index = some partner_tree ∧
      TreeInv s.heap partner_tree (ts0 partner_index) ∧
      partner_tree.Duplicate s.heap = some (hd, target_copy) ∧
      CrossOver breedEnvironment.toGPFunctionLookup hd current_tree target_copy (fun n => n)
        s.pos = some (success, current_tree1, target_copy1, h2, pos2) ∧
      s1.m_population[partner_index]? = s.m_population[partner_index]? ∧
      treeAtIndex s1.m_population partner_index = some partner_tree ∧
      fitnessAt s1.m_population partner_index = fitnessAt s.m_population partner_index ∧
      TreeInv s1.heap partner_tree (ts0 partner_index) ∧
      (∀ x ∈ (ts0 partner_index).addrs, s1.heap[x]? = s.heap[x]?) ∧
      (∀ k, k ≠ current_index → s1.m_population[k]? = s.m_population[k]?) :=
  oneway_crossover_keeps_partner breedEnvironment breedHeap breedTrees (fun n => n) 0
    (by decide) (LeafClosed.contract (S := [1]) (by decide)) (by decide) breedPopulation_inv
    2 (by decide) ⟨.GP_ONEWAY, true, .GP_ABSOLUTE, 0⟩ (by decide) rfl

end GP

namespace GP

/-! ## The first two individuals of the ranking in MutateAndCrossover -/

/-- In the first seven entries of the table a two-way crossover has the partner
of rank 2. -/
theorem actions_twoway_early : ∀ (i : Nat), i < 7 → ∀ (a : ActionInfo),
    actions[min i (n_actions - 1)]? = some a → a.m_action = .GP_TWOWAY →
    a.m_partner_index = 2 := by
  intro i hi
  interval_cases i <;> intro a ea <;>
    simp only [actions, n_actions, List.length_cons, List.length_nil] at ea <;>
    simp at ea <;> subst ea <;> simp

/-- The individual of rank 1 is not among those that one of the first seven
rounds writes to. -/
theorem second_not_writtenAt {R : List Nat} (hnd : R.Nodup) {k : Nat} (hk : R[1]? = some k)
    {i : Nat} (hi : i < R.length) (hi7 : i < 7) : k ∉ writtenAt R i := by
  obtain ⟨a, ea, _, habs, hkeep, _, hact2, hmut2, hpart⟩ := actions_entry i
  have h1 : 1 < R.length := by
    by_contra hge
    rw [List.getElem?_eq_none (Nat.le_of_not_lt hge)] at hk
    cases hk
  rw [List.getElem?_eq_getElem h1] at hk
  have hk' : R[1] = k := Option.some.inj hk
  simp only [writtenAt, ea, List.mem_append, not_or]
  constructor
  · by_cases hK : a.m_action = .GP_KEEP ∧ a.m_mutate = false
    · rw [if_pos hK]; exact List.not_mem_nil _
    · rw [if_neg hK, List.getD_eq_getElem _ _ hi, List.mem_singleton]
      intro e
      have h2 : 2 ≤ i := by
        by_cases hKK : a.m_action = .GP_KEEP
        · have hm : a.m_mutate = true := by
            cases hmm : a.m_mutate with
            | true => rfl
            | false => exact absurd ⟨hKK, hmm⟩ hK
          exact hmut2 hm
        · exact hact2 hKK
      have := (hnd.getElem_inj_iff).mp (hk'.trans e)
      omega
  · by_cases hT : a.m_action = .GP_TWOWAY
    · rw [if_pos hT]
      have hp2 := actions_twoway_early i hi7 a ea hT
      obtain ⟨_, hp1⟩ := habs (hpart (Or.inl hT))
      have hpl : a.m_partner_index.toNat < R.length := by omega
      rw [List.getD_eq_getElem _ _ hpl, List.mem_singleton]
      intro e
      have := (hnd.getElem_inj_iff).mp (hk'.trans e)
      omega
    · rw [if_neg hT]; exact List.not_mem_nil _

theorem second_not_writtenFrom {R : List Nat} (hnd : R.Nodup) {k : Nat}
    (hk : R[1]? = some k) : ∀ (n i : Nat), i + n ≤ R.length → i + n ≤ 7 →
    k ∉ writtenFrom R n i := by
  intro n
  induction n with
  | zero => intro i _ _; exact List.not_mem_nil _
  | succ n ih =>
    intro i hin h7
    simp only [writtenFrom, List.mem_append, not_or]
    exact ⟨second_not_writtenAt hnd hk (by omega) (by omega), ih (i + 1) (by omega) (by omega)⟩

/-- C31, the claim fails for a population of eight: in `keepEnvironment` (leaf
contract kept, every individual owns a one-node tree within its budget of 1, the
ranking is 0, 1, ..., 7) the individual of rank 1 owns the leaf `Two` at cell 1 and
is still unchanged after the rounds 0 .. 6, but after the call of
`MutateAndCrossover` with the draws 0, 0, ... its tree object has the root 27, a
cell that holds the leaf `Three`: round 7 is a two-way crossover with the partner
of rank 1 and has exchanged the leaf for a copy of the leaf of individual 7. -/
theorem MutateAndCrossover_changes_second :
    keepEnvironment.toGPFunctionLookup.WF ∧
      LeafClosed keepEnvironment.toGPFunctionLookup keepEnvironment.m_return_type [1] ∧
      (∀ k, k < 8 → treeAtIndex keepEnvironment.m_population k = some ⟨1, 1, some k⟩ ∧
        TreeInv keepHeap ⟨1, 1, some k⟩ (keepTrees k) ∧
        WellTyped keepEnvironment.toGPFunctionLookup 1 (keepTrees k)) ∧
      rankPopulation keepEnvironment.m_population =
        some ([0, 1, 2, 3, 4, 5, 6, 7], [0, 1, 2, 3, 4, 5, 6, 7]) ∧
      actions[min 7 (n_actions - 1)]? = some ⟨.GP_TWOWAY, true, .GP_ABSOLUTE, 1⟩ ∧
      treeAtIndex keepEnvironment.m_population 1 = some ⟨1, 1, some 1⟩ ∧
      keepHeap[1]? = some (GPTreeNode.mk0 3) ∧
      (breedLoop keepEnvironment [0, 1, 2, 3, 4, 5, 6, 7] (fun _ => 0) 7 0
        ⟨keepEnvironment.m_population, keepHeap, 0, [0, 1, 2, 3, 4, 5, 6, 7], 8⟩).map
        (fun s => (treeAtIndex s.m_population 1, s.heap[1]?)) =
        some (some ⟨1, 1, some 1⟩, some (GPTreeNode.mk0 3)) ∧
      (keepEnvironment.MutateAndCrossover keepHeap (fun _ => 0) 0).map
        (fun r => (treeAtIndex r.1.m_population 1, r.2.1[27]?,
          fitnessAt r.1.m_population 1)) =
        some (some ⟨1, 1, some 27⟩, some (GPTreeNode.mk0 5), some 7) := by
  repeat' apply And.intro
  all_goals decide

/-- C31, amended: for an environment whose registry keeps the leaf contract, with
a budget of at least 1 and a population of individuals that own well-formed
trees in different cells of the heap, and for any random draws:
`MutateAndCrossover` returns and keeps the size of the population; the
individual ranked first, and in a population of at most 7 also the individual
ranked second, is the same record as before (same tree object, same cached
fitness), its tree object owns the same tree and the cells of the tree are as
before; and the individual ranked second has the same cached fitness as before
in a population of any size. -/
theorem MutateAndCrossover_keeps_first_and_early_second (env : GPEnvironment) (h : Heap)
    (ts : Nat → Subtree) (rnd : Nat → Nat) (pos : Nat) (hwf : env.toGPFunctionLookup.WF)
    (hleaf : LeafContract env.toGPFunctionLookup env.m_return_type)
    (hmax : 1 ≤ env.m_max_tree_size)
    (hinv : PopInv env.toGPFunctionLookup env.m_return_type h env.m_population ts) :
    ∃ (env1 : GPEnvironment) (h1 : Heap) (pos1 : Nat) (R : List Nat),
      rankPopulation env.m_population = some (R, R) ∧
      env.MutateAndCrossover h rnd pos = some (env1, h1, pos1) ∧
      env1.m_population_size = env.m_population_size ∧
      (∀ k, (R[0]? = some k ∨ (R[1]? = some k ∧ env.m_population_size ≤ 7)) →
        env1.m_population[k]? = env.m_population[k]? ∧
        fitnessAt env1.m_population k = fitnessAt env.m_population k ∧
        ∃ T, treeAtIndex env.m_population k = some T ∧
          treeAtIndex env1.m_population k = some T ∧
          TreeInv h T (ts k) ∧ TreeInv h1 T (ts k) ∧ ∀ a ∈ (ts k).addrs, h1[a]? = h[a]?) ∧
      (∀ k, R[1]? = some k →
        fitnessAt env1.m_population k = fitnessAt env.m_population k) := by
  obtain ⟨R, eR, hperm0, _⟩ := rankPopulation_spec env.m_population
  have hperm : R.Perm (List.range env.m_population_size) := hperm0
  have hRlen : R.length = env.m_population_size := by
    rw [hperm.length_eq]; exact List.length_range _
  have hRnd : R.Nodup := hperm.nodup_iff.mpr (List.nodup_range _)
  have hRlt : ∀ j (hj : j < R.length), R[j] < env.m_population_size :=
    fun j hj => List.mem_range.mp (hperm.subset (List.getElem_mem hj))
  obtain ⟨s, ts1, e, fr, hlen, _, _, _, hfit⟩ :=
    breedLoop_reach hwf hleaf hmax hinv hperm rnd pos (le_refl env.m_population_size)
  have eM : env.MutateAndCrossover h rnd pos =
      some ({ env with m_population := s.m_population }, s.heap, s.pos) := by
    simp only [GPEnvironment.MutateAndCrossover, eR, e]
  refine ⟨{ env with m_population := s.m_population }, s.heap, s.pos, R, eR, eM, hlen,
    fun k hk => ?_, fun k hk => ?_⟩
  · have hnot : k ∉ writtenFrom R env.m_population_size 0 := by
      rcases hk with hk | ⟨hk, h7⟩
      · exact top_not_writtenFrom hRnd hk _ 0 (by omega)
      · exact second_not_writtenFrom hRnd hk _ 0 (by omega) (by omega)
    have hkl : k < env.m_population.length := by
      have hmem : k ∈ R := by
        rcases hk with hk | ⟨hk, _⟩
        · exact List.getElem?_mem hk
        · exact List.getElem?_mem hk
      exact List.mem_range.mp (hperm.subset hmem)
    obtain ⟨hsame, hts⟩ := fr.same k hnot
    obtain ⟨T, eT, hT, _⟩ := hinv.tree k hkl
    obtain ⟨T1, eT1, hT1, _⟩ := fr.inv.tree k (by rw [fr.len]; exact hkl)
    have eT1' : treeAtIndex s.m_population k = some T := by
      rw [treeAtIndex_congr hsame]; exact eT
    rw [eT1'] at eT1
    obtain rfl := Option.some.inj eT1
    rw [hts] at hT1
    exact ⟨hsame, fitnessAt_congr hsame, T, eT, eT1', hT, hT1, fr.cells hinv hkl hnot⟩
  · refine hfit k (fun j hj h2 hc => ?_)
    have h1 : 1 < R.length := by
      by_contra hge
      rw [List.getElem?_eq_none (Nat.le_of_not_lt hge)] at hk
      cases hk
    have hjR : j < R.length := by omega
    rw [List.getElem?_eq_getElem h1] at hk
    rw [List.getElem?_eq_getElem hjR] at hc
    have := (hRnd.getElem_inj_iff).mp ((Option.some.inj hk).trans (Option.some.inj hc).symm)
    omega

theorem keepPopulation_inv :
    PopInv keepEnvironment.toGPFunctionLookup keepEnvironment.m_return_type keepHeap
      keepEnvironment.m_population keepTrees := by
  constructor
  · intro k hk
    have hk8 : k < 8 := hk
    interval_cases k <;> exact ⟨_, rfl, by decide, by decide⟩
  · intro j k hj hk hjk
    have hj8 : j < 8 := hj
    have hk8 : k < 8 := hk
    interval_cases j <;> interval_cases k <;> first | exact absurd rfl hjk | decide

theorem MutateAndCrossover_keeps_first_and_early_second_witness :
    ∃ (env1 : GPEnvironment) (h1 : Heap) (pos1 : Nat) (R : List Nat),
      rankPopulation keepEnvironment.m_population = some (R, R) ∧
      keepEnvironment.MutateAndCrossover keepHeap (fun _ => 0) 0 = some (env1, h1, pos1) ∧
      env1.m_population_size = keepEnvironment.m_population_size ∧
      (∀ k, (R[0]? = some k ∨ (R[1]? = some k ∧ keepEnvironment.m_population_size ≤ 7)) →
        env1.m_population[k]? = keepEnvironment.m_population[k]? ∧
        fitnessAt env1.m_population k = fitnessAt keepEnvironment.m_population k ∧
        ∃ T, treeAtIndex keepEnvironment.m_population k = some T ∧
          treeAtIndex env1.m_population k = some T ∧
          TreeInv keepHeap T (keepTrees k) ∧ TreeInv h1 T (keepTrees k) ∧
          ∀ a ∈ (keepTrees k).addrs, h1[a]? = keepHeap[a]?) ∧
      (∀ k, R[1]? = some k →
        fitnessAt env1.m_population k = fitnessAt keepEnvironment.m_population k) :=
  MutateAndCrossover_keeps_first_and_early_second keepEnvironment keepHeap keepTrees
    (fun _ => 0) 0 (by decide) (LeafClosed.contract (S := [1]) (by decide)) (by decide)
    keepPopulation_inv

end GP

namespace GP

/-! ## FindFunctionWithMaxPayload for any registry -/

/-- The loop of `FindFunctionWithMaxPayload` when at least two descriptors have
the return type: started at the descriptor `M[ i0 ]`, it walks the descriptors of
the return type in cyclic order and returns the first one with at most
`maxPayload` parameters, and `NULLFUNC` when it is back at the start. -/
theorem findLoop_cycle {fl : GPFunctionLookup} (hwf : fl.WF) (t maxPayload : Int)
    {M : List Nat} (hM : M = fl.idsWithReturnType t) (h2 : 2 ≤ M.length) {i0 s : Nat}
    (hs : M[i0]? = some s) :
    ∀ (fuel m c : Nat), m < M.length → M.length - m < fuel →
      M[(i0 + m) % M.length]? = some c →
      ∃ r : Int, findLoop fl t maxPayload (s : Int) fuel (c : Int) = some r ∧
        ((r = NULLFUNC ∧ ∀ m1 c1, m ≤ m1 → m1 < M.length →
            M[(i0 + m1) % M.length]? = some c1 →
            maxPayload < ((fl.descAt c1).m_nparams : Int)) ∨
          (∃ c1 ∈ M, r = (c1 : Int) ∧ ((fl.descAt c1).m_nparams : Int) ≤ maxPayload)) := by
  have hi0 : i0 < M.length := by
    by_contra hge
    rw [List.getElem?_eq_none (Nat.le_of_not_lt hge)] at hs
    cases hs
  have hnd : M.Nodup := by rw [hM]; exact idsWithReturnType_nodup fl t
  intro fuel
  induction fuel with
  | zero => intro m c _ hf _; omega
  | succ fuel ih =>
    intro m c hm hf hc
    have hcM : c ∈ M := List.getElem?_mem hc
    have hcn : c < fl.m_nFuncs := by
      rw [hM] at hcM
      exact (mem_idsWithReturnType.mp hcM).1
    have hget : fl.GetFunctionByID (c : Int) = some (fl.descAt c) :=
      GetFunctionByID_nat fl (lt_of_lt_of_le hcn hwf.1)
    unfold findLoop
    rw [hget]
    dsimp only
    by_cases hfit : ((fl.descAt c).m_nparams : Int) ≤ maxPayload
    · rw [if_pos hfit]
      exact ⟨_, rfl, Or.inr ⟨c, hcM, rfl, hfit⟩⟩
    · rw [if_neg hfit]
      have hidx : (i0 + m) % M.length < M.length := Nat.mod_lt _ (by omega)
      have hidx' : (i0 + m) % M.length < (fl.idsWithReturnType t).length := by
        rw [← hM]; exact hidx
      obtain ⟨q, hq, enext⟩ := GetNext_ids hwf t (by rw [← hM]; exact h2) hidx'
      have hcur : (fl.idsWithReturnType t)[(i0 + m) % M.length] = c := by
        have := hc
        rw [List.getElem?_eq_getElem hidx] at this
        simp only [← hM]
        exact Option.some.inj this
      rw [hcur] at enext
      rw [enext]
      dsimp only
      have hq' : M[(i0 + (m + 1)) % M.length]? = some q := by
        rw [← hM] at hq
        rw [← hq]
        congr 1
        rw [Nat.add_mod ((i0 + m) % M.length) 1, Nat.mod_mod, ← Nat.add_mod, Nat.add_assoc]
      have hs' : M[i0] = s := by
        rw [List.getElem?_eq_getElem hi0] at hs
        exact Option.some.inj hs
      by_cases hlast : m + 1 = M.length
      · have hqs : q = s := by
          have : (i0 + (m + 1)) % M.length = i0 := by
            rw [hlast, Nat.add_mod_right, Nat.mod_eq_of_lt hi0]
          rw [this, hs] at hq'
          exact (Option.some.inj hq').symm
        rw [hqs, if_neg (by simp)]
        refine ⟨_, rfl, Or.inl ⟨rfl, fun m1 c1 h1 h2' hc1 => ?_⟩⟩
        have : m1 = m := by omega
        subst this
        rw [hc] at hc1
        obtain rfl := Option.some.inj hc1
        omega
      · have hm1 : m + 1 < M.length := by omega
        have hne : (i0 + (m + 1)) % M.length ≠ i0 := add_mod_ne hi0 (by omega) hm1
        have hqs : (q : Int) ≠ (s : Int) := by
          intro e
          have e' : q = s := by exact_mod_cast e
          have hidx2 : (i0 + (m + 1)) % M.length < M.length := Nat.mod_lt _ (by omega)
          rw [List.getElem?_eq_getElem hidx2] at hq'
          have := (hnd.getElem_inj_iff).mp ((Option.some.inj hq').trans (e'.trans hs'.symm))
          exact hne this
        rw [if_pos hqs]
        obtain ⟨r, er, hr⟩ := ih (m + 1) q hm1 (by omega) hq'
        refine ⟨r, er, ?_⟩
        rcases hr with ⟨hnull, hall⟩ | hfound
        · refine Or.inl ⟨hnull, fun m1 c1 h1 h2' hc1 => ?_⟩
          by_cases hmm : m1 = m
          · subst hmm
            rw [hc] at hc1
            obtain rfl := Option.some.inj hc1
            omega
          · exact hall m1 c1 (by omega) h2' hc1
        · exact Or.inr hfound

/-- `FindFunctionWithMaxPayload` on a registry that is not empty, for any return
type, payload and random draw.  When exactly one descriptor has the return type
and it has more than `maxPayload` parameters, the model has no result: the loop
goes on with the `NULLFUNC` that `GetNextFuncWithReturnType` returned and reads
`m_functions[ -1 ]`.  In every other case the call returns after one draw;
the result is `NULLFUNC` exactly when no descriptor of the return type has at
most `maxPayload` parameters, and otherwise the id of such a descriptor. -/
theorem FindFunctionWithMaxPayload_total {fl : GPFunctionLookup} (hwf : fl.WF)
    (hne : fl.m_nFuncs ≠ 0) (t maxPayload : Int) (rnd : Nat → Nat) (pos : Nat) :
    ((∃ c, fl.idsWithReturnType t = [c] ∧ maxPayload < ((fl.descAt c).m_nparams : Int)) →
      FindFunctionWithMaxPayload fl t maxPayload rnd pos = none) ∧
    (¬ (∃ c, fl.idsWithReturnType t = [c] ∧ maxPayload < ((fl.descAt c).m_nparams : Int)) →
      ∃ r : Int, FindFunctionWithMaxPayload fl t maxPayload rnd pos = some (r, pos + 1) ∧
        (r = NULLFUNC ↔
          ∀ c ∈ fl.idsWithReturnType t, maxPayload < ((fl.descAt c).m_nparams : Int)) ∧
        (r ≠ NULLFUNC → ∃ c ∈ fl.idsWithReturnType t, r = (c : Int) ∧
          ((fl.descAt c).m_nparams : Int) ≤ maxPayload)) := by
  obtain ⟨M, hM⟩ : ∃ M, M = fl.idsWithReturnType t := ⟨_, rfl⟩
  rw [← hM]
  have hmem : ∀ c, c ∈ M ↔ c < fl.m_nFuncs ∧ (fl.descAt c).m_return_type = t := by
    intro c; rw [hM]; exact mem_idsWithReturnType
  obtain ⟨r0, e0, hnull0, hsome0⟩ := GetRandom_total hwf hne t rnd pos
  by_cases hr0 : r0 = NULLFUNC
  · -- no descriptor has the return type
    have hnone := hnull0.mp hr0
    have hMnil : M = [] := by
      apply List.eq_nil_iff_forall_not_mem.mpr
      intro c hc
      obtain ⟨hcn, hct⟩ := (hmem c).mp hc
      exact hnone _ (descAt_mem hcn) hct
    have eF : FindFunctionWithMaxPayload fl t maxPayload rnd pos = some (NULLFUNC, pos + 1) := by
      unfold FindFunctionWithMaxPayload
      rw [e0]
      dsimp only
      rw [if_pos hr0]
    refine ⟨fun ⟨c, hc, _⟩ => ?_, fun _ => ⟨NULLFUNC, eF, ?_, fun hc => absurd rfl hc⟩⟩
    · rw [hMnil] at hc; cases hc
    · rw [hMnil]; simp
  · obtain ⟨s, hsn, rfl, hst⟩ := hsome0 hr0
    have hsM : s ∈ M := (hmem s).mpr ⟨hsn, hst⟩
    obtain ⟨i0, hi0, hsi⟩ := List.mem_iff_getElem.mp hsM
    have hs : M[i0]? = some s := by rw [List.getElem?_eq_getElem hi0, hsi]
    have hnatne : ∀ c : Nat, (c : Int) ≠ NULLFUNC := by
      intro c hc
      simp only [NULLFUNC] at hc
      omega
    have eF : FindFunctionWithMaxPayload fl t maxPayload rnd pos =
        (findLoop fl t maxPayload (s : Int) (fl.m_nFuncs + 1) (s : Int)).map
          (fun r => (r, pos + 1)) := by
      unfold FindFunctionWithMaxPayload
      rw [e0]
      dsimp only
      rw [if_neg hr0]
      cases findLoop fl t maxPayload (s : Int) (fl.m_nFuncs + 1) (s : Int) <;> rfl
    have hMlen : M.length ≤ fl.m_nFuncs := by
      rw [hM]
      unfold GPFunctionLookup.idsWithReturnType
      exact (List.length_filter_le _ _).trans (by rw [List.length_range])
    by_cases h2 : 2 ≤ M.length
    · obtain ⟨r, er, hr⟩ := findLoop_cycle hwf t maxPayload hM h2 hs (fl.m_nFuncs + 1) 0 s
        (by omega) (by omega) (by rw [Nat.add_zero, Nat.mod_eq_of_lt hi0]; exact hs)
      refine ⟨fun ⟨c, hc, _⟩ => ?_, fun _ => ⟨r, ?_, ?_, ?_⟩⟩
      · rw [hc] at h2; simp at h2
      · rw [eF, er]; rfl
      · constructor
        · intro hrn c hc
          rcases hr with ⟨_, hall⟩ | ⟨c1, _, e1, _⟩
          · obtain ⟨j, hj, hcj⟩ := List.mem_iff_getElem.mp hc
            -- position j is reached after (j + M.length - i0) % M.length steps
            have hpos : (i0 + (j + M.length - i0) % M.length) % M.length = j := by
              rw [Nat.add_mod_mod]
              have : i0 + (j + M.length - i0) = j + M.length := by omega
              rw [this, Nat.add_mod_right, Nat.mod_eq_of_lt hj]
            refine hall ((j + M.length - i0) % M.length) c (Nat.zero_le _)
              (Nat.mod_lt _ (by omega)) ?_
            rw [hpos, List.getElem?_eq_getElem hj, hcj]
          · exact absurd (e1 ▸ hrn) (hnatne c1)
        · intro hall
          rcases hr with ⟨hrn, _⟩ | ⟨c1, hc1, _, hfit⟩
          · exact hrn
          · have := hall c1 hc1
            omega
      · intro hrn
        rcases hr with ⟨hrn', _⟩ | hfound
        · exact absurd hrn' hrn
        · exact hfound
    · -- exactly one descriptor has the return type
      have hlen1 : M.length = 1 := by omega
      have hMs : M = [s] := by
        match M, hlen1, hsM with
        | [x], _, hx => simp only [List.mem_singleton] at hx; rw [hx]
      have hget : fl.GetFunctionByID (s : Int) = some (fl.descAt s) :=
        GetFunctionByID_nat fl (lt_of_lt_of_le hsn hwf.1)
      by_cases hfit : ((fl.descAt s).m_nparams : Int) ≤ maxPayload
      · have er : findLoop fl t maxPayload (s : Int) (fl.m_nFuncs + 1) (s : Int) =
            some (s : Int) := by
          unfold findLoop
          rw [hget]
          dsimp only
          rw [if_pos hfit]
        refine ⟨fun ⟨c, hc, hex⟩ => ?_, fun _ => ⟨(s : Int), ?_, ?_, ?_⟩⟩
        · rw [hMs] at hc
          simp only [List.cons.injEq, and_true] at hc
          subst hc
          omega
        · rw [eF, er]; rfl
        · constructor
          · intro hc; exact absurd hc (hnatne s)
          · intro hall
            have := hall s hsM
            omega
        · intro _
          exact ⟨s, hsM, rfl, hfit⟩
      · have enext : fl.GetNextFuncWithReturnType t (s : Int) = some NULLFUNC := by
          rcases GetNext_total hwf t hsn with ⟨k, hk0, hkn, _, hkt, _⟩ | ⟨e, _⟩
          · have hkM : (s + k) % fl.m_nFuncs ∈ M :=
              (hmem _).mpr ⟨Nat.mod_lt _ (by omega), hkt⟩
            rw [hMs, List.mem_singleton] at hkM
            exact absurd hkM (add_mod_ne hsn hk0 hkn)
          · exact e
        have er : findLoop fl t maxPayload (s : Int) (fl.m_nFuncs + 1) (s : Int) = none := by
          obtain ⟨n, hn⟩ : ∃ n, fl.m_nFuncs = n + 1 := ⟨fl.m_nFuncs - 1, by omega⟩
          rw [hn]
          unfold findLoop
          rw [hget]
          dsimp only
          rw [if_neg hfit, enext]
          dsimp only
          rw [if_pos (fun hc => hnatne s hc.symm)]
          unfold findLoop
          have : fl.GetFunctionByID NULLFUNC = none := by
            unfold GPFunctionLookup.GetFunctionByID NULLFUNC
            rw [if_neg (by omega)]
          rw [this]
        refine ⟨fun _ => by rw [eF, er]; rfl, fun hno => absurd ⟨s, hMs, by omega⟩ hno⟩

/-- C37: the registry `addOnlyRegistry` holds the two descriptors of
`int Add( int, int )`, so exactly one descriptor (id 1, two parameters) has the
return type `int`.  For the payloads 0 and 1 and any random draw
`GetRandomFuncWithReturnType` finds the descriptor 1, it has too many parameters,
`GetNextFuncWithReturnType( int, 1 )` returns `NULLFUNC`, which is not the start,
and the loop of `FindFunctionWithMaxPayload` goes on to look up the descriptor
`NULLFUNC` = -1, an id outside the array: the call has no result in the model and
does not return `NULLFUNC` after its draw. -/
theorem FindFunctionWithMaxPayload_single_oversized (rnd : Nat → Nat) (pos : Nat) :
    addOnlyRegistry.m_nFuncs = 2 ∧ addOnlyRegistry.WF ∧
      addOnlyRegistry.idsWithReturnType 1 = [1] ∧ (addOnlyRegistry.descAt 1).m_nparams = 2 ∧
      addOnlyRegistry.GetRandomFuncWithReturnType 1 rnd pos = some (1, pos + 1) ∧
      addOnlyRegistry.GetNextFuncWithReturnType 1 1 = some NULLFUNC ∧
      addOnlyRegistry.GetFunctionByID NULLFUNC = none ∧
      FindFunctionWithMaxPayload addOnlyRegistry 1 0 rnd pos = none ∧
      FindFunctionWithMaxPayload addOnlyRegistry 1 1 rnd pos = none ∧
      FindFunctionWithMaxPayload addOnlyRegistry 1 0 rnd pos ≠ some (NULLFUNC, pos + 1) := by
  have hwf : addOnlyRegistry.WF := by decide
  have hne : addOnlyRegistry.m_nFuncs ≠ 0 := by decide
  have hids : addOnlyRegistry.idsWithReturnType 1 = [1] := by decide
  have h0 := (FindFunctionWithMaxPayload_total hwf hne 1 0 rnd pos).1 ⟨1, hids, by decide⟩
  have h1 := (FindFunctionWithMaxPayload_total hwf hne 1 1 rnd pos).1 ⟨1, hids, by decide⟩
  obtain ⟨r, er, _, hr⟩ := GetRandom_total hwf hne 1 rnd pos
  have hr1 : r = 1 := by
    by_cases hrn : r = NULLFUNC
    · have := (GetRandom_total hwf hne 1 rnd pos)
      obtain ⟨r', er', hiff, _⟩ := this
      rw [er] at er'
      simp only [Option.some.injEq, Prod.mk.injEq, and_true] at er'
      subst er'
      exact absurd (hiff.mp hrn _ (descAt_mem (c := 1) (by decide)) ) (by decide)
    · obtain ⟨c, hc, rfl, hct⟩ := hr hrn
      have hc2 : c < 2 := hc
      interval_cases c
      · exact absurd hct (by decide)
      · rfl
  rw [hr1] at er
  refine ⟨by decide, hwf, hids, by decide, er, by decide, by decide, h0, h1, ?_⟩
  rw [h0]
  simp

end GP

namespace GP

/-! ## Dispatch: ExecuteTree -/

theorem codeAt_of_desc {V : Type} (d : GPDispatch V) {f : Int} {desc : GPFunctionDesc}
    (hd : d.GetFunctionByID f = some desc) : ∃ code, d.codeAt f = some code := by
  unfold GPFunctionLookup.GetFunctionByID at hd
  unfold GPDispatch.codeAt
  split at hd
  · rename_i hc
    rw [if_pos hc]
    exact ⟨_, rfl⟩
  · cases hd

/-- The arguments that an invoke function builds are the first `n` of the three
results of the children. -/
theorem invokeParams_eq {V : Type} (invoke : Nat → Option (GPArg V)) (nd : GPTreeNode)
    {n : Nat} (hn : n ≤ 3) (r0 r1 r2 : Option (GPArg V))
    (h0 : 0 < n → ∃ a, nd.p0 = some a ∧ invoke a = r0)
    (h1 : 1 < n → ∃ a, nd.p1 = some a ∧ invoke a = r1)
    (h2 : 2 < n → ∃ a, nd.p2 = some a ∧ invoke a = r2) :
    invokeParams invoke nd n 0 = takeArgs n [r0, r1, r2] := by
  interval_cases n
  · rfl
  · obtain ⟨a0, e0, i0⟩ := h0 (by omega)
    simp only [invokeParams, GPTreeNode.parameters, e0, i0, takeArgs]
    cases r0 <;> rfl
  · obtain ⟨a0, e0, i0⟩ := h0 (by omega)
    obtain ⟨a1, e1, i1⟩ := h1 (by omega)
    simp only [invokeParams, GPTreeNode.parameters, e0, i0, e1, i1, takeArgs]
    cases r0 <;> cases r1 <;> rfl
  · obtain ⟨a0, e0, i0⟩ := h0 (by omega)
    obtain ⟨a1, e1, i1⟩ := h1 (by omega)
    obtain ⟨a2, e2, i2⟩ := h2 (by omega)
    simp only [invokeParams, GPTreeNode.parameters, e0, i0, e1, i1, e2, i2, takeArgs]
    cases r0 <;> cases r1 <;> cases r2 <;> rfl

/-- A well-formed tree is not `null` and has a root. -/
theorem WellTyped.has_root {fl : GPFunctionLookup} {ty : Int} {t : Subtree}
    (hw : WellTyped fl ty t) : ∃ a, t.root = some a := by
  cases t with
  | null => exact absurd hw id
  | node a f c0 c1 c2 => exact ⟨a, rfl⟩

/-- The invoke function of the root of a well-formed tree in the heap, called on
the root: it returns what the description says, the function of the root applied
to what the children hand up, as a value or suspended; and both the invoke
function for the number of parameters and `Evaluate` called on the root apply the
function of the root. -/
theorem invokeNode_spec {V : Type} {d : GPDispatch V} (hp : d.Paired) {h : Heap} :
    ∀ {t : Subtree} {par : Option Nat} {ty : Int}, Rep h par t →
      WellTyped d.toGPFunctionLookup ty t → ∀ (fuel : Nat), t.height < fuel →
      ∀ a, t.root = some a →
        invokeNode d h fuel a = t.handUp d (t.applied d) ∧
        (∀ desc, d.GetFunctionByID t.fid = some desc →
          GPInvokeFunction d h (invokeNode d h (fuel - 1)) desc.m_nparams a = t.applied d ∧
          (desc.m_original_function_id ≠ NULLFUNC →
            Evaluate d h (invokeNode d h (fuel - 1)) a = t.applied d)) := by
  intro t
  induction t with
  | null => intro _ _ _ hw; exact absurd hw id
  | node b f c0 c1 c2 ih0 ih1 ih2 =>
    intro par ty hr hw fuel hfuel a ha
    simp only [Subtree.root, Option.some.injEq] at ha
    subst ha
    obtain ⟨hb, hr0, hr1, hr2⟩ := hr
    obtain ⟨desc, hd, hf0, hf1, _, hn3, w0, w1, w2⟩ := WellTyped.node_iff.mp hw
    obtain ⟨code, hc⟩ := codeAt_of_desc d hd
    obtain ⟨fuel', rfl⟩ : ∃ k, fuel = k + 1 := ⟨fuel - 1, by omega⟩
    simp only [Subtree.height] at hfuel
    have child : ∀ (c : Subtree) (j : Nat),
        (if j < desc.m_nparams then WellTyped d.toGPFunctionLookup (desc.paramType j) c
          else c = .null) →
        Rep h (some b) c →
        (∀ {par : Option Nat} {ty : Int}, Rep h par c → WellTyped d.toGPFunctionLookup ty c →
          ∀ (fuel : Nat), c.height < fuel → ∀ a, c.root = some a →
            invokeNode d h fuel a = c.handUp d (c.applied d) ∧
            (∀ desc, d.GetFunctionByID c.fid = some desc →
              GPInvokeFunction d h (invokeNode d h (fuel - 1)) desc.m_nparams a = c.applied d ∧
              (desc.m_original_function_id ≠ NULLFUNC →
                Evaluate d h (invokeNode d h (fuel - 1)) a = c.applied d))) →
        c.height < fuel' →
        j < desc.m_nparams →
        ∃ a, c.root = some a ∧ invokeNode d h fuel' a = c.handUp d (c.applied d) := by
      intro c j hwc hrc ih hh hj
      rw [if_pos hj] at hwc
      obtain ⟨a, ea⟩ := hwc.has_root
      exact ⟨a, ea, (ih hrc hwc fuel' hh a ea).1⟩
    have hargs : invokeParams (invokeNode d h fuel')
        ⟨f, c0.root, c1.root, c2.root, par⟩ desc.m_nparams 0 =
        takeArgs desc.m_nparams [c0.handUp d (c0.applied d), c1.handUp d (c1.applied d),
          c2.handUp d (c2.applied d)] :=
      invokeParams_eq _ _ hn3 _ _ _
        (fun hj => child c0 0 w0 hr0 ih0 (by omega) hj)
        (fun hj => child c1 1 w1 hr1 ih1 (by omega) hj)
        (fun hj => child c2 2 w2 hr2 ih2 (by omega) hj)
    have happ : (Subtree.node b f c0 c1 c2).applied d =
        (takeArgs desc.m_nparams [c0.handUp d (c0.applied d), c1.handUp d (c1.applied d),
          c2.handUp d (c2.applied d)]).bind code.m_function_ptr := by
      simp only [Subtree.applied, hd, hc]
      cases takeArgs desc.m_nparams [c0.handUp d (c0.applied d), c1.handUp d (c1.applied d),
          c2.handUp d (c2.applied d)] <;> rfl
    have hinv : GPInvokeFunction d h (invokeNode d h fuel') desc.m_nparams b =
        (Subtree.node b f c0 c1 c2).applied d := by
      rw [happ]
      simp only [GPInvokeFunction, hb, hc, hargs]
      cases takeArgs desc.m_nparams [c0.handUp d (c0.applied d), c1.handUp d (c1.applied d),
          c2.handUp d (c2.applied d)] <;> rfl
    obtain ⟨heager, hdelayed⟩ := hp f desc code hf0 hf1 hd hc
    have heval : desc.m_original_function_id ≠ NULLFUNC →
        Evaluate d h (invokeNode d h fuel') b = (Subtree.node b f c0 c1 c2).applied d := by
      intro hne
      obtain ⟨_, _, _, odesc, ocode, _, eoc, _, eon, _, _⟩ := hdelayed hne
      obtain ⟨_, horig⟩ := hp _ odesc ocode (by omega) (by omega) (by assumption) eoc
      have hoi : ocode.m_invoke_ptr = .eager desc.m_nparams := by
        rw [← eon]
        exact (hp _ odesc ocode (by omega) (by omega) (by assumption) eoc).1 (by assumption)
      simp only [Evaluate, hb, hd, eoc, hoi]
      exact hinv
    refine ⟨?_, fun desc' hd' => ?_⟩
    · by_cases horig : desc.m_original_function_id = NULLFUNC
      · have hi := heager horig
        simp only [invokeNode, hb, hc, hi, Subtree.handUp, Subtree.fid]
        rw [hinv]
      · obtain ⟨hi, _⟩ := hdelayed horig
        simp only [invokeNode, hb, hc, hi, Subtree.handUp, Subtree.fid]
        rw [heval horig]
    · simp only [Subtree.fid] at hd'
      rw [hd] at hd'
      obtain rfl := Option.some.inj hd'
      simp only [Nat.add_sub_cancel]
      exact ⟨hinv, heval⟩

/-! ### The pairs of the registry in the code members -/

theorem GetFunctionByID_append {fl : GPFunctionLookup} {id : Int} (l : List GPFunctionDesc)
    (h0 : 0 ≤ id) (h1 : id < (fl.m_nFuncs : Int)) :
    (⟨fl.m_functions ++ l⟩ : GPFunctionLookup).GetFunctionByID id = fl.GetFunctionByID id := by
  unfold GPFunctionLookup.GetFunctionByID
  have hk : id.toNat < fl.m_functions.length := by
    have : id.toNat < fl.m_nFuncs := by omega
    exact this
  simp only [List.getD_append _ _ _ _ hk]

theorem codeAt_append {V : Type} {d : GPDispatch V} {id : Int} (fs : GPFunctionLookup)
    (l : List (GPFunctionCode V)) (h0 : 0 ≤ id) (h1 : id < (d.m_code.length : Int)) :
    (⟨fs, d.m_code ++ l⟩ : GPDispatch V).codeAt id = d.codeAt id := by
  unfold GPDispatch.codeAt
  have hk : id.toNat < d.m_code.length := by omega
  simp only [List.getD_append _ _ _ _ hk]

/-- The empty registry keeps its pairs. -/
theorem Paired_empty {V : Type} : (GPDispatch.empty : GPDispatch V).Paired := by
  intro id desc code h0 h1 _ _
  have : (GPDispatch.empty : GPDispatch V).m_nFuncs = 0 := rfl
  rw [this] at h1
  omega

/-- `RegisterFunction` keeps the pairs of the registry. -/
theorem Paired_RegisterFunction {V : Type} (d : GPDispatch V)
    (hal : d.m_code.length = d.m_nFuncs) (hcap : d.m_nFuncs + 2 ≤ GP_MAX_FUNCTIONS * 2)
    (hp : d.Paired) (name : String) (return_type delayed_return_type : Int)
    (param_types : List Int) (myFunc : List (GPArg V) → Option V) :
    (d.RegisterFunction name return_type delayed_return_type param_types myFunc).1.Paired ∧
    (d.RegisterFunction name return_type delayed_return_type param_types myFunc).1.m_code.length
      = (d.RegisterFunction name return_type delayed_return_type param_types
          myFunc).1.m_nFuncs := by
  obtain ⟨n, hn⟩ : ∃ n, d.m_nFuncs = n := ⟨_, rfl⟩
  have hfl : d.m_functions.length = n := hn
  have hcap' : n + 2 ≤ 60 := by
    have := hcap
    unfold GP_MAX_FUNCTIONS at this
    omega
  constructor
  · intro id desc code h0 h1 hd hc
    have hN : (d.RegisterFunction name return_type delayed_return_type param_types
        myFunc).1.m_nFuncs = n + 2 := by
      simp [GPDispatch.RegisterFunction, GPFunctionLookup.RegisterFunction,
        GPFunctionLookup.m_nFuncs, hfl]
    rw [hN] at h1 ⊢
    by_cases hold : id < (n : Int)
    · -- a descriptor of before
      have hd' : d.GetFunctionByID id = some desc := by
        rw [← hd]
        exact (GetFunctionByID_append _ h0 (by rw [hn]; exact hold)).symm
      have hc' : d.codeAt id = some code := by
        rw [← hc]
        exact (codeAt_append _ _ h0 (by rw [hal, hn]; exact hold)).symm
      obtain ⟨he, hdl⟩ := hp id desc code h0 (by rw [hn]; exact hold) hd' hc'
      refine ⟨he, fun hne => ?_⟩
      obtain ⟨q1, q2, q3, odesc, ocode, eod, eoc, q4, q5, q6, q7⟩ := hdl hne
      rw [hn] at q3
      refine ⟨q1, q2, by omega, odesc, ocode, ?_, ?_, q4, q5, q6, q7⟩
      · rw [← eod]
        exact GetFunctionByID_append _ q2 (by rw [hn]; exact q3)
      · rw [← eoc]
        exact codeAt_append _ _ q2 (by rw [hal, hn]; exact q3)
    · have hk : id.toNat = n ∨ id.toNat = n + 1 := by omega
      have hrange : 0 ≤ id ∧ id < ((GP_MAX_FUNCTIONS * 2 : Nat) : Int) := by
        unfold GP_MAX_FUNCTIONS
        constructor
        · exact h0
        · push_cast; omega
      have hrange1 : 0 ≤ ((n : Int) + 1) ∧ ((n : Int) + 1) < ((GP_MAX_FUNCTIONS * 2 : Nat) : Int) := by
        unfold GP_MAX_FUNCTIONS
        constructor
        · omega
        · push_cast; omega
      simp only [GPDispatch.RegisterFunction, GPFunctionLookup.RegisterFunction,
        GPFunctionLookup.GetFunctionByID, if_pos hrange, Option.some.injEq] at hd
      simp only [GPDispatch.RegisterFunction, GPDispatch.codeAt, if_pos hrange,
        Option.some.injEq] at hc
      rcases hk with hk | hk
      · rw [hk, List.getD_append_right _ _ _ _ (by omega), hfl, Nat.sub_self] at hd
        rw [hk, List.getD_append_right _ _ _ _ (by omega), hal, hn, Nat.sub_self] at hc
        simp only [List.getD_cons_zero] at hd hc
        subst hd hc
        refine ⟨fun he => ?_, fun _ => ?_⟩
        · simp only [NULLFUNC, hn] at he
          omega
        · dsimp only
          rw [hn]
          refine ⟨rfl, by omega, by omega,
            ⟨param_types.length, return_type, param_types, -1, storedName name⟩,
            ⟨myFunc, .eager param_types.length⟩, ?_, ?_, rfl, rfl, rfl, rfl⟩
          · simp only [GPDispatch.RegisterFunction, GPFunctionLookup.RegisterFunction,
              GPFunctionLookup.GetFunctionByID, if_pos hrange1, Option.some.injEq, hn]
            have : ((n : Int) + 1).toNat = n + 1 := by omega
            rw [this, List.getD_append_right _ _ _ _ (by omega), hfl]
            simp
          · simp only [GPDispatch.RegisterFunction, GPDispatch.codeAt, if_pos hrange1,
              Option.some.injEq]
            have : ((n : Int) + 1).toNat = n + 1 := by omega
            rw [this, List.getD_append_right _ _ _ _ (by omega), hal, hn]
            simp
      · rw [hk, List.getD_append_right _ _ _ _ (by omega), hfl] at hd
        rw [hk, List.getD_append_right _ _ _ _ (by omega), hal, hn] at hc
        simp only [Nat.add_sub_cancel_left, List.getD_cons_succ, List.getD_cons_zero] at hd hc
        subst hd hc
        exact ⟨fun _ => rfl, fun hne => absurd rfl hne⟩
  · simp [GPDispatch.RegisterFunction, GPFunctionLookup.RegisterFunction,
      GPFunctionLookup.m_nFuncs, hal, hfl, hn]

/-- The registry `exampleDispatch` keeps its pairs. -/
theorem exampleDispatch_paired : exampleDispatch.Paired := by
  have e0 : (GPDispatch.empty : GPDispatch Int).m_code.length =
      (GPDispatch.empty : GPDispatch Int).m_nFuncs := rfl
  obtain ⟨p1, a1⟩ := Paired_RegisterFunction GPDispatch.empty e0 (by decide) Paired_empty
    "Add" 1 2 [1, 1] codeAdd
  obtain ⟨p2, a2⟩ := Paired_RegisterFunction _ a1 (by decide) p1 "Mul" 1 2 [1, 1] codeMul
  obtain ⟨p3, a3⟩ := Paired_RegisterFunction _ a2 (by decide) p2 "Two" 1 2 [] codeTwo
  obtain ⟨p4, a4⟩ := Paired_RegisterFunction _ a3 (by decide) p3 "Three" 1 2 [] codeThree
  exact (Paired_RegisterFunction _ a4 (by decide) p4 "IfPositive" 1 2 [1, 2, 2]
    codeIfPositive).1

end GP

namespace GP

/-! ## ExecuteTree on trees of functions themselves, and Evaluate -/

/-- The root of a well-formed tree whose function is not a delayed twin hands up
its value. -/
theorem handUp_eager {V : Type} {d : GPDispatch V} (hp : d.Paired) {t : Subtree} {ty : Int}
    (hw : WellTyped d.toGPFunctionLookup ty t) (he : AllEager d.toGPFunctionLookup t)
    (x : Option V) : t.handUp d x = x.map GPArg.value := by
  cases t with
  | null => exact absurd hw id
  | node a f c0 c1 c2 =>
    obtain ⟨desc, hd, hf0, hf1, _⟩ := WellTyped.node_iff.mp hw
    obtain ⟨code, hc⟩ := codeAt_of_desc d hd
    have horig : desc.m_original_function_id = NULLFUNC := by
      have := he.1
      rw [hd] at this
      exact this
    have hi := (hp f desc code hf0 hf1 hd hc).1 horig
    simp only [Subtree.handUp, Subtree.fid, hc, hi]

/-- Nothing is handed up through a null link. -/
theorem handUp_null {V : Type} (d : GPDispatch V) (x : Option V) :
    Subtree.null.handUp d x = none := by
  simp only [Subtree.handUp, Subtree.fid]
  have : d.codeAt (-1) = none := by
    unfold GPDispatch.codeAt
    rw [if_neg (by omega)]
  rw [this]

/-- `ExecuteTree` on the root of a well-formed tree in the heap whose root is not
a node of a delayed twin: the function of the root applied to what the children
hand up. -/
theorem ExecuteTree_eager_root {V : Type} {d : GPDispatch V} (hp : d.Paired) {h : Heap}
    {t : Subtree} {par : Option Nat} {ty : Int} (ht : IsTree h par t)
    (hw : WellTyped d.toGPFunctionLookup ty t) (he : AllEager d.toGPFunctionLookup t) :
    ExecuteTree d h t.root = t.applied d := by
  obtain ⟨a, ea⟩ := hw.has_root
  have hfuel : t.height < h.length + 1 :=
    Nat.lt_succ_of_le ((Subtree.height_le_size t).trans ht.size_le)
  obtain ⟨e, _⟩ := invokeNode_spec hp ht.1 hw (h.length + 1) hfuel a ea
  rw [handUp_eager hp hw he] at e
  simp only [ExecuteTree, ea, e]
  cases t.applied d <;> rfl

/-- The first `n` of three values that are there. -/
theorem takeArgs_values {V : Type} {n : Nat} (hn : n ≤ 3) (o0 o1 o2 : Option (GPArg V))
    (h0 : 0 < n → ∃ v, o0 = some (.value v)) (h1 : 1 < n → ∃ v, o1 = some (.value v))
    (h2 : 2 < n → ∃ v, o2 = some (.value v)) :
    ∃ vs : List V, vs.length = n ∧ takeArgs n [o0, o1, o2] = some (vs.map GPArg.value) := by
  interval_cases n
  · exact ⟨[], rfl, rfl⟩
  · obtain ⟨v0, rfl⟩ := h0 (by omega)
    exact ⟨[v0], rfl, rfl⟩
  · obtain ⟨v0, rfl⟩ := h0 (by omega)
    obtain ⟨v1, rfl⟩ := h1 (by omega)
    exact ⟨[v0, v1], rfl, rfl⟩
  · obtain ⟨v0, rfl⟩ := h0 (by omega)
    obtain ⟨v1, rfl⟩ := h1 (by omega)
    obtain ⟨v2, rfl⟩ := h2 (by omega)
    exact ⟨[v0, v1, v2], rfl, rfl⟩

/-- When the registered functions of the nodes return on values, the function of
the root applied to what the children hand up is a value. -/
theorem applied_total {V : Type} {d : GPDispatch V} (hp : d.Paired) :
    ∀ {t : Subtree} {ty : Int}, WellTyped d.toGPFunctionLookup ty t →
      AllEager d.toGPFunctionLookup t →
      (∀ u ∈ t.subtrees, ∀ (desc : GPFunctionDesc) (code : GPFunctionCode V) (vs : List V),
        d.GetFunctionByID u.fid = some desc → d.codeAt u.fid = some code →
        vs.length = desc.m_nparams → (code.m_function_ptr (vs.map GPArg.value)).isSome) →
      ∃ v, t.applied d = some v := by
  intro t
  induction t with
  | null => intro _ hw; exact absurd hw id
  | node a f c0 c1 c2 ih0 ih1 ih2 =>
    intro ty hw he htot
    obtain ⟨desc, hd, hf0, hf1, _, hn3, w0, w1, w2⟩ := WellTyped.node_iff.mp hw
    obtain ⟨code, hc⟩ := codeAt_of_desc d hd
    obtain ⟨_, e0, e1, e2⟩ := he
    have child : ∀ (c : Subtree) (j : Nat),
        (if j < desc.m_nparams then WellTyped d.toGPFunctionLookup (desc.paramType j) c
          else c = .null) →
        AllEager d.toGPFunctionLookup c →
        (∀ u ∈ c.subtrees, u ∈ (Subtree.node a f c0 c1 c2).subtrees) →
        (∀ {ty : Int}, WellTyped d.toGPFunctionLookup ty c → AllEager d.toGPFunctionLookup c →
          (∀ u ∈ c.subtrees, ∀ (desc : GPFunctionDesc) (code : GPFunctionCode V) (vs : List V),
            d.GetFunctionByID u.fid = some desc → d.codeAt u.fid = some code →
            vs.length = desc.m_nparams →
            (code.m_function_ptr (vs.map GPArg.value)).isSome) →
          ∃ v, c.applied d = some v) →
        j < desc.m_nparams → ∃ v, c.handUp d (c.applied d) = some (.value v) := by
      intro c j hwc hec hsub ih hj
      rw [if_pos hj] at hwc
      obtain ⟨v, ev⟩ := ih hwc hec (fun u hu => htot u (hsub u hu))
      exact ⟨v, by rw [handUp_eager hp hwc hec, ev]; rfl⟩
    have sub0 : ∀ u ∈ c0.subtrees, u ∈ (Subtree.node a f c0 c1 c2).subtrees := by
      intro u hu; simp [Subtree.subtrees, hu]
    have sub1 : ∀ u ∈ c1.subtrees, u ∈ (Subtree.node a f c0 c1 c2).subtrees := by
      intro u hu; simp [Subtree.subtrees, hu]
    have sub2 : ∀ u ∈ c2.subtrees, u ∈ (Subtree.node a f c0 c1 c2).subtrees := by
      intro u hu; simp [Subtree.subtrees, hu]
    obtain ⟨vs, hlen, hargs⟩ := takeArgs_values hn3 _ _ _
      (fun hj => child c0 0 w0 e0 sub0 ih0 hj) (fun hj => child c1 1 w1 e1 sub1 ih1 hj)
      (fun hj => child c2 2 w2 e2 sub2 ih2 hj)
    have hself : (Subtree.node a f c0 c1 c2) ∈ (Subtree.node a f c0 c1 c2).subtrees := by
      simp [Subtree.subtrees]
    have := htot _ hself desc code vs hd hc hlen
    obtain ⟨v, ev⟩ := Option.isSome_iff_exists.mp this
    refine ⟨v, ?_⟩
    simp only [Subtree.applied, hd, hc, hargs, ev]

/-- C35: for a registry that keeps its pairs in the code members and a
well-formed tree `t` in the heap, whose root may have any parent.  When no node
of `t` is a node of a delayed twin, `ExecuteTree` on the root returns the
registered function of the root applied to the results of `ExecuteTree` on the
children, in the order of the parameters, and it returns a value when the
registered functions of the nodes return on values.  When the root is a node of
a delayed twin, its invoke function returns a suspended computation, and forcing
it through `Evaluate` yields what the function of the original, the paired
function itself, yields on the same children.  In the registry of the first
example the tree `Add( Two, Mul( Three, Three ) )` evaluates to 11. -/
theorem ExecuteTree_applies_callables {V : Type} (d : GPDispatch V) (h : Heap) (t : Subtree)
    (par : Option Nat) (ty : Int) (hp : d.Paired) (ht : IsTree h par t)
    (hw : WellTyped d.toGPFunctionLookup ty t) :
    (AllEager d.toGPFunctionLookup t →
      ExecuteTree d h t.root = t.applied d ∧
      (∀ (a : Nat) (f : Int) (c0 c1 c2 : Subtree) (desc : GPFunctionDesc)
          (code : GPFunctionCode V),
        t = .node a f c0 c1 c2 → d.GetFunctionByID f = some desc → d.codeAt f = some code →
        ExecuteTree d h (some a) =
          (takeArgs desc.m_nparams [(ExecuteTree d h c0.root).map GPArg.value,
            (ExecuteTree d h c1.root).map GPArg.value,
            (ExecuteTree d h c2.root).map GPArg.value]).bind code.m_function_ptr) ∧
      ((∀ u ∈ t.subtrees, ∀ (desc : GPFunctionDesc) (code : GPFunctionCode V) (vs : List V),
          d.GetFunctionByID u.fid = some desc → d.codeAt u.fid = some code →
          vs.length = desc.m_nparams → (code.m_function_ptr (vs.map GPArg.value)).isSome) →
        ∃ v, ExecuteTree d h t.root = some v)) ∧
    (∀ desc, d.GetFunctionByID t.fid = some desc →
      desc.m_original_function_id ≠ NULLFUNC →
      ∃ (a : Nat) (ev : Unit → Option V), t.root = some a ∧
        invokeNode d h (h.length + 1) a = some (.delayed ev) ∧
        ev () = Evaluate d h (invokeNode d h h.length) a ∧
        ev () = t.applied d ∧
        ev () = (t.withFid desc.m_original_function_id).applied d) ∧
    ExecuteTree exampleDispatch execHeap (some 0) = some 11 := by
  refine ⟨fun he => ⟨ExecuteTree_eager_root hp ht hw he, ?_, fun htot => ?_⟩, ?_, by decide⟩
  · intro a f c0 c1 c2 desc code et hd hc
    subst et
    have e := ExecuteTree_eager_root hp ht hw he
    simp only [Subtree.root] at e
    rw [e]
    obtain ⟨desc', hd', _, _, _, hn3, w0, w1, w2⟩ := WellTyped.node_iff.mp hw
    rw [hd] at hd'
    obtain rfl := Option.some.inj hd'
    obtain ⟨_, e0, e1, e2⟩ := he
    obtain ⟨hb, hr0, hr1, hr2⟩ := ht.1
    obtain ⟨_, _, _, n0, n1, n2, _, _, _⟩ := Subtree.nodup_node.mp ht.2
    have child : ∀ (c : Subtree) (j : Nat),
        (if j < desc.m_nparams then WellTyped d.toGPFunctionLookup (desc.paramType j) c
          else c = .null) →
        AllEager d.toGPFunctionLookup c → IsTree h (some a) c →
        c.handUp d (c.applied d) = (ExecuteTree d h c.root).map GPArg.value := by
      intro c j hwc hec htc
      by_cases hj : j < desc.m_nparams
      · rw [if_pos hj] at hwc
        rw [handUp_eager hp hwc hec, ExecuteTree_eager_root hp htc hwc hec]
      · rw [if_neg hj] at hwc
        subst hwc
        rw [handUp_null]
        rfl
    simp only [Subtree.applied, hd, hc]
    rw [child c0 0 w0 e0 ⟨hr0, n0⟩, child c1 1 w1 e1 ⟨hr1, n1⟩, child c2 2 w2 e2 ⟨hr2, n2⟩]
    cases takeArgs desc.m_nparams [(ExecuteTree d h c0.root).map GPArg.value,
      (ExecuteTree d h c1.root).map GPArg.value,
      (ExecuteTree d h c2.root).map GPArg.value] <;> rfl
  · obtain ⟨v, ev⟩ := applied_total hp hw he htot
    exact ⟨v, by rw [ExecuteTree_eager_root hp ht hw he, ev]⟩
  · intro desc hd hne
    obtain ⟨a, ea⟩ := hw.has_root
    have hfuel : t.height < h.length + 1 :=
      Nat.lt_succ_of_le ((Subtree.height_le_size t).trans ht.size_le)
    obtain ⟨e, hrest⟩ := invokeNode_spec hp ht.1 hw (h.length + 1) hfuel a ea
    obtain ⟨_, heval⟩ := hrest desc hd
    have heval' := heval hne
    simp only [Nat.add_sub_cancel] at heval'
    cases t with
    | null => exact absurd hw id
    | node b f c0 c1 c2 =>
      simp only [Subtree.fid] at hd
      obtain ⟨desc', hd', hf0, hf1, _⟩ := WellTyped.node_iff.mp hw
      rw [hd] at hd'
      obtain rfl := Option.some.inj hd'
      obtain ⟨code, hc⟩ := codeAt_of_desc d hd
      obtain ⟨hi, q2, q3, odesc, ocode, eod, eoc, _, eon, _, efun⟩ :=
        (hp f desc code hf0 hf1 hd hc).2 hne
      refine ⟨a, fun _ => (Subtree.node b f c0 c1 c2).applied d, ea, ?_, heval'.symm, rfl, ?_⟩
      · rw [e]
        simp only [Subtree.handUp, Subtree.fid, hc, hi]
      · simp only [Subtree.withFid, Subtree.applied, hd, hc, eod, eoc, eon, efun]

theorem ExecuteTree_applies_callables_witness :
    (AllEager exampleDispatch.toGPFunctionLookup execTree →
      ExecuteTree exampleDispatch execHeap execTree.root = execTree.applied exampleDispatch ∧
      (∀ (a : Nat) (f : Int) (c0 c1 c2 : Subtree) (desc : GPFunctionDesc)
          (code : GPFunctionCode Int),
        execTree = .node a f c0 c1 c2 → exampleDispatch.GetFunctionByID f = some desc →
        exampleDispatch.codeAt f = some code →
        ExecuteTree exampleDispatch execHeap (some a) =
          (takeArgs desc.m_nparams [(ExecuteTree exampleDispatch execHeap c0.root).map GPArg.value,
            (ExecuteTree exampleDispatch execHeap c1.root).map GPArg.value,
            (ExecuteTree exampleDispatch execHeap c2.root).map GPArg.value]).bind
            code.m_function_ptr) ∧
      ((∀ u ∈ execTree.subtrees, ∀ (desc : GPFunctionDesc) (code : GPFunctionCode Int)
          (vs : List Int),
          exampleDispatch.GetFunctionByID u.fid = some desc →
          exampleDispatch.codeAt u.fid = some code →
          vs.length = desc.m_nparams → (code.m_function_ptr (vs.map GPArg.value)).isSome) →
        ∃ v, ExecuteTree exampleDispatch execHeap execTree.root = some v)) ∧
    (∀ desc, exampleDispatch.GetFunctionByID execTree.fid = some desc →
      desc.m_original_function_id ≠ NULLFUNC →
      ∃ (a : Nat) (ev : Unit → Option Int), execTree.root = some a ∧
        invokeNode exampleDispatch execHeap (execHeap.length + 1) a = some (.delayed ev) ∧
        ev () = Evaluate exampleDispatch execHeap
          (invokeNode exampleDispatch execHeap execHeap.length) a ∧
        ev () = execTree.applied exampleDispatch ∧
        ev () = (execTree.withFid desc.m_original_function_id).applied exampleDispatch) ∧
    ExecuteTree exampleDispatch execHeap (some 0) = some 11 :=
  ExecuteTree_applies_callables exampleDispatch execHeap execTree none 1
    exampleDispatch_paired (by decide) (by decide)

end GP

namespace GP

/-! ## The text of a number and its extraction -/

theorem digitChar_isDigit {k : Nat} (hk : k < 10) : isDigit (digitChar k) = true := by
  interval_cases k <;> rfl

theorem digitChar_val {k : Nat} (hk : k < 10) : (digitChar k).toNat - 48 = k := by
  interval_cases k <;> rfl

theorem isDigit_not_space {c : Char} (h : isDigit c = true) : isSpace c = false := by
  simp only [isDigit, Bool.and_eq_true, decide_eq_true_eq] at h
  simp only [isSpace, Bool.or_eq_false_iff, decide_eq_false_iff_not, Bool.and_eq_false_imp,
    decide_eq_true_eq]
  omega

theorem isDigit_not_sign {c : Char} (h : isDigit c = true) :
    c ≠ Char.ofNat 45 ∧ c ≠ Char.ofNat 43 := by
  constructor <;> intro e <;> rw [e] at h <;> exact absurd h (by decide)

theorem isSpace_not_digit {c : Char} (h : isSpace c = true) : isDigit c = false := by
  cases hd : isDigit c with
  | false => rfl
  | true => rw [isDigit_not_space hd] at h; exact absurd h (by decide)

theorem decDigits_digits : ∀ (fuel n : Nat), ∀ c ∈ decDigits fuel n, isDigit c = true := by
  intro fuel
  induction fuel with
  | zero => intro n c hc; simp [decDigits] at hc
  | succ fuel ih =>
    intro n c hc
    unfold decDigits at hc
    split at hc
    · rw [List.mem_singleton] at hc
      rw [hc]; exact digitChar_isDigit (by omega)
    · rcases List.mem_append.mp hc with h | h
      · exact ih _ c h
      · rw [List.mem_singleton] at h
        rw [h]; exact digitChar_isDigit (Nat.mod_lt _ (by decide))

theorem decDigits_ne_nil : ∀ (fuel n : Nat), n < fuel → decDigits fuel n ≠ [] := by
  intro fuel n hn
  cases fuel with
  | zero => omega
  | succ fuel =>
    unfold decDigits
    split
    · simp
    · simp

theorem digitsValue_append (acc : Nat) (A : List Char) (c : Char) :
    digitsValue acc (A ++ [c]) = digitsValue acc A * 10 + (c.toNat - 48) := by
  induction A generalizing acc with
  | nil => rfl
  | cons a A ih => exact ih _

theorem digitsValue_decDigits : ∀ (fuel n : Nat), n < fuel →
    digitsValue 0 (decDigits fuel n) = n := by
  intro fuel
  induction fuel with
  | zero => intro n hn; omega
  | succ fuel ih =>
    intro n hn
    unfold decDigits
    split
    · rename_i h10
      have e : digitsValue 0 [digitChar n] = 0 * 10 + ((digitChar n).toNat - 48) := rfl
      rw [e, digitChar_val h10]
      omega
    · rename_i h10
      have h1 : n / 10 < fuel := by omega
      rw [digitsValue_append, ih (n / 10) h1, digitChar_val (Nat.mod_lt _ (by decide))]
      omega

theorem printNat_digits (n : Nat) : ∀ c ∈ printNat n, isDigit c = true :=
  decDigits_digits _ _

theorem printNat_ne_nil (n : Nat) : printNat n ≠ [] := decDigits_ne_nil _ _ (Nat.lt_succ_self n)

theorem digitsValue_printNat (n : Nat) : digitsValue 0 (printNat n) = n :=
  digitsValue_decDigits _ _ (Nat.lt_succ_self n)

theorem printInt_natCast (n : Nat) : printInt (n : Int) = printNat n := by
  unfold printInt
  rw [if_pos (by omega), Int.toNat_ofNat]

theorem dropWhile_run {p : Char → Bool} : ∀ (A : List Char) (c : Char) (R : List Char),
    (∀ x ∈ A, p x = true) → p c = false → (A ++ c :: R).dropWhile p = c :: R := by
  intro A
  induction A with
  | nil => intro c R _ hc; simp [List.dropWhile, hc]
  | cons a A ih =>
    intro c R hA hc
    simp only [List.cons_append, List.dropWhile, hA a (List.mem_cons_self _ _)]
    exact ih c R (fun x hx => hA x (List.mem_cons_of_mem _ hx)) hc

theorem takeWhile_run {p : Char → Bool} : ∀ (A : List Char) (c : Char) (R : List Char),
    (∀ x ∈ A, p x = true) → p c = false → (A ++ c :: R).takeWhile p = A := by
  intro A
  induction A with
  | nil => intro c R _ hc; simp [List.takeWhile, hc]
  | cons a A ih =>
    intro c R hA hc
    simp only [List.cons_append, List.takeWhile, hA a (List.mem_cons_self _ _)]
    exact congrArg (List.cons a) (ih c R (fun x hx => hA x (List.mem_cons_of_mem _ hx)) hc)

theorem dropWhile_all {p : Char → Bool} : ∀ (A : List Char), (∀ x ∈ A, p x = true) →
    A.dropWhile p = [] := by
  intro A
  induction A with
  | nil => intro _; rfl
  | cons a A ih =>
    intro hA
    simp only [List.dropWhile, hA a (List.mem_cons_self _ _)]
    exact ih (fun x hx => hA x (List.mem_cons_of_mem _ hx))

/-- The sentry in a good stream whose text has a character that is not white
space: it skips the white space before it. -/
theorem sentry_skip (ws : List Char) (c : Char) (R : List Char)
    (hws : ∀ x ∈ ws, isSpace x = true) (hc : isSpace c = false) :
    (⟨ws ++ c :: R, false, false⟩ : IStream).sentry = (⟨c :: R, false, false⟩, true) := by
  unfold IStream.sentry
  simp only [Bool.or_self, Bool.false_eq_true, if_false]
  rw [dropWhile_run ws c R hws hc]

/-- The sentry in a good stream whose text is white space only: the end of the
text is reached. -/
theorem sentry_end (ws : List Char) (hws : ∀ x ∈ ws, isSpace x = true) :
    (⟨ws, false, false⟩ : IStream).sentry = (⟨[], true, true⟩, false) := by
  unfold IStream.sentry
  simp only [Bool.or_self, Bool.false_eq_true, if_false]
  rw [dropWhile_all ws hws]

/-- The extraction of a number that `SerializeTree` wrote: white space, the
digits of `n`, and then a character that is not a digit. -/
theorem readInt_printNat (ws : List Char) (n : Nat) (c : Char) (R : List Char) (v : Option Int)
    (hws : ∀ x ∈ ws, isSpace x = true) (hc : isDigit c = false) (hn : (n : Int) ≤ INT_MAX) :
    (⟨ws ++ (printNat n ++ c :: R), false, false⟩ : IStream).readInt v =
      (⟨c :: R, false, false⟩, some (n : Int)) := by
  obtain ⟨d, D, hD⟩ := List.exists_cons_of_ne_nil (printNat_ne_nil n)
  have hdig := printNat_digits n
  rw [hD] at hdig
  have hd : isDigit d = true := hdig d (List.mem_cons_self _ _)
  have hval := digitsValue_printNat n
  unfold IStream.readInt
  rw [hD, List.cons_append, sentry_skip ws d _ hws (isDigit_not_space hd)]
  have htw : (d :: (D ++ c :: R)).takeWhile isDigit = d :: D := by
    have := takeWhile_run (d :: D) c R hdig hc
    simpa using this
  have hdw : (d :: (D ++ c :: R)).dropWhile isDigit = c :: R := by
    have := dropWhile_run (d :: D) c R hdig hc
    simpa using this
  have hs := isDigit_not_sign hd
  simp only [List.head?_cons, Option.some.injEq, hs.1, hs.2, decide_False, Bool.or_self,
    Bool.false_eq_true, if_false, htw, hdw, List.isEmpty_cons]
  rw [← hD, hval]
  unfold INT_MAX at hn
  rw [if_neg (by omega), if_neg (by omega)]

/-- The extraction of a name that `SerializeTree` wrote: white space, the name,
and then white space. -/
theorem readString_token (ws name : List Char) (c : Char) (R : List Char) (str : List Char)
    (hws : ∀ x ∈ ws, isSpace x = true) (hne : name ≠ [])
    (hname : ∀ x ∈ name, isSpace x = false) (hc : isSpace c = true) :
    (⟨ws ++ (name ++ c :: R), false, false⟩ : IStream).readString str =
      (⟨c :: R, false, false⟩, name) := by
  obtain ⟨d, D, hD⟩ := List.exists_cons_of_ne_nil hne
  have hname1 : ∀ x ∈ d :: D, (fun c => !isSpace c) x = true := by
    intro x hx
    rw [← hD] at hx
    simp [hname x hx]
  have hc1 : (fun c => !isSpace c) c = false := by simp [hc]
  unfold IStream.readString
  rw [hD, List.cons_append, sentry_skip ws d _ hws (hname d (by rw [hD]; simp))]
  have htw : (d :: (D ++ c :: R)).takeWhile (fun c => !isSpace c) = d :: D := by
    have := takeWhile_run (d :: D) c R hname1 hc1
    simpa using this
  have hdw : (d :: (D ++ c :: R)).dropWhile (fun c => !isSpace c) = c :: R := by
    have := dropWhile_run (d :: D) c R hname1 hc1
    simpa using this
  simp only [htw, hdw, List.isEmpty_cons]

/-- The extraction of the indices of the children that `SerializeTree` wrote. -/
theorem readParams_text : ∀ (params : List Nat) (c : Char) (R : List Char),
    isSpace c = true → (∀ j ∈ params, (j : Int) ≤ INT_MAX) →
    readParams params.length ⟨paramsText params ++ c :: R, false, false⟩ =
      (⟨c :: R, false, false⟩, params.map (fun (j : Nat) => some (j : Int))) := by
  intro params
  induction params with
  | nil => intro c R _ _; rfl
  | cons j params ih =>
    intro c R hc hp
    have hcons : paramsText (j :: params) = chSpace :: printNat j ++ paramsText params := by
      simp [paramsText]
    obtain ⟨c1, R1, hR1, hc1⟩ : ∃ c1 R1, paramsText params ++ c :: R = c1 :: R1 ∧
        isSpace c1 = true := by
      cases params with
      | nil => exact ⟨c, R, rfl, hc⟩
      | cons j1 params1 =>
        exact ⟨chSpace, printNat j1 ++ paramsText params1 ++ c :: R, by simp [paramsText], rfl⟩
    have hread := readInt_printNat [chSpace] j c1 R1 none
      (by intro x hx; rw [List.mem_singleton] at hx; rw [hx]; rfl)
      (isSpace_not_digit hc1) (hp j (List.mem_cons_self _ _))
    have hbuf : paramsText (j :: params) ++ c :: R = [chSpace] ++ (printNat j ++ c1 :: R1) := by
      rw [hcons, ← hR1]; simp
    rw [hbuf, List.length_cons, readParams]
    simp only [hread]
    rw [← hR1, ih c R hc (fun x hx => hp x (List.mem_cons_of_mem _ hx))]
    rfl

end GP

namespace GP

/-! ## The loop of `DeserializeTree` that reads the lines -/

theorem mapFind_none : ∀ {nodes : IntermediateNodes} {i : Int}, (∀ e ∈ nodes, e.1 < i) →
    mapFind nodes i = none := by
  intro nodes
  induction nodes with
  | nil => intro _ _; rfl
  | cons e nodes ih =>
    intro i h
    obtain ⟨k1, v1⟩ := e
    have h1 : k1 < i := h (k1, v1) (List.mem_cons_self _ _)
    rw [mapFind, if_neg (by omega)]
    exact ih (fun e he => h e (List.mem_cons_of_mem _ he))

theorem mapInsert_append : ∀ {nodes : IntermediateNodes} {i : Int} (v : IntermediateNode),
    (∀ e ∈ nodes, e.1 < i) → mapInsert nodes i v = nodes ++ [(i, v)] := by
  intro nodes
  induction nodes with
  | nil => intro _ _ _; rfl
  | cons e nodes ih =>
    intro i v h
    obtain ⟨k1, v1⟩ := e
    have h1 : k1 < i := h (k1, v1) (List.mem_cons_self _ _)
    rw [mapInsert, if_neg (by omega), if_neg (by omega),
      ih v (fun e he => h e (List.mem_cons_of_mem _ he))]
    rfl

theorem cstr_token {name : List Char} (h : ∀ x ∈ name, x.toNat ≠ 0) :
    cstr name = String.mk name := by
  unfold cstr
  congr 1
  rw [List.takeWhile_eq_self_iff]
  intro x hx
  simpa using h x hx

/-- The extraction of a number at the end of the text: the variable keeps its
value and the stream is at its end. -/
theorem readInt_end (ws : List Char) (v : Option Int) (hws : ∀ x ∈ ws, isSpace x = true) :
    (⟨ws, false, false⟩ : IStream).readInt v = (⟨[], true, true⟩, v) := by
  unfold IStream.readInt
  rw [sentry_end ws hws]

theorem paramsText_tail (params : List Nat) (c : Char) (R : List Char) (hc : isSpace c = true) :
    ∃ c1 R1, paramsText params ++ c :: R = c1 :: R1 ∧ isSpace c1 = true := by
  cases params with
  | nil => exact ⟨c, R, rfl, hc⟩
  | cons j1 params1 =>
    exact ⟨chSpace, printNat j1 ++ paramsText params1 ++ c :: R, by simp [paramsText], rfl⟩

/-- One round of the loop that reads the lines, on a line that `SerializeTree`
wrote for a registered name. -/
theorem readLoop_line {fl : GPFunctionLookup} (hwf : fl.WF) (fuel i : Nat)
    (nodes : IntermediateNodes) (ws name : List Char) (params : List Nat) (rest : List Char)
    (k o : Nat) (hws : ∀ x ∈ ws, isSpace x = true) (hnodes : ∀ e ∈ nodes, e.1 < (i : Int))
    (hi : (i : Int) ≤ INT_MAX) (hne : name ≠ [])
    (hname : ∀ x ∈ name, isSpace x = false ∧ x.toNat ≠ 0)
    (hparams : ∀ j ∈ params, (j : Int) ≤ INT_MAX)
    (hk : fl.GetFunctionIDByName (String.mk name) true = (k : Int)) (hkn : k < fl.m_nFuncs)
    (hnp : (fl.descAt k).m_nparams = params.length)
    (ho : (fl.descAt k).m_original_function_id = (o : Int)) (hon : o < fl.m_nFuncs) :
    readLoop fl (fuel + 1) ⟨ws ++ (lineOf i name params ++ rest), false, false⟩ nodes =
      readLoop fl fuel ⟨chNewline :: rest, false, false⟩
        (nodes ++ [((i : Int), entryOf fl name params)]) := by
  obtain ⟨c1, R1, hR1, hc1⟩ := paramsText_tail params chNewline rest rfl
  have hbuf : ws ++ (lineOf i name params ++ rest) =
      ws ++ (printNat i ++ chSpace :: (name ++ c1 :: R1)) := by
    rw [← hR1]; simp [lineOf]
  have h1 := readInt_printNat ws i chSpace (name ++ c1 :: R1) (some (-1)) hws rfl hi
  have h2 := readString_token [chSpace] name c1 R1 []
    (by intro x hx; rw [List.mem_singleton] at hx; rw [hx]; rfl) hne
    (fun x hx => (hname x hx).1) hc1
  have h3 := readParams_text params chNewline rest rfl hparams
  have hk120 : k < GP_MAX_FUNCTIONS * 2 := lt_of_lt_of_le hkn hwf.1
  have ho120 : o < GP_MAX_FUNCTIONS * 2 := lt_of_lt_of_le hon hwf.1
  have hn3 : (fl.descAt k).m_nparams ≤ GP_MAX_PARAMETERS := hwf.2 _ (descAt_mem hkn)
  have hentry : entryOf fl name params =
      ⟨(o : Int), (k : Int), (fl.descAt o).m_return_type, (fl.descAt k).m_return_type,
        params.map (fun (j : Nat) => some (j : Int)), -1, none⟩ := by
    unfold entryOf
    simp only [hk, Int.toNat_ofNat, ho]
  rw [hbuf, readLoop]
  simp only [Bool.false_eq_true, if_false, h1]
  rw [if_neg (by
    rw [mapFind_none hnodes]
    simp only [Option.isSome_none, Bool.false_eq_true, false_or]
    omega)]
  have h2a : (⟨chSpace :: (name ++ c1 :: R1), false, false⟩ : IStream).readString [] =
      (⟨c1 :: R1, false, false⟩, name) := h2
  simp only [h2a, cstr_token (fun x hx => (hname x hx).2), hk]
  rw [if_neg (by unfold NULLFUNC; omega), GetFunctionByID_nat fl hk120]
  simp only [ho, GetFunctionByID_nat fl ho120]
  rw [if_pos hn3, hnp, ← hR1, h3, mapInsert_append _ hnodes, hentry]

/-- The loop that reads the lines, on the text that `SerializeTree` writes: it
ends with one entry for every line. -/
theorem readLoop_lines {fl : GPFunctionLookup} (hwf : fl.WF) :
    ∀ (lines : List (List Char × List Nat)) (i : Nat) (nodes : IntermediateNodes)
      (ws : List Char) (fuel : Nat),
      (∀ x ∈ ws, isSpace x = true) → (∀ e ∈ nodes, e.1 < (i : Int)) →
      (∀ l ∈ lines, l.1 ≠ [] ∧ (∀ x ∈ l.1, isSpace x = false ∧ x.toNat ≠ 0) ∧
        (∀ j ∈ l.2, (j : Int) ≤ INT_MAX) ∧
        ∃ k o : Nat, fl.GetFunctionIDByName (String.mk l.1) true = (k : Int) ∧
          k < fl.m_nFuncs ∧ (fl.descAt k).m_nparams = l.2.length ∧
          (fl.descAt k).m_original_function_id = (o : Int) ∧ o < fl.m_nFuncs) →
      ((i + lines.length : Nat) : Int) ≤ INT_MAX + 1 → lines.length + 2 ≤ fuel →
      readLoop fl fuel ⟨ws ++ linesFrom i lines, false, false⟩ nodes =
        some (some (nodes ++ entriesFrom fl i lines)) := by
  intro lines
  induction lines with
  | nil =>
    intro i nodes ws fuel hws _ _ _ hfuel
    obtain ⟨fuel1, rfl⟩ : ∃ f, fuel = f + 2 := ⟨fuel - 2, by simp at hfuel; omega⟩
    simp only [linesFrom, List.append_nil, entriesFrom]
    rw [readLoop]
    simp only [Bool.false_eq_true, if_false, readInt_end ws _ hws]
    rw [if_pos (Or.inr trivial), readLoop]
    simp
  | cons l lines ih =>
    intro i nodes ws fuel hws hnodes hl hi hfuel
    obtain ⟨fuel1, rfl⟩ : ∃ f, fuel = f + 1 := ⟨fuel - 1, by simp at hfuel; omega⟩
    obtain ⟨hne, hname, hparams, k, o, hk, hkn, hnp, ho, hon⟩ := hl l (List.mem_cons_self _ _)
    simp only [List.length_cons] at hi hfuel
    have step := readLoop_line hwf fuel1 i nodes ws l.1 l.2 (linesFrom (i + 1) lines) k o hws
      hnodes (by push_cast at hi; omega) hne hname hparams hk hkn hnp ho hon
    simp only [linesFrom, entriesFrom]
    rw [step]
    have := ih (i + 1) (nodes ++ [((i : Int), entryOf fl l.1 l.2)]) [chNewline] fuel1
      (by intro x hx; rw [List.mem_singleton] at hx; rw [hx]; rfl)
      (by
        intro e he
        rcases List.mem_append.mp he with h | h
        · have := hnodes e h; push_cast; omega
        · rw [List.mem_singleton] at h; rw [h]; push_cast; omega)
      (fun l1 hl1 => hl l1 (List.mem_cons_of_mem _ hl1))
      (by push_cast at hi ⊢; omega) (by omega)
    rw [List.singleton_append] at this
    rw [this, List.append_assoc, List.singleton_append]

end GP

namespace GP

/-! ## The text that `SerializeTree` writes -/

/-- The search of `SerializeTree` for a node in the array of the iterator finds
the index of the node. -/
theorem findParamIndex_spec {L : List Nat} (hn : L.Nodup) {c j : Nat} (hj : L[j]? = some c) :
    ∀ (fuel s : Nat), s ≤ j → j < s + fuel →
      findParamIndex ⟨L.map some, (L.length : Int)⟩ (L.length : Int) c fuel (s : Int) =
        some (j : Int) := by
  have hjl : j < L.length := (List.getElem?_eq_some.mp hj).1
  intro fuel
  induction fuel with
  | zero => intro s h1 h2; omega
  | succ fuel ih =>
    intro s h1 h2
    have hsl : s < L.length := by omega
    rw [findParamIndex, if_pos (by omega), if_pos (by omega), Int.toNat_ofNat]
    simp only [List.getElem?_map, List.getElem?_eq_getElem hsl, Option.map_some',
      Option.some.injEq]
    by_cases he : L[s] = c
    · rw [if_pos he]
      have hsj : s = j := by
        have e1 : L[s] = L[j] := by
          rw [he]; exact ((List.getElem?_eq_some.mp hj).2).symm
        exact (List.Nodup.getElem_inj_iff hn).mp e1
      rw [hsj]
    · rw [if_neg he]
      have hsj : s ≠ j := by
        intro e; subst e
        exact he ((List.getElem?_eq_some.mp hj).2)
      have := ih (s + 1) (by omega) (by omega)
      rw [← this]; rfl

theorem indexOf_of_getElem? {L : List Nat} (hn : L.Nodup) {c j : Nat} (hj : L[j]? = some c) :
    L.indexOf c = j := by
  obtain ⟨hjl, e⟩ := List.getElem?_eq_some.mp hj
  rw [← e]
  exact List.indexOf_getElem hn j hjl

/-- One parameter link of `SerializeTree`: for a child the index of the child is
written. -/
theorem findParamIndex_child {L : List Nat} (hn : L.Nodup) {c i : Nat}
    (hc : ∃ j, i < j ∧ L[j]? = some c) :
    findParamIndex ⟨L.map some, (L.length : Int)⟩ (L.length : Int) c
        ((L.length : Int).toNat + 1) ((i : Int) + 1) = some ((L.indexOf c : Nat) : Int) ∧
      ((L.indexOf c : Nat) : Int) ≠ (L.length : Int) := by
  obtain ⟨j, hij, hj⟩ := hc
  have hjl : j < L.length := (List.getElem?_eq_some.mp hj).1
  rw [indexOf_of_getElem? hn hj, Int.toNat_ofNat]
  refine ⟨?_, by omega⟩
  have := findParamIndex_spec hn hj (L.length + 1) (i + 1) (by omega) (by omega)
  rw [← this]; rfl

/-- The loop of `SerializeTree` over the parameter links of a node writes the
indices of the children of the node. -/
theorem serializeParams_spec {L : List Nat} (hn : L.Nodup) (this_node : GPTreeNode) (i : Nat)
    (hkids : ∀ c ∈ this_node.kids, ∃ j, i < j ∧ L[j]? = some c) (out : List Char) :
    serializeParams ⟨L.map some, (L.length : Int)⟩ (L.length : Int) this_node (i : Int)
        GP_MAX_PARAMETERS 0 out =
      some (out ++ paramsText (this_node.kids.map (fun c => L.indexOf c))) := by
  obtain ⟨f, q0, q1, q2, par⟩ := this_node
  have hk : ∀ c, c ∈ [q0, q1, q2].filterMap id → ∃ j, i < j ∧ L[j]? = some c := hkids
  have key : ∀ (c : Nat), (∃ j, i < j ∧ L[j]? = some c) → ∀ (n p : Nat) (o : List Char)
      (node : GPTreeNode), node.parameters p = some c →
      serializeParams ⟨L.map some, (L.length : Int)⟩ (L.length : Int) node (i : Int)
        (n + 1) p o =
      serializeParams ⟨L.map some, (L.length : Int)⟩ (L.length : Int) node (i : Int)
        n (p + 1) (o ++ chSpace :: printNat (L.indexOf c)) := by
    intro c hc n p o node hp
    obtain ⟨h1, h2⟩ := findParamIndex_child hn hc
    rw [serializeParams]
    simp only [hp, h1]
    rw [if_pos h2, printInt_natCast]
  have skip : ∀ (n p : Nat) (o : List Char) (node : GPTreeNode), node.parameters p = none →
      serializeParams ⟨L.map some, (L.length : Int)⟩ (L.length : Int) node (i : Int)
        (n + 1) p o =
      serializeParams ⟨L.map some, (L.length : Int)⟩ (L.length : Int) node (i : Int)
        n (p + 1) o := by
    intro n p o node hp
    rw [serializeParams]
    simp only [hp]
  have e0 : (⟨f, q0, q1, q2, par⟩ : GPTreeNode).parameters 0 = q0 := rfl
  have e1 : (⟨f, q0, q1, q2, par⟩ : GPTreeNode).parameters 1 = q1 := rfl
  have e2 : (⟨f, q0, q1, q2, par⟩ : GPTreeNode).parameters 2 = q2 := rfl
  show serializeParams _ _ _ _ 3 0 out = _
  cases q0 with
  | none =>
    rw [skip 2 0 out _ e0]
    cases q1 with
    | none =>
      rw [skip 1 1 out _ e1]
      cases q2 with
      | none =>
        rw [skip 0 2 out _ e2]
        simp [serializeParams, GPTreeNode.kids, paramsText]
      | some c2 =>
        rw [key c2 (hk c2 (by simp)) 0 2 out _ e2]
        simp [serializeParams, GPTreeNode.kids, paramsText]
    | some c1 =>
      rw [key c1 (hk c1 (by simp)) 1 1 out _ e1]
      cases q2 with
      | none =>
        rw [skip 0 2 _ _ e2]
        simp [serializeParams, GPTreeNode.kids, paramsText]
      | some c2 =>
        rw [key c2 (hk c2 (by simp)) 0 2 _ _ e2]
        simp [serializeParams, GPTreeNode.kids, paramsText]
  | some c0 =>
    rw [key c0 (hk c0 (by simp)) 2 0 out _ e0]
    cases q1 with
    | none =>
      rw [skip 1 1 _ _ e1]
      cases q2 with
      | none =>
        rw [skip 0 2 _ _ e2]
        simp [serializeParams, GPTreeNode.kids, paramsText]
      | some c2 =>
        rw [key c2 (hk c2 (by simp)) 0 2 _ _ e2]
        simp [serializeParams, GPTreeNode.kids, paramsText]
    | some c1 =>
      rw [key c1 (hk c1 (by simp)) 1 1 _ _ e1]
      cases q2 with
      | none =>
        rw [skip 0 2 _ _ e2]
        simp [serializeParams, GPTreeNode.kids, paramsText]
      | some c2 =>
        rw [key c2 (hk c2 (by simp)) 0 2 _ _ e2]
        simp [serializeParams, GPTreeNode.kids, paramsText]

/-- The cell of a node of a well-formed tree in the heap: the function id is a
registered one, and the links are those of the tree. -/
theorem node_facts {fl : GPFunctionLookup} {h : Heap} {t : Subtree} {par : Option Nat} {ty : Int}
    (ht : IsTree h par t) (hw : WellTyped fl ty t) {a : Nat} (ha : a ∈ t.addrs) :
    ∃ (f : Nat) (c0 c1 c2 : Subtree) (ty1 : Int),
      t.find a = .node a (f : Int) c0 c1 c2 ∧
      h[a]? = some ⟨(f : Int), c0.root, c1.root, c2.root, parentOf h a⟩ ∧
      f < fl.m_nFuncs ∧ WellTyped fl ty1 (.node a (f : Int) c0 c1 c2) := by
  obtain ⟨f, c0, c1, c2, hfind, hcell⟩ := Rep.cell ht.1 ha
  obtain ⟨ty1, hw1, _⟩ := hw.find_typed ha
  rw [hfind] at hw1
  obtain ⟨d, _, h0, h1, _⟩ := WellTyped.node_iff.mp hw1
  obtain ⟨k, rfl⟩ : ∃ k : Nat, f = (k : Int) := ⟨f.toNat, by omega⟩
  exact ⟨k, c0, c1, c2, ty1, hfind, hcell, by exact_mod_cast h1, hw1⟩

theorem mem_levelOrder {t : Subtree} {a : Nat} : a ∈ t.levelOrder ↔ a ∈ t.addrs :=
  t.levelOrder_perm.mem_iff

/-- The children of a node come behind the node in the breadth-first order. -/
theorem kids_behind {h : Heap} {t : Subtree} {par : Option Nat} (ht : IsTree h par t) {i a : Nat}
    {n : GPTreeNode} (hi : t.levelOrder[i]? = some a) (hn : h[a]? = some n) :
    ∀ c ∈ n.kids, ∃ j, i < j ∧ t.levelOrder[j]? = some c := by
  obtain ⟨e, he, hk⟩ := levelOrder_children_behind ht.1.toRepC hi hn
  intro c hc
  obtain ⟨q, hq, hqc⟩ := List.getElem_of_mem hc
  refine ⟨e + q, by omega, ?_⟩
  rw [hk q hq, List.getElem?_eq_getElem hq, hqc]

/-- The outer loop of `SerializeTree` writes the lines of the nodes, in
breadth-first order. -/
theorem serializeLoop_spec {fl : GPFunctionLookup} (hwf : fl.WF) (hterm : fl.TerminatedNames)
    {h : Heap} {t : Subtree} {par : Option Nat} {ty : Int} (ht : IsTree h par t)
    (hw : WellTyped fl ty t) :
    ∀ (n i : Nat) (out : List Char), i + n = t.levelOrder.length →
      serializeLoop fl h ⟨t.levelOrder.map some, (t.levelOrder.length : Int)⟩
          (t.levelOrder.length : Int) n (i : Int) out =
        some (out ++ linesFrom i ((t.levelOrder.drop i).map (lineData fl h t.levelOrder))) := by
  have hnd := Subtree.levelOrder_nodup ht.2
  have hlive : Live ⟨t.levelOrder.map some, (t.levelOrder.length : Int)⟩ t.levelOrder :=
    ⟨rfl, [], by simp⟩
  intro n
  induction n with
  | zero =>
    intro i out hi
    have : t.levelOrder.drop i = [] := List.drop_eq_nil_of_le (by omega)
    rw [this]
    simp [serializeLoop, linesFrom]
  | succ n ih =>
    intro i out hi
    have hil : i < t.levelOrder.length := by omega
    have hia : t.levelOrder[i]? = some t.levelOrder[i] := List.getElem?_eq_getElem hil
    have ha : t.levelOrder[i] ∈ t.addrs := mem_levelOrder.mp (List.getElem_mem hil)
    obtain ⟨f, c0, c1, c2, ty1, _, hcell, hf, _⟩ := node_facts ht hw ha
    have hget := GetFunctionByID_nat fl (lt_of_lt_of_le hf hwf.1)
    have hpar := serializeParams_spec hnd _ i (kids_behind ht hia hcell)
      (out ++ printInt (i : Int) ++ chSpace :: (fl.descAt f).m_debug_name.data)
    have hdrop : t.levelOrder.drop i = t.levelOrder[i] :: t.levelOrder.drop (i + 1) :=
      List.drop_eq_getElem_cons hil
    have hline : lineData fl h t.levelOrder t.levelOrder[i] =
        ((fl.descAt f).m_debug_name.data,
          (GPTreeNode.kids ⟨(f : Int), c0.root, c1.root, c2.root, parentOf h t.levelOrder[i]⟩).map
            (fun c => t.levelOrder.indexOf c)) := by
      unfold lineData
      rw [hcell]
      simp only [Int.toNat_ofNat]
    rw [serializeLoop, hlive.getNode hil]
    simp only [hcell, hget, if_pos (hterm _ (descAt_mem hf)), hpar]
    have := ih (i + 1) ((out ++ printInt (i : Int) ++ chSpace :: (fl.descAt f).m_debug_name.data ++
      paramsText ((GPTreeNode.kids
        ⟨(f : Int), c0.root, c1.root, c2.root, parentOf h t.levelOrder[i]⟩).map
          (fun c => t.levelOrder.indexOf c))) ++ [chNewline]) (by omega)
    rw [show ((i : Int) + 1) = ((i + 1 : Nat) : Int) by push_cast; rfl, this, hdrop,
      List.map_cons, linesFrom, hline, printInt_natCast]
    simp [lineOf]

/-- `SerializeTree` on a tree object that owns a well-formed tree: the text that
is appended is the lines of the nodes in breadth-first order. -/
theorem SerializeTree_spec {fl : GPFunctionLookup} (hwf : fl.WF) (hterm : fl.TerminatedNames)
    {h : Heap} {T : GPTree} {t : Subtree} {ty : Int} (hinv : TreeInv h T t)
    (hw : WellTyped fl ty t) (out : List Char) :
    SerializeTree fl h T out =
      some (out ++ linesFrom 0 (t.levelOrder.map (lineData fl h t.levelOrder))) := by
  obtain ⟨a, hroot, _⟩ := hinv.root_some hw
  obtain ⟨hof, _⟩ := ofTree_spec hinv hroot
  have hc : T.Count = (t.levelOrder.length : Int) := by
    show T.m_count = _
    rw [hinv.2.2.1, t.length_levelOrder]
  unfold SerializeTree
  rw [hof]
  simp only [hc, Int.toNat_ofNat]
  have := serializeLoop_spec hwf hterm hinv.1 hw t.levelOrder.length 0 out (by omega)
  simpa using this

end GP

namespace GP

/-! ## The registry as `DeserializeTree` uses it -/

theorem descAt_getElem? {fl : GPFunctionLookup} {k : Nat} (hk : k < fl.m_nFuncs) :
    fl.m_functions[k]? = some (fl.descAt k) := by
  have hk1 : k < fl.m_functions.length := hk
  unfold GPFunctionLookup.descAt
  rw [List.getD_eq_getElem _ _ hk1, List.getElem?_eq_getElem hk1]

/-- The loop of `GetFunctionIDByName` for a delayed twin returns the first
descriptor with the name, when this is a delayed one. -/
theorem nameLoop_first (name : String) : ∀ (l : List GPFunctionDesc) (i k : Nat)
    (d : GPFunctionDesc), l[k]? = some d → name = d.m_debug_name →
    d.m_original_function_id ≠ NULLFUNC →
    (∀ j dj, j < k → l[j]? = some dj → name ≠ dj.m_debug_name) →
    nameLoop name true l i = ((i + k : Nat) : Int) := by
  intro l
  induction l with
  | nil => intro i k d hk; simp at hk
  | cons x l ih =>
    intro i k d hk hname hdel hfirst
    cases k with
    | zero =>
      simp only [List.getElem?_cons_zero, Option.some.injEq] at hk
      subst hk
      rw [nameLoop, if_pos ⟨hname, by simp [hdel]⟩]
      rfl
    | succ k =>
      rw [nameLoop, if_neg (fun hc => hfirst 0 x (by omega) (List.getElem?_cons_zero) hc.1)]
      have := ih (i + 1) k d (by simpa using hk) hname hdel
        (fun j dj hj hdj => hfirst (j + 1) dj (by omega) (by simpa using hdj))
      rw [this]
      congr 1
      omega

/-- The pair of a registered function: the lookup of its name finds the delayed
twin, which leads to the function itself. -/
theorem twin_facts {fl : GPFunctionLookup} (htw : fl.Twinned) (hdn : fl.DistinctNames) {f : Nat}
    (hf : f < fl.m_nFuncs) :
    fl.GetFunctionIDByName (fl.descAt f).m_debug_name true = ((2 * (f / 2) : Nat) : Int) ∧
      2 * (f / 2) + 1 < fl.m_nFuncs ∧
      (fl.descAt (2 * (f / 2))).m_original_function_id = ((2 * (f / 2) + 1 : Nat) : Int) ∧
      (fl.descAt (2 * (f / 2))).m_nparams = (fl.descAt f).m_nparams ∧
      (fl.descAt (2 * (f / 2) + 1)).m_nparams = (fl.descAt f).m_nparams ∧
      (fl.descAt (2 * (f / 2) + 1)).m_param_types = (fl.descAt f).m_param_types ∧
      (fl.descAt (2 * (f / 2) + 1)).m_return_type ≠ (fl.descAt (2 * (f / 2))).m_return_type := by
  have hk : 2 * (f / 2) < fl.m_nFuncs := by omega
  have h := htw (2 * (f / 2)) hk
  rw [if_pos (by omega)] at h
  obtain ⟨h1, h2, h3, h4, h5, h6⟩ := h
  have hcases : f = 2 * (f / 2) ∨ f = 2 * (f / 2) + 1 := by omega
  have hname : (fl.descAt f).m_debug_name = (fl.descAt (2 * (f / 2))).m_debug_name := by
    rcases hcases with e | e
    · rw [← e]
    · rw [← h5, ← e]
  have hlook := nameLoop_first (fl.descAt f).m_debug_name fl.m_functions 0 (2 * (f / 2))
    (fl.descAt (2 * (f / 2))) (descAt_getElem? hk) hname
    (by rw [h2]; unfold NULLFUNC; omega)
    (by
      intro j dj hj hdj hc
      have hjn : j < fl.m_nFuncs := by omega
      rw [descAt_getElem? hjn] at hdj
      simp only [Option.some.injEq] at hdj
      rw [← hdj] at hc
      have := hdn f hf j hjn hc
      omega)
  refine ⟨?_, h1, ?_, ?_, ?_, ?_, h6⟩
  · unfold GPFunctionLookup.GetFunctionIDByName
    rw [hlook, Nat.zero_add]
  · rw [h2]; push_cast; rfl
  · rcases hcases with e | e
    · rw [← e]
    · rw [← h3, ← e]
  · rcases hcases with e | e
    · rw [h3, ← e]
    · rw [← e]
  · rcases hcases with e | e
    · rw [h4, ← e]
    · rw [← e]

/-- The id that `DeserializeTree` gives the placeholder of a node, and when it
is the id of the node. -/
theorem origID_natCast (f : Nat) : origID (f : Int) = ((2 * (f / 2) + 1 : Nat) : Int) := by
  unfold origID
  rw [Int.toNat_ofNat]

/-! ## The nodes of a well-formed tree and their children -/

/-- The children of a node of a well-formed tree in the heap: the slots of the
parameters hold a child each, a node of the tree whose parent link points back
and whose function returns the type of the parameter; the other slots are
empty. -/
theorem slot_facts {fl : GPFunctionLookup} (hwf : fl.WF) {h : Heap} {t : Subtree}
    {par : Option Nat} {ty : Int} (ht : IsTree h par t) (hw : WellTyped fl ty t) {a : Nat}
    {n : GPTreeNode} (ha : a ∈ t.addrs) (hn : h[a]? = some n) :
    ∃ f : Nat, n.functionID = (f : Int) ∧ f < fl.m_nFuncs ∧
      n.kids.length = (fl.descAt f).m_nparams ∧ (fl.descAt f).m_nparams ≤ 3 ∧
      (∀ q, q < (fl.descAt f).m_nparams → ∃ (c g : Nat) (nc : GPTreeNode),
        n.parameters q = some c ∧ n.kids[q]? = some c ∧ c ∈ t.addrs ∧ h[c]? = some nc ∧
        nc.parent = some a ∧ nc.functionID = (g : Int) ∧ g < fl.m_nFuncs ∧
        (fl.descAt g).m_return_type = (fl.descAt f).paramType q) ∧
      (∀ q, (fl.descAt f).m_nparams ≤ q → n.parameters q = none) := by
  obtain ⟨f, c0, c1, c2, ty1, hfind, hcell, hf, hw1⟩ := node_facts ht hw ha
  rw [hn] at hcell
  simp only [Option.some.injEq] at hcell
  have hsub : ∀ y ∈ (t.find a).addrs, y ∈ t.addrs :=
    fun y hy => (Subtree.find_addrs_sublist t).subset hy
  have hrf := Rep.find_sub ht.1 ha
  rw [hfind] at hsub hrf
  obtain ⟨_, r0, r1, r2⟩ := hrf
  obtain ⟨d, hd, _, _, _, hn3, w0, w1, w2⟩ := WellTyped.node_iff.mp hw1
  rw [GetFunctionByID_nat fl (lt_of_lt_of_le hf hwf.1)] at hd
  simp only [Option.some.injEq] at hd
  subst hd
  have child : ∀ (c : Subtree) (tyq : Int), WellTyped fl tyq c → Rep h (some a) c →
      (∀ y ∈ c.addrs, y ∈ (Subtree.node a (f : Int) c0 c1 c2).addrs) →
      ∃ (x g : Nat) (nc : GPTreeNode), c.root = some x ∧ x ∈ t.addrs ∧ h[x]? = some nc ∧
        nc.parent = some a ∧ nc.functionID = (g : Int) ∧ g < fl.m_nFuncs ∧
        (fl.descAt g).m_return_type = tyq := by
    intro c tyq hwc hrc hcs
    cases c with
    | null => exact absurd hwc id
    | node x g d0 d1 d2 =>
      obtain ⟨dg, hdg, g0, g1, grt, _⟩ := WellTyped.node_iff.mp hwc
      obtain ⟨k, rfl⟩ : ∃ k : Nat, g = (k : Int) := ⟨g.toNat, by omega⟩
      have hk : k < fl.m_nFuncs := by exact_mod_cast g1
      rw [GetFunctionByID_nat fl (lt_of_lt_of_le hk hwf.1)] at hdg
      simp only [Option.some.injEq] at hdg
      subst hdg
      exact ⟨x, k, _, rfl, hsub x (hcs x (Subtree.mem_addrs_node.mpr (Or.inl rfl))), hrc.1, rfl,
        rfl, hk, grt⟩
  have s0 := fun y (hy : y ∈ c0.addrs) =>
    (@Subtree.mem_addrs_node a y (f : Int) c0 c1 c2).mpr
      (Or.inr (Or.inl hy))
  have s1 := fun y (hy : y ∈ c1.addrs) =>
    (@Subtree.mem_addrs_node a y (f : Int) c0 c1 c2).mpr
      (Or.inr (Or.inr (Or.inl hy)))
  have s2 := fun y (hy : y ∈ c2.addrs) =>
    (@Subtree.mem_addrs_node a y (f : Int) c0 c1 c2).mpr
      (Or.inr (Or.inr (Or.inr hy)))
  have hnull : Subtree.null.root = none := rfl
  subst hcell
  refine ⟨f, rfl, hf, ?_, hn3, ?_, ?_⟩
  · have hcases : (fl.descAt f).m_nparams = 0 ∨ (fl.descAt f).m_nparams = 1 ∨
        (fl.descAt f).m_nparams = 2 ∨ (fl.descAt f).m_nparams = 3 := by omega
    rcases hcases with e | e | e | e <;> rw [e] at w0 w1 w2 ⊢ <;>
      simp only [Nat.lt_irrefl, if_false, Nat.zero_lt_one, if_true, Nat.one_lt_ofNat,
        Nat.lt_add_one, Nat.zero_lt_succ, show ¬ (1 < 1) by omega, show ¬ (2 < 1) by omega,
        show ¬ (2 < 2) by omega, show (0 < 2) by omega, show (0 < 3) by omega,
        show (1 < 3) by omega, show (2 < 3) by omega, show ¬ (1 < 0) by omega,
        show ¬ (2 < 0) by omega] at w0 w1 w2
    · subst w0 w1 w2; rfl
    · obtain ⟨x0, _, _, e0, _⟩ := child c0 _ w0 r0 s0
      subst w1 w2
      simp [GPTreeNode.kids, e0, hnull]
    · obtain ⟨x0, _, _, e0, _⟩ := child c0 _ w0 r0 s0
      obtain ⟨x1, _, _, e1, _⟩ := child c1 _ w1 r1 s1
      subst w2
      simp [GPTreeNode.kids, e0, e1, hnull]
    · obtain ⟨x0, _, _, e0, _⟩ := child c0 _ w0 r0 s0
      obtain ⟨x1, _, _, e1, _⟩ := child c1 _ w1 r1 s1
      obtain ⟨x2, _, _, e2, _⟩ := child c2 _ w2 r2 s2
      simp [GPTreeNode.kids, e0, e1, e2]
  · intro q hq
    have hq3 : q = 0 ∨ q = 1 ∨ q = 2 := by omega
    rcases hq3 with rfl | rfl | rfl
    · rw [if_pos hq] at w0
      obtain ⟨x0, g, nc, e0, r⟩ := child c0 _ w0 r0 s0
      exact ⟨x0, g, nc, e0, by simp [GPTreeNode.kids, e0], r⟩
    · rw [if_pos (by omega)] at w0
      rw [if_pos hq] at w1
      obtain ⟨x0, _, _, e0, _⟩ := child c0 _ w0 r0 s0
      obtain ⟨x1, g, nc, e1, r⟩ := child c1 _ w1 r1 s1
      exact ⟨x1, g, nc, e1, by simp [GPTreeNode.kids, e0, e1], r⟩
    · rw [if_pos (by omega)] at w0 w1
      rw [if_pos hq] at w2
      obtain ⟨x0, _, _, e0, _⟩ := child c0 _ w0 r0 s0
      obtain ⟨x1, _, _, e1, _⟩ := child c1 _ w1 r1 s1
      obtain ⟨x2, g, nc, e2, r⟩ := child c2 _ w2 r2 s2
      exact ⟨x2, g, nc, e2, by simp [GPTreeNode.kids, e0, e1, e2], r⟩
  · intro q hq
    match q, hq with
    | 0, hq =>
      rw [if_neg (by omega)] at w0
      subst w0; rfl
    | 1, hq =>
      rw [if_neg (by omega)] at w1
      subst w1; rfl
    | 2, hq =>
      rw [if_neg (by omega)] at w2
      subst w2; rfl
    | _ + 3, _ => rfl

end GP

namespace GP

/-! ## The map of `DeserializeTree` behind the loop of the placeholders -/

theorem placeholderLoop_entries (fl : GPFunctionLookup) :
    ∀ (lines : List (List Char × List Nat)) (i : Nat) (h : Heap),
      placeholderLoop (entriesFrom fl i lines) h =
        (placedFrom fl h.length i lines,
          h ++ lines.map (fun l => GPTreeNode.mk0 (entryOf fl l.1 l.2).functionID)) := by
  intro lines
  induction lines with
  | nil => intro i h; simp [entriesFrom, placeholderLoop, placedFrom]
  | cons l lines ih =>
    intro i h
    simp only [entriesFrom, placeholderLoop, placedFrom, List.map_cons]
    rw [ih (i + 1) (h ++ [GPTreeNode.mk0 (entryOf fl l.1 l.2).functionID])]
    simp

theorem mapFind_placedFrom (fl : GPFunctionLookup) :
    ∀ (lines : List (List Char × List Nat)) (b i j : Nat) (l : List Char × List Nat),
      lines[j]? = some l →
      mapFind (placedFrom fl b i lines) ((i + j : Nat) : Int) =
        some { entryOf fl l.1 l.2 with finalNode := some (b + j) } := by
  intro lines
  induction lines with
  | nil => intro b i j l hl; simp at hl
  | cons l0 lines ih =>
    intro b i j l hl
    cases j with
    | zero =>
      simp only [List.getElem?_cons_zero, Option.some.injEq] at hl
      subst hl
      simp [placedFrom, mapFind]
    | succ j =>
      rw [placedFrom, mapFind, if_neg (by push_cast; omega)]
      have := ih (b + 1) (i + 1) j l (by simpa using hl)
      rw [show b + 1 + j = b + (j + 1) by omega] at this
      rw [show i + (j + 1) = i + 1 + j by omega, this]

theorem placedFrom_drop (fl : GPFunctionLookup) :
    ∀ (lines : List (List Char × List Nat)) (b i k : Nat),
      (placedFrom fl b i lines).drop k = placedFrom fl (b + k) (i + k) (lines.drop k) := by
  intro lines
  induction lines with
  | nil => intro b i k; simp [placedFrom]
  | cons l0 lines ih =>
    intro b i k
    cases k with
    | zero => rfl
    | succ k =>
      rw [placedFrom, List.drop_succ_cons, List.drop_succ_cons, ih]
      congr 1 <;> omega

theorem placedFrom_static (fl : GPFunctionLookup) :
    ∀ (lines : List (List Char × List Nat)) (b i : Nat),
      (placedFrom fl b i lines).map (fun e => (e.1, e.2.static)) = placedFrom fl b i lines := by
  intro lines
  induction lines with
  | nil => intro b i; rfl
  | cons l0 lines ih =>
    intro b i
    rw [placedFrom, List.map_cons, ih]
    rfl

/-- An entry is found in the map of the linking as it is found in the map behind
the loop of the placeholders, up to what the linking writes. -/
theorem mapFind_static : ∀ {cur placed : IntermediateNodes} {p : Int} {E : IntermediateNode},
    cur.map (fun e => (e.1, e.2.static)) = placed → mapFind placed p = some E →
    ∃ e, mapFind cur p = some e ∧ e.static = E := by
  intro cur
  induction cur with
  | nil =>
    intro placed p E hc hE
    simp only [List.map_nil] at hc
    rw [← hc] at hE
    simp [mapFind] at hE
  | cons e0 cur ih =>
    intro placed p E hc hE
    obtain ⟨k0, v0⟩ := e0
    simp only [List.map_cons] at hc
    rw [← hc, mapFind] at hE
    rw [mapFind]
    by_cases hk : k0 = p
    · rw [if_pos hk] at hE ⊢
      exact ⟨v0, rfl, by simpa using hE⟩
    · rw [if_neg hk] at hE ⊢
      exact ih rfl hE

theorem setReferencedBy_static (cur : IntermediateNodes) (p v : Int) :
    (setReferencedBy cur p v).map (fun e => (e.1, e.2.static)) =
      cur.map (fun e => (e.1, e.2.static)) := by
  unfold setReferencedBy
  rw [List.map_map]
  apply List.map_congr_left
  intro e _
  simp only [Function.comp]
  split <;> rfl

theorem setReferencedBy_head {cur : IntermediateNodes} {e : IntermediateNode}
    {rest : IntermediateNodes} (hc : cur = ((0 : Int), e) :: rest) {p : Int} (hp : p ≠ 0)
    (v : Int) : ∃ rest1, setReferencedBy cur p v = ((0 : Int), e) :: rest1 := by
  subst hc
  refine ⟨setReferencedBy rest p v, ?_⟩
  simp only [setReferencedBy, List.map_cons]
  rw [if_neg (fun h => hp h.symm)]

/-! ## One round of the linking -/

theorem setFunctionID_isSome {h : Heap} {a : Nat} {n : GPTreeNode} (f : Int)
    (e : h[a]? = some n) : setFunctionID h a f = some (h.set a { n with functionID := f }) := by
  simp [setFunctionID, e]

/-- The three assignments of one round of the linking, on two different cells
`x` (the node of the parameter) and `y` (the node of the entry): `x` gets the
function id `f` and the parent `y`, and `y` gets `x` as parameter `q`. -/
theorem link_round {g : Heap} {x y q : Nat} {nx ny : GPTreeNode} (hxy : x ≠ y)
    (hx : g[x]? = some nx) (hy : g[y]? = some ny) (hq : q < 3) (sw : Option Int) :
    ∃ g1 g2 g3 nx1 ny1,
      (sw.map (setFunctionID g x)).getD (some g) = some g1 ∧
      setParent g1 x (some y) = some g2 ∧ setParam g2 y q (some x) = some g3 ∧
      g3.length = g.length ∧ (∀ z, z ≠ x → z ≠ y → g3[z]? = g[z]?) ∧
      g3[x]? = some nx1 ∧ nx1.functionID = sw.getD nx.functionID ∧ nx1.parent = some y ∧
      (∀ s, nx1.parameters s = nx.parameters s) ∧
      g3[y]? = some ny1 ∧ ny1.functionID = ny.functionID ∧ ny1.parent = ny.parent ∧
      (∀ s, ny1.parameters s = if s = q then some x else ny.parameters s) := by
  have hxl := lt_of_getElem?_eq_some hx
  have hyl := lt_of_getElem?_eq_some hy
  obtain ⟨g1, nx0, e1, l1, hg1, hx1, hf0, hp0, hq0⟩ : ∃ (g1 : Heap) (nx0 : GPTreeNode),
      (sw.map (setFunctionID g x)).getD (some g) = some g1 ∧ g1.length = g.length ∧
      (∀ z, z ≠ x → g1[z]? = g[z]?) ∧ g1[x]? = some nx0 ∧
      nx0.functionID = sw.getD nx.functionID ∧ nx0.parent = nx.parent ∧
      (∀ s, nx0.parameters s = nx.parameters s) := by
    cases sw with
    | none => exact ⟨g, nx, rfl, rfl, fun _ _ => rfl, hx, rfl, rfl, fun _ => rfl⟩
    | some f =>
      refine ⟨g.set x { nx with functionID := f }, { nx with functionID := f },
        setFunctionID_isSome f hx, by simp, ?_, ?_, rfl, rfl, ?_⟩
      · intro z hz
        rw [getElem?_set_heap g x z _ hxl, if_neg hz]
      · rw [getElem?_set_heap g x x _ hxl, if_pos rfl]
      · intro s
        rcases s with _ | _ | _ | s <;> rfl
  have e2 := setParent_isSome (some y) hx1
  have hx1l : x < g1.length := by omega
  have hy2 : (g1.set x { nx0 with parent := some y })[y]? = some ny := by
    rw [getElem?_set_heap g1 x y _ hx1l, if_neg (Ne.symm hxy), hg1 y (Ne.symm hxy), hy]
  obtain ⟨ny1, hs, hf1, hp1, hq1⟩ := setParameter_isSome ny hq (some x)
  have e3 : setParam (g1.set x { nx0 with parent := some y }) y q (some x) =
      some ((g1.set x { nx0 with parent := some y }).set y ny1) := by
    simp [setParam, hy2, hs]
  have hyl2 : y < (g1.set x { nx0 with parent := some y }).length := by
    rw [List.length_set]; omega
  refine ⟨g1, _, _, { nx0 with parent := some y }, ny1, e1, e2, e3, by simp [l1], ?_, ?_, hf0,
    rfl, ?_, ?_, hf1, hp1, hq1⟩
  · intro z hzx hzy
    rw [getElem?_set_heap _ y z _ hyl2, if_neg hzy, getElem?_set_heap g1 x z _ hx1l,
      if_neg hzx, hg1 z hzx]
  · rw [getElem?_set_heap _ y x _ hyl2, if_neg hxy, getElem?_set_heap g1 x x _ hx1l,
      if_pos rfl]
  · intro s
    rw [← hq0 s]
    rcases s with _ | _ | _ | s <;> rfl
  · rw [getElem?_set_heap _ y y _ hyl2, if_pos rfl]

/-! ## The state of the linking -/

theorem Done_succ {k q m p : Nat} : Done k (q + 1) m p ↔ Done k q m p ∨ (m = k ∧ p = q) := by
  unfold Done
  omega

theorem Linked_succ {h : Heap} {L : List Nat} {k q a c x : Nat} {n : GPTreeNode}
    (hk : L[k]? = some a) (hn : h[a]? = some n) (hc : n.parameters q = some c) :
    Linked h L k (q + 1) x ↔ Linked h L k q x ∨ x = c := by
  unfold Linked
  constructor
  · rintro ⟨m, p, b, nb, hd, hb, hnb, hp⟩
    rcases Done_succ.mp hd with hd | ⟨rfl, rfl⟩
    · exact Or.inl ⟨m, p, b, nb, hd, hb, hnb, hp⟩
    · rw [hk] at hb
      simp only [Option.some.injEq] at hb
      subst hb
      rw [hn] at hnb
      simp only [Option.some.injEq] at hnb
      subst hnb
      rw [hc] at hp
      simp only [Option.some.injEq] at hp
      exact Or.inr hp.symm
  · rintro (⟨m, p, b, nb, hd, hb, hnb, hp⟩ | rfl)
    · exact ⟨m, p, b, nb, Done_succ.mpr (Or.inl hd), hb, hnb, hp⟩
    · exact ⟨k, q, a, n, Done_succ.mpr (Or.inr ⟨rfl, rfl⟩), hk, hn, hc⟩

/-- The state of the linking before the first entry: the placeholders. -/
theorem LinkInv_init (fl : GPFunctionLookup) (h : Heap) (L : List Nat)
    (hfid : ∀ a n, a ∈ L → h[a]? = some n →
      (entryOf fl (lineData fl h L a).1 (lineData fl h L a).2).functionID =
        origID n.functionID) :
    LinkInv h L 0 0 (h ++ (L.map (lineData fl h L)).map
      (fun l => GPTreeNode.mk0 (entryOf fl l.1 l.2).functionID)) := by
  have hnd : ∀ m p, ¬ Done 0 0 m p := by
    intro m p hd
    unfold Done at hd
    omega
  refine ⟨by simp, ?_, ?_⟩
  · intro x hx
    rw [List.getElem?_append_left hx]
  · intro j a n hj hn
    have hjl : j < L.length := (List.getElem?_eq_some.mp hj).1
    refine ⟨GPTreeNode.mk0 (origID n.functionID), ?_, ?_, ?_, ?_⟩
    · rw [List.getElem?_append_right (by omega), Nat.add_sub_cancel_left, List.map_map,
        List.getElem?_map, hj]
      simp only [Option.map_some', Function.comp]
      rw [hfid a n (List.getElem?_mem hj) hn]
    · intro p
      rw [if_neg (hnd j p)]
      rcases p with _ | _ | _ | p <;> rfl
    · rintro ⟨m, p, _, _, hd, _⟩
      exact absurd hd (hnd m p)
    · intro _
      exact ⟨rfl, rfl⟩

/-- The state of the linking behind the last parameter of an entry is the state
before the next entry. -/
theorem LinkInv_next {h : Heap} {L : List Nat} {k q a : Nat} {n : GPTreeNode} {g : Heap}
    (hk : L[k]? = some a) (hn : h[a]? = some n) (hq : ∀ p, q ≤ p → n.parameters p = none)
    (inv : LinkInv h L k q g) : LinkInv h L (k + 1) 0 g := by
  have hlinked : ∀ x, Linked h L (k + 1) 0 x ↔ Linked h L k q x := by
    intro x
    unfold Linked
    constructor
    · rintro ⟨m, p, b, nb, hd, hb, hnb, hp⟩
      refine ⟨m, p, b, nb, ?_, hb, hnb, hp⟩
      unfold Done at hd ⊢
      by_cases hm : m = k
      · subst hm
        rw [hk] at hb
        simp only [Option.some.injEq] at hb
        subst hb
        rw [hn] at hnb
        simp only [Option.some.injEq] at hnb
        subst hnb
        by_cases hpq : p < q
        · exact Or.inr ⟨rfl, hpq⟩
        · rw [hq p (by omega)] at hp
          cases hp
      · omega
    · rintro ⟨m, p, b, nb, hd, hb, hnb, hp⟩
      refine ⟨m, p, b, nb, ?_, hb, hnb, hp⟩
      unfold Done at hd ⊢
      omega
  refine ⟨inv.len, inv.old, ?_⟩
  intro j a1 n1 hj hn1
  obtain ⟨cur, hcur, hpar, hl, hnl⟩ := inv.cells j a1 n1 hj hn1
  refine ⟨cur, hcur, ?_, ?_, ?_⟩
  · intro p
    rw [hpar p]
    by_cases hd : Done k q j p
    · rw [if_pos hd, if_pos (by unfold Done at hd ⊢; omega)]
    · rw [if_neg hd]
      by_cases hd1 : Done (k + 1) 0 j p
      · rw [if_pos hd1]
        have hjk : j = k := by unfold Done at hd hd1; omega
        subst hjk
        rw [hk] at hj
        simp only [Option.some.injEq] at hj
        subst hj
        rw [hn] at hn1
        simp only [Option.some.injEq] at hn1
        subst hn1
        rw [hq p (by unfold Done at hd; omega)]
        rfl
      · rw [if_neg hd1]
  · intro hx
    exact hl ((hlinked a1).mp hx)
  · intro hx
    exact hnl (fun hc => hx ((hlinked a1).mpr hc))

end GP

namespace GP

/-! ## The entries of the map for the nodes of a tree -/

/-- The entry that `DeserializeTree` builds from the line of a node of a
well-formed tree. -/
theorem entry_facts {fl : GPFunctionLookup} (htw : fl.Twinned) (hdn : fl.DistinctNames)
    {h : Heap} (L : List Nat) {a f : Nat} {n : GPTreeNode} (hn : h[a]? = some n)
    (hf : n.functionID = (f : Int)) (hfn : f < fl.m_nFuncs) :
    entryOf fl (lineData fl h L a).1 (lineData fl h L a).2 =
      ⟨((2 * (f / 2) + 1 : Nat) : Int), ((2 * (f / 2) : Nat) : Int),
        (fl.descAt (2 * (f / 2) + 1)).m_return_type, (fl.descAt (2 * (f / 2))).m_return_type,
        (n.kids.map (fun c => L.indexOf c)).map (fun (j : Nat) => some (j : Int)), -1, none⟩ := by
  obtain ⟨h1, _, h3, _⟩ := twin_facts htw hdn hfn
  have hl : lineData fl h L a =
      ((fl.descAt f).m_debug_name.data, n.kids.map (fun c => L.indexOf c)) := by
    unfold lineData
    rw [hn]
    simp only [hf, Int.toNat_ofNat]
  have hs : String.mk (fl.descAt f).m_debug_name.data = (fl.descAt f).m_debug_name := rfl
  rw [hl]
  unfold entryOf
  simp only [hs, h1, Int.toNat_ofNat, h3]

/-- The lines of the nodes of a well-formed tree can be read back. -/
theorem lines_ok {fl : GPFunctionLookup} (hwf : fl.WF) (htw : fl.Twinned)
    (hdn : fl.DistinctNames) (htok : fl.TokenNames) {h : Heap} {t : Subtree} {par : Option Nat}
    {ty : Int} (ht : IsTree h par t) (hw : WellTyped fl ty t)
    (hmax : (t.levelOrder.length : Int) ≤ INT_MAX) :
    ∀ l ∈ t.levelOrder.map (lineData fl h t.levelOrder),
      l.1 ≠ [] ∧ (∀ x ∈ l.1, isSpace x = false ∧ x.toNat ≠ 0) ∧
        (∀ j ∈ l.2, (j : Int) ≤ INT_MAX) ∧
        ∃ k o : Nat, fl.GetFunctionIDByName (String.mk l.1) true = (k : Int) ∧
          k < fl.m_nFuncs ∧ (fl.descAt k).m_nparams = l.2.length ∧
          (fl.descAt k).m_original_function_id = (o : Int) ∧ o < fl.m_nFuncs := by
  intro l hl
  obtain ⟨a, ha, rfl⟩ := List.mem_map.mp hl
  have haddr : a ∈ t.addrs := mem_levelOrder.mp ha
  obtain ⟨n, hn⟩ : ∃ n, h[a]? = some n := by
    obtain ⟨_, _, _, _, _, hc⟩ := Rep.cell ht.1 haddr
    exact ⟨_, hc⟩
  obtain ⟨f, hf, hfn, hkl, _, hslots, _⟩ := slot_facts hwf ht hw haddr hn
  obtain ⟨h1, h2, h3, h4, _⟩ := twin_facts htw hdn hfn
  have hline : lineData fl h t.levelOrder a =
      ((fl.descAt f).m_debug_name.data, n.kids.map (fun c => t.levelOrder.indexOf c)) := by
    unfold lineData
    rw [hn]
    simp only [hf, Int.toNat_ofNat]
  obtain ⟨t1, t2⟩ := htok _ (descAt_mem hfn)
  rw [hline]
  refine ⟨t1, t2, ?_, 2 * (f / 2), 2 * (f / 2) + 1, h1, by omega, ?_, h3, h2⟩
  · intro j hj
    obtain ⟨c, hc, rfl⟩ := List.mem_map.mp hj
    obtain ⟨q, hq, hqc⟩ := List.getElem_of_mem hc
    rw [hkl] at hq
    obtain ⟨c1, _, _, _, hk1, hcm, _⟩ := hslots q hq
    have hcc : c1 = c := by
      rw [List.getElem?_eq_getElem (by rw [hkl]; exact hq), hqc] at hk1
      exact (Option.some.inj hk1).symm
    subst hcc
    have := List.indexOf_lt_length.mpr (mem_levelOrder.mpr hcm)
    omega
  · rw [h4, List.length_map, hkl]

/-! ## The linking of one parameter -/

/-- The state of the linking after one more parameter. -/
theorem LinkInv_step {h : Heap} {L : List Nat} (hnd : L.Nodup) {k q j0 a c : Nat}
    {n nc : GPTreeNode} {g g3 : Heap} (hk : L[k]? = some a) (hn : h[a]? = some n)
    (hc : n.parameters q = some c) (hj0 : L[j0]? = some c) (hjk : j0 ≠ k)
    (hnc : h[c]? = some nc) (hpar : nc.parent = some a) (inv : LinkInv h L k q g)
    (hlen : g3.length = g.length)
    (hframe : ∀ z, z ≠ h.length + j0 → z ≠ h.length + k → g3[z]? = g[z]?)
    {nx nx1 ny ny1 : GPTreeNode} (hx : g[h.length + j0]? = some nx)
    (hx1 : g3[h.length + j0]? = some nx1) (hxf : nx1.functionID = nc.functionID)
    (hxp : nx1.parent = some (h.length + k)) (hxs : ∀ s, nx1.parameters s = nx.parameters s)
    (hy : g[h.length + k]? = some ny) (hy1 : g3[h.length + k]? = some ny1)
    (hyf : ny1.functionID = ny.functionID) (hyp : ny1.parent = ny.parent)
    (hys : ∀ s, ny1.parameters s = if s = q then some (h.length + j0) else ny.parameters s) :
    LinkInv h L k (q + 1) g3 := by
  have hlk := fun x => Linked_succ (x := x) hk hn hc
  have hidx : ∀ {j x : Nat}, L[j]? = some x → L.indexOf x = j := fun e =>
    indexOf_of_getElem? hnd e
  have hinj : ∀ {i j x : Nat}, L[i]? = some x → L[j]? = some x → i = j := by
    intro i j x hi hj
    rw [← hidx hi, ← hidx hj]
  refine ⟨by rw [hlen]; exact inv.len, ?_, ?_⟩
  · intro x hx0
    rw [hframe x (by omega) (by omega)]
    exact inv.old x hx0
  · intro j a1 n1 hj hn1
    obtain ⟨cur, hcur, hpr, hl, hnl⟩ := inv.cells j a1 n1 hj hn1
    by_cases e0 : j = j0
    · subst e0
      rw [hj0] at hj
      simp only [Option.some.injEq] at hj
      subst hj
      rw [hnc] at hn1
      simp only [Option.some.injEq] at hn1
      subst hn1
      rw [hx] at hcur
      simp only [Option.some.injEq] at hcur
      subst hcur
      refine ⟨nx1, hx1, ?_, ?_, ?_⟩
      · intro p
        rw [hxs p, hpr p]
        have : Done k (q + 1) j p ↔ Done k q j p := by
          rw [Done_succ]
          constructor
          · rintro (hd | ⟨e, _⟩)
            · exact hd
            · exact absurd e hjk
          · exact Or.inl
        simp only [this]
      · intro _
        refine ⟨hxf, ?_⟩
        rw [hxp, hpar]
        simp only [Option.map_some', newAddr, hidx hk]
      · intro hnot
        exact absurd ((hlk c).mpr (Or.inr rfl)) hnot
    · by_cases e1 : j = k
      · subst e1
        rw [hk] at hj
        simp only [Option.some.injEq] at hj
        subst hj
        rw [hn] at hn1
        simp only [Option.some.injEq] at hn1
        subst hn1
        rw [hy] at hcur
        simp only [Option.some.injEq] at hcur
        subst hcur
        have hac : a ≠ c := fun e => hjk (hinj hj0 (e ▸ hk))
        have hla : Linked h L j (q + 1) a ↔ Linked h L j q a := by
          rw [hlk a]
          constructor
          · rintro (hd | e)
            · exact hd
            · exact absurd e hac
          · exact Or.inl
        refine ⟨ny1, hy1, ?_, ?_, ?_⟩
        · intro p
          rw [hys p]
          by_cases hpq : p = q
          · subst hpq
            rw [if_pos rfl, if_pos (Done_succ.mpr (Or.inr ⟨rfl, rfl⟩)), hc]
            simp only [Option.map_some', newAddr, hidx hj0]
          · rw [if_neg hpq, hpr p]
            have : Done j (q + 1) j p ↔ Done j q j p := by
              rw [Done_succ]
              constructor
              · rintro (hd | ⟨_, e⟩)
                · exact hd
                · exact absurd e hpq
              · exact Or.inl
            simp only [this]
        · intro hlq
          rw [hyf, hyp]
          exact hl (hla.mp hlq)
        · intro hlq
          rw [hyf, hyp]
          exact hnl (fun hc1 => hlq (hla.mpr hc1))
      · have hac : a1 ≠ c := fun e => e0 (hinj (e ▸ hj) hj0)
        have hla : Linked h L k (q + 1) a1 ↔ Linked h L k q a1 := by
          rw [hlk a1]
          constructor
          · rintro (hd | e)
            · exact hd
            · exact absurd e hac
          · exact Or.inl
        refine ⟨cur, ?_, ?_, ?_, ?_⟩
        · rw [hframe _ (by omega) (by omega)]
          exact hcur
        · intro p
          rw [hpr p]
          have : Done k (q + 1) j p ↔ Done k q j p := by
            rw [Done_succ]
            constructor
            · rintro (hd | ⟨e, _⟩)
              · exact hd
              · exact absurd e e1
            · exact Or.inl
          simp only [this]
        · intro hlq
          exact hl (hla.mp hlq)
        · intro hlq
          exact hnl (fun hc1 => hlq (hla.mpr hc1))

end GP

namespace GP

/-! ## The linking loops of `DeserializeTree` -/

theorem placedFrom_length (fl : GPFunctionLookup) :
    ∀ (lines : List (List Char × List Nat)) (b i : Nat),
      (placedFrom fl b i lines).length = lines.length := by
  intro lines
  induction lines with
  | nil => intro b i; rfl
  | cons l0 lines ih =>
    intro b i
    rw [placedFrom, List.length_cons, List.length_cons, ih]

/-- One round of the inner loop of the linking, for parameter `q` of the entry of
the node at index `k`: the node of the child at index `j0` is linked below the
node of the entry. -/
theorem linkParams_step {fl : GPFunctionLookup} (hwf : fl.WF) (htw : fl.Twinned)
    (hdn : fl.DistinctNames) {h : Heap} {t : Subtree} {par : Option Nat} {ty : Int}
    (ht : IsTree h par t) (hw : WellTyped fl ty t) {k a f : Nat} {n : GPTreeNode}
    (hk : t.levelOrder[k]? = some a) (hn : h[a]? = some n) (hf : n.functionID = (f : Int))
    {q : Nat} (hq : q < (fl.descAt f).m_nparams) (r : Nat) {cur : IntermediateNodes} {g : Heap}
    (hcur : cur.map (fun e => (e.1, e.2.static)) =
      placedFrom fl h.length 0 (t.levelOrder.map (lineData fl h t.levelOrder)))
    (inv : LinkInv h t.levelOrder k q g) :
    ∃ (j0 : Nat) (g3 : Heap), k < j0 ∧
      linkParams (fl.descAt (2 * (f / 2) + 1)) (k : Int)
          { entryOf fl (lineData fl h t.levelOrder a).1 (lineData fl h t.levelOrder a).2 with
            finalNode := some (h.length + k) } (r + 1) q cur g =
        linkParams (fl.descAt (2 * (f / 2) + 1)) (k : Int)
          { entryOf fl (lineData fl h t.levelOrder a).1 (lineData fl h t.levelOrder a).2 with
            finalNode := some (h.length + k) } r (q + 1)
          (setReferencedBy cur (j0 : Int) (k : Int)) g3 ∧
      LinkInv h t.levelOrder k (q + 1) g3 := by
  have hnd := Subtree.levelOrder_nodup ht.2
  have haddr : a ∈ t.addrs := mem_levelOrder.mp (List.getElem?_mem hk)
  obtain ⟨f1, hf1, hfn, hkl, hn3, hslots, _⟩ := slot_facts hwf ht hw haddr hn
  have hff : f = f1 := by rw [hf] at hf1; exact_mod_cast hf1
  subst hff
  obtain ⟨c, gc, nc, hpc, hkc, hcm, hnc, hpar, hgc, hgn, hrt⟩ := hslots q hq
  obtain ⟨j0, hkj, hj0⟩ := kids_behind ht hk hn c (List.getElem?_mem hkc)
  have hidx : t.levelOrder.indexOf c = j0 := indexOf_of_getElem? hnd hj0
  obtain ⟨_, _, _, _, _, hpt, _⟩ := twin_facts htw hdn hfn
  obtain ⟨_, _, _, _, _, _, hne⟩ := twin_facts htw hdn hgn
  have hek := entry_facts htw hdn t.levelOrder hn hf hfn
  have hec := entry_facts htw hdn t.levelOrder hnc hgc hgn
  have hfind := mapFind_placedFrom fl (t.levelOrder.map (lineData fl h t.levelOrder)) h.length 0
    j0 (lineData fl h t.levelOrder c) (by rw [List.getElem?_map, hj0]; rfl)
  rw [Nat.zero_add] at hfind
  obtain ⟨e, hfe, hes⟩ := mapFind_static hcur hfind
  rw [hec] at hes
  have he1 : e.finalNode = some (h.length + j0) := by
    have := congrArg IntermediateNode.finalNode hes
    exact this
  have he2 : e.originalReturnType = (fl.descAt (2 * (gc / 2) + 1)).m_return_type := by
    have := congrArg IntermediateNode.originalReturnType hes
    exact this
  have he3 : e.delayedReturnType = (fl.descAt (2 * (gc / 2))).m_return_type := by
    have := congrArg IntermediateNode.delayedReturnType hes
    exact this
  have he4 : e.delayedID = ((2 * (gc / 2) : Nat) : Int) := by
    have := congrArg IntermediateNode.delayedID hes
    exact this
  have hreq : (fl.descAt (2 * (f / 2) + 1)).paramType q = (fl.descAt gc).m_return_type := by
    unfold GPFunctionDesc.paramType
    rw [hpt, hrt]
    rfl
  obtain ⟨nx, hx, _, hxl, hxn⟩ := inv.cells j0 c nc hj0 hnc
  obtain ⟨ny, hy, _, _, _⟩ := inv.cells k a n hk hn
  have hcases : gc = 2 * (gc / 2) ∨ gc = 2 * (gc / 2) + 1 := by omega
  obtain ⟨sw, hsw, hswf⟩ : ∃ sw : Option Int,
      (if e.originalReturnType ≠ (fl.descAt (2 * (f / 2) + 1)).paramType q then
        if e.delayedReturnType = (fl.descAt (2 * (f / 2) + 1)).paramType q then
          setFunctionID g (h.length + j0) e.delayedID
        else none
      else some g) =
      (sw.map (setFunctionID g (h.length + j0))).getD (some g) ∧
      sw.getD nx.functionID = nc.functionID := by
    rw [he2, he3, he4, hreq]
    by_cases hd : (fl.descAt (2 * (gc / 2) + 1)).m_return_type = (fl.descAt gc).m_return_type
    · refine ⟨none, by rw [if_neg (not_not.mpr hd)]; rfl, ?_⟩
      have hodd : gc = 2 * (gc / 2) + 1 := by
        rcases hcases with e0 | e0
        · exact absurd (hd.trans (congrArg (fun x => (fl.descAt x).m_return_type) e0)) hne
        · exact e0
      have horig : origID nc.functionID = nc.functionID := by
        rw [hgc, origID_natCast]
        exact_mod_cast hodd.symm
      by_cases hlc : Linked h t.levelOrder k q c
      · exact (hxl hlc).1
      · rw [← horig]; exact (hxn hlc).1
    · have heven : gc = 2 * (gc / 2) := by
        rcases hcases with e0 | e0
        · exact e0
        · exact absurd (congrArg (fun x => (fl.descAt x).m_return_type) e0.symm) hd
      refine ⟨some ((2 * (gc / 2) : Nat) : Int), ?_, ?_⟩
      · rw [if_pos hd,
          if_pos (congrArg (fun x => (fl.descAt x).m_return_type) heven.symm)]
        rfl
      · rw [hgc]
        simp only [Option.getD_some]
        exact_mod_cast heven.symm
  obtain ⟨g1, g2, g3, nx1, ny1, e1, e2, e3, hlen, hframe, hx1, hxf, hxp, hxs, hy1, hyf, hyp,
    hys⟩ := link_round (show h.length + j0 ≠ h.length + k by omega) hx hy (show q < 3 by omega) sw
  refine ⟨j0, g3, hkj, ?_, ?_⟩
  · have hparams : ({ entryOf fl (lineData fl h t.levelOrder a).1
          (lineData fl h t.levelOrder a).2 with
        finalNode := some (h.length + k) } : IntermediateNode).params[q]? =
        some (some (j0 : Int)) := by
      rw [hek]
      simp only [List.getElem?_map, hkc, Option.map_some', hidx]
    rw [linkParams]
    simp only [hparams, hfe, he1]
    rw [hsw, e1]
    simp only [e2, e3]
  · exact LinkInv_step hnd hk hn hpc hj0 (by omega) hnc hpar inv hlen hframe hx hx1
      (by rw [hxf, hswf]) hxp hxs hy hy1 hyf hyp hys

/-- The inner loop of the linking for the entry of the node at index `k`: all
its parameters are linked and the tree is intact. -/
theorem linkParams_spec {fl : GPFunctionLookup} (hwf : fl.WF) (htw : fl.Twinned)
    (hdn : fl.DistinctNames) {h : Heap} {t : Subtree} {par : Option Nat} {ty : Int}
    (ht : IsTree h par t) (hw : WellTyped fl ty t) {k a f : Nat} {n : GPTreeNode}
    (hk : t.levelOrder[k]? = some a) (hn : h[a]? = some n) (hf : n.functionID = (f : Int)) :
    ∀ (r q : Nat) (cur : IntermediateNodes) (g : Heap), q + r = (fl.descAt f).m_nparams →
      cur.map (fun e => (e.1, e.2.static)) =
        placedFrom fl h.length 0 (t.levelOrder.map (lineData fl h t.levelOrder)) →
      (∃ e rest, cur = ((0 : Int), e) :: rest ∧ e.referencedByIndex = -1) →
      LinkInv h t.levelOrder k q g →
      ∃ (cur1 : IntermediateNodes) (g1 : Heap),
        linkParams (fl.descAt (2 * (f / 2) + 1)) (k : Int)
          { entryOf fl (lineData fl h t.levelOrder a).1 (lineData fl h t.levelOrder a).2 with
            finalNode := some (h.length + k) } r q cur g = some (true, cur1, g1) ∧
        cur1.map (fun e => (e.1, e.2.static)) =
          placedFrom fl h.length 0 (t.levelOrder.map (lineData fl h t.levelOrder)) ∧
        (∃ e rest, cur1 = ((0 : Int), e) :: rest ∧ e.referencedByIndex = -1) ∧
        LinkInv h t.levelOrder k (fl.descAt f).m_nparams g1 := by
  intro r
  induction r with
  | zero =>
    intro q cur g hqr hcur hhead inv
    have : q = (fl.descAt f).m_nparams := by omega
    subst this
    exact ⟨cur, g, rfl, hcur, hhead, inv⟩
  | succ r ih =>
    intro q cur g hqr hcur hhead inv
    obtain ⟨j0, g3, hkj, hstep, inv3⟩ :=
      linkParams_step hwf htw hdn ht hw hk hn hf (show q < (fl.descAt f).m_nparams by omega) r
        hcur inv
    obtain ⟨e, rest, hc, hr⟩ := hhead
    obtain ⟨rest1, hrest1⟩ := setReferencedBy_head hc
      (show ((j0 : Nat) : Int) ≠ 0 by omega) (k : Int)
    rw [hstep]
    exact ih (q + 1) _ g3 (by omega) (by rw [setReferencedBy_static]; exact hcur)
      ⟨e, rest1, hrest1, hr⟩ inv3

/-- The outer loop of the linking from the entry of the node at index `k` on:
the tree is intact and all nodes are linked. -/
theorem linkLoop_spec {fl : GPFunctionLookup} (hwf : fl.WF) (htw : fl.Twinned)
    (hdn : fl.DistinctNames) {h : Heap} {t : Subtree} {par : Option Nat} {ty : Int}
    (ht : IsTree h par t) (hw : WellTyped fl ty t) :
    ∀ (d k : Nat) (cur : IntermediateNodes) (g : Heap), k + d = t.levelOrder.length →
      cur.map (fun e => (e.1, e.2.static)) =
        placedFrom fl h.length 0 (t.levelOrder.map (lineData fl h t.levelOrder)) →
      (∃ e rest, cur = ((0 : Int), e) :: rest ∧ e.referencedByIndex = -1) →
      LinkInv h t.levelOrder k 0 g →
      ∃ (cur1 : IntermediateNodes) (g1 : Heap),
        linkLoop fl ((placedFrom fl h.length 0
          (t.levelOrder.map (lineData fl h t.levelOrder))).drop k) cur g =
            some (true, cur1, g1) ∧
        cur1.map (fun e => (e.1, e.2.static)) =
          placedFrom fl h.length 0 (t.levelOrder.map (lineData fl h t.levelOrder)) ∧
        (∃ e rest, cur1 = ((0 : Int), e) :: rest ∧ e.referencedByIndex = -1) ∧
        LinkInv h t.levelOrder t.levelOrder.length 0 g1 := by
  intro d
  induction d with
  | zero =>
    intro k cur g hkd hcur hhead inv
    have hk : k = t.levelOrder.length := by omega
    subst hk
    refine ⟨cur, g, ?_, hcur, hhead, inv⟩
    rw [List.drop_eq_nil_of_le (by rw [placedFrom_length, List.length_map])]
    rfl
  | succ d ih =>
    intro k cur g hkd hcur hhead inv
    have hkl : k < t.levelOrder.length := by omega
    have hk : t.levelOrder[k]? = some t.levelOrder[k] := List.getElem?_eq_getElem hkl
    have haddr : t.levelOrder[k] ∈ t.addrs := mem_levelOrder.mp (List.getElem_mem hkl)
    obtain ⟨n, hn⟩ : ∃ n, h[t.levelOrder[k]]? = some n := by
      obtain ⟨_, _, _, _, _, hc⟩ := Rep.cell ht.1 haddr
      exact ⟨_, hc⟩
    obtain ⟨f, hf, hfn, _, _, _, hempty⟩ := slot_facts hwf ht hw haddr hn
    obtain ⟨_, h2, _, _, h5, _⟩ := twin_facts htw hdn hfn
    have hek := entry_facts htw hdn t.levelOrder hn hf hfn
    have hdrop : (placedFrom fl h.length 0
        (t.levelOrder.map (lineData fl h t.levelOrder))).drop k =
        ((k : Int), { entryOf fl (lineData fl h t.levelOrder t.levelOrder[k]).1
            (lineData fl h t.levelOrder t.levelOrder[k]).2 with
          finalNode := some (h.length + k) }) ::
        (placedFrom fl h.length 0
          (t.levelOrder.map (lineData fl h t.levelOrder))).drop (k + 1) := by
      rw [placedFrom_drop, placedFrom_drop, ← List.map_drop, List.drop_eq_getElem_cons hkl,
        List.map_cons, placedFrom, Nat.zero_add, ← List.map_drop, Nat.zero_add, Nat.add_assoc]
    obtain ⟨cur1, g1, hlp, hcur1, hhead1, inv1⟩ :=
      linkParams_spec hwf htw hdn ht hw hk hn hf (fl.descAt f).m_nparams 0 cur g (by omega)
        hcur hhead inv
    have inv2 := LinkInv_next hk hn hempty inv1
    obtain ⟨cur2, g2, hll, hcur2, hhead2, inv3⟩ := ih (k + 1) cur1 g1 (by omega) hcur1 hhead1 inv2
    refine ⟨cur2, g2, ?_, hcur2, hhead2, inv3⟩
    have hfid : ({ entryOf fl (lineData fl h t.levelOrder t.levelOrder[k]).1
          (lineData fl h t.levelOrder t.levelOrder[k]).2 with
        finalNode := some (h.length + k) } : IntermediateNode).functionID =
        ((2 * (f / 2) + 1 : Nat) : Int) := by
      rw [hek]
    rw [hdrop, linkLoop, hfid, GetFunctionByID_nat fl (lt_of_lt_of_le h2 hwf.1)]
    simp only [h5, hlp]
    exact hll

end GP

namespace GP

/-! ## A tree at other addresses -/

theorem Subtree.mapAddr_root (φ : Nat → Nat) (t : Subtree) :
    (t.mapAddr φ).root = t.root.map φ := by
  cases t <;> rfl

theorem Subtree.mapAddr_addrs (φ : Nat → Nat) : ∀ t : Subtree,
    (t.mapAddr φ).addrs = t.addrs.map φ
  | .null => rfl
  | .node _ _ c0 c1 c2 => by
    simp only [Subtree.mapAddr, Subtree.addrs, Subtree.mapAddr_addrs φ c0,
      Subtree.mapAddr_addrs φ c1, Subtree.mapAddr_addrs φ c2, List.map_cons, List.map_append]

theorem Subtree.mapAddr_size (φ : Nat → Nat) : ∀ t : Subtree, (t.mapAddr φ).size = t.size
  | .null => rfl
  | .node _ _ c0 c1 c2 => by
    simp only [Subtree.mapAddr, Subtree.size, Subtree.mapAddr_size φ c0,
      Subtree.mapAddr_size φ c1, Subtree.mapAddr_size φ c2]

theorem Subtree.mapAddr_height (φ : Nat → Nat) : ∀ t : Subtree,
    (t.mapAddr φ).height = t.height
  | .null => rfl
  | .node _ _ c0 c1 c2 => by
    simp only [Subtree.mapAddr, Subtree.height, Subtree.mapAddr_height φ c0,
      Subtree.mapAddr_height φ c1, Subtree.mapAddr_height φ c2]

theorem Subtree.mapAddr_shape (φ : Nat → Nat) : ∀ t : Subtree, (t.mapAddr φ).shape = t.shape
  | .null => rfl
  | .node _ _ c0 c1 c2 => by
    simp only [Subtree.mapAddr, Subtree.shape, Subtree.mapAddr_shape φ c0,
      Subtree.mapAddr_shape φ c1, Subtree.mapAddr_shape φ c2]

theorem nonNull_mapAddr (φ : Nat → Nat) (Q : List Subtree) :
    nonNull (Q.map (Subtree.mapAddr φ)) = (nonNull Q).map (Subtree.mapAddr φ) := by
  induction Q with
  | nil => rfl
  | cons c Q ih =>
    cases c with
    | null =>
      rw [List.map_cons]
      show nonNull (Subtree.null :: Q.map (Subtree.mapAddr φ)) = _
      rw [nonNull_null_cons, nonNull_null_cons, ih]
    | node a f c0 c1 c2 =>
      rw [List.map_cons]
      show nonNull (Subtree.node (φ a) f (c0.mapAddr φ) (c1.mapAddr φ) (c2.mapAddr φ) ::
        Q.map (Subtree.mapAddr φ)) = _
      rw [nonNull_node_cons, nonNull_node_cons, ih]
      rfl

theorem childrenF_mapAddr (φ : Nat → Nat) (Q : List Subtree) :
    childrenF (Q.map (Subtree.mapAddr φ)) = (childrenF Q).map (Subtree.mapAddr φ) := by
  induction Q with
  | nil => rfl
  | cons c Q ih =>
    cases c with
    | null =>
      rw [List.map_cons]
      show childrenF (Subtree.null :: Q.map (Subtree.mapAddr φ)) = _
      rw [childrenF_null_cons, childrenF_null_cons, ih]
    | node a f c0 c1 c2 =>
      rw [List.map_cons]
      show childrenF (Subtree.node (φ a) f (c0.mapAddr φ) (c1.mapAddr φ) (c2.mapAddr φ) ::
        Q.map (Subtree.mapAddr φ)) = _
      rw [childrenF_node_cons, childrenF_node_cons, ih]
      rfl

theorem loT_mapAddr (φ : Nat → Nat) : ∀ (H : Nat) (Q : List Subtree),
    loT H (Q.map (Subtree.mapAddr φ)) = (loT H Q).map (Subtree.mapAddr φ)
  | 0, _ => rfl
  | H + 1, Q => by
    simp only [loT, nonNull_mapAddr, childrenF_mapAddr, loT_mapAddr φ H, List.map_append]

theorem rootsOf_mapAddr (φ : Nat → Nat) (Q : List Subtree) :
    rootsOf (Q.map (Subtree.mapAddr φ)) = (rootsOf Q).map φ := by
  induction Q with
  | nil => rfl
  | cons c Q ih =>
    cases c with
    | null =>
      rw [List.map_cons]
      simpa [rootsOf, Subtree.mapAddr, Subtree.root] using ih
    | node a f c0 c1 c2 =>
      rw [List.map_cons]
      simpa [rootsOf, Subtree.mapAddr, Subtree.root] using ih

theorem Subtree.levelOrderT_mapAddr (φ : Nat → Nat) (t : Subtree) :
    (t.mapAddr φ).levelOrderT = t.levelOrderT.map (Subtree.mapAddr φ) := by
  have := loT_mapAddr φ t.height [t]
  simpa [Subtree.levelOrderT, Subtree.mapAddr_height] using this

theorem Subtree.levelOrder_mapAddr (φ : Nat → Nat) (t : Subtree) :
    (t.mapAddr φ).levelOrder = t.levelOrder.map φ := by
  rw [Subtree.levelOrder, Subtree.levelOrderT_mapAddr, rootsOf_mapAddr]
  rfl

theorem Subtree.levelOrderIds_mapAddr (φ : Nat → Nat) (t : Subtree) :
    (t.mapAddr φ).levelOrderIds = t.levelOrderIds := by
  rw [← Subtree.levelOrderIds_shape, Subtree.mapAddr_shape, Subtree.levelOrderIds_shape]

/-- A well-formed tree at other addresses is well-formed. -/
theorem WellTyped.mapAddr_typed {fl : GPFunctionLookup} (φ : Nat → Nat) :
    ∀ {t : Subtree} {ty : Int}, WellTyped fl ty t → WellTyped fl ty (t.mapAddr φ) := by
  intro t
  induction t with
  | null => intro _ h; exact absurd h id
  | node a f c0 c1 c2 ih0 ih1 ih2 =>
    intro ty hwt
    obtain ⟨d, hd, h0, h1, hr, h3, w0, w1, w2⟩ := WellTyped.node_iff.mp hwt
    have child : ∀ (c : Subtree) (j : Nat),
        (if j < d.m_nparams then WellTyped fl (d.paramType j) c else c = .null) →
        (∀ {ty : Int}, WellTyped fl ty c → WellTyped fl ty (c.mapAddr φ)) →
        (if j < d.m_nparams then WellTyped fl (d.paramType j) (c.mapAddr φ)
          else c.mapAddr φ = .null) := by
      intro c j hw ih
      by_cases hj : j < d.m_nparams
      · rw [if_pos hj] at hw ⊢
        exact ih hw
      · rw [if_neg hj] at hw ⊢
        rw [hw]; rfl
    simp only [Subtree.mapAddr]
    exact WellTyped.node_iff.mpr ⟨d, hd, h0, h1, hr, h3, child c0 0 w0 ih0,
      child c1 1 w1 ih1, child c2 2 w2 ih2⟩

/-- The new address of the node at index `j` of the array. -/
theorem newAddr_getElem? {L : List Nat} (hnd : L.Nodup) (base : Nat) {j a : Nat}
    (hj : L[j]? = some a) : newAddr base L a = base + j := by
  unfold newAddr
  rw [indexOf_of_getElem? hnd hj]

theorem levelOrder_newAddr {L : List Nat} (hnd : L.Nodup) (base : Nat) :
    L.map (newAddr base L) = List.range' base L.length := by
  apply List.ext_getElem?
  intro i
  rw [List.getElem?_map]
  by_cases hi : i < L.length
  · rw [List.getElem?_eq_getElem hi, List.getElem?_range' _ _ (by simpa using hi)]
    simp only [Option.map_some', Nat.one_mul]
    rw [newAddr_getElem? hnd base (List.getElem?_eq_getElem hi)]
  · rw [List.getElem?_eq_none (by omega), List.getElem?_eq_none (by simp; omega)]
    rfl

/-! ## The heap behind the linking holds the tree that was written -/

/-- The cell of a node behind the linking. -/
theorem linked_cell {h : Heap} {L : List Nat} {g : Heap} (inv : LinkInv h L L.length 0 g)
    {j a : Nat} {n : GPTreeNode} (hj : L[j]? = some a) (hn : h[a]? = some n)
    (hroot : ¬ Linked h L L.length 0 a → origID n.functionID = n.functionID ∧ n.parent = none) :
    g[h.length + j]? = some ⟨n.functionID, n.p0.map (newAddr h.length L),
      n.p1.map (newAddr h.length L), n.p2.map (newAddr h.length L),
      n.parent.map (newAddr h.length L)⟩ := by
  have hjl : j < L.length := (List.getElem?_eq_some.mp hj).1
  obtain ⟨cur, hcur, hpr, hl, hnl⟩ := inv.cells j a n hj hn
  have hd : ∀ p, Done L.length 0 j p := fun p => Or.inl hjl
  have h0 := hpr 0
  have h1 := hpr 1
  have h2 := hpr 2
  rw [if_pos (hd _)] at h0 h1 h2
  have hfp : cur.functionID = n.functionID ∧ cur.parent = n.parent.map (newAddr h.length L) := by
    by_cases hlk : Linked h L L.length 0 a
    · exact hl hlk
    · obtain ⟨e1, e2⟩ := hnl hlk
      obtain ⟨e3, e4⟩ := hroot hlk
      exact ⟨e1.trans e3, by rw [e2, e4]; rfl⟩
  rw [hcur]
  obtain ⟨cf, c0, c1, c2, cp⟩ := cur
  obtain ⟨nf, n0, n1, n2, np⟩ := n
  simp only [GPTreeNode.parameters] at h0 h1 h2
  simp only at hfp
  rw [h0, h1, h2, hfp.1, hfp.2]

/-- Behind the linking the new cells hold the tree that was written, node by
node. -/
theorem Rep_mapAddr {h : Heap} {t : Subtree} {g : Heap}
    (inv : LinkInv h t.levelOrder t.levelOrder.length 0 g) :
    ∀ (s : Subtree) (par : Option Nat), Rep h par s → (∀ x ∈ s.addrs, x ∈ t.levelOrder) →
      (∀ x, s.root = some x → ¬ Linked h t.levelOrder t.levelOrder.length 0 x →
        origID s.fid = s.fid ∧ par = none) →
      Rep g (par.map (newAddr h.length t.levelOrder))
        (s.mapAddr (newAddr h.length t.levelOrder)) := by
  intro s
  induction s with
  | null => intro _ _ _ _; trivial
  | node a f c0 c1 c2 ih0 ih1 ih2 =>
    intro par hr hsub hroot
    obtain ⟨hcell, r0, r1, r2⟩ := hr
    have ha : a ∈ t.levelOrder := hsub a (Subtree.mem_addrs_node.mpr (Or.inl rfl))
    have hidx := List.getElem?_indexOf ha
    have hjl : t.levelOrder.indexOf a < t.levelOrder.length := List.indexOf_lt_length.mpr ha
    have hc := linked_cell inv hidx hcell (hroot a rfl)
    have child : ∀ (c : Subtree) (p : Nat),
        (GPTreeNode.parameters ⟨f, c0.root, c1.root, c2.root, par⟩ p = c.root) →
        (∀ x ∈ c.addrs, x ∈ (Subtree.node a f c0 c1 c2).addrs) → Rep h (some a) c →
        (∀ (par : Option Nat), Rep h par c → (∀ x ∈ c.addrs, x ∈ t.levelOrder) →
          (∀ x, c.root = some x → ¬ Linked h t.levelOrder t.levelOrder.length 0 x →
            origID c.fid = c.fid ∧ par = none) →
          Rep g (par.map (newAddr h.length t.levelOrder))
            (c.mapAddr (newAddr h.length t.levelOrder))) →
        Rep g (some (newAddr h.length t.levelOrder a))
          (c.mapAddr (newAddr h.length t.levelOrder)) := by
      intro c p hp hcs hrc ih
      refine ih (some a) hrc (fun x hx => hsub x (hcs x hx)) ?_
      intro x hx hnot
      exfalso
      apply hnot
      exact ⟨t.levelOrder.indexOf a, p, a, _, Or.inl hjl, hidx, hcell, by rw [hp, hx]⟩
    refine ⟨?_, ?_, ?_, ?_⟩
    · show g[newAddr h.length t.levelOrder a]? = _
      unfold newAddr
      rw [hc]
      simp only [Subtree.mapAddr_root]
      rfl
    · exact child c0 0 rfl
        (fun y hy => Subtree.mem_addrs_node.mpr (Or.inr (Or.inl hy))) r0 ih0
    · exact child c1 1 rfl
        (fun y hy => Subtree.mem_addrs_node.mpr (Or.inr (Or.inr (Or.inl hy)))) r1 ih1
    · exact child c2 2 rfl
        (fun y hy => Subtree.mem_addrs_node.mpr (Or.inr (Or.inr (Or.inr hy)))) r2 ih2

end GP

namespace GP

/-! ## The round trip through the text form -/

theorem linesFrom_length : ∀ (lines : List (List Char × List Nat)) (i : Nat),
    lines.length ≤ (linesFrom i lines).length := by
  intro lines
  induction lines with
  | nil => intro i; simp [linesFrom]
  | cons l lines ih =>
    intro i
    have := ih (i + 1)
    simp only [linesFrom, lineOf, List.length_append, List.length_cons, List.length_nil]
    omega

/-- A function itself, not a delayed twin, has an odd id. -/
theorem origID_of_eager {fl : GPFunctionLookup} (hwf : fl.WF) (htw : fl.Twinned) {f : Nat}
    (hf : f < fl.m_nFuncs)
    (heager : (fl.GetFunctionByID (f : Int)).map (fun d => d.m_original_function_id) =
      some NULLFUNC) : origID (f : Int) = (f : Int) := by
  rw [GetFunctionByID_nat fl (lt_of_lt_of_le hf hwf.1)] at heager
  simp only [Option.map_some', Option.some.injEq] at heager
  have h := htw f hf
  rw [origID_natCast]
  by_cases he : f % 2 = 0
  · rw [if_pos he, heager] at h
    unfold NULLFUNC at h
    omega
  · congr 1
    omega

/-- `DeserializeTree` on the lines of a well-formed tree: the tree is built again
in new cells, one for each node, in breadth-first order. -/
theorem DeserializeTree_of_lines {fl : GPFunctionLookup} (hwf : fl.WF) (htw : fl.Twinned)
    (hdn : fl.DistinctNames) (htok : fl.TokenNames) {h : Heap} {t : Subtree} {ty : Int}
    (ht : IsTree h none t) (hw : WellTyped fl ty t)
    (heager : (fl.GetFunctionByID t.fid).map (fun d => d.m_original_function_id) =
      some NULLFUNC)
    (hmax : (t.levelOrder.length : Int) ≤ INT_MAX) :
    ∃ g : Heap,
      DeserializeTree fl h (linesFrom 0 (t.levelOrder.map (lineData fl h t.levelOrder))) =
        some (true, some ⟨(t.size : Int), (t.size : Int), some h.length⟩, g) ∧
      IsTree g none (t.mapAddr (newAddr h.length t.levelOrder)) ∧
      (∀ x, x < h.length → g[x]? = h[x]?) := by
  have hnd := Subtree.levelOrder_nodup ht.2
  obtain ⟨r, f, c0, c1, c2, rfl⟩ : ∃ r f c0 c1 c2, t = .node r f c0 c1 c2 := by
    cases t with
    | null => exact absurd hw id
    | node r f c0 c1 c2 => exact ⟨r, f, c0, c1, c2, rfl⟩
  generalize htdef : Subtree.node r f c0 c1 c2 = t at *
  have hroot : t.root = some r := by rw [← htdef]; rfl
  have hfid : t.fid = f := by rw [← htdef]; rfl
  have hL0 : t.levelOrder[0]? = some r := Subtree.levelOrder_zero hroot
  have hlen : 0 < t.levelOrder.length := (List.getElem?_eq_some.mp hL0).1
  have hcellr : h[r]? = some ⟨f, c0.root, c1.root, c2.root, none⟩ := by
    have := ht.1
    rw [← htdef] at this
    exact this.1
  obtain ⟨fr, hfr, hfrn, _⟩ := slot_facts hwf ht hw (mem_levelOrder.mp (List.getElem?_mem hL0))
    hcellr
  -- the loop that reads the lines
  have hread := readLoop_lines hwf (t.levelOrder.map (lineData fl h t.levelOrder)) 0 [] []
    ((linesFrom 0 (t.levelOrder.map (lineData fl h t.levelOrder))).length + 2)
    (by intro x hx; simp at hx) (by intro e he; simp at he)
    (lines_ok hwf htw hdn htok ht hw hmax)
    (by rw [List.length_map, Nat.zero_add]; omega)
    (by have := linesFrom_length (t.levelOrder.map (lineData fl h t.levelOrder)) 0; omega)
  rw [List.nil_append, List.nil_append] at hread
  -- the placeholders
  have hplace := placeholderLoop_entries fl (t.levelOrder.map (lineData fl h t.levelOrder)) 0 h
  -- the linking
  have hinit : LinkInv h t.levelOrder 0 0 (h ++ (t.levelOrder.map
      (lineData fl h t.levelOrder)).map
        (fun l => GPTreeNode.mk0 (entryOf fl l.1 l.2).functionID)) := by
    apply LinkInv_init
    intro a n ha hn
    obtain ⟨fa, hfa, hfan, _⟩ := slot_facts hwf ht hw (mem_levelOrder.mp ha) hn
    rw [entry_facts htw hdn t.levelOrder hn hfa hfan, hfa, origID_natCast]
  have hhead : ∃ e rest, placedFrom fl h.length 0
      (t.levelOrder.map (lineData fl h t.levelOrder)) = ((0 : Int), e) :: rest ∧
      e.referencedByIndex = -1 ∧ e.finalNode = some h.length := by
    obtain ⟨a0, rest0, hL⟩ := List.exists_cons_of_ne_nil (List.ne_nil_of_length_pos hlen)
    rw [hL, List.map_cons, placedFrom]
    exact ⟨_, _, rfl, rfl, rfl⟩
  obtain ⟨e0, rest0, hp0, he0r, he0f⟩ := hhead
  obtain ⟨cur1, g, hlink, hcur1, ⟨e1, rest1, hc1, he1r⟩, inv⟩ :=
    linkLoop_spec hwf htw hdn ht hw t.levelOrder.length 0
      (placedFrom fl h.length 0 (t.levelOrder.map (lineData fl h t.levelOrder)))
      (h ++ (t.levelOrder.map (lineData fl h t.levelOrder)).map
        (fun l => GPTreeNode.mk0 (entryOf fl l.1 l.2).functionID))
      (by omega) (placedFrom_static fl _ _ _) ⟨e0, rest0, hp0, he0r⟩ hinit
  rw [List.drop_zero] at hlink
  have he1f : e1.finalNode = some h.length := by
    rw [hc1, hp0, List.map_cons] at hcur1
    have := (List.cons.inj hcur1).1
    have h2 : e1.static = e0 := (Prod.mk.inj this).2
    rw [← he0f, ← h2]
    rfl
  have hfind : findUnreferenced cur1 = some e1 := by
    rw [hc1, findUnreferenced, if_pos he1r]
  -- the tree in the new cells
  have hrep : Rep g none (t.mapAddr (newAddr h.length t.levelOrder)) := by
    have := Rep_mapAddr inv t none ht.1 (fun x hx => mem_levelOrder.mpr hx) (by
      intro x hx _
      refine ⟨?_, rfl⟩
      rw [hfid]
      rw [hfid] at heager
      have e : f = (fr : Int) := hfr
      rw [e] at heager ⊢
      exact origID_of_eager hwf htw hfrn heager)
    exact this
  have hinj : ∀ x ∈ t.addrs, ∀ y ∈ t.addrs,
      newAddr h.length t.levelOrder x = newAddr h.length t.levelOrder y → x = y := by
    intro x hx y hy hxy
    have h1 := List.getElem?_indexOf (mem_levelOrder.mpr hx)
    have h2 := List.getElem?_indexOf (mem_levelOrder.mpr hy)
    unfold newAddr at hxy
    have h3 : t.levelOrder.indexOf x = t.levelOrder.indexOf y := by omega
    rw [h3, h2] at h1
    exact (Option.some.inj h1).symm
  have htree : IsTree g none (t.mapAddr (newAddr h.length t.levelOrder)) := by
    refine ⟨hrep, ?_⟩
    rw [Subtree.mapAddr_addrs]
    exact List.Nodup.map_on hinj ht.2
  have hroot1 : (t.mapAddr (newAddr h.length t.levelOrder)).root = some h.length := by
    rw [Subtree.mapAddr_root, hroot]
    simp only [Option.map_some']
    rw [newAddr_getElem? hnd h.length hL0, Nat.add_zero]
  have hcount := CountSubtree_of_isTree htree hroot1
  rw [Subtree.mapAddr_size] at hcount
  refine ⟨g, ?_, htree, inv.old⟩
  unfold DeserializeTree
  simp only [hread, hplace, hlink, hfind, he1f, hcount]
  rw [Replace_null_eq hcount, if_neg (by simp [GPTree.MaxNodes, GPTree.new])]
  rfl

/-- The registry after a call of `RegisterFunction` still has its descriptors in
pairs. -/
theorem Twinned_RegisterFunction {fl : GPFunctionLookup} (htw : fl.Twinned) (name : String)
    (return_type delayed_return_type : Int) (param_types : List Int)
    (hne : return_type ≠ delayed_return_type) :
    (fl.RegisterFunction name return_type delayed_return_type param_types).1.Twinned := by
  have heven : fl.m_nFuncs % 2 = 0 := by
    by_contra hodd
    have hpos : fl.m_nFuncs - 1 < fl.m_nFuncs := by omega
    have := htw (fl.m_nFuncs - 1) hpos
    rw [if_pos (by omega)] at this
    omega
  have hlen : (fl.RegisterFunction name return_type delayed_return_type
      param_types).1.m_nFuncs = fl.m_nFuncs + 2 := by
    simp [GPFunctionLookup.RegisterFunction, GPFunctionLookup.m_nFuncs]
  have hold : ∀ k, k < fl.m_nFuncs → (fl.RegisterFunction name return_type delayed_return_type
      param_types).1.descAt k = fl.descAt k := by
    intro k hk
    unfold GPFunctionLookup.descAt GPFunctionLookup.RegisterFunction
    exact List.getD_append _ _ _ _ hk
  have hnew0 : (fl.RegisterFunction name return_type delayed_return_type
      param_types).1.descAt fl.m_nFuncs =
      ⟨param_types.length, delayed_return_type, param_types, (fl.m_nFuncs : Int) + 1,
        storedName name⟩ := by
    unfold GPFunctionLookup.descAt GPFunctionLookup.RegisterFunction
    simp only
    rw [List.getD_append_right _ _ _ _ (show fl.m_functions.length ≤ fl.m_nFuncs from le_refl _)]
    simp [GPFunctionLookup.m_nFuncs]
  have hnew1 : (fl.RegisterFunction name return_type delayed_return_type
      param_types).1.descAt (fl.m_nFuncs + 1) =
      ⟨param_types.length, return_type, param_types, -1, storedName name⟩ := by
    unfold GPFunctionLookup.descAt GPFunctionLookup.RegisterFunction
    simp only
    rw [List.getD_append_right _ _ _ _ (by
      show fl.m_functions.length ≤ fl.m_nFuncs + 1
      unfold GPFunctionLookup.m_nFuncs; omega)]
    simp [GPFunctionLookup.m_nFuncs]
  intro k hk
  rw [hlen] at hk ⊢
  by_cases hko : k < fl.m_nFuncs
  · have := htw k hko
    by_cases he : k % 2 = 0
    · rw [if_pos he] at this ⊢
      obtain ⟨h1, h2, h3, h4, h5, h6⟩ := this
      rw [hold k hko, hold (k + 1) h1]
      exact ⟨by omega, h2, h3, h4, h5, h6⟩
    · rw [if_neg he] at this ⊢
      rw [hold k hko]
      exact this
  · by_cases hk0 : k = fl.m_nFuncs
    · subst hk0
      rw [if_pos heven, hnew0, hnew1]
      exact ⟨by omega, rfl, rfl, rfl, rfl, hne⟩
    · have hk1 : k = fl.m_nFuncs + 1 := by omega
      subst hk1
      rw [if_neg (by omega), hnew1]
      rfl

/-- C33 (counterexample): the round trip fails for a registered name with a
space, for the empty name and for a name of more than 31 characters.  In the
registry with the single function `Big Two` the tree of one node is written as
`0 Big Two`, and `DeserializeTree` looks up the name `Big` and returns false.
In the registry with `Add` and a function with the empty name the tree
`Add( "", "" )` is written with the lines `1 ` and `2 `, and `DeserializeTree`
reads `2` as the name of node 1 and returns false.  In the registry with a
function registered with a name of 34 characters the descriptor holds the first
32 of them without a terminating null character, and `SerializeTree` reads past
the array `m_debug_name` when it writes the name: it has no result.  In all
three registries no name is registered twice, the tree is well-typed and its
root is a node of the function itself; each registry breaks only one of the
three conditions on the names. -/
theorem SerializeTree_DeserializeTree_name_not_token :
    (spaceRegistry.WF ∧ spaceRegistry.Twinned ∧ spaceRegistry.DistinctNames ∧
      spaceRegistry.TerminatedNames ∧
      TreeInv spaceHeap spaceGPTree spaceTree ∧ WellTyped spaceRegistry 1 spaceTree ∧
      (spaceRegistry.GetFunctionByID spaceTree.fid).map (fun d => d.m_original_function_id) =
        some NULLFUNC ∧
      SerializeTree spaceRegistry spaceHeap spaceGPTree [] = some "0 Big Two\n".data ∧
      DeserializeTree spaceRegistry spaceHeap "0 Big Two\n".data =
        some (false, none, spaceHeap)) ∧
    (namelessRegistry.WF ∧ namelessRegistry.Twinned ∧ namelessRegistry.DistinctNames ∧
      namelessRegistry.TerminatedNames ∧
      TreeInv namelessHeap namelessGPTree namelessTree ∧
      WellTyped namelessRegistry 1 namelessTree ∧
      (namelessRegistry.GetFunctionByID namelessTree.fid).map
        (fun d => d.m_original_function_id) = some NULLFUNC ∧
      SerializeTree namelessRegistry namelessHeap namelessGPTree [] =
        some "0 Add 1 2\n1 \n2 \n".data ∧
      DeserializeTree namelessRegistry namelessHeap "0 Add 1 2\n1 \n2 \n".data =
        some (false, none, namelessHeap)) ∧
    (longRegistry.WF ∧ longRegistry.Twinned ∧ longRegistry.DistinctNames ∧
      longRegistry.TokenNames ∧
      TreeInv spaceHeap spaceGPTree spaceTree ∧ WellTyped longRegistry 1 spaceTree ∧
      (longRegistry.GetFunctionByID spaceTree.fid).map (fun d => d.m_original_function_id) =
        some NULLFUNC ∧
      (longRegistry.GetFunctionByID spaceTree.fid).map (fun d => d.m_debug_name) =
        some "ABCDEFGHIJKLMNOPQRSTUVWXYZabcdef" ∧
      "ABCDEFGHIJKLMNOPQRSTUVWXYZabcdef".length = GP_DEBUGNAME_LEN ∧
      SerializeTree longRegistry spaceHeap spaceGPTree [] = none) := by
  repeat' apply And.intro
  all_goals decide

/-- C33 (amended): the round trip through the text form, for a registry whose
descriptors are the pairs that `RegisterFunction` stores, without a name that
was registered twice, and whose names are not empty, have no white space and
are shorter than `GP_DEBUGNAME_LEN`, so that they are stored whole and
terminated.
For a tree object that owns a well-typed tree whose root is a node of a function
itself, with a budget that fits an `int`, `SerializeTree` writes a text, and
`DeserializeTree` on this text returns true with a tree object that owns a tree
in new cells of the heap: a well-typed tree of the same shape with the same
function id at every position, so with the same function ids and the same names
in breadth-first order, and with as many nodes; its nodes are the cells behind
the old heap in breadth-first order, and the old cells are left as they were. -/
theorem SerializeTree_DeserializeTree_round_trip (fl : GPFunctionLookup) (h : Heap) (T : GPTree)
    (t : Subtree) (ty : Int) (hwf : fl.WF) (htw : fl.Twinned) (hdn : fl.DistinctNames)
    (htok : fl.TokenNames) (hterm : fl.TerminatedNames) (hinv : TreeInv h T t)
    (hw : WellTyped fl ty t)
    (heager : (fl.GetFunctionByID t.fid).map (fun d => d.m_original_function_id) =
      some NULLFUNC)
    (hmax : T.MaxNodes ≤ INT_MAX) :
    ∃ (text : List Char) (T1 : GPTree) (h1 : Heap) (t1 : Subtree),
      SerializeTree fl h T [] = some text ∧
      DeserializeTree fl h text = some (true, some T1, h1) ∧
      TreeInv h1 T1 t1 ∧ WellTyped fl ty t1 ∧ t1.shape = t.shape ∧
      t1.levelOrderIds = t.levelOrderIds ∧
      t1.levelOrderIds.map (fun f => (fl.GetFunctionByID f).map (fun d => d.m_debug_name)) =
        t.levelOrderIds.map (fun f => (fl.GetFunctionByID f).map (fun d => d.m_debug_name)) ∧
      T1.Count = T.Count ∧ t1.levelOrder = List.range' h.length t.size ∧
      ∀ x, x < h.length → h1[x]? = h[x]? := by
  have hlen : (t.levelOrder.length : Int) ≤ INT_MAX := by
    have h1 : T.m_count = (t.size : Int) := hinv.2.2.1
    have h2 : T.m_count ≤ T.m_max_nodes := hinv.2.2.2
    have h3 : T.m_max_nodes ≤ INT_MAX := hmax
    rw [t.length_levelOrder]
    omega
  obtain ⟨g, hdes, htree, hold⟩ := DeserializeTree_of_lines hwf htw hdn htok hinv.1 hw heager hlen
  have hser := SerializeTree_spec hwf hterm hinv hw []
  rw [List.nil_append] at hser
  have hnd := Subtree.levelOrder_nodup hinv.1.2
  refine ⟨_, _, g, t.mapAddr (newAddr h.length t.levelOrder), hser, hdes, ?_,
    hw.mapAddr_typed _, Subtree.mapAddr_shape _ t, Subtree.levelOrderIds_mapAddr _ t, ?_, ?_, ?_,
    hold⟩
  · refine ⟨htree, ?_, ?_, le_refl _⟩
    · obtain ⟨a, _, hroot⟩ := hinv.root_some hw
      rw [Subtree.mapAddr_root, hroot]
      simp only [Option.map_some']
      rw [newAddr_getElem? hnd h.length (Subtree.levelOrder_zero hroot), Nat.add_zero]
    · show ((t.size : Int)) = _
      rw [Subtree.mapAddr_size]
  · rw [Subtree.levelOrderIds_mapAddr]
  · show ((t.size : Int)) = T.m_count
    exact hinv.2.2.1.symm
  · rw [Subtree.levelOrder_mapAddr, levelOrder_newAddr hnd, t.length_levelOrder]

/-- The round trip on the tree `IfPositive( Two, Three', Add'( Two, Two ) )`, which
has nodes of delayed twins. -/
theorem SerializeTree_DeserializeTree_round_trip_witness :
    ∃ (text : List Char) (T1 : GPTree) (h1 : Heap) (t1 : Subtree),
      SerializeTree exampleDispatch.toGPFunctionLookup execHeap execLazyGPTree [] = some text ∧
      DeserializeTree exampleDispatch.toGPFunctionLookup execHeap text =
        some (true, some T1, h1) ∧
      TreeInv h1 T1 t1 ∧ WellTyped exampleDispatch.toGPFunctionLookup 1 t1 ∧
      t1.shape = execLazyTree.shape ∧ t1.levelOrderIds = execLazyTree.levelOrderIds ∧
      t1.levelOrderIds.map (fun f => (exampleDispatch.toGPFunctionLookup.GetFunctionByID f).map
          (fun d => d.m_debug_name)) =
        execLazyTree.levelOrderIds.map
          (fun f => (exampleDispatch.toGPFunctionLookup.GetFunctionByID f).map
            (fun d => d.m_debug_name)) ∧
      T1.Count = execLazyGPTree.Count ∧
      t1.levelOrder = List.range' execHeap.length execLazyTree.size ∧
      ∀ x, x < execHeap.length → h1[x]? = execHeap[x]? :=
  SerializeTree_DeserializeTree_round_trip exampleDispatch.toGPFunctionLookup execHeap
    execLazyGPTree execLazyTree 1 (by decide) (by decide) (by decide) (by decide) (by decide)
    (by decide) (by decide) (by decide) (by decide)

/-- C34: `DeserializeTree` on four texts, with the registry of `Add`, `Two` and
`Three`.  A child index without a line (`0 Add 1 2`, `1 Two`) and a name that is
not registered (`Plus`) make it return false without a tree.  Two nodes without
a reference to them (`0 Two`, `1 Three`) make it return true, with a tree object
that owns the first of them.  A cycle (`0 Add 0 0`) lets the loop that reads the
lines and the linking succeed, no entry is left without a reference, and the
`assert( tree != NULL )` at the end fails. -/
theorem DeserializeTree_unreferenced_count :
    DeserializeTree exampleRegistry [] "0 Add 1 2\n1 Two\n".data =
      some (false, none, [⟨1, some 1, none, none, none⟩, ⟨3, none, none, none, some 0⟩]) ∧
    DeserializeTree exampleRegistry [] "0 Plus 1 2\n1 Two\n2 Three\n".data =
      some (false, none, []) ∧
    DeserializeTree exampleRegistry [] "0 Two\n1 Three\n".data =
      some (true, some ⟨1, 1, some 0⟩, [GPTreeNode.mk0 3, GPTreeNode.mk0 5]) ∧
    readLoop exampleRegistry ("0 Add 0 0\n".data.length + 2) ⟨"0 Add 0 0\n".data, false, false⟩
        [] = some (some [(0, ⟨1, 0, 1, 2, [some 0, some 0], -1, none⟩)]) ∧
    placeholderLoop [(0, ⟨1, 0, 1, 2, [some 0, some 0], -1, none⟩)] [] =
      ([(0, ⟨1, 0, 1, 2, [some 0, some 0], -1, some 0⟩)], [GPTreeNode.mk0 1]) ∧
    linkLoop exampleRegistry [(0, ⟨1, 0, 1, 2, [some 0, some 0], -1, some 0⟩)]
        [(0, ⟨1, 0, 1, 2, [some 0, some 0], -1, some 0⟩)] [GPTreeNode.mk0 1] =
      some (true, [(0, ⟨1, 0, 1, 2, [some 0, some 0], 0, some 0⟩)],
        [⟨1, some 0, some 0, none, some 0⟩]) ∧
    findUnreferenced [(0, ⟨1, 0, 1, 2, [some 0, some 0], 0, some 0⟩)] = none ∧
    DeserializeTree exampleRegistry [] "0 Add 0 0\n".data = none := by
  repeat' apply And.intro
  all_goals decide

end GP

namespace GP

/-- C9: `Replace` on the root with a new subtree whose root has a parent link.
In `staleHeap` the tree object owns the proper tree `Add( Two, Three )` at the
cells 0, 1, 2, and the leaf at cell 3 is a proper tree of another cell, the
first child of the node at cell 4.  `Replace( root, leaf )` succeeds: it returns
the old root, the leaf is the new root and the count is 1.  But no cell is
written, so the parent link of the leaf is still the node at cell 4 and not the
former parent link of the root, which is null; the heap does not hold the leaf
as a tree without a parent, and `CalculatePotentialPrunes` on the new root
follows the link and returns 3 for a tree of 1 node.  With the node at cell 1,
which is not the root, as source the same call does make the parent link of the
leaf the former parent link of the source. -/
theorem Replace_root_keeps_parent_link :
    TreeInv staleHeap exGPTree exTree ∧ IsTree staleHeap (some 4) staleLeaf ∧
    (∀ y ∈ staleLeaf.addrs, y ∉ exTree.addrs) ∧
    exGPTree.Replace staleHeap (some 0) 3 = some (some 0, ⟨3, 1, some 3⟩, staleHeap) ∧
    parentOf staleHeap 0 = none ∧ parentOf staleHeap 3 = some 4 ∧
    ¬ IsTree staleHeap none staleLeaf ∧
    CalculatePotentialPrunes staleHeap 3 = some 3 ∧
    (exGPTree.Replace staleHeap (some 1) 3).map (fun r => (r.1, parentOf r.2.2 3)) =
      some (some 1, some 0) ∧
    parentOf staleHeap 1 = some 0 := by
  repeat' apply And.intro
  all_goals decide

end GP
